import Mathlib

/-!
# The MyISAM key cache (`mysys/mf_keycache.c`)

A shallow embedding of the key cache: block descriptors, hash links, the LRU
ring, the per-file clean and dirty chains, the free lists, and the operations
`find_key_block`, `read_block`, `key_cache_read`, `key_cache_write`,
`free_block`, `flush_cached_blocks`, `flush_key_blocks_int` and
`flush_key_blocks`.

## Representation

* The block table `block_root` and the hash link table `hash_link_root` are
  functions from the index of an entry to its descriptor; a pointer to an entry
  is its index, a NULL pointer is `none`.
* The status word of a block is a record with one Boolean per `BLOCK_*` bit.
* The intrusive lists are kept as lists of indices.
  `used_ring` is the LRU ring read along `next_used`, starting at
  `used_last->next_used` (the next eviction victim) and ending at `used_last`;
  `used_ins` is the second pointer into the ring.
  `changed_blocks i` and `file_blocks i` are the dirty and the clean chain of
  bucket `i`, head first; `hash_root i` is the chain of hash bucket `i`, head
  first; `free_block_list` and `free_hash_list` are the two free stacks, top
  first.
* The execution is the one of a single thread with every wait queue empty:
  `release_whole_queue` finds nobody to wake, and the hand-over branches of
  `link_block` and `unlink_hash`, which need a parked thread, are not taken.
  A call that reaches `wait_on_queue` or a condition wait is never woken; it,
  and a call that would follow a NULL pointer, does not return.  Both are the
  result `none`.
* `DBUG_ASSERT`s are compiled out (`DBUG_OFF`).
* Bytes are natural numbers; a buffer is a function from the offset to the byte.
* `my_pread` and `my_pwrite` act on one store of files (`DISK`), which records
  the calls; two oracles indexed by the call number let a call fail.
-/

namespace KeyCache

/-! ## Status word, temperature, descriptors -/

/-- The status word of a block, one field per `BLOCK_*` bit. -/
structure STATUS where
  error : Bool := false
  read : Bool := false
  in_switch : Bool := false
  reassigned : Bool := false
  in_flush : Bool := false
  changed : Bool := false
  in_use : Bool := false
  in_eviction : Bool := false
  in_flushwrite : Bool := false
  for_update : Bool := false
deriving DecidableEq, Repr

/-- The numeric value of a status word, with the bit values of the source. -/
def STATUS.toNat (s : STATUS) : Nat :=
  (if s.error then 1 else 0) + (if s.read then 2 else 0) +
  (if s.in_switch then 4 else 0) + (if s.reassigned then 8 else 0) +
  (if s.in_flush then 16 else 0) + (if s.changed then 32 else 0) +
  (if s.in_use then 64 else 0) + (if s.in_eviction then 128 else 0) +
  (if s.in_flushwrite then 256 else 0) + (if s.for_update then 512 else 0)

/-- Status `BLOCK_IN_USE` alone. -/
def BLOCK_IN_USE : STATUS := { in_use := true }

/-- Status `BLOCK_ERROR` alone. -/
def BLOCK_ERROR : STATUS := { error := true }

/-- Page status returned by `find_key_block`. -/
inductive PAGE_STATUS where
  | PAGE_READ
  | PAGE_TO_BE_READ
  | PAGE_WAIT_TO_BE_READ
deriving DecidableEq, Repr

/-- Block temperature. -/
inductive BLOCK_TEMPERATURE where
  | BLOCK_COLD
  | BLOCK_WARM
  | BLOCK_HOT
deriving DecidableEq, Repr

/-- Flush types (`enum flush_type`). -/
inductive flush_type where
  | FLUSH_KEEP
  | FLUSH_RELEASE
  | FLUSH_IGNORE_CHANGED
  | FLUSH_FORCE_WRITE
deriving DecidableEq, Repr

open PAGE_STATUS BLOCK_TEMPERATURE flush_type

/-- Element in the chain of a hash table bucket (`struct st_hash_link`). -/
structure HASH_LINK where
  block : Option Nat := none
  file : Nat := 0
  diskpos : Nat := 0
  requests : Nat := 0

/-- Key cache block (`struct st_block_link`). -/
structure BLOCK_LINK where
  hash_link : Option Nat := none
  requests : Nat := 0
  buffer : Nat → Nat := fun _ => 0
  offset : Nat := 0
  length : Nat := 0
  status : STATUS := {}
  temperature : BLOCK_TEMPERATURE := BLOCK_COLD
  hits_left : Nat := 0
  last_hit_time : Nat := 0

/-! ## The file store -/

/-- One call of `my_pwrite`: the file, the position, the bytes handed over and
the error the call ended with (`none` when it succeeded). -/
structure PWRITE_CALL where
  file : Nat
  pos : Nat
  data : List Nat
  error : Option Int
deriving DecidableEq, Repr

/-- The files behind the cache and the record of the I/O calls made. -/
structure DISK where
  data : Nat → Nat → Nat := fun _ _ => 0
  size : Nat → Nat := fun _ => 0
  pwrites : List PWRITE_CALL := []
  preads : Nat := 0
  pwrite_errno : Nat → Option Int := fun _ => none
  pread_forced : Nat → Option Nat := fun _ => none

/-- Write `buf` at `pos` of `file`. The call number `pwrites.length` selects the
oracle entry: `some e` makes the call fail with `errno = e` and leaves the file
as it is. The result is the error, `none` on success. -/
def my_pwrite (d : DISK) (file : Nat) (buf : List Nat) (pos : Nat) :
    Option Int × DISK :=
  match d.pwrite_errno d.pwrites.length with
  | some e =>
    (some e, { d with pwrites := d.pwrites ++ [⟨file, pos, buf, some e⟩] })
  | none =>
    (none,
     { d with
       data := fun f p =>
         if f = file ∧ pos ≤ p ∧ p < pos + buf.length then buf.getD (p - pos) 0
         else if f = file ∧ buf.length ≠ 0 ∧ d.size file ≤ p ∧ p < pos then 0
         else d.data f p
       size := fun f =>
         if f = file ∧ buf.length ≠ 0 then max (d.size f) (pos + buf.length)
         else d.size f
       pwrites := d.pwrites ++ [⟨file, pos, buf, none⟩] })

/-- Read up to `count` bytes at `pos` of `file`. The result is the value the
call returns and the number of bytes it delivered; the oracle entry of the
call number `preads`, when present, is returned instead and nothing is
delivered. -/
def my_pread (d : DISK) (file : Nat) (count : Nat) (pos : Nat) :
    Nat × Nat × DISK :=
  match d.pread_forced d.preads with
  | some g => (g, 0, { d with preads := d.preads + 1 })
  | none =>
    (min count (d.size file - pos), min count (d.size file - pos),
     { d with preads := d.preads + 1 })

/-- The buffer after a `my_pread` that delivered `n` bytes from `pos`. -/
def pread_into (d : DISK) (file : Nat) (pos : Nat) (n : Nat) (buf : Nat → Nat) :
    Nat → Nat :=
  fun i => if i < n then d.data file (pos + i) else buf i

/-- Bytes `[off, off + n)` of a buffer. -/
def buffer_bytes (buf : Nat → Nat) (off n : Nat) : List Nat :=
  (List.range n).map (fun i => buf (off + i))

/-- The buffer after `memcpy(buffer + off, src, src.length)`. -/
def buffer_copy (buf : Nat → Nat) (off : Nat) (src : List Nat) : Nat → Nat :=
  fun i => if off ≤ i ∧ i < off + src.length then src.getD (i - off) 0 else buf i

/-! ## The cache -/

/-- Number of buckets of the clean and dirty chains. -/
def CHANGED_BLOCKS_HASH : Nat := 128

/-- Sort this many blocks at once. -/
def FLUSH_CACHE : Nat := 2000

/-- The key cache handle (`KEY_CACHE`) together with the file store. -/
structure KEY_CACHE where
  key_cache_inited : Bool := false
  in_resize : Bool := false
  resize_in_flush : Bool := false
  can_be_used : Bool := false
  key_cache_mem_size : Nat := 0
  key_cache_block_size : Nat := 0
  min_warm_blocks : Nat := 0
  age_threshold : Nat := 0
  keycache_time : Nat := 0
  hash_entries : Nat := 0
  hash_links : Nat := 0
  hash_links_used : Nat := 0
  disk_blocks : Int := 0
  blocks_used : Nat := 0
  blocks_unused : Nat := 0
  blocks_changed : Nat := 0
  warm_blocks : Nat := 0
  cnt_for_resize_op : Nat := 0
  block_root : Nat → BLOCK_LINK := fun _ => {}
  hash_link_root : Nat → HASH_LINK := fun _ => {}
  hash_root : Nat → List Nat := fun _ => []
  free_hash_list : List Nat := []
  free_block_list : List Nat := []
  used_ring : List Nat := []
  used_ins : Option Nat := none
  changed_blocks : Nat → List Nat := fun _ => []
  file_blocks : Nat → List Nat := fun _ => []
  global_blocks_changed : Nat := 0
  global_cache_w_requests : Nat := 0
  global_cache_write : Nat := 0
  global_cache_r_requests : Nat := 0
  global_cache_read : Nat := 0
  my_disable_flush_key_blocks : Bool := false
  disk : DISK := {}

/-- Decrement of a 32 bit unsigned counter. -/
def dec32 (x : Nat) : Nat := (x + 4294967295) % 4294967296

/-- Decrement of a 64 bit unsigned counter. -/
def dec64 (x : Nat) : Nat := (x + 18446744073709551615) % 18446744073709551616

/-- Hash bucket of a page: `KEYCACHE_HASH(f, pos)`. -/
def KEYCACHE_HASH (kc : KEY_CACHE) (f pos : Nat) : Nat :=
  Nat.land (pos / kc.key_cache_block_size + f) (kc.hash_entries - 1)

/-- Bucket of the clean and dirty chains of a file: `FILE_HASH(f)`. -/
def FILE_HASH (f : Nat) : Nat := Nat.land f (CHANGED_BLOCKS_HASH - 1)

/-- Replace the descriptor of block `b`. -/
def set_block (kc : KEY_CACHE) (b : Nat) (v : BLOCK_LINK) : KEY_CACHE :=
  { kc with block_root := Function.update kc.block_root b v }

/-- Replace hash link `h`. -/
def set_hash_link (kc : KEY_CACHE) (h : Nat) (v : HASH_LINK) : KEY_CACHE :=
  { kc with hash_link_root := Function.update kc.hash_link_root h v }

/-- Replace the status word of block `b`. -/
def set_status (kc : KEY_CACHE) (b : Nat) (s : STATUS) : KEY_CACHE :=
  set_block kc b { kc.block_root b with status := s }

/-- The used ring pointer `used_last`: the last block of the ring. -/
def used_last (kc : KEY_CACHE) : Option Nat := kc.used_ring.getLast?

/-! ## Chains of dirty and clean blocks -/

/-- The head a block is linked under by `link_changed`. -/
inductive CHAIN_HEAD where
  | changed_blocks (i : Nat)
  | file_blocks (i : Nat)

/-- Unlink a block from the chain of dirty/clean blocks it is in. -/
def unlink_changed (kc : KEY_CACHE) (block : Nat) : KEY_CACHE :=
  { kc with
    changed_blocks := fun i => (kc.changed_blocks i).erase block
    file_blocks := fun i => (kc.file_blocks i).erase block }

/-- Link a block into the chain of dirty/clean blocks, at its head. -/
def link_changed (kc : KEY_CACHE) (block : Nat) (phead : CHAIN_HEAD) : KEY_CACHE :=
  match phead with
  | .changed_blocks i =>
    { kc with changed_blocks := Function.update kc.changed_blocks i (block :: kc.changed_blocks i) }
  | .file_blocks i =>
    { kc with file_blocks := Function.update kc.file_blocks i (block :: kc.file_blocks i) }

/-- Link a block in a chain of clean blocks of a file; a dirty block becomes
clean and the counters of changed blocks go down. -/
def link_to_file_list (kc : KEY_CACHE) (block file : Nat) (unlink_block : Bool) :
    KEY_CACHE :=
  let kc := if unlink_block then unlink_changed kc block else kc
  let kc := link_changed kc block (.file_blocks (FILE_HASH file))
  if (kc.block_root block).status.changed then
    { set_status kc block { (kc.block_root block).status with changed := false } with
      blocks_changed := dec64 kc.blocks_changed
      global_blocks_changed := dec64 kc.global_blocks_changed }
  else kc

/-- Re-link a block from the clean chain to the dirty chain of its file. -/
def link_to_changed_list (kc : KEY_CACHE) (block : Nat) : Option KEY_CACHE :=
  match (kc.block_root block).hash_link with
  | none => none
  | some h =>
    let kc := unlink_changed kc block
    let kc := link_changed kc block (.changed_blocks (FILE_HASH (kc.hash_link_root h).file))
    some
      { set_status kc block { (kc.block_root block).status with changed := true } with
        blocks_changed := kc.blocks_changed + 1
        global_blocks_changed := kc.global_blocks_changed + 1 }

/-! ## The LRU ring -/

/-- Insert `block` right after the first occurrence of `ins`. -/
def insert_after (ins block : Nat) : List Nat → List Nat
  | [] => []
  | x :: xs => if x = ins then x :: block :: xs else x :: insert_after ins block xs

/-- The element before the first occurrence of `block`, when that occurrence is
not the head. -/
def prev_in : List Nat → Nat → Option Nat
  | x :: y :: rest, block => if y = block then some x else prev_in (y :: rest) block
  | _, _ => none

/-- The block whose `next_used` is `block`: `STRUCT_PTR(BLOCK_LINK, next_used,
block->prev_used)`. -/
def ring_prev (ring : List Nat) (block : Nat) : Option Nat :=
  if ring.head? = some block then ring.getLast? else prev_in ring block

/-- Link a block to the LRU chain at the beginning or at the end of one of two
parts. -/
def link_block (kc : KEY_CACHE) (block : Nat) (hot at_end : Bool) : KEY_CACHE :=
  match (if hot then kc.used_ins else used_last kc) with
  | some ins =>
    if hot then
      { kc with
        used_ring :=
          if used_last kc = some ins then block :: kc.used_ring
          else insert_after ins block kc.used_ring
        used_ins := if at_end then some block else kc.used_ins }
    else
      { kc with
        used_ring := if at_end then kc.used_ring ++ [block] else block :: kc.used_ring }
  | none => { kc with used_ring := [block], used_ins := some block }

/-- Unlink a block from the LRU chain. -/
def unlink_block (kc : KEY_CACHE) (block : Nat) : Option KEY_CACHE :=
  if block ∈ kc.used_ring then
    if kc.used_ring = [block] then
      some { kc with used_ring := [], used_ins := none }
    else
      some
        { kc with
          used_ring := kc.used_ring.erase block
          used_ins :=
            if kc.used_ins = some block then ring_prev kc.used_ring block
            else kc.used_ins }
  else none

/-- Register requests for a block; the first request unlinks it from the LRU
ring. -/
def reg_requests (kc : KEY_CACHE) (block : Nat) (count : Nat) : Option KEY_CACHE :=
  match (if (kc.block_root block).requests = 0 then unlink_block kc block else some kc) with
  | none => none
  | some kc =>
    some (set_block kc block
      { kc.block_root block with requests := (kc.block_root block).requests + count })

/-- The first part of `unreg_request`, for the last request on a block without
`BLOCK_ERROR`: count the hit, promote the block to hot if it is due, link it
into the LRU ring and stamp it with the time. -/
def unreg_request_link (kc : KEY_CACHE) (block : Nat) (at_end : Bool) : KEY_CACHE :=
  let b := kc.block_root block
  let hits_left := if b.hits_left ≠ 0 then b.hits_left - 1 else b.hits_left
  let hot : Bool := hits_left = 0 ∧ at_end = true ∧ kc.warm_blocks > kc.min_warm_blocks
  let kc :=
    { set_block kc block
        { b with
          hits_left := hits_left
          temperature := if hot then BLOCK_HOT else b.temperature } with
      warm_blocks :=
        if hot = true ∧ b.temperature = BLOCK_WARM then dec64 kc.warm_blocks
        else kc.warm_blocks }
  let kc := link_block kc block hot at_end
  { set_block kc block { kc.block_root block with last_hit_time := kc.keycache_time } with
    keycache_time := kc.keycache_time + 1 }

/-- The second part of `unreg_request`: the block at `used_ins` that has not
been hit for longer than `age_threshold` is unlinked, linked at the beginning
of the warm part, and becomes warm. -/
def unreg_request_age (kc : KEY_CACHE) : Option KEY_CACHE :=
  match kc.used_ins with
  | none => some kc
  | some blk =>
    if kc.keycache_time - (kc.block_root blk).last_hit_time > kc.age_threshold then
      match unlink_block kc blk with
      | none => none
      | some kc =>
        let kc := link_block kc blk false false
        if (kc.block_root blk).temperature ≠ BLOCK_WARM then
          some (set_block { kc with warm_blocks := kc.warm_blocks + 1 } blk
            { kc.block_root blk with temperature := BLOCK_WARM })
        else some kc
    else some kc

/-- Unregister a request for a block, linking it to the LRU chain if it is the
last request. -/
def unreg_request (kc : KEY_CACHE) (block : Nat) (at_end : Bool) : Option KEY_CACHE :=
  let b := kc.block_root block
  let kc := set_block kc block { b with requests := dec32 b.requests }
  if dec32 b.requests = 0 ∧ b.status.error = false then
    unreg_request_age (unreg_request_link kc block at_end)
  else some kc

/-- Remove a reader of the page in block. -/
def remove_reader (kc : KEY_CACHE) (block : Nat) : Option KEY_CACHE :=
  match (kc.block_root block).hash_link with
  | none => none
  | some h =>
    some (set_hash_link kc h
      { kc.hash_link_root h with requests := dec32 (kc.hash_link_root h).requests })

/-- Wait until the last reader of the page in block signals on its termination:
with requests left on the hash link the caller waits for good. -/
def wait_for_readers (kc : KEY_CACHE) (block : Nat) : Option KEY_CACHE :=
  match (kc.block_root block).hash_link with
  | none => none
  | some h => if (kc.hash_link_root h).requests ≠ 0 then none else some kc

/-! ## The hash table -/

/-- Add a hash link to a bucket in the hash table. -/
def link_hash (kc : KEY_CACHE) (start hash_link : Nat) : KEY_CACHE :=
  { kc with hash_root := Function.update kc.hash_root start (hash_link :: kc.hash_root start) }

/-- Remove a hash link from the hash table and push it on the free stack. -/
def unlink_hash (kc : KEY_CACHE) (hash_link : Nat) : KEY_CACHE :=
  let kc := { kc with hash_root := fun i => (kc.hash_root i).erase hash_link }
  let kc := set_hash_link kc hash_link { kc.hash_link_root hash_link with block := none }
  { kc with free_hash_list := hash_link :: kc.free_hash_list }

/-- Get the hash link for a page and register a request on it. Without a free
hash link the caller waits for good. -/
def get_hash_link (kc : KEY_CACHE) (file filepos : Nat) : Option (Nat × KEY_CACHE) :=
  let start := KEYCACHE_HASH kc file filepos
  let found := (kc.hash_root start).find? (fun h =>
    decide ((kc.hash_link_root h).diskpos = filepos ∧ (kc.hash_link_root h).file = file))
  let fresh : Option (Nat × KEY_CACHE) :=
    match found with
    | some h => some (h, kc)
    | none =>
      let taken : Option (Nat × KEY_CACHE) :=
        match kc.free_hash_list with
        | h :: rest => some (h, { kc with free_hash_list := rest })
        | [] =>
          if kc.hash_links_used < kc.hash_links then
            some (kc.hash_links_used, { kc with hash_links_used := kc.hash_links_used + 1 })
          else none
      match taken with
      | none => none
      | some (h, kc) =>
        let kc := set_hash_link kc h
          { kc.hash_link_root h with file := file, diskpos := filepos }
        some (h, link_hash kc start h)
  match fresh with
  | none => none
  | some (h, kc) =>
    some (h, set_hash_link kc h
      { kc.hash_link_root h with requests := (kc.hash_link_root h).requests + 1 })

/-! ## Freeing a block -/

/-- The start of `free_block`: a block with a hash link is marked
`BLOCK_REASSIGNED` while the caller waits for the readers of the page to
finish. -/
def free_block_wait (kc : KEY_CACHE) (block : Nat) : Option KEY_CACHE :=
  match (kc.block_root block).hash_link with
  | some _ =>
    let kc := set_status kc block { (kc.block_root block).status with reassigned := true }
    match wait_for_readers kc block with
    | none => none
    | some kc =>
      some (set_status kc block { (kc.block_root block).status with reassigned := false })
  | none => some kc

/-- The end of `free_block`, after the block has left the LRU ring: the block
becomes cold, leaves its chain and the hash table, and is pushed on the free
list. -/
def free_block_release (kc : KEY_CACHE) (block : Nat) : Option KEY_CACHE :=
  let kc :=
    if (kc.block_root block).temperature = BLOCK_WARM then
      { kc with warm_blocks := dec64 kc.warm_blocks }
    else kc
  let kc := set_block kc block { kc.block_root block with temperature := BLOCK_COLD }
  let kc := unlink_changed kc block
  match (kc.block_root block).hash_link with
  | none => none
  | some h =>
    let kc := unlink_hash kc h
    let kc := set_block kc block
      { kc.block_root block with
        hash_link := none, status := {}, length := 0, offset := kc.key_cache_block_size }
    some { kc with
           free_block_list := block :: kc.free_block_list
           blocks_unused := kc.blocks_unused + 1 }

/-- Free block: remove the reference to the block from the hash table, remove
the block from the chain of clean blocks, add it to the free list. -/
def free_block (kc : KEY_CACHE) (block : Nat) : Option KEY_CACHE :=
  (free_block_wait kc block).bind fun kc =>
  (unreg_request kc block false).bind fun kc =>
  if (kc.block_root block).status.in_eviction then some kc
  else
    (if (kc.block_root block).status.error = false then unlink_block kc block
     else some kc).bind fun kc =>
    free_block_release kc block

/-! ## Finding the block of a page -/

/-- The page status of a block found attached to `hash_link`: `PAGE_READ` when
the block is assigned to this hash link and holds valid data. -/
def page_status_of (kc : KEY_CACHE) (block hash_link : Nat) : PAGE_STATUS :=
  if (kc.block_root block).hash_link = some hash_link ∧ (kc.block_root block).status.read = true
  then PAGE_READ else PAGE_WAIT_TO_BE_READ

/-- Take an unused block: pop the free list, else take the next never used
block of the pool. -/
def take_unused_block (kc : KEY_CACHE) : Nat × KEY_CACHE :=
  match kc.free_block_list with
  | b :: rest => (b, { kc with free_block_list := rest })
  | [] => (kc.blocks_used, { kc with blocks_used := kc.blocks_used + 1 })

/-- The branch of `find_key_block` taken when a free or never used block
exists: initialise the block for the page and link it into the clean chain of
`file`. -/
def find_key_block_unused (kc : KEY_CACHE) (hash_link file init_hits_left : Nat) :
    Nat × KEY_CACHE :=
  let (block, kc) := take_unused_block kc
  let kc := { kc with blocks_unused := kc.blocks_unused - 1 }
  let kc := set_block kc block
    { kc.block_root block with
      status := BLOCK_IN_USE, length := 0, offset := kc.key_cache_block_size, requests := 1,
      temperature := BLOCK_COLD, hits_left := init_hits_left, last_hit_time := 0,
      hash_link := some hash_link }
  let kc := set_hash_link kc hash_link { kc.hash_link_root hash_link with block := some block }
  (block, link_to_file_list kc block file false)

/-- The victim of an eviction is written back if it is dirty: it is marked
`BLOCK_IN_FLUSH` and `BLOCK_IN_FLUSHWRITE` and its dirty part goes to the file.
The result carries the error of the write. -/
def evict_write_back (kc : KEY_CACHE) (block : Nat) : Option (Option Int × KEY_CACHE) :=
  if (kc.block_root block).status.changed then
    if (kc.block_root block).status.in_flush then none
    else
      match (kc.block_root block).hash_link with
      | none => none
      | some old =>
        some
          ((my_pwrite kc.disk (kc.hash_link_root old).file
              (buffer_bytes (kc.block_root block).buffer (kc.block_root block).offset
                ((kc.block_root block).length - (kc.block_root block).offset))
              ((kc.hash_link_root old).diskpos + (kc.block_root block).offset)).1,
           { set_status kc block
               { (kc.block_root block).status with in_flush := true, in_flushwrite := true } with
             disk := (my_pwrite kc.disk (kc.hash_link_root old).file
               (buffer_bytes (kc.block_root block).buffer (kc.block_root block).offset
                 ((kc.block_root block).length - (kc.block_root block).offset))
               ((kc.hash_link_root old).diskpos + (kc.block_root block).offset)).2
             global_cache_write := kc.global_cache_write + 1 })
  else some (none, kc)

/-- The victim of an eviction leaves its old page: it becomes clean, waits for
the readers of the old page, and its old hash link and its place in the chain
are given up. -/
def evict_release_old (kc : KEY_CACHE) (block : Nat) : Option KEY_CACHE :=
  match (kc.block_root block).hash_link with
  | some old =>
    (wait_for_readers
      (link_to_file_list
        (set_status kc block
          { (kc.block_root block).status with in_flush := false, in_flushwrite := false })
        block (kc.hash_link_root old).file true) block).map
      fun kc => unlink_changed (unlink_hash kc old) block
  | none => some kc

/-- The victim of an eviction takes the new page: the status is
`BLOCK_IN_USE`, or `BLOCK_ERROR` when the write back has failed, and the block
goes to the clean chain of `file`. -/
def evict_assign (kc : KEY_CACHE) (block hash_link file : Nat) (error : Option Int) :
    KEY_CACHE :=
  link_to_file_list
    (set_block kc block
      { kc.block_root block with
        status := if error.isSome then BLOCK_ERROR else BLOCK_IN_USE
        length := 0, offset := kc.key_cache_block_size, hash_link := some hash_link })
    block file false

/-- The branch of `find_key_block` that takes the block following `used_last`
from the LRU ring, writes it back if it is dirty, and reassigns it. -/
def find_key_block_evict (kc : KEY_CACHE) (hash_link file init_hits_left : Nat) :
    Option (Nat × PAGE_STATUS × KEY_CACHE) :=
  match kc.used_ring.head? with
  | none => none
  | some block =>
    (reg_requests
      (set_hash_link
        (set_block kc block
          { kc.block_root block with hits_left := init_hits_left, last_hit_time := 0 })
        hash_link { kc.hash_link_root hash_link with block := some block })
      block 1).bind fun kc =>
    if (kc.block_root block).hash_link ≠ some hash_link ∧
        (kc.block_root block).status.in_switch = false then
      (evict_write_back
        (set_status kc block { (kc.block_root block).status with in_switch := true })
        block).bind fun r =>
      (evict_release_old
        (set_status r.2 block { (r.2.block_root block).status with reassigned := true })
        block).map fun kc =>
        (block, PAGE_TO_BE_READ, evict_assign kc block hash_link file r.1)
    else some (block, page_status_of kc block hash_link, kc)

/-- The branch of `find_key_block` taken during a resize (`in_resize`). The
result is the block, if the caller may use the cached one. -/
def find_key_block_resize (kc : KEY_CACHE) (hash_link : Nat) (wrmode : Bool) :
    Option (Option (Nat × PAGE_STATUS) × KEY_CACHE) :=
  match (kc.hash_link_root hash_link).block with
  | none =>
    if (kc.hash_link_root hash_link).requests = 1 then
      let kc := set_hash_link kc hash_link
        { kc.hash_link_root hash_link with requests := dec32 (kc.hash_link_root hash_link).requests }
      some (none, unlink_hash kc hash_link)
    else none
  | some block =>
    let page_read : Bool :=
      (kc.block_root block).hash_link = some hash_link ∧ (kc.block_root block).status.read = true
    match reg_requests kc block 1 with
    | none => none
    | some kc =>
      if page_read = false then none
      else if wrmode = false then some (some (block, PAGE_READ), kc)
      else if (kc.block_root block).status.in_flush then none
      else if (kc.block_root block).status.changed then some (some (block, PAGE_READ), kc)
      else
        match remove_reader kc block with
        | none => none
        | some kc =>
          let st := (kc.block_root block).status
          if st.in_eviction = false ∧ st.in_switch = false ∧ st.reassigned = false then
            match free_block kc block with
            | none => none
            | some kc => some (none, kc)
          else none

/-- Get a block for the file page requested by a key cache read/write
operation. The result is `none` inside when the caller has to go to the file
directly (cache disabled, or bypass during a resize). -/
def find_key_block (kc : KEY_CACHE) (file filepos init_hits_left : Nat) (wrmode : Bool) :
    Option (Option (Nat × PAGE_STATUS) × KEY_CACHE) :=
  if kc.can_be_used = false then some (none, kc)
  else
    match get_hash_link kc file filepos with
    | none => none
    | some (hash_link, kc) =>
      if kc.in_resize then find_key_block_resize kc hash_link wrmode
      else
        match (kc.hash_link_root hash_link).block with
        | some block =>
          let st := (kc.block_root block).status
          if ((kc.block_root block).hash_link = some hash_link ∧ st.read = true) ∧
              (st.in_eviction = true ∨ st.in_switch = true ∨ st.reassigned = true) then
            if wrmode = false ∧ st.reassigned = false then
              match reg_requests kc block 1 with
              | none => none
              | some kc => some (some (block, PAGE_READ), kc)
            else none
          else
            match reg_requests kc block 1 with
            | none => none
            | some kc => some (some (block, page_status_of kc block hash_link), kc)
        | none =>
          if kc.blocks_unused ≠ 0 then
            let (block, kc) := find_key_block_unused kc hash_link file init_hits_left
            some (some (block, PAGE_TO_BE_READ), kc)
          else
            match used_last kc with
            | none => none
            | some _ =>
              match find_key_block_evict kc hash_link file init_hits_left with
              | none => none
              | some (block, page_st, kc) => some (some (block, page_st), kc)

/-! ## Loading a page -/

/-- Read into a key cache block buffer from disk. A secondary request waits for
the thread that reads the page. -/
def read_block (kc : KEY_CACHE) (block read_length min_length : Nat) (primary : Bool) :
    Option KEY_CACHE :=
  if primary then
    match (kc.block_root block).hash_link with
    | none => none
    | some h =>
      let kc := { kc with global_cache_read := kc.global_cache_read + 1 }
      let file := (kc.hash_link_root h).file
      let diskpos := (kc.hash_link_root h).diskpos
      let old := kc.disk
      let (got_length, delivered, disk) := my_pread old file read_length diskpos
      let kc := { kc with disk := disk }
      let b := kc.block_root block
      let b := { b with buffer := pread_into old file diskpos delivered b.buffer }
      if got_length < min_length then
        some (set_block kc block { b with status := { b.status with error := true } })
      else
        some (set_block kc block
          { b with status := { b.status with read := true }, length := got_length })
  else none

/-! ## Read and write through the cache -/

/-- Increment counter blocking resize key cache operation. -/
def inc_counter_for_resize_op (kc : KEY_CACHE) : KEY_CACHE :=
  { kc with cnt_for_resize_op := kc.cnt_for_resize_op + 1 }

/-- Decrement counter blocking resize key cache operation. -/
def dec_counter_for_resize_op (kc : KEY_CACHE) : KEY_CACHE :=
  { kc with cnt_for_resize_op := kc.cnt_for_resize_op - 1 }

/-- Call `my_pread` with `MY_NABP` into the caller's buffer at `dst`: the call
is an error unless all `count` bytes arrive. -/
def pread_direct (kc : KEY_CACHE) (file count pos : Nat) (buff : Nat → Nat) (dst : Nat) :
    Bool × (Nat → Nat) × KEY_CACHE :=
  let old := kc.disk
  let (got_length, delivered, disk) := my_pread old file count pos
  (decide (got_length ≠ count),
   fun i => if dst ≤ i ∧ i < dst + delivered then old.data file (pos + (i - dst)) else buff i,
   { kc with disk := disk })

/-- One pass of the body of the loop of `key_cache_read` over the cache blocks
of the request. `dst` is the distance of the running `buff` pointer from the
start of the caller's buffer; the result is the `error` flag, the caller's
buffer, the cache, and whether the loop goes on (`length-= read_length` is not
zero and no `goto` has left the loop). -/
def key_cache_read_chunk (kc : KEY_CACHE) (file filepos level : Nat) (buff : Nat → Nat)
    (dst length offset : Nat) (error : Bool) : Option (Bool × (Nat → Nat) × KEY_CACHE × Bool) :=
  if kc.can_be_used = false then
    let kc := { kc with
                global_cache_r_requests := kc.global_cache_r_requests + 1
                global_cache_read := kc.global_cache_read + 1 }
    let (err, buff, kc) := pread_direct kc file length filepos buff dst
    some (if err then true else error, buff, kc, false)
  else
    let filepos := filepos - offset
    let read_length := min length (kc.key_cache_block_size - offset)
    let kc := { kc with global_cache_r_requests := kc.global_cache_r_requests + 1 }
    match find_key_block kc file filepos level false with
    | none => none
    | some (none, kc) =>
      let kc := { kc with global_cache_read := kc.global_cache_read + 1 }
      let (err, buff, kc) := pread_direct kc file read_length (filepos + offset) buff dst
      some (err, buff, kc, decide (length - read_length ≠ 0))
    | some (some (block, page_st), kc) =>
      let loaded : Option KEY_CACHE :=
        if (kc.block_root block).status.error = false then
          if page_st ≠ PAGE_READ then
            read_block kc block kc.key_cache_block_size (read_length + offset)
              (decide (page_st = PAGE_TO_BE_READ))
          else if (kc.block_root block).length < read_length + offset then
            some (set_status kc block { (kc.block_root block).status with error := true })
          else some kc
        else some kc
      match loaded with
      | none => none
      | some kc =>
        let buff :=
          if (kc.block_root block).status.error = false then
            fun i =>
              if dst ≤ i ∧ i < dst + read_length then
                (kc.block_root block).buffer (offset + (i - dst))
              else buff i
          else buff
        match remove_reader kc block with
        | none => none
        | some kc =>
          if (kc.block_root block).status.error = false then
            match unreg_request kc block true with
            | none => none
            | some kc =>
              some (error, buff, kc, decide (length - read_length ≠ 0))
          else
            match free_block kc block with
            | none => none
            | some kc => some (true, buff, kc, false)

/-- The loop of `key_cache_read` over the cache blocks of the request. After a
pass the position, the buffer pointer and the length move on by `read_length`
and `offset` becomes 0. -/
def key_cache_read_loop : Nat → KEY_CACHE → Nat → Nat → Nat → (Nat → Nat) → Nat → Nat →
    Nat → Bool → Option (Bool × (Nat → Nat) × KEY_CACHE)
  | 0, _, _, _, _, _, _, _, _, _ => none
  | fuel + 1, kc, file, filepos, level, buff, dst, length, offset, error =>
    match key_cache_read_chunk kc file filepos level buff dst length offset error with
    | none => none
    | some (error, buff, kc', false) => some (error, buff, kc')
    | some (error, buff, kc', true) =>
      key_cache_read_loop fuel kc' file
        (filepos - offset + (min length (kc.key_cache_block_size - offset) + offset)) level buff
        (dst + min length (kc.key_cache_block_size - offset))
        (length - min length (kc.key_cache_block_size - offset)) 0 error

/-- Read a block of data from a cached file into a buffer. The result is
`true` when the call fails (it returns NULL), the caller's buffer, and the
cache. -/
def key_cache_read (kc : KEY_CACHE) (file filepos level : Nat) (buff : Nat → Nat)
    (length : Nat) : Option (Bool × (Nat → Nat) × KEY_CACHE) :=
  if kc.key_cache_inited then
    if kc.in_resize = true ∧ kc.resize_in_flush = false then none
    else
      let kc := inc_counter_for_resize_op kc
      match key_cache_read_loop (length + 1) kc file filepos level buff 0 length
          (filepos % kc.key_cache_block_size) false with
      | none => none
      | some (error, buff, kc) => some (error, buff, dec_counter_for_resize_op kc)
  else
    let kc := { kc with
                global_cache_r_requests := kc.global_cache_r_requests + 1
                global_cache_read := kc.global_cache_read + 1 }
    let (err, buff, kc) := pread_direct kc file length filepos buff 0
    some (err, buff, kc)

/-- Call `my_pwrite` from the caller's buffer, past the cache. -/
def pwrite_direct (kc : KEY_CACHE) (file : Nat) (buff : List Nat) (pos : Nat) :
    Bool × KEY_CACHE :=
  let (err, disk) := my_pwrite kc.disk file buff pos
  (err.isSome, { kc with disk := disk })

/-- One pass of the body of the loop of `key_cache_write` over the cache blocks
of the request; `buff` is what is left of the caller's data. The result is the
`error` flag, the cache, and whether the loop goes on. -/
def key_cache_write_chunk (kc : KEY_CACHE) (file filepos level : Nat) (buff : List Nat)
    (offset : Nat) (dont_write error : Bool) : Option (Bool × KEY_CACHE × Bool) :=
  if kc.can_be_used = false then
    if dont_write then
      let kc := { kc with
                  global_cache_w_requests := kc.global_cache_w_requests + 1
                  global_cache_write := kc.global_cache_write + 1 }
      let (err, kc) := pwrite_direct kc file buff filepos
      some (if err then true else error, kc, false)
    else some (error, kc, false)
  else
    let filepos := filepos - offset
    let read_length := min buff.length (kc.key_cache_block_size - offset)
    let kc := { kc with global_cache_w_requests := kc.global_cache_w_requests + 1 }
    match find_key_block kc file filepos level true with
    | none => none
    | some (none, kc) =>
      let (error, kc) :=
        if dont_write then
          let kc := { kc with global_cache_write := kc.global_cache_write + 1 }
          let (err, kc) := pwrite_direct kc file (buff.take read_length) (filepos + offset)
          (if err then true else error, kc)
        else (error, kc)
      some (error, kc, decide (buff.length - read_length ≠ 0))
    | some (some (block, page_st), kc) =>
      let kc :=
        if page_st ≠ PAGE_WAIT_TO_BE_READ then
          set_status kc block { (kc.block_root block).status with for_update := true }
        else kc
      let loaded : Option KEY_CACHE :=
        if (kc.block_root block).status.error = false ∧
            ((page_st = PAGE_TO_BE_READ ∧
                (offset ≠ 0 ∨ read_length < kc.key_cache_block_size)) ∨
              page_st = PAGE_WAIT_TO_BE_READ) then
          match read_block kc block
              (if offset + read_length ≥ kc.key_cache_block_size then offset
               else kc.key_cache_block_size)
              offset (decide (page_st = PAGE_TO_BE_READ)) with
          | none => none
          | some kc =>
            some (set_status kc block { (kc.block_root block).status with for_update := true })
        else some kc
      match loaded with
      | none => none
      | some kc =>
        if (kc.block_root block).status.in_flushwrite then none
        else
          let kc :=
            if (kc.block_root block).status.error = false then
              set_block kc block
                { kc.block_root block with
                  buffer := buffer_copy (kc.block_root block).buffer offset
                    (buff.take read_length) }
            else kc
          let linked : Option KEY_CACHE :=
            if dont_write = false then
              if (kc.block_root block).status.changed = true ∧
                  (offset = 0 ∧ read_length ≥ kc.key_cache_block_size) then
                match (kc.block_root block).hash_link with
                | none => none
                | some h => some (link_to_file_list kc block (kc.hash_link_root h).file true)
              else some kc
            else if (kc.block_root block).status.changed = false then
              link_to_changed_list kc block
            else some kc
          match linked with
          | none => none
          | some kc =>
            let b := kc.block_root block
            let kc := set_block kc block
              { b with
                status := { b.status with read := true, for_update := false }
                offset := min b.offset offset
                length := max b.length (read_length + offset) }
            match remove_reader kc block with
            | none => none
            | some kc =>
              if (kc.block_root block).status.error = false then
                match unreg_request kc block true with
                | none => none
                | some kc =>
                  some (error, kc, decide (buff.length - read_length ≠ 0))
              else
                let kc := set_status kc block
                  { (kc.block_root block).status with changed := false }
                match free_block kc block with
                | none => none
                | some kc => some (true, kc, false)

/-- The loop of `key_cache_write` over the cache blocks of the request. After a
pass the position and the buffer pointer move on by `read_length` and `offset`
becomes 0. -/
def key_cache_write_loop : Nat → KEY_CACHE → Nat → Nat → Nat → List Nat → Nat → Bool →
    Bool → Option (Bool × KEY_CACHE)
  | 0, _, _, _, _, _, _, _, _ => none
  | fuel + 1, kc, file, filepos, level, buff, offset, dont_write, error =>
    match key_cache_write_chunk kc file filepos level buff offset dont_write error with
    | none => none
    | some (error, kc', false) => some (error, kc')
    | some (error, kc', true) =>
      key_cache_write_loop fuel kc' file
        (filepos - offset + (min buff.length (kc.key_cache_block_size - offset) + offset)) level
        (buff.drop (min buff.length (kc.key_cache_block_size - offset))) 0 dont_write error

/-- The part of `key_cache_write` that follows the forced write: the write
through the cache if the cache is initialised, else the write past it. -/
def key_cache_write_cached (kc : KEY_CACHE) (file filepos level : Nat) (buff : List Nat)
    (dont_write : Bool) : Option (Bool × KEY_CACHE) :=
  if kc.key_cache_inited then
    if kc.in_resize = true ∧ kc.resize_in_flush = false then none
    else
      (key_cache_write_loop (buff.length + 1) (inc_counter_for_resize_op kc) file filepos level
        buff (filepos % kc.key_cache_block_size) dont_write false).map
        fun r => (r.1, dec_counter_for_resize_op r.2)
  else if dont_write then
    some (pwrite_direct
      { kc with
        global_cache_w_requests := kc.global_cache_w_requests + 1
        global_cache_write := kc.global_cache_write + 1 } file buff filepos)
  else some (false, kc)

/-- The forced write of `key_cache_write` without `dont_write`. -/
def key_cache_write_forced (kc : KEY_CACHE) (file filepos : Nat) (buff : List Nat) :
    Bool × KEY_CACHE :=
  pwrite_direct
    { kc with
      global_cache_w_requests := kc.global_cache_w_requests + 1
      global_cache_write := kc.global_cache_write + 1 } file buff filepos

/-- Write a buffer into a cached file. The result is `true` when the call
returns 1. -/
def key_cache_write (kc : KEY_CACHE) (file filepos level : Nat) (buff : List Nat)
    (dont_write : Bool) : Option (Bool × KEY_CACHE) :=
  if dont_write = false then
    if (key_cache_write_forced kc file filepos buff).1 then
      some (true, (key_cache_write_forced kc file filepos buff).2)
    else
      key_cache_write_cached (key_cache_write_forced kc file filepos buff).2 file filepos level
        buff dont_write
  else key_cache_write_cached kc file filepos level buff dont_write

/-! ## Flushing -/

/-- The sort key of `cmp_sec_link`: the file position of the page of a block. -/
def block_diskpos (kc : KEY_CACHE) (block : Nat) : Nat :=
  match (kc.block_root block).hash_link with
  | some h => (kc.hash_link_root h).diskpos
  | none => 0

/-- The error code `flush_cached_blocks` keeps after a write: the first `errno`
of a failed write, -1 when that `errno` is 0. -/
def flush_errno (last_errno : Int) (error : Option Int) : Int :=
  match error with
  | some e => if last_errno = 0 then (if e ≠ 0 then e else -1) else last_errno
  | none => last_errno

/-- The write of one block of the burst in `flush_cached_blocks`: unless the
block is selected for update its dirty part goes to the file with
`BLOCK_IN_FLUSHWRITE` set meanwhile, a failed write marks the block with
`BLOCK_ERROR`, and the block moves to the clean chain. -/
def flush_block_write (kc : KEY_CACHE) (file block : Nat) (last_errno : Int) :
    Option (Int × KEY_CACHE) :=
  if (kc.block_root block).status.for_update = false then
    match (kc.block_root block).hash_link with
    | none => none
    | some h =>
      let kc := set_status kc block { (kc.block_root block).status with in_flushwrite := true }
      let b := kc.block_root block
      let w := my_pwrite kc.disk file (buffer_bytes b.buffer b.offset (b.length - b.offset))
        ((kc.hash_link_root h).diskpos + b.offset)
      let kc := { kc with disk := w.2, global_cache_write := kc.global_cache_write + 1 }
      let kc :=
        if w.1.isSome then set_status kc block { (kc.block_root block).status with error := true }
        else kc
      let kc := set_status kc block { (kc.block_root block).status with in_flushwrite := false }
      some (flush_errno last_errno w.1, link_to_file_list kc block file true)
  else some (last_errno, kc)

/-- The body of the loop of `flush_cached_blocks` for one block of the burst:
write the dirty part unless the block is selected for update, make the block
clean, then free it or unregister the request on it. -/
def flush_cached_block (kc : KEY_CACHE) (file block : Nat) (type : flush_type)
    (last_errno : Int) : Option (Int × KEY_CACHE) :=
  (flush_block_write kc file block last_errno).bind fun r =>
  let kc := set_status r.2 block { (r.2.block_root block).status with in_flush := false }
  if ¬ (type = FLUSH_KEEP ∨ type = FLUSH_FORCE_WRITE) ∧
      ((kc.block_root block).status.in_eviction = false ∧
        (kc.block_root block).status.in_switch = false ∧
        (kc.block_root block).status.for_update = false) then
    (free_block kc block).map fun kc => (r.1, kc)
  else
    (unreg_request kc block true).map fun kc => (r.1, kc)

/-- The loop of `flush_cached_blocks` over the sorted burst. -/
def flush_cached_blocks_loop (file : Nat) (type : flush_type) :
    List Nat → KEY_CACHE → Int → Option (Int × KEY_CACHE)
  | [], kc, last_errno => some (last_errno, kc)
  | block :: rest, kc, last_errno =>
    match flush_cached_block kc file block type last_errno with
    | none => none
    | some (last_errno, kc) => flush_cached_blocks_loop file type rest kc last_errno

/-- Flush a portion of changed blocks to disk, free used blocks if requested.
The burst is sorted by file position first; the result is the first `errno`
met, 0 without an error. -/
def flush_cached_blocks (kc : KEY_CACHE) (file : Nat) (cache : List Nat) (type : flush_type) :
    Option (Int × KEY_CACHE) :=
  flush_cached_blocks_loop file type
    (List.insertionSort (fun a b => block_diskpos kc a ≤ block_diskpos kc b) cache) kc 0

/-- How the scan of the dirty chain in `flush_key_blocks_int` ends: at the end
of the chain, at `goto restart`, or at `goto err`. -/
inductive SCAN_RESULT where
  | scanned (kc : KEY_CACHE) (burst : List Nat) (last_in_flush last_for_update : Option Nat)
      (first_in_switch : List Nat)
  | restart (kc : KEY_CACHE) (last_errno : Int) (last_errcnt : Nat)
      (first_in_switch : List Nat)
  | err (kc : KEY_CACHE) (last_errno : Int)

/-- The scan of the dirty chain of `flush_key_blocks_int` (the loop after
`restart:`), over the blocks still ahead in the chain. `burst` is the write
burst array `cache .. pos`, `count` its capacity. -/
def flush_scan (file : Nat) (type : flush_type) (count : Nat) :
    List Nat → KEY_CACHE → List Nat → Option Nat → Option Nat → List Nat → Int → Nat →
    Option SCAN_RESULT
  | [], kc, burst, last_in_flush, last_for_update, first_in_switch, _, _ =>
    some (.scanned kc burst last_in_flush last_for_update first_in_switch)
  | block :: next, kc, burst, last_in_flush, last_for_update, first_in_switch,
      last_errno, last_errcnt =>
    match (kc.block_root block).hash_link with
    | none => none
    | some h =>
      if (kc.hash_link_root h).file = file then
        let st := (kc.block_root block).status
        if st.in_flush = false ∧ st.for_update = false then
          if st.in_switch = false then
            match reg_requests kc block 1 with
            | none => none
            | some kc =>
              if type ≠ FLUSH_IGNORE_CHANGED then
                if burst.length = count then
                  match unreg_request kc block false with
                  | none => none
                  | some kc =>
                    match flush_cached_blocks kc file burst type with
                    | none => none
                    | some (error, kc) =>
                      if error ≠ 0 then
                        if last_errno = error then
                          if last_errcnt + 1 > 5 then some (.err kc last_errno)
                          else some (.restart kc error (last_errcnt + 1) first_in_switch)
                        else some (.restart kc error last_errcnt first_in_switch)
                      else some (.restart kc last_errno last_errcnt first_in_switch)
                else
                  let kc := set_status kc block
                    { (kc.block_root block).status with in_flush := true }
                  flush_scan file type count next kc (burst ++ [block]) last_in_flush
                    last_for_update first_in_switch last_errno last_errcnt
              else
                let kc := link_to_file_list kc block file true
                let st := (kc.block_root block).status
                let freed : Option KEY_CACHE :=
                  if st.in_eviction = false ∧ st.in_switch = false then free_block kc block
                  else unreg_request kc block true
                match freed with
                | none => none
                | some kc =>
                  flush_scan file type count next kc burst last_in_flush last_for_update
                    first_in_switch last_errno last_errcnt
          else
            flush_scan file type count next (unlink_changed kc block) burst last_in_flush
              last_for_update (block :: first_in_switch) last_errno last_errcnt
        else if type ≠ FLUSH_KEEP then
          if st.in_flush then
            flush_scan file type count next kc burst (some block) last_for_update
              first_in_switch last_errno last_errcnt
          else
            flush_scan file type count next kc burst last_in_flush (some block)
              first_in_switch last_errno last_errcnt
        else
          flush_scan file type count next kc burst last_in_flush last_for_update
            first_in_switch last_errno last_errcnt
      else
        flush_scan file type count next kc burst last_in_flush last_for_update
          first_in_switch last_errno last_errcnt

/-- One pass of the loop that frees the clean blocks of `file` in
`flush_key_blocks_int`, over the blocks still ahead in the clean chain. With
requests left on the hash link of a block, `free_block` waits for good, so the
`break` that follows a wait is not reached. -/
def free_clean_pass (file : Nat) :
    List Nat → KEY_CACHE → Nat → Option Nat → Option Nat →
    Option (KEY_CACHE × Nat × Option Nat × Option Nat)
  | [], kc, found, last_for_update, last_in_switch =>
    some (kc, found, last_for_update, last_in_switch)
  | block :: next, kc, found, last_for_update, last_in_switch =>
    match (kc.block_root block).hash_link with
    | none => none
    | some h =>
      if (kc.hash_link_root h).file = file then
        let st := (kc.block_root block).status
        if st.for_update then
          free_clean_pass file next kc found (some block) last_in_switch
        else if st.in_eviction = false ∧ st.in_switch = false ∧ st.reassigned = false then
          match reg_requests kc block 1 with
          | none => none
          | some kc =>
            match free_block kc block with
            | none => none
            | some kc => free_clean_pass file next kc (found + 1) last_for_update last_in_switch
        else
          free_clean_pass file next kc found last_for_update (some block)
      else
        free_clean_pass file next kc found last_for_update last_in_switch

/-- The loop `do ... while (found)` around `free_clean_pass`; the result carries
`total_found`. -/
def free_clean_loop (file : Nat) :
    Nat → KEY_CACHE → Nat → Option Nat → Option Nat →
    Option (KEY_CACHE × Nat × Option Nat × Option Nat)
  | 0, _, _, _, _ => none
  | fuel + 1, kc, total_found, last_for_update, last_in_switch =>
    match free_clean_pass file (kc.file_blocks (FILE_HASH file)) kc 0 last_for_update
        last_in_switch with
    | none => none
    | some (kc, found, last_for_update, last_in_switch) =>
      if found ≠ 0 then
        free_clean_loop file fuel kc (total_found + found) last_for_update last_in_switch
      else some (kc, total_found, last_for_update, last_in_switch)

/-- The number of entries the write burst array gets: the dirty blocks of the
file that are not in flush, if these are more than `FLUSH_CACHE` and the array
for them can be allocated, and `FLUSH_CACHE` otherwise. -/
def flush_count (kc : KEY_CACHE) (file : Nat) (type : flush_type) (malloc_ok : Bool) :
    Option Nat :=
  if type ≠ FLUSH_IGNORE_CHANGED then
    match (kc.changed_blocks (FILE_HASH file)).foldl
        (fun (acc : Option Nat) block =>
          match acc, (kc.block_root block).hash_link with
          | some n, some h =>
            if (kc.hash_link_root h).file = file ∧ (kc.block_root block).status.in_flush = false
            then some (n + 1) else some n
          | _, _ => none)
        (some 0) with
    | none => none
    | some n => if n > FLUSH_CACHE ∧ malloc_ok = true then some n else some FLUSH_CACHE
  else some FLUSH_CACHE

/-- The part of `flush_key_blocks_int` from `restart:` on; every `goto restart`
uses one unit of fuel. The result is `last_errno`. -/
def flush_key_blocks_loop (file : Nat) (type : flush_type) (count : Nat) :
    Nat → KEY_CACHE → List Nat → Int → Nat → Option (Int × KEY_CACHE)
  | 0, _, _, _, _ => none
  | fuel + 1, kc, first_in_switch, last_errno, last_errcnt =>
    match flush_scan file type count (kc.changed_blocks (FILE_HASH file)) kc [] none none
        first_in_switch last_errno last_errcnt with
    | none => none
    | some (.err kc last_errno) => some (last_errno, kc)
    | some (.restart kc last_errno last_errcnt first_in_switch) =>
      flush_key_blocks_loop file type count fuel kc first_in_switch last_errno last_errcnt
    | some (.scanned kc burst last_in_flush last_for_update first_in_switch) =>
      let after_burst (kc : KEY_CACHE) (last_errno : Int) (last_errcnt : Nat) :
          Option (Int × KEY_CACHE) :=
        match last_in_flush with
        | some blk =>
          if (kc.block_root blk).status.in_flush then none
          else flush_key_blocks_loop file type count fuel kc first_in_switch last_errno
            last_errcnt
        | none =>
          match last_for_update with
          | some blk =>
            if (kc.block_root blk).status.for_update then none
            else flush_key_blocks_loop file type count fuel kc first_in_switch last_errno
              last_errcnt
          | none =>
            if first_in_switch ≠ [] then none
            else if ¬ (type = FLUSH_KEEP ∨ type = FLUSH_FORCE_WRITE) then
              match free_clean_loop file ((kc.file_blocks (FILE_HASH file)).length + 1) kc 0
                  none none with
              | none => none
              | some (kc, total_found, last_for_update, last_in_switch) =>
                if total_found ≠ 0 then
                  flush_key_blocks_loop file type count fuel kc first_in_switch last_errno
                    last_errcnt
                else if last_for_update.isSome then none
                else if last_in_switch.isSome then none
                else some (last_errno, kc)
            else some (last_errno, kc)
      if burst ≠ [] then
        match flush_cached_blocks kc file burst type with
        | none => none
        | some (error, kc) =>
          if error ≠ 0 ∧ last_errno = error ∧ last_errcnt + 1 > 5 then some (last_errno, kc)
          else
            let last_errcnt' :=
              if error ≠ 0 ∧ last_errno = error then last_errcnt + 1 else last_errcnt
            let last_errno' := if error ≠ 0 then error else last_errno
            if type ≠ FLUSH_KEEP then
              flush_key_blocks_loop file type count fuel kc first_in_switch last_errno'
                last_errcnt'
            else after_burst kc last_errno' last_errcnt'
      else after_burst kc last_errno last_errcnt

/-- Flush all key blocks for a file to disk, but don't do any mutex locks. The
result is `true` when the call returns 1. `malloc_ok` tells whether a burst
array bigger than `FLUSH_CACHE` can be allocated. -/
def flush_key_blocks_int (kc : KEY_CACHE) (file : Nat) (type : flush_type) (malloc_ok : Bool) :
    Option (Bool × KEY_CACHE) :=
  if kc.disk_blocks > 0 ∧ (kc.my_disable_flush_key_blocks = false ∨ type ≠ FLUSH_KEEP) then
    match flush_count kc file type malloc_ok with
    | none => none
    | some count =>
      match flush_key_blocks_loop file type count
          ((kc.changed_blocks (FILE_HASH file)).length +
            (kc.file_blocks (FILE_HASH file)).length + 2) kc [] 0 0 with
      | none => none
      | some (last_errno, kc) => some (decide (last_errno ≠ 0), kc)
  else some (false, kc)

/-- Flush all blocks for a file to disk. -/
def flush_key_blocks (kc : KEY_CACHE) (file : Nat) (type : flush_type) (malloc_ok : Bool) :
    Option (Bool × KEY_CACHE) :=
  if kc.key_cache_inited = false then some (false, kc)
  else if kc.disk_blocks > 0 then
    match flush_key_blocks_int (inc_counter_for_resize_op kc) file type malloc_ok with
    | none => none
    | some (res, kc) => some (res, dec_counter_for_resize_op kc)
  else some (false, kc)

/-! ## Well-formed cache states

The states the cache is in between two steps of an operation of a single
thread. `pin` is the block on which a read or write in progress holds its
request, `fl` are the blocks a flush in progress has collected in its burst;
with `pin = none` and `fl = []` the state is the one between two operations.
A block whose write failed in a flush that keeps blocks stays behind with
`BLOCK_ERROR`, outside the LRU ring; such blocks are part of these states. -/

/-- The number of blocks `B` of the cache. -/
def nblocks (kc : KEY_CACHE) : Nat := kc.disk_blocks.toNat

/-- The ring and its second pointer fit together. -/
def RING_OK (ring : List Nat) (ins : Option Nat) : Prop :=
  ring.Nodup ∧ (∀ x, ins = some x → x ∈ ring) ∧ (ring ≠ [] → ins ≠ none)

/-- Sizes and the pool of blocks. -/
structure CNT_INV (kc : KEY_CACHE) : Prop where
  bs_pos : 0 < kc.key_cache_block_size
  blocks_pos : 0 < nblocks kc
  used_le : kc.blocks_used ≤ nblocks kc
  unused_eq : kc.blocks_unused = kc.free_block_list.length + (nblocks kc - kc.blocks_used)
  links_gt : nblocks kc < kc.hash_links
  free_blocks : ∀ b, b ∈ kc.free_block_list →
    (kc.block_root b).hash_link = none ∧ b < kc.blocks_used
  free_blocks_nodup : kc.free_block_list.Nodup
  unborn_blocks : ∀ b, kc.blocks_used ≤ b → (kc.block_root b).hash_link = none
  blocks_cover : ∀ b, b < kc.blocks_used → (kc.block_root b).hash_link = none →
    b ∈ kc.free_block_list

/-- The LRU ring holds the blocks in use that nobody has a request on. -/
structure RING_INV (kc : KEY_CACHE) (pin : Option Nat) (fl : List Nat) : Prop where
  ok : RING_OK kc.used_ring kc.used_ins
  iff : ∀ b, b ∈ kc.used_ring ↔
    ((kc.block_root b).hash_link ≠ none ∧ pin ≠ some b ∧ b ∉ fl ∧
      (kc.block_root b).status.error = false)
  pin_used : ∀ b, pin = some b → (kc.block_root b).hash_link ≠ none ∧ b ∉ fl
  fl_used : ∀ b, b ∈ fl → (kc.block_root b).hash_link ≠ none
  fl_nodup : fl.Nodup

/-- No call of `my_pread` on the file store of the cache returns more than the
size of a block: the file store never makes a read fail with `MY_FILE_ERROR`
and never delivers more than it is asked for. -/
def bounded_reads (kc : KEY_CACHE) : Prop :=
  ∀ n g, kc.disk.pread_forced n = some g → g ≤ kc.key_cache_block_size

/-- What holds of a block in use that no operation is working on: it is in use
and not in a switch, its length is within the block unless a call of `my_pread`
may return more than the size of a block, `BLOCK_IN_FLUSH` marks the blocks of
the write burst, and a block with `BLOCK_ERROR` is not dirty. -/
@[reducible] def block_ok (kc : KEY_CACHE) (fl : List Nat) (b : Nat) : Prop :=
  (kc.block_root b).status.in_use = true ∧
  (kc.block_root b).status.in_switch = false ∧
  (kc.block_root b).status.reassigned = false ∧
  (kc.block_root b).status.in_eviction = false ∧
  (kc.block_root b).status.in_flushwrite = false ∧
  (bounded_reads kc → (kc.block_root b).length ≤ kc.key_cache_block_size) ∧
  ((kc.block_root b).status.in_flush = true ↔ b ∈ fl) ∧
  ((kc.block_root b).status.error = true → (kc.block_root b).status.changed = false)

/-- The status words. The block an operation holds pinned is in the middle of
a change and exempt. -/
structure STAT_INV (kc : KEY_CACHE) (pin : Option Nat) (fl : List Nat) : Prop where
  used : ∀ b, (kc.block_root b).hash_link ≠ none → pin ≠ some b → block_ok kc fl b
  quiet : ∀ b, (kc.block_root b).hash_link ≠ none → pin ≠ some b →
    (kc.block_root b).status.read = true ∧ (kc.block_root b).status.for_update = false
  flushing : ∀ b, b ∈ fl →
    (kc.block_root b).status.changed = true ∧ (kc.block_root b).status.error = false
  free : ∀ b, (kc.block_root b).hash_link = none → (kc.block_root b).status = {}

/-- The request counters. -/
structure REQ_INV (kc : KEY_CACHE) (pin : Option Nat) (fl : List Nat) : Prop where
  block_free : ∀ b, pin ≠ some b → b ∉ fl → (kc.block_root b).requests = 0
  block_held : ∀ b, pin = some b ∨ b ∈ fl → (kc.block_root b).requests = 1
  link_free : ∀ h, (∀ b, pin = some b → (kc.block_root b).hash_link ≠ some h) →
    (kc.hash_link_root h).requests = 0

/-- The chains of dirty and of clean blocks. -/
structure CHAIN_INV (kc : KEY_CACHE) : Prop where
  changed_iff : ∀ i b, b ∈ kc.changed_blocks i ↔
    ∃ h, (kc.block_root b).hash_link = some h ∧ (kc.block_root b).status.changed = true ∧
      FILE_HASH (kc.hash_link_root h).file = i
  file_iff : ∀ i b, b ∈ kc.file_blocks i ↔
    ∃ h, (kc.block_root b).hash_link = some h ∧ (kc.block_root b).status.changed = false ∧
      FILE_HASH (kc.hash_link_root h).file = i
  changed_nodup : ∀ i, (kc.changed_blocks i).Nodup
  file_nodup : ∀ i, (kc.file_blocks i).Nodup

/-- The hash table and the pool of hash links. -/
structure HASH_INV (kc : KEY_CACHE) : Prop where
  iff : ∀ i h, h ∈ kc.hash_root i ↔
    ((kc.hash_link_root h).block ≠ none ∧
      KEYCACHE_HASH kc (kc.hash_link_root h).file (kc.hash_link_root h).diskpos = i)
  nodup : ∀ i, (kc.hash_root i).Nodup
  uniq : ∀ h h', (kc.hash_link_root h).block ≠ none → (kc.hash_link_root h').block ≠ none →
    (kc.hash_link_root h).file = (kc.hash_link_root h').file →
    (kc.hash_link_root h).diskpos = (kc.hash_link_root h').diskpos → h = h'
  aligned : ∀ h, (kc.hash_link_root h).block ≠ none →
    (kc.hash_link_root h).diskpos % kc.key_cache_block_size = 0
  link_back : ∀ h b, (kc.hash_link_root h).block = some b → (kc.block_root b).hash_link = some h
  back : ∀ b h, (kc.block_root b).hash_link = some h → (kc.hash_link_root h).block = some b
  free_links : ∀ h, h ∈ kc.free_hash_list →
    (kc.hash_link_root h).block = none ∧ h < kc.hash_links_used
  free_links_nodup : kc.free_hash_list.Nodup
  unborn_links : ∀ h, kc.hash_links_used ≤ h → (kc.hash_link_root h).block = none
  links_cover : ∀ h, h < kc.hash_links_used → (kc.hash_link_root h).block = none →
    h ∈ kc.free_hash_list
  links_used_le : kc.hash_links_used ≤ kc.hash_links

/-- Well-formed cache state. -/
structure WF (kc : KEY_CACHE) (pin : Option Nat) (fl : List Nat) : Prop where
  cnt : CNT_INV kc
  ring : RING_INV kc pin fl
  stat : STAT_INV kc pin fl
  req : REQ_INV kc pin fl
  chain : CHAIN_INV kc
  hash : HASH_INV kc

/-- The cache is initialised, enabled, and not being resized. -/
def usable (kc : KEY_CACHE) : Prop :=
  kc.key_cache_inited = true ∧ kc.can_be_used = true ∧ kc.in_resize = false

/-- The fields of a block descriptor apart from the LRU bookkeeping. -/
def same_core (v w : BLOCK_LINK) : Prop :=
  v.hash_link = w.hash_link ∧ v.buffer = w.buffer ∧ v.offset = w.offset ∧
  v.length = w.length ∧ v.status = w.status ∧ v.requests = w.requests

/-- The cache with the LRU bookkeeping replaced. -/
def lru_set (kc : KEY_CACHE) (br : Nat → BLOCK_LINK) (ring : List Nat) (ins : Option Nat)
    (t w : Nat) : KEY_CACHE :=
  { kc with block_root := br, used_ring := ring, used_ins := ins, keycache_time := t,
            warm_blocks := w }

/-- No hash link in the table carries the key `(f, key)`. -/
def not_cached (kc : KEY_CACHE) (f key : Nat) : Prop :=
  ∀ h, (kc.hash_link_root h).block ≠ none →
    ¬ ((kc.hash_link_root h).file = f ∧ (kc.hash_link_root h).diskpos = key)

/-- The cache after `find_key_block` has given the unused block `b` and the
hash link `h` to the page `(f, key)`; `fh`, `hu`, `fb`, `bu` are what is left of
the two pools. -/
def miss_unused_state (kc : KEY_CACHE) (f key level h b : Nat) (fh : List Nat) (hu : Nat)
    (fb : List Nat) (bu : Nat) : KEY_CACHE :=
  { kc with
    free_hash_list := fh, hash_links_used := hu
    hash_link_root := Function.update kc.hash_link_root h ⟨some b, f, key, 1⟩
    hash_root := Function.update kc.hash_root (KEYCACHE_HASH kc f key)
      (h :: kc.hash_root (KEYCACHE_HASH kc f key))
    free_block_list := fb, blocks_used := bu, blocks_unused := kc.blocks_unused - 1
    block_root := Function.update kc.block_root b
      { kc.block_root b with
        status := BLOCK_IN_USE, length := 0, offset := kc.key_cache_block_size, requests := 1,
        temperature := BLOCK_COLD, hits_left := level, last_hit_time := 0,
        hash_link := some h }
    file_blocks := Function.update kc.file_blocks (FILE_HASH f)
      (b :: kc.file_blocks (FILE_HASH f)) }

/-- The cache after the primary request has read the page of block `b`, which
belongs to the hash link `h`: the buffer holds what `my_pread` delivered, and
the block is `BLOCK_READ`, or `BLOCK_ERROR` if less than `min_length` arrived. -/
def read_block_state (kc : KEY_CACHE) (b h read_length min_length : Nat) : KEY_CACHE :=
  { kc with
    global_cache_read := kc.global_cache_read + 1
    disk := (my_pread kc.disk (kc.hash_link_root h).file read_length
      (kc.hash_link_root h).diskpos).2.2
    block_root := Function.update kc.block_root b
      (if (my_pread kc.disk (kc.hash_link_root h).file read_length
          (kc.hash_link_root h).diskpos).1 < min_length then
        { kc.block_root b with
          buffer := pread_into kc.disk (kc.hash_link_root h).file (kc.hash_link_root h).diskpos
            (my_pread kc.disk (kc.hash_link_root h).file read_length
              (kc.hash_link_root h).diskpos).2.1 (kc.block_root b).buffer
          status := { (kc.block_root b).status with error := true } }
      else
        { kc.block_root b with
          buffer := pread_into kc.disk (kc.hash_link_root h).file (kc.hash_link_root h).diskpos
            (my_pread kc.disk (kc.hash_link_root h).file read_length
              (kc.hash_link_root h).diskpos).2.1 (kc.block_root b).buffer
          status := { (kc.block_root b).status with read := true }
          length := (my_pread kc.disk (kc.hash_link_root h).file read_length
            (kc.hash_link_root h).diskpos).1 }) }

/-- A cache in which nothing is cached yet: all `B` blocks of `bs` bytes are
unused and all hash links are free, as `init_key_cache` leaves them; `d` is
the file store behind it. -/
def empty_cache (B bs entries links minw age : Nat) (d : DISK) : KEY_CACHE :=
  { key_cache_inited := true, can_be_used := true, key_cache_block_size := bs,
    disk_blocks := B, blocks_unused := B, hash_entries := entries, hash_links := links,
    min_warm_blocks := minw, age_threshold := age, disk := d }

/-- A file store with the single file `f` of `size` bytes; byte `p` of it is
`p % 251`. -/
def one_file (f size : Nat) : DISK :=
  { data := fun g p => if g = f then p % 251 else 0
    size := fun g => if g = f then size else 0 }

/-- The cache after the first request on block `b` has taken it out of the LRU
ring; `ins` is where `used_ins` points then. -/
def pinned_state (kc : KEY_CACHE) (b : Nat) (ins : Option Nat) : KEY_CACHE :=
  set_block { kc with used_ring := kc.used_ring.erase b, used_ins := ins } b
    { kc.block_root b with requests := 1 }

/-- Block `b` belongs to a page of file `f`. -/
def of_file (kc : KEY_CACHE) (f b : Nat) : Prop :=
  ∃ h, (kc.block_root b).hash_link = some h ∧ (kc.hash_link_root h).file = f

/-- The cache after `link_to_file_list` has moved block `b` from the chain it
was in to the clean chain of `file`. -/
def cleaned_state (kc : KEY_CACHE) (b file : Nat) : KEY_CACHE :=
  { kc with
    changed_blocks := fun i => (kc.changed_blocks i).erase b
    file_blocks := Function.update (fun i => (kc.file_blocks i).erase b) (FILE_HASH file)
      (b :: (kc.file_blocks (FILE_HASH file)).erase b)
    block_root := Function.update kc.block_root b
      { kc.block_root b with status := { (kc.block_root b).status with changed := false } }
    blocks_changed :=
      if (kc.block_root b).status.changed then dec64 kc.blocks_changed else kc.blocks_changed
    global_blocks_changed :=
      if (kc.block_root b).status.changed then dec64 kc.global_blocks_changed
      else kc.global_blocks_changed }

/-- The cache after `free_block` has given block `b` with hash link `h` back to
the pool; `br`, `ring`, `ins`, `t`, `w` are the block descriptors and the LRU
bookkeeping it leaves. -/
def freed_state (kc : KEY_CACHE) (b h : Nat) (br : Nat → BLOCK_LINK) (ring : List Nat)
    (ins : Option Nat) (t w : Nat) : KEY_CACHE :=
  { kc with
    block_root := br, used_ring := ring, used_ins := ins, keycache_time := t, warm_blocks := w
    changed_blocks := fun i => (kc.changed_blocks i).erase b
    file_blocks := fun i => (kc.file_blocks i).erase b
    hash_root := fun i => (kc.hash_root i).erase h
    hash_link_root := Function.update kc.hash_link_root h
      { kc.hash_link_root h with block := none }
    free_hash_list := h :: kc.free_hash_list
    free_block_list := b :: kc.free_block_list
    blocks_unused := kc.blocks_unused + 1 }

/-- The call of `my_pwrite` that writes the dirty part of block `b`, whose page
is at hash link `h`, to `file`. -/
def block_pwrite (kc : KEY_CACHE) (file b h : Nat) : Option Int × DISK :=
  my_pwrite kc.disk file
    (buffer_bytes (kc.block_root b).buffer (kc.block_root b).offset
      ((kc.block_root b).length - (kc.block_root b).offset))
    ((kc.hash_link_root h).diskpos + (kc.block_root b).offset)

/-- The cache after `flush_cached_blocks` has written block `b` of the burst:
the file store has taken the write, a failed write has left `BLOCK_ERROR`, and
the block is in the clean chain of `file`. -/
def written_state (kc : KEY_CACHE) (file b h : Nat) : KEY_CACHE :=
  cleaned_state
    (set_block
      { kc with
        disk := (block_pwrite kc file b h).2
        global_cache_write := kc.global_cache_write + 1 } b
      { kc.block_root b with
        status :=
          { (kc.block_root b).status with
            error := (kc.block_root b).status.error || (block_pwrite kc file b h).1.isSome
            in_flushwrite := false } })
    b file

/-- The sizes and switches of the cache that no operation on blocks changes. -/
def same_config (kc kc' : KEY_CACHE) : Prop :=
  kc'.key_cache_inited = kc.key_cache_inited ∧ kc'.can_be_used = kc.can_be_used ∧
  kc'.in_resize = kc.in_resize ∧ kc'.resize_in_flush = kc.resize_in_flush ∧
  kc'.key_cache_block_size = kc.key_cache_block_size ∧ kc'.disk_blocks = kc.disk_blocks ∧
  kc'.hash_entries = kc.hash_entries ∧ kc'.hash_links = kc.hash_links ∧
  kc'.min_warm_blocks = kc.min_warm_blocks ∧ kc'.age_threshold = kc.age_threshold ∧
  kc'.my_disable_flush_key_blocks = kc.my_disable_flush_key_blocks

/-- Block `b` belongs to a page of file `f` and is dirty. -/
def dirty_of (kc : KEY_CACHE) (f b : Nat) : Prop :=
  of_file kc f b ∧ (kc.block_root b).status.changed = true

/-- The call `w` of `my_pwrite` writes the dirty part of block `b` as it is in
`kc`: to file `f`, at the position of the page plus `offset`, the bytes
`buffer[offset .. length)`. -/
def pwrite_of (kc : KEY_CACHE) (f b : Nat) (w : PWRITE_CALL) : Prop :=
  ∃ h, (kc.block_root b).hash_link = some h ∧ w.file = f ∧
    w.pos = (kc.hash_link_root h).diskpos + (kc.block_root b).offset ∧
    w.data = buffer_bytes (kc.block_root b).buffer (kc.block_root b).offset
      ((kc.block_root b).length - (kc.block_root b).offset)

/-- The number of blocks of the cache whose temperature is `BLOCK_WARM`. -/
def warm_count (kc : KEY_CACHE) : Nat :=
  ((List.range (nblocks kc)).filter
    (fun b => decide ((kc.block_root b).temperature = BLOCK_WARM))).length

/-- The bookkeeping of temperatures and of the dirty part of the buffers:
`warm_blocks` counts the warm blocks, a block without a page is cold and
empty, `offset` is within the block, and a dirty block has its `offset` below
its `length`. -/
structure AUX (kc : KEY_CACHE) : Prop where
  warm : kc.warm_blocks = warm_count kc
  cold : ∀ b, (kc.block_root b).hash_link = none →
    (kc.block_root b).temperature = BLOCK_COLD
  small : nblocks kc < 18446744073709551616
  pool : ∀ b, (kc.block_root b).hash_link ≠ none → b < nblocks kc
  free_len : ∀ b, (kc.block_root b).hash_link = none → (kc.block_root b).length = 0
  off_le : ∀ b, (kc.block_root b).offset ≤ kc.key_cache_block_size
  dirty : ∀ b, (kc.block_root b).status.changed = true →
    (kc.block_root b).offset ≤ (kc.block_root b).length

/-- Two block descriptors agree on what `AUX` looks at. -/
def aux_same (v w : BLOCK_LINK) : Prop :=
  v.temperature = w.temperature ∧ v.hash_link = w.hash_link ∧ v.length = w.length ∧
  v.offset = w.offset ∧ v.status.changed = w.status.changed

/-- One step of a flush, from `kc` to `kc'`, working on block `b`: every other
block keeps its page and its data, `b` is given back to the pool if `freed`,
else it keeps its page and its data, and `W` are the calls of `my_pwrite`
made. -/
structure STEP (kc kc' : KEY_CACHE) (b : Nat) (freed : Bool) (W : List PWRITE_CALL) :
    Prop where
  config : same_config kc kc'
  used : kc'.blocks_used = kc.blocks_used
  others : ∀ x, x ≠ b → same_core (kc'.block_root x) (kc.block_root x)
  links : ∀ h, (freed = true → (kc.block_root b).hash_link ≠ some h) →
    kc'.hash_link_root h = kc.hash_link_root h
  gone : freed = true → (kc'.block_root b).hash_link = none
  stays : freed = false →
    (kc'.block_root b).hash_link = (kc.block_root b).hash_link ∧
    (kc'.block_root b).buffer = (kc.block_root b).buffer ∧
    (kc'.block_root b).offset = (kc.block_root b).offset ∧
    (kc'.block_root b).length = (kc.block_root b).length ∧
    ((kc'.block_root b).status.changed = true →
      (kc.block_root b).status.changed = true ∧ W = []) ∧
    (W = [] → (kc'.block_root b).status.error = (kc.block_root b).status.error ∧
      (kc'.block_root b).status.changed = (kc.block_root b).status.changed)
  pool : kc'.free_block_list = (if freed then [b] else []) ++ kc.free_block_list ∧
    kc'.blocks_unused = kc.blocks_unused + (if freed then 1 else 0)
  log : kc'.disk.pwrites = kc.disk.pwrites ++ W
  aux : AUX kc → AUX kc'

/-- What a flush of file `f` has done on the way from `kc0` to `kc`: blocks of
other files are as they were; a block of `f` that is still in use has its page
and its data, and if it is still dirty it has not been written; `P` are the
blocks written so far, `W` the calls of `my_pwrite` for them, and `F` the
blocks given back to the pool. -/
structure FLUSH_REL (kc0 kc : KEY_CACHE) (f : Nat) (P F : List Nat) (W : List PWRITE_CALL) :
    Prop where
  config : same_config kc0 kc
  used : kc.blocks_used = kc0.blocks_used
  frame : ∀ x, ¬ of_file kc0 f x → same_core (kc.block_root x) (kc0.block_root x)
  frame_links : ∀ x h, ¬ of_file kc0 f x → (kc0.block_root x).hash_link = some h →
    kc.hash_link_root h = kc0.hash_link_root h
  kept : ∀ x, of_file kc0 f x → (kc.block_root x).hash_link ≠ none →
    (kc.block_root x).hash_link = (kc0.block_root x).hash_link ∧
    (∀ h, (kc0.block_root x).hash_link = some h → kc.hash_link_root h = kc0.hash_link_root h) ∧
    (kc.block_root x).buffer = (kc0.block_root x).buffer ∧
    (kc.block_root x).offset = (kc0.block_root x).offset ∧
    (kc.block_root x).length = (kc0.block_root x).length ∧
    ((kc.block_root x).status.changed = true →
      (kc0.block_root x).status.changed = true ∧ x ∉ P)
  unused : ∀ x, (kc0.block_root x).hash_link = none → (kc.block_root x).hash_link = none
  pool : kc.free_block_list = F ++ kc0.free_block_list ∧
    kc.blocks_unused = kc0.blocks_unused + F.length
  pool_file : ∀ x, x ∈ F → of_file kc0 f x
  log : kc.disk.pwrites = kc0.disk.pwrites ++ W
  written : List.Forall₂ (pwrite_of kc0 f) P W
  written_dirty : ∀ x, x ∈ P → dirty_of kc0 f x
  written_nodup : P.Nodup

/-- Every block of file `f` that was dirty in `kc0` has been written (is in
`P`) or is still dirty in `kc`. -/
def COVER (kc0 kc : KEY_CACHE) (f : Nat) (P : List Nat) : Prop :=
  ∀ x, dirty_of kc0 f x → x ∈ P ∨ (kc.block_root x).status.changed = true

/-- No block of file `f` carries `BLOCK_ERROR`. -/
def NOERR (kc : KEY_CACHE) (f : Nat) : Prop :=
  ∀ x, of_file kc f x → (kc.block_root x).status.error = false

/-- The flush gives the blocks it has flushed back to the pool
(`FLUSH_RELEASE`, `FLUSH_IGNORE_CHANGED`). -/
def releasing (type : flush_type) : Prop := ¬ (type = FLUSH_KEEP ∨ type = FLUSH_FORCE_WRITE)

/-- The state of a flush of file `f` between two of its steps: the cache is
well-formed with the blocks `fl` in the write burst, and `FLUSH_REL` tells what
has been done since the start in `kc0`. -/
structure FLUSHING (kc0 kc : KEY_CACHE) (f : Nat) (type : flush_type) (fl P F : List Nat)
    (W : List PWRITE_CALL) : Prop where
  wf : WF kc none fl
  rel : FLUSH_REL kc0 kc f P F W
  cover : type ≠ FLUSH_IGNORE_CHANGED → COVER kc0 kc f P
  noerr : (releasing type ∨ ∀ w, w ∈ W → w.error = none) → NOERR kc0 f → NOERR kc f
  ign : type = FLUSH_IGNORE_CHANGED → fl = [] ∧ P = []
  fl_file : ∀ x, x ∈ fl → of_file kc0 f x
  aux : AUX kc0 → AUX kc

/-- What the scan of the dirty chain in a flush of file `f` leaves, by the way
it ends; `P`, `W` are the blocks written and the calls of `my_pwrite` made
before the scan, and `fit` says that the burst array has room for all dirty
blocks of the file. -/
def SCAN_POST (kc0 : KEY_CACHE) (f : Nat) (type : flush_type) (P : List Nat)
    (W : List PWRITE_CALL) (fit : Prop) : SCAN_RESULT → Prop
  | .scanned kc burst lif lfu fis =>
    lif = none ∧ lfu = none ∧ fis = [] ∧
    ∃ F, FLUSHING kc0 kc f type burst P F W ∧ (∀ x, dirty_of kc f x → x ∈ burst) ∧
      (type = FLUSH_IGNORE_CHANGED → burst = [])
  | .restart kc e _ fis =>
    fis = [] ∧ ¬ fit ∧
    ∃ P' F W', FLUSHING kc0 kc f type [] P' F W' ∧ P.length < P'.length ∧
      (e ≠ 0 ↔ ∃ w, w ∈ W' ∧ w.error ≠ none)
  | .err kc e =>
    ¬ fit ∧ e ≠ 0 ∧
    ∃ P' F W', FLUSHING kc0 kc f type [] P' F W' ∧ ∃ w, w ∈ W' ∧ w.error ≠ none

/-! ## Initialisation -/

/-- What the platform gives to `init_key_cache`: the sizes of the two
descriptors and of a pointer, the macro `ALIGN_SIZE`, and the outcome of the two
allocations (`true` when memory is handed out) by the round of the allocation
loop and the number of bytes asked for. -/
structure PLATFORM where
  sizeof_BLOCK_LINK : Nat
  sizeof_HASH_LINK : Nat
  sizeof_pointer : Nat
  ALIGN_SIZE : Nat → Nat
  my_large_malloc : Nat → Nat → Bool
  my_malloc : Nat → Nat → Bool

/-- The sizes of an LP64 platform, `ALIGN_SIZE` rounding up to a multiple of 8,
and allocations that succeed. -/
def lp64 : PLATFORM :=
  { sizeof_BLOCK_LINK := 112, sizeof_HASH_LINK := 48, sizeof_pointer := 8
    ALIGN_SIZE := fun a => (a + 7) / 8 * 8
    my_large_malloc := fun _ _ => true
    my_malloc := fun _ _ => true }

/-- The value of an `ulong` converted to `int`. -/
def to_int (x : Nat) : Int :=
  if x % 4294967296 < 2147483648 then ((x % 4294967296 : Nat) : Int)
  else ((x % 4294967296 : Nat) : Int) - 4294967296

/-- The value of an `int` converted to `uint`. -/
def to_uint (x : Int) : Nat := (x % 4294967296).toNat

/-- The loop of `next_power`: `old_value= value; value&= value-1` while `value`
is not zero. Every round makes `value` smaller, so `value` rounds are enough. -/
def next_power_loop : Nat → Nat → Nat → Nat
  | 0, _, old_value => old_value
  | fuel + 1, value, old_value =>
    if value = 0 then old_value
    else next_power_loop fuel (Nat.land value (value - 1)) value

/-- Twice the highest bit of a `uint`: `next_power`. -/
def next_power (value : Nat) : Nat :=
  (next_power_loop value value 1 * 2) % 4294967296

/-- The size of the hash table for `blocks` blocks: the next bigger power of
two, doubled when it is below `blocks * 5/4`. -/
def init_hash_entries (blocks : Nat) : Nat :=
  if next_power (blocks % 4294967296) < blocks * 5 / 4 then
    (next_power (blocks % 4294967296) * 2) % 4294967296
  else next_power (blocks % 4294967296)

/-- The bytes `length` of the descriptor tables. -/
def init_length (p : PLATFORM) (blocks hash_links hash_entries : Nat) : Nat :=
  p.ALIGN_SIZE (blocks * p.sizeof_BLOCK_LINK) +
  p.ALIGN_SIZE (hash_links * p.sizeof_HASH_LINK) +
  p.ALIGN_SIZE (p.sizeof_pointer * hash_entries)

/-- The loop `while (length + blocks * key_cache_block_size > use_mem) blocks--`
of `init_key_cache`; the result is `blocks` and `length`. A count that would
pass below zero is not followed. -/
def init_fit (p : PLATFORM) (key_cache_block_size use_mem hash_links hash_entries : Nat) :
    Nat → Nat → Option (Nat × Nat)
  | 0, _ => none
  | fuel + 1, blocks =>
    if init_length p blocks hash_links hash_entries + blocks * key_cache_block_size > use_mem
    then
      if blocks = 0 then none
      else init_fit p key_cache_block_size use_mem hash_links hash_entries fuel (blocks - 1)
    else some (blocks, init_length p blocks hash_links hash_entries)

/-- The allocation loop `for ( ; ; )` of `init_key_cache`, entered with
`blocks`. The result says whether memory was obtained and gives `blocks`,
`hash_entries` and `hash_links` as the loop leaves them. -/
def init_alloc (p : PLATFORM) (key_cache_block_size use_mem : Nat) :
    Nat → Nat → Nat → Option (Bool × Nat × Nat × Nat)
  | 0, _, _ => none
  | fuel + 1, round, blocks =>
    (init_fit p key_cache_block_size use_mem (2 * blocks) (init_hash_entries blocks)
      (blocks + 1) blocks).bind fun r =>
    if p.my_large_malloc round (r.1 * key_cache_block_size) && p.my_malloc round r.2 then
      some (true, r.1, init_hash_entries blocks, 2 * blocks)
    else if r.1 < 8 then some (false, r.1, init_hash_entries blocks, 2 * blocks)
    else init_alloc p key_cache_block_size use_mem fuel (round + 1) (r.1 / 4 * 3)

/-- The handle as `init_key_cache` fills it before it sizes the cache. -/
def init_handle (kc : KEY_CACHE) (key_cache_block_size use_mem : Nat) : KEY_CACHE :=
  let kc1 :=
    { kc with
      global_cache_w_requests := 0, global_cache_r_requests := 0
      global_cache_read := 0, global_cache_write := 0, disk_blocks := -1 }
  let kc2 :=
    if kc1.key_cache_inited then kc1
    else
      { kc1 with
        key_cache_inited := true, in_resize := false, resize_in_flush := false
        cnt_for_resize_op := 0 }
  { kc2 with key_cache_mem_size := use_mem, key_cache_block_size := key_cache_block_size }

/-- The handle of a cache of `blocks` blocks, as `init_key_cache` leaves it
when the memory has been obtained. -/
def init_tables (kc : KEY_CACHE) (blocks hash_entries hash_links division_limit
    age_threshold : Nat) : KEY_CACHE :=
  { kc with
    hash_entries := hash_entries
    blocks_unused := blocks
    disk_blocks := to_int blocks
    hash_links := hash_links
    block_root := fun _ => {}
    hash_root := fun _ => []
    hash_link_root := fun _ => {}
    hash_links_used := 0
    free_hash_list := []
    blocks_used := 0
    blocks_changed := 0
    global_blocks_changed := 0
    used_ring := []
    used_ins := none
    free_block_list := []
    keycache_time := 0
    warm_blocks := 0
    min_warm_blocks := if division_limit ≠ 0 then blocks * division_limit / 100 + 1 else blocks
    age_threshold := if age_threshold ≠ 0 then blocks * age_threshold / 100 else blocks
    can_be_used := true
    changed_blocks := fun _ => []
    file_blocks := fun _ => [] }

/-- Initialise a key cache: `init_key_cache`. The result is the value returned
and the handle. -/
def init_key_cache (p : PLATFORM) (kc : KEY_CACHE)
    (key_cache_block_size use_mem division_limit age_threshold : Nat) :
    Option (Int × KEY_CACHE) :=
  if kc.key_cache_inited ∧ kc.disk_blocks > 0 then some (0, kc)
  else if p.sizeof_BLOCK_LINK + 2 * p.sizeof_HASH_LINK + p.sizeof_pointer * 5 / 4 +
      key_cache_block_size = 0 then none
  else
    let blocks := use_mem / (p.sizeof_BLOCK_LINK + 2 * p.sizeof_HASH_LINK +
      p.sizeof_pointer * 5 / 4 + key_cache_block_size)
    if blocks ≥ 8 then
      (init_alloc p key_cache_block_size use_mem (blocks + 1) 0 blocks).map fun r =>
        if r.1 then
          (to_int r.2.1,
           init_tables (init_handle kc key_cache_block_size use_mem) r.2.1 r.2.2.1 r.2.2.2
             division_limit age_threshold)
        else
          (0,
           { init_handle kc key_cache_block_size use_mem with
             hash_entries := r.2.2.1, disk_blocks := 0, can_be_used := false })
    else
      some (to_int 4294967295,
        { init_handle kc key_cache_block_size use_mem with can_be_used := false })

/-- Change the parameters of the midpoint insertion strategy:
`change_key_cache_param`. The products are those of `uint`. -/
def change_key_cache_param (kc : KEY_CACHE) (division_limit age_threshold : Nat) :
    KEY_CACHE :=
  let kc1 :=
    if division_limit ≠ 0 then
      { kc with
        min_warm_blocks :=
          (to_uint kc.disk_blocks * division_limit % 4294967296 / 100 + 1) % 4294967296 }
    else kc
  if age_threshold ≠ 0 then
    { kc1 with
      age_threshold := to_uint kc1.disk_blocks * age_threshold % 4294967296 / 100 }
  else kc1

/-- The number `h` is the smallest power of two that is at least `x`. -/
def smallest_power_of_two_ge (h x : Nat) : Prop :=
  (∃ k, h = 2 ^ k) ∧ x ≤ h ∧ ∀ k, x ≤ 2 ^ k → h ≤ 2 ^ k

/-- What `flush_key_blocks_int` on file `f` has done when it returns with
`last_errno = e`: the relation `FLUSHING` to the state `kc0` at entry holds with
an empty burst; `e` is not 0 exactly when a `my_pwrite` of the flush failed; no
dirty block of `f` is left, unless the flush gave up on an error with a burst
array too small for the dirty blocks (`¬ fit`); and a releasing flush without
error leaves no block of `f`. -/
def FLUSH_POST (kc0 : KEY_CACHE) (f : Nat) (type : flush_type) (fit : Prop) (e : Int)
    (kc : KEY_CACHE) : Prop :=
  ∃ P F W, FLUSHING kc0 kc f type [] P F W ∧
    (e ≠ 0 ↔ ∃ w, w ∈ W ∧ w.error ≠ none) ∧
    ((∀ x, ¬ dirty_of kc f x) ∨ (e ≠ 0 ∧ ¬ fit)) ∧
    (releasing type → (∀ x, ¬ of_file kc f x) ∨ e ≠ 0)

/-- The dirty blocks of file `f`, in the order of the dirty chain. -/
def dirty_blocks (kc : KEY_CACHE) (f : Nat) : List Nat :=
  (kc.changed_blocks (FILE_HASH f)).filter fun b =>
    match (kc.block_root b).hash_link with
    | some h => decide ((kc.hash_link_root h).file = f)
    | none => false

/-- The write burst array of a flush of file `f` has room for all dirty blocks
of `f`: there are at most `FLUSH_CACHE` of them, or the bigger array can be
allocated. -/
def burst_fits (kc : KEY_CACHE) (f : Nat) (malloc_ok : Bool) : Prop :=
  malloc_ok = true ∨ (dirty_blocks kc f).length ≤ FLUSH_CACHE

/-- The empty cache of 8 blocks of 1024 bytes over one file of 100000 bytes,
with the flushes of type `FLUSH_KEEP` switched off. -/
def no_flush_cache : KEY_CACHE :=
  { key_cache_inited := true, can_be_used := true, key_cache_block_size := 1024,
    disk_blocks := 8, blocks_unused := 8, hash_entries := 16, hash_links := 16,
    min_warm_blocks := 8, age_threshold := 8, my_disable_flush_key_blocks := true,
    disk := one_file 1 100000 }

/-! ## Flushing the whole cache, resizing -/

/-- One run of the loop `for (idx= 0; idx < CHANGED_BLOCKS_HASH; idx++)` of
`flush_all_key_blocks`, over the buckets still ahead: a bucket that is not
empty has the file of its first block flushed. `dirty` selects the dirty chains
(phase 1, `FLUSH_FORCE_WRITE`) or the clean chains (phase 2, `FLUSH_RELEASE`).
The result tells whether a flush has failed (then `flush_all_key_blocks`
returns 1), and gives `found` and the cache. -/
def flush_all_sweep (dirty : Bool) (malloc_ok : Bool) :
    List Nat → KEY_CACHE → Nat → Option (Bool × Nat × KEY_CACHE)
  | [], kc, found => some (false, found, kc)
  | idx :: rest, kc, found =>
    match (if dirty then kc.changed_blocks idx else kc.file_blocks idx) with
    | [] => flush_all_sweep dirty malloc_ok rest kc found
    | block :: _ =>
      match (kc.block_root block).hash_link with
      | none => none
      | some h =>
        match flush_key_blocks_int kc (kc.hash_link_root h).file
            (if dirty then FLUSH_FORCE_WRITE else FLUSH_RELEASE) malloc_ok with
        | none => none
        | some (true, kc) => some (true, found + 1, kc)
        | some (false, kc) => flush_all_sweep dirty malloc_ok rest kc (found + 1)

/-- One of the two loops `do ... while (found)` of `flush_all_key_blocks`; the
result carries the number of blocks found in all runs. -/
def flush_all_phase (dirty : Bool) (malloc_ok : Bool) :
    Nat → KEY_CACHE → Nat → Option (Bool × Nat × KEY_CACHE)
  | 0, _, _ => none
  | fuel + 1, kc, total =>
    match flush_all_sweep dirty malloc_ok (List.range CHANGED_BLOCKS_HASH) kc 0 with
    | none => none
    | some (true, found, kc) => some (true, total + found, kc)
    | some (false, found, kc) =>
      if found ≠ 0 then flush_all_phase dirty malloc_ok fuel kc (total + found)
      else some (false, total, kc)

/-- The outer loop `do ... while (total_found)` of `flush_all_key_blocks`. The
result is `true` when the function returns 1. -/
def flush_all_key_blocks_loop (malloc_ok : Bool) : Nat → KEY_CACHE → Option (Bool × KEY_CACHE)
  | 0, _ => none
  | fuel + 1, kc =>
    match flush_all_phase true malloc_ok (nblocks kc + 1) kc 0 with
    | none => none
    | some (true, _, kc) => some (true, kc)
    | some (false, _, kc) =>
      match flush_all_phase false malloc_ok (nblocks kc + 1) kc 0 with
      | none => none
      | some (true, _, kc) => some (true, kc)
      | some (false, total_found, kc) =>
        if total_found ≠ 0 then flush_all_key_blocks_loop malloc_ok fuel kc
        else some (false, kc)

/-- Flush all blocks in the key cache to disk and free them. -/
def flush_all_key_blocks (kc : KEY_CACHE) (malloc_ok : Bool) : Option (Bool × KEY_CACHE) :=
  flush_all_key_blocks_loop malloc_ok (nblocks kc + 2) kc

/-- The check `cache_empty` of the debug build: every block descriptor has
status 0, no request and no hash link, and every hash link has no request and
no block. -/
def cache_empty (kc : KEY_CACHE) : Bool :=
  if kc.disk_blocks ≤ 0 then true
  else
    ((List.range kc.disk_blocks.toNat).all fun idx =>
      decide ((kc.block_root idx).status.toNat = 0 ∧ (kc.block_root idx).requests = 0 ∧
        (kc.block_root idx).hash_link = none)) &&
    ((List.range kc.hash_links).all fun idx =>
      decide ((kc.hash_link_root idx).requests = 0 ∧ (kc.hash_link_root idx).block = none))

/-- Remove key_cache from memory: `end_key_cache`. -/
def end_key_cache (kc : KEY_CACHE) (cleanup : Bool) : KEY_CACHE :=
  if kc.key_cache_inited = false then kc
  else
    let kc :=
      if kc.disk_blocks > 0 then { kc with disk_blocks := -1, blocks_changed := 0 } else kc
    let kc := { kc with blocks_used := 0, blocks_unused := 0 }
    if cleanup then { kc with key_cache_inited := false, can_be_used := false } else kc

/-- Resize a key cache: `resize_key_cache`. A resize that finds another resize
going on, or operations past the cache not yet finished, waits for good. -/
def resize_key_cache (p : PLATFORM) (kc : KEY_CACHE)
    (key_cache_block_size use_mem division_limit age_threshold : Nat) (malloc_ok : Bool) :
    Option (Int × KEY_CACHE) :=
  if kc.key_cache_inited = false then some (kc.disk_blocks, kc)
  else if key_cache_block_size = kc.key_cache_block_size ∧ use_mem = kc.key_cache_mem_size then
    some ((change_key_cache_param kc division_limit age_threshold).disk_blocks,
      change_key_cache_param kc division_limit age_threshold)
  else if kc.in_resize then none
  else
    let kc := { kc with in_resize := true }
    let flushed : Option (Bool × KEY_CACHE) :=
      if kc.can_be_used then
        match flush_all_key_blocks { kc with resize_in_flush := true } malloc_ok with
        | none => none
        | some (true, kc) =>
          some (true, { kc with resize_in_flush := false, can_be_used := false })
        | some (false, kc) => some (false, { kc with resize_in_flush := false })
      else some (false, kc)
    match flushed with
    | none => none
    | some (true, kc) => some (0, { kc with in_resize := false })
    | some (false, kc) =>
      if kc.cnt_for_resize_op ≠ 0 then none
      else
        match init_key_cache p (end_key_cache kc false) key_cache_block_size use_mem
            division_limit age_threshold with
        | none => none
        | some (blocks, kc) => some (blocks, { kc with in_resize := false })

/-- The file store with the single file 1 of 100000 bytes, on which every
`my_pwrite` fails with `errno = 5`. -/
def failing_disk : DISK :=
  { data := fun g p => if g = 1 then p % 251 else 0
    size := fun g => if g = 1 then 100000 else 0
    pwrite_errno := fun _ => some 5 }

/-- The cache of 8 blocks of 1024 bytes over `failing_disk` after a write of
256 bytes at position 512 of file 1 that stays in the cache: it holds one
dirty block. -/
def failing_dirty_cache : KEY_CACHE :=
  ((key_cache_write (empty_cache 8 1024 16 16 8 8 failing_disk) 1 512 8 (List.replicate 256 7)
    true).map Prod.snd).getD {}

/-- Where `used_ins` points after `block` has left the LRU ring. -/
def pinned_ins (ring : List Nat) (ins : Option Nat) (block : Nat) : Option Nat :=
  if ring = [block] then none
  else if ins = some block then ring_prev ring block else ins

/-- The call of `my_pwrite` that writes back the dirty part of the victim `v` of
an eviction, whose page is at hash link `old`. -/
def evict_pwrite (kc : KEY_CACHE) (v old : Nat) : Option Int × DISK :=
  my_pwrite kc.disk (kc.hash_link_root old).file
    (buffer_bytes (kc.block_root v).buffer (kc.block_root v).offset
      ((kc.block_root v).length - (kc.block_root v).offset))
    ((kc.hash_link_root old).diskpos + (kc.block_root v).offset)

/-- The error of the write back of the victim of an eviction: none if the victim
is clean. -/
def evict_error (kc : KEY_CACHE) (v old : Nat) : Option Int :=
  if (kc.block_root v).status.changed then (evict_pwrite kc v old).1 else none

/-- The cache after the eviction branch of `find_key_block`, entered with the
hash link `h` of the new page already in the hash table, has given the block
`v`, which held the page of hash link `old`, to the page of `h` in `file`. -/
def evicted_state (kc : KEY_CACHE) (file level h v old : Nat) : KEY_CACHE :=
  { kc with
    free_hash_list := old :: kc.free_hash_list
    hash_link_root :=
      Function.update
        (Function.update kc.hash_link_root h { kc.hash_link_root h with block := some v }) old
        { kc.hash_link_root old with block := none }
    hash_root := fun i => (kc.hash_root i).erase old
    used_ring := kc.used_ring.erase v
    used_ins := pinned_ins kc.used_ring kc.used_ins v
    block_root := Function.update kc.block_root v
      { kc.block_root v with
        hits_left := level, last_hit_time := 0, requests := 1
        status := if (evict_error kc v old).isSome then BLOCK_ERROR else BLOCK_IN_USE
        length := 0, offset := kc.key_cache_block_size, hash_link := some h }
    changed_blocks := fun i => (kc.changed_blocks i).erase v
    file_blocks := Function.update (fun i => (kc.file_blocks i).erase v) (FILE_HASH file)
      (v :: (kc.file_blocks (FILE_HASH file)).erase v)
    blocks_changed :=
      if (kc.block_root v).status.changed then dec64 kc.blocks_changed else kc.blocks_changed
    global_blocks_changed :=
      if (kc.block_root v).status.changed then dec64 kc.global_blocks_changed
      else kc.global_blocks_changed
    disk := if (kc.block_root v).status.changed then (evict_pwrite kc v old).2 else kc.disk
    global_cache_write :=
      if (kc.block_root v).status.changed then kc.global_cache_write + 1
      else kc.global_cache_write }

/-- The cache after `get_hash_link` has taken the hash link `h` from the pool
for the page `(f, key)`, which was not cached; `fh`, `hu` are what is left of the
pool. -/
def linked_state (kc : KEY_CACHE) (f key h : Nat) (fh : List Nat) (hu : Nat) : KEY_CACHE :=
  { kc with
    free_hash_list := fh, hash_links_used := hu
    hash_link_root := Function.update kc.hash_link_root h ⟨none, f, key, 1⟩
    hash_root := Function.update kc.hash_root (KEYCACHE_HASH kc f key)
      (h :: kc.hash_root (KEYCACHE_HASH kc f key)) }

/-- The part of a pass of `key_cache_insert` that fills the block: a block
under way to the cache, or a new block for which the caller's data is not all
of the block, is read from the file; a new block that the caller's data fills
takes the data and is `BLOCK_READ`; a block that is in the cache is left
alone. -/
def key_cache_insert_load (kc : KEY_CACHE) (block : Nat) (page_st : PAGE_STATUS)
    (buff : List Nat) (read_length offset : Nat) : Option KEY_CACHE :=
  if (kc.block_root block).status.error = false then
    if page_st = PAGE_WAIT_TO_BE_READ ∨
        (page_st = PAGE_TO_BE_READ ∧ (offset ≠ 0 ∨ read_length < kc.key_cache_block_size)) then
      read_block kc block kc.key_cache_block_size (read_length + offset)
        (decide (page_st = PAGE_TO_BE_READ))
    else if page_st = PAGE_TO_BE_READ then
      some (set_block kc block
        { kc.block_root block with
          buffer := buffer_copy (kc.block_root block).buffer offset (buff.take read_length)
          status := { (kc.block_root block).status with read := true }
          length := read_length + offset })
    else some kc
  else some kc

/-- One pass of the body of the loop of `key_cache_insert` over the cache
blocks of the request; `buff` is what is left of the caller's data. The result
is the `error` flag, the cache, and whether the loop goes on. -/
def key_cache_insert_chunk (kc : KEY_CACHE) (file filepos level : Nat) (buff : List Nat)
    (offset : Nat) : Option (Bool × KEY_CACHE × Bool) :=
  if kc.can_be_used = false ∨ kc.in_resize = true then some (false, kc, false)
  else
    (find_key_block
      { kc with
        global_cache_read := kc.global_cache_read + 1
        global_cache_r_requests := kc.global_cache_r_requests + 1 }
      file (filepos - offset) level false).bind fun r =>
    match r.1 with
    | none => some (false, r.2, false)
    | some (block, page_st) =>
      (key_cache_insert_load r.2 block page_st buff
        (min buff.length (kc.key_cache_block_size - offset)) offset).bind fun kc1 =>
      (remove_reader kc1 block).bind fun kc2 =>
      if (kc2.block_root block).status.error = false then
        (unreg_request kc2 block true).map fun kc3 =>
          (false, kc3,
            decide (buff.length - min buff.length (kc.key_cache_block_size - offset) ≠ 0))
      else (free_block kc2 block).map fun kc3 => (true, kc3, false)

/-- The loop of `key_cache_insert` over the cache blocks of the request. After
a pass the position and the buffer pointer move on by `read_length` and
`offset` becomes 0. -/
def key_cache_insert_loop : Nat → KEY_CACHE → Nat → Nat → Nat → List Nat → Nat →
    Option (Bool × KEY_CACHE)
  | 0, _, _, _, _, _, _ => none
  | fuel + 1, kc, file, filepos, level, buff, offset =>
    (key_cache_insert_chunk kc file filepos level buff offset).bind fun r =>
    if r.2.2 then
      key_cache_insert_loop fuel r.2.1 file
        (filepos - offset + (min buff.length (kc.key_cache_block_size - offset) + offset)) level
        (buff.drop (min buff.length (kc.key_cache_block_size - offset))) 0
    else some (r.1, r.2.1)

/-- Insert a block of file data from a buffer into the key cache. The result
is `true` when the call returns 1. -/
def key_cache_insert (kc : KEY_CACHE) (file filepos level : Nat) (buff : List Nat) :
    Option (Bool × KEY_CACHE) :=
  if kc.key_cache_inited then
    if kc.can_be_used = false ∨ kc.in_resize = true then some (false, kc)
    else
      (key_cache_insert_loop (buff.length + 1) (inc_counter_for_resize_op kc) file filepos
        level buff (filepos % kc.key_cache_block_size)).map
        fun r => (r.1, dec_counter_for_resize_op r.2)
  else some (false, kc)

/-- No block has been attached to a page on the way from `kc` to `kc'`: the
pool of unused blocks has not shrunk, nothing has left the free list, and a
block or a hash link that is attached in `kc'` is attached to the page it had
in `kc`. -/
def no_new_block (kc kc' : KEY_CACHE) : Prop :=
  kc.blocks_unused ≤ kc'.blocks_unused ∧ kc'.blocks_used = kc.blocks_used ∧
  (∃ l, kc'.free_block_list = l ++ kc.free_block_list) ∧
  (∀ b h, (kc'.block_root b).hash_link = some h →
    (kc.block_root b).hash_link = some h ∧
    (kc'.hash_link_root h).file = (kc.hash_link_root h).file ∧
    (kc'.hash_link_root h).diskpos = (kc.hash_link_root h).diskpos) ∧
  (∀ h b, (kc'.hash_link_root h).block = some b → (kc.hash_link_root h).block = some b)

/-- The cached page `(f, key)` is at hash link `h`. -/
def cached_at (kc : KEY_CACHE) (f key h : Nat) : Prop :=
  (kc.hash_link_root h).block ≠ none ∧ (kc.hash_link_root h).file = f ∧
  (kc.hash_link_root h).diskpos = key

/-- The cache after `find_key_block` has found the page of hash link `h` in
block `b` and has registered its request on both. -/
def hit_state (kc : KEY_CACHE) (h b : Nat) : KEY_CACHE :=
  pinned_state
    (set_hash_link kc h
      { kc.hash_link_root h with requests := (kc.hash_link_root h).requests + 1 })
    b (pinned_ins kc.used_ring kc.used_ins b)

/-- An empty cache of 8 blocks of 1024 bytes that is being resized. -/
def resizing_cache : KEY_CACHE :=
  { empty_cache 8 1024 16 16 8 8 (one_file 1 100) with in_resize := true }

/-- The decision of `unreg_request` to promote the block to hot. -/
def unreg_hot (kc : KEY_CACHE) (block : Nat) (at_end : Bool) : Bool :=
  decide ((if (kc.block_root block).hits_left ≠ 0 then (kc.block_root block).hits_left - 1
    else (kc.block_root block).hits_left) = 0 ∧ at_end = true ∧
      kc.warm_blocks > kc.min_warm_blocks)

/-- What `find_key_block` leaves when it gives block `b` with hash link `h` to
a request for the page `(f, key)`, on the way from `kc` to `K`: the block is
pinned for the request, every other block is as it was, and so is every other
hash link that has a block. On a hit (`PAGE_READ`) the block is the one that
held the page; on a miss (`PAGE_TO_BE_READ`) the block is empty, and it is an
unused block or the block at the head of the LRU ring, written back if it was
dirty. -/
structure FOUND (kc K : KEY_CACHE) (f key b h : Nat) (st : PAGE_STATUS) : Prop where
  wf : WF K (some b) []
  config : same_config kc K
  hl : (K.block_root b).hash_link = some h
  link : K.hash_link_root h = ⟨some b, f, key, 1⟩
  others : ∀ x, x ≠ b → K.block_root x = kc.block_root x
  links : ∀ x, x ≠ h → (K.hash_link_root x).block ≠ none →
    K.hash_link_root x = kc.hash_link_root x
  kept : ∀ x y, x ≠ b → (kc.block_root x).hash_link = some y →
    K.hash_link_root y = kc.hash_link_root y
  buffer : (K.block_root b).buffer = (kc.block_root b).buffer
  reads : K.global_cache_read = kc.global_cache_read ∧ K.disk.preads = kc.disk.preads ∧
    K.disk.pread_forced = kc.disk.pread_forced
  hit : st = PAGE_READ →
    cached_at kc f key h ∧ (kc.hash_link_root h).block = some b ∧
    K.block_root b = { kc.block_root b with requests := 1 } ∧ K.disk = kc.disk ∧
    (∀ x, x ≠ h → K.hash_link_root x = kc.hash_link_root x) ∧
    (kc.block_root b).status.error = false
  miss : st = PAGE_TO_BE_READ →
    not_cached kc f key ∧ (K.block_root b).length = 0 ∧
    (K.block_root b).offset = K.key_cache_block_size ∧
    ((kc.blocks_unused ≠ 0 ∧ (kc.block_root b).hash_link = none ∧ K.disk = kc.disk ∧
        (K.block_root b).status = BLOCK_IN_USE) ∨
      ∃ old rest, kc.used_ring = b :: rest ∧ kc.blocks_unused = 0 ∧
        (kc.block_root b).hash_link = some old ∧ old ≠ h ∧
        (K.hash_link_root old).block = none ∧
        K.disk = (if (kc.block_root b).status.changed then (evict_pwrite kc b old).2
          else kc.disk) ∧
        (K.block_root b).status =
          if (evict_error kc b old).isSome then BLOCK_ERROR else BLOCK_IN_USE)
  cases : st = PAGE_READ ∨ st = PAGE_TO_BE_READ
  aux : AUX kc → AUX K

/-- The part of a pass of `key_cache_read` that makes the page available in the
block it has got from `find_key_block`: a page that is not there is read; a
page that is there but shorter than what is asked for gets `BLOCK_ERROR`. -/
def key_cache_read_load (kc : KEY_CACHE) (block : Nat) (page_st : PAGE_STATUS)
    (read_length offset : Nat) : Option KEY_CACHE :=
  if (kc.block_root block).status.error = false then
    if page_st ≠ PAGE_READ then
      read_block kc block kc.key_cache_block_size (read_length + offset)
        (decide (page_st = PAGE_TO_BE_READ))
    else if (kc.block_root block).length < read_length + offset then
      some (set_status kc block { (kc.block_root block).status with error := true })
    else some kc
  else some kc

/-- The end of a pass of `key_cache_read`: the data is copied to the caller
unless the block has `BLOCK_ERROR`, the request is given back, and a block with
`BLOCK_ERROR` is freed. -/
def key_cache_read_finish (kc : KEY_CACHE) (block : Nat) (buff : Nat → Nat)
    (dst read_length offset : Nat) (error more : Bool) :
    Option (Bool × (Nat → Nat) × KEY_CACHE × Bool) :=
  (remove_reader kc block).bind fun k =>
    if (k.block_root block).status.error = false then
      (unreg_request k block true).map fun k' =>
        (error,
          (if (kc.block_root block).status.error = false then
            fun i =>
              if dst ≤ i ∧ i < dst + read_length then
                (kc.block_root block).buffer (offset + (i - dst))
              else buff i
           else buff), k', more)
    else
      (free_block k block).map fun k' =>
        (true,
          (if (kc.block_root block).status.error = false then
            fun i =>
              if dst ≤ i ∧ i < dst + read_length then
                (kc.block_root block).buffer (offset + (i - dst))
              else buff i
           else buff), k', false)

/-- The file store at the time `find_key_block` has handed out a block for a
page that is not cached: the block at the head of the LRU ring, if it has to be
evicted and is dirty, has been written back. -/
def disk_after_find (kc : KEY_CACHE) : DISK :=
  if kc.blocks_unused ≠ 0 then kc.disk
  else
    match kc.used_ring with
    | [] => kc.disk
    | v :: _ =>
      match (kc.block_root v).hash_link with
      | none => kc.disk
      | some old =>
        if (kc.block_root v).status.changed then (evict_pwrite kc v old).2 else kc.disk

/-- The pages of the cache are the same in `kc` and `kc'`: every block has its
page, its data, its dirty region and its status, every hash link is as it was,
and so is the file store. The LRU bookkeeping and the statistics may differ. -/
def same_pages (kc kc' : KEY_CACHE) : Prop :=
  same_config kc kc' ∧ (∀ x, same_core (kc'.block_root x) (kc.block_root x)) ∧
  kc'.hash_link_root = kc.hash_link_root ∧ kc'.disk = kc.disk

/-- What a pass of a read, a write or an insert that has not failed leaves, on
the way from `kc` to `kc'`: the page `(f, key)` is cached in block `b` at hash
link `h`, without `BLOCK_ERROR`; every other block is as it was, and so is
every other hash link that has a block. -/
structure CHUNK_OK (kc kc' : KEY_CACHE) (f key b h : Nat) : Prop where
  wf : WF kc' none []
  config : same_config kc kc'
  cached : cached_at kc' f key h
  block : (kc'.hash_link_root h).block = some b
  noerr : (kc'.block_root b).status.error = false
  others : ∀ x, x ≠ b → same_core (kc'.block_root x) (kc.block_root x)
  links : ∀ y, y ≠ h → (kc'.hash_link_root y).block ≠ none →
    kc'.hash_link_root y = kc.hash_link_root y
  kept : ∀ x y, x ≠ b → (kc.block_root x).hash_link = some y →
    kc'.hash_link_root y = kc.hash_link_root y

/-- The cache between two operations: well-formed, with its bookkeeping in
order, initialised, enabled and not being resized. -/
def INV (kc : KEY_CACHE) : Prop := WF kc none [] ∧ AUX kc ∧ usable kc

/-- The part of a pass of `key_cache_write` that gets the block ready for the
caller's data: the block is marked `BLOCK_FOR_UPDATE`, and a new block that the
data does not fill is read from the file first. -/
def key_cache_write_load (kc : KEY_CACHE) (block : Nat) (page_st : PAGE_STATUS)
    (read_length offset : Nat) : Option KEY_CACHE :=
  let kc :=
    if page_st ≠ PAGE_WAIT_TO_BE_READ then
      set_status kc block { (kc.block_root block).status with for_update := true }
    else kc
  if (kc.block_root block).status.error = false ∧
      ((page_st = PAGE_TO_BE_READ ∧
          (offset ≠ 0 ∨ read_length < kc.key_cache_block_size)) ∨
        page_st = PAGE_WAIT_TO_BE_READ) then
    match read_block kc block
        (if offset + read_length ≥ kc.key_cache_block_size then offset
         else kc.key_cache_block_size)
        offset (decide (page_st = PAGE_TO_BE_READ)) with
    | none => none
    | some kc =>
      some (set_status kc block { (kc.block_root block).status with for_update := true })
  else some kc

/-- The part of a pass of `key_cache_write` that puts the caller's data into
the block: the data is copied unless the block has `BLOCK_ERROR`, the block is
linked into the chain of dirty blocks (or, written through in full, into the
chain of clean blocks), and it is `BLOCK_READ` with its dirty part extended. -/
def key_cache_write_store (kc : KEY_CACHE) (block : Nat) (data : List Nat)
    (read_length offset : Nat) (dont_write : Bool) : Option KEY_CACHE :=
  if (kc.block_root block).status.in_flushwrite then none
  else
    let kc :=
      if (kc.block_root block).status.error = false then
        set_block kc block
          { kc.block_root block with
            buffer := buffer_copy (kc.block_root block).buffer offset data }
      else kc
    let linked : Option KEY_CACHE :=
      if dont_write = false then
        if (kc.block_root block).status.changed = true ∧
            (offset = 0 ∧ read_length ≥ kc.key_cache_block_size) then
          match (kc.block_root block).hash_link with
          | none => none
          | some h => some (link_to_file_list kc block (kc.hash_link_root h).file true)
        else some kc
      else if (kc.block_root block).status.changed = false then
        link_to_changed_list kc block
      else some kc
    linked.map fun kc =>
      set_block kc block
        { kc.block_root block with
          status := { (kc.block_root block).status with read := true, for_update := false }
          offset := min (kc.block_root block).offset offset
          length := max (kc.block_root block).length (read_length + offset) }

/-- The end of a pass of `key_cache_write`: the request is given back; a block
with `BLOCK_ERROR` loses its changes and is freed. -/
def key_cache_write_finish (kc : KEY_CACHE) (block : Nat) (error more : Bool) :
    Option (Bool × KEY_CACHE × Bool) :=
  (remove_reader kc block).bind fun kc =>
    if (kc.block_root block).status.error = false then
      (unreg_request kc block true).map fun k => (error, k, more)
    else
      (free_block
        (set_status kc block { (kc.block_root block).status with changed := false })
        block).map fun k => (true, k, false)

/-- The cache after `link_to_changed_list` has moved block `b` from the chain
it was in to the dirty chain of `file`. -/
def dirtied_state (kc : KEY_CACHE) (b file : Nat) : KEY_CACHE :=
  { kc with
    changed_blocks := Function.update (fun i => (kc.changed_blocks i).erase b) (FILE_HASH file)
      (b :: (kc.changed_blocks (FILE_HASH file)).erase b)
    file_blocks := fun i => (kc.file_blocks i).erase b
    block_root := Function.update kc.block_root b
      { kc.block_root b with status := { (kc.block_root b).status with changed := true } }
    blocks_changed := kc.blocks_changed + 1
    global_blocks_changed := kc.global_blocks_changed + 1 }

/-- What a step on the pinned block `b` keeps: the configuration, the hash
links, the other blocks, and of `b` all but its buffer and `BLOCK_CHANGED`. -/
def pin_step (k k' : KEY_CACHE) (b : Nat) : Prop :=
  same_config k k' ∧ k'.hash_link_root = k.hash_link_root ∧ k'.warm_blocks = k.warm_blocks ∧
  k'.disk.pread_forced = k.disk.pread_forced ∧
  (∀ x, x ≠ b → k'.block_root x = k.block_root x) ∧
  (k'.block_root b).hash_link = (k.block_root b).hash_link ∧
  (k'.block_root b).temperature = (k.block_root b).temperature ∧
  (k'.block_root b).offset = (k.block_root b).offset ∧
  (k'.block_root b).length = (k.block_root b).length ∧
  { (k'.block_root b).status with changed := false } =
    { (k.block_root b).status with changed := false }

/-- An operation on the cache, with its arguments: a call of `key_cache_read`,
`key_cache_insert`, `key_cache_write` or `flush_key_blocks`. -/
inductive CACHE_OP where
  | read (file filepos level : Nat) (buff : Nat → Nat) (length : Nat)
  | insert (file filepos level : Nat) (buff : List Nat)
  | write (file filepos level : Nat) (buff : List Nat) (dont_write : Bool)
  | flush (file : Nat) (type : flush_type) (malloc_ok : Bool)

/-- The cache an operation leaves, when the call returns. -/
def cache_op (kc : KEY_CACHE) : CACHE_OP → Option KEY_CACHE
  | .read file filepos level buff length =>
    (key_cache_read kc file filepos level buff length).map fun r => r.2.2
  | .insert file filepos level buff =>
    (key_cache_insert kc file filepos level buff).map fun r => r.2
  | .write file filepos level buff dont_write =>
    (key_cache_write kc file filepos level buff dont_write).map fun r => r.2
  | .flush file type malloc_ok =>
    (flush_key_blocks kc file type malloc_ok).map fun r => r.2

/-- The cache a sequence of operations leaves, when every call returns. -/
def run_ops : KEY_CACHE → List CACHE_OP → Option KEY_CACHE
  | kc, [] => some kc
  | kc, op :: ops => (cache_op kc op).bind fun k => run_ops k ops

/-- The cache `kc` is what `init_key_cache` has made of the handle `kc0` with
blocks of `bs` bytes: the call has returned a positive number of blocks, `bs` is
not 0, the first estimate of the number of blocks fits an `int`, and the handle
was not being resized. -/
def started (p : PLATFORM) (kc0 : KEY_CACHE) (bs um d a : Nat) (kc : KEY_CACHE) : Prop :=
  (∃ n, init_key_cache p kc0 bs um d a = some (n, kc) ∧ 0 < n) ∧ 0 < bs ∧
  um / (p.sizeof_BLOCK_LINK + 2 * p.sizeof_HASH_LINK + p.sizeof_pointer * 5 / 4 + bs)
    < 2147483648 ∧
  kc0.in_resize = false

/-- The cache of 8 blocks of 1024 bytes, with 16 hash entries and 18 hash
links, that `init_key_cache` sets up on an LP64 platform over the file store
`d` when it is given 11178 bytes. -/
def started_cache (d : DISK) (division_limit age_threshold : Nat) : KEY_CACHE :=
  init_tables (init_handle { disk := d } 1024 11178) 8 16 18 division_limit age_threshold

/-- Block `b` has been taken for a new page, which leaves the file store `d`:
the block was unused, or it was the block at the head of the LRU ring, and its
page, if it was dirty, has been written back without error. -/
def taken (kc : KEY_CACHE) (b : Nat) (d : DISK) : Prop :=
  (kc.blocks_unused ≠ 0 ∧ (kc.block_root b).hash_link = none ∧ d = kc.disk) ∨
  ∃ old rest, kc.used_ring = b :: rest ∧ kc.blocks_unused = 0 ∧
    (kc.block_root b).hash_link = some old ∧ evict_error kc b old = none ∧
    d = if (kc.block_root b).status.changed then (evict_pwrite kc b old).2 else kc.disk

/-- The page of position `p` of file `f`, if it is cached, is in a block
without `BLOCK_ERROR`. -/
def healthy (kc : KEY_CACHE) (f p : Nat) : Prop :=
  ∀ h b, cached_at kc f (p - p % kc.key_cache_block_size) h →
    (kc.hash_link_root h).block = some b → (kc.block_root b).status.error = false

/-- Byte `q` of file `f` is in the file store and is `v`. -/
def on_disk (d : DISK) (f q v : Nat) : Prop := q < d.size f ∧ d.data f q = v

/-- A reader of byte `q` of file `f` gets `v`, from the cache or from the
file: if the page of `q` is cached, its block has no `BLOCK_ERROR`, `q` lies
within the valid length of the block, the buffer has `v` there, and `q` lies
in the dirty part of the block or the file has `v` there too; if the page is
not cached, the file has `v` there. -/
def holds (kc : KEY_CACHE) (f q v : Nat) : Prop :=
  (∀ h b, cached_at kc f (q - q % kc.key_cache_block_size) h →
    (kc.hash_link_root h).block = some b →
    (kc.block_root b).status.error = false ∧
    q % kc.key_cache_block_size < (kc.block_root b).length ∧
    (kc.block_root b).buffer (q % kc.key_cache_block_size) = v ∧
    (((kc.block_root b).status.changed = true ∧
        (kc.block_root b).offset ≤ q % kc.key_cache_block_size) ∨
      on_disk kc.disk f q v)) ∧
  (not_cached kc f (q - q % kc.key_cache_block_size) → on_disk kc.disk f q v)

/-- The cache after `unreg_request` has given back the last request on block
`b`, when the block is not promoted to hot and no block is aged: the block is
linked at the end of the LRU ring and stamped with the time. -/
def relinked_state (kc : KEY_CACHE) (b : Nat) : KEY_CACHE :=
  { kc with
    block_root := Function.update kc.block_root b
      { kc.block_root b with
        requests := 0
        hits_left := if (kc.block_root b).hits_left ≠ 0 then (kc.block_root b).hits_left - 1
          else (kc.block_root b).hits_left
        last_hit_time := kc.keycache_time }
    used_ring := kc.used_ring ++ [b]
    used_ins := if kc.used_ring = [] then some b else kc.used_ins
    keycache_time := kc.keycache_time + 1 }

/-- The LRU bookkeeping of `K'` is that of `K`, every block but `b` is as it
was and `b` has its page and its requests, every hash link but `h` is as it was
and `h` has its key. -/
def same_lru (K K' : KEY_CACHE) (b h : Nat) : Prop :=
  K'.used_ring = K.used_ring ∧ K'.used_ins = K.used_ins ∧
  K'.keycache_time = K.keycache_time ∧ K'.warm_blocks = K.warm_blocks ∧
  K'.min_warm_blocks = K.min_warm_blocks ∧ K'.age_threshold = K.age_threshold ∧
  K'.blocks_unused = K.blocks_unused ∧
  (∀ x, x ≠ b → K'.block_root x = K.block_root x) ∧
  (K'.block_root b).hash_link = (K.block_root b).hash_link ∧
  (K'.block_root b).requests = (K.block_root b).requests ∧
  (∀ y, y ≠ h → K'.hash_link_root y = K.hash_link_root y) ∧
  (K'.hash_link_root h).file = (K.hash_link_root h).file ∧
  (K'.hash_link_root h).diskpos = (K.hash_link_root h).diskpos

/-- What a read of a page `(f, key)` that was not cached does to the LRU
bookkeeping, when no block is promoted to hot and none is aged: the block `b`
for the page, an unused one or else the one at the head of the ring, is at
the end of the ring with the stamp of the time; every other block is as it
was. -/
structure LRU_STEP (kc kc' : KEY_CACHE) (f key b h : Nat) : Prop where
  ring : kc'.used_ring = kc.used_ring.erase b ++ [b]
  time : kc'.keycache_time = kc.keycache_time + 1
  stamp : (kc'.block_root b).last_hit_time = kc.keycache_time
  others : ∀ x, x ≠ b → kc'.block_root x = kc.block_root x
  page : (kc'.block_root b).hash_link = some h ∧ (kc'.hash_link_root h).file = f ∧
    (kc'.hash_link_root h).diskpos = key
  kept : ∀ x y, x ≠ b → (kc.block_root x).hash_link = some y →
    kc'.hash_link_root y = kc.hash_link_root y
  warm : kc'.warm_blocks = kc.warm_blocks
  pool : (kc.blocks_unused ≠ 0 ∧ (kc.block_root b).hash_link = none ∧
      kc'.blocks_unused + 1 = kc.blocks_unused) ∨
    (kc.blocks_unused = 0 ∧ kc'.blocks_unused = 0 ∧ ∃ rest, kc.used_ring = b :: rest)

/-- The page that block `b` holds: its file and its position in the file. -/
def page_of (kc : KEY_CACHE) (b : Nat) : Option (Nat × Nat) :=
  (kc.block_root b).hash_link.map fun h =>
    ((kc.hash_link_root h).file, (kc.hash_link_root h).diskpos)

/-- The cache holds the pages `pages`, the least recently used first, in the
blocks of its LRU ring, in this order: every block in use is in the ring, no
block is warm, the stamps `last_hit_time` grow along the ring and are at most
as old as the ring is long, and `age_threshold` is at least the number of
blocks. -/
structure LRU (kc : KEY_CACHE) (pages : List (Nat × Nat)) : Prop where
  inv : INV kc
  pages : kc.used_ring.map (page_of kc) = pages.map some
  all : ∀ b, (kc.block_root b).hash_link ≠ none → b ∈ kc.used_ring
  count : kc.used_ring.length + kc.blocks_unused = nblocks kc
  warm : kc.warm_blocks = 0
  age : nblocks kc ≤ kc.age_threshold
  sorted : kc.used_ring.Pairwise fun x y =>
    (kc.block_root x).last_hit_time < (kc.block_root y).last_hit_time
  past : ∀ b, b ∈ kc.used_ring → (kc.block_root b).last_hit_time < kc.keycache_time
  recent : ∀ b, b ∈ kc.used_ring →
    kc.keycache_time ≤ (kc.block_root b).last_hit_time + kc.used_ring.length

/-- A call of `key_cache_read`: the file, the position, the level, the
caller's buffer and the number of bytes. -/
structure READ_CALL where
  file : Nat
  filepos : Nat
  level : Nat
  buff : Nat → Nat
  length : Nat

/-- The page of a call of `key_cache_read` within one cache block of `bs`
bytes: the file, and the position of the block in it. -/
def read_page (bs : Nat) (r : READ_CALL) : Nat × Nat := (r.file, r.filepos - r.filepos % bs)

/-- The cache after the calls `rs` of `key_cache_read`, one after the other,
when each of them returns success. -/
def run_reads : KEY_CACHE → List READ_CALL → Option KEY_CACHE
  | kc, [] => some kc
  | kc, r :: rs =>
    (key_cache_read kc r.file r.filepos r.level r.buff r.length).bind fun x =>
      if x.1 = false then run_reads x.2.2 rs else none

/-- The cache of 8 blocks of 1024 bytes after 8 writes of 16 bytes that stay in
the cache, to the first 8 pages of file 1: every block is dirty and in the LRU
ring. -/
def eight_dirty_blocks : KEY_CACHE :=
  match run_ops (started_cache (one_file 1 100000) 100 300)
    ((List.range 8).map fun n => .write 1 (n * 1024) 3 (List.replicate 16 7) true) with
  | some kc => kc
  | none => started_cache (one_file 1 100000) 100 300

/-- From the call number `n` on, the record of the calls of `my_pwrite` agrees
with the oracle: a recorded call has the error that the oracle gives for its
number. -/
def logged_from (n : Nat) (d : DISK) : Prop :=
  ∀ i w, n ≤ i → d.pwrites[i]? = some w → w.error = d.pwrite_errno i

/-- What no operation on the cache changes: the oracle for the calls of
`my_pread` and the size of a block, which `bounded_reads` looks at, the oracle
for the calls of `my_pwrite`, and from which call on the record of the calls of
`my_pwrite` agrees with that oracle. -/
def KEY_CACHE.fixed (kc : KEY_CACHE) :
    ((Nat → Option Nat) × Nat) × ((Nat → Option Int) × (Nat → Prop)) :=
  ((kc.disk.pread_forced, kc.key_cache_block_size),
    (kc.disk.pwrite_errno, fun n => logged_from n kc.disk))

/-- The cache that the scan of the dirty chain leaves, however it ends. -/
def SCAN_RESULT.cache : SCAN_RESULT → KEY_CACHE
  | .scanned kc _ _ _ _ => kc
  | .restart kc _ _ _ => kc
  | .err kc _ => kc

/-- The file store with the single file 1 of 100000 bytes, on which every
`my_pread` fails: the call delivers nothing and returns `MY_FILE_ERROR`, which
is `(size_t) -1`; in the `uint` variable `got_length` of `read_block` this is
4294967295. -/
def failing_read_disk : DISK :=
  { data := fun g p => if g = 1 then p % 251 else 0
    size := fun g => if g = 1 then 100000 else 0
    pread_forced := fun _ => some 4294967295 }

/-- A file store with the two files 1 and 129, of 100000 bytes each; the two
files have the same `FILE_HASH`, so their blocks share a clean and a dirty
chain. Byte `p` of each file is `p % 251`. -/
def two_files : DISK :=
  { data := fun g p => if g = 1 ∨ g = 129 then p % 251 else 0
    size := fun g => if g = 1 ∨ g = 129 then 100000 else 0 }

/-- Five operations that fill five blocks: two dirty blocks and a clean block
of file 1, a dirty block and a clean block of file 129. -/
def mixed_ops : List CACHE_OP :=
  [.write 1 0 3 (List.replicate 16 7) true, .write 1 1024 3 (List.replicate 16 8) true,
   .read 1 2048 3 (fun _ => 0) 16, .write 129 0 3 (List.replicate 16 9) true,
   .read 129 1024 3 (fun _ => 0) 16]

/-- The cache of 8 blocks of 1024 bytes over `two_files` after `mixed_ops`:
blocks 0 and 1 are dirty blocks of file 1, block 2 is a clean block of file 1,
block 3 is a dirty block of file 129 and block 4 a clean block of file 129. -/
def mixed_cache : KEY_CACHE :=
  match run_ops (started_cache two_files 100 300) mixed_ops with
  | some kc => kc
  | none => started_cache two_files 100 300

/-- The cache that the flush of type `FLUSH_KEEP` of file 1 leaves of
`mixed_cache`. -/
def mixed_kept : KEY_CACHE :=
  ((flush_key_blocks mixed_cache 1 FLUSH_KEEP true).map Prod.snd).getD mixed_cache

/-- The cache that the flush of type `FLUSH_RELEASE` of file 1 leaves of
`mixed_cache`. -/
def mixed_released : KEY_CACHE :=
  ((flush_key_blocks mixed_cache 1 FLUSH_RELEASE true).map Prod.snd).getD mixed_cache

/-- The cache that the flush of type `FLUSH_IGNORE_CHANGED` of file 1 leaves of
`mixed_cache`. -/
def mixed_ignored : KEY_CACHE :=
  ((flush_key_blocks mixed_cache 1 FLUSH_IGNORE_CHANGED true).map Prod.snd).getD mixed_cache

/-- The cache of 8 blocks of 1024 bytes, set up with a division limit of 1
percent (`min_warm_blocks = 1`) and an age threshold of 13 percent (1 tick),
after reads at level 0 of the pages 0, 1, 2 and 3 of file 1 and with a request
registered on block 0: the blocks 0 and 1 have been made `BLOCK_WARM` by the
ageing step, `warm_blocks` is 2, and block 0 is held, out of the LRU ring, with
`hits_left = 0`. -/
def promotion_cache : KEY_CACHE :=
  ((run_reads (started_cache (one_file 1 100000) 1 13)
      [⟨1, 0, 0, fun _ => 0, 16⟩, ⟨1, 1024, 0, fun _ => 0, 16⟩, ⟨1, 2048, 0, fun _ => 0, 16⟩,
        ⟨1, 3072, 0, fun _ => 0, 16⟩]).bind fun kc => reg_requests kc 0 1).getD
    (started_cache (one_file 1 100000) 1 13)

/-- The cache of 8 blocks of 1024 bytes, set up with an age threshold of 30
percent (2 ticks), after reads of the pages 0 and 1 of file 1 and with a
request registered on block 1: block 0 is alone in the LRU ring, at `used_ins`,
stamped 0, and block 1 is held. -/
def demotion_cache : KEY_CACHE :=
  ((run_reads (started_cache (one_file 1 100000) 100 30)
      [⟨1, 0, 3, fun _ => 0, 16⟩, ⟨1, 1024, 3, fun _ => 0, 16⟩]).bind
    fun kc => reg_requests kc 1 1).getD (started_cache (one_file 1 100000) 100 30)

/-- The number of blocks of the cache that are dirty; the first loop of
`flush_all_key_blocks` goes on while it gets smaller. -/
def dirty_count (kc : KEY_CACHE) : Nat :=
  ((List.range (nblocks kc)).filter fun b => (kc.block_root b).status.changed).length

/-- The number of blocks of the cache that hold a page; the second loop of
`flush_all_key_blocks` goes on while it gets smaller. -/
def in_use_count (kc : KEY_CACHE) : Nat :=
  ((List.range (nblocks kc)).filter fun b => (kc.block_root b).hash_link.isSome).length

/-- No call of `my_pwrite` that is made from now on fails. -/
def writes_succeed (kc : KEY_CACHE) : Prop :=
  ∀ n, kc.disk.pwrites.length ≤ n → kc.disk.pwrite_errno n = none

/-- What the loop of `flush_all_key_blocks` that is selected by `dirty` makes
smaller. -/
def flush_all_measure (dirty : Bool) (kc : KEY_CACHE) : Nat :=
  if dirty then dirty_count kc else in_use_count kc

/-- The cache `mixed_cache` after `flush_all_key_blocks`. -/
def mixed_flushed : KEY_CACHE :=
  ((flush_all_key_blocks mixed_cache true).map Prod.snd).getD mixed_cache

/-! ## Lists -/

theorem find_none_of_forall {α} (p : α → Bool) (l : List α) (h : ∀ x ∈ l, p x = false) :
    l.find? p = none := by
  induction l with
  | nil => rfl
  | cons a t ih =>
    simp only [List.find?_cons, h a (List.mem_cons_self a t)]
    exact ih (fun x hx => h x (List.mem_cons_of_mem a hx))

theorem insert_after_perm (ins b : Nat) (l : List Nat) (h : ins ∈ l) :
    (insert_after ins b l).Perm (b :: l) := by
  induction l with
  | nil => cases h
  | cons x xs ih =>
    unfold insert_after
    by_cases hx : x = ins
    · simp only [hx, if_true]
      exact List.Perm.swap _ _ _
    · simp only [hx, if_false]
      have : ins ∈ xs := by
        cases h with
        | head => exact absurd rfl hx
        | tail _ h' => exact h'
      exact ((ih this).cons x).trans (List.Perm.swap _ _ _)

theorem prev_in_spec (l : List Nat) (x : Nat) (hx : x ∈ l) (hne : l.head? ≠ some x) :
    ∃ y, prev_in l x = some y ∧ y ∈ l ∧ y ≠ x := by
  induction l with
  | nil => cases hx
  | cons a t ih =>
    have ha : a ≠ x := by
      intro h; apply hne; simp [h]
    have hxt : x ∈ t := by
      cases hx with
      | head => exact absurd rfl ha
      | tail _ h' => exact h'
    cases t with
    | nil => cases hxt
    | cons c t' =>
      unfold prev_in
      by_cases hc : c = x
      · simp only [hc, if_true]
        exact ⟨a, rfl, List.mem_cons_self _ _, ha⟩
      · simp only [hc, if_false]
        have : (c :: t').head? ≠ some x := by simp [hc]
        obtain ⟨y, hy, hmem, hyx⟩ := ih hxt this
        exact ⟨y, hy, List.mem_cons_of_mem _ hmem, hyx⟩

theorem ring_prev_spec (l : List Nat) (x : Nat) (hx : x ∈ l) (hnd : l.Nodup) (hne : l ≠ [x]) :
    ∃ y, ring_prev l x = some y ∧ y ∈ l.erase x := by
  unfold ring_prev
  by_cases hh : l.head? = some x
  · simp only [hh, if_true]
    cases l with
    | nil => cases hx
    | cons a t =>
      have hax : a = x := by simpa using hh
      subst hax
      cases t with
      | nil => exact absurd rfl hne
      | cons c t' =>
        refine ⟨(a :: c :: t').getLast (by simp), ?_, ?_⟩
        · exact List.getLast?_eq_getLast _ _
        · rw [List.erase_cons_head]
          rw [List.getLast_cons (by simp)]
          exact List.getLast_mem _
  · simp only [hh, if_false]
    obtain ⟨y, hy, hmem, hyx⟩ := prev_in_spec l x hx hh
    exact ⟨y, hy, (List.mem_erase_of_ne hyx).2 hmem⟩

/-! ## The LRU ring -/

theorem link_block_ring (kc : KEY_CACHE) (b : Nat) (hot at_end : Bool)
    (hok : RING_OK kc.used_ring kc.used_ins) (hb : b ∉ kc.used_ring) :
    ∃ ring ins, link_block kc b hot at_end = { kc with used_ring := ring, used_ins := ins } ∧
      ring.Perm (b :: kc.used_ring) ∧ RING_OK ring ins := by
  obtain ⟨hnd, hins, hsome⟩ := hok
  have hnd' : (b :: kc.used_ring).Nodup := List.nodup_cons.2 ⟨hb, hnd⟩
  unfold link_block used_last
  by_cases hr : kc.used_ring = []
  · have hi : kc.used_ins = none := by
      cases h : kc.used_ins with
      | none => rfl
      | some x => have := hins x h; rw [hr] at this; cases this
    refine ⟨[b], some b, ?_, ?_, ?_⟩
    · simp [hr, hi]
    · rw [hr]
    · exact ⟨List.nodup_singleton b, fun x hx => by simp at hx; simp [hx], fun _ => by simp⟩
  · obtain ⟨i, hi⟩ := Option.ne_none_iff_exists'.1 (hsome hr)
    obtain ⟨l, hl⟩ := Option.ne_none_iff_exists'.1
      (show kc.used_ring.getLast? ≠ none by simpa using hr)
    have hiring := hins i hi
    cases hot with
    | true =>
      refine ⟨_, _, by simp only [if_true, hi]; rfl, ?_, ?_⟩
      · split
        · exact List.Perm.refl _
        · exact insert_after_perm i b _ hiring
      · have hperm : (if kc.used_ring.getLast? = some i then b :: kc.used_ring
            else insert_after i b kc.used_ring).Perm (b :: kc.used_ring) := by
          split
          · exact List.Perm.refl _
          · exact insert_after_perm i b _ hiring
        refine ⟨hperm.nodup_iff.2 hnd', ?_, ?_⟩
        · intro x hx
          apply hperm.mem_iff.2
          cases at_end with
          | true => simp at hx; simp [hx]
          | false => simp at hx; subst hx; exact List.mem_cons_of_mem _ hiring
        · intro _
          cases at_end <;> simp [hi]
    | false =>
      refine ⟨_, _, by simp only [hl]; rfl, ?_, ?_⟩
      · cases at_end
        · simp
        · simp only [if_true]
          exact List.perm_append_singleton b kc.used_ring
      · have hperm : (if at_end = true then kc.used_ring ++ [b] else b :: kc.used_ring).Perm
            (b :: kc.used_ring) := by
          cases at_end
          · simp
          · simp only [if_true]
            exact List.perm_append_singleton b kc.used_ring
        refine ⟨hperm.nodup_iff.2 hnd', ?_, ?_⟩
        · intro x hx
          exact hperm.mem_iff.2 (List.mem_cons_of_mem _ (hins x hx))
        · intro _; simp [hi]

theorem unlink_block_ring (kc : KEY_CACHE) (b : Nat)
    (hok : RING_OK kc.used_ring kc.used_ins) (hb : b ∈ kc.used_ring) :
    ∃ ins, unlink_block kc b = some { kc with used_ring := kc.used_ring.erase b, used_ins := ins } ∧
      RING_OK (kc.used_ring.erase b) ins := by
  obtain ⟨hnd, hins, hsome⟩ := hok
  unfold unlink_block
  simp only [hb, if_true]
  by_cases hs : kc.used_ring = [b]
  · refine ⟨none, by simp [hs], ?_⟩
    simp [hs, RING_OK]
  · simp only [hs, if_false]
    obtain ⟨y, hy, hymem⟩ := ring_prev_spec _ b hb hnd hs
    refine ⟨_, rfl, hnd.erase b, ?_, ?_⟩
    · intro x hx
      by_cases hib : kc.used_ins = some b
      · simp only [hib, if_true, hy] at hx
        cases hx; exact hymem
      · simp only [hib, if_false] at hx
        have hxb : x ≠ b := by rintro rfl; exact hib hx
        exact (List.mem_erase_of_ne hxb).2 (hins x hx)
    · intro _
      by_cases hib : kc.used_ins = some b
      · simp [hib, hy]
      · simp only [hib, if_false]
        exact hsome (by rintro h; rw [h] at hb; cases hb)

theorem same_core_refl (v : BLOCK_LINK) : same_core v v := ⟨rfl, rfl, rfl, rfl, rfl, rfl⟩

theorem dec32_one : dec32 1 = 0 := by decide

theorem unreg_request_link_spec (kc : KEY_CACHE) (b : Nat) (at_end : Bool)
    (hok : RING_OK kc.used_ring kc.used_ins) (hb : b ∉ kc.used_ring) :
    ∃ br ring ins w,
      unreg_request_link kc b at_end = lru_set kc br ring ins (kc.keycache_time + 1) w ∧
      ring.Perm (b :: kc.used_ring) ∧ RING_OK ring ins ∧
      ∀ x, same_core (br x) (kc.block_root x) := by
  unfold unreg_request_link
  obtain ⟨ring, ins, hlink, hperm, hok'⟩ := link_block_ring
    ({ set_block kc b
        { kc.block_root b with
          hits_left := if (kc.block_root b).hits_left ≠ 0 then (kc.block_root b).hits_left - 1
            else (kc.block_root b).hits_left
          temperature :=
            if (decide ((if (kc.block_root b).hits_left ≠ 0 then (kc.block_root b).hits_left - 1
              else (kc.block_root b).hits_left) = 0 ∧ at_end = true ∧
                kc.warm_blocks > kc.min_warm_blocks)) = true
            then BLOCK_HOT else (kc.block_root b).temperature } with
      warm_blocks :=
        if (decide ((if (kc.block_root b).hits_left ≠ 0 then (kc.block_root b).hits_left - 1
              else (kc.block_root b).hits_left) = 0 ∧ at_end = true ∧
                kc.warm_blocks > kc.min_warm_blocks)) = true ∧
            (kc.block_root b).temperature = BLOCK_WARM then dec64 kc.warm_blocks
        else kc.warm_blocks } : KEY_CACHE) b
      (decide ((if (kc.block_root b).hits_left ≠ 0 then (kc.block_root b).hits_left - 1
              else (kc.block_root b).hits_left) = 0 ∧ at_end = true ∧
                kc.warm_blocks > kc.min_warm_blocks)) at_end hok hb
  simp only [] at hlink ⊢
  rw [hlink]
  refine ⟨_, ring, ins, _, rfl, hperm, hok', ?_⟩
  intro x
  simp only [set_block, Function.update_apply]
  by_cases hx : x = b
  · subst hx; simp [same_core]
  · simp [hx, same_core]

theorem unreg_request_age_spec (kc : KEY_CACHE) (hok : RING_OK kc.used_ring kc.used_ins) :
    ∃ br ring ins w,
      unreg_request_age kc = some (lru_set kc br ring ins kc.keycache_time w) ∧
      ring.Perm kc.used_ring ∧ RING_OK ring ins ∧
      ∀ x, same_core (br x) (kc.block_root x) := by
  have hid : kc = lru_set kc kc.block_root kc.used_ring kc.used_ins kc.keycache_time
      kc.warm_blocks := rfl
  unfold unreg_request_age
  cases hi : kc.used_ins with
  | none =>
    exact ⟨_, _, _, _, by simp only []; rw [← hi]; exact congrArg some hid, List.Perm.refl _,
      hi ▸ hok, fun x => same_core_refl _⟩
  | some blk =>
    simp only []
    split
    · have hmem : blk ∈ kc.used_ring := hok.2.1 blk hi
      obtain ⟨ins1, hun, hok1⟩ := unlink_block_ring kc blk hok hmem
      rw [hun]
      simp only []
      obtain ⟨ring2, ins2, hlink, hperm2, hok2⟩ := link_block_ring
        ({ kc with used_ring := kc.used_ring.erase blk, used_ins := ins1 } : KEY_CACHE) blk
        false false hok1 (hok.1.not_mem_erase)
      rw [hlink]
      have hperm : ring2.Perm kc.used_ring :=
        hperm2.trans (List.perm_cons_erase hmem).symm
      split
      · refine ⟨_, ring2, ins2, _, rfl, hperm, hok2, ?_⟩
        intro x
        simp only [set_block, Function.update_apply]
        by_cases hx : x = blk
        · subst hx; simp [same_core]
        · simp [hx, same_core]
      · exact ⟨_, ring2, ins2, _, rfl, hperm, hok2, fun x => same_core_refl _⟩
    · exact ⟨_, _, _, _, by rw [← hi]; exact congrArg some hid, List.Perm.refl _,
        hi ▸ hok, fun x => same_core_refl _⟩

theorem unreg_request_spec (kc : KEY_CACHE) (b : Nat) (at_end : Bool)
    (hok : RING_OK kc.used_ring kc.used_ins) (hb : b ∉ kc.used_ring)
    (hreq : (kc.block_root b).requests = 1) (herr : (kc.block_root b).status.error = false) :
    ∃ br ring ins w,
      unreg_request kc b at_end = some (lru_set kc br ring ins (kc.keycache_time + 1) w) ∧
      ring.Perm (b :: kc.used_ring) ∧ RING_OK ring ins ∧
      ∀ x, same_core (br x)
        (if x = b then { kc.block_root b with requests := 0 } else kc.block_root x) := by
  unfold unreg_request
  simp only [hreq, herr, dec32_one, and_self, if_true]
  obtain ⟨k0, hk0⟩ : ∃ k0, k0 = set_block kc b { kc.block_root b with requests := 0 } := ⟨_, rfl⟩
  rw [← hk0]
  have hring0 : k0.used_ring = kc.used_ring := by rw [hk0]; rfl
  have hins0 : k0.used_ins = kc.used_ins := by rw [hk0]; rfl
  have htime0 : k0.keycache_time = kc.keycache_time := by rw [hk0]; rfl
  obtain ⟨br1, ring1, ins1, w1, h1, hperm1, hok1, hcore1⟩ := unreg_request_link_spec
    k0 b at_end (by rw [hring0, hins0]; exact hok) (by rw [hring0]; exact hb)
  rw [h1]
  obtain ⟨br2, ring2, ins2, w2, h2, hperm2, hok2, hcore2⟩ := unreg_request_age_spec
    (lru_set k0 br1 ring1 ins1 (k0.keycache_time + 1) w1) hok1
  rw [h2]
  refine ⟨br2, ring2, ins2, w2, ?_, ?_, hok2, ?_⟩
  · rw [hk0]; rfl
  · rw [← hring0]; exact hperm2.trans hperm1
  · intro x
    have a := hcore2 x
    have c := hcore1 x
    simp only [lru_set] at a
    rw [hk0] at c
    simp only [set_block, Function.update_apply] at c
    by_cases hx : x = b
    · subst hx
      simp only [if_true] at c ⊢
      exact ⟨a.1.trans c.1, a.2.1.trans c.2.1, a.2.2.1.trans c.2.2.1, a.2.2.2.1.trans c.2.2.2.1,
        a.2.2.2.2.1.trans c.2.2.2.2.1, a.2.2.2.2.2.trans c.2.2.2.2.2⟩
    · simp only [hx, if_false] at c ⊢
      exact ⟨a.1.trans c.1, a.2.1.trans c.2.1, a.2.2.1.trans c.2.2.1, a.2.2.2.1.trans c.2.2.2.1,
        a.2.2.2.2.1.trans c.2.2.2.2.1, a.2.2.2.2.2.trans c.2.2.2.2.2⟩

theorem CNT_INV.congr_cnt {kc kc' : KEY_CACHE} (i : CNT_INV kc)
    (e1 : kc'.key_cache_block_size = kc.key_cache_block_size)
    (e2 : kc'.disk_blocks = kc.disk_blocks)
    (e3 : kc'.blocks_used = kc.blocks_used)
    (e4 : kc'.blocks_unused = kc.blocks_unused)
    (e5 : kc'.free_block_list = kc.free_block_list)
    (e6 : kc'.hash_links = kc.hash_links)
    (hl : ∀ b, (kc'.block_root b).hash_link = (kc.block_root b).hash_link) : CNT_INV kc' := by
  have en : nblocks kc' = nblocks kc := by unfold nblocks; rw [e2]
  constructor
  · rw [e1]; exact i.bs_pos
  · rw [en]; exact i.blocks_pos
  · rw [en, e3]; exact i.used_le
  · rw [en, e3, e4, e5]; exact i.unused_eq
  · rw [en, e6]; exact i.links_gt
  · intro b; rw [e5, e3, hl]; exact i.free_blocks b
  · rw [e5]; exact i.free_blocks_nodup
  · intro b; rw [e3, hl]; exact i.unborn_blocks b
  · intro b; rw [e3, hl, e5]; exact i.blocks_cover b

theorem CHAIN_INV.congr_chain {kc kc' : KEY_CACHE} (i : CHAIN_INV kc)
    (e1 : kc'.changed_blocks = kc.changed_blocks)
    (e2 : kc'.file_blocks = kc.file_blocks)
    (hl : ∀ b, (kc'.block_root b).hash_link = (kc.block_root b).hash_link)
    (hc : ∀ b, (kc'.block_root b).status.changed = (kc.block_root b).status.changed)
    (hf : ∀ h, (kc'.hash_link_root h).file = (kc.hash_link_root h).file) : CHAIN_INV kc' := by
  constructor
  · intro j b; rw [e1]; simp only [hl, hc, hf]; exact i.changed_iff j b
  · intro j b; rw [e2]; simp only [hl, hc, hf]; exact i.file_iff j b
  · intro j; rw [e1]; exact i.changed_nodup j
  · intro j; rw [e2]; exact i.file_nodup j

theorem HASH_INV.congr_hash {kc kc' : KEY_CACHE} (i : HASH_INV kc)
    (e1 : kc'.hash_root = kc.hash_root)
    (e2 : kc'.key_cache_block_size = kc.key_cache_block_size)
    (e3 : kc'.hash_entries = kc.hash_entries)
    (e4 : kc'.free_hash_list = kc.free_hash_list)
    (e5 : kc'.hash_links_used = kc.hash_links_used)
    (e6 : kc'.hash_links = kc.hash_links)
    (hl : ∀ b, (kc'.block_root b).hash_link = (kc.block_root b).hash_link)
    (hb : ∀ h, (kc'.hash_link_root h).block = (kc.hash_link_root h).block)
    (hf : ∀ h, (kc'.hash_link_root h).file = (kc.hash_link_root h).file)
    (hd : ∀ h, (kc'.hash_link_root h).diskpos = (kc.hash_link_root h).diskpos) :
    HASH_INV kc' := by
  have ek : ∀ f p, KEYCACHE_HASH kc' f p = KEYCACHE_HASH kc f p := by
    intro f p; unfold KEYCACHE_HASH; rw [e2, e3]
  constructor
  · intro j h; rw [e1, hb, hf, hd, ek]; exact i.iff j h
  · intro j; rw [e1]; exact i.nodup j
  · intro h h'; rw [hb, hb, hf, hf, hd, hd]; exact i.uniq h h'
  · intro h; rw [hb, hd, e2]; exact i.aligned h
  · intro h b; rw [hb, hl]; exact i.link_back h b
  · intro b h; rw [hb, hl]; exact i.back b h
  · intro h; rw [e4, hb, e5]; exact i.free_links h
  · rw [e4]; exact i.free_links_nodup
  · intro h; rw [e5, hb]; exact i.unborn_links h
  · intro h; rw [e5, hb, e4]; exact i.links_cover h
  · rw [e5, e6]; exact i.links_used_le

theorem my_pread_le (d : DISK) (f count pos c : Nat)
    (h : ∀ n g, d.pread_forced n = some g → g ≤ c) (hc : count ≤ c) :
    (my_pread d f count pos).1 ≤ c := by
  unfold my_pread
  cases hf : d.pread_forced d.preads with
  | some g => exact h _ g hf
  | none => exact le_trans (Nat.min_le_left _ _) hc

theorem my_pread_forced (d : DISK) (f count pos : Nat) :
    (my_pread d f count pos).2.2.pread_forced = d.pread_forced := by
  unfold my_pread
  split <;> rfl

theorem my_pwrite_forced (d : DISK) (f : Nat) (buf : List Nat) (pos : Nat) :
    (my_pwrite d f buf pos).2.pread_forced = d.pread_forced := by
  unfold my_pwrite
  split <;> rfl

/-- A conjunction of eight parts stays true when the premise of its sixth part
gets stronger. -/
theorem ok_weaken {a b c d e l g h p q : Prop} (hqp : q → p)
    (t : a ∧ b ∧ c ∧ d ∧ e ∧ (p → l) ∧ g ∧ h) : a ∧ b ∧ c ∧ d ∧ e ∧ (q → l) ∧ g ∧ h :=
  ⟨t.1, t.2.1, t.2.2.1, t.2.2.2.1, t.2.2.2.2.1, fun hq => t.2.2.2.2.2.1 (hqp hq),
    t.2.2.2.2.2.2⟩

/-- The reads of `kc'` are bounded if those of `kc` are, when both have the same
file store oracle and the same block size. -/
theorem bounded_reads.congr_reads {kc kc' : KEY_CACHE} (h : bounded_reads kc)
    (e4 : kc'.disk.pread_forced = kc.disk.pread_forced)
    (e1 : kc'.key_cache_block_size = kc.key_cache_block_size) : bounded_reads kc' := by
  intro n g hg
  rw [e4] at hg
  rw [e1]
  exact h n g hg

/-- The health of block `b` looks at its status and its length, the block size
and the file store oracle only. -/
theorem block_ok.congr_ok {kc kc' : KEY_CACHE} {fl : List Nat} {b : Nat}
    (h : block_ok kc fl b)
    (hs : (kc'.block_root b).status = (kc.block_root b).status)
    (hn : (kc'.block_root b).length = (kc.block_root b).length)
    (e1 : kc'.key_cache_block_size = kc.key_cache_block_size)
    (hb : bounded_reads kc' → bounded_reads kc) : block_ok kc' fl b := by
  unfold block_ok
  rw [hs, hn, e1]
  exact ⟨h.1, h.2.1, h.2.2.1, h.2.2.2.1, h.2.2.2.2.1, fun hh => h.2.2.2.2.2.1 (hb hh),
    h.2.2.2.2.2.2⟩

/-- The reads are bounded when no call of `my_pread` is forced. -/
theorem bounded_reads.of_none {kc : KEY_CACHE} (h : ∀ n, kc.disk.pread_forced n = none) :
    bounded_reads kc := by
  intro n g hg
  rw [h n] at hg
  cases hg

/-- The reads of `kc` are bounded if those of `kc'` are, when both have the same
file store oracle and the same block size. -/
theorem bounded_reads.of_same {kc kc' : KEY_CACHE}
    (e4 : kc'.disk.pread_forced = kc.disk.pread_forced)
    (e1 : kc'.key_cache_block_size = kc.key_cache_block_size) :
    bounded_reads kc' → bounded_reads kc :=
  fun h => h.congr_reads e4.symm e1.symm

theorem STAT_INV.congr_stat {kc kc' : KEY_CACHE} {pin : Option Nat} {fl : List Nat}
    (i : STAT_INV kc pin fl)
    (e1 : kc'.key_cache_block_size = kc.key_cache_block_size)
    (hl : ∀ b, (kc'.block_root b).hash_link = (kc.block_root b).hash_link)
    (hs : ∀ b, (kc'.block_root b).status = (kc.block_root b).status)
    (hn : ∀ b, (kc'.block_root b).length = (kc.block_root b).length)
    (hb : bounded_reads kc' → bounded_reads kc) : STAT_INV kc' pin fl := by
  constructor
  · intro b h1 h2
    exact (i.used b (by rw [← hl]; exact h1) h2).congr_ok (hs b) (hn b) e1 hb
  · intro b; rw [hl, hs]; exact i.quiet b
  · intro b; rw [hs]; exact i.flushing b
  · intro b; rw [hl, hs]; exact i.free b

theorem REQ_INV.congr_req {kc kc' : KEY_CACHE} {pin : Option Nat} {fl : List Nat}
    (i : REQ_INV kc pin fl)
    (hl : ∀ b, (kc'.block_root b).hash_link = (kc.block_root b).hash_link)
    (hr : ∀ b, (kc'.block_root b).requests = (kc.block_root b).requests)
    (hq : ∀ h, (kc'.hash_link_root h).requests = (kc.hash_link_root h).requests) :
    REQ_INV kc' pin fl := by
  constructor
  · intro b; rw [hr]; exact i.block_free b
  · intro b; rw [hr]; exact i.block_held b
  · intro h; rw [hq]; simp only [hl]; exact i.link_free h

theorem RING_INV.congr_ring {kc kc' : KEY_CACHE} {pin : Option Nat} {fl : List Nat}
    (i : RING_INV kc pin fl)
    (e1 : kc'.used_ring = kc.used_ring) (e2 : kc'.used_ins = kc.used_ins)
    (hl : ∀ b, (kc'.block_root b).hash_link = (kc.block_root b).hash_link)
    (hs : ∀ b, (kc'.block_root b).status.error = (kc.block_root b).status.error) :
    RING_INV kc' pin fl := by
  constructor
  · rw [e1, e2]; exact i.ok
  · intro b; rw [e1, hl, hs]; exact i.iff b
  · intro b; rw [hl]; exact i.pin_used b
  · intro b; rw [hl]; exact i.fl_used b
  · exact i.fl_nodup

/-- a hash link is available -/
theorem hash_link_available (kc : KEY_CACHE) (c : CNT_INV kc) (hi : HASH_INV kc) :
    kc.free_hash_list ≠ [] ∨ kc.hash_links_used < kc.hash_links := by
  by_contra hcon
  push_neg at hcon
  obtain ⟨hfree, hfull⟩ := hcon
  have hall : ∀ h, h < kc.hash_links → ∃ b, b < nblocks kc ∧ (kc.hash_link_root h).block = some b := by
    intro h hh
    have h1 : h < kc.hash_links_used := lt_of_lt_of_le hh hfull
    cases hb : (kc.hash_link_root h).block with
    | none =>
      have := hi.links_cover h h1 hb
      rw [hfree] at this
      exact absurd this (List.not_mem_nil h)
    | some b =>
      refine ⟨b, ?_, rfl⟩
      have hlb := hi.link_back h b hb
      by_contra hge
      have := c.unborn_blocks b (le_trans c.used_le (not_lt.1 hge))
      rw [this] at hlb; cases hlb
  choose g hg using hall
  have hlt : (Finset.range (nblocks kc)).card < (Finset.range kc.hash_links).card := by
    simpa using c.links_gt
  obtain ⟨x, hx, y, hy, hxy, hgxy⟩ :=
    Finset.exists_ne_map_eq_of_card_lt_of_maps_to hlt
      (f := fun h => if hh : h < kc.hash_links then g h hh else 0)
      (by
        intro a ha
        have ha' : a < kc.hash_links := by simpa using ha
        simp only [ha', dite_true]
        exact Finset.mem_range.2 (hg a ha').1)
  have hx' : x < kc.hash_links := by simpa using hx
  have hy' : y < kc.hash_links := by simpa using hy
  simp only [hx', hy', dite_true] at hgxy
  have e1 := hi.link_back x _ (hg x hx').2
  have e2 := hi.link_back y _ (hg y hy').2
  rw [hgxy] at e1
  rw [e1] at e2
  exact hxy (Option.some.inj e2)

theorem STAT_INV.unpin {kc : KEY_CACHE} {b : Nat} {fl : List Nat}
    (i : STAT_INV kc (some b) fl) (hok : block_ok kc fl b)
    (hread : (kc.block_root b).status.read = true)
    (hupd : (kc.block_root b).status.for_update = false) : STAT_INV kc none fl := by
  constructor
  · intro x hx _
    by_cases hxb : x = b
    · subst hxb; exact hok
    · exact i.used x hx (fun hc => hxb (Option.some.inj hc).symm)
  · intro x hx _
    by_cases hxb : x = b
    · subst hxb; exact ⟨hread, hupd⟩
    · exact i.quiet x hx (fun hc => hxb (Option.some.inj hc).symm)
  · exact i.flushing
  · exact i.free

/-- Release of the pinned block: `remove_reader` then `unreg_request`. -/
theorem release_spec (kc : KEY_CACHE) (b h : Nat) (at_end : Bool) (wf : WF kc (some b) [])
    (hh : (kc.block_root b).hash_link = some h)
    (hreqh : (kc.hash_link_root h).requests = 1)
    (hbok : block_ok kc [] b)
    (herr : (kc.block_root b).status.error = false)
    (hread : (kc.block_root b).status.read = true)
    (hupd : (kc.block_root b).status.for_update = false) :
    ∃ br ring ins w,
      remove_reader kc b =
        some (set_hash_link kc h { kc.hash_link_root h with requests := 0 }) ∧
      unreg_request (set_hash_link kc h { kc.hash_link_root h with requests := 0 }) b at_end =
        some (lru_set (set_hash_link kc h { kc.hash_link_root h with requests := 0 })
          br ring ins (kc.keycache_time + 1) w) ∧
      ring.Perm (b :: kc.used_ring) ∧
      (∀ x, same_core (br x)
        (if x = b then { kc.block_root b with requests := 0 } else kc.block_root x)) ∧
      WF (lru_set (set_hash_link kc h { kc.hash_link_root h with requests := 0 })
          br ring ins (kc.keycache_time + 1) w) none [] := by
  have hreqb := wf.req.block_held b (Or.inl rfl)
  have hnotin : b ∉ kc.used_ring := fun hm => ((wf.ring.iff b).1 hm).2.1 rfl
  obtain ⟨br, ring, ins, w, hun, hperm, hok, hcore⟩ := unreg_request_spec
    (set_hash_link kc h { kc.hash_link_root h with requests := 0 }) b at_end
    wf.ring.ok hnotin hreqb herr
  replace hperm : ring.Perm (b :: kc.used_ring) := hperm
  refine ⟨br, ring, ins, w, ?_, hun, hperm, hcore, ?_⟩
  · simp [remove_reader, hh, hreqh, dec32_one]
  · have hc : ∀ x, same_core (br x)
        (if x = b then { kc.block_root b with requests := 0 } else kc.block_root x) := hcore
    have hhl : ∀ x, (br x).hash_link = (kc.block_root x).hash_link := by
      intro x; have := (hc x).1; split at this <;> simp_all
    have hst : ∀ x, (br x).status = (kc.block_root x).status := by
      intro x; have := (hc x).2.2.2.2.1; split at this <;> simp_all
    have hlen : ∀ x, (br x).length = (kc.block_root x).length := by
      intro x; have := (hc x).2.2.2.1; split at this <;> simp_all
    have hrq : ∀ x, (br x).requests = if x = b then 0 else (kc.block_root x).requests := by
      intro x; have := (hc x).2.2.2.2.2; split at this <;> simp_all
    have hlk : ∀ x, x ≠ h → Function.update kc.hash_link_root h
        { kc.hash_link_root h with requests := 0 } x = kc.hash_link_root x :=
      fun x hx => Function.update_noteq hx _ _
    have hlb : ∀ x, (Function.update kc.hash_link_root h
        { kc.hash_link_root h with requests := 0 } x).block = (kc.hash_link_root x).block := by
      intro x; by_cases hx : x = h
      · subst hx; simp
      · rw [hlk x hx]
    have hlf : ∀ x, (Function.update kc.hash_link_root h
        { kc.hash_link_root h with requests := 0 } x).file = (kc.hash_link_root x).file := by
      intro x; by_cases hx : x = h
      · subst hx; simp
      · rw [hlk x hx]
    have hld : ∀ x, (Function.update kc.hash_link_root h
        { kc.hash_link_root h with requests := 0 } x).diskpos = (kc.hash_link_root x).diskpos := by
      intro x; by_cases hx : x = h
      · subst hx; simp
      · rw [hlk x hx]
    refine ⟨wf.cnt.congr_cnt rfl rfl rfl rfl rfl rfl hhl, ?_,
      (wf.stat.unpin hbok hread hupd).congr_stat rfl hhl hst hlen (fun h => h), ?_,
      wf.chain.congr_chain rfl rfl hhl (fun x => by rw [show (lru_set _ br _ _ _ _).block_root x = br x
        from rfl, hst]) hlf,
      wf.hash.congr_hash rfl rfl rfl rfl rfl rfl hhl hlb hlf hld⟩
    · -- ring
      constructor
      · exact hok
      · intro x
        show x ∈ ring ↔ ((br x).hash_link ≠ none ∧ _ ∧ _ ∧ (br x).status.error = false)
        rw [hperm.mem_iff, hhl, hst]
        have := wf.ring.iff x
        by_cases hx : x = b
        · subst hx; simp [hh, herr]
        · simp only [List.mem_cons, hx, false_or, this]
          simp [Ne.symm hx]
      · intro x hx; cases hx
      · intro x hx; cases hx
      · exact List.nodup_nil
    · -- requests
      constructor
      · intro x _ _
        show (br x).requests = 0
        rw [hrq]
        by_cases hx : x = b
        · simp [hx]
        · simp only [hx, if_false]
          exact wf.req.block_free x (fun hc => hx (Option.some.inj hc).symm) (List.not_mem_nil x)
      · intro x hx
        rcases hx with hx | hx
        · cases hx
        · cases hx
      · intro x _
        show (Function.update kc.hash_link_root h _ x).requests = 0
        by_cases hx : x = h
        · subst hx; simp
        · rw [hlk x hx]
          apply wf.req.link_free x
          intro y hy hyx
          have : y = b := (Option.some.inj hy).symm
          subst this
          rw [hh] at hyx
          exact hx (Option.some.inj hyx).symm

theorem get_hash_link_lookup_miss (kc : KEY_CACHE) (f key : Nat) (hi : HASH_INV kc)
    (hmiss : not_cached kc f key) :
    (kc.hash_root (KEYCACHE_HASH kc f key)).find? (fun h =>
      decide ((kc.hash_link_root h).diskpos = key ∧ (kc.hash_link_root h).file = f)) = none := by
  apply find_none_of_forall
  intro h hh
  have := (hi.iff _ _).1 hh
  have := hmiss h this.1
  simp only [decide_eq_false_iff_not]
  tauto

/-- The hash link a miss takes from the pool. -/
theorem get_hash_link_miss (kc : KEY_CACHE) (f key : Nat) (c : CNT_INV kc) (hi : HASH_INV kc)
    (rq : REQ_INV kc none []) (hmiss : not_cached kc f key) :
    ∃ h fh hu,
      get_hash_link kc f key =
        some (h, { kc with
          free_hash_list := fh, hash_links_used := hu
          hash_link_root := Function.update kc.hash_link_root h ⟨none, f, key, 1⟩
          hash_root := Function.update kc.hash_root (KEYCACHE_HASH kc f key)
            (h :: kc.hash_root (KEYCACHE_HASH kc f key)) }) ∧
      (kc.hash_link_root h).block = none ∧ h < hu ∧ hu ≤ kc.hash_links ∧ fh.Nodup ∧
      (∀ x, x ∈ fh → (kc.hash_link_root x).block = none ∧ x < hu ∧ x ≠ h) ∧
      (∀ x, hu ≤ x → (kc.hash_link_root x).block = none ∧ x ≠ h) ∧
      (∀ x, x < hu → (kc.hash_link_root x).block = none → x = h ∨ x ∈ fh) := by
  have hfind := get_hash_link_lookup_miss kc f key hi hmiss
  have hreq0 : ∀ x, (kc.hash_link_root x).requests = 0 :=
    fun x => rq.link_free x (fun b hb => by cases hb)
  unfold get_hash_link
  simp only [hfind]
  cases hfl : kc.free_hash_list with
  | nil =>
    have hlt : kc.hash_links_used < kc.hash_links := by
      rcases hash_link_available kc c hi with h1 | h1
      · exact absurd hfl h1
      · exact h1
    have hb := hi.unborn_links kc.hash_links_used le_rfl
    refine ⟨kc.hash_links_used, [], kc.hash_links_used + 1, ?_, hb, Nat.lt_succ_self _, hlt,
      List.nodup_nil, (fun x hx => by cases hx), ?_, ?_⟩
    · simp only [hlt, if_true, set_hash_link, link_hash, Function.update_same,
        Function.update_idem, hreq0, hb]
    · intro x hx
      exact ⟨hi.unborn_links x (by omega), by omega⟩
    · intro x hx hxb
      by_cases hxu : x < kc.hash_links_used
      · have := hi.links_cover x hxu hxb
        rw [hfl] at this; cases this
      · left; omega
  | cons h rest =>
    have hmem : h ∈ kc.free_hash_list := by rw [hfl]; exact List.mem_cons_self _ _
    have hfr := hi.free_links h hmem
    have hnd := hi.free_links_nodup
    rw [hfl] at hnd
    have hnd' := List.nodup_cons.1 hnd
    refine ⟨h, rest, kc.hash_links_used, ?_, hfr.1, hfr.2, hi.links_used_le, hnd'.2, ?_, ?_, ?_⟩
    · simp only [set_hash_link, link_hash, Function.update_same,
        Function.update_idem, hreq0, hfr.1]
    · intro x hx
      have hx' : x ∈ kc.free_hash_list := by rw [hfl]; exact List.mem_cons_of_mem _ hx
      have := hi.free_links x hx'
      exact ⟨this.1, this.2, fun hc => hnd'.1 (hc ▸ hx)⟩
    · intro x hx
      exact ⟨hi.unborn_links x hx, fun hc => by rw [hc] at hx; exact absurd hfr.2 (not_lt.2 hx)⟩
    · intro x hx hxb
      have := hi.links_cover x hx hxb
      rw [hfl] at this
      rcases List.mem_cons.1 this with h1 | h1
      · exact Or.inl h1
      · exact Or.inr h1

/-- The block a miss takes from the pool of unused blocks. -/
theorem take_unused_block_spec (kc : KEY_CACHE) (c : CNT_INV kc) (hne : kc.blocks_unused ≠ 0) :
    ∃ b fb bu,
      take_unused_block kc = (b, { kc with free_block_list := fb, blocks_used := bu }) ∧
      (kc.block_root b).hash_link = none ∧ b < bu ∧ bu ≤ nblocks kc ∧ fb.Nodup ∧
      kc.blocks_unused - 1 = fb.length + (nblocks kc - bu) ∧
      (∀ x, x ∈ fb → (kc.block_root x).hash_link = none ∧ x < bu ∧ x ≠ b) ∧
      (∀ x, bu ≤ x → (kc.block_root x).hash_link = none ∧ x ≠ b) ∧
      (∀ x, x < bu → (kc.block_root x).hash_link = none → x = b ∨ x ∈ fb) := by
  have hu := c.unused_eq
  unfold take_unused_block
  cases hfl : kc.free_block_list with
  | nil =>
    rw [hfl] at hu
    simp only [List.length_nil, zero_add] at hu
    have hlt : kc.blocks_used < nblocks kc := by omega
    refine ⟨kc.blocks_used, [], kc.blocks_used + 1, ?_, c.unborn_blocks _ le_rfl,
      Nat.lt_succ_self _, hlt, List.nodup_nil, ?_, (fun x hx => by cases hx), ?_, ?_⟩
    · rfl
    · simp only [List.length_nil]; omega
    · intro x hx
      exact ⟨c.unborn_blocks x (by omega), by omega⟩
    · intro x hx hxb
      by_cases hxu : x < kc.blocks_used
      · have := c.blocks_cover x hxu hxb
        rw [hfl] at this; cases this
      · left; omega
  | cons b rest =>
    have hmem : b ∈ kc.free_block_list := by rw [hfl]; exact List.mem_cons_self _ _
    have hfr := c.free_blocks b hmem
    have hnd := c.free_blocks_nodup
    rw [hfl] at hnd hu
    have hnd' := List.nodup_cons.1 hnd
    simp only [List.length_cons] at hu
    refine ⟨b, rest, kc.blocks_used, ?_, hfr.1, hfr.2, c.used_le, hnd'.2, by omega, ?_, ?_, ?_⟩
    · rfl
    · intro x hx
      have hx' : x ∈ kc.free_block_list := by rw [hfl]; exact List.mem_cons_of_mem _ hx
      have := c.free_blocks x hx'
      exact ⟨this.1, this.2, fun hc => hnd'.1 (hc ▸ hx)⟩
    · intro x hx
      exact ⟨c.unborn_blocks x hx, fun hc => by rw [hc] at hx; exact absurd hfr.2 (not_lt.2 hx)⟩
    · intro x hx hxb
      have := c.blocks_cover x hx hxb
      rw [hfl] at this
      rcases List.mem_cons.1 this with h1 | h1
      · exact Or.inl h1
      · exact Or.inr h1

theorem find_key_block_miss_unused (kc : KEY_CACHE) (f key level : Nat) (wrmode : Bool)
    (wf : WF kc none []) (hu : usable kc) (hmiss : not_cached kc f key)
    (hne : kc.blocks_unused ≠ 0) :
    ∃ h b fh hu fb bu,
      find_key_block kc f key level wrmode =
        some (some (b, PAGE_TO_BE_READ), miss_unused_state kc f key level h b fh hu fb bu) ∧
      (kc.hash_link_root h).block = none ∧ (kc.block_root b).hash_link = none ∧
      -- what is left of the pool of hash links
      (h < hu ∧ hu ≤ kc.hash_links ∧ fh.Nodup ∧
        (∀ x, x ∈ fh → (kc.hash_link_root x).block = none ∧ x < hu ∧ x ≠ h) ∧
        (∀ x, hu ≤ x → (kc.hash_link_root x).block = none ∧ x ≠ h) ∧
        (∀ x, x < hu → (kc.hash_link_root x).block = none → x = h ∨ x ∈ fh)) ∧
      -- what is left of the pool of blocks
      (b < bu ∧ bu ≤ nblocks kc ∧ fb.Nodup ∧
        kc.blocks_unused - 1 = fb.length + (nblocks kc - bu) ∧
        (∀ x, x ∈ fb → (kc.block_root x).hash_link = none ∧ x < bu ∧ x ≠ b) ∧
        (∀ x, bu ≤ x → (kc.block_root x).hash_link = none ∧ x ≠ b) ∧
        (∀ x, x < bu → (kc.block_root x).hash_link = none → x = b ∨ x ∈ fb)) := by
  obtain ⟨h, fh, hu', hget, hhb, hpool⟩ := get_hash_link_miss kc f key wf.cnt wf.hash wf.req hmiss
  obtain ⟨k1, hk1⟩ : ∃ k1 : KEY_CACHE, k1 = { kc with
          free_hash_list := fh, hash_links_used := hu'
          hash_link_root := Function.update kc.hash_link_root h ⟨none, f, key, 1⟩
          hash_root := Function.update kc.hash_root (KEYCACHE_HASH kc f key)
            (h :: kc.hash_root (KEYCACHE_HASH kc f key)) } := ⟨_, rfl⟩
  rw [← hk1] at hget
  have c1 : CNT_INV k1 := wf.cnt.congr_cnt (by rw [hk1]) (by rw [hk1]) (by rw [hk1]) (by rw [hk1])
    (by rw [hk1]) (by rw [hk1]) (fun x => by rw [hk1])
  have hne1 : k1.blocks_unused ≠ 0 := by rw [hk1]; exact hne
  obtain ⟨b, fb, bu, htake, hbl, hbpool⟩ := take_unused_block_spec k1 c1 hne1
  have e1 : k1.block_root = kc.block_root := by rw [hk1]
  have e2 : nblocks k1 = nblocks kc := by rw [hk1]; rfl
  have e3 : k1.blocks_unused = kc.blocks_unused := by rw [hk1]
  rw [e1, e2, e3] at hbpool
  rw [e1] at hbl
  refine ⟨h, b, fh, hu', fb, bu, ?_, hhb, hbl, hpool, hbpool⟩
  unfold find_key_block
  have hcan : k1.in_resize = false := by rw [hk1]; exact hu.2.2
  have hblk : (k1.hash_link_root h).block = none := by rw [hk1]; simp
  simp only [hu.2.1, hget, hcan, hblk, Bool.true_eq_false, if_false, hne1,
    ne_eq, not_false_eq_true, if_true, Bool.false_eq_true]
  unfold find_key_block_unused
  simp only [htake]
  rw [hk1]
  simp only [set_block, set_hash_link, link_to_file_list, link_changed, Function.update_same,
    Function.update_idem, Bool.false_eq_true, if_false, BLOCK_IN_USE, miss_unused_state]

theorem miss_unused_state_wf (kc : KEY_CACHE) (f key level h b : Nat) (fh : List Nat) (hu : Nat)
    (fb : List Nat) (bu : Nat) (wf : WF kc none []) (hmiss : not_cached kc f key)
    (hal : key % kc.key_cache_block_size = 0)
    (hhb : (kc.hash_link_root h).block = none) (hbl : (kc.block_root b).hash_link = none)
    (hpool : h < hu ∧ hu ≤ kc.hash_links ∧ fh.Nodup ∧
        (∀ x, x ∈ fh → (kc.hash_link_root x).block = none ∧ x < hu ∧ x ≠ h) ∧
        (∀ x, hu ≤ x → (kc.hash_link_root x).block = none ∧ x ≠ h) ∧
        (∀ x, x < hu → (kc.hash_link_root x).block = none → x = h ∨ x ∈ fh))
    (hbpool : b < bu ∧ bu ≤ nblocks kc ∧ fb.Nodup ∧
        kc.blocks_unused - 1 = fb.length + (nblocks kc - bu) ∧
        (∀ x, x ∈ fb → (kc.block_root x).hash_link = none ∧ x < bu ∧ x ≠ b) ∧
        (∀ x, bu ≤ x → (kc.block_root x).hash_link = none ∧ x ≠ b) ∧
        (∀ x, x < bu → (kc.block_root x).hash_link = none → x = b ∨ x ∈ fb)) :
    WF (miss_unused_state kc f key level h b fh hu fb bu) (some b) [] := by
  obtain ⟨hp1, hp2, hp3, hp4, hp5, hp6⟩ := hpool
  obtain ⟨hb1, hb2, hb3, hb4, hb5, hb6, hb7⟩ := hbpool
  -- projections of the new state
  have eB : ∀ x, (miss_unused_state kc f key level h b fh hu fb bu).block_root x =
      if x = b then { kc.block_root b with
        status := BLOCK_IN_USE, length := 0, offset := kc.key_cache_block_size, requests := 1,
        temperature := BLOCK_COLD, hits_left := level, last_hit_time := 0,
        hash_link := some h } else kc.block_root x := by
    intro x; simp only [miss_unused_state, Function.update_apply]
  have eL : ∀ x, (miss_unused_state kc f key level h b fh hu fb bu).hash_link_root x =
      if x = h then ⟨some b, f, key, 1⟩ else kc.hash_link_root x := by
    intro x; simp only [miss_unused_state, Function.update_apply]
  have eK : ∀ g p, KEYCACHE_HASH (miss_unused_state kc f key level h b fh hu fb bu) g p =
      KEYCACHE_HASH kc g p := fun g p => rfl
  have hlne : ∀ x h', (kc.block_root x).hash_link = some h' → x ≠ b ∧ h' ≠ h := by
    intro x h' hx
    refine ⟨(fun hc => by rw [hc, hbl] at hx; cases hx), fun hc => ?_⟩
    have := wf.hash.back x h' hx
    rw [hc, hhb] at this; cases this
  refine ⟨?_, ?_, ?_, ?_, ?_, ?_⟩
  · -- CNT_INV
    constructor
    · exact wf.cnt.bs_pos
    · exact wf.cnt.blocks_pos
    · exact hb2
    · exact hb4
    · exact wf.cnt.links_gt
    · intro x hx
      have := hb5 x hx
      rw [eB]; simp only [this.2.2, if_false]
      exact ⟨this.1, this.2.1⟩
    · exact hb3
    · intro x hx
      have := hb6 x hx
      rw [eB]; simp only [this.2, if_false]
      exact this.1
    · intro x hx hxn
      rw [eB] at hxn
      by_cases hxb : x = b
      · simp [hxb] at hxn
      · simp only [hxb, if_false] at hxn
        rcases hb7 x hx hxn with h1 | h1
        · exact absurd h1 hxb
        · exact h1
  · -- RING_INV
    constructor
    · exact wf.ring.ok
    · intro x
      show x ∈ kc.used_ring ↔ _
      rw [eB, wf.ring.iff x]
      by_cases hxb : x = b
      · subst hxb; simp [hbl]
      · simp [hxb, Ne.symm hxb]
    · intro x hx
      have : x = b := (Option.some.inj hx).symm
      subst this
      rw [eB]; simp
    · intro x hx; cases hx
    · exact List.nodup_nil
  · -- STAT_INV
    constructor
    · intro x hx hpin
      have hxb : x ≠ b := fun hc => hpin (by rw [hc])
      unfold block_ok
      rw [eB] at hx ⊢
      simp only [hxb, if_false] at hx ⊢
      exact wf.stat.used x hx (by simp)
    · intro x hx hpin
      have hxb : x ≠ b := fun hc => hpin (by rw [hc])
      rw [eB] at hx ⊢
      simp only [hxb, if_false] at hx ⊢
      exact wf.stat.quiet x hx (by simp)
    · intro x hx; cases hx
    · intro x hx
      rw [eB] at hx ⊢
      by_cases hxb : x = b
      · subst hxb; simp at hx
      · simp only [hxb, if_false] at hx ⊢
        exact wf.stat.free x hx
  · -- REQ_INV
    constructor
    · intro x hpin _
      have hxb : x ≠ b := fun hc => hpin (by rw [hc])
      rw [eB]; simp only [hxb, if_false]
      exact wf.req.block_free x (by simp) (by simp)
    · intro x hx
      rcases hx with hx | hx
      · have : x = b := (Option.some.inj hx).symm
        subst this
        rw [eB]; simp
      · cases hx
    · intro x hx
      have hxh : x ≠ h := by
        intro hc
        have := hx b rfl
        rw [eB] at this
        simp [hc] at this
      rw [eL]; simp only [hxh, if_false]
      exact wf.req.link_free x (fun y hy => by cases hy)
  · -- CHAIN_INV
    constructor
    · intro i x
      show x ∈ kc.changed_blocks i ↔ _
      rw [wf.chain.changed_iff i x, eB]
      by_cases hxb : x = b
      · subst hxb; simp [hbl, BLOCK_IN_USE]
      · simp only [hxb, if_false]
        constructor
        · rintro ⟨h', e1, e2, e3⟩
          refine ⟨h', e1, e2, ?_⟩
          rw [eL]; simp only [(hlne x h' e1).2, if_false]; exact e3
        · rintro ⟨h', e1, e2, e3⟩
          refine ⟨h', e1, e2, ?_⟩
          rw [eL] at e3; simp only [(hlne x h' e1).2, if_false] at e3; exact e3
    · intro i x
      show x ∈ Function.update kc.file_blocks (FILE_HASH f) (b :: kc.file_blocks (FILE_HASH f)) i
        ↔ _
      rw [eB]
      by_cases hxb : x = b
      · subst hxb
        have hnot : ∀ j, x ∉ kc.file_blocks j := by
          intro j hj
          obtain ⟨h', e1, -⟩ := (wf.chain.file_iff j x).1 hj
          rw [hbl] at e1; cases e1
        simp only [if_true, Function.update_apply]
        constructor
        · intro hm
          refine ⟨h, rfl, by simp [BLOCK_IN_USE], ?_⟩
          rw [eL]; simp only [if_true]
          by_contra hne
          simp only [Ne.symm hne, if_false] at hm
          exact hnot i hm
        · rintro ⟨h', e1, -, e3⟩
          have : h' = h := (Option.some.inj e1).symm
          subst this
          rw [eL] at e3; simp only [if_true] at e3
          simp [e3]
      · simp only [hxb, if_false]
        have hmem : x ∈ Function.update kc.file_blocks (FILE_HASH f)
            (b :: kc.file_blocks (FILE_HASH f)) i ↔ x ∈ kc.file_blocks i := by
          simp only [Function.update_apply]
          split
          · rename_i hi; subst hi; simp [hxb]
          · rfl
        rw [hmem, wf.chain.file_iff i x]
        constructor
        · rintro ⟨h', e1, e2, e3⟩
          refine ⟨h', e1, e2, ?_⟩
          rw [eL]; simp only [(hlne x h' e1).2, if_false]; exact e3
        · rintro ⟨h', e1, e2, e3⟩
          refine ⟨h', e1, e2, ?_⟩
          rw [eL] at e3; simp only [(hlne x h' e1).2, if_false] at e3; exact e3
    · exact wf.chain.changed_nodup
    · intro i
      show (Function.update kc.file_blocks (FILE_HASH f) (b :: kc.file_blocks (FILE_HASH f)) i).Nodup
      simp only [Function.update_apply]
      split
      · rename_i hi; subst hi
        refine List.nodup_cons.2 ⟨?_, wf.chain.file_nodup _⟩
        intro hj
        obtain ⟨h', e1, -⟩ := (wf.chain.file_iff _ b).1 hj
        rw [hbl] at e1; cases e1
      · exact wf.chain.file_nodup i
  · -- HASH_INV
    have hnotin : ∀ j, h ∉ kc.hash_root j := by
      intro j hj
      exact ((wf.hash.iff j h).1 hj).1 hhb
    have hmem : ∀ i x, x ∈ Function.update kc.hash_root (KEYCACHE_HASH kc f key)
        (h :: kc.hash_root (KEYCACHE_HASH kc f key)) i ↔
        ((x = h ∧ i = KEYCACHE_HASH kc f key) ∨ x ∈ kc.hash_root i) := by
      intro i x
      simp only [Function.update_apply]
      split
      · rename_i hi; subst hi; simp
      · rename_i hi; simp [hi]
    constructor
    · intro i x
      show x ∈ Function.update kc.hash_root (KEYCACHE_HASH kc f key) _ i ↔ _
      rw [hmem, eL, eK]
      by_cases hxh : x = h
      · subst hxh
        simp only [if_true, true_and]
        constructor
        · rintro (h1 | h1)
          · exact ⟨by simp, h1.symm⟩
          · exact absurd h1 (hnotin i)
        · rintro ⟨-, h1⟩
          exact Or.inl h1.symm
      · simp only [hxh, if_false, false_and, false_or]
        exact wf.hash.iff i x
    · intro i
      show (Function.update kc.hash_root (KEYCACHE_HASH kc f key) _ i).Nodup
      simp only [Function.update_apply]
      split
      · rename_i hi; subst hi
        exact List.nodup_cons.2 ⟨hnotin _, wf.hash.nodup _⟩
      · exact wf.hash.nodup i
    · intro x y
      rw [eL, eL]
      by_cases hxh : x = h <;> by_cases hyh : y = h
      · intro _ _ _ _; rw [hxh, hyh]
      · simp only [hxh, hyh, if_true, if_false]
        intro _ hy e1 e2
        exact absurd ⟨e1.symm, e2.symm⟩ (hmiss y hy)
      · simp only [hxh, hyh, if_true, if_false]
        intro hx _ e1 e2
        exact absurd ⟨e1, e2⟩ (hmiss x hx)
      · simp only [hxh, hyh, if_false]
        exact wf.hash.uniq x y
    · intro x
      rw [eL]
      by_cases hxh : x = h
      · simp only [hxh, if_true]; intro _; exact hal
      · simp only [hxh, if_false]; exact wf.hash.aligned x
    · intro x y
      rw [eL, eB]
      by_cases hxh : x = h
      · simp only [hxh, if_true]
        intro hy
        have : y = b := (Option.some.inj hy).symm
        simp [this]
      · simp only [hxh, if_false]
        intro hy
        have := wf.hash.link_back x y hy
        simp only [(hlne y x this).1, if_false]
        exact this
    · intro y x
      rw [eL, eB]
      by_cases hyb : y = b
      · simp only [hyb, if_true]
        intro hx
        have : x = h := (Option.some.inj hx).symm
        simp [this]
      · simp only [hyb, if_false]
        intro hx
        simp only [(hlne y x hx).2, if_false]
        exact wf.hash.back y x hx
    · intro x hx
      have := hp4 x hx
      rw [eL]; simp only [this.2.2, if_false]
      exact ⟨this.1, this.2.1⟩
    · exact hp3
    · intro x hx
      have := hp5 x hx
      rw [eL]; simp only [this.2, if_false]
      exact this.1
    · intro x hx hxn
      rw [eL] at hxn
      by_cases hxh : x = h
      · simp [hxh] at hxn
      · simp only [hxh, if_false] at hxn
        rcases hp6 x hx hxn with h1 | h1
        · exact absurd h1 hxh
        · exact h1
    · exact hp2

theorem read_block_primary (kc : KEY_CACHE) (b h read_length min_length : Nat)
    (hh : (kc.block_root b).hash_link = some h) :
    read_block kc b read_length min_length true =
      some (read_block_state kc b h read_length min_length) := by
  unfold read_block
  simp only [if_true, hh, read_block_state, set_block]
  split <;> rfl

/-- A state that differs in counters and in the file store only is as well-formed. -/
theorem WF.congr_wf {kc kc' : KEY_CACHE} {pin : Option Nat} {fl : List Nat} (wf : WF kc pin fl)
    (e1 : kc'.key_cache_block_size = kc.key_cache_block_size)
    (e2 : kc'.disk_blocks = kc.disk_blocks)
    (e3 : kc'.blocks_used = kc.blocks_used)
    (e4 : kc'.blocks_unused = kc.blocks_unused)
    (e5 : kc'.free_block_list = kc.free_block_list)
    (e6 : kc'.hash_links = kc.hash_links)
    (e7 : kc'.hash_links_used = kc.hash_links_used)
    (e8 : kc'.hash_entries = kc.hash_entries)
    (e9 : kc'.used_ring = kc.used_ring)
    (e10 : kc'.used_ins = kc.used_ins)
    (e11 : kc'.changed_blocks = kc.changed_blocks)
    (e12 : kc'.file_blocks = kc.file_blocks)
    (e13 : kc'.hash_root = kc.hash_root)
    (e14 : kc'.free_hash_list = kc.free_hash_list)
    (hl : ∀ b, (kc'.block_root b).hash_link = (kc.block_root b).hash_link)
    (hs : ∀ b, (kc'.block_root b).status = (kc.block_root b).status)
    (hn : ∀ b, (kc'.block_root b).length = (kc.block_root b).length)
    (hr : ∀ b, (kc'.block_root b).requests = (kc.block_root b).requests)
    (hk : kc'.hash_link_root = kc.hash_link_root)
    (hb : bounded_reads kc' → bounded_reads kc) : WF kc' pin fl :=
  ⟨wf.cnt.congr_cnt e1 e2 e3 e4 e5 e6 hl,
   wf.ring.congr_ring e9 e10 hl (fun b => by rw [hs]),
   wf.stat.congr_stat e1 hl hs hn hb,
   wf.req.congr_req hl hr (fun h => by rw [hk]),
   wf.chain.congr_chain e11 e12 hl (fun b => by rw [hs]) (fun h => by rw [hk]),
   wf.hash.congr_hash e13 e1 e8 e14 e7 e6 hl (fun h => by rw [hk]) (fun h => by rw [hk])
     (fun h => by rw [hk])⟩

/-- The page has arrived: the state after a successful `read_block` is well-formed. -/
theorem read_block_state_wf (kc : KEY_CACHE) (b h read_length min_length : Nat)
    (wf : WF kc (some b) [])
    (hforce : kc.disk.pread_forced kc.disk.preads = none)
    (hgot : min_length ≤ min read_length
      (kc.disk.size (kc.hash_link_root h).file - (kc.hash_link_root h).diskpos)) :
    WF (read_block_state kc b h read_length min_length) (some b) [] := by
  have hpr : my_pread kc.disk (kc.hash_link_root h).file read_length (kc.hash_link_root h).diskpos
      = (min read_length (kc.disk.size (kc.hash_link_root h).file - (kc.hash_link_root h).diskpos),
         min read_length (kc.disk.size (kc.hash_link_root h).file - (kc.hash_link_root h).diskpos),
         { kc.disk with preads := kc.disk.preads + 1 }) := by
    unfold my_pread; simp only [hforce]
  have eB : ∀ x, (read_block_state kc b h read_length min_length).block_root x =
      if x = b then
        { kc.block_root b with
          buffer := pread_into kc.disk (kc.hash_link_root h).file (kc.hash_link_root h).diskpos
            (min read_length
              (kc.disk.size (kc.hash_link_root h).file - (kc.hash_link_root h).diskpos))
            (kc.block_root b).buffer
          status := { (kc.block_root b).status with read := true }
          length := min read_length
            (kc.disk.size (kc.hash_link_root h).file - (kc.hash_link_root h).diskpos) }
      else kc.block_root x := by
    intro x
    simp only [read_block_state, hpr, Function.update_apply, not_lt.2 hgot, if_false]
  have hhl : ∀ x, ((read_block_state kc b h read_length min_length).block_root x).hash_link =
      (kc.block_root x).hash_link := by
    intro x; rw [eB]; split
    · rename_i hx; rw [hx]
    · rfl
  have hrq : ∀ x, ((read_block_state kc b h read_length min_length).block_root x).requests =
      (kc.block_root x).requests := by
    intro x; rw [eB]; split
    · rename_i hx; rw [hx]
    · rfl
  have hch : ∀ x, ((read_block_state kc b h read_length min_length).block_root x).status.changed =
      (kc.block_root x).status.changed := by
    intro x; rw [eB]; split
    · rename_i hx; rw [hx]
    · rfl
  have her : ∀ x, ((read_block_state kc b h read_length min_length).block_root x).status.error =
      (kc.block_root x).status.error := by
    intro x; rw [eB]; split
    · rename_i hx; rw [hx]
    · rfl
  refine ⟨wf.cnt.congr_cnt rfl rfl rfl rfl rfl rfl hhl, wf.ring.congr_ring rfl rfl hhl her, ?_,
    wf.req.congr_req hhl hrq (fun _ => rfl), wf.chain.congr_chain rfl rfl hhl hch (fun _ => rfl),
    wf.hash.congr_hash rfl rfl rfl rfl rfl rfl hhl (fun _ => rfl) (fun _ => rfl) (fun _ => rfl)⟩
  constructor
  · intro x hx hpin
    have hxb : x ≠ b := fun hc => hpin (by rw [hc])
    rw [hhl] at hx
    have := wf.stat.used x hx hpin
    unfold block_ok
    rw [eB]; simp only [hxb, if_false]
    exact ok_weaken (bounded_reads.of_same (my_pread_forced _ _ _ _) rfl) this
  · intro x hx hpin
    have hxb : x ≠ b := fun hc => hpin (by rw [hc])
    rw [hhl] at hx
    rw [eB]; simp only [hxb, if_false]
    exact wf.stat.quiet x hx hpin
  · intro x hx; cases hx
  · intro x hx
    rw [hhl] at hx
    have hxb : x ≠ b := by
      intro hc; rw [hc] at hx; exact (wf.ring.pin_used b rfl).1 hx
    rw [eB]; simp only [hxb, if_false]
    exact wf.stat.free x hx

/-- A read of one block that is not cached, in a cache with an unused block:
the page is loaded into the unused block and copied to the caller. -/
theorem key_cache_read_miss_unused (kc : KEY_CACHE) (f pos level len : Nat) (buff : Nat → Nat)
    (wf : WF kc none []) (hu : usable kc)
    (hone : pos % kc.key_cache_block_size + len ≤ kc.key_cache_block_size)
    (hmiss : not_cached kc f (pos - pos % kc.key_cache_block_size))
    (hunused : kc.blocks_unused ≠ 0)
    (hforce : kc.disk.pread_forced kc.disk.preads = none)
    (hgot : pos % kc.key_cache_block_size + len ≤
      min kc.key_cache_block_size (kc.disk.size f - (pos - pos % kc.key_cache_block_size))) :
    ∃ buff' kc' b h,
      key_cache_read kc f pos level buff len = some (false, buff', kc') ∧
      (∀ i, i < len → buff' i = kc.disk.data f (pos + i)) ∧
      (kc.block_root b).hash_link = none ∧
      (kc'.block_root b).hash_link = some h ∧
      kc'.hash_link_root h = ⟨some b, f, pos - pos % kc.key_cache_block_size, 0⟩ ∧
      (kc'.block_root b).status = { read := true, in_use := true } ∧
      (kc'.block_root b).length =
        min kc.key_cache_block_size (kc.disk.size f - (pos - pos % kc.key_cache_block_size)) ∧
      (∀ i, b ∉ kc'.changed_blocks i) ∧
      (∀ x, x ≠ b → (kc'.block_root x).hash_link = (kc.block_root x).hash_link) ∧
      kc'.blocks_unused + 1 = kc.blocks_unused ∧ kc'.disk.preads = kc.disk.preads + 1 ∧
      WF kc' none [] := by
  obtain ⟨kA, hkA⟩ : ∃ kA : KEY_CACHE, kA =
      { inc_counter_for_resize_op kc with
        global_cache_r_requests := (inc_counter_for_resize_op kc).global_cache_r_requests + 1 } :=
    ⟨_, rfl⟩
  have wfA : WF kA none [] := by
    rw [hkA]
    exact wf.congr_wf rfl rfl rfl rfl rfl rfl rfl rfl rfl rfl rfl rfl rfl rfl (fun _ => rfl)
      (fun _ => rfl) (fun _ => rfl) (fun _ => rfl) rfl (fun h => h)
  have huA : usable kA := by rw [hkA]; exact hu
  have hmA : not_cached kA f (pos - pos % kc.key_cache_block_size) := by rw [hkA]; exact hmiss
  have hneA : kA.blocks_unused ≠ 0 := by rw [hkA]; exact hunused
  obtain ⟨h, b, fh, hu', fb, bu, hfind, hhb, hbl, hpool, hbpool⟩ :=
    find_key_block_miss_unused kA f (pos - pos % kc.key_cache_block_size) level false wfA huA hmA
      hneA
  have ebs : kA.key_cache_block_size = kc.key_cache_block_size := by rw [hkA]; rfl
  have hal : (pos - pos % kc.key_cache_block_size) % kA.key_cache_block_size = 0 := by
    rw [ebs]; exact Nat.sub_mod_eq_zero_of_mod_eq (by simp)
  obtain ⟨K1, hK1⟩ : ∃ K1, K1 = miss_unused_state kA f (pos - pos % kc.key_cache_block_size)
      level h b fh hu' fb bu := ⟨_, rfl⟩
  have wf1 : WF K1 (some b) [] := by
    rw [hK1]
    exact miss_unused_state_wf kA f _ level h b fh hu' fb bu wfA hmA hal hhb hbl hpool hbpool
  rw [← hK1] at hfind
  have e1b : K1.block_root b = { kA.block_root b with
        status := BLOCK_IN_USE, length := 0, offset := kA.key_cache_block_size, requests := 1,
        temperature := BLOCK_COLD, hits_left := level, last_hit_time := 0,
        hash_link := some h } := by
    rw [hK1]; simp [miss_unused_state]
  have e1h : K1.hash_link_root h = ⟨some b, f, pos - pos % kc.key_cache_block_size, 1⟩ := by
    rw [hK1]; simp [miss_unused_state]
  have e1bs : K1.key_cache_block_size = kc.key_cache_block_size := by rw [hK1, ← ebs]; rfl
  have e1d : K1.disk = kc.disk := by rw [hK1, hkA]; rfl
  have hh1 : (K1.block_root b).hash_link = some h := by rw [e1b]
  -- the page is read
  obtain ⟨K2, hK2⟩ : ∃ K2, K2 = read_block_state K1 b h kc.key_cache_block_size
      (len + pos % kc.key_cache_block_size) := ⟨_, rfl⟩
  have hread := read_block_primary K1 b h kc.key_cache_block_size
      (len + pos % kc.key_cache_block_size) hh1
  rw [← hK2] at hread
  have hgot' : len + pos % kc.key_cache_block_size ≤ min kc.key_cache_block_size
      (K1.disk.size (K1.hash_link_root h).file - (K1.hash_link_root h).diskpos) := by
    rw [e1d, e1h]; simpa [Nat.add_comm] using hgot
  have wf2 : WF K2 (some b) [] := by
    rw [hK2]
    exact read_block_state_wf K1 b h _ _ wf1 (by rw [e1d]; exact hforce) hgot'
  have hpr : my_pread K1.disk (K1.hash_link_root h).file kc.key_cache_block_size
      (K1.hash_link_root h).diskpos
      = (min kc.key_cache_block_size
          (kc.disk.size f - (pos - pos % kc.key_cache_block_size)),
         min kc.key_cache_block_size
          (kc.disk.size f - (pos - pos % kc.key_cache_block_size)),
         { kc.disk with preads := kc.disk.preads + 1 }) := by
    unfold my_pread; rw [e1d, e1h]; simp only [hforce]
  have e2b : K2.block_root b = { K1.block_root b with
        buffer := pread_into kc.disk f (pos - pos % kc.key_cache_block_size)
          (min kc.key_cache_block_size
            (kc.disk.size f - (pos - pos % kc.key_cache_block_size))) (K1.block_root b).buffer
        status := { (K1.block_root b).status with read := true }
        length := min kc.key_cache_block_size
            (kc.disk.size f - (pos - pos % kc.key_cache_block_size)) } := by
    have hg : ¬ (min kc.key_cache_block_size
        (kc.disk.size f - (pos - pos % kc.key_cache_block_size)) <
          len + pos % kc.key_cache_block_size) := by
      rw [Nat.add_comm]; exact not_lt.2 hgot
    rw [hK2]; simp only [read_block_state, hpr, Function.update_same, hg, if_false]
    rw [e1d, e1h]
  have e2s : (K2.block_root b).status = { read := true, in_use := true } := by
    rw [e2b, e1b]; rfl
  have e2h : K2.hash_link_root h = ⟨some b, f, pos - pos % kc.key_cache_block_size, 1⟩ := by
    rw [hK2]; exact e1h
  have hh2 : (K2.block_root b).hash_link = some h := by rw [e2b]; exact hh1
  have e2l : (K2.block_root b).length ≤ K2.key_cache_block_size := by
    rw [e2b]
    have e2bs : K2.key_cache_block_size = kc.key_cache_block_size := by rw [hK2]; exact e1bs
    rw [e2bs]
    exact Nat.min_le_left _ _
  obtain ⟨br, ring, ins, w, hrem, hunreg, hperm, hcore, wf3⟩ :=
    release_spec K2 b h true wf2 hh2 (by rw [e2h])
      ⟨by rw [e2s], by rw [e2s], by rw [e2s], by rw [e2s], by rw [e2s], fun _ => e2l,
        by rw [e2s]; simp,
        by rw [e2s]; simp⟩
      (by rw [e2s]) (by rw [e2s]) (by rw [e2s])
  obtain ⟨K2r, hK2r⟩ : ∃ K2r, K2r =
      set_hash_link K2 h { K2.hash_link_root h with requests := 0 } := ⟨_, rfl⟩
  rw [← hK2r] at hrem hunreg wf3
  obtain ⟨K3, hK3⟩ : ∃ K3, K3 = lru_set K2r br ring ins (K2.keycache_time + 1) w := ⟨_, rfl⟩
  rw [← hK3] at hunreg wf3
  have hrl : min len (kc.key_cache_block_size - pos % kc.key_cache_block_size) = len := by
    apply min_eq_left; omega
  have hchunk : key_cache_read_chunk (inc_counter_for_resize_op kc) f pos level buff 0
      len (pos % kc.key_cache_block_size) false =
      some (false, (fun i => if 0 ≤ i ∧ i < 0 + len then
        (K2.block_root b).buffer (pos % kc.key_cache_block_size + (i - 0)) else buff i), K3,
        false) := by
    unfold key_cache_read_chunk
    have hcan : (inc_counter_for_resize_op kc).can_be_used = true := hu.2.1
    rw [if_neg (by rw [hcan]; decide)]
    dsimp only []
    rw [← hkA, hfind]
    dsimp only []
    have ebs0 : (inc_counter_for_resize_op kc).key_cache_block_size = kc.key_cache_block_size :=
      rfl
    have e1s : (K1.block_root b).status.error = false := by rw [e1b]; rfl
    have e3s : (K2r.block_root b).status.error = false := by
      rw [hK2r]; show (K2.block_root b).status.error = false; rw [e2s]
    have e2e : (K2.block_root b).status.error = false := by rw [e2s]
    rw [ebs0, hrl, if_pos e1s, if_pos (by decide), e1bs]
    simp only [decide_True]
    rw [hread]
    dsimp only []
    rw [hrem]
    dsimp only []
    rw [if_pos e3s, hunreg]
    dsimp only []
    rw [if_pos e2e]
    simp
  have hcb := hcore b
  rw [if_pos rfl] at hcb
  obtain ⟨cb1, -, -, cb4, cb5, -⟩ := hcb
  have e3br : K3.block_root = br := by rw [hK3]; rfl
  have hstart : pos - pos % kc.key_cache_block_size + pos % kc.key_cache_block_size = pos :=
    Nat.sub_add_cancel (Nat.mod_le _ _)
  refine ⟨(fun i => if 0 ≤ i ∧ i < 0 + len then
      (K2.block_root b).buffer (pos % kc.key_cache_block_size + (i - 0)) else buff i),
    dec_counter_for_resize_op K3, b, h, ?_, ?_, ?_, ?_, ?_, ?_, ?_, ?_, ?_, ?_, ?_, ?_⟩
  · unfold key_cache_read
    rw [if_pos hu.1, if_neg (by rw [hu.2.2]; simp)]
    dsimp only []
    rw [key_cache_read_loop]
    have ebs0 : (inc_counter_for_resize_op kc).key_cache_block_size = kc.key_cache_block_size :=
      rfl
    rw [ebs0, hchunk]
  · intro i hi
    have hi' : (0 ≤ i ∧ i < 0 + len) := ⟨Nat.zero_le _, by omega⟩
    simp only [if_pos hi']
    rw [e2b]
    simp only [pread_into, Nat.sub_zero]
    rw [if_pos (by omega), ← Nat.add_assoc, hstart]
  · rw [← hbl, hkA]; rfl
  · show (K3.block_root b).hash_link = some h
    rw [e3br, cb1]; exact hh2
  · show K3.hash_link_root h = _
    rw [hK3]
    show K2r.hash_link_root h = _
    rw [hK2r]
    simp only [set_hash_link, Function.update_same, e2h]
  · show (K3.block_root b).status = _
    rw [e3br, cb5]; exact e2s
  · show (K3.block_root b).length = _
    rw [e3br, cb4]
    show (K2.block_root b).length = _
    rw [e2b]
  · intro i hm
    obtain ⟨_, _, hc, _⟩ := (wf3.chain.changed_iff i b).1 hm
    rw [e3br, cb5] at hc
    have : (K2.block_root b).status.changed = true := hc
    rw [e2s] at this
    cases this
  · intro x hx
    show (K3.block_root x).hash_link = _
    have hcx := (hcore x).1
    rw [if_neg hx] at hcx
    rw [e3br, hcx, hK2]
    simp only [read_block_state, Function.update_noteq hx]
    rw [hK1]
    simp only [miss_unused_state, Function.update_noteq hx]
    rw [hkA]; rfl
  · show K3.blocks_unused + 1 = _
    rw [hK3]
    show K2r.blocks_unused + 1 = _
    rw [hK2r]
    show K2.blocks_unused + 1 = _
    rw [hK2]
    show K1.blocks_unused + 1 = _
    rw [hK1]
    show kA.blocks_unused - 1 + 1 = _
    rw [hkA]
    show kc.blocks_unused - 1 + 1 = _
    omega
  · show K3.disk.preads = _
    rw [hK3]
    show K2r.disk.preads = _
    rw [hK2r]
    show K2.disk.preads = _
    rw [hK2]
    simp only [read_block_state, hpr]
  · exact wf3.congr_wf rfl rfl rfl rfl rfl rfl rfl rfl rfl rfl rfl rfl rfl rfl (fun _ => rfl)
      (fun _ => rfl) (fun _ => rfl) (fun _ => rfl) rfl (fun h => h)

/-- An empty cache is well-formed. -/
theorem empty_cache_wf (B bs entries links minw age : Nat) (d : DISK) (hB : 0 < B)
    (hbs : 0 < bs) (hl : B < links) :
    WF (empty_cache B bs entries links minw age d) none [] := by
  refine ⟨⟨hbs, hB, Nat.zero_le _, ?_, hl, ?_, List.nodup_nil, fun _ _ => rfl, ?_⟩,
    ⟨⟨List.nodup_nil, ?_, fun h => absurd rfl h⟩, ?_, ?_, ?_, List.nodup_nil⟩,
    ⟨fun b hb => absurd rfl hb, fun b hb => absurd rfl hb, ?_, fun _ _ => rfl⟩,
    ⟨fun _ _ _ => rfl, ?_, fun _ _ => rfl⟩,
    ⟨?_, ?_, fun _ => List.nodup_nil, fun _ => List.nodup_nil⟩,
    ⟨?_, fun _ => List.nodup_nil, fun h h' hb => absurd rfl hb, fun h hb => absurd rfl hb,
      ?_, ?_, ?_, List.nodup_nil, fun _ _ => rfl, ?_, Nat.zero_le _⟩⟩
  · show B = 0 + (B - 0)
    omega
  · intro b hb; cases hb
  · intro b hb; exact absurd hb (Nat.not_lt_zero _)
  · intro x hx; cases hx
  · intro b
    constructor
    · intro hb; cases hb
    · intro hb; exact absurd rfl hb.1
  · intro b hb; cases hb
  · intro b hb; cases hb
  · intro b hb; cases hb
  · intro b hb
    rcases hb with hb | hb
    · cases hb
    · cases hb
  · intro i b
    constructor
    · intro hb; cases hb
    · rintro ⟨h, hh, -⟩; cases hh
  · intro i b
    constructor
    · intro hb; cases hb
    · rintro ⟨h, hh, -⟩; cases hh
  · intro i h
    constructor
    · intro hb; cases hb
    · intro hb; exact absurd rfl hb.1
  · intro h b hb; cases hb
  · intro b h hb; cases hb
  · intro h hb; cases hb
  · intro h hb; exact absurd hb (Nat.not_lt_zero _)

theorem set_block_root (kc : KEY_CACHE) (b : Nat) (v : BLOCK_LINK) (x : Nat) :
    (set_block kc b v).block_root x = if x = b then v else kc.block_root x := by
  simp only [set_block, Function.update_apply]

/-- The block an operation holds pinned may change in everything but its hash
link, its request count and `BLOCK_CHANGED`. -/
theorem WF.set_pinned {kc : KEY_CACHE} {b : Nat} {fl : List Nat} (wf : WF kc (some b) fl)
    (v : BLOCK_LINK) (h1 : v.hash_link = (kc.block_root b).hash_link)
    (h2 : v.requests = (kc.block_root b).requests)
    (h3 : v.status.changed = (kc.block_root b).status.changed) :
    WF (set_block kc b v) (some b) fl := by
  have eB := set_block_root kc b v
  have hhl : ∀ x, ((set_block kc b v).block_root x).hash_link = (kc.block_root x).hash_link := by
    intro x; rw [eB]; split
    · rename_i hx; rw [hx, h1]
    · rfl
  have hrq : ∀ x, ((set_block kc b v).block_root x).requests = (kc.block_root x).requests := by
    intro x; rw [eB]; split
    · rename_i hx; rw [hx, h2]
    · rfl
  have hch : ∀ x, ((set_block kc b v).block_root x).status.changed =
      (kc.block_root x).status.changed := by
    intro x; rw [eB]; split
    · rename_i hx; rw [hx, h3]
    · rfl
  have hne : ∀ x, some b ≠ some x → (set_block kc b v).block_root x = kc.block_root x := by
    intro x hx
    rw [eB, if_neg (fun hc => hx (by rw [hc]))]
  refine ⟨wf.cnt.congr_cnt rfl rfl rfl rfl rfl rfl hhl, ?_, ?_,
    wf.req.congr_req hhl hrq (fun _ => rfl), wf.chain.congr_chain rfl rfl hhl hch (fun _ => rfl),
    wf.hash.congr_hash rfl rfl rfl rfl rfl rfl hhl (fun _ => rfl) (fun _ => rfl) (fun _ => rfl)⟩
  · constructor
    · exact wf.ring.ok
    · intro x
      show x ∈ kc.used_ring ↔ _
      rw [wf.ring.iff x, hhl]
      constructor
      · rintro ⟨a1, a2, a3, a4⟩
        exact ⟨a1, a2, a3, by rw [hne x a2]; exact a4⟩
      · rintro ⟨a1, a2, a3, a4⟩
        exact ⟨a1, a2, a3, by rw [hne x a2] at a4; exact a4⟩
    · intro x hx; rw [hhl]; exact wf.ring.pin_used x hx
    · intro x hx; rw [hhl]; exact wf.ring.fl_used x hx
    · exact wf.ring.fl_nodup
  · constructor
    · intro x hx hpin
      rw [hhl] at hx
      have := wf.stat.used x hx hpin
      unfold block_ok
      rw [hne x hpin]; exact this
    · intro x hx hpin
      rw [hhl] at hx
      rw [hne x hpin]; exact wf.stat.quiet x hx hpin
    · intro x hx
      have hxb : some b ≠ some x := by
        intro hc
        have := Option.some.inj hc
        subst this
        exact (wf.ring.pin_used b rfl).2 hx
      rw [hne x hxb]; exact wf.stat.flushing x hx
    · intro x hx
      rw [hhl] at hx
      have hxb : some b ≠ some x := by
        intro hc
        have := Option.some.inj hc
        subst this
        exact (wf.ring.pin_used b rfl).1 hx
      rw [hne x hxb]; exact wf.stat.free x hx

/-- A block of the write burst taken as the pinned block. -/
theorem WF.repin {kc : KEY_CACHE} {b : Nat} {fl : List Nat} (wf : WF kc none fl)
    (hb : b ∈ fl) : WF kc (some b) (fl.erase b) := by
  have hnd := wf.ring.fl_nodup
  have hmem : ∀ x, x ∈ fl.erase b ↔ x ≠ b ∧ x ∈ fl := fun x => hnd.mem_erase_iff
  refine ⟨wf.cnt, ?_, ?_, ?_, wf.chain, wf.hash⟩
  · constructor
    · exact wf.ring.ok
    · intro x
      rw [wf.ring.iff x, hmem]
      constructor
      · rintro ⟨a1, -, a3, a4⟩
        refine ⟨a1, ?_, fun hc => a3 hc.2, a4⟩
        intro hc
        have := Option.some.inj hc
        subst this
        exact a3 hb
      · rintro ⟨a1, a2, a3, a4⟩
        refine ⟨a1, by simp, ?_, a4⟩
        intro hc
        exact a3 ⟨fun hxb => a2 (by rw [hxb]), hc⟩
    · intro x hx
      have := Option.some.inj hx
      subst this
      exact ⟨wf.ring.fl_used _ hb, fun hc => ((hmem _).1 hc).1 rfl⟩
    · intro x hx; exact wf.ring.fl_used x ((hmem x).1 hx).2
    · exact hnd.erase b
  · constructor
    · intro x hx hpin
      have hxb : x ≠ b := fun hc => hpin (by rw [hc])
      obtain ⟨a1, a2, a3, a4, a5, a6, a7, a8⟩ := wf.stat.used x hx (by simp)
      refine ⟨a1, a2, a3, a4, a5, a6, ?_, a8⟩
      rw [a7, hmem]
      exact ⟨fun h => ⟨hxb, h⟩, fun h => h.2⟩
    · intro x hx _; exact wf.stat.quiet x hx (by simp)
    · intro x hx; exact wf.stat.flushing x ((hmem x).1 hx).2
    · exact wf.stat.free
  · constructor
    · intro x hpin hx
      have hxb : x ≠ b := fun hc => hpin (by rw [hc])
      exact wf.req.block_free x (by simp) (fun hc => hx ((hmem x).2 ⟨hxb, hc⟩))
    · intro x hx
      rcases hx with hx | hx
      · have := Option.some.inj hx
        subst this
        exact wf.req.block_held _ (Or.inr hb)
      · exact wf.req.block_held x (Or.inr ((hmem x).1 hx).2)
    · intro x _; exact wf.req.link_free x (fun y hy => by cases hy)

/-- The first request on a block of the LRU ring takes it out of the ring. -/
theorem reg_requests_wf (kc : KEY_CACHE) (b : Nat) (fl : List Nat) (wf : WF kc none fl)
    (hb : b ∈ kc.used_ring) :
    ∃ ins, reg_requests kc b 1 = some (pinned_state kc b ins) ∧
      WF (pinned_state kc b ins) (some b) fl := by
  obtain ⟨a1, -, a3, a4⟩ := (wf.ring.iff b).1 hb
  have hreq := wf.req.block_free b (by simp) a3
  obtain ⟨ins, hun, hok⟩ := unlink_block_ring kc b wf.ring.ok hb
  refine ⟨ins, ?_, ?_⟩
  · unfold reg_requests
    simp only [hreq, if_true, hun]
    rfl
  · have eB : ∀ x, (pinned_state kc b ins).block_root x =
        if x = b then { kc.block_root b with requests := 1 } else kc.block_root x := by
      intro x; simp only [pinned_state, set_block, Function.update_apply]
    have hhl : ∀ x, ((pinned_state kc b ins).block_root x).hash_link =
        (kc.block_root x).hash_link := by
      intro x; rw [eB]; split
      · rename_i hx; rw [hx]
      · rfl
    have hst : ∀ x, ((pinned_state kc b ins).block_root x).status = (kc.block_root x).status := by
      intro x; rw [eB]; split
      · rename_i hx; rw [hx]
      · rfl
    have hln : ∀ x, ((pinned_state kc b ins).block_root x).length = (kc.block_root x).length := by
      intro x; rw [eB]; split
      · rename_i hx; rw [hx]
      · rfl
    refine ⟨wf.cnt.congr_cnt rfl rfl rfl rfl rfl rfl hhl, ?_, ?_, ?_,
      wf.chain.congr_chain rfl rfl hhl (fun x => by rw [hst]) (fun _ => rfl),
      wf.hash.congr_hash rfl rfl rfl rfl rfl rfl hhl (fun _ => rfl) (fun _ => rfl)
        (fun _ => rfl)⟩
    · constructor
      · exact hok
      · intro x
        show x ∈ kc.used_ring.erase b ↔ _
        rw [wf.ring.ok.1.mem_erase_iff, wf.ring.iff x, hhl, hst]
        constructor
        · rintro ⟨c0, c1, -, c3, c4⟩
          exact ⟨c1, fun hc => c0 (Option.some.inj hc).symm, c3, c4⟩
        · rintro ⟨c1, c2, c3, c4⟩
          exact ⟨fun hc => c2 (by rw [hc]), c1, by simp, c3, c4⟩
      · intro x hx
        have := Option.some.inj hx
        subst this
        rw [hhl]; exact ⟨a1, a3⟩
      · intro x hx; rw [hhl]; exact wf.ring.fl_used x hx
      · exact wf.ring.fl_nodup
    · constructor
      · intro x hx hpin
        rw [hhl] at hx
        have := wf.stat.used x hx (by simp)
        unfold block_ok
        rw [hst, hln]; exact this
      · intro x hx hpin
        rw [hhl] at hx
        rw [hst]; exact wf.stat.quiet x hx (by simp)
      · intro x hx; rw [hst]; exact wf.stat.flushing x hx
      · intro x hx; rw [hhl] at hx; rw [hst]; exact wf.stat.free x hx
    · constructor
      · intro x hpin hx
        have hxb : x ≠ b := fun hc => hpin (by rw [hc])
        rw [eB, if_neg hxb]
        exact wf.req.block_free x (by simp) hx
      · intro x hx
        rcases hx with hx | hx
        · have := Option.some.inj hx
          subst this
          rw [eB, if_pos rfl]
        · have hxb : x ≠ b := fun hc => a3 (hc ▸ hx)
          rw [eB, if_neg hxb]
          exact wf.req.block_held x (Or.inr hx)
      · intro x _; exact wf.req.link_free x (fun y hy => by cases hy)

/-- The last request on the pinned block is given back: the block returns to
the LRU ring. -/
theorem unreg_request_wf (kc : KEY_CACHE) (b h : Nat) (fl : List Nat) (at_end : Bool)
    (wf : WF kc (some b) fl)
    (hh : (kc.block_root b).hash_link = some h)
    (hreqh : (kc.hash_link_root h).requests = 0)
    (hbok : block_ok kc fl b)
    (herr : (kc.block_root b).status.error = false)
    (hread : (kc.block_root b).status.read = true)
    (hupd : (kc.block_root b).status.for_update = false) :
    ∃ br ring ins w,
      unreg_request kc b at_end = some (lru_set kc br ring ins (kc.keycache_time + 1) w) ∧
      ring.Perm (b :: kc.used_ring) ∧
      (∀ x, same_core (br x)
        (if x = b then { kc.block_root b with requests := 0 } else kc.block_root x)) ∧
      WF (lru_set kc br ring ins (kc.keycache_time + 1) w) none fl := by
  have hreqb := wf.req.block_held b (Or.inl rfl)
  have hnotin : b ∉ kc.used_ring := fun hm => ((wf.ring.iff b).1 hm).2.1 rfl
  have hbfl : b ∉ fl := (wf.ring.pin_used b rfl).2
  obtain ⟨br, ring, ins, w, hun, hperm, hok, hcore⟩ :=
    unreg_request_spec kc b at_end wf.ring.ok hnotin hreqb herr
  refine ⟨br, ring, ins, w, hun, hperm, hcore, ?_⟩
  have hhl : ∀ x, (br x).hash_link = (kc.block_root x).hash_link := by
    intro x; have := (hcore x).1; split at this <;> simp_all
  have hst : ∀ x, (br x).status = (kc.block_root x).status := by
    intro x; have := (hcore x).2.2.2.2.1; split at this <;> simp_all
  have hlen : ∀ x, (br x).length = (kc.block_root x).length := by
    intro x; have := (hcore x).2.2.2.1; split at this <;> simp_all
  have hrq : ∀ x, (br x).requests = if x = b then 0 else (kc.block_root x).requests := by
    intro x; have := (hcore x).2.2.2.2.2; split at this <;> simp_all
  refine ⟨wf.cnt.congr_cnt rfl rfl rfl rfl rfl rfl hhl, ?_,
    (wf.stat.unpin hbok hread hupd).congr_stat rfl hhl hst hlen (fun h => h), ?_,
    wf.chain.congr_chain rfl rfl hhl (fun x => by
      rw [show (lru_set _ br _ _ _ _).block_root x = br x from rfl, hst]) (fun _ => rfl),
    wf.hash.congr_hash rfl rfl rfl rfl rfl rfl hhl (fun _ => rfl) (fun _ => rfl) (fun _ => rfl)⟩
  · constructor
    · exact hok
    · intro x
      show x ∈ ring ↔ ((br x).hash_link ≠ none ∧ _ ∧ _ ∧ (br x).status.error = false)
      rw [hperm.mem_iff, hhl, hst]
      have := wf.ring.iff x
      by_cases hx : x = b
      · subst hx; simp [hh, herr, hbfl]
      · simp only [List.mem_cons, hx, false_or, this]
        simp [Ne.symm hx]
    · intro x hx; cases hx
    · intro x hx
      show (br x).hash_link ≠ none
      rw [hhl]; exact wf.ring.fl_used x hx
    · exact wf.ring.fl_nodup
  · constructor
    · intro x _ hx
      show (br x).requests = 0
      rw [hrq]
      by_cases hxb : x = b
      · simp [hxb]
      · simp only [hxb, if_false]
        exact wf.req.block_free x (fun hc => hxb (Option.some.inj hc).symm) hx
    · intro x hx
      rcases hx with hx | hx
      · cases hx
      · show (br x).requests = 1
        have hxb : x ≠ b := fun hc => hbfl (hc ▸ hx)
        rw [hrq, if_neg hxb]
        exact wf.req.block_held x (Or.inr hx)
    · intro x _
      show (kc.hash_link_root x).requests = 0
      by_cases hx : x = h
      · subst hx; exact hreqh
      · apply wf.req.link_free x
        intro y hy hyx
        have : y = b := (Option.some.inj hy).symm
        subst this
        rw [hh] at hyx
        exact hx (Option.some.inj hyx).symm

/-- The last request on a pinned block with `BLOCK_ERROR` is given back: the
block stays outside the LRU ring. -/
theorem unreg_request_wf_error (kc : KEY_CACHE) (b h : Nat) (fl : List Nat) (at_end : Bool)
    (wf : WF kc (some b) fl)
    (hh : (kc.block_root b).hash_link = some h)
    (hreqh : (kc.hash_link_root h).requests = 0)
    (hbok : block_ok kc fl b)
    (herr : (kc.block_root b).status.error = true)
    (hread : (kc.block_root b).status.read = true)
    (hupd : (kc.block_root b).status.for_update = false) :
    unreg_request kc b at_end = some (set_block kc b { kc.block_root b with requests := 0 }) ∧
    WF (set_block kc b { kc.block_root b with requests := 0 }) none fl := by
  have hreqb := wf.req.block_held b (Or.inl rfl)
  have hbfl : b ∉ fl := (wf.ring.pin_used b rfl).2
  constructor
  · unfold unreg_request
    simp [hreqb, dec32_one, herr]
  · have eB : ∀ x, (set_block kc b { kc.block_root b with requests := 0 }).block_root x =
        if x = b then { kc.block_root b with requests := 0 } else kc.block_root x := by
      intro x; simp only [set_block, Function.update_apply]
    have hhl : ∀ x, ((set_block kc b { kc.block_root b with requests := 0 }).block_root x).hash_link
        = (kc.block_root x).hash_link := by
      intro x; rw [eB]; split
      · rename_i hx; rw [hx]
      · rfl
    have hst : ∀ x, ((set_block kc b { kc.block_root b with requests := 0 }).block_root x).status
        = (kc.block_root x).status := by
      intro x; rw [eB]; split
      · rename_i hx; rw [hx]
      · rfl
    have hlen : ∀ x, ((set_block kc b { kc.block_root b with requests := 0 }).block_root x).length
        = (kc.block_root x).length := by
      intro x; rw [eB]; split
      · rename_i hx; rw [hx]
      · rfl
    refine ⟨wf.cnt.congr_cnt rfl rfl rfl rfl rfl rfl hhl, ?_,
      (wf.stat.unpin hbok hread hupd).congr_stat rfl hhl hst hlen (fun h => h), ?_,
      wf.chain.congr_chain rfl rfl hhl (fun x => by rw [hst]) (fun _ => rfl),
      wf.hash.congr_hash rfl rfl rfl rfl rfl rfl hhl (fun _ => rfl) (fun _ => rfl)
        (fun _ => rfl)⟩
    · constructor
      · exact wf.ring.ok
      · intro x
        show x ∈ kc.used_ring ↔ _
        rw [hhl, hst, wf.ring.iff x]
        by_cases hx : x = b
        · subst hx; simp [herr]
        · simp [Ne.symm hx]
      · intro x hx; cases hx
      · intro x hx; rw [hhl]; exact wf.ring.fl_used x hx
      · exact wf.ring.fl_nodup
    · constructor
      · intro x _ hx
        rw [eB]
        by_cases hxb : x = b
        · simp [hxb]
        · simp only [hxb, if_false]
          exact wf.req.block_free x (fun hc => hxb (Option.some.inj hc).symm) hx
      · intro x hx
        rcases hx with hx | hx
        · cases hx
        · have hxb : x ≠ b := fun hc => hbfl (hc ▸ hx)
          rw [eB, if_neg hxb]
          exact wf.req.block_held x (Or.inr hx)
      · intro x _
        show (kc.hash_link_root x).requests = 0
        by_cases hx : x = h
        · subst hx; exact hreqh
        · apply wf.req.link_free x
          intro y hy hyx
          have : y = b := (Option.some.inj hy).symm
          subst this
          rw [hh] at hyx
          exact hx (Option.some.inj hyx).symm

theorem link_to_file_list_eq (kc : KEY_CACHE) (b file : Nat) :
    link_to_file_list kc b file true = cleaned_state kc b file := by
  unfold link_to_file_list cleaned_state
  simp only [if_true, link_changed, unlink_changed, set_status, set_block]
  by_cases hc : (kc.block_root b).status.changed = true
  · simp only [hc, if_true]
  · simp only [hc, if_false, Bool.false_eq_true]
    have hc' : (kc.block_root b).status.changed = false := by simpa using hc
    have : Function.update kc.block_root b
        { kc.block_root b with status := { (kc.block_root b).status with changed := false } } =
        kc.block_root := by
      rw [← hc']
      exact Function.update_eq_self b kc.block_root
    rw [this]

/-- Moving the pinned block to the clean chain of its file keeps the state
well-formed. -/
theorem cleaned_state_wf (kc : KEY_CACHE) (b h : Nat) (fl : List Nat)
    (wf : WF kc (some b) fl) (hh : (kc.block_root b).hash_link = some h) :
    WF (cleaned_state kc b (kc.hash_link_root h).file) (some b) fl := by
  obtain ⟨K, hK⟩ : ∃ K, K = cleaned_state kc b (kc.hash_link_root h).file := ⟨_, rfl⟩
  rw [← hK]
  have eB : ∀ x, K.block_root x = if x = b then
      { kc.block_root b with status := { (kc.block_root b).status with changed := false } }
      else kc.block_root x := by
    intro x; rw [hK]; simp only [cleaned_state, Function.update_apply]
  have hne : ∀ x, x ≠ b → K.block_root x = kc.block_root x := by
    intro x hx; rw [eB, if_neg hx]
  have hhl : ∀ x, (K.block_root x).hash_link = (kc.block_root x).hash_link := by
    intro x; rw [eB]; split
    · rename_i hx; rw [hx]
    · rfl
  have hrq : ∀ x, (K.block_root x).requests = (kc.block_root x).requests := by
    intro x; rw [eB]; split
    · rename_i hx; rw [hx]
    · rfl
  have hpn : ∀ x, some b ≠ some x → x ≠ b := fun x hx hc => hx (by rw [hc])
  refine ⟨wf.cnt.congr_cnt (by rw [hK]; rfl) (by rw [hK]; rfl) (by rw [hK]; rfl) (by rw [hK]; rfl)
      (by rw [hK]; rfl) (by rw [hK]; rfl) hhl, ?_, ?_,
    wf.req.congr_req hhl hrq (fun _ => by rw [hK]; rfl), ?_,
    wf.hash.congr_hash (by rw [hK]; rfl) (by rw [hK]; rfl) (by rw [hK]; rfl) (by rw [hK]; rfl)
      (by rw [hK]; rfl) (by rw [hK]; rfl) hhl (fun _ => by rw [hK]; rfl)
      (fun _ => by rw [hK]; rfl) (fun _ => by rw [hK]; rfl)⟩
  · constructor
    · rw [hK]; exact wf.ring.ok
    · intro x
      have e : K.used_ring = kc.used_ring := by rw [hK]; rfl
      rw [e, wf.ring.iff x, hhl]
      constructor
      · rintro ⟨a1, a2, a3, a4⟩
        exact ⟨a1, a2, a3, by rw [hne x (hpn x a2)]; exact a4⟩
      · rintro ⟨a1, a2, a3, a4⟩
        exact ⟨a1, a2, a3, by rw [hne x (hpn x a2)] at a4; exact a4⟩
    · intro x hx; rw [hhl]; exact wf.ring.pin_used x hx
    · intro x hx; rw [hhl]; exact wf.ring.fl_used x hx
    · exact wf.ring.fl_nodup
  · constructor
    · intro x hx hpin
      rw [hhl] at hx
      have := wf.stat.used x hx hpin
      unfold block_ok
      rw [hne x (hpn x hpin)]
      have e : K.key_cache_block_size = kc.key_cache_block_size := by rw [hK]; rfl
      rw [e]
      have hb : bounded_reads K → bounded_reads kc := bounded_reads.of_same (by rw [hK]; rfl) e
      exact ok_weaken hb this
    · intro x hx hpin
      rw [hhl] at hx
      rw [hne x (hpn x hpin)]; exact wf.stat.quiet x hx hpin
    · intro x hx
      have hxb : x ≠ b := fun hc => (wf.ring.pin_used b rfl).2 (hc ▸ hx)
      rw [hne x hxb]; exact wf.stat.flushing x hx
    · intro x hx
      rw [hhl] at hx
      have hxb : x ≠ b := by
        intro hc; rw [hc, hh] at hx; cases hx
      rw [hne x hxb]; exact wf.stat.free x hx
  · have eC : ∀ i, K.changed_blocks i = (kc.changed_blocks i).erase b := by
      intro i; rw [hK]; rfl
    have eF : ∀ i, K.file_blocks i = if i = FILE_HASH (kc.hash_link_root h).file then
        b :: (kc.file_blocks i).erase b else (kc.file_blocks i).erase b := by
      intro i; rw [hK]; simp only [cleaned_state, Function.update_apply]
      split
      · rename_i hi; rw [hi]
      · rfl
    have eL : K.hash_link_root = kc.hash_link_root := by rw [hK]; rfl
    constructor
    · intro i x
      rw [eC, (wf.chain.changed_nodup i).mem_erase_iff, wf.chain.changed_iff i x, eL, hhl]
      by_cases hxb : x = b
      · subst hxb
        simp only [ne_eq, not_true_eq_false, false_and, false_iff]
        rintro ⟨h', -, hc, -⟩
        rw [eB, if_pos rfl] at hc
        cases hc
      · rw [hne x hxb]
        simp [hxb]
    · intro i x
      rw [eF, eL, hhl]
      by_cases hxb : x = b
      · subst hxb
        rw [eB, if_pos rfl]
        by_cases hi : i = FILE_HASH (kc.hash_link_root h).file
        · rw [if_pos hi]
          simp only [List.mem_cons, true_or, true_iff]
          exact ⟨h, hh, trivial, hi.symm⟩
        · rw [if_neg hi, (wf.chain.file_nodup i).mem_erase_iff]
          simp only [ne_eq, not_true_eq_false, false_and, false_iff]
          rintro ⟨h', hh', -, hf⟩
          rw [hh] at hh'
          have := Option.some.inj hh'
          subst this
          exact hi hf.symm
      · rw [hne x hxb]
        have : (x ∈ if i = FILE_HASH (kc.hash_link_root h).file then
            b :: (kc.file_blocks i).erase b else (kc.file_blocks i).erase b) ↔
            x ∈ kc.file_blocks i := by
          split
          · simp [hxb, (wf.chain.file_nodup i).mem_erase_iff]
          · simp [hxb, (wf.chain.file_nodup i).mem_erase_iff]
        rw [this]; exact wf.chain.file_iff i x
    · intro i; rw [eC]; exact (wf.chain.changed_nodup i).erase b
    · intro i
      rw [eF]
      split
      · refine List.nodup_cons.2 ⟨?_, (wf.chain.file_nodup i).erase b⟩
        rw [(wf.chain.file_nodup i).mem_erase_iff]
        simp
      · exact (wf.chain.file_nodup i).erase b

theorem free_block_wait_spec (kc : KEY_CACHE) (b h : Nat)
    (hh : (kc.block_root b).hash_link = some h)
    (hreqh : (kc.hash_link_root h).requests = 0) :
    free_block_wait kc b =
      some (set_status kc b { (kc.block_root b).status with reassigned := false }) := by
  unfold free_block_wait
  rw [hh]
  simp only [wait_for_readers, set_status, set_block, Function.update_same, hh, hreqh, ne_eq,
    not_true_eq_false, if_false, Function.update_idem]

theorem free_block_release_spec (kc : KEY_CACHE) (b h : Nat)
    (hh : (kc.block_root b).hash_link = some h) :
    free_block_release kc b = some (freed_state kc b h
      (Function.update kc.block_root b
        { kc.block_root b with
          temperature := BLOCK_COLD, hash_link := none, status := {}, length := 0,
          offset := kc.key_cache_block_size })
      kc.used_ring kc.used_ins kc.keycache_time
      (if (kc.block_root b).temperature = BLOCK_WARM then dec64 kc.warm_blocks
       else kc.warm_blocks)) := by
  unfold free_block_release
  by_cases ht : (kc.block_root b).temperature = BLOCK_WARM
  · simp only [ht, if_true, set_block, unlink_changed, Function.update_same, hh, unlink_hash,
      set_hash_link, Function.update_idem, freed_state]
  · simp only [ht, if_false, set_block, unlink_changed, Function.update_same, hh, unlink_hash,
      set_hash_link, Function.update_idem, freed_state]
theorem free_block_step (kc K1 Y Z : KEY_CACHE) (b : Nat)
    (hwait : free_block_wait kc b = some K1)
    (hY : unreg_request K1 b false = some Y)
    (hYev : (Y.block_root b).status.in_eviction = false)
    (hZ : (if (Y.block_root b).status.error = false then unlink_block Y b else some Y) = some Z) :
    free_block kc b = free_block_release Z b := by
  have hc : ¬ ((Y.block_root b).status.in_eviction = true) := by rw [hYev]; simp
  unfold free_block
  rewrite [hwait, Option.some_bind, hY, Option.some_bind, if_neg hc, hZ, Option.some_bind]
  rfl

/-- What `free_block` computes for a block outside the LRU ring that has one
request and no readers. -/
theorem free_block_ring_spec (kc : KEY_CACHE) (b h : Nat)
    (hok : RING_OK kc.used_ring kc.used_ins) (hnotin : b ∉ kc.used_ring)
    (hreqb : (kc.block_root b).requests = 1)
    (hh : (kc.block_root b).hash_link = some h)
    (hreqh : (kc.hash_link_root h).requests = 0)
    (hev : (kc.block_root b).status.in_eviction = false) :
    ∃ br ring ins t w, free_block kc b = some (freed_state kc b h br ring ins t w) ∧
      ring.Perm kc.used_ring ∧ RING_OK ring ins ∧
      (∀ x, x ≠ b → same_core (br x) (kc.block_root x)) ∧
      (br b).hash_link = none ∧ (br b).status = {} ∧ (br b).requests = 0 ∧
      (br b).buffer = (kc.block_root b).buffer := by
  obtain ⟨K1, hK1⟩ : ∃ K1, K1 =
      set_status kc b { (kc.block_root b).status with reassigned := false } := ⟨_, rfl⟩
  have e1 : ∀ x, K1.block_root x = if x = b then
      { kc.block_root b with status := { (kc.block_root b).status with reassigned := false } }
      else kc.block_root x := by
    intro x; rw [hK1]
    simp only [set_status, set_block, Function.update_apply]
  have e1b : K1.block_root b =
      { kc.block_root b with status := { (kc.block_root b).status with reassigned := false } } := by
    rw [e1, if_pos rfl]
  have hwait := free_block_wait_spec kc b h hh hreqh
  rw [← hK1] at hwait
  have key := fun Y Z => free_block_step kc K1 Y Z b hwait
  by_cases herr : (kc.block_root b).status.error = false
  · obtain ⟨br1, ring1, ins1, w1, hun, hperm, hok1, hcore⟩ := unreg_request_spec K1 b false
      (by rw [hK1]; exact hok) (by rw [hK1]; exact hnotin) (by rw [e1b]; exact hreqb)
      (by rw [e1b]; exact herr)
    obtain ⟨K2, hK2⟩ : ∃ K2, K2 = lru_set K1 br1 ring1 ins1 (K1.keycache_time + 1) w1 :=
      ⟨_, rfl⟩
    rw [← hK2] at hun
    have hcb := hcore b
    rw [if_pos rfl, e1b] at hcb
    obtain ⟨cb1, cb2, -, -, cb5, cb6⟩ := hcb
    have e2b : K2.block_root b = br1 b := by rw [hK2]; rfl
    have h2ev : (K2.block_root b).status.in_eviction = false := by rw [e2b, cb5]; exact hev
    have h2er : (K2.block_root b).status.error = false := by rw [e2b, cb5]; exact herr
    replace hperm : ring1.Perm (b :: kc.used_ring) := by rw [hK1] at hperm; exact hperm
    have hbin : b ∈ K2.used_ring := by
      rw [hK2]; exact hperm.mem_iff.2 (List.mem_cons_self _ _)
    obtain ⟨ins2, hunl, hok2⟩ := unlink_block_ring K2 b (by rw [hK2]; exact hok1) hbin
    obtain ⟨K3, hK3⟩ : ∃ K3, K3 =
        { K2 with used_ring := K2.used_ring.erase b, used_ins := ins2 } := ⟨_, rfl⟩
    rw [← hK3] at hunl
    have e3b : K3.block_root b = br1 b := by rw [hK3]; exact e2b
    rw [key K2 K3 hun h2ev (by rw [if_pos h2er]; exact hunl),
      free_block_release_spec K3 b h (by rw [e3b, cb1]; exact hh)]
    refine ⟨Function.update K3.block_root b
        { K3.block_root b with
          temperature := BLOCK_COLD, hash_link := none, status := {}, length := 0,
          offset := K3.key_cache_block_size }, K3.used_ring, K3.used_ins, K3.keycache_time,
      (if (K3.block_root b).temperature = BLOCK_WARM then dec64 K3.warm_blocks
       else K3.warm_blocks), ?_, ?_, ?_, ?_, ?_, ?_, ?_, ?_⟩
    · rw [hK3, hK2, hK1]; rfl
    · show (K3.used_ring).Perm kc.used_ring
      rw [hK3, hK2]
      show (ring1.erase b).Perm kc.used_ring
      have := hperm.erase b
      rwa [List.erase_cons_head] at this
    · rw [hK3]; exact hok2
    · intro x hx
      have e3 : K3.block_root = br1 := by rw [hK3, hK2]; rfl
      rw [e3, Function.update_noteq hx]
      have := hcore x
      rwa [if_neg hx, e1, if_neg hx] at this
    · rw [Function.update_same]
    · rw [Function.update_same]
    · rw [Function.update_same, e3b]; exact cb6
    · rw [Function.update_same, e3b]; exact cb2
  · have herr' : (kc.block_root b).status.error = true := by simpa using herr
    have hun : unreg_request K1 b false =
        some (set_block K1 b { K1.block_root b with requests := 0 }) := by
      unfold unreg_request
      have : (K1.block_root b).requests = 1 := by rw [e1b]; exact hreqb
      have he : (K1.block_root b).status.error = true := by rw [e1b]; exact herr'
      simp [this, dec32_one, he]
    obtain ⟨K2, hK2⟩ : ∃ K2, K2 = set_block K1 b { K1.block_root b with requests := 0 } :=
      ⟨_, rfl⟩
    rw [← hK2] at hun
    have e2b : K2.block_root b = { K1.block_root b with requests := 0 } := by
      rw [hK2]; simp only [set_block, Function.update_same]
    have h2ev : (K2.block_root b).status.in_eviction = false := by rw [e2b, e1b]; exact hev
    have h2er : (K2.block_root b).status.error = true := by rw [e2b, e1b]; exact herr'
    rw [key K2 K2 hun h2ev (by rw [if_neg (by rw [h2er]; simp)]),
      free_block_release_spec K2 b h (by rw [e2b, e1b]; exact hh)]
    refine ⟨Function.update K2.block_root b
        { K2.block_root b with
          temperature := BLOCK_COLD, hash_link := none, status := {}, length := 0,
          offset := K2.key_cache_block_size }, K2.used_ring, K2.used_ins, K2.keycache_time,
      (if (K2.block_root b).temperature = BLOCK_WARM then dec64 K2.warm_blocks
       else K2.warm_blocks), ?_, ?_, ?_, ?_, ?_, ?_, ?_, ?_⟩
    · rw [hK2, hK1]; rfl
    · show (K2.used_ring).Perm kc.used_ring
      rw [hK2, hK1]; exact List.Perm.refl _
    · rw [hK2, hK1]; exact hok
    · intro x hx
      rw [Function.update_noteq hx]
      have : K2.block_root x = kc.block_root x := by
        rw [hK2]; simp only [set_block, Function.update_noteq hx]
        rw [e1, if_neg hx]
      rw [this]; exact same_core_refl _
    · rw [Function.update_same]
    · rw [Function.update_same]
    · rw [Function.update_same, e2b]
    · rw [Function.update_same, e2b, e1b]

/-- What `free_block` computes for a pinned block without readers. -/
theorem free_block_spec (kc : KEY_CACHE) (b h : Nat) (fl : List Nat) (wf : WF kc (some b) fl)
    (hh : (kc.block_root b).hash_link = some h)
    (hreqh : (kc.hash_link_root h).requests = 0)
    (hev : (kc.block_root b).status.in_eviction = false) :
    ∃ br ring ins t w, free_block kc b = some (freed_state kc b h br ring ins t w) ∧
      ring.Perm kc.used_ring ∧ RING_OK ring ins ∧
      (∀ x, x ≠ b → same_core (br x) (kc.block_root x)) ∧
      (br b).hash_link = none ∧ (br b).status = {} ∧ (br b).requests = 0 ∧
      (br b).buffer = (kc.block_root b).buffer :=
  free_block_ring_spec kc b h wf.ring.ok (fun hm => ((wf.ring.iff b).1 hm).2.1 rfl)
    (wf.req.block_held b (Or.inl rfl)) hh hreqh hev

/-- The state `free_block` leaves is well-formed. -/
theorem freed_state_wf (kc : KEY_CACHE) (b h : Nat) (fl : List Nat) (br : Nat → BLOCK_LINK)
    (ring : List Nat) (ins : Option Nat) (t w : Nat) (wf : WF kc (some b) fl)
    (hh : (kc.block_root b).hash_link = some h)
    (hreqh : (kc.hash_link_root h).requests = 0)
    (hperm : ring.Perm kc.used_ring) (hok : RING_OK ring ins)
    (hcore : ∀ x, x ≠ b → same_core (br x) (kc.block_root x))
    (hb1 : (br b).hash_link = none) (hb2 : (br b).status = {}) (hb3 : (br b).requests = 0) :
    WF (freed_state kc b h br ring ins t w) none fl := by
  obtain ⟨K, hK⟩ : ∃ K, K = freed_state kc b h br ring ins t w := ⟨_, rfl⟩
  rw [← hK]
  have eB : K.block_root = br := by rw [hK]; rfl
  have eL : ∀ x, K.hash_link_root x =
      if x = h then { kc.hash_link_root h with block := none } else kc.hash_link_root x := by
    intro x; rw [hK]; simp only [freed_state, Function.update_apply]
  have eLn : ∀ x, x ≠ h → K.hash_link_root x = kc.hash_link_root x := by
    intro x hx; rw [eL, if_neg hx]
  have eLf : ∀ x, (K.hash_link_root x).file = (kc.hash_link_root x).file := by
    intro x; rw [eL]; split
    · rename_i hx; rw [hx]
    · rfl
  have eLd : ∀ x, (K.hash_link_root x).diskpos = (kc.hash_link_root x).diskpos := by
    intro x; rw [eL]; split
    · rename_i hx; rw [hx]
    · rfl
  have eLr : ∀ x, (K.hash_link_root x).requests = (kc.hash_link_root x).requests := by
    intro x; rw [eL]; split
    · rename_i hx; rw [hx]
    · rfl
  have eLh : (K.hash_link_root h).block = none := by rw [eL, if_pos rfl]
  have hlb : (kc.hash_link_root h).block = some b := wf.hash.back b h hh
  have hbfl : b ∉ fl := (wf.ring.pin_used b rfl).2
  have hpn : ∀ x, x ≠ b → some b ≠ some x := fun x hx hc => hx (Option.some.inj hc).symm
  have hbu : b < kc.blocks_used := by
    by_contra hc
    have := wf.cnt.unborn_blocks b (not_lt.1 hc)
    rw [hh] at this; cases this
  have hhu : h < kc.hash_links_used := by
    by_contra hc
    have := wf.hash.unborn_links h (not_lt.1 hc)
    rw [hlb] at this; cases this
  have hnl : ∀ x, (kc.block_root x).hash_link = none → x ≠ b := by
    intro x hx hc; rw [hc, hh] at hx; cases hx
  have hnh : ∀ x, (kc.hash_link_root x).block = none → x ≠ h := by
    intro x hx hc; rw [hc, hlb] at hx; cases hx
  have hown : ∀ x, x ≠ b → (kc.block_root x).hash_link ≠ some h := by
    intro x hx hc
    have := wf.hash.back x h hc
    rw [hlb] at this
    exact hx (Option.some.inj this).symm
  refine ⟨?_, ?_, ?_, ?_, ?_, ?_⟩
  · -- CNT_INV
    have en : nblocks K = nblocks kc := by rw [hK]; rfl
    constructor
    · rw [hK]; exact wf.cnt.bs_pos
    · rw [en]; exact wf.cnt.blocks_pos
    · rw [en]; rw [hK]; exact wf.cnt.used_le
    · rw [en]
      have := wf.cnt.unused_eq
      rw [hK]
      show kc.blocks_unused + 1 = (b :: kc.free_block_list).length + (nblocks kc - kc.blocks_used)
      rw [List.length_cons]; omega
    · rw [en]; rw [hK]; exact wf.cnt.links_gt
    · intro x hx
      rw [eB]
      have hx' : x ∈ b :: kc.free_block_list := by rw [hK] at hx; exact hx
      rcases List.mem_cons.1 hx' with hx1 | hx1
      · rw [hx1]; exact ⟨hb1, by rw [hK]; exact hbu⟩
      · have := wf.cnt.free_blocks x hx1
        rw [(hcore x (hnl x this.1)).1]
        exact ⟨this.1, by rw [hK]; exact this.2⟩
    · rw [hK]
      show (b :: kc.free_block_list).Nodup
      refine List.nodup_cons.2 ⟨?_, wf.cnt.free_blocks_nodup⟩
      intro hc
      exact hnl b (wf.cnt.free_blocks b hc).1 rfl
    · intro x hx
      rw [eB]
      by_cases hxb : x = b
      · rw [hxb]; exact hb1
      · rw [(hcore x hxb).1]
        exact wf.cnt.unborn_blocks x (by rw [hK] at hx; exact hx)
    · intro x hx hxl
      rw [eB] at hxl
      rw [hK]
      show x ∈ b :: kc.free_block_list
      by_cases hxb : x = b
      · rw [hxb]; exact List.mem_cons_self _ _
      · rw [(hcore x hxb).1] at hxl
        exact List.mem_cons_of_mem _ (wf.cnt.blocks_cover x (by rw [hK] at hx; exact hx) hxl)
  · -- RING_INV
    constructor
    · rw [hK]; exact hok
    · intro x
      rw [eB]
      have e : K.used_ring = ring := by rw [hK]; rfl
      rw [e, hperm.mem_iff, wf.ring.iff x]
      by_cases hxb : x = b
      · rw [hxb, hb1]; simp
      · rw [(hcore x hxb).1, (hcore x hxb).2.2.2.2.1]
        simp [Ne.symm hxb]
    · intro x hx; cases hx
    · intro x hx
      rw [eB]
      have hxb : x ≠ b := fun hc => hbfl (hc ▸ hx)
      rw [(hcore x hxb).1]; exact wf.ring.fl_used x hx
    · exact wf.ring.fl_nodup
  · -- STAT_INV
    constructor
    · intro x hx _
      rw [eB] at hx
      have hxb : x ≠ b := by
        intro hc; rw [hc, hb1] at hx; exact hx rfl
      rw [(hcore x hxb).1] at hx
      have := wf.stat.used x hx (hpn x hxb)
      unfold block_ok
      rw [eB, (hcore x hxb).2.2.2.2.1, (hcore x hxb).2.2.2.1]
      have e : K.key_cache_block_size = kc.key_cache_block_size := by rw [hK]; rfl
      rw [e]
      have hb : bounded_reads K → bounded_reads kc := bounded_reads.of_same (by rw [hK]; rfl) e
      exact ok_weaken hb this
    · intro x hx _
      rw [eB] at hx
      have hxb : x ≠ b := by
        intro hc; rw [hc, hb1] at hx; exact hx rfl
      rw [(hcore x hxb).1] at hx
      rw [eB, (hcore x hxb).2.2.2.2.1]
      exact wf.stat.quiet x hx (hpn x hxb)
    · intro x hx
      have hxb : x ≠ b := fun hc => hbfl (hc ▸ hx)
      rw [eB, (hcore x hxb).2.2.2.2.1]; exact wf.stat.flushing x hx
    · intro x hx
      rw [eB] at hx ⊢
      by_cases hxb : x = b
      · rw [hxb]; exact hb2
      · rw [(hcore x hxb).1] at hx
        rw [(hcore x hxb).2.2.2.2.1]; exact wf.stat.free x hx
  · -- REQ_INV
    constructor
    · intro x _ hx
      rw [eB]
      by_cases hxb : x = b
      · rw [hxb]; exact hb3
      · rw [(hcore x hxb).2.2.2.2.2]; exact wf.req.block_free x (hpn x hxb) hx
    · intro x hx
      rcases hx with hx | hx
      · cases hx
      · have hxb : x ≠ b := fun hc => hbfl (hc ▸ hx)
        rw [eB, (hcore x hxb).2.2.2.2.2]; exact wf.req.block_held x (Or.inr hx)
    · intro x _
      rw [eLr]
      by_cases hx : x = h
      · rw [hx]; exact hreqh
      · apply wf.req.link_free x
        intro y hy hyx
        have : y = b := (Option.some.inj hy).symm
        subst this
        rw [hh] at hyx
        exact hx (Option.some.inj hyx).symm
  · -- CHAIN_INV
    have eC : ∀ i, K.changed_blocks i = (kc.changed_blocks i).erase b := by
      intro i; rw [hK]; rfl
    have eF : ∀ i, K.file_blocks i = (kc.file_blocks i).erase b := by
      intro i; rw [hK]; rfl
    constructor
    · intro i x
      rw [eC, (wf.chain.changed_nodup i).mem_erase_iff, eB]
      by_cases hxb : x = b
      · rw [hxb, hb1]; simp
      · rw [(hcore x hxb).1, (hcore x hxb).2.2.2.2.1, wf.chain.changed_iff i x]
        simp only [eLf, ne_eq, hxb, not_false_eq_true, true_and]
    · intro i x
      rw [eF, (wf.chain.file_nodup i).mem_erase_iff, eB]
      by_cases hxb : x = b
      · rw [hxb, hb1]; simp
      · rw [(hcore x hxb).1, (hcore x hxb).2.2.2.2.1, wf.chain.file_iff i x]
        simp only [eLf, ne_eq, hxb, not_false_eq_true, true_and]
    · intro i; rw [eC]; exact (wf.chain.changed_nodup i).erase b
    · intro i; rw [eF]; exact (wf.chain.file_nodup i).erase b
  · -- HASH_INV
    have eR : ∀ i, K.hash_root i = (kc.hash_root i).erase h := by
      intro i; rw [hK]; rfl
    have ek : ∀ f p, KEYCACHE_HASH K f p = KEYCACHE_HASH kc f p := by
      intro f p; rw [hK]; rfl
    have hbl : ∀ x, (K.hash_link_root x).block ≠ none →
        x ≠ h ∧ (kc.hash_link_root x).block ≠ none := by
      intro x hx
      have hxh : x ≠ h := by
        intro hc; rw [hc, eLh] at hx; exact hx rfl
      rw [eLn x hxh] at hx
      exact ⟨hxh, hx⟩
    constructor
    · intro i x
      rw [eR, (wf.hash.nodup i).mem_erase_iff, ek, eLf, eLd, wf.hash.iff i x]
      by_cases hxh : x = h
      · rw [hxh, eLh]; simp
      · rw [eLn x hxh]
        simp only [ne_eq, hxh, not_false_eq_true, true_and]
    · intro i; rw [eR]; exact (wf.hash.nodup i).erase h
    · intro x y hx hy hf hd
      rw [eLf, eLf] at hf
      rw [eLd, eLd] at hd
      exact wf.hash.uniq x y (hbl x hx).2 (hbl y hy).2 hf hd
    · intro x hx
      rw [eLd]
      have e : K.key_cache_block_size = kc.key_cache_block_size := by rw [hK]; rfl
      rw [e]
      exact wf.hash.aligned x (hbl x hx).2
    · intro x y hx
      have hxh : x ≠ h := by
        intro hc; rw [hc, eLh] at hx; cases hx
      rw [eLn x hxh] at hx
      have h1 := wf.hash.link_back x y hx
      have hyb : y ≠ b := by
        intro hc; rw [hc, hh] at h1
        exact hxh (Option.some.inj h1).symm
      rw [eB, (hcore y hyb).1]; exact h1
    · intro x y hx
      rw [eB] at hx
      have hxb : x ≠ b := by
        intro hc; rw [hc, hb1] at hx; cases hx
      rw [(hcore x hxb).1] at hx
      have hyh : y ≠ h := fun hc => hown x hxb (hc ▸ hx)
      rw [eLn y hyh]; exact wf.hash.back x y hx
    · intro x hx
      have hx' : x ∈ h :: kc.free_hash_list := by rw [hK] at hx; exact hx
      have e : K.hash_links_used = kc.hash_links_used := by rw [hK]; rfl
      rw [e]
      rcases List.mem_cons.1 hx' with hx1 | hx1
      · rw [hx1]; exact ⟨eLh, hhu⟩
      · have := wf.hash.free_links x hx1
        rw [eLn x (hnh x this.1)]; exact this
    · rw [hK]
      show (h :: kc.free_hash_list).Nodup
      refine List.nodup_cons.2 ⟨?_, wf.hash.free_links_nodup⟩
      intro hc
      exact hnh h (wf.hash.free_links h hc).1 rfl
    · intro x hx
      have e : K.hash_links_used = kc.hash_links_used := by rw [hK]; rfl
      rw [e] at hx
      by_cases hxh : x = h
      · rw [hxh]; exact eLh
      · rw [eLn x hxh]; exact wf.hash.unborn_links x hx
    · intro x hx hxl
      have e : K.hash_links_used = kc.hash_links_used := by rw [hK]; rfl
      rw [e] at hx
      rw [hK]
      show x ∈ h :: kc.free_hash_list
      by_cases hxh : x = h
      · rw [hxh]; exact List.mem_cons_self _ _
      · rw [eLn x hxh] at hxl
        exact List.mem_cons_of_mem _ (wf.hash.links_cover x hx hxl)
    · rw [hK]; exact wf.hash.links_used_le

theorem aux_same_refl (v : BLOCK_LINK) : aux_same v v := ⟨rfl, rfl, rfl, rfl, rfl⟩

theorem aux_same_trans {a b c : BLOCK_LINK} (h1 : aux_same a b) (h2 : aux_same b c) :
    aux_same a c :=
  ⟨h1.1.trans h2.1, h1.2.1.trans h2.2.1, h1.2.2.1.trans h2.2.2.1, h1.2.2.2.1.trans h2.2.2.2.1,
    h1.2.2.2.2.trans h2.2.2.2.2⟩

theorem filter_range_update (p q : Nat → Bool) (b : Nat) (hq : ∀ x, x ≠ b → q x = p x) :
    ∀ n, b < n →
      ((List.range n).filter q).length + (if p b = true then 1 else 0) =
        ((List.range n).filter p).length + (if q b = true then 1 else 0) := by
  intro n
  induction n with
  | zero => intro h; omega
  | succ n ih =>
    intro hb
    rw [List.range_succ, List.filter_append, List.filter_append, List.length_append,
      List.length_append]
    by_cases hbn : b = n
    · subst hbn
      have e : (List.range b).filter q = (List.range b).filter p := by
        apply List.filter_congr
        intro x hx
        exact hq x (by rw [List.mem_range] at hx; omega)
      rw [e]
      simp only [List.filter_cons, List.filter_nil]
      cases p b <;> cases q b <;> simp
    · have hlt : b < n := by omega
      have := ih hlt
      have e : q n = p n := hq n (Ne.symm hbn)
      simp only [List.filter_cons, List.filter_nil, e]
      omega

theorem dec64_pos (x : Nat) (h1 : 1 ≤ x) (h2 : x ≤ 18446744073709551616) : dec64 x = x - 1 := by
  unfold dec64
  omega

theorem warm_count_le (kc : KEY_CACHE) : warm_count kc ≤ nblocks kc := by
  unfold warm_count
  exact (List.length_filter_le _ _).trans (by rw [List.length_range])

theorem warm_count_pos (kc : KEY_CACHE) (b : Nat) (hb : b < nblocks kc)
    (hw : (kc.block_root b).temperature = BLOCK_WARM) : 1 ≤ warm_count kc := by
  unfold warm_count
  apply List.length_pos_of_mem (a := b)
  rw [List.mem_filter, List.mem_range]
  exact ⟨hb, by simp [hw]⟩

/-- A block with a page is one of the blocks of the cache. -/
theorem CNT_INV.used_lt {kc : KEY_CACHE} (c : CNT_INV kc) (b : Nat)
    (h : (kc.block_root b).hash_link ≠ none) : b < nblocks kc := by
  by_contra hge
  exact h (c.unborn_blocks b (le_trans c.used_le (not_lt.1 hge)))

theorem AUX.warm_lt {kc : KEY_CACHE} (aux : AUX kc) (b : Nat)
    (hw : (kc.block_root b).temperature = BLOCK_WARM) : b < nblocks kc := by
  apply aux.pool
  intro hn
  have := aux.cold b hn
  rw [hw] at this
  cases this

/-- When a warm block leaves the warm blocks, the counter goes down by one. -/
theorem AUX.dec_warm {kc : KEY_CACHE} (aux : AUX kc) (b : Nat)
    (hw : (kc.block_root b).temperature = BLOCK_WARM) :
    dec64 kc.warm_blocks = kc.warm_blocks - 1 ∧ 1 ≤ kc.warm_blocks := by
  have h1 := warm_count_pos kc b (aux.warm_lt b hw) hw
  have h2 := warm_count_le kc
  have h3 := aux.small
  rw [← aux.warm] at h1 h2
  exact ⟨dec64_pos _ h1 (by omega), h1⟩

/-- The bookkeeping survives a change of one block descriptor. -/
theorem AUX.set_one {kc kc' : KEY_CACHE} (aux : AUX kc) (b : Nat)
    (e1 : kc'.key_cache_block_size = kc.key_cache_block_size)
    (e2 : kc'.disk_blocks = kc.disk_blocks)
    (e4 : kc'.disk.pread_forced = kc.disk.pread_forced)
    (ho : ∀ x, x ≠ b → aux_same (kc'.block_root x) (kc.block_root x))
    (hw : kc'.warm_blocks + (if (kc.block_root b).temperature = BLOCK_WARM then 1 else 0) =
      kc.warm_blocks + (if (kc'.block_root b).temperature = BLOCK_WARM then 1 else 0))
    (hu : (kc'.block_root b).hash_link = none →
      (kc'.block_root b).temperature = BLOCK_COLD ∧ (kc'.block_root b).length = 0)
    (hv : (kc'.block_root b).hash_link ≠ none → b < nblocks kc)
    (hoff : (kc'.block_root b).offset ≤ kc.key_cache_block_size)
    (hd : (kc'.block_root b).status.changed = true →
      (kc'.block_root b).offset ≤ (kc'.block_root b).length) : AUX kc' := by
  have en : nblocks kc' = nblocks kc := by unfold nblocks; rw [e2]
  have hq : ∀ x, x ≠ b →
      (fun y => decide ((kc'.block_root y).temperature = BLOCK_WARM)) x =
        (fun y => decide ((kc.block_root y).temperature = BLOCK_WARM)) x := by
    intro x hx
    simp only [(ho x hx).1]
  constructor
  · -- warm
    unfold warm_count
    rw [en]
    have hwm := aux.warm
    unfold warm_count at hwm
    by_cases hb : b < nblocks kc
    · have := filter_range_update
        (fun y => decide ((kc.block_root y).temperature = BLOCK_WARM))
        (fun y => decide ((kc'.block_root y).temperature = BLOCK_WARM)) b hq _ hb
      simp only [decide_eq_true_eq] at this
      omega
    · have h1 : (kc.block_root b).temperature ≠ BLOCK_WARM := fun hw' => hb (aux.warm_lt b hw')
      have h2 : (kc'.block_root b).temperature ≠ BLOCK_WARM := fun hw' => hb (hv (fun hn => by
        have := (hu hn).1
        rw [hw'] at this
        cases this))
      rw [if_neg h1, if_neg h2] at hw
      have e : (List.range (nblocks kc)).filter
            (fun y => decide ((kc'.block_root y).temperature = BLOCK_WARM)) =
          (List.range (nblocks kc)).filter
            (fun y => decide ((kc.block_root y).temperature = BLOCK_WARM)) := by
        apply List.filter_congr
        intro x hx
        apply hq
        rw [List.mem_range] at hx
        omega
      rw [e]
      omega
  · intro x hx
    by_cases hxb : x = b
    · subst hxb; exact (hu hx).1
    · rw [(ho x hxb).1]
      rw [(ho x hxb).2.1] at hx
      exact aux.cold x hx
  · rw [en]; exact aux.small
  · intro x hx
    rw [en]
    by_cases hxb : x = b
    · subst hxb; exact hv hx
    · rw [(ho x hxb).2.1] at hx
      exact aux.pool x hx
  · intro x hx
    by_cases hxb : x = b
    · subst hxb; exact (hu hx).2
    · rw [(ho x hxb).2.2.1]
      rw [(ho x hxb).2.1] at hx
      exact aux.free_len x hx
  · intro x
    rw [e1]
    by_cases hxb : x = b
    · subst hxb; exact hoff
    · rw [(ho x hxb).2.2.2.1]
      exact aux.off_le x
  · intro x hx
    by_cases hxb : x = b
    · subst hxb; exact hd hx
    · rw [(ho x hxb).2.2.2.1, (ho x hxb).2.2.1]
      rw [(ho x hxb).2.2.2.2] at hx
      exact aux.dirty x hx

/-- The bookkeeping looks at the block descriptors, the counter of warm blocks
and the sizes only. -/
theorem AUX.congr_aux {kc kc' : KEY_CACHE} (aux : AUX kc)
    (e1 : kc'.key_cache_block_size = kc.key_cache_block_size)
    (e2 : kc'.disk_blocks = kc.disk_blocks)
    (e3 : kc'.warm_blocks = kc.warm_blocks)
    (e4 : kc'.disk.pread_forced = kc.disk.pread_forced)
    (ho : ∀ x, aux_same (kc'.block_root x) (kc.block_root x)) : AUX kc' := by
  have en : nblocks kc' = nblocks kc := by unfold nblocks; rw [e2]
  constructor
  · rw [e3, aux.warm]
    unfold warm_count
    rw [en]
    congr 1
    apply List.filter_congr
    intro x _
    simp only [(ho x).1]
  · intro x hx
    rw [(ho x).1]
    rw [(ho x).2.1] at hx
    exact aux.cold x hx
  · rw [en]; exact aux.small
  · intro x hx
    rw [en]
    rw [(ho x).2.1] at hx
    exact aux.pool x hx
  · intro x hx
    rw [(ho x).2.2.1]
    rw [(ho x).2.1] at hx
    exact aux.free_len x hx
  · intro x
    rw [e1, (ho x).2.2.2.1]
    exact aux.off_le x
  · intro x hx
    rw [(ho x).2.2.2.1, (ho x).2.2.1]
    rw [(ho x).2.2.2.2] at hx
    exact aux.dirty x hx

/-- A change to one block that keeps its temperature and its page, and does
not make it dirty. -/
theorem AUX.set_quiet {kc kc' : KEY_CACHE} (aux : AUX kc) (b : Nat)
    (e1 : kc'.key_cache_block_size = kc.key_cache_block_size)
    (e2 : kc'.disk_blocks = kc.disk_blocks)
    (e3 : kc'.warm_blocks = kc.warm_blocks)
    (e4 : kc'.disk.pread_forced = kc.disk.pread_forced)
    (ho : ∀ x, x ≠ b → aux_same (kc'.block_root x) (kc.block_root x))
    (ht : (kc'.block_root b).temperature = (kc.block_root b).temperature)
    (hl : (kc'.block_root b).hash_link = (kc.block_root b).hash_link)
    (hn : (kc'.block_root b).hash_link = none → (kc'.block_root b).length = 0)
    (hoff : (kc'.block_root b).offset ≤ kc.key_cache_block_size)
    (hd : (kc'.block_root b).status.changed = true →
      (kc'.block_root b).offset ≤ (kc'.block_root b).length) : AUX kc' := by
  have en : nblocks kc' = nblocks kc := by unfold nblocks; rw [e2]
  have ht' : ∀ x, (kc'.block_root x).temperature = (kc.block_root x).temperature := by
    intro x
    by_cases hxb : x = b
    · subst hxb; exact ht
    · exact (ho x hxb).1
  have hl' : ∀ x, (kc'.block_root x).hash_link = (kc.block_root x).hash_link := by
    intro x
    by_cases hxb : x = b
    · subst hxb; exact hl
    · exact (ho x hxb).2.1
  constructor
  · rw [e3, aux.warm]
    unfold warm_count
    rw [en]
    congr 1
    apply List.filter_congr
    intro x _
    simp only [ht' x]
  · intro x hx
    rw [ht']
    rw [hl'] at hx
    exact aux.cold x hx
  · rw [en]; exact aux.small
  · intro x hx
    rw [en]
    rw [hl'] at hx
    exact aux.pool x hx
  · intro x hx
    by_cases hxb : x = b
    · subst hxb; exact hn hx
    · rw [(ho x hxb).2.2.1]
      rw [hl'] at hx
      exact aux.free_len x hx
  · intro x
    rw [e1]
    by_cases hxb : x = b
    · subst hxb; exact hoff
    · rw [(ho x hxb).2.2.2.1]
      exact aux.off_le x
  · intro x hx
    by_cases hxb : x = b
    · subst hxb; exact hd hx
    · rw [(ho x hxb).2.2.2.1, (ho x hxb).2.2.1]
      rw [(ho x hxb).2.2.2.2] at hx
      exact aux.dirty x hx

theorem link_block_block_root (kc : KEY_CACHE) (b : Nat) (hot at_end : Bool) :
    (link_block kc b hot at_end).block_root = kc.block_root := by
  unfold link_block
  split
  · split <;> rfl
  · rfl

theorem link_block_warm_blocks (kc : KEY_CACHE) (b : Nat) (hot at_end : Bool) :
    (link_block kc b hot at_end).warm_blocks = kc.warm_blocks := by
  unfold link_block
  split
  · split <;> rfl
  · rfl

theorem link_block_sizes (kc : KEY_CACHE) (b : Nat) (hot at_end : Bool) :
    (link_block kc b hot at_end).key_cache_block_size = kc.key_cache_block_size ∧
    (link_block kc b hot at_end).disk_blocks = kc.disk_blocks ∧
    (link_block kc b hot at_end).keycache_time = kc.keycache_time ∧
    (link_block kc b hot at_end).age_threshold = kc.age_threshold ∧
    (link_block kc b hot at_end).disk = kc.disk := by
  unfold link_block
  split
  · split <;> exact ⟨rfl, rfl, rfl, rfl, rfl⟩
  · exact ⟨rfl, rfl, rfl, rfl, rfl⟩

theorem unlink_block_fields (kc kc' : KEY_CACHE) (b : Nat) (h : unlink_block kc b = some kc') :
    kc'.block_root = kc.block_root ∧ kc'.warm_blocks = kc.warm_blocks ∧
    kc'.key_cache_block_size = kc.key_cache_block_size ∧ kc'.disk_blocks = kc.disk_blocks ∧
    kc'.disk = kc.disk := by
  unfold unlink_block at h
  split at h
  · split at h
    · cases h; exact ⟨rfl, rfl, rfl, rfl, rfl⟩
    · cases h; exact ⟨rfl, rfl, rfl, rfl, rfl⟩
  · cases h

theorem unreg_request_link_root (kc : KEY_CACHE) (b : Nat) (at_end : Bool) :
    (unreg_request_link kc b at_end).block_root =
      Function.update kc.block_root b
        { kc.block_root b with
          hits_left := if (kc.block_root b).hits_left ≠ 0 then (kc.block_root b).hits_left - 1
            else (kc.block_root b).hits_left
          temperature := if unreg_hot kc b at_end = true then BLOCK_HOT
            else (kc.block_root b).temperature
          last_hit_time := kc.keycache_time } := by
  unfold unreg_request_link unreg_hot
  simp only [set_block, link_block_block_root, (link_block_sizes _ _ _ _).2.2.1,
    Function.update_same, Function.update_idem]

theorem unreg_request_link_warm (kc : KEY_CACHE) (b : Nat) (at_end : Bool) :
    (unreg_request_link kc b at_end).warm_blocks =
      if unreg_hot kc b at_end = true ∧ (kc.block_root b).temperature = BLOCK_WARM
      then dec64 kc.warm_blocks else kc.warm_blocks := by
  unfold unreg_request_link unreg_hot
  simp only [set_block, link_block_warm_blocks]

theorem unreg_request_link_sizes (kc : KEY_CACHE) (b : Nat) (at_end : Bool) :
    (unreg_request_link kc b at_end).key_cache_block_size = kc.key_cache_block_size ∧
    (unreg_request_link kc b at_end).disk_blocks = kc.disk_blocks ∧
    (unreg_request_link kc b at_end).disk = kc.disk := by
  unfold unreg_request_link
  simp only [set_block, link_block_sizes]
  exact ⟨trivial, trivial, trivial⟩

/-- The first part of `unreg_request` keeps the bookkeeping. -/
theorem unreg_request_link_aux (kc : KEY_CACHE) (b : Nat) (at_end : Bool) (aux : AUX kc)
    (hbu : (kc.block_root b).hash_link ≠ none) : AUX (unreg_request_link kc b at_end) := by
  have eR := unreg_request_link_root kc b at_end
  have eW := unreg_request_link_warm kc b at_end
  have eS := unreg_request_link_sizes kc b at_end
  have eb : (unreg_request_link kc b at_end).block_root b =
      { kc.block_root b with
          hits_left := if (kc.block_root b).hits_left ≠ 0 then (kc.block_root b).hits_left - 1
            else (kc.block_root b).hits_left
          temperature := if unreg_hot kc b at_end = true then BLOCK_HOT
            else (kc.block_root b).temperature
          last_hit_time := kc.keycache_time } := by
    rw [eR, Function.update_same]
  have ex : ∀ x, x ≠ b → (unreg_request_link kc b at_end).block_root x = kc.block_root x := by
    intro x hx
    rw [eR, Function.update_noteq hx]
  apply aux.set_one b eS.1 eS.2.1 (by rw [eS.2.2])
  · intro x hx
    rw [ex x hx]
    exact aux_same_refl _
  · rw [eW, eb]
    simp only []
    by_cases hw : (kc.block_root b).temperature = BLOCK_WARM
    · have hd := aux.dec_warm b hw
      by_cases hh : unreg_hot kc b at_end = true
      · simp only [hh, hw, and_self, if_true]
        rw [hd.1]
        have := hd.2
        simp
        omega
      · simp only [hh, hw, false_and, if_false, if_true]
        simp
    · by_cases hh : unreg_hot kc b at_end = true
      · simp only [hh, hw, and_false, if_false, if_true]
        simp
      · simp only [hh, hw, and_false, if_false]
        simp [hw]
  · intro hn
    rw [eb] at hn
    exact absurd hn hbu
  · intro _
    exact aux.pool b hbu
  · rw [eb]
    exact aux.off_le b
  · rw [eb]
    exact aux.dirty b

/-- The second part of `unreg_request` keeps the bookkeeping. -/
theorem unreg_request_age_aux (kc kc' : KEY_CACHE) (aux : AUX kc)
    (hins : ∀ x, kc.used_ins = some x → (kc.block_root x).hash_link ≠ none)
    (h : unreg_request_age kc = some kc') : AUX kc' := by
  unfold unreg_request_age at h
  cases hi : kc.used_ins with
  | none =>
    simp only [hi] at h
    cases h
    exact aux
  | some blk =>
    simp only [hi] at h
    split at h
    · cases hun : unlink_block kc blk with
      | none =>
        simp only [hun] at h
        cases h
      | some k1 =>
        simp only [hun] at h
        obtain ⟨u1, u2, u3, u4, u5⟩ := unlink_block_fields kc k1 blk hun
        have hbu := hins blk hi
        split at h
        · cases h
          apply aux.set_one blk
          · show (link_block k1 blk false false).key_cache_block_size = _
            rw [(link_block_sizes _ _ _ _).1, u3]
          · show (link_block k1 blk false false).disk_blocks = _
            rw [(link_block_sizes _ _ _ _).2.1, u4]
          · show (link_block k1 blk false false).disk.pread_forced = _
            rw [(link_block_sizes _ _ _ _).2.2.2.2, u5]
          · intro x hx
            simp only [set_block, Function.update_noteq hx, link_block_block_root, u1]
            exact aux_same_refl _
          · rename_i hne
            rw [link_block_block_root, u1] at hne
            simp only [set_block, Function.update_same, link_block_warm_blocks, u2]
            simp [hne]
          · intro hn
            simp only [set_block, Function.update_same, link_block_block_root, u1] at hn
            exact absurd hn hbu
          · intro _
            exact aux.pool blk hbu
          · simp only [set_block, Function.update_same, link_block_block_root, u1]
            exact aux.off_le blk
          · simp only [set_block, Function.update_same, link_block_block_root, u1]
            exact aux.dirty blk
        · cases h
          apply aux.congr_aux
          · rw [(link_block_sizes _ _ _ _).1, u3]
          · rw [(link_block_sizes _ _ _ _).2.1, u4]
          · rw [link_block_warm_blocks, u2]
          · rw [(link_block_sizes _ _ _ _).2.2.2.2, u5]
          · intro x
            rw [link_block_block_root, u1]
            exact aux_same_refl _
    · cases h
      exact aux

/-- Unregistering a request keeps the bookkeeping. -/
theorem unreg_request_aux (kc kc' : KEY_CACHE) (b : Nat) (at_end : Bool) (aux : AUX kc)
    (hok : RING_OK kc.used_ring kc.used_ins) (hb : b ∉ kc.used_ring)
    (hbu : (kc.block_root b).hash_link ≠ none)
    (hring : ∀ x, x ∈ kc.used_ring → (kc.block_root x).hash_link ≠ none)
    (h : unreg_request kc b at_end = some kc') : AUX kc' := by
  unfold unreg_request at h
  obtain ⟨k0, hk0⟩ : ∃ k0, k0 = set_block kc b
      { kc.block_root b with requests := dec32 (kc.block_root b).requests } := ⟨_, rfl⟩
  simp only [] at h
  rw [← hk0] at h
  have e0 : ∀ x, aux_same (k0.block_root x) (kc.block_root x) := by
    intro x
    rw [hk0]
    simp only [set_block, Function.update_apply]
    split
    · rename_i hx
      subst hx
      exact ⟨rfl, rfl, rfl, rfl, rfl⟩
    · exact aux_same_refl _
  have aux0 : AUX k0 :=
    aux.congr_aux (by rw [hk0]; rfl) (by rw [hk0]; rfl) (by rw [hk0]; rfl) (by rw [hk0]; rfl) e0
  split at h
  · have hbu0 : (k0.block_root b).hash_link ≠ none := by rw [(e0 b).2.1]; exact hbu
    have aux1 := unreg_request_link_aux k0 b at_end aux0 hbu0
    obtain ⟨br, ring, ins, w, hlink, hperm, hok1, hcore⟩ := unreg_request_link_spec k0 b at_end
      (by rw [hk0]; exact hok) (by rw [hk0]; exact hb)
    apply unreg_request_age_aux _ kc' aux1 _ h
    intro x hx
    rw [hlink] at hx ⊢
    have hx' : ins = some x := hx
    have hmem := hperm.mem_iff.1 (hok1.2.1 x hx')
    show (br x).hash_link ≠ none
    rw [(hcore x).1, (e0 x).2.1]
    have hmem' : x ∈ b :: kc.used_ring := by
      have : k0.used_ring = kc.used_ring := by rw [hk0]; rfl
      rw [← this]
      exact hmem
    rcases List.mem_cons.1 hmem' with hxb | hxr
    · rw [hxb]; exact hbu
    · exact hring x hxr
  · cases h
    exact aux0

theorem free_block_wait_same (kc k1 : KEY_CACHE) (b : Nat)
    (h : free_block_wait kc b = some k1) :
    k1.used_ring = kc.used_ring ∧ k1.used_ins = kc.used_ins ∧
    k1.warm_blocks = kc.warm_blocks ∧ k1.key_cache_block_size = kc.key_cache_block_size ∧
    k1.disk_blocks = kc.disk_blocks ∧ k1.disk = kc.disk ∧
    ∀ x, aux_same (k1.block_root x) (kc.block_root x) := by
  cases hh : (kc.block_root b).hash_link with
  | none =>
    unfold free_block_wait at h
    simp only [hh] at h
    cases h
    exact ⟨rfl, rfl, rfl, rfl, rfl, rfl, fun x => aux_same_refl _⟩
  | some hl =>
    by_cases hr : (kc.hash_link_root hl).requests = 0
    · rw [free_block_wait_spec kc b hl hh hr] at h
      have e := Option.some.inj h
      rw [← e]
      refine ⟨rfl, rfl, rfl, rfl, rfl, rfl, ?_⟩
      intro x
      simp only [set_status, set_block, Function.update_apply]
      split
      · rename_i hx
        subst hx
        exact ⟨rfl, rfl, rfl, rfl, rfl⟩
      · exact aux_same_refl _
    · have : free_block_wait kc b = none := by
        unfold free_block_wait
        rw [hh]
        simp only [wait_for_readers, set_status, set_block, Function.update_same, hh, hr, ne_eq,
          not_false_eq_true, if_true]
      rw [this] at h
      cases h

/-- The end of `free_block` keeps the bookkeeping. -/
theorem free_block_release_aux (kc kc' : KEY_CACHE) (b : Nat) (aux : AUX kc)
    (h : free_block_release kc b = some kc') : AUX kc' := by
  cases hh : (kc.block_root b).hash_link with
  | none =>
    have : free_block_release kc b = none := by
      unfold free_block_release
      by_cases ht : (kc.block_root b).temperature = BLOCK_WARM
      · simp only [ht, if_true, set_block, unlink_changed, Function.update_same, hh]
      · simp only [ht, if_false, set_block, unlink_changed, Function.update_same, hh]
    rw [this] at h
    cases h
  | some hl =>
    rw [free_block_release_spec kc b hl hh] at h
    cases h
    apply aux.set_one b
    · rfl
    · rfl
    · rfl
    · intro x hx
      simp only [freed_state, Function.update_noteq hx]
      exact aux_same_refl _
    · simp only [freed_state, Function.update_same]
      by_cases hw : (kc.block_root b).temperature = BLOCK_WARM
      · have hd := aux.dec_warm b hw
        simp only [hw, if_true]
        rw [hd.1]
        have := hd.2
        simp
        omega
      · simp only [hw, if_false]
        simp
    · intro _
      simp only [freed_state, Function.update_same]
      exact ⟨trivial, trivial⟩
    · intro hn
      simp only [freed_state, Function.update_same] at hn
      exact absurd rfl hn
    · simp only [freed_state, Function.update_same]
      exact le_refl _
    · intro hc
      simp only [freed_state, Function.update_same] at hc
      cases hc

/-- Freeing a block keeps the bookkeeping. -/
theorem free_block_aux (kc kc' : KEY_CACHE) (b : Nat) (aux : AUX kc)
    (hok : RING_OK kc.used_ring kc.used_ins) (hb : b ∉ kc.used_ring)
    (hbu : (kc.block_root b).hash_link ≠ none)
    (hring : ∀ x, x ∈ kc.used_ring → (kc.block_root x).hash_link ≠ none)
    (h : free_block kc b = some kc') : AUX kc' := by
  unfold free_block at h
  cases h1 : free_block_wait kc b with
  | none => rw [h1] at h; cases h
  | some k1 =>
    rw [h1, Option.some_bind] at h
    obtain ⟨w1, w2, w3, w4, w5, w7, w6⟩ := free_block_wait_same kc k1 b h1
    have aux1 : AUX k1 := aux.congr_aux w4 w5 w3 (by rw [w7]) w6
    cases h2 : unreg_request k1 b false with
    | none => rw [h2] at h; cases h
    | some k2 =>
      rw [h2, Option.some_bind] at h
      have aux2 : AUX k2 := unreg_request_aux k1 k2 b false aux1 (by rw [w1, w2]; exact hok)
        (by rw [w1]; exact hb) (by rw [(w6 b).2.1]; exact hbu)
        (fun x hx => by rw [(w6 x).2.1]; exact hring x (by rw [← w1]; exact hx)) h2
      split at h
      · cases h
        exact aux2
      · cases h3 : (if (k2.block_root b).status.error = false then unlink_block k2 b
            else some k2) with
        | none => rw [h3] at h; cases h
        | some k3 =>
          rw [h3, Option.some_bind] at h
          have aux3 : AUX k3 := by
            split at h3
            · obtain ⟨u1, u2, u3, u4, u5⟩ := unlink_block_fields k2 k3 b h3
              exact aux2.congr_aux u3 u4 u2 (by rw [u5])
                (fun x => by rw [u1]; exact aux_same_refl _)
            · cases h3
              exact aux2
          exact free_block_release_aux k3 kc' b aux3 h

theorem hit_state_aux (kc : KEY_CACHE) (h b : Nat) (aux : AUX kc) : AUX (hit_state kc h b) := by
  apply @AUX.congr_aux kc (hit_state kc h b) aux rfl rfl rfl rfl
  intro x
  simp only [hit_state, pinned_state, set_hash_link, set_block, Function.update_apply]
  split
  · rename_i hx
    subst hx
    exact ⟨rfl, rfl, rfl, rfl, rfl⟩
  · exact aux_same_refl _

theorem miss_unused_state_aux (kc : KEY_CACHE) (f key level h b : Nat) (fh : List Nat) (hu : Nat)
    (fb : List Nat) (bu : Nat) (aux : AUX kc) (hbl : (kc.block_root b).hash_link = none)
    (hb : b < nblocks kc) :
    AUX (miss_unused_state kc f key level h b fh hu fb bu) := by
  apply @AUX.set_one kc (miss_unused_state kc f key level h b fh hu fb bu) aux b rfl rfl rfl
  · intro x hx
    simp only [miss_unused_state, Function.update_noteq hx]
    exact aux_same_refl _
  · simp only [miss_unused_state, Function.update_same, aux.cold b hbl]
  · intro hn
    simp only [miss_unused_state, Function.update_same] at hn
    cases hn
  · intro _
    exact hb
  · simp only [miss_unused_state, Function.update_same]
    exact le_refl _
  · intro hc
    simp only [miss_unused_state, Function.update_same, BLOCK_IN_USE] at hc
    cases hc

theorem evicted_state_aux (kc : KEY_CACHE) (f key level h v old : Nat) (fh : List Nat) (hu : Nat)
    (aux : AUX kc) (hh : (kc.block_root v).hash_link = some old) :
    AUX (evicted_state (linked_state kc f key h fh hu) f level h v old) := by
  apply @AUX.set_one kc (evicted_state (linked_state kc f key h fh hu) f level h v old) aux v
    rfl rfl (by
      simp only [evicted_state, linked_state]
      split
      · exact my_pwrite_forced _ _ _ _
      · rfl)
  · intro x hx
    simp only [evicted_state, linked_state, Function.update_noteq hx]
    exact aux_same_refl _
  · simp only [evicted_state, linked_state, Function.update_same]
  · intro hn
    simp only [evicted_state, linked_state, Function.update_same] at hn
    cases hn
  · intro _
    exact aux.pool v (by rw [hh]; simp)
  · simp only [evicted_state, linked_state, Function.update_same]
    exact le_refl _
  · intro hc
    simp only [evicted_state, linked_state, Function.update_same] at hc
    split at hc <;> cases hc

/-- The blocks of the LRU ring have a page. -/
theorem WF.ring_used {kc : KEY_CACHE} {pin : Option Nat} {fl : List Nat} (wf : WF kc pin fl) :
    ∀ x, x ∈ kc.used_ring → (kc.block_root x).hash_link ≠ none :=
  fun x hx => ((wf.ring.iff x).1 hx).1

/-- Unregistering the request on the pinned block keeps the bookkeeping. -/
theorem unreg_request_aux_wf (kc kc' : KEY_CACHE) (b : Nat) (at_end : Bool) (fl : List Nat)
    (wf : WF kc (some b) fl) (aux : AUX kc) (h : unreg_request kc b at_end = some kc') :
    AUX kc' :=
  unreg_request_aux kc kc' b at_end aux wf.ring.ok
    (fun hm => ((wf.ring.iff b).1 hm).2.1 rfl) (wf.ring.pin_used b rfl).1 wf.ring_used h

/-- Freeing the pinned block keeps the bookkeeping. -/
theorem free_block_aux_wf (kc kc' : KEY_CACHE) (b : Nat) (fl : List Nat)
    (wf : WF kc (some b) fl) (aux : AUX kc) (h : free_block kc b = some kc') : AUX kc' :=
  free_block_aux kc kc' b aux wf.ring.ok
    (fun hm => ((wf.ring.iff b).1 hm).2.1 rfl) (wf.ring.pin_used b rfl).1 wf.ring_used h

theorem pinned_state_aux (kc : KEY_CACHE) (b : Nat) (ins : Option Nat) (aux : AUX kc) :
    AUX (pinned_state kc b ins) := by
  apply @AUX.congr_aux kc (pinned_state kc b ins) aux rfl rfl rfl rfl
  intro x
  simp only [pinned_state, set_block, Function.update_apply]
  split
  · rename_i hx
    subst hx
    exact ⟨rfl, rfl, rfl, rfl, rfl⟩
  · exact aux_same_refl _

theorem cleaned_state_aux (kc : KEY_CACHE) (b file : Nat) (aux : AUX kc) :
    AUX (cleaned_state kc b file) := by
  apply @AUX.set_quiet kc (cleaned_state kc b file) aux b rfl rfl rfl rfl
  · intro x hx
    simp only [cleaned_state, Function.update_noteq hx]
    exact aux_same_refl _
  · simp only [cleaned_state, Function.update_same]
  · simp only [cleaned_state, Function.update_same]
  · intro hn
    simp only [cleaned_state, Function.update_same] at hn ⊢
    exact aux.free_len b hn
  · simp only [cleaned_state, Function.update_same]
    exact aux.off_le b
  · intro hc
    simp only [cleaned_state, Function.update_same] at hc
    cases hc

/-- A change of the status word of a block that does not make it dirty keeps
the bookkeeping. -/
theorem set_status_aux (kc : KEY_CACHE) (b : Nat) (s : STATUS) (aux : AUX kc)
    (hs : s.changed = true → (kc.block_root b).status.changed = true) :
    AUX (set_status kc b s) := by
  apply @AUX.set_quiet kc (set_status kc b s) aux b rfl rfl rfl rfl
  · intro x hx
    rw [set_status, set_block_root, if_neg hx]
    exact aux_same_refl _
  · rw [set_status, set_block_root, if_pos rfl]
  · rw [set_status, set_block_root, if_pos rfl]
  · intro hn
    rw [set_status, set_block_root, if_pos rfl] at hn ⊢
    exact aux.free_len b hn
  · rw [set_status, set_block_root, if_pos rfl]
    exact aux.off_le b
  · intro hc
    rw [set_status, set_block_root, if_pos rfl] at hc ⊢
    exact aux.dirty b (hs hc)

/-- A change of one block descriptor that keeps what the bookkeeping looks at,
except that the block may become clean. -/
theorem AUX.of_root {kc kc' : KEY_CACHE} (aux : AUX kc) (b : Nat) (v : BLOCK_LINK)
    (e1 : kc'.key_cache_block_size = kc.key_cache_block_size)
    (e2 : kc'.disk_blocks = kc.disk_blocks)
    (e3 : kc'.warm_blocks = kc.warm_blocks)
    (e4 : kc'.disk.pread_forced = kc.disk.pread_forced)
    (er : ∀ x, kc'.block_root x = if x = b then v else kc.block_root x)
    (ht : v.temperature = (kc.block_root b).temperature)
    (hl : v.hash_link = (kc.block_root b).hash_link)
    (hn : v.length = (kc.block_root b).length)
    (ho : v.offset = (kc.block_root b).offset)
    (hc : v.status.changed = true → (kc.block_root b).status.changed = true) : AUX kc' := by
  apply aux.set_quiet b e1 e2 e3 e4
  · intro x hx
    rw [er, if_neg hx]
    exact aux_same_refl _
  · rw [er, if_pos rfl]; exact ht
  · rw [er, if_pos rfl]; exact hl
  · rw [er, if_pos rfl, hl, hn]
    exact aux.free_len b
  · rw [er, if_pos rfl, ho]
    exact aux.off_le b
  · rw [er, if_pos rfl, ho, hn]
    intro h
    exact aux.dirty b (hc h)

theorem flush_block_write_spec (kc : KEY_CACHE) (file b h : Nat) (e : Int)
    (hh : (kc.block_root b).hash_link = some h)
    (hupd : (kc.block_root b).status.for_update = false) :
    flush_block_write kc file b e =
      some (flush_errno e (block_pwrite kc file b h).1, written_state kc file b h) := by
  unfold flush_block_write
  rewrite [if_pos hupd, hh]
  dsimp only []
  rewrite [link_to_file_list_eq]
  unfold written_state block_pwrite
  by_cases hw : (my_pwrite kc.disk file
      (buffer_bytes (kc.block_root b).buffer (kc.block_root b).offset
        ((kc.block_root b).length - (kc.block_root b).offset))
      ((kc.hash_link_root h).diskpos + (kc.block_root b).offset)).1.isSome = true
  · simp only [set_status, set_block, Function.update_same, hw, if_true, Function.update_idem,
      Bool.or_true]
  · simp only [set_status, set_block, Function.update_same, hw, if_false, Function.update_idem,
      Bool.or_false, Bool.false_eq_true]
/-- Writing the pinned block of a flush keeps the state well-formed. -/
theorem written_state_wf (kc : KEY_CACHE) (file b h : Nat) (fl : List Nat)
    (wf : WF kc (some b) fl) (hh : (kc.block_root b).hash_link = some h)
    (hf : (kc.hash_link_root h).file = file) :
    WF (written_state kc file b h) (some b) fl := by
  obtain ⟨K0, hK0⟩ : ∃ K0 : KEY_CACHE, K0 =
      { kc with
        disk := (block_pwrite kc file b h).2
        global_cache_write := kc.global_cache_write + 1 } := ⟨_, rfl⟩
  have wf0 : WF K0 (some b) fl := by
    rw [hK0]
    exact wf.congr_wf rfl rfl rfl rfl rfl rfl rfl rfl rfl rfl rfl rfl rfl rfl (fun _ => rfl)
      (fun _ => rfl) (fun _ => rfl) (fun _ => rfl) rfl
      (bounded_reads.of_same (my_pwrite_forced _ _ _ _) rfl)
  obtain ⟨K1, hK1⟩ : ∃ K1, K1 = set_block K0 b
      { kc.block_root b with
        status :=
          { (kc.block_root b).status with
            error := (kc.block_root b).status.error || (block_pwrite kc file b h).1.isSome
            in_flushwrite := false } } := ⟨_, rfl⟩
  have wf1 : WF K1 (some b) fl := by
    rw [hK1]
    exact wf0.set_pinned _ (by rw [hK0]) (by rw [hK0]) (by rw [hK0])
  have h1 : (K1.block_root b).hash_link = some h := by
    rw [hK1]; simp only [set_block, Function.update_same]; exact hh
  have := cleaned_state_wf K1 b h fl wf1 h1
  have e : (K1.hash_link_root h).file = file := by rw [hK1, hK0]; exact hf
  rw [e, hK1, hK0] at this
  exact this

theorem same_config_refl (kc : KEY_CACHE) : same_config kc kc :=
  ⟨rfl, rfl, rfl, rfl, rfl, rfl, rfl, rfl, rfl, rfl, rfl⟩

theorem same_config_trans {a b c : KEY_CACHE} (h1 : same_config a b) (h2 : same_config b c) :
    same_config a c := by
  obtain ⟨a1, a2, a3, a4, a5, a6, a7, a8, a9, a10, a11⟩ := h1
  obtain ⟨b1, b2, b3, b4, b5, b6, b7, b8, b9, b10, b11⟩ := h2
  exact ⟨b1.trans a1, b2.trans a2, b3.trans a3, b4.trans a4, b5.trans a5, b6.trans a6,
    b7.trans a7, b8.trans a8, b9.trans a9, b10.trans a10, b11.trans a11⟩

theorem same_core_trans {a b c : BLOCK_LINK} (h1 : same_core a b) (h2 : same_core b c) :
    same_core a c := by
  obtain ⟨a1, a2, a3, a4, a5, a6⟩ := h1
  obtain ⟨b1, b2, b3, b4, b5, b6⟩ := h2
  exact ⟨a1.trans b1, a2.trans b2, a3.trans b3, a4.trans b4, a5.trans b5, a6.trans b6⟩

/-- A flush that has not started yet. -/
theorem FLUSH_REL.start (kc : KEY_CACHE) (f : Nat) : FLUSH_REL kc kc f [] [] [] where
  config := same_config_refl kc
  used := rfl
  frame := fun _ _ => same_core_refl _
  frame_links := fun _ _ _ _ => rfl
  kept := fun x _ _ => ⟨rfl, fun _ _ => rfl, rfl, rfl, rfl, fun h =>
    ⟨h, List.not_mem_nil x⟩⟩
  unused := fun _ h => h
  pool := ⟨rfl, rfl⟩
  pool_file := fun x hx => absurd hx (List.not_mem_nil x)
  log := (List.append_nil _).symm
  written := List.Forall₂.nil
  written_dirty := fun x hx => absurd hx (List.not_mem_nil x)
  written_nodup := List.nodup_nil

/-- One more step of a flush on a block of the file. -/
theorem FLUSH_REL.step_rel {kc0 kc kc' : KEY_CACHE} {f b : Nat} {P F Pd : List Nat}
    {W Wd : List PWRITE_CALL} {freed : Bool}
    (r : FLUSH_REL kc0 kc f P F W) (s : STEP kc kc' b freed Wd) (hi : HASH_INV kc)
    (hb0 : of_file kc0 f b) (hbu : (kc.block_root b).hash_link ≠ none)
    (hw : (Pd = [] ∧ Wd = []) ∨ (Pd = [b] ∧ ∃ w, Wd = [w] ∧ pwrite_of kc f b w ∧
      (kc.block_root b).status.changed = true)) :
    FLUSH_REL kc0 kc' f (P ++ Pd) ((if freed then [b] else []) ++ F) (W ++ Wd) := by
  obtain ⟨kb1, kb2, kb3, kb4, kb5, kb6⟩ := r.kept b hb0 hbu
  have hown : ∀ x h, x ≠ b → (kc.block_root x).hash_link = some h →
      (kc.block_root b).hash_link ≠ some h := by
    intro x h hx hxh hc
    have h1 := hi.back x h hxh
    have h2 := hi.back b h hc
    rw [h1] at h2
    exact hx (Option.some.inj h2)
  constructor
  · exact same_config_trans r.config s.config
  · rw [s.used, r.used]
  · intro x hx
    have hxb : x ≠ b := fun hc => hx (hc ▸ hb0)
    exact same_core_trans (s.others x hxb) (r.frame x hx)
  · intro x h hx hxh
    have hxb : x ≠ b := fun hc => hx (hc ▸ hb0)
    rw [← r.frame_links x h hx hxh]
    apply s.links h
    intro _
    exact hown x h hxb (by rw [(r.frame x hx).1]; exact hxh)
  · intro x hx hxu
    by_cases hxb : x = b
    · subst hxb
      cases hfr : freed with
      | true => exact absurd (s.gone hfr) hxu
      | false =>
        obtain ⟨s1, s2, s3, s4, s5, -⟩ := s.stays hfr
        refine ⟨s1.trans kb1, ?_, s2.trans kb3, s3.trans kb4, s4.trans kb5, ?_⟩
        · intro h hh
          rw [← kb2 h hh]
          exact s.links h (fun hc => by rw [hfr] at hc; cases hc)
        · intro hc
          obtain ⟨c1, c2⟩ := s5 hc
          obtain ⟨c3, c4⟩ := kb6 c1
          refine ⟨c3, ?_⟩
          rcases hw with ⟨hp, -⟩ | ⟨-, w, hw1, -⟩
          · rw [hp, List.append_nil]; exact c4
          · rw [c2] at hw1; cases hw1
    · have sc := s.others x hxb
      rw [sc.1] at hxu
      obtain ⟨k1, k2, k3, k4, k5, k6⟩ := r.kept x hx hxu
      refine ⟨sc.1.trans k1, ?_, sc.2.1.trans k3, sc.2.2.1.trans k4, sc.2.2.2.1.trans k5, ?_⟩
      · intro h hh
        rw [← k2 h hh]
        apply s.links h
        intro _
        exact hown x h hxb (by rw [k1]; exact hh)
      · intro hc
        rw [sc.2.2.2.2.1] at hc
        obtain ⟨c3, c4⟩ := k6 hc
        refine ⟨c3, ?_⟩
        intro hm
        rcases List.mem_append.1 hm with hm | hm
        · exact c4 hm
        · rcases hw with ⟨hp, -⟩ | ⟨hp, -⟩
          · rw [hp] at hm; cases hm
          · rw [hp] at hm
            exact hxb (List.mem_singleton.1 hm)
  · intro x hx
    have h1 := r.unused x hx
    have hxb : x ≠ b := fun hc => hbu (hc ▸ h1)
    rw [(s.others x hxb).1]; exact h1
  · obtain ⟨p1, p2⟩ := s.pool
    obtain ⟨q1, q2⟩ := r.pool
    constructor
    · rw [p1, q1, List.append_assoc]
    · rw [p2, q2]
      cases freed
      · simp
      · simp only [if_true, List.length_append, List.length_singleton]; omega
  · intro x hx
    rcases List.mem_append.1 hx with hx | hx
    · cases freed
      · cases hx
      · have := List.mem_singleton.1 hx
        rw [this]; exact hb0
    · exact r.pool_file x hx
  · rw [s.log, r.log, List.append_assoc]
  · rcases hw with ⟨hp, hw1⟩ | ⟨hp, w, hw1, ⟨h, w1, w2, w3, w4⟩, -⟩
    · rw [hp, hw1, List.append_nil, List.append_nil]; exact r.written
    · rw [hp, hw1]
      refine List.rel_append r.written (List.Forall₂.cons ?_ List.Forall₂.nil)
      refine ⟨h, by rw [← kb1]; exact w1, w2, ?_, ?_⟩
      · rw [w3, kb2 h (by rw [← kb1]; exact w1), kb4]
      · rw [w4, kb3, kb4, kb5]
  · intro x hx
    rcases List.mem_append.1 hx with hx | hx
    · exact r.written_dirty x hx
    · rcases hw with ⟨hp, -⟩ | ⟨hp, w, -, -, hc⟩
      · rw [hp] at hx; cases hx
      · rw [hp] at hx
        have := List.mem_singleton.1 hx
        rw [this]
        exact ⟨hb0, (kb6 hc).1⟩
  · rcases hw with ⟨hp, -⟩ | ⟨hp, w, -, -, hc⟩
    · rw [hp, List.append_nil]; exact r.written_nodup
    · rw [hp]
      exact List.Nodup.append r.written_nodup (List.nodup_singleton b)
        (by
          intro x hx1 hx2
          have := List.mem_singleton.1 hx2
          rw [this] at hx1
          exact (kb6 hc).2 hx1)

theorem my_pwrite_log (d : DISK) (f : Nat) (buf : List Nat) (pos : Nat) :
    (my_pwrite d f buf pos).2.pwrites =
      d.pwrites ++ [⟨f, pos, buf, (my_pwrite d f buf pos).1⟩] := by
  unfold my_pwrite
  split <;> rfl

/-- The state of a block of the burst after its write, with `BLOCK_IN_FLUSH`
cleared. -/
theorem flush_cached_block_unfold (kc : KEY_CACHE) (file b h : Nat) (type : flush_type)
    (e : Int) (K6 : KEY_CACHE)
    (hh : (kc.block_root b).hash_link = some h)
    (hupd : (kc.block_root b).status.for_update = false)
    (hK6 : K6 = set_status (written_state kc file b h) b
      { ((written_state kc file b h).block_root b).status with in_flush := false })
    (hev : (K6.block_root b).status.in_eviction = false)
    (hsw : (K6.block_root b).status.in_switch = false)
    (hup : (K6.block_root b).status.for_update = false) :
    flush_cached_block kc file b type e =
      if ¬ (type = FLUSH_KEEP ∨ type = FLUSH_FORCE_WRITE) then
        (free_block K6 b).map fun k => (flush_errno e (block_pwrite kc file b h).1, k)
      else
        (unreg_request K6 b true).map fun k => (flush_errno e (block_pwrite kc file b h).1, k)
    := by
  unfold flush_cached_block
  rewrite [flush_block_write_spec kc file b h e hh hupd, Option.some_bind]
  dsimp only []
  rewrite [← hK6]
  by_cases ht : type = FLUSH_KEEP ∨ type = FLUSH_FORCE_WRITE
  · rewrite [if_neg (by simp [ht]), if_neg (by simp [ht])]
    exact rfl
  · rewrite [if_pos ⟨ht, hev, hsw, hup⟩, if_pos ht]
    exact rfl
/-- One block of the write burst goes through `flush_cached_blocks`: its dirty
part is written once, and the block is clean afterwards, or free if the flush
releases blocks. -/
theorem flush_cached_block_step (kc : KEY_CACHE) (file b h : Nat) (type : flush_type)
    (e : Int) (L : List Nat) (wf : WF kc none L) (hb : b ∈ L)
    (hh : (kc.block_root b).hash_link = some h)
    (hf : (kc.hash_link_root h).file = file) :
    ∃ kc' w, flush_cached_block kc file b type e = some (flush_errno e w.error, kc') ∧
      WF kc' none (L.erase b) ∧
      STEP kc kc' b (decide (¬ (type = FLUSH_KEEP ∨ type = FLUSH_FORCE_WRITE))) [w] ∧
      pwrite_of kc file b w ∧
      ((kc'.block_root b).status.error = true → w.error ≠ none) := by
  have hne : (kc.block_root b).hash_link ≠ none := by rw [hh]; simp
  obtain ⟨o1, o2, o3, o4, o5, o6, o7, o8⟩ := wf.stat.used b hne (by simp)
  obtain ⟨q1, q2⟩ := wf.stat.quiet b hne (by simp)
  obtain ⟨f1, f2⟩ := wf.stat.flushing b hb
  have hreqh : (kc.hash_link_root h).requests = 0 := wf.req.link_free h (fun y hy => by cases hy)
  have wfp := wf.repin hb
  have hbL : b ∉ L.erase b := (wfp.ring.pin_used b rfl).2
  obtain ⟨w, hw⟩ : ∃ w : PWRITE_CALL, w = ⟨file,
      (kc.hash_link_root h).diskpos + (kc.block_root b).offset,
      buffer_bytes (kc.block_root b).buffer (kc.block_root b).offset
        ((kc.block_root b).length - (kc.block_root b).offset),
      (block_pwrite kc file b h).1⟩ := ⟨_, rfl⟩
  have hwe : w.error = (block_pwrite kc file b h).1 := by rw [hw]
  have hpw : pwrite_of kc file b w := ⟨h, hh, by rw [hw], by rw [hw], by rw [hw]⟩
  obtain ⟨KW, hKW⟩ : ∃ KW, KW = written_state kc file b h := ⟨_, rfl⟩
  have wfW : WF KW (some b) (L.erase b) := by
    rw [hKW]; exact written_state_wf kc file b h _ wfp hh hf
  have hlog : KW.disk.pwrites = kc.disk.pwrites ++ [w] := by
    rw [hKW, hw]
    exact my_pwrite_log _ _ _ _
  obtain ⟨S6, hS6⟩ : ∃ S6 : STATUS, S6 =
      { (kc.block_root b).status with
        error := (block_pwrite kc file b h).1.isSome, in_flushwrite := false,
        changed := false, in_flush := false } := ⟨_, rfl⟩
  obtain ⟨K6, hK6⟩ : ∃ K6, K6 = set_status KW b
      { (KW.block_root b).status with in_flush := false } := ⟨_, rfl⟩
  have e6 : ∀ x, K6.block_root x =
      if x = b then { kc.block_root b with status := S6 } else kc.block_root x := by
    intro x
    rw [hK6, hKW, hS6]
    simp only [set_status, set_block, written_state, cleaned_state, Function.update_same,
      Function.update_idem, Function.update_apply, f2, Bool.false_or]
  have e6b : K6.block_root b = { kc.block_root b with status := S6 } := by
    rw [e6, if_pos rfl]
  have wf6 : WF K6 (some b) (L.erase b) := by
    rw [hK6]
    exact wfW.set_pinned _ rfl rfl rfl
  have hh6 : (K6.block_root b).hash_link = some h := by rw [e6b]; exact hh
  have e6l : K6.hash_link_root = kc.hash_link_root := by rw [hK6, hKW]; rfl
  have hreq6 : (K6.hash_link_root h).requests = 0 := by rw [e6l]; exact hreqh
  have e6s : (K6.block_root b).status = S6 := by rw [e6b]
  have e6bs : K6.key_cache_block_size = kc.key_cache_block_size := by rw [hK6, hKW]; rfl
  have e6u : K6.blocks_used = kc.blocks_used := by rw [hK6, hKW]; rfl
  have e6f : K6.free_block_list = kc.free_block_list := by rw [hK6, hKW]; rfl
  have e6n : K6.blocks_unused = kc.blocks_unused := by rw [hK6, hKW]; rfl
  have hcfg : same_config kc K6 := by
    rw [hK6, hKW]; exact ⟨rfl, rfl, rfl, rfl, rfl, rfl, rfl, rfl, rfl, rfl, rfl⟩
  have hunf := flush_cached_block_unfold kc file b h type e K6 hh q2 (by rw [hK6, hKW])
    (by rw [e6s, hS6]; exact o4) (by rw [e6s, hS6]; exact o2) (by rw [e6s, hS6]; exact q2)
  rw [← hwe] at hunf
  have hlog6 : K6.disk.pwrites = kc.disk.pwrites ++ [w] := by
    rw [← hlog, hK6]; rfl
  have aux6 : AUX kc → AUX K6 := fun aux =>
    aux.of_root b { kc.block_root b with status := S6 } e6bs hcfg.2.2.2.2.2.1
      (by rw [hK6, hKW]; rfl) (by rw [hK6, hKW]; exact my_pwrite_forced _ _ _ _)
      e6 rfl rfl rfl rfl
      (fun hc => by
        have h2 : S6.changed = true := hc
        rw [hS6] at h2
        cases h2)
  by_cases ht : type = FLUSH_KEEP ∨ type = FLUSH_FORCE_WRITE
  · rewrite [if_neg (by simp [ht])] at hunf
    have hdec : decide (¬ (type = FLUSH_KEEP ∨ type = FLUSH_FORCE_WRITE)) = false := by
      simp [ht]
    rw [hdec]
    have hbok : block_ok K6 (L.erase b) b := by
      unfold block_ok
      rw [e6s, e6bs, e6b, hS6]
      exact ⟨o1, o2, o3, o4, rfl,
        fun hh => o6 (bounded_reads.of_same (by rw [hK6, hKW]; exact my_pwrite_forced _ _ _ _)
          e6bs hh), by simp [hbL], fun _ => rfl⟩
    by_cases herr : (block_pwrite kc file b h).1.isSome = true
    · have herr6 : (K6.block_root b).status.error = true := by rw [e6s, hS6]; exact herr
      obtain ⟨hun, wf7⟩ := unreg_request_wf_error K6 b h (L.erase b) true wf6 hh6 hreq6 hbok
        herr6 (by rw [e6s, hS6]; exact q1) (by rw [e6s, hS6]; exact q2)
      rewrite [hun] at hunf
      refine ⟨_, w, hunf, wf7, ?_, hpw, fun _ => ?_⟩
      on_goal 2 =>
        rw [hwe]
        intro hc
        rw [hc] at herr
        cases herr
      constructor
      · exact hcfg
      · exact e6u
      · intro x hx
        rw [set_block_root, if_neg hx, e6, if_neg hx]
        exact same_core_refl _
      · intro _ _; exact congrFun e6l _
      · intro hc; cases hc
      · intro _
        rw [set_block_root, if_pos rfl, e6b]
        exact ⟨rfl, rfl, rfl, rfl, (fun hc => by rw [hS6] at hc; cases hc),
          (fun hc => by cases hc)⟩
      · exact ⟨e6f, e6n⟩
      · exact hlog6
      · exact fun aux => unreg_request_aux_wf K6 _ b true _ wf6 (aux6 aux) hun
    · have herr6 : (K6.block_root b).status.error = false := by
        rw [e6s, hS6]; simpa using herr
      obtain ⟨br, ring, ins, ww, hun, hperm, hcore, wf7⟩ := unreg_request_wf K6 b h (L.erase b)
        true wf6 hh6 hreq6 hbok herr6 (by rw [e6s, hS6]; exact q1) (by rw [e6s, hS6]; exact q2)
      rewrite [hun] at hunf
      refine ⟨_, w, hunf, wf7, ?_, hpw, fun hc => ?_⟩
      on_goal 2 =>
        exfalso
        have hcb2 := hcore b
        rw [if_pos rfl, e6b] at hcb2
        have h1 : (br b).status = S6 := hcb2.2.2.2.2.1
        have hc' : (br b).status.error = true := hc
        rw [h1, hS6] at hc'
        exact herr hc'
      have hcb := hcore b
      rw [if_pos rfl, e6b] at hcb
      constructor
      · exact hcfg
      · exact e6u
      · intro x hx
        have := hcore x
        rwa [if_neg hx, e6, if_neg hx] at this
      · intro _ _; exact congrFun e6l _
      · intro hc; cases hc
      · intro _
        refine ⟨hcb.1, hcb.2.1, hcb.2.2.1, hcb.2.2.2.1, fun hc => ?_, (fun hc => by cases hc)⟩
        have : (br b).status = S6 := hcb.2.2.2.2.1
        have hc' : (br b).status.changed = true := hc
        rw [this, hS6] at hc'
        cases hc'
      · exact ⟨e6f, e6n⟩
      · exact hlog6
      · exact fun aux => unreg_request_aux_wf K6 _ b true _ wf6 (aux6 aux) hun
  · rewrite [if_pos ht] at hunf
    have hdec : decide (¬ (type = FLUSH_KEEP ∨ type = FLUSH_FORCE_WRITE)) = true := by
      simp [ht]
    rw [hdec]
    obtain ⟨br, ring, ins, t, ww, hfree, hperm, hok, hcore, hb1, hb2, hb3, -⟩ :=
      free_block_spec K6 b h (L.erase b) wf6 hh6 hreq6 (by rw [e6s, hS6]; exact o4)
    have wf7 := freed_state_wf K6 b h (L.erase b) br ring ins t ww wf6 hh6 hreq6 hperm hok hcore
      hb1 hb2 hb3
    rewrite [hfree] at hunf
    refine ⟨_, w, hunf, wf7, ?_, hpw, fun hc => ?_⟩
    on_goal 2 =>
      exfalso
      have h1 := wf7.stat.free b hb1
      have hc' : ({} : STATUS).error = true := by rw [← h1]; exact hc
      cases hc'
    constructor
    · exact hcfg
    · exact e6u
    · intro x hx
      have := hcore x hx
      rwa [e6, if_neg hx] at this
    · intro x hx
      have hxh : x ≠ h := by
        intro hc; rw [hc] at hx; exact hx rfl hh
      show Function.update K6.hash_link_root h _ x = _
      rw [Function.update_noteq hxh, e6l]
    · intro _; exact hb1
    · intro hc; cases hc
    · constructor
      · show b :: K6.free_block_list = _
        rw [e6f]; rfl
      · show K6.blocks_unused + 1 = _
        rw [e6n]; rfl
    · exact hlog6
    · exact fun aux => free_block_aux_wf K6 _ b _ wf6 (aux6 aux) hfree

/-- The order of the write burst does not matter for well-formedness. -/
theorem WF.perm_fl {kc : KEY_CACHE} {pin : Option Nat} {fl fl' : List Nat}
    (wf : WF kc pin fl) (hp : fl.Perm fl') : WF kc pin fl' := by
  have hm : ∀ x, x ∈ fl' ↔ x ∈ fl := fun x => hp.symm.mem_iff
  refine ⟨wf.cnt, ?_, ?_, ?_, wf.chain, wf.hash⟩
  · constructor
    · exact wf.ring.ok
    · intro x; rw [hm]; exact wf.ring.iff x
    · intro x hx; rw [hm]; exact wf.ring.pin_used x hx
    · intro x hx; exact wf.ring.fl_used x ((hm x).1 hx)
    · exact hp.nodup_iff.1 wf.ring.fl_nodup
  · constructor
    · intro x hx hpin
      obtain ⟨a1, a2, a3, a4, a5, a6, a7, a8⟩ := wf.stat.used x hx hpin
      exact ⟨a1, a2, a3, a4, a5, a6, by rw [hm]; exact a7, a8⟩
    · exact wf.stat.quiet
    · intro x hx; exact wf.stat.flushing x ((hm x).1 hx)
    · exact wf.stat.free
  · constructor
    · intro x hpin hx; exact wf.req.block_free x hpin (fun hc => hx ((hm x).2 hc))
    · intro x hx
      rcases hx with hx | hx
      · exact wf.req.block_held x (Or.inl hx)
      · exact wf.req.block_held x (Or.inr ((hm x).1 hx))
    · exact wf.req.link_free

theorem flush_errno_ne_zero (e : Int) (err : Option Int) :
    flush_errno e err ≠ 0 ↔ (e ≠ 0 ∨ err ≠ none) := by
  unfold flush_errno
  cases err with
  | none => simp
  | some c =>
    by_cases he : e = 0
    · by_cases hc : c = 0
      · simp [he, hc]
      · simp [he, hc]
    · simp [he]

/-- A step that writes the block it makes clean keeps the cover. -/
theorem COVER.step_cover {kc0 kc kc' : KEY_CACHE} {f b : Nat} {P Pd : List Nat} {freed : Bool}
    {Wd : List PWRITE_CALL} (c : COVER kc0 kc f P) (s : STEP kc kc' b freed Wd)
    (hb : b ∈ P ++ Pd ∨ ((kc.block_root b).status.changed = true →
      (kc'.block_root b).status.changed = true)) :
    COVER kc0 kc' f (P ++ Pd) := by
  intro x hx
  by_cases hxb : x = b
  · subst hxb
    rcases hb with hb | hb
    · exact Or.inl hb
    · rcases c x hx with h1 | h1
      · exact Or.inl (List.mem_append_left _ h1)
      · exact Or.inr (hb h1)
  · rcases c x hx with h1 | h1
    · exact Or.inl (List.mem_append_left _ h1)
    · right
      rw [(s.others x hxb).2.2.2.2.1]; exact h1

/-- The pinned block joins the write burst. -/
theorem WF.to_burst {kc : KEY_CACHE} {b h : Nat} {fl : List Nat} (wf : WF kc (some b) fl)
    (hh : (kc.block_root b).hash_link = some h)
    (hreqh : (kc.hash_link_root h).requests = 0)
    (hbok : block_ok kc (fl ++ [b]) b)
    (hread : (kc.block_root b).status.read = true)
    (hupd : (kc.block_root b).status.for_update = false)
    (hch : (kc.block_root b).status.changed = true)
    (herr : (kc.block_root b).status.error = false) :
    WF kc none (fl ++ [b]) := by
  have hbfl : b ∉ fl := (wf.ring.pin_used b rfl).2
  have hm : ∀ x, x ∈ fl ++ [b] ↔ x ∈ fl ∨ x = b := by
    intro x; simp
  have hpn : ∀ x, x ≠ b → some b ≠ some x := fun x hx hc => hx (Option.some.inj hc).symm
  refine ⟨wf.cnt, ?_, ?_, ?_, wf.chain, wf.hash⟩
  · constructor
    · exact wf.ring.ok
    · intro x
      rw [wf.ring.iff x, hm]
      constructor
      · rintro ⟨a1, a2, a3, a4⟩
        refine ⟨a1, by simp, ?_, a4⟩
        rintro (hc | hc)
        · exact a3 hc
        · exact a2 (by rw [hc])
      · rintro ⟨a1, -, a3, a4⟩
        exact ⟨a1, fun hc => a3 (Or.inr (Option.some.inj hc).symm), fun hc => a3 (Or.inl hc), a4⟩
    · intro x hx; cases hx
    · intro x hx
      rcases (hm x).1 hx with hx | hx
      · exact wf.ring.fl_used x hx
      · rw [hx, hh]; simp
    · exact List.Nodup.append wf.ring.fl_nodup (List.nodup_singleton b)
        (by
          intro x hx1 hx2
          rw [List.mem_singleton.1 hx2] at hx1
          exact hbfl hx1)
  · constructor
    · intro x hx _
      by_cases hxb : x = b
      · rw [hxb]; exact hbok
      · obtain ⟨a1, a2, a3, a4, a5, a6, a7, a8⟩ := wf.stat.used x hx (hpn x hxb)
        refine ⟨a1, a2, a3, a4, a5, a6, ?_, a8⟩
        rw [a7, hm]
        simp [hxb]
    · intro x hx _
      by_cases hxb : x = b
      · rw [hxb]; exact ⟨hread, hupd⟩
      · exact wf.stat.quiet x hx (hpn x hxb)
    · intro x hx
      rcases (hm x).1 hx with hx | hx
      · exact wf.stat.flushing x hx
      · rw [hx]; exact ⟨hch, herr⟩
    · exact wf.stat.free
  · constructor
    · intro x _ hx
      have hx' : x ∉ fl ∧ x ≠ b := by
        constructor
        · exact fun hc => hx ((hm x).2 (Or.inl hc))
        · exact fun hc => hx ((hm x).2 (Or.inr hc))
      exact wf.req.block_free x (hpn x hx'.2) hx'.1
    · intro x hx
      rcases hx with hx | hx
      · cases hx
      · rcases (hm x).1 hx with hx | hx
        · exact wf.req.block_held x (Or.inr hx)
        · rw [hx]; exact wf.req.block_held b (Or.inl rfl)
    · intro x _
      by_cases hx : x = h
      · rw [hx]; exact hreqh
      · apply wf.req.link_free x
        intro y hy hyx
        have : y = b := (Option.some.inj hy).symm
        subst this
        rw [hh] at hyx
        exact hx (Option.some.inj hyx).symm

theorem pinned_state_root (kc : KEY_CACHE) (b : Nat) (ins : Option Nat) (x : Nat) :
    (pinned_state kc b ins).block_root x =
      if x = b then { kc.block_root b with requests := 1 } else kc.block_root x := by
  simp only [pinned_state, set_block, Function.update_apply]

/-- A dirty block in the LRU ring. -/
theorem dirty_in_ring {kc : KEY_CACHE} {b h : Nat} {fl : List Nat} (wf : WF kc none fl)
    (hh : (kc.block_root b).hash_link = some h)
    (hch : (kc.block_root b).status.changed = true)
    (hfl : (kc.block_root b).status.in_flush = false) : b ∈ kc.used_ring := by
  have hne : (kc.block_root b).hash_link ≠ none := by rw [hh]; simp
  obtain ⟨o1, o2, o3, o4, o5, o6, o7, o8⟩ := wf.stat.used b hne (by simp)
  refine (wf.ring.iff b).2 ⟨hne, by simp, ?_, ?_⟩
  · intro hc
    rw [o7.2 hc] at hfl; cases hfl
  · cases he : (kc.block_root b).status.error with
    | false => rfl
    | true => rw [o8 he] at hch; cases hch

/-- The scan of a flush takes a dirty block into the write burst. -/
theorem collect_step (kc : KEY_CACHE) (b h : Nat) (fl : List Nat) (wf : WF kc none fl)
    (hh : (kc.block_root b).hash_link = some h)
    (hch : (kc.block_root b).status.changed = true)
    (hfl : (kc.block_root b).status.in_flush = false) :
    ∃ ins, reg_requests kc b 1 = some (pinned_state kc b ins) ∧
      WF (set_status (pinned_state kc b ins) b
        { ((pinned_state kc b ins).block_root b).status with in_flush := true }) none
        (fl ++ [b]) ∧
      STEP kc (set_status (pinned_state kc b ins) b
        { ((pinned_state kc b ins).block_root b).status with in_flush := true }) b false [] := by
  have hne : (kc.block_root b).hash_link ≠ none := by rw [hh]; simp
  obtain ⟨o1, o2, o3, o4, o5, o6, o7, o8⟩ := wf.stat.used b hne (by simp)
  obtain ⟨q1, q2⟩ := wf.stat.quiet b hne (by simp)
  have hreqh : (kc.hash_link_root h).requests = 0 := wf.req.link_free h (fun y hy => by cases hy)
  have herr : (kc.block_root b).status.error = false := by
    cases he : (kc.block_root b).status.error with
    | false => rfl
    | true => rw [o8 he] at hch; cases hch
  obtain ⟨ins, hreg, wf1⟩ := reg_requests_wf kc b fl wf (dirty_in_ring wf hh hch hfl)
  refine ⟨ins, hreg, ?_, ?_⟩
  · obtain ⟨K1, hK1⟩ : ∃ K1, K1 = pinned_state kc b ins := ⟨_, rfl⟩
    rw [← hK1] at wf1 ⊢
    have e1b : K1.block_root b = { kc.block_root b with requests := 1 } := by
      rw [hK1, pinned_state_root, if_pos rfl]
    have wf2 := wf1.set_pinned { K1.block_root b with
      status := { (K1.block_root b).status with in_flush := true } } rfl rfl rfl
    have e2b : (set_block K1 b { K1.block_root b with
        status := { (K1.block_root b).status with in_flush := true } }).block_root b =
        { K1.block_root b with status := { (K1.block_root b).status with in_flush := true } } := by
      rw [set_block_root, if_pos rfl]
    refine wf2.to_burst (h := h) ?_ ?_ ?_ ?_ ?_ ?_ ?_
    · rw [e2b, e1b]; exact hh
    · rw [hK1]; exact hreqh
    · unfold block_ok
      rw [e2b, e1b]
      refine ⟨o1, o2, o3, o4, o5, ?_, by simp, fun hc => ?_⟩
      · rw [hK1]; exact o6
      · rw [herr] at hc; cases hc
    · rw [e2b, e1b]; exact q1
    · rw [e2b, e1b]; exact q2
    · rw [e2b, e1b]; exact hch
    · rw [e2b, e1b]; exact herr
  · constructor
    · exact ⟨rfl, rfl, rfl, rfl, rfl, rfl, rfl, rfl, rfl, rfl, rfl⟩
    · rfl
    · intro x hx
      rw [set_status, set_block_root, if_neg hx, pinned_state_root, if_neg hx]
      exact same_core_refl _
    · intro _ _; rfl
    · intro hc; cases hc
    · intro _
      rw [set_status, set_block_root, if_pos rfl, pinned_state_root, if_pos rfl]
      exact ⟨rfl, rfl, rfl, rfl, fun _ => ⟨hch, rfl⟩, fun _ => ⟨rfl, rfl⟩⟩
    · exact ⟨rfl, rfl⟩
    · exact (List.append_nil _).symm
    · exact fun aux => set_status_aux _ b _ (pinned_state_aux kc b ins aux) (fun hc => hc)

/-- A request on a block of the LRU ring that is given back at once. -/
theorem touch_step (kc : KEY_CACHE) (b h : Nat) (fl : List Nat) (at_end : Bool)
    (wf : WF kc none fl) (hh : (kc.block_root b).hash_link = some h)
    (hb : b ∈ kc.used_ring) :
    ∃ kc1 kc2, reg_requests kc b 1 = some kc1 ∧ unreg_request kc1 b at_end = some kc2 ∧
      WF kc2 none fl ∧ STEP kc kc2 b false [] := by
  have hne : (kc.block_root b).hash_link ≠ none := by rw [hh]; simp
  obtain ⟨o1, o2, o3, o4, o5, o6, o7, o8⟩ := wf.stat.used b hne (by simp)
  obtain ⟨q1, q2⟩ := wf.stat.quiet b hne (by simp)
  obtain ⟨-, -, r3, r4⟩ := (wf.ring.iff b).1 hb
  have hreqh : (kc.hash_link_root h).requests = 0 := wf.req.link_free h (fun y hy => by cases hy)
  obtain ⟨ins, hreg, wf1⟩ := reg_requests_wf kc b fl wf hb
  obtain ⟨K1, hK1⟩ : ∃ K1, K1 = pinned_state kc b ins := ⟨_, rfl⟩
  rw [← hK1] at wf1 hreg
  have e1 : ∀ x, K1.block_root x =
      if x = b then { kc.block_root b with requests := 1 } else kc.block_root x := by
    intro x; rw [hK1]; exact pinned_state_root kc b ins x
  have e1b : K1.block_root b = { kc.block_root b with requests := 1 } := by
    rw [e1, if_pos rfl]
  obtain ⟨br, ring, ins2, w, hun, hperm, hcore, wf2⟩ := unreg_request_wf K1 b h fl at_end wf1
    (by rw [e1b]; exact hh) (by rw [hK1]; exact hreqh)
    (by
      unfold block_ok
      rw [e1b]
      exact ⟨o1, o2, o3, o4, o5, by rw [hK1]; exact o6, o7, o8⟩)
    (by rw [e1b]; exact r4) (by rw [e1b]; exact q1) (by rw [e1b]; exact q2)
  refine ⟨K1, _, hreg, hun, wf2, ?_⟩
  have hcb := hcore b
  rw [if_pos rfl, e1b] at hcb
  constructor
  · rw [hK1]; exact ⟨rfl, rfl, rfl, rfl, rfl, rfl, rfl, rfl, rfl, rfl, rfl⟩
  · rw [hK1]; rfl
  · intro x hx
    have := hcore x
    rwa [if_neg hx, e1, if_neg hx] at this
  · intro _ _; rw [hK1]; rfl
  · intro hc; cases hc
  · intro _
    refine ⟨hcb.1, hcb.2.1, hcb.2.2.1, hcb.2.2.2.1, fun hc => ⟨?_, rfl⟩, fun _ => ?_⟩
    · have : (br b).status = (kc.block_root b).status := hcb.2.2.2.2.1
      have hc' : (br b).status.changed = true := hc
      rw [this] at hc'; exact hc'
    · have : (br b).status = (kc.block_root b).status := hcb.2.2.2.2.1
      show (br b).status.error = _ ∧ (br b).status.changed = _
      rw [this]
      exact ⟨rfl, rfl⟩
  · rw [hK1]; exact ⟨rfl, rfl⟩
  · rw [hK1]; exact (List.append_nil _).symm
  · exact fun aux => unreg_request_aux_wf K1 _ b at_end fl wf1
      (by rw [hK1]; exact pinned_state_aux kc b ins aux) hun

/-- A block of the LRU ring is given back to the pool, after it has been moved
to the clean chain of its file if `clean` is set. -/
theorem free_step (kc : KEY_CACHE) (b h : Nat) (fl : List Nat) (clean : Bool)
    (wf : WF kc none fl) (hh : (kc.block_root b).hash_link = some h)
    (hb : b ∈ kc.used_ring) :
    ∃ kc1 kc2, reg_requests kc b 1 = some kc1 ∧
      (kc1.block_root b).hash_link = some h ∧
      (kc1.block_root b).status = (kc.block_root b).status ∧
      kc1.hash_link_root = kc.hash_link_root ∧
      free_block (if clean then link_to_file_list kc1 b (kc.hash_link_root h).file true
        else kc1) b = some kc2 ∧
      WF kc2 none fl ∧ STEP kc kc2 b true [] := by
  have hne : (kc.block_root b).hash_link ≠ none := by rw [hh]; simp
  obtain ⟨o1, o2, o3, o4, o5, o6, o7, o8⟩ := wf.stat.used b hne (by simp)
  have hreqh : (kc.hash_link_root h).requests = 0 := wf.req.link_free h (fun y hy => by cases hy)
  obtain ⟨ins, hreg, wf1⟩ := reg_requests_wf kc b fl wf hb
  obtain ⟨K1, hK1⟩ : ∃ K1, K1 = pinned_state kc b ins := ⟨_, rfl⟩
  rw [← hK1] at wf1 hreg
  have e1 : ∀ x, K1.block_root x =
      if x = b then { kc.block_root b with requests := 1 } else kc.block_root x := by
    intro x; rw [hK1]; exact pinned_state_root kc b ins x
  have e1b : K1.block_root b = { kc.block_root b with requests := 1 } := by
    rw [e1, if_pos rfl]
  have e1l : K1.hash_link_root = kc.hash_link_root := by rw [hK1]; rfl
  have hh1 : (K1.block_root b).hash_link = some h := by rw [e1b]; exact hh
  obtain ⟨K2, hK2⟩ : ∃ K2, K2 =
      (if clean then link_to_file_list K1 b (kc.hash_link_root h).file true else K1) :=
    ⟨_, rfl⟩
  have e2 : ∀ x, x ≠ b → K2.block_root x = kc.block_root x := by
    intro x hx
    rw [hK2]
    cases clean with
    | true =>
      rw [if_pos rfl, link_to_file_list_eq]
      simp only [cleaned_state, Function.update_noteq hx]
      rw [e1, if_neg hx]
    | false =>
      show K1.block_root x = _
      rw [e1, if_neg hx]
  have e2h : (K2.block_root b).hash_link = some h := by
    rw [hK2]
    cases clean with
    | true =>
      rw [if_pos rfl, link_to_file_list_eq]
      simp only [cleaned_state, Function.update_same]
      exact hh1
    | false => exact hh1
  have e2s : (K2.block_root b).status.in_eviction = false := by
    rw [hK2]
    cases clean with
    | true =>
      rw [if_pos rfl, link_to_file_list_eq]
      simp only [cleaned_state, Function.update_same]
      rw [e1b]; exact o4
    | false =>
      show (K1.block_root b).status.in_eviction = false
      rw [e1b]; exact o4
  have wf2 : WF K2 (some b) fl := by
    rw [hK2]
    cases clean with
    | true =>
      rw [if_pos rfl, link_to_file_list_eq, ← e1l]
      exact cleaned_state_wf K1 b h fl wf1 hh1
    | false => exact wf1
  have e2l : K2.hash_link_root = kc.hash_link_root := by
    rw [hK2]
    cases clean with
    | true => rw [if_pos rfl, link_to_file_list_eq]; exact e1l
    | false => exact e1l
  have e2c : same_config kc K2 ∧ K2.blocks_used = kc.blocks_used ∧
      K2.free_block_list = kc.free_block_list ∧ K2.blocks_unused = kc.blocks_unused ∧
      K2.disk = kc.disk := by
    rw [hK2]
    cases clean with
    | true =>
      rw [if_pos rfl, link_to_file_list_eq, hK1]
      exact ⟨⟨rfl, rfl, rfl, rfl, rfl, rfl, rfl, rfl, rfl, rfl, rfl⟩, rfl, rfl, rfl, rfl⟩
    | false =>
      rw [hK1]
      exact ⟨⟨rfl, rfl, rfl, rfl, rfl, rfl, rfl, rfl, rfl, rfl, rfl⟩, rfl, rfl, rfl, rfl⟩
  obtain ⟨c1, c2, c3, c4, c5⟩ := e2c
  obtain ⟨br, ring, ins2, t, ww, hfree, hperm, hok, hcore, hb1, hb2, hb3, -⟩ :=
    free_block_spec K2 b h fl wf2 e2h (by rw [e2l]; exact hreqh) e2s
  have wf3 := freed_state_wf K2 b h fl br ring ins2 t ww wf2 e2h (by rw [e2l]; exact hreqh)
    hperm hok hcore hb1 hb2 hb3
  refine ⟨K1, _, hreg, hh1, by rw [e1b], e1l, by rw [← hK2]; exact hfree, wf3, ?_⟩
  constructor
  · exact c1
  · exact c2
  · intro x hx
    have := hcore x hx
    rwa [e2 x hx] at this
  · intro x hx
    have hxh : x ≠ h := by
      intro hc; rw [hc] at hx; exact hx rfl hh
    show Function.update K2.hash_link_root h _ x = _
    rw [Function.update_noteq hxh, e2l]
  · intro _; exact hb1
  · intro hc; cases hc
  · constructor
    · show b :: K2.free_block_list = _
      rw [c3]; rfl
    · show K2.blocks_unused + 1 = _
      rw [c4]; rfl
  · show K2.disk.pwrites = _
    rw [c5]; exact (List.append_nil _).symm
  · intro aux
    have aux1 : AUX K1 := by rw [hK1]; exact pinned_state_aux kc b ins aux
    have aux2 : AUX K2 := by
      rw [hK2]
      cases clean with
      | true => rw [if_pos rfl, link_to_file_list_eq]; exact cleaned_state_aux K1 b _ aux1
      | false => exact aux1
    exact free_block_aux_wf K2 _ b fl wf2 aux2 hfree

theorem flush_scan_skip (file : Nat) (type : flush_type) (count b h : Nat) (rest : List Nat)
    (kc : KEY_CACHE) (burst : List Nat) (lif lfu : Option Nat) (fis : List Nat) (e : Int)
    (n : Nat) (hh : (kc.block_root b).hash_link = some h)
    (hf : (kc.hash_link_root h).file ≠ file) :
    flush_scan file type count (b :: rest) kc burst lif lfu fis e n =
      flush_scan file type count rest kc burst lif lfu fis e n := by
  rw [flush_scan]
  rewrite [hh]
  dsimp only []
  rewrite [if_neg hf]
  rfl

theorem flush_scan_collect (file : Nat) (type : flush_type) (count b h : Nat) (rest : List Nat)
    (kc k1 : KEY_CACHE) (burst : List Nat) (lif lfu : Option Nat) (fis : List Nat) (e : Int)
    (n : Nat) (hh : (kc.block_root b).hash_link = some h)
    (hf : (kc.hash_link_root h).file = file)
    (h1 : (kc.block_root b).status.in_flush = false)
    (h2 : (kc.block_root b).status.for_update = false)
    (h3 : (kc.block_root b).status.in_switch = false)
    (hreg : reg_requests kc b 1 = some k1)
    (ht : type ≠ FLUSH_IGNORE_CHANGED) (hc : burst.length ≠ count) :
    flush_scan file type count (b :: rest) kc burst lif lfu fis e n =
      flush_scan file type count rest
        (set_status k1 b { (k1.block_root b).status with in_flush := true })
        (burst ++ [b]) lif lfu fis e n := by
  rw [flush_scan]
  rewrite [hh]
  dsimp only []
  rewrite [if_pos hf, if_pos ⟨h1, h2⟩, if_pos h3, hreg]
  dsimp only []
  rewrite [if_pos ht, if_neg hc]
  rfl
theorem flush_scan_full (file : Nat) (type : flush_type) (count b h : Nat) (rest : List Nat)
    (kc k1 k2 k3 : KEY_CACHE) (burst : List Nat) (lif lfu : Option Nat) (fis : List Nat)
    (e error : Int) (n : Nat) (hh : (kc.block_root b).hash_link = some h)
    (hf : (kc.hash_link_root h).file = file)
    (h1 : (kc.block_root b).status.in_flush = false)
    (h2 : (kc.block_root b).status.for_update = false)
    (h3 : (kc.block_root b).status.in_switch = false)
    (hreg : reg_requests kc b 1 = some k1)
    (ht : type ≠ FLUSH_IGNORE_CHANGED) (hc : burst.length = count)
    (hun : unreg_request k1 b false = some k2)
    (hfl : flush_cached_blocks k2 file burst type = some (error, k3)) :
    flush_scan file type count (b :: rest) kc burst lif lfu fis e n =
      if error ≠ 0 then
        if e = error then
          if n + 1 > 5 then some (.err k3 e)
          else some (.restart k3 error (n + 1) fis)
        else some (.restart k3 error n fis)
      else some (.restart k3 e n fis) := by
  rw [flush_scan]
  rewrite [hh]
  dsimp only []
  rewrite [if_pos hf, if_pos ⟨h1, h2⟩, if_pos h3, hreg]
  dsimp only []
  rewrite [if_pos ht, if_pos hc, hun]
  dsimp only []
  rewrite [hfl]
  rfl

theorem flush_scan_discard (file : Nat) (type : flush_type) (count b h : Nat) (rest : List Nat)
    (kc k1 k2 : KEY_CACHE) (burst : List Nat) (lif lfu : Option Nat) (fis : List Nat)
    (e : Int) (n : Nat) (hh : (kc.block_root b).hash_link = some h)
    (hf : (kc.hash_link_root h).file = file)
    (h1 : (kc.block_root b).status.in_flush = false)
    (h2 : (kc.block_root b).status.for_update = false)
    (h3 : (kc.block_root b).status.in_switch = false)
    (hreg : reg_requests kc b 1 = some k1)
    (ht : type = FLUSH_IGNORE_CHANGED)
    (h4 : ((link_to_file_list k1 b file true).block_root b).status.in_eviction = false)
    (h5 : ((link_to_file_list k1 b file true).block_root b).status.in_switch = false)
    (hfree : free_block (link_to_file_list k1 b file true) b = some k2) :
    flush_scan file type count (b :: rest) kc burst lif lfu fis e n =
      flush_scan file type count rest k2 burst lif lfu fis e n := by
  rw [flush_scan]
  rewrite [hh]
  dsimp only []
  rewrite [if_pos hf, if_pos ⟨h1, h2⟩, if_pos h3, hreg]
  dsimp only []
  rewrite [if_neg (by rw [ht]; simp), if_pos ⟨h4, h5⟩, hfree]
  rfl

/-- A step of a flush keeps the file free of `BLOCK_ERROR` if it gives the
block back or does not write. -/
theorem NOERR.step_noerr {kc kc' : KEY_CACHE} {f b : Nat} {freed : Bool} {Wd : List PWRITE_CALL}
    (n : NOERR kc f) (s : STEP kc kc' b freed Wd) (hi : HASH_INV kc)
    (hw : freed = true ∨ Wd = []) : NOERR kc' f := by
  rintro x ⟨h, hh, hf⟩
  by_cases hxb : x = b
  · subst hxb
    cases hfr : freed with
    | true => rw [s.gone hfr] at hh; cases hh
    | false =>
      have hWd : Wd = [] := by
        rcases hw with hw | hw
        · rw [hfr] at hw; cases hw
        · exact hw
      obtain ⟨s1, -, -, -, -, s6⟩ := s.stays hfr
      rw [(s6 hWd).1]
      apply n x
      refine ⟨h, by rw [← s1]; exact hh, ?_⟩
      rw [← s.links h (fun hc => by rw [hfr] at hc; cases hc)]; exact hf
  · have sc := s.others x hxb
    rw [sc.2.2.2.2.1]
    apply n x
    have hh' : (kc.block_root x).hash_link = some h := by rw [← sc.1]; exact hh
    refine ⟨h, hh', ?_⟩
    rw [← s.links h]
    · exact hf
    · intro _ hc
      have h1 := hi.back x h hh'
      have h2 := hi.back b h hc
      rw [h1] at h2
      exact hxb (Option.some.inj h2)

/-- A step of a flush keeps the file free of `BLOCK_ERROR` if it leaves the
block it works on without `BLOCK_ERROR`. -/
theorem NOERR.step_written {kc kc' : KEY_CACHE} {f b : Nat} {freed : Bool}
    {Wd : List PWRITE_CALL} (n : NOERR kc f) (s : STEP kc kc' b freed Wd) (hi : HASH_INV kc)
    (hb : (kc'.block_root b).status.error = false) : NOERR kc' f := by
  rintro x ⟨h, hh, hf⟩
  by_cases hxb : x = b
  · rw [hxb]; exact hb
  · have sc := s.others x hxb
    rw [sc.2.2.2.2.1]
    apply n x
    have hh' : (kc.block_root x).hash_link = some h := by rw [← sc.1]; exact hh
    refine ⟨h, hh', ?_⟩
    rw [← s.links h]
    · exact hf
    · intro _ hc
      have h1 := hi.back x h hh'
      have h2 := hi.back b h hc
      rw [h1] at h2
      exact hxb (Option.some.inj h2)

/-- One more step of a flush. -/
theorem FLUSHING.step_flushing {kc0 kc kc' : KEY_CACHE} {f b : Nat} {type : flush_type}
    {fl fl' P F Pd : List Nat} {W Wd : List PWRITE_CALL} {freed : Bool}
    (s : FLUSHING kc0 kc f type fl P F W) (st : STEP kc kc' b freed Wd)
    (wf' : WF kc' none fl') (hb0 : of_file kc0 f b)
    (hbu : (kc.block_root b).hash_link ≠ none)
    (hw : (Pd = [] ∧ Wd = []) ∨ (Pd = [b] ∧ ∃ w, Wd = [w] ∧ pwrite_of kc f b w ∧
      (kc.block_root b).status.changed = true))
    (hcov : type ≠ FLUSH_IGNORE_CHANGED → (b ∈ P ++ Pd ∨
      ((kc.block_root b).status.changed = true → (kc'.block_root b).status.changed = true)))
    (hne : (releasing type ∨ ∀ w, w ∈ W ++ Wd → w.error = none) → NOERR kc f → NOERR kc' f)
    (hfl : ∀ x, x ∈ fl' → x ∈ fl ∨ x = b)
    (hq : type = FLUSH_IGNORE_CHANGED → fl' = [] ∧ Pd = []) :
    FLUSHING kc0 kc' f type fl' (P ++ Pd) ((if freed then [b] else []) ++ F) (W ++ Wd) where
  wf := wf'
  rel := s.rel.step_rel st s.wf.hash hb0 hbu hw
  cover := fun ht => (s.cover ht).step_cover st (hcov ht)
  noerr := fun hr h0 =>
    hne hr (s.noerr (hr.imp id (fun h w hw => h w (List.mem_append_left _ hw))) h0)
  ign := fun ht => ⟨(hq ht).1, by rw [(s.ign ht).2, (hq ht).2]; rfl⟩
  fl_file := by
    intro x hx
    rcases hfl x hx with h1 | h1
    · exact s.fl_file x h1
    · rw [h1]; exact hb0
  aux := fun a => st.aux (s.aux a)

/-- A block of file `f` in the current state of a flush was a block of `f` at
its start. -/
theorem FLUSH_REL.of_file_back {kc0 kc : KEY_CACHE} {f : Nat} {P F : List Nat}
    {W : List PWRITE_CALL} (r : FLUSH_REL kc0 kc f P F W) {x : Nat}
    (hx : of_file kc f x) : of_file kc0 f x := by
  by_contra hc
  obtain ⟨h, hh, hf⟩ := hx
  have sc := r.frame x hc
  have hh0 : (kc0.block_root x).hash_link = some h := by rw [← sc.1]; exact hh
  exact hc ⟨h, hh0, by rw [← r.frame_links x h hc hh0]; exact hf⟩

/-- A block of file `f` at the start of a flush that is still in use is a block
of `f`. -/
theorem FLUSH_REL.of_file_now {kc0 kc : KEY_CACHE} {f : Nat} {P F : List Nat}
    {W : List PWRITE_CALL} (r : FLUSH_REL kc0 kc f P F W) {x : Nat}
    (hx : of_file kc0 f x) (hu : (kc.block_root x).hash_link ≠ none) : of_file kc f x := by
  obtain ⟨k1, k2, -⟩ := r.kept x hx hu
  obtain ⟨h, hh, hf⟩ := hx
  exact ⟨h, by rw [k1]; exact hh, by rw [k2 h hh]; exact hf⟩
/-- The loop of `flush_cached_blocks` writes every block of the burst once. -/
theorem flush_burst_loop_spec (file : Nat) (type : flush_type) (kc0 : KEY_CACHE) :
    ∀ (l : List Nat) (kc : KEY_CACHE) (e : Int) (P F : List Nat) (W : List PWRITE_CALL),
      FLUSHING kc0 kc file type l P F W →
      ∃ e' kc' F' Wd, flush_cached_blocks_loop file type l kc e = some (e', kc') ∧
        FLUSHING kc0 kc' file type [] (P ++ l) F' (W ++ Wd) ∧
        (e' ≠ 0 ↔ (e ≠ 0 ∨ ∃ w, w ∈ Wd ∧ w.error ≠ none)) := by
  intro l
  induction l with
  | nil =>
    intro kc e P F W s
    refine ⟨e, kc, F, [], rfl, ?_, ?_⟩
    · rw [List.append_nil, List.append_nil]; exact s
    · simp
  | cons b rest ih =>
    intro kc e P F W s
    have hb0 := s.fl_file b (List.mem_cons_self _ _)
    have hbu := s.wf.ring.fl_used b (List.mem_cons_self _ _)
    obtain ⟨k1, k2, -⟩ := s.rel.kept b hb0 hbu
    obtain ⟨h, hh0, hf0⟩ := hb0
    have hh : (kc.block_root b).hash_link = some h := by rw [k1]; exact hh0
    have hf : (kc.hash_link_root h).file = file := by rw [k2 h hh0]; exact hf0
    obtain ⟨kc1, w, hstep, wf1, s1, hpw, herrw⟩ :=
      flush_cached_block_step kc file b h type e (b :: rest) s.wf (List.mem_cons_self _ _) hh hf
    rw [List.erase_cons_head] at wf1
    have hch := (s.wf.stat.flushing b (List.mem_cons_self _ _)).1
    have hw : (([b] : List Nat) = [] ∧ [w] = []) ∨ ([b] = [b] ∧ ∃ w', [w] = [w'] ∧
        pwrite_of kc file b w' ∧ (kc.block_root b).status.changed = true) :=
      Or.inr ⟨rfl, w, rfl, hpw, hch⟩
    have s2 := s.step_flushing s1 wf1 ⟨h, hh0, hf0⟩ hbu hw
      (fun _ => Or.inl (List.mem_append_right _ (List.mem_singleton_self b)))
      (fun hr n => by
        rcases hr with hr | hr
        · exact n.step_noerr s1 s.wf.hash (Or.inl (by simpa [releasing] using hr))
        · refine n.step_written s1 s.wf.hash ?_
          cases hc : (kc1.block_root b).status.error with
          | false => rfl
          | true =>
            exact absurd (hr w (List.mem_append_right _ (List.mem_singleton_self w)))
              (herrw hc))
      (fun x hx => Or.inl (List.mem_cons_of_mem _ hx))
      (fun ht => absurd (s.ign ht).1 (List.cons_ne_nil _ _))
    obtain ⟨e', kc', F', Wd, hloop, s', he'⟩ :=
      ih kc1 (flush_errno e w.error) (P ++ [b]) _ (W ++ [w]) s2
    refine ⟨e', kc', F', w :: Wd, ?_, ?_, ?_⟩
    · rw [flush_cached_blocks_loop]
      rewrite [hstep]
      exact hloop
    · have e1 : P ++ b :: rest = P ++ [b] ++ rest := by simp
      have e2 : W ++ w :: Wd = W ++ [w] ++ Wd := by simp
      rw [e1, e2]; exact s'
    · rw [he', flush_errno_ne_zero]
      constructor
      · rintro (⟨h1 | h1⟩ | ⟨w', hw1, hw2⟩)
        · exact Or.inl h1
        · exact Or.inr ⟨w, List.mem_cons_self _ _, h1⟩
        · exact Or.inr ⟨w', List.mem_cons_of_mem _ hw1, hw2⟩
      · rintro (h1 | ⟨w', hw1, hw2⟩)
        · exact Or.inl (Or.inl h1)
        · rcases List.mem_cons.1 hw1 with h2 | h2
          · rw [h2] at hw2; exact Or.inl (Or.inr hw2)
          · exact Or.inr ⟨w', h2, hw2⟩

/-- A burst goes through `flush_cached_blocks`. -/
theorem flush_burst_spec (file : Nat) (type : flush_type) (kc0 kc : KEY_CACHE)
    (burst P F : List Nat) (W : List PWRITE_CALL)
    (s : FLUSHING kc0 kc file type burst P F W) :
    ∃ e' kc' P' F' Wd, flush_cached_blocks kc file burst type = some (e', kc') ∧
      FLUSHING kc0 kc' file type [] (P ++ P') F' (W ++ Wd) ∧ P'.Perm burst ∧
      (e' ≠ 0 ↔ ∃ w, w ∈ Wd ∧ w.error ≠ none) := by
  have hp := List.perm_insertionSort (fun a b => block_diskpos kc a ≤ block_diskpos kc b) burst
  have s0 : FLUSHING kc0 kc file type
      (List.insertionSort (fun a b => block_diskpos kc a ≤ block_diskpos kc b) burst) P F W :=
    ⟨s.wf.perm_fl hp.symm, s.rel, s.cover, s.noerr,
      (fun ht => ⟨by rw [(s.ign ht).1]; rfl, (s.ign ht).2⟩),
      (fun x hx => s.fl_file x (hp.mem_iff.1 hx)), s.aux⟩
  obtain ⟨e', kc', F', Wd, h1, h2, h5⟩ := flush_burst_loop_spec file type kc0 _ kc 0 P F W s0
  refine ⟨e', kc', _, F', Wd, h1, h2, hp, ?_⟩
  rw [h5]; simp

/-! ## Initialisation -/

theorem testBit_top (v k : Nat) (h1 : 2 ^ k ≤ v) (h2 : v < 2 ^ (k + 1)) :
    v.testBit k = true := by
  rw [Nat.testBit_to_div_mod]
  have h3 : v / 2 ^ k = 1 := by
    apply Nat.div_eq_of_lt_le
    · simpa using h1
    · rw [pow_succ] at h2; omega
  simp [h3]

theorem land_pred_cases (v k : Nat) (h1 : 2 ^ k ≤ v) (h2 : v < 2 ^ (k + 1)) :
    (Nat.land v (v - 1) = 0 ∧ v = 2 ^ k) ∨
    (2 ^ k ≤ Nat.land v (v - 1) ∧ Nat.land v (v - 1) < v) := by
  have hpos : 0 < 2 ^ k := Nat.pos_pow_of_pos k (by decide : 0 < 2)
  by_cases he : v = 2 ^ k
  · left
    refine ⟨?_, he⟩
    show v &&& (v - 1) = 0
    subst he
    rw [Nat.and_pow_two_sub_one_eq_mod]
    exact Nat.mod_self _
  · right
    have hlt : 2 ^ k ≤ v - 1 := by omega
    have hb1 : v.testBit k = true := testBit_top v k h1 h2
    have hb2 : (v - 1).testBit k = true := testBit_top (v - 1) k hlt (by omega)
    have hb : (v &&& (v - 1)).testBit k = true := by
      rw [Nat.testBit_and, hb1, hb2]; rfl
    have hge : 2 ^ k ≤ v &&& (v - 1) := Nat.testBit_implies_ge hb
    have hle : v &&& (v - 1) ≤ v - 1 := Nat.and_le_right
    exact ⟨hge, by show v &&& (v - 1) < v; omega⟩

theorem next_power_loop_spec (k : Nat) : ∀ (fuel v old : Nat), v ≤ fuel → 2 ^ k ≤ v →
    v < 2 ^ (k + 1) → next_power_loop fuel v old = 2 ^ k := by
  intro fuel
  induction fuel with
  | zero =>
    intro v old hf h1 _
    have hpos : 0 < 2 ^ k := Nat.pos_pow_of_pos k (by decide : 0 < 2)
    omega
  | succ n ih =>
    intro v old hf h1 h2
    have hpos : 0 < 2 ^ k := Nat.pos_pow_of_pos k (by decide : 0 < 2)
    have hv : v ≠ 0 := by omega
    rw [next_power_loop, if_neg hv]
    rcases land_pred_cases v k h1 h2 with ⟨h0, he⟩ | ⟨hge, hlt⟩
    · rw [h0]
      cases n with
      | zero => rw [next_power_loop]; exact he
      | succ m => rw [next_power_loop, if_pos rfl]; exact he
    · exact ih _ _ (by omega) hge (by omega)

theorem next_power_eq (v : Nat) (hv : v ≠ 0) (hs : v < 2147483648) :
    next_power v = 2 ^ (v.log2 + 1) := by
  have h1 : 2 ^ v.log2 ≤ v := Nat.log2_self_le hv
  have h2 : v < 2 ^ (v.log2 + 1) := Nat.lt_log2_self
  rw [next_power, next_power_loop_spec v.log2 v v 1 (le_refl _) h1 h2, ← pow_succ]
  apply Nat.mod_eq_of_lt
  have hk : v.log2 < 31 := (Nat.log2_lt hv).2 (by simpa using hs)
  calc 2 ^ (v.log2 + 1) ≤ 2 ^ 31 := Nat.pow_le_pow_right (by decide) (by omega)
    _ < 4294967296 := by norm_num

theorem init_hash_entries_spec (b : Nat) (h4 : 4 ≤ b) (hs : b < 1073741824) :
    smallest_power_of_two_ge (init_hash_entries b) (b * 5 / 4) := by
  have hb : b ≠ 0 := by omega
  have h1 : 2 ^ b.log2 ≤ b := Nat.log2_self_le hb
  have h2 : b < 2 ^ (b.log2 + 1) := Nat.lt_log2_self
  have hmod : b % 4294967296 = b := Nat.mod_eq_of_lt (by omega)
  have hnp : next_power b = 2 ^ (b.log2 + 1) := next_power_eq b hb (by omega)
  have hk : b.log2 < 30 := (Nat.log2_lt hb).2 (by simpa using hs)
  have hp2 : 2 ^ (b.log2 + 1) = 2 * 2 ^ b.log2 := by rw [pow_succ]; ring
  have hp3 : 2 ^ (b.log2 + 2) = 4 * 2 ^ b.log2 := by rw [pow_succ, pow_succ]; ring
  have hmin : ∀ k, b * 5 / 4 ≤ 2 ^ k → 2 ^ (b.log2 + 1) ≤ 2 ^ k := by
    intro k hk2
    apply Nat.pow_le_pow_right (by decide)
    by_contra hc
    have : 2 ^ k ≤ 2 ^ b.log2 := Nat.pow_le_pow_right (by decide) (by omega)
    omega
  unfold init_hash_entries
  rw [hmod, hnp]
  by_cases hc : 2 ^ (b.log2 + 1) < b * 5 / 4
  · rw [if_pos hc]
    have h30 : 2 ^ (b.log2 + 2) ≤ 2 ^ 31 := Nat.pow_le_pow_right (by decide) (by omega)
    have hm2 : 2 ^ (b.log2 + 1) * 2 % 4294967296 = 2 ^ (b.log2 + 2) := by
      rw [← pow_succ]
      exact Nat.mod_eq_of_lt (by norm_num at h30 ⊢; omega)
    rw [hm2]
    refine ⟨⟨_, rfl⟩, by omega, ?_⟩
    intro k hk2
    apply Nat.pow_le_pow_right (by decide)
    by_contra hc2
    have : 2 ^ k ≤ 2 ^ (b.log2 + 1) := Nat.pow_le_pow_right (by decide) (by omega)
    omega
  · rw [if_neg hc]
    exact ⟨⟨_, rfl⟩, by omega, hmin⟩

theorem init_fit_spec (p : PLATFORM) (bs um hl he : Nat) :
    ∀ (fuel b B len : Nat), init_fit p bs um hl he fuel b = some (B, len) →
      B ≤ b ∧ len = init_length p B hl he ∧ len + B * bs ≤ um ∧
      (init_length p b hl he + b * bs ≤ um → B = b) := by
  intro fuel
  induction fuel with
  | zero => intro b B len h; rw [init_fit] at h; exact absurd h (by simp)
  | succ n ih =>
    intro b B len h
    rw [init_fit] at h
    by_cases hc : init_length p b hl he + b * bs > um
    · rw [if_pos hc] at h
      by_cases h0 : b = 0
      · rw [if_pos h0] at h; exact absurd h (by simp)
      · rw [if_neg h0] at h
        obtain ⟨h1, h2, h3, _⟩ := ih _ _ _ h
        exact ⟨by omega, h2, h3, fun hfit => by omega⟩
    · rw [if_neg hc] at h
      have hB : b = B := congrArg Prod.fst (Option.some.inj h)
      have hl2 : init_length p b hl he = len := congrArg Prod.snd (Option.some.inj h)
      subst hB
      exact ⟨le_refl _, hl2.symm, by omega, fun _ => rfl⟩

theorem init_alloc_spec (p : PLATFORM) (bs um : Nat) :
    ∀ (fuel round b B he hl : Nat) (ok : Bool), 6 ≤ b →
      init_alloc p bs um fuel round b = some (ok, B, he, hl) →
      ∃ b' len, 6 ≤ b' ∧ b' ≤ b ∧ he = init_hash_entries b' ∧ hl = 2 * b' ∧
        init_fit p bs um (2 * b') (init_hash_entries b') (b' + 1) b' = some (B, len) ∧
        (ok = false → B < 8) := by
  intro fuel
  induction fuel with
  | zero => intro round b B he hl ok _ h; rw [init_alloc] at h; exact absurd h (by simp)
  | succ n ih =>
    intro round b B he hl ok h6 h
    rw [init_alloc] at h
    cases hf : init_fit p bs um (2 * b) (init_hash_entries b) (b + 1) b with
    | none => rw [hf] at h; exact absurd h (by simp)
    | some r =>
      obtain ⟨B1, len1⟩ := r
      rw [hf, Option.some_bind] at h
      dsimp only [] at h
      have hB1 := (init_fit_spec p bs um _ _ _ _ _ _ hf).1
      by_cases hm : (p.my_large_malloc round (B1 * bs) && p.my_malloc round len1) = true
      · rw [if_pos hm] at h
        have e := Option.some.inj h
        have e1 : B1 = B := congrArg (fun x => x.2.1) e
        have e2 : init_hash_entries b = he := congrArg (fun x => x.2.2.1) e
        have e3 : 2 * b = hl := congrArg (fun x => x.2.2.2) e
        have e0 : true = ok := congrArg (fun x => x.1) e
        subst e1
        exact ⟨b, len1, h6, le_refl _, e2.symm, e3.symm, hf, fun h => by rw [← e0] at h; cases h⟩
      · rw [if_neg hm] at h
        by_cases h8 : B1 < 8
        · rw [if_pos h8] at h
          have e := Option.some.inj h
          have e1 : B1 = B := congrArg (fun x => x.2.1) e
          have e2 : init_hash_entries b = he := congrArg (fun x => x.2.2.1) e
          have e3 : 2 * b = hl := congrArg (fun x => x.2.2.2) e
          subst e1
          exact ⟨b, len1, h6, le_refl _, e2.symm, e3.symm, hf, fun _ => h8⟩
        · rw [if_neg h8] at h
          obtain ⟨b', len, h1, h2, h3⟩ := ih _ _ _ _ _ _ (by omega) h
          exact ⟨b', len, h1, by omega, h3⟩

theorem to_int_small (x : Nat) (h : x < 2147483648) : to_int x = (x : Int) := by
  unfold to_int
  rw [Nat.mod_eq_of_lt (by omega), if_pos h]

/-- What a run of `init_key_cache` that returns a positive count has done: it
was not refused, the estimate was at least 8, and the allocation loop obtained
memory for `B` blocks. -/
theorem init_key_cache_success (p : PLATFORM) (kc : KEY_CACHE) (bs um d a : Nat) (n : Int)
    (kc' : KEY_CACHE) (h : init_key_cache p kc bs um d a = some (n, kc')) (hn : 0 < n) :
    ∃ B he hl,
      init_alloc p bs um
        (um / (p.sizeof_BLOCK_LINK + 2 * p.sizeof_HASH_LINK + p.sizeof_pointer * 5 / 4 + bs) + 1)
        0 (um / (p.sizeof_BLOCK_LINK + 2 * p.sizeof_HASH_LINK + p.sizeof_pointer * 5 / 4 + bs))
        = some (true, B, he, hl) ∧
      8 ≤ um / (p.sizeof_BLOCK_LINK + 2 * p.sizeof_HASH_LINK + p.sizeof_pointer * 5 / 4 + bs) ∧
      n = to_int B ∧ kc' = init_tables (init_handle kc bs um) B he hl d a := by
  unfold init_key_cache at h
  by_cases h1 : kc.key_cache_inited = true ∧ kc.disk_blocks > 0
  · rw [if_pos h1] at h
    have e : (0 : Int) = n := congrArg Prod.fst (Option.some.inj h)
    omega
  · rw [if_neg h1] at h
    by_cases h2 : p.sizeof_BLOCK_LINK + 2 * p.sizeof_HASH_LINK + p.sizeof_pointer * 5 / 4 + bs = 0
    · rw [if_pos h2] at h; exact absurd h (by simp)
    · rw [if_neg h2] at h
      dsimp only [] at h
      by_cases h3 : um / (p.sizeof_BLOCK_LINK + 2 * p.sizeof_HASH_LINK +
          p.sizeof_pointer * 5 / 4 + bs) ≥ 8
      · rw [if_pos h3] at h
        cases hr : init_alloc p bs um
            (um / (p.sizeof_BLOCK_LINK + 2 * p.sizeof_HASH_LINK + p.sizeof_pointer * 5 / 4 + bs)
              + 1) 0
            (um / (p.sizeof_BLOCK_LINK + 2 * p.sizeof_HASH_LINK + p.sizeof_pointer * 5 / 4 + bs))
          with
        | none => rw [hr] at h; exact absurd h (by simp)
        | some r =>
          obtain ⟨ok, B, he, hl⟩ := r
          rw [hr, Option.map_some'] at h
          dsimp only [] at h
          cases ok with
          | false =>
            rw [if_neg (by simp)] at h
            have e : (0 : Int) = n := congrArg Prod.fst (Option.some.inj h)
            omega
          | true =>
            rw [if_pos rfl] at h
            have e := Option.some.inj h
            exact ⟨B, he, hl, rfl, h3, (congrArg Prod.fst e).symm, (congrArg Prod.snd e).symm⟩
      · rw [if_neg h3] at h
        have e : to_int 4294967295 = n := congrArg Prod.fst (Option.some.inj h)
        have : to_int 4294967295 = -1 := by decide
        omega

/-- A block other than the one a step works on is a dirty block of the file
after the step only if it was one before. -/
theorem STEP.dirty_back {kc kc' : KEY_CACHE} {f b x : Nat} {freed : Bool}
    {Wd : List PWRITE_CALL} (s : STEP kc kc' b freed Wd) (hi : HASH_INV kc) (hxb : x ≠ b)
    (hx : dirty_of kc' f x) : dirty_of kc f x := by
  obtain ⟨⟨h, hh, hf⟩, hc⟩ := hx
  have sc := s.others x hxb
  have hh' : (kc.block_root x).hash_link = some h := by rw [← sc.1]; exact hh
  refine ⟨⟨h, hh', ?_⟩, by rw [← sc.2.2.2.2.1]; exact hc⟩
  rw [← s.links h]
  · exact hf
  · intro _ hcc
    have h1 := hi.back x h hh'
    have h2 := hi.back b h hcc
    rw [h1] at h2
    exact hxb (Option.some.inj h2)

/-- A dirty block has a hash link. -/
theorem changed_has_link {kc : KEY_CACHE} {pin : Option Nat} {fl : List Nat} (wf : WF kc pin fl)
    {b : Nat} (hc : (kc.block_root b).status.changed = true) :
    ∃ h, (kc.block_root b).hash_link = some h := by
  cases hh : (kc.block_root b).hash_link with
  | some h => exact ⟨h, rfl⟩
  | none =>
    have := wf.stat.free b hh
    rw [this] at hc; cases hc
/-- A step of a flush that writes nothing. -/
theorem FLUSHING.step_quiet {kc0 kc kc' : KEY_CACHE} {f b : Nat} {type : flush_type}
    {fl fl' P F : List Nat} {W : List PWRITE_CALL} {freed : Bool}
    (s : FLUSHING kc0 kc f type fl P F W) (st : STEP kc kc' b freed [])
    (wf' : WF kc' none fl') (hb0 : of_file kc0 f b)
    (hbu : (kc.block_root b).hash_link ≠ none)
    (hcov : type ≠ FLUSH_IGNORE_CHANGED →
      freed = false ∨ (kc.block_root b).status.changed = false)
    (hfl : ∀ x, x ∈ fl' → x ∈ fl ∨ x = b)
    (hq : type = FLUSH_IGNORE_CHANGED → fl' = []) :
    FLUSHING kc0 kc' f type fl' P ((if freed then [b] else []) ++ F) W := by
  have hw : (([] : List Nat) = [] ∧ ([] : List PWRITE_CALL) = []) ∨
      (([] : List Nat) = [b] ∧ ∃ w, ([] : List PWRITE_CALL) = [w] ∧ pwrite_of kc f b w ∧
        (kc.block_root b).status.changed = true) := Or.inl ⟨rfl, rfl⟩
  have s2 := s.step_flushing st wf' hb0 hbu hw
    (fun ht => Or.inr (fun hc => by
      rcases hcov ht with h1 | h1
      · rw [((st.stays h1).2.2.2.2.2 rfl).2]; exact hc
      · rw [h1] at hc; cases hc))
    (fun _ n => n.step_noerr st s.wf.hash (Or.inr rfl)) hfl (fun ht => ⟨hq ht, rfl⟩)
  rw [List.append_nil, List.append_nil] at s2
  exact s2

/-- The scan of the dirty chain in `flush_key_blocks_int`. -/
theorem flush_scan_spec (file : Nat) (type : flush_type) (count : Nat) (kc0 : KEY_CACHE)
    (fit : Prop) (hcount : 0 < count) :
    ∀ (rest : List Nat) (kc : KEY_CACHE) (burst P F : List Nat) (W : List PWRITE_CALL)
      (e : Int) (n : Nat),
      FLUSHING kc0 kc file type burst P F W →
      (∀ x, x ∈ rest → (kc.block_root x).status.changed = true) →
      rest.Nodup → (∀ x, x ∈ rest → x ∉ burst) →
      (∀ x, dirty_of kc file x → x ∈ burst ∨ x ∈ rest) →
      (type = FLUSH_IGNORE_CHANGED → burst = []) →
      (e ≠ 0 ↔ ∃ w, w ∈ W ∧ w.error ≠ none) →
      (fit → ∃ D : List Nat, D.Nodup ∧ (∀ x, x ∈ burst → x ∈ D) ∧
        (∀ x, x ∈ rest → of_file kc0 file x → x ∈ D) ∧ D.length ≤ count) →
      ∃ res, flush_scan file type count rest kc burst none none [] e n = some res ∧
        SCAN_POST kc0 file type P W fit res := by
  intro rest
  induction rest with
  | nil =>
    intro kc burst P F W e n s _ _ _ hdirty hign _ _
    refine ⟨.scanned kc burst none none [], by rw [flush_scan], rfl, rfl, rfl, F, s, ?_, hign⟩
    intro x hx
    rcases hdirty x hx with h1 | h1
    · exact h1
    · cases h1
  | cons b rest ih =>
    intro kc burst P F W e n s hrest hnd hdis hdirty hign herr hfit
    have hch := hrest b (List.mem_cons_self _ _)
    obtain ⟨h, hh⟩ := changed_has_link s.wf hch
    have hne : (kc.block_root b).hash_link ≠ none := by rw [hh]; simp
    have hbb : b ∉ burst := hdis b (List.mem_cons_self _ _)
    have hbr : b ∉ rest := (List.nodup_cons.1 hnd).1
    have hnd' : rest.Nodup := (List.nodup_cons.1 hnd).2
    by_cases hf : (kc.hash_link_root h).file = file
    · -- a dirty block of the file
      obtain ⟨o1, o2, o3, o4, o5, o6, o7, o8⟩ := s.wf.stat.used b hne (by simp)
      obtain ⟨q1, q2⟩ := s.wf.stat.quiet b hne (by simp)
      have hfl : (kc.block_root b).status.in_flush = false := by
        cases hc : (kc.block_root b).status.in_flush with
        | false => rfl
        | true => exact absurd (o7.1 hc) hbb
      have hb0 : of_file kc0 file b := s.rel.of_file_back ⟨h, hh, hf⟩
      have hring := dirty_in_ring s.wf hh hch hfl
      by_cases ht : type = FLUSH_IGNORE_CHANGED
      · -- the block is discarded
        obtain ⟨k1, k2, hreg, g1, g2, g3, hfree, wf2, st⟩ :=
          free_step kc b h burst true s.wf hh hring
        rw [if_pos rfl, hf] at hfree
        have hst : ((link_to_file_list k1 b file true).block_root b).status =
            { (kc.block_root b).status with changed := false } := by
          rw [link_to_file_list_eq]
          simp only [cleaned_state, Function.update_same]
          rw [g2]
        have s2 := s.step_quiet st wf2 hb0 hne (fun hc => absurd ht hc) (fun x hx => Or.inl hx)
          (fun hti => (s.ign hti).1)
        obtain ⟨res, hres, hpost⟩ := ih k2 burst P _ W e n s2
          (fun x hx => by
            have hxb : x ≠ b := fun hc => hbr (hc ▸ hx)
            rw [(st.others x hxb).2.2.2.2.1]
            exact hrest x (List.mem_cons_of_mem _ hx))
          hnd' (fun x hx => hdis x (List.mem_cons_of_mem _ hx))
          (fun x hx => by
            have hxb : x ≠ b := by
              intro hc
              rw [hc] at hx
              obtain ⟨⟨h', hh', -⟩, -⟩ := hx
              rw [st.gone rfl] at hh'; cases hh'
            rcases hdirty x (st.dirty_back s.wf.hash hxb hx) with h1 | h1
            · exact Or.inl h1
            · rcases List.mem_cons.1 h1 with h2 | h2
              · exact absurd h2 hxb
              · exact Or.inr h2)
          hign herr
          (fun hft => by
            obtain ⟨D, d1, d2, d3, d4⟩ := hfit hft
            exact ⟨D, d1, d2, fun x hx => d3 x (List.mem_cons_of_mem _ hx), d4⟩)
        refine ⟨res, ?_, hpost⟩
        rw [flush_scan_discard file type count b h rest kc k1 k2 burst none none [] e n hh hf hfl
          q2 o2 hreg ht (by rw [hst]; exact o4) (by rw [hst]; exact o2) hfree]
        exact hres
      · by_cases hc : burst.length = count
        · -- the burst is full: it is written and the scan starts again
          obtain ⟨k1, k2, hreg, hun, wf2, st⟩ := touch_step kc b h burst false s.wf hh hring
          have s2 := s.step_quiet st wf2 hb0 hne (fun _ => Or.inl rfl) (fun x hx => Or.inl hx)
            (fun hti => absurd hti ht)
          rw [if_neg (by simp), List.nil_append] at s2
          obtain ⟨e', k3, P', F', Wd, hfl3, s3, hperm, herr3⟩ :=
            flush_burst_spec file type kc0 k2 burst P F W s2
          have hnofit : ¬ fit := by
            intro hft
            obtain ⟨D, d1, d2, d3, d4⟩ := hfit hft
            have hbD : b ∈ D := d3 b (List.mem_cons_self _ _) hb0
            have hsub : (b :: burst).Subperm D := by
              apply List.subperm_of_subset
              · exact List.nodup_cons.2 ⟨hbb, s.wf.ring.fl_nodup⟩
              · intro x hx
                rcases List.mem_cons.1 hx with h1 | h1
                · rw [h1]; exact hbD
                · exact d2 x h1
            have := hsub.length_le
            rw [List.length_cons] at this
            omega
          have hlen : P.length < (P ++ P').length := by
            rw [List.length_append, hperm.length_eq]; omega
          rw [flush_scan_full file type count b h rest kc k1 k2 k3 burst none none [] e e' n hh hf
            hfl q2 o2 hreg ht hc hun hfl3]
          by_cases he0 : e' ≠ 0
          · obtain ⟨w, hw1, hw2⟩ := herr3.1 he0
            have hex : ∃ w, w ∈ W ++ Wd ∧ w.error ≠ none :=
              ⟨w, List.mem_append_right _ hw1, hw2⟩
            rw [if_pos he0]
            by_cases hee : e = e'
            · rw [if_pos hee]
              by_cases hn5 : n + 1 > 5
              · rw [if_pos hn5]
                exact ⟨_, rfl, hnofit, by rw [hee]; exact he0, _, _, _, s3, hex⟩
              · rw [if_neg hn5]
                exact ⟨_, rfl, rfl, hnofit, _, _, _, s3, hlen, ⟨fun _ => hex, fun _ => he0⟩⟩
            · rw [if_neg hee]
              exact ⟨_, rfl, rfl, hnofit, _, _, _, s3, hlen, ⟨fun _ => hex, fun _ => he0⟩⟩
          · rw [if_neg he0]
            refine ⟨_, rfl, rfl, hnofit, _, _, _, s3, hlen, ?_⟩
            rw [herr]
            constructor
            · rintro ⟨w, hw1, hw2⟩
              exact ⟨w, List.mem_append_left _ hw1, hw2⟩
            · rintro ⟨w, hw1, hw2⟩
              rcases List.mem_append.1 hw1 with h1 | h1
              · exact ⟨w, h1, hw2⟩
              · exact absurd (herr3.2 ⟨w, h1, hw2⟩) he0
        · -- the block joins the burst
          obtain ⟨ins, hreg, wf2, st⟩ := collect_step kc b h burst s.wf hh hch hfl
          have s2 := s.step_quiet st wf2 hb0 hne (fun _ => Or.inl rfl)
            (fun x hx => by
              rcases List.mem_append.1 hx with h1 | h1
              · exact Or.inl h1
              · exact Or.inr (List.mem_singleton.1 h1))
            (fun hti => absurd hti ht)
          rw [if_neg (by simp), List.nil_append] at s2
          obtain ⟨res, hres, hpost⟩ := ih _ (burst ++ [b]) P F W e n s2
            (fun x hx => by
              have hxb : x ≠ b := fun hc => hbr (hc ▸ hx)
              rw [(st.others x hxb).2.2.2.2.1]
              exact hrest x (List.mem_cons_of_mem _ hx))
            hnd'
            (fun x hx hxx => by
              rcases List.mem_append.1 hxx with h1 | h1
              · exact hdis x (List.mem_cons_of_mem _ hx) h1
              · exact hbr (List.mem_singleton.1 h1 ▸ hx))
            (fun x hx => by
              by_cases hxb : x = b
              · exact Or.inl (List.mem_append_right _ (by rw [hxb]; exact List.mem_singleton_self b))
              · rcases hdirty x (st.dirty_back s.wf.hash hxb hx) with h1 | h1
                · exact Or.inl (List.mem_append_left _ h1)
                · rcases List.mem_cons.1 h1 with h2 | h2
                  · exact absurd h2 hxb
                  · exact Or.inr h2)
            (fun hti => absurd hti ht) herr
            (fun hft => by
              obtain ⟨D, d1, d2, d3, d4⟩ := hfit hft
              refine ⟨D, d1, ?_, fun x hx => d3 x (List.mem_cons_of_mem _ hx), d4⟩
              intro x hx
              rcases List.mem_append.1 hx with h1 | h1
              · exact d2 x h1
              · rw [List.mem_singleton.1 h1]; exact d3 b (List.mem_cons_self _ _) hb0)
          refine ⟨res, ?_, hpost⟩
          rw [flush_scan_collect file type count b h rest kc _ burst none none [] e n hh hf hfl
            q2 o2 hreg ht hc]
          exact hres
    · -- a block of another file
      have hskip := flush_scan_skip file type count b h rest kc burst none none [] e n hh hf
      obtain ⟨res, hres, hpost⟩ := ih kc burst P F W e n s
        (fun x hx => hrest x (List.mem_cons_of_mem _ hx)) hnd'
        (fun x hx => hdis x (List.mem_cons_of_mem _ hx))
        (fun x hx => by
          rcases hdirty x hx with h1 | h1
          · exact Or.inl h1
          · rcases List.mem_cons.1 h1 with h2 | h2
            · exfalso
              rw [h2] at hx
              obtain ⟨⟨h', hh', hf'⟩, -⟩ := hx
              rw [hh] at hh'
              have := Option.some.inj hh'
              rw [this] at hf
              exact hf hf'
            · exact Or.inr h2)
        hign herr
        (fun hft => by
          obtain ⟨D, d1, d2, d3, d4⟩ := hfit hft
          exact ⟨D, d1, d2, fun x hx => d3 x (List.mem_cons_of_mem _ hx), d4⟩)
      exact ⟨res, by rw [hskip]; exact hres, hpost⟩

/-- A block other than the one a step works on is a block of the file after the
step only if it was one before. -/
theorem STEP.of_file_before {kc kc' : KEY_CACHE} {f b x : Nat} {freed : Bool}
    {Wd : List PWRITE_CALL} (s : STEP kc kc' b freed Wd) (hi : HASH_INV kc) (hxb : x ≠ b)
    (hx : of_file kc' f x) : of_file kc f x := by
  obtain ⟨h, hh, hf⟩ := hx
  have sc := s.others x hxb
  have hh' : (kc.block_root x).hash_link = some h := by rw [← sc.1]; exact hh
  refine ⟨h, hh', ?_⟩
  rw [← s.links h]
  · exact hf
  · intro _ hcc
    have h1 := hi.back x h hh'
    have h2 := hi.back b h hcc
    rw [h1] at h2
    exact hxb (Option.some.inj h2)

theorem free_clean_pass_skip (file b h : Nat) (rest : List Nat) (kc : KEY_CACHE) (found : Nat)
    (lfu lis : Option Nat) (hh : (kc.block_root b).hash_link = some h)
    (hf : (kc.hash_link_root h).file ≠ file) :
    free_clean_pass file (b :: rest) kc found lfu lis =
      free_clean_pass file rest kc found lfu lis := by
  rw [free_clean_pass]
  rewrite [hh]
  dsimp only []
  rewrite [if_neg hf]
  rfl

theorem free_clean_pass_free (file b h : Nat) (rest : List Nat) (kc k1 k2 : KEY_CACHE)
    (found : Nat) (lfu lis : Option Nat) (hh : (kc.block_root b).hash_link = some h)
    (hf : (kc.hash_link_root h).file = file)
    (h1 : (kc.block_root b).status.for_update = false)
    (h2 : (kc.block_root b).status.in_eviction = false)
    (h3 : (kc.block_root b).status.in_switch = false)
    (h4 : (kc.block_root b).status.reassigned = false)
    (hreg : reg_requests kc b 1 = some k1) (hfree : free_block k1 b = some k2) :
    free_clean_pass file (b :: rest) kc found lfu lis =
      free_clean_pass file rest k2 (found + 1) lfu lis := by
  rw [free_clean_pass]
  rewrite [hh]
  dsimp only []
  rewrite [if_pos hf, if_neg (by rw [h1]; simp), if_pos ⟨h2, h3, h4⟩, hreg]
  dsimp only []
  rewrite [hfree]
  rfl

/-- One pass over the clean chain frees the blocks of the file in it. -/
theorem free_clean_pass_spec (file : Nat) (type : flush_type) (kc0 : KEY_CACHE)
    (hrel : releasing type) :
    ∀ (rest : List Nat) (kc : KEY_CACHE) (found : Nat) (P F : List Nat) (W : List PWRITE_CALL),
      FLUSHING kc0 kc file type [] P F W →
      (∀ x, x ∈ rest → (kc.block_root x).hash_link ≠ none) →
      (∀ x, x ∈ rest → (kc.block_root x).status.changed = false) → rest.Nodup →
      (free_clean_pass file rest kc found none none = none ∧ ¬ NOERR kc0 file) ∨
      ∃ kc' F' k, free_clean_pass file rest kc found none none =
          some (kc', found + k, none, none) ∧
        FLUSHING kc0 kc' file type [] P F' W ∧
        (∀ x, x ∈ rest → ¬ of_file kc' file x) ∧
        (∀ x, of_file kc' file x → of_file kc file x ∧
          (kc'.block_root x).status.changed = (kc.block_root x).status.changed) ∧
        ((∀ x, x ∈ rest → ¬ of_file kc file x) → k = 0) ∧
        (k = 0 → kc' = kc ∧ F' = F) := by
  intro rest
  induction rest with
  | nil =>
    intro kc found P F W s _ _ _
    exact Or.inr ⟨kc, F, 0, (by rw [free_clean_pass]; rfl), s, (fun x hx => by cases hx),
      (fun x hx => ⟨hx, rfl⟩), (fun _ => rfl), (fun _ => ⟨rfl, rfl⟩)⟩
  | cons b rest ih =>
    intro kc found P F W s hrest hclean hnd
    have hne : (kc.block_root b).hash_link ≠ none := hrest b (List.mem_cons_self _ _)
    obtain ⟨h, hh⟩ := Option.ne_none_iff_exists'.1 hne
    have hbr : b ∉ rest := (List.nodup_cons.1 hnd).1
    have hnd' : rest.Nodup := (List.nodup_cons.1 hnd).2
    by_cases hf : (kc.hash_link_root h).file = file
    · obtain ⟨o1, o2, o3, o4, o5, o6, o7, o8⟩ := s.wf.stat.used b hne (by simp)
      obtain ⟨q1, q2⟩ := s.wf.stat.quiet b hne (by simp)
      have hbf : of_file kc file b := ⟨h, hh, hf⟩
      have hb0 : of_file kc0 file b := s.rel.of_file_back hbf
      by_cases herr : (kc.block_root b).status.error = true
      · left
        have hnr : b ∉ kc.used_ring := by
          intro hc
          have := ((s.wf.ring.iff b).1 hc).2.2.2
          rw [herr] at this; cases this
        have hreq : (kc.block_root b).requests = 0 := s.wf.req.block_free b (by simp) (by simp)
        refine ⟨?_, fun h0 => ?_⟩
        · rw [free_clean_pass]
          rewrite [hh]
          dsimp only []
          rewrite [if_pos hf, if_neg (by rw [q2]; simp), if_pos ⟨o4, o2, o3⟩]
          have : reg_requests kc b 1 = none := by
            unfold reg_requests
            rw [if_pos hreq]
            unfold unlink_block
            rw [if_neg hnr]
          rewrite [this]
          rfl
        · have := s.noerr (Or.inl hrel) h0 b hbf
          rw [herr] at this; cases this
      have herr' : (kc.block_root b).status.error = false := by
        cases hc : (kc.block_root b).status.error with
        | false => rfl
        | true => exact absurd hc herr
      have hring : b ∈ kc.used_ring := (s.wf.ring.iff b).2 ⟨hne, by simp, by simp, herr'⟩
      obtain ⟨k1, k2, hreg, g1, g2, g3, hfree, wf2, st⟩ :=
        free_step kc b h [] false s.wf hh hring
      rw [if_neg (by simp)] at hfree
      have hcl : type ≠ FLUSH_IGNORE_CHANGED → (kc.block_root b).status.changed = false := by
        intro ht
        cases hc : (kc.block_root b).status.changed with
        | false => rfl
        | true => exact absurd hc (hclean b (List.mem_cons_self _ _) ▸ by simp)
      have s2 := s.step_quiet st wf2 hb0 hne (fun ht => Or.inr (hcl ht)) (fun x hx => Or.inl hx)
        (fun _ => rfl)
      rw [if_pos rfl] at s2
      have hgone : (k2.block_root b).hash_link = none := st.gone rfl
      have hunf := free_clean_pass_free file b h rest kc k1 k2 found none none hh hf q2 o4 o2 o3
        hreg hfree
      rcases ih k2 (found + 1) P _ W s2
        (fun x hx => by
          have hxb : x ≠ b := fun hc => hbr (hc ▸ hx)
          rw [(st.others x hxb).1]
          exact hrest x (List.mem_cons_of_mem _ hx))
        (fun x hx => by
          have hxb : x ≠ b := fun hc => hbr (hc ▸ hx)
          rw [(st.others x hxb).2.2.2.2.1]
          exact hclean x (List.mem_cons_of_mem _ hx))
        hnd' with ⟨hnone, hne0⟩ | ⟨kc', F', k, hres, s', p1, p2, p3, p4⟩
      · exact Or.inl ⟨by rw [hunf]; exact hnone, hne0⟩
      right
      have hb' : ¬ of_file kc' file b := by
        intro hc
        obtain ⟨h', hh', -⟩ := (p2 b hc).1
        rw [hgone] at hh'; cases hh'
      refine ⟨kc', F', k + 1, ?_, s', ?_, ?_, ?_, ?_⟩
      · rw [hunf, hres, Nat.add_assoc, Nat.add_comm 1 k]
      · intro x hx
        rcases List.mem_cons.1 hx with h1 | h1
        · rw [h1]; exact hb'
        · exact p1 x h1
      · intro x hx
        have hxb : x ≠ b := fun hc => hb' (hc ▸ hx)
        obtain ⟨a1, a2⟩ := p2 x hx
        exact ⟨st.of_file_before s.wf.hash hxb a1, by rw [a2, (st.others x hxb).2.2.2.2.1]⟩
      · intro hall
        exact absurd hbf (hall b (List.mem_cons_self _ _))
      · intro hk; omega
    · have hunf := free_clean_pass_skip file b h rest kc found none none hh hf
      rcases ih kc found P F W s
        (fun x hx => hrest x (List.mem_cons_of_mem _ hx))
        (fun x hx => hclean x (List.mem_cons_of_mem _ hx)) hnd'
        with ⟨hnone, hne0⟩ | ⟨kc', F', k, hres, s', p1, p2, p3, p4⟩
      · exact Or.inl ⟨by rw [hunf]; exact hnone, hne0⟩
      refine Or.inr ⟨kc', F', k, ?_, s', ?_, p2, ?_, p4⟩
      · rw [hunf]; exact hres
      · intro x hx
        rcases List.mem_cons.1 hx with h1 | h1
        · intro hc
          have := (p2 x hc).1
          rw [h1] at this
          obtain ⟨h', hh', hf'⟩ := this
          rw [hh] at hh'
          rw [Option.some.inj hh'] at hf
          exact hf hf'
        · exact p1 x h1
      · intro hall
        exact p3 (fun x hx => hall x (List.mem_cons_of_mem _ hx))

/-- The clean chain of the bucket of a file holds the clean blocks in use. -/
theorem clean_chain_spec {kc : KEY_CACHE} (c : CHAIN_INV kc) (file : Nat) :
    (∀ x, x ∈ kc.file_blocks (FILE_HASH file) → (kc.block_root x).hash_link ≠ none) ∧
    (∀ x, x ∈ kc.file_blocks (FILE_HASH file) → (kc.block_root x).status.changed = false) ∧
    (kc.file_blocks (FILE_HASH file)).Nodup ∧
    (∀ x, of_file kc file x → (kc.block_root x).status.changed = false →
      x ∈ kc.file_blocks (FILE_HASH file)) := by
  refine ⟨?_, ?_, c.file_nodup _, ?_⟩
  · intro x hx
    obtain ⟨h, hh, -, -⟩ := (c.file_iff _ x).1 hx
    rw [hh]; simp
  · intro x hx
    obtain ⟨h, -, hc, -⟩ := (c.file_iff _ x).1 hx
    exact hc
  · intro x hx hc
    obtain ⟨h, hh, hf⟩ := hx
    exact (c.file_iff _ x).2 ⟨h, hh, hc, by rw [hf]⟩

/-- The loop that frees the clean blocks of a file ends after at most two
passes and leaves no clean block of the file. -/
theorem free_clean_loop_spec (file : Nat) (type : flush_type) (kc0 kc : KEY_CACHE)
    (hrel : releasing type) (P F : List Nat) (W : List PWRITE_CALL) (fuel : Nat)
    (s : FLUSHING kc0 kc file type [] P F W) (hfuel : 1 ≤ fuel)
    (hfuel2 : kc.file_blocks (FILE_HASH file) ≠ [] → 2 ≤ fuel) :
    (free_clean_loop file fuel kc 0 none none = none ∧ ¬ NOERR kc0 file) ∨
    ∃ kc' F' tf, free_clean_loop file fuel kc 0 none none = some (kc', tf, none, none) ∧
      FLUSHING kc0 kc' file type [] P F' W ∧
      (∀ x, of_file kc' file x → dirty_of kc file x ∧ dirty_of kc' file x) ∧
      (tf = 0 → kc' = kc ∧ F' = F) ∧ ((∀ x, ¬ of_file kc file x) → tf = 0) := by
  obtain ⟨c1, c2, c3, c4⟩ := clean_chain_spec s.wf.chain file
  obtain ⟨n, hn⟩ : ∃ n, fuel = n + 1 := ⟨fuel - 1, by omega⟩
  rcases free_clean_pass_spec file type kc0 hrel _ kc 0 P F W s c1 c2 c3 with
    ⟨hnone, hne0⟩ | ⟨kc1, F1, k, hp1, s1, a1, a2, a3, a4⟩
  · left
    refine ⟨?_, hne0⟩
    rw [hn, free_clean_loop]
    rewrite [hnone]
    rfl
  have hleft : ∀ x, of_file kc1 file x → dirty_of kc file x ∧ dirty_of kc1 file x := by
    intro x hx
    obtain ⟨b1, b2⟩ := a2 x hx
    cases hc : (kc.block_root x).status.changed with
    | true => exact ⟨⟨b1, hc⟩, ⟨hx, by rw [b2]; exact hc⟩⟩
    | false => exact absurd hx (a1 x (c4 x b1 hc))
  rw [hn, free_clean_loop]
  rewrite [hp1]
  dsimp only []
  by_cases hk : k = 0
  · obtain ⟨e1, e2⟩ := a4 hk
    rw [if_neg (by omega)]
    exact Or.inr ⟨kc1, F1, 0, rfl, s1, hleft, (fun _ => ⟨e1, e2⟩), (fun _ => rfl)⟩
  · have hne : kc.file_blocks (FILE_HASH file) ≠ [] := by
      intro hc
      apply hk
      apply a3
      intro x hx
      rw [hc] at hx; cases hx
    have h2 := hfuel2 hne
    obtain ⟨m, hm⟩ : ∃ m, n = m + 1 := ⟨n - 1, by omega⟩
    obtain ⟨d1, d2, d3, d4⟩ := clean_chain_spec s1.wf.chain file
    have hk2 : ∀ x, x ∈ kc1.file_blocks (FILE_HASH file) → ¬ of_file kc1 file x := by
      intro x hx hc
      have := (hleft x hc).2.2
      rw [d2 x hx] at this
      cases this
    rcases free_clean_pass_spec file type kc0 hrel _ kc1 0 P F1 W s1 d1 d2 d3 with
      ⟨hnone, hne0⟩ | ⟨kc2, F2, k2, hp2, s2, g1, g2, g3, g4⟩
    · left
      refine ⟨?_, hne0⟩
      rw [if_pos (by omega), hm, free_clean_loop]
      rewrite [hnone]
      rfl
    have hk2 : k2 = 0 := g3 hk2
    obtain ⟨e1, e2⟩ := g4 hk2
    rw [if_pos (by omega), hm, free_clean_loop]
    rewrite [hp2]
    dsimp only []
    rw [if_neg (by omega), e1]
    exact Or.inr ⟨kc1, F1, _, rfl, s1, hleft, (fun h0 => by omega),
      (fun h0 => absurd (a3 (fun x _ => h0 x)) hk)⟩

theorem flush_loop_err (file : Nat) (type : flush_type) (count fuel : Nat) (kc k : KEY_CACHE)
    (fis : List Nat) (e e' : Int) (n : Nat)
    (hs : flush_scan file type count (kc.changed_blocks (FILE_HASH file)) kc [] none none fis e n
      = some (.err k e')) :
    flush_key_blocks_loop file type count (fuel + 1) kc fis e n = some (e', k) := by
  rw [flush_key_blocks_loop]
  rewrite [hs]
  rfl

theorem flush_loop_restart (file : Nat) (type : flush_type) (count fuel : Nat)
    (kc k : KEY_CACHE) (fis fis' : List Nat) (e e' : Int) (n n' : Nat)
    (hs : flush_scan file type count (kc.changed_blocks (FILE_HASH file)) kc [] none none fis e n
      = some (.restart k e' n' fis')) :
    flush_key_blocks_loop file type count (fuel + 1) kc fis e n =
      flush_key_blocks_loop file type count fuel k fis' e' n' := by
  rw [flush_key_blocks_loop]
  rewrite [hs]
  rfl

theorem flush_loop_burst (file : Nat) (type : flush_type) (count fuel : Nat)
    (kc k k1 : KEY_CACHE) (burst : List Nat) (e error : Int) (n : Nat)
    (hs : flush_scan file type count (kc.changed_blocks (FILE_HASH file)) kc [] none none [] e n
      = some (.scanned k burst none none []))
    (hb : burst ≠ [])
    (hf : flush_cached_blocks k file burst type = some (error, k1)) :
    flush_key_blocks_loop file type count (fuel + 1) kc [] e n =
      if error ≠ 0 ∧ e = error ∧ n + 1 > 5 then some (e, k1)
      else if type ≠ FLUSH_KEEP then
        flush_key_blocks_loop file type count fuel k1 []
          (if error ≠ 0 then error else e)
          (if error ≠ 0 ∧ e = error then n + 1 else n)
      else some (if error ≠ 0 then error else e, k1) := by
  rw [flush_key_blocks_loop]
  rewrite [hs]
  dsimp only []
  rewrite [if_pos hb, hf]
  dsimp only []
  by_cases h1 : error ≠ 0 ∧ e = error ∧ n + 1 > 5
  · rewrite [if_pos h1, if_pos h1]; rfl
  · rewrite [if_neg h1, if_neg h1]
    by_cases h2 : type ≠ FLUSH_KEEP
    · rewrite [if_pos h2, if_pos h2]; rfl
    · rewrite [if_neg h2, if_neg h2]
      have h3 : type = FLUSH_KEEP := by
        cases type with
        | FLUSH_KEEP => rfl
        | FLUSH_RELEASE => exact absurd (by simp) h2
        | FLUSH_IGNORE_CHANGED => exact absurd (by simp) h2
        | FLUSH_FORCE_WRITE => exact absurd (by simp) h2
      rewrite [if_neg (by simp), if_neg (by rw [h3]; simp)]
      rfl

theorem flush_loop_keep (file : Nat) (type : flush_type) (count fuel : Nat)
    (kc k : KEY_CACHE) (e : Int) (n : Nat)
    (hs : flush_scan file type count (kc.changed_blocks (FILE_HASH file)) kc [] none none [] e n
      = some (.scanned k [] none none []))
    (ht : ¬ releasing type) :
    flush_key_blocks_loop file type count (fuel + 1) kc [] e n = some (e, k) := by
  rw [flush_key_blocks_loop]
  rewrite [hs]
  dsimp only []
  rewrite [if_neg (by simp), if_neg (by simp),
    if_neg (show ¬ ¬ (type = FLUSH_KEEP ∨ type = FLUSH_FORCE_WRITE) from ht)]
  rfl

theorem flush_loop_release (file : Nat) (type : flush_type) (count fuel : Nat)
    (kc k : KEY_CACHE) (e : Int) (n : Nat)
    (r : Option (KEY_CACHE × Nat × Option Nat × Option Nat))
    (hs : flush_scan file type count (kc.changed_blocks (FILE_HASH file)) kc [] none none [] e n
      = some (.scanned k [] none none []))
    (ht : releasing type)
    (hr : free_clean_loop file ((k.file_blocks (FILE_HASH file)).length + 1) k 0 none none = r) :
    flush_key_blocks_loop file type count (fuel + 1) kc [] e n =
      r.bind fun x =>
        if x.2.1 ≠ 0 then flush_key_blocks_loop file type count fuel x.1 [] e n
        else if x.2.2.1.isSome then none
        else if x.2.2.2.isSome then none
        else some (e, x.1) := by
  rw [flush_key_blocks_loop]
  rewrite [hs]
  dsimp only []
  rewrite [if_neg (by simp), if_neg (by simp),
    if_pos (show ¬ (type = FLUSH_KEEP ∨ type = FLUSH_FORCE_WRITE) from ht), hr]
  cases r with
  | none => rfl
  | some x => rfl

/-- The scan passes over the blocks of other files. -/
theorem flush_scan_idle (file : Nat) (type : flush_type) (count : Nat) (kc : KEY_CACHE)
    (burst : List Nat) (lif lfu : Option Nat) (fis : List Nat) (e : Int) (n : Nat) :
    ∀ rest : List Nat,
      (∀ x, x ∈ rest → ∃ h, (kc.block_root x).hash_link = some h ∧
        (kc.hash_link_root h).file ≠ file) →
      flush_scan file type count rest kc burst lif lfu fis e n =
        some (.scanned kc burst lif lfu fis) := by
  intro rest
  induction rest with
  | nil => intro _; rw [flush_scan]
  | cons b rest ih =>
    intro h
    obtain ⟨hl, hh, hf⟩ := h b (List.mem_cons_self _ _)
    rw [flush_scan_skip file type count b hl rest kc burst lif lfu fis e n hh hf]
    exact ih (fun x hx => h x (List.mem_cons_of_mem _ hx))

/-- The state at the entry of a flush. -/
theorem FLUSHING.at_entry {kc : KEY_CACHE} (wf : WF kc none []) (f : Nat) (type : flush_type) :
    FLUSHING kc kc f type [] [] [] [] where
  wf := wf
  rel := FLUSH_REL.start kc f
  cover := fun _ x hx => Or.inr hx.2
  noerr := fun _ h => h
  ign := fun _ => ⟨rfl, rfl⟩
  fl_file := fun x hx => by cases hx
  aux := fun a => a

/-- With no block of the file in the cache the flush is done after one round. -/
theorem flush_loop_idle (file : Nat) (type : flush_type) (count fuel : Nat) (kc : KEY_CACHE)
    (e : Int) (n : Nat) (wf : WF kc none []) (hno : ∀ x, ¬ of_file kc file x) :
    flush_key_blocks_loop file type count (fuel + 1) kc [] e n = some (e, kc) := by
  have hs : flush_scan file type count (kc.changed_blocks (FILE_HASH file)) kc [] none none [] e n
      = some (.scanned kc [] none none []) := by
    apply flush_scan_idle
    intro x hx
    obtain ⟨h, hh, -, -⟩ := (wf.chain.changed_iff _ x).1 hx
    exact ⟨h, hh, fun hf => hno x ⟨h, hh, hf⟩⟩
  by_cases ht : releasing type
  · rcases free_clean_loop_spec file type kc kc ht [] [] []
        ((kc.file_blocks (FILE_HASH file)).length + 1) (FLUSHING.at_entry wf file type)
        (by omega) (fun hne => by
          have := List.length_pos.2 hne
          omega) with ⟨-, hne⟩ | ⟨kc', F', tf, hr, -, -, h0, h1⟩
    · exact absurd (fun x hx => absurd hx (hno x)) hne
    · have htf := h1 hno
      rw [flush_loop_release file type count fuel kc kc e n _ hs ht hr, Option.some_bind]
      dsimp only []
      rw [if_neg (by rw [htf]; simp), if_neg (by simp), if_neg (by simp), (h0 htf).1]
  · exact flush_loop_keep file type count fuel kc kc e n hs ht

/-- The blocks that are dirty after a write burst were dirty before it and are
not in the burst. -/
theorem flush_burst_dirty (file : Nat) (type : flush_type) (kc0 kc kc' : KEY_CACHE)
    (burst P F : List Nat) (W : List PWRITE_CALL) (e' : Int)
    (s : FLUSHING kc0 kc file type burst P F W)
    (hf : flush_cached_blocks kc file burst type = some (e', kc')) :
    ∀ x, dirty_of kc' file x → dirty_of kc file x ∧ x ∉ burst := by
  have s' : FLUSHING kc kc file type burst [] [] [] :=
    { wf := s.wf
      rel := FLUSH_REL.start kc file
      cover := fun _ x hx => Or.inr hx.2
      noerr := fun _ h => h
      ign := fun ht => ⟨(s.ign ht).1, rfl⟩
      fl_file := fun x hx =>
        s.rel.of_file_now (s.fl_file x hx) (s.wf.ring.fl_used x hx)
      aux := fun a => a }
  obtain ⟨e2, k2, P', F', Wd, h1, s2, hperm, -⟩ :=
    flush_burst_spec file type kc kc burst [] [] [] s'
  rw [hf] at h1
  have hk : kc' = k2 := congrArg Prod.snd (Option.some.inj h1)
  rw [← hk] at s2
  intro x hx
  have hx0 : of_file kc file x := s2.rel.of_file_back hx.1
  have hu : (kc'.block_root x).hash_link ≠ none := by
    obtain ⟨h, hh, -⟩ := hx.1
    rw [hh]; simp
  obtain ⟨-, -, -, -, -, k6⟩ := s2.rel.kept x hx0 hu
  obtain ⟨c1, c2⟩ := k6 hx.2
  refine ⟨⟨hx0, c1⟩, fun hb => c2 ?_⟩
  rw [List.nil_append]
  exact hperm.mem_iff.2 hb

/-- The error code kept after a write burst tells whether a write has failed so
far. -/
theorem flush_errno_iff (e e' : Int) (W Wd : List PWRITE_CALL)
    (h1 : e ≠ 0 ↔ ∃ w, w ∈ W ∧ w.error ≠ none)
    (h2 : e' ≠ 0 ↔ ∃ w, w ∈ Wd ∧ w.error ≠ none) :
    (if e' ≠ 0 then e' else e) ≠ 0 ↔ ∃ w, w ∈ W ++ Wd ∧ w.error ≠ none := by
  by_cases he : e' ≠ 0
  · rw [if_pos he]
    obtain ⟨w, hw1, hw2⟩ := h2.1 he
    exact ⟨fun _ => ⟨w, List.mem_append_right _ hw1, hw2⟩, fun _ => he⟩
  · rw [if_neg he, h1]
    constructor
    · rintro ⟨w, hw1, hw2⟩
      exact ⟨w, List.mem_append_left _ hw1, hw2⟩
    · rintro ⟨w, hw1, hw2⟩
      rcases List.mem_append.1 hw1 with h3 | h3
      · exact ⟨w, h3, hw2⟩
      · exact absurd (h2.2 ⟨w, h3, hw2⟩) he

/-- The blocks written by a flush are among the blocks that were dirty at its
start. -/
theorem FLUSH_REL.written_le {kc0 kc : KEY_CACHE} {f : Nat} {P F : List Nat}
    {W : List PWRITE_CALL} (r : FLUSH_REL kc0 kc f P F W) (D0 : List Nat)
    (hD : ∀ x, dirty_of kc0 f x → x ∈ D0) : P.length ≤ D0.length :=
  (List.subperm_of_subset r.written_nodup (fun x hx => hD x (r.written_dirty x hx))).length_le

/-- The loop of `flush_key_blocks_int` from `restart:` on ends, given fuel for
one round per dirty block of the file and two more. -/
theorem flush_loop_spec (file : Nat) (type : flush_type) (count : Nat) (kc0 : KEY_CACHE)
    (fit : Prop) (D0 : List Nat) (hcount : 0 < count)
    (hD : ∀ x, dirty_of kc0 file x → x ∈ D0)
    (hfit : fit → ∃ D : List Nat, D.Nodup ∧ (∀ x, dirty_of kc0 file x → x ∈ D) ∧
      D.length ≤ count) :
    ∀ (fuel : Nat) (kc : KEY_CACHE) (e : Int) (n : Nat) (P F : List Nat)
      (W : List PWRITE_CALL),
      FLUSHING kc0 kc file type [] P F W →
      (e ≠ 0 ↔ ∃ w, w ∈ W ∧ w.error ≠ none) →
      D0.length - P.length + 2 ≤ fuel →
      (flush_key_blocks_loop file type count fuel kc [] e n = none ∧ releasing type ∧
        ¬ NOERR kc0 file) ∨
      ∃ e' kc', flush_key_blocks_loop file type count fuel kc [] e n = some (e', kc') ∧
        FLUSH_POST kc0 file type fit e' kc' := by
  intro fuel
  induction fuel with
  | zero => intro kc e n P F W _ _ hfu; omega
  | succ m ih =>
    intro kc e n P F W s herr hfu
    have hchain : ∀ x, x ∈ kc.changed_blocks (FILE_HASH file) →
        ∃ h, (kc.block_root x).hash_link = some h ∧ (kc.block_root x).status.changed = true := by
      intro x hx
      obtain ⟨h, hh, hc, -⟩ := (s.wf.chain.changed_iff _ x).1 hx
      exact ⟨h, hh, hc⟩
    obtain ⟨res, hres, hpost⟩ := flush_scan_spec file type count kc0 fit hcount
      (kc.changed_blocks (FILE_HASH file)) kc [] P F W e n s
      (fun x hx => (hchain x hx).choose_spec.2)
      (s.wf.chain.changed_nodup _) (fun x _ hc => by cases hc)
      (fun x hx => by
        obtain ⟨⟨h, hh, hf⟩, hc⟩ := hx
        exact Or.inr ((s.wf.chain.changed_iff _ x).2 ⟨h, hh, hc, by rw [hf]⟩))
      (fun _ => rfl) herr
      (fun hft => by
        obtain ⟨D, d1, d2, d3⟩ := hfit hft
        refine ⟨D, d1, (fun x hx => by cases hx), ?_, d3⟩
        intro x hx hx0
        obtain ⟨h, hh, hc⟩ := hchain x hx
        have hu : (kc.block_root x).hash_link ≠ none := by rw [hh]; simp
        obtain ⟨-, -, -, -, -, k6⟩ := s.rel.kept x hx0 hu
        exact d2 x ⟨hx0, (k6 hc).1⟩)
    cases res with
    | err k e' =>
      obtain ⟨hnf, he', P', F', W', s', hw⟩ := hpost
      right
      refine ⟨e', k, flush_loop_err file type count m kc k [] e e' n hres, P', F', W', s',
        ⟨fun _ => hw, fun _ => he'⟩, Or.inr ⟨he', hnf⟩, fun _ => Or.inr he'⟩
    | restart k e' n' fis =>
      obtain ⟨hfis, hnf, P', F', W', s', hlen, herr'⟩ := hpost
      rw [hfis] at hres
      rw [flush_loop_restart file type count m kc k [] [] e e' n n' hres]
      have hle := s'.rel.written_le D0 hD
      exact ih k e' n' P' F' W' s' herr' (by omega)
    | scanned k burst lif lfu fis =>
      obtain ⟨h1, h2, h3, F1, s1, hall, hign⟩ := hpost
      rw [h1, h2, h3] at hres
      by_cases hb : burst = []
      · rw [hb] at hres s1 hall
        have hnod : ∀ x, ¬ dirty_of k file x := fun x hx => by cases hall x hx
        by_cases ht : releasing type
        · rcases free_clean_loop_spec file type kc0 k ht P F1 W
              ((k.file_blocks (FILE_HASH file)).length + 1) s1 (by omega)
              (fun hne => by
                have := List.length_pos.2 hne
                omega) with ⟨hnone, hne⟩ | ⟨k', F', tf, hr, s', hleft, h0, -⟩
          · left
            refine ⟨?_, ht, hne⟩
            rw [flush_loop_release file type count m kc k e n _ hres ht hnone]
            rfl
          · right
            have hnof : ∀ x, ¬ of_file k' file x := fun x hx => hnod x (hleft x hx).1
            have hpost' : FLUSH_POST kc0 file type fit e k' :=
              ⟨P, F', W, s', herr, Or.inl (fun x hx => hnof x hx.1), fun _ => Or.inl hnof⟩
            rw [flush_loop_release file type count m kc k e n _ hres ht hr, Option.some_bind]
            dsimp only []
            by_cases htf : tf = 0
            · rw [if_neg (by rw [htf]; simp), if_neg (by simp), if_neg (by simp)]
              exact ⟨e, k', rfl, hpost'⟩
            · rw [if_pos htf]
              obtain ⟨m', hm'⟩ : ∃ m', m = m' + 1 := ⟨m - 1, by omega⟩
              rw [hm', flush_loop_idle file type count m' k' e n s'.wf hnof]
              exact ⟨e, k', rfl, hpost'⟩
        · right
          refine ⟨e, k, flush_loop_keep file type count m kc k e n hres ht, P, F1, W, s1, herr,
            Or.inl hnod, fun hr => absurd hr ht⟩
      · obtain ⟨e', k1, P', F', Wd, hfl, s2, hperm, herr2⟩ :=
          flush_burst_spec file type kc0 k burst P F1 W s1
        have hdirty := flush_burst_dirty file type kc0 k k1 burst P F1 W e' s1 hfl
        have hnod : ∀ x, ¬ dirty_of k1 file x := fun x hx =>
          (hdirty x hx).2 (hall x (hdirty x hx).1)
        have herr3 := flush_errno_iff e e' W Wd herr herr2
        rw [flush_loop_burst file type count m kc k k1 burst e e' n hres hb hfl]
        by_cases hx : e' ≠ 0 ∧ e = e' ∧ n + 1 > 5
        · rw [if_pos hx]
          right
          have he : e ≠ 0 := by rw [hx.2.1]; exact hx.1
          refine ⟨e, k1, rfl, P ++ P', F', W ++ Wd, s2, ?_, Or.inl hnod, fun _ => Or.inr he⟩
          rw [if_pos hx.1, ← hx.2.1] at herr3
          exact herr3
        · rw [if_neg hx]
          by_cases ht : type ≠ FLUSH_KEEP
          · rw [if_pos ht]
            have hle := s2.rel.written_le D0 hD
            have hpl : 0 < P'.length := by
              rw [hperm.length_eq]; exact List.length_pos.2 hb
            rw [List.length_append] at hle
            exact ih k1 _ _ (P ++ P') F' (W ++ Wd) s2 herr3
              (by rw [List.length_append]; omega)
          · rw [if_neg ht]
            right
            refine ⟨_, k1, rfl, P ++ P', F', W ++ Wd, s2, herr3, Or.inl hnod, fun hr => ?_⟩
            exact absurd (Or.inl (by
              cases type with
              | FLUSH_KEEP => rfl
              | FLUSH_RELEASE => exact absurd (by simp) ht
              | FLUSH_IGNORE_CHANGED => exact absurd (by simp) ht
              | FLUSH_FORCE_WRITE => exact absurd (by simp) ht)) hr

theorem mem_dirty_blocks {kc : KEY_CACHE} (c : CHAIN_INV kc) (f x : Nat) :
    x ∈ dirty_blocks kc f ↔ dirty_of kc f x := by
  unfold dirty_blocks
  rw [List.mem_filter, c.changed_iff]
  constructor
  · rintro ⟨⟨h, hh, hc, -⟩, hp⟩
    rw [hh] at hp
    exact ⟨⟨h, hh, by simpa using hp⟩, hc⟩
  · rintro ⟨⟨h, hh, hf⟩, hc⟩
    refine ⟨⟨h, hh, hc, by rw [hf]⟩, ?_⟩
    rw [hh]
    simpa using hf

theorem flush_count_fold (kc : KEY_CACHE) (file : Nat) :
    ∀ (l : List Nat) (n : Nat),
      (∀ x, x ∈ l → (kc.block_root x).hash_link ≠ none ∧
        (kc.block_root x).status.in_flush = false) →
      l.foldl
        (fun (acc : Option Nat) block =>
          match acc, (kc.block_root block).hash_link with
          | some n, some h =>
            if (kc.hash_link_root h).file = file ∧ (kc.block_root block).status.in_flush = false
            then some (n + 1) else some n
          | _, _ => none)
        (some n) =
      some (n + (l.filter fun b =>
        match (kc.block_root b).hash_link with
        | some h => decide ((kc.hash_link_root h).file = file)
        | none => false).length) := by
  intro l
  induction l with
  | nil => intro n _; rfl
  | cons b rest ih =>
    intro n hl
    obtain ⟨h1, h2⟩ := hl b (List.mem_cons_self _ _)
    obtain ⟨h, hh⟩ := Option.ne_none_iff_exists'.1 h1
    rw [List.foldl_cons, List.filter_cons]
    rewrite [hh]
    dsimp only []
    by_cases hf : (kc.hash_link_root h).file = file
    · rw [if_pos ⟨hf, h2⟩, if_pos (by simpa using hf),
        ih (n + 1) (fun x hx => hl x (List.mem_cons_of_mem _ hx)), List.length_cons]
      congr 1
      omega
    · rw [if_neg (fun hc => hf hc.1), if_neg (by simpa using hf),
        ih n (fun x hx => hl x (List.mem_cons_of_mem _ hx))]

/-- The size of the write burst array. -/
theorem flush_count_spec (kc : KEY_CACHE) (file : Nat) (type : flush_type) (malloc_ok : Bool)
    (wf : WF kc none []) :
    ∃ count, flush_count kc file type malloc_ok = some count ∧ 0 < count ∧
      (type ≠ FLUSH_IGNORE_CHANGED → burst_fits kc file malloc_ok →
        (dirty_blocks kc file).length ≤ count) := by
  unfold flush_count
  by_cases ht : type ≠ FLUSH_IGNORE_CHANGED
  · rw [if_pos ht]
    have hl : ∀ x, x ∈ kc.changed_blocks (FILE_HASH file) →
        (kc.block_root x).hash_link ≠ none ∧ (kc.block_root x).status.in_flush = false := by
      intro x hx
      obtain ⟨h, hh, -, -⟩ := (wf.chain.changed_iff _ x).1 hx
      have hne : (kc.block_root x).hash_link ≠ none := by rw [hh]; simp
      obtain ⟨-, -, -, -, -, -, o7, -⟩ := wf.stat.used x hne (by simp)
      refine ⟨hne, ?_⟩
      cases hc : (kc.block_root x).status.in_flush with
      | false => rfl
      | true => exact absurd (o7.1 hc) (by simp)
    generalize hfold : List.foldl _ (some 0) (kc.changed_blocks (FILE_HASH file)) = r
    have hr : r = some (0 + (dirty_blocks kc file).length) :=
      hfold.symm.trans (flush_count_fold kc file _ 0 hl)
    rw [hr, Nat.zero_add]
    dsimp only []
    by_cases hc : (dirty_blocks kc file).length > FLUSH_CACHE ∧ malloc_ok = true
    · rw [if_pos hc]
      exact ⟨_, rfl, (by have := hc.1; unfold FLUSH_CACHE at this; omega), (fun _ _ => le_refl _)⟩
    · rw [if_neg hc]
      refine ⟨_, rfl, by decide, ?_⟩
      rintro - (h1 | h1)
      · by_contra h2
        exact hc ⟨by omega, h1⟩
      · exact h1
  · rw [if_neg ht]
    exact ⟨_, rfl, by decide, fun h => absurd h ht⟩

/-- A flush that ignores the changes calls `my_pwrite` for no block. -/
theorem FLUSHING.ignore_quiet {kc0 kc : KEY_CACHE} {f : Nat} {type : flush_type}
    {fl P F : List Nat} {W : List PWRITE_CALL} (s : FLUSHING kc0 kc f type fl P F W)
    (ht : type = FLUSH_IGNORE_CHANGED) : P = [] ∧ W = [] := by
  have hp := (s.ign ht).2
  have hw := s.rel.written
  rw [hp] at hw
  exact ⟨hp, List.forall₂_nil_left_iff.1 hw⟩

/-- What `flush_key_blocks_int` does on a well-formed cache: it returns, unless
it is to release the blocks of a file of which a block carries `BLOCK_ERROR`. -/
theorem flush_key_blocks_int_spec (kc : KEY_CACHE) (file : Nat) (type : flush_type)
    (malloc_ok : Bool) (wf : WF kc none [])
    (hon : kc.disk_blocks > 0 ∧ (kc.my_disable_flush_key_blocks = false ∨ type ≠ FLUSH_KEEP)) :
    (flush_key_blocks_int kc file type malloc_ok = none ∧ releasing type ∧ ¬ NOERR kc file) ∨
    ∃ e kc', flush_key_blocks_int kc file type malloc_ok = some (decide (e ≠ 0), kc') ∧
      FLUSH_POST kc file type (burst_fits kc file malloc_ok) e kc' := by
  obtain ⟨count, hcnt, hpos, hfits⟩ := flush_count_spec kc file type malloc_ok wf
  have hD : ∀ x, dirty_of kc file x → x ∈ kc.changed_blocks (FILE_HASH file) := by
    intro x hx
    obtain ⟨⟨h, hh, hf⟩, hc⟩ := hx
    exact (wf.chain.changed_iff _ x).2 ⟨h, hh, hc, by rw [hf]⟩
  have hnd : (dirty_blocks kc file).Nodup := (wf.chain.changed_nodup _).filter _
  have key := flush_loop_spec file type count kc
    (burst_fits kc file malloc_ok ∧ type ≠ FLUSH_IGNORE_CHANGED)
    (kc.changed_blocks (FILE_HASH file)) hpos hD
    (fun hft => ⟨dirty_blocks kc file, hnd,
      (fun x hx => (mem_dirty_blocks wf.chain file x).2 hx), hfits hft.2 hft.1⟩)
    ((kc.changed_blocks (FILE_HASH file)).length + (kc.file_blocks (FILE_HASH file)).length + 2)
    kc 0 0 [] [] [] (FLUSHING.at_entry wf file type) (by simp)
    (by rw [List.length_nil]; omega)
  unfold flush_key_blocks_int
  rw [if_pos hon]
  rewrite [hcnt]
  dsimp only []
  rcases key with ⟨hnone, hrel, hne⟩ | ⟨e', kc', hloop, P, F, W, s, he, hd, hr⟩
  · left
    rewrite [hnone]
    exact ⟨rfl, hrel, hne⟩
  · right
    rewrite [hloop]
    refine ⟨e', kc', rfl, P, F, W, s, he, ?_, hr⟩
    rcases hd with h1 | ⟨h1, h2⟩
    · exact Or.inl h1
    · by_cases ht : type = FLUSH_IGNORE_CHANGED
      · exfalso
        obtain ⟨w, hw, -⟩ := he.1 h1
        rw [(s.ignore_quiet ht).2] at hw
        cases hw
      · exact Or.inr ⟨h1, fun hc => h2 ⟨hc, ht⟩⟩

/-- The counter of operations that block a resize does not matter to the
relation between the states of a flush. -/
theorem FLUSH_POST.counter {kc0 kc : KEY_CACHE} {f : Nat} {type : flush_type} {fit : Prop}
    {e : Int} (p : FLUSH_POST (inc_counter_for_resize_op kc0) f type fit e kc) :
    FLUSH_POST kc0 f type fit e (dec_counter_for_resize_op kc) := by
  obtain ⟨P, F, W, s, he, hd, hr⟩ := p
  refine ⟨P, F, W, ?_, he, hd, hr⟩
  have wfd : WF (dec_counter_for_resize_op kc) none [] :=
    @WF.congr_wf kc (dec_counter_for_resize_op kc) none [] s.wf rfl rfl rfl rfl rfl rfl rfl rfl
      rfl rfl rfl rfl rfl rfl (fun _ => rfl) (fun _ => rfl) (fun _ => rfl) (fun _ => rfl) rfl (fun h => h)
  exact
    { wf := wfd
      rel :=
        { config := s.rel.config
          used := s.rel.used
          frame := s.rel.frame
          frame_links := s.rel.frame_links
          kept := s.rel.kept
          unused := s.rel.unused
          pool := s.rel.pool
          pool_file := s.rel.pool_file
          log := s.rel.log
          written := s.rel.written
          written_dirty := s.rel.written_dirty
          written_nodup := s.rel.written_nodup }
      cover := s.cover
      noerr := s.noerr
      ign := s.ign
      fl_file := s.fl_file
      aux := fun a =>
        @AUX.congr_aux kc (dec_counter_for_resize_op kc)
          (s.aux (@AUX.congr_aux kc0 (inc_counter_for_resize_op kc0) a rfl rfl rfl rfl
            (fun _ => aux_same_refl _)))
          rfl rfl rfl rfl (fun _ => aux_same_refl _) }

/-- What `flush_key_blocks` does on a well-formed cache in use. -/
theorem flush_key_blocks_spec (kc : KEY_CACHE) (file : Nat) (type : flush_type)
    (malloc_ok : Bool) (wf : WF kc none []) (hinit : kc.key_cache_inited = true)
    (hon : kc.my_disable_flush_key_blocks = false ∨ type ≠ FLUSH_KEEP) :
    (flush_key_blocks kc file type malloc_ok = none ∧ releasing type ∧ ¬ NOERR kc file) ∨
    ∃ e kc', flush_key_blocks kc file type malloc_ok = some (decide (e ≠ 0), kc') ∧
      FLUSH_POST kc file type (burst_fits kc file malloc_ok) e kc' := by
  have hpos : kc.disk_blocks > 0 := by
    have := wf.cnt.blocks_pos
    unfold nblocks at this
    omega
  have wf1 : WF (inc_counter_for_resize_op kc) none [] :=
    @WF.congr_wf kc (inc_counter_for_resize_op kc) none [] wf rfl rfl rfl rfl rfl rfl rfl rfl
      rfl rfl rfl rfl rfl rfl (fun _ => rfl) (fun _ => rfl) (fun _ => rfl) (fun _ => rfl) rfl (fun h => h)
  unfold flush_key_blocks
  rw [if_neg (by rw [hinit]; simp), if_pos hpos]
  rcases flush_key_blocks_int_spec (inc_counter_for_resize_op kc) file type malloc_ok wf1
      ⟨hpos, hon⟩ with ⟨hnone, hrel, hne⟩ | ⟨e, kc', hint, hp⟩
  · left
    rewrite [hnone]
    exact ⟨rfl, hrel, hne⟩
  · right
    rewrite [hint]
    exact ⟨e, _, rfl, hp.counter⟩

/-- A flush that is switched off returns 0 and leaves the cache as it is, up
to the counter of operations that block a resize. -/
theorem flush_key_blocks_off (kc : KEY_CACHE) (file : Nat) (type : flush_type)
    (malloc_ok : Bool) (hinit : kc.key_cache_inited = true) (hpos : kc.disk_blocks > 0)
    (hoff : ¬ (kc.my_disable_flush_key_blocks = false ∨ type ≠ FLUSH_KEEP)) :
    flush_key_blocks kc file type malloc_ok =
      some (false, dec_counter_for_resize_op (inc_counter_for_resize_op kc)) := by
  unfold flush_key_blocks
  rw [if_neg (by rw [hinit]; simp), if_pos hpos]
  unfold flush_key_blocks_int
  rw [if_neg (fun hc => hoff hc.2)]

/-! ## Flushing the whole cache -/

/-- A flush of type `FLUSH_FORCE_WRITE` or `FLUSH_RELEASE` that returns leaves a
well-formed cache. -/
theorem flush_key_blocks_int_wf (kc kc' : KEY_CACHE) (file : Nat) (type : flush_type)
    (malloc_ok res : Bool) (wf : WF kc none []) (ht : type ≠ FLUSH_KEEP)
    (h : flush_key_blocks_int kc file type malloc_ok = some (res, kc')) : WF kc' none [] := by
  have hpos : kc.disk_blocks > 0 := by
    have := wf.cnt.blocks_pos
    unfold nblocks at this
    omega
  rcases flush_key_blocks_int_spec kc file type malloc_ok wf ⟨hpos, Or.inr ht⟩ with
    ⟨hnone, -, -⟩ | ⟨e, k, hk, P, F, W, s, -⟩
  · rw [hnone] at h; cases h
  · rw [hk] at h
    have e3 : k = kc' := congrArg Prod.snd (Option.some.inj h)
    rw [← e3]; exact s.wf

theorem flush_all_sweep_spec (dirty malloc_ok : Bool) :
    ∀ (l : List Nat) (kc kc' : KEY_CACHE) (found found' : Nat) (err : Bool),
      WF kc none [] →
      flush_all_sweep dirty malloc_ok l kc found = some (err, found', kc') →
      WF kc' none [] ∧ found ≤ found' ∧
      (found' = found → kc' = kc ∧ err = false ∧
        ∀ idx, idx ∈ l → (if dirty then kc.changed_blocks idx else kc.file_blocks idx) = []) := by
  intro l
  induction l with
  | nil =>
    intro kc kc' found found' err wf h
    rw [flush_all_sweep] at h
    have e := Option.some.inj h
    have e1 : false = err := congrArg Prod.fst e
    have e2 : found = found' := congrArg (fun x => x.2.1) e
    have e3 : kc = kc' := congrArg (fun x => x.2.2) e
    rw [← e3]
    exact ⟨wf, by omega, fun _ => ⟨rfl, e1.symm, fun idx hx => by cases hx⟩⟩
  | cons i rest ih =>
    intro kc kc' found found' err wf h
    rw [flush_all_sweep] at h
    cases hc : (if dirty then kc.changed_blocks i else kc.file_blocks i) with
    | nil =>
      rw [hc] at h
      dsimp only [] at h
      obtain ⟨a1, a2, a3⟩ := ih kc kc' found found' err wf h
      refine ⟨a1, a2, fun hf => ?_⟩
      obtain ⟨b1, b2, b3⟩ := a3 hf
      refine ⟨b1, b2, fun idx hx => ?_⟩
      rcases List.mem_cons.1 hx with h1 | h1
      · rw [h1]; exact hc
      · exact b3 idx h1
    | cons b tl =>
      rw [hc] at h
      dsimp only [] at h
      cases hh : (kc.block_root b).hash_link with
      | none => rw [hh] at h; cases h
      | some l =>
        rw [hh] at h
        dsimp only [] at h
        cases hfl : flush_key_blocks_int kc (kc.hash_link_root l).file
            (if dirty then FLUSH_FORCE_WRITE else FLUSH_RELEASE) malloc_ok with
        | none => rw [hfl] at h; cases h
        | some r =>
          obtain ⟨res, k⟩ := r
          have wfk : WF k none [] :=
            flush_key_blocks_int_wf kc k _ _ malloc_ok res wf (by cases dirty <;> simp) hfl
          rw [hfl] at h
          cases res with
          | true =>
            dsimp only [] at h
            have e := Option.some.inj h
            have e2 : found + 1 = found' := congrArg (fun x => x.2.1) e
            have e3 : k = kc' := congrArg (fun x => x.2.2) e
            rw [← e3]
            exact ⟨wfk, by omega, fun hf => by omega⟩
          | false =>
            dsimp only [] at h
            obtain ⟨a1, a2, -⟩ := ih k kc' (found + 1) found' err wfk h
            exact ⟨a1, by omega, fun hf => by omega⟩

theorem flush_all_phase_spec (dirty malloc_ok : Bool) :
    ∀ (fuel : Nat) (kc kc' : KEY_CACHE) (total total' : Nat),
      WF kc none [] →
      flush_all_phase dirty malloc_ok fuel kc total = some (false, total', kc') →
      WF kc' none [] ∧ total ≤ total' ∧ (total' = total → kc' = kc) ∧
      ∀ idx, idx < CHANGED_BLOCKS_HASH →
        (if dirty then kc'.changed_blocks idx else kc'.file_blocks idx) = [] := by
  intro fuel
  induction fuel with
  | zero => intro kc kc' total total' _ h; rw [flush_all_phase] at h; cases h
  | succ n ih =>
    intro kc kc' total total' wf h
    rw [flush_all_phase] at h
    cases hs : flush_all_sweep dirty malloc_ok (List.range CHANGED_BLOCKS_HASH) kc 0 with
    | none => rw [hs] at h; cases h
    | some r =>
      obtain ⟨err, found, k⟩ := r
      obtain ⟨a1, a2, a3⟩ := flush_all_sweep_spec dirty malloc_ok _ kc k 0 found err wf hs
      rw [hs] at h
      cases err with
      | true =>
        dsimp only [] at h
        have e1 : true = false := congrArg Prod.fst (Option.some.inj h)
        cases e1
      | false =>
        dsimp only [] at h
        by_cases hf : found ≠ 0
        · rw [if_pos hf] at h
          obtain ⟨b1, b2, b3, b4⟩ := ih k kc' (total + found) total' a1 h
          exact ⟨b1, by omega, fun hc => by omega, b4⟩
        · rw [if_neg hf] at h
          have e := Option.some.inj h
          have e2 : total = total' := congrArg (fun x => x.2.1) e
          have e3 : k = kc' := congrArg (fun x => x.2.2) e
          have hf0 : found = 0 := by omega
          obtain ⟨c1, -, c3⟩ := a3 hf0
          rw [← e3, c1]
          exact ⟨wf, by omega, fun _ => rfl, fun idx hi => c3 idx (List.mem_range.2 hi)⟩

theorem flush_all_loop_spec (malloc_ok : Bool) :
    ∀ (fuel : Nat) (kc kc' : KEY_CACHE), WF kc none [] →
      flush_all_key_blocks_loop malloc_ok fuel kc = some (false, kc') →
      WF kc' none [] ∧
      ∀ idx, idx < CHANGED_BLOCKS_HASH →
        kc'.changed_blocks idx = [] ∧ kc'.file_blocks idx = [] := by
  intro fuel
  induction fuel with
  | zero => intro kc kc' _ h; rw [flush_all_key_blocks_loop] at h; cases h
  | succ n ih =>
    intro kc kc' wf h
    rw [flush_all_key_blocks_loop] at h
    cases h1 : flush_all_phase true malloc_ok (nblocks kc + 1) kc 0 with
    | none => rw [h1] at h; cases h
    | some r =>
      obtain ⟨err, t1, k1⟩ := r
      rw [h1] at h
      cases err with
      | true =>
        dsimp only [] at h
        have e1 : true = false := congrArg Prod.fst (Option.some.inj h)
        cases e1
      | false =>
        dsimp only [] at h
        obtain ⟨a1, -, -, a4⟩ := flush_all_phase_spec true malloc_ok _ kc k1 0 t1 wf h1
        cases h2 : flush_all_phase false malloc_ok (nblocks k1 + 1) k1 0 with
        | none => rw [h2] at h; cases h
        | some r2 =>
          obtain ⟨err2, t2, k2⟩ := r2
          rw [h2] at h
          cases err2 with
          | true =>
            dsimp only [] at h
            have e1 : true = false := congrArg Prod.fst (Option.some.inj h)
            cases e1
          | false =>
            dsimp only [] at h
            obtain ⟨b1, -, b3, b4⟩ := flush_all_phase_spec false malloc_ok _ k1 k2 0 t2 a1 h2
            by_cases ht : t2 ≠ 0
            · rw [if_pos ht] at h
              exact ih k2 kc' b1 h
            · rw [if_neg ht] at h
              have e3 : k2 = kc' := congrArg Prod.snd (Option.some.inj h)
              have hk : k2 = k1 := b3 (by omega)
              rw [← e3]
              refine ⟨b1, fun idx hi => ⟨?_, ?_⟩⟩
              · have := a4 idx hi
                rw [if_pos rfl] at this
                rw [hk]; exact this
              · have := b4 idx hi
                rw [if_neg (by simp)] at this
                exact this

theorem FILE_HASH_lt (f : Nat) : FILE_HASH f < CHANGED_BLOCKS_HASH := by
  unfold FILE_HASH CHANGED_BLOCKS_HASH
  have : Nat.land f (128 - 1) ≤ 128 - 1 := Nat.and_le_right
  omega

/-- A well-formed cache whose clean and dirty chains are empty holds no block. -/
theorem empty_of_chains (kc : KEY_CACHE) (wf : WF kc none [])
    (h : ∀ idx, idx < CHANGED_BLOCKS_HASH →
      kc.changed_blocks idx = [] ∧ kc.file_blocks idx = []) :
    (∀ b, (kc.block_root b).status = {} ∧ (kc.block_root b).requests = 0 ∧
      (kc.block_root b).hash_link = none) ∧
    (∀ l, (kc.hash_link_root l).requests = 0 ∧ (kc.hash_link_root l).block = none) ∧
    (∀ i, kc.changed_blocks i = [] ∧ kc.file_blocks i = []) := by
  have hfree : ∀ b, (kc.block_root b).hash_link = none := by
    intro b
    cases hh : (kc.block_root b).hash_link with
    | none => rfl
    | some l =>
      exfalso
      obtain ⟨h1, h2⟩ := h _ (FILE_HASH_lt (kc.hash_link_root l).file)
      cases hc : (kc.block_root b).status.changed with
      | true =>
        have := (wf.chain.changed_iff _ b).2 ⟨l, hh, hc, rfl⟩
        rw [h1] at this; cases this
      | false =>
        have := (wf.chain.file_iff _ b).2 ⟨l, hh, hc, rfl⟩
        rw [h2] at this; cases this
  refine ⟨fun b => ⟨wf.stat.free b (hfree b), wf.req.block_free b (by simp) (by simp), hfree b⟩,
    fun l => ⟨wf.req.link_free l (fun b hb => by cases hb), ?_⟩, fun i => ⟨?_, ?_⟩⟩
  · cases hb : (kc.hash_link_root l).block with
    | none => rfl
    | some b =>
      have := wf.hash.link_back l b hb
      rw [hfree b] at this; cases this
  · cases hc : kc.changed_blocks i with
    | nil => rfl
    | cons b tl =>
      obtain ⟨l, hl, -⟩ := (wf.chain.changed_iff i b).1 (by rw [hc]; exact List.mem_cons_self _ _)
      rw [hfree b] at hl; cases hl
  · cases hc : kc.file_blocks i with
    | nil => rfl
    | cons b tl =>
      obtain ⟨l, hl, -⟩ := (wf.chain.file_iff i b).1 (by rw [hc]; exact List.mem_cons_self _ _)
      rw [hfree b] at hl; cases hl

/-- With the cache disabled `find_key_block` returns NULL at once. -/
theorem find_key_block_disabled (kc : KEY_CACHE) (file filepos level : Nat) (wrmode : Bool)
    (h : kc.can_be_used = false) :
    find_key_block kc file filepos level wrmode = some (none, kc) := by
  unfold find_key_block
  rw [if_pos h]

/-- The outcome of `pread_direct` depends on the file store only. -/
theorem pread_direct_disk (kc k : KEY_CACHE) (file count pos : Nat) (buff : Nat → Nat)
    (dst : Nat) (hd : k.disk = kc.disk) :
    (pread_direct k file count pos buff dst).1 = (pread_direct kc file count pos buff dst).1 ∧
    (pread_direct k file count pos buff dst).2.1 =
      (pread_direct kc file count pos buff dst).2.1 ∧
    (pread_direct k file count pos buff dst).2.2.disk =
      (pread_direct kc file count pos buff dst).2.2.disk ∧
    (pread_direct k file count pos buff dst).2.2.block_root = k.block_root ∧
    (pread_direct k file count pos buff dst).2.2.hash_link_root = k.hash_link_root ∧
    (pread_direct k file count pos buff dst).2.2.global_cache_read = k.global_cache_read := by
  unfold pread_direct
  rw [hd]
  exact ⟨rfl, rfl, rfl, rfl, rfl, rfl⟩

/-- With the cache disabled `key_cache_read` is one `my_pread` of the whole
range into the caller's buffer; the blocks are not touched. -/
theorem key_cache_read_disabled (kc : KEY_CACHE) (file filepos level : Nat) (buff : Nat → Nat)
    (length : Nat) (h : kc.can_be_used = false) (hr : kc.in_resize = false) :
    ∃ kc', key_cache_read kc file filepos level buff length =
        some ((pread_direct kc file length filepos buff 0).1,
          (pread_direct kc file length filepos buff 0).2.1, kc') ∧
      kc'.disk = (pread_direct kc file length filepos buff 0).2.2.disk ∧
      kc'.block_root = kc.block_root ∧ kc'.hash_link_root = kc.hash_link_root ∧
      kc'.global_cache_read = kc.global_cache_read + 1 := by
  unfold key_cache_read
  by_cases hi : kc.key_cache_inited = true
  · rw [if_pos hi, if_neg (by rw [hr]; simp)]
    dsimp only []
    rw [key_cache_read_loop, key_cache_read_chunk]
    rw [if_pos (by exact h)]
    dsimp only []
    obtain ⟨p1, p2, p3, p4, p5, p6⟩ := pread_direct_disk kc
      { inc_counter_for_resize_op kc with
        global_cache_r_requests := (inc_counter_for_resize_op kc).global_cache_r_requests + 1
        global_cache_read := (inc_counter_for_resize_op kc).global_cache_read + 1 }
      file length filepos buff 0 rfl
    generalize pread_direct
      { inc_counter_for_resize_op kc with
        global_cache_r_requests := (inc_counter_for_resize_op kc).global_cache_r_requests + 1
        global_cache_read := (inc_counter_for_resize_op kc).global_cache_read + 1 }
      file length filepos buff 0 = r at p1 p2 p3 p4 p5 p6
    obtain ⟨err, b', k'⟩ := r
    dsimp only [] at p1 p2 p3 p4 p5 p6 ⊢
    rw [← p1, ← p2, ← p3]
    refine ⟨dec_counter_for_resize_op k', ?_, rfl, p4, p5, p6⟩
    cases err <;> rfl
  · rw [if_neg hi]
    dsimp only []
    obtain ⟨p1, p2, p3, p4, p5, p6⟩ := pread_direct_disk kc
      { kc with
        global_cache_r_requests := kc.global_cache_r_requests + 1
        global_cache_read := kc.global_cache_read + 1 }
      file length filepos buff 0 rfl
    generalize pread_direct
      { kc with
        global_cache_r_requests := kc.global_cache_r_requests + 1
        global_cache_read := kc.global_cache_read + 1 }
      file length filepos buff 0 = r at p1 p2 p3 p4 p5 p6
    obtain ⟨err, b', k'⟩ := r
    dsimp only [] at p1 p2 p3 p4 p5 p6 ⊢
    rw [← p1, ← p2, ← p3]
    exact ⟨k', rfl, rfl, p4, p5, p6⟩

/-- The outcome of `pwrite_direct` depends on the file store only. -/
theorem pwrite_direct_disk (kc k : KEY_CACHE) (file : Nat) (buff : List Nat) (pos : Nat)
    (hd : k.disk = kc.disk) :
    (pwrite_direct k file buff pos).1 = (my_pwrite kc.disk file buff pos).1.isSome ∧
    (pwrite_direct k file buff pos).2.disk = (my_pwrite kc.disk file buff pos).2 ∧
    (pwrite_direct k file buff pos).2.block_root = k.block_root ∧
    (pwrite_direct k file buff pos).2.hash_link_root = k.hash_link_root ∧
    (pwrite_direct k file buff pos).2.global_cache_write = k.global_cache_write ∧
    (pwrite_direct k file buff pos).2.can_be_used = k.can_be_used ∧
    (pwrite_direct k file buff pos).2.in_resize = k.in_resize ∧
    (pwrite_direct k file buff pos).2.key_cache_inited = k.key_cache_inited := by
  unfold pwrite_direct
  rw [hd]
  exact ⟨rfl, rfl, rfl, rfl, rfl, rfl, rfl, rfl⟩

/-- With the cache disabled `key_cache_write` is one `my_pwrite` of the whole
buffer; the blocks are not touched. -/
theorem key_cache_write_disabled (kc : KEY_CACHE) (file filepos level : Nat) (buff : List Nat)
    (dont_write : Bool) (h : kc.can_be_used = false) (hr : kc.in_resize = false) :
    ∃ kc', key_cache_write kc file filepos level buff dont_write =
        some ((my_pwrite kc.disk file buff filepos).1.isSome, kc') ∧
      kc'.disk = (my_pwrite kc.disk file buff filepos).2 ∧
      kc'.block_root = kc.block_root ∧ kc'.hash_link_root = kc.hash_link_root ∧
      kc'.global_cache_write = kc.global_cache_write + 1 := by
  unfold key_cache_write
  cases dont_write with
  | true =>
    rw [if_neg (by simp)]
    unfold key_cache_write_cached
    by_cases hi : kc.key_cache_inited = true
    · rw [if_pos hi, if_neg (by rw [hr]; simp), key_cache_write_loop, key_cache_write_chunk]
      rw [if_pos (by exact h), if_pos rfl]
      dsimp only []
      obtain ⟨p1, p2, p3, p4, p5, -⟩ := pwrite_direct_disk kc
        { inc_counter_for_resize_op kc with
          global_cache_w_requests := (inc_counter_for_resize_op kc).global_cache_w_requests + 1
          global_cache_write := (inc_counter_for_resize_op kc).global_cache_write + 1 }
        file buff filepos rfl
      generalize pwrite_direct
        { inc_counter_for_resize_op kc with
          global_cache_w_requests := (inc_counter_for_resize_op kc).global_cache_w_requests + 1
          global_cache_write := (inc_counter_for_resize_op kc).global_cache_write + 1 }
        file buff filepos = r at p1 p2 p3 p4 p5
      obtain ⟨err, k'⟩ := r
      dsimp only [] at p1 p2 p3 p4 p5 ⊢
      rw [← p1, ← p2]
      refine ⟨dec_counter_for_resize_op k', ?_, rfl, p3, p4, p5⟩
      cases err <;> rfl
    · rw [if_neg hi, if_pos rfl]
      obtain ⟨p1, p2, p3, p4, p5, -⟩ := pwrite_direct_disk kc
        { kc with
          global_cache_w_requests := kc.global_cache_w_requests + 1
          global_cache_write := kc.global_cache_write + 1 }
        file buff filepos rfl
      generalize pwrite_direct
        { kc with
          global_cache_w_requests := kc.global_cache_w_requests + 1
          global_cache_write := kc.global_cache_write + 1 }
        file buff filepos = r at p1 p2 p3 p4 p5
      obtain ⟨err, k'⟩ := r
      dsimp only [] at p1 p2 p3 p4 p5 ⊢
      rw [← p1, ← p2]
      exact ⟨k', rfl, rfl, p3, p4, p5⟩
  | false =>
    rw [if_pos rfl]
    unfold key_cache_write_forced
    obtain ⟨p1, p2, p3, p4, p5, p6, p7, p8⟩ := pwrite_direct_disk kc
      { kc with
        global_cache_w_requests := kc.global_cache_w_requests + 1
        global_cache_write := kc.global_cache_write + 1 }
      file buff filepos rfl
    generalize pwrite_direct
      { kc with
        global_cache_w_requests := kc.global_cache_w_requests + 1
        global_cache_write := kc.global_cache_write + 1 }
      file buff filepos = r at p1 p2 p3 p4 p5 p6 p7 p8
    obtain ⟨err, k'⟩ := r
    dsimp only [] at p1 p2 p3 p4 p5 p6 p7 p8 ⊢
    rw [← p1, ← p2]
    cases err with
    | true =>
      rw [if_pos rfl]
      exact ⟨k', rfl, rfl, p3, p4, p5⟩
    | false =>
      rw [if_neg (by simp)]
      unfold key_cache_write_cached
      by_cases hi : k'.key_cache_inited = true
      · rw [if_pos hi, if_neg (by rw [p7, hr]; simp), key_cache_write_loop,
          key_cache_write_chunk]
        rw [if_pos (by show k'.can_be_used = false; rw [p6]; exact h), if_neg (by simp)]
        exact ⟨_, rfl, rfl, p3, p4, p5⟩
      · rw [if_neg hi, if_neg (by simp)]
        exact ⟨_, rfl, rfl, p3, p4, p5⟩

/-- An empty status word has the value 0. -/
theorem status_empty_toNat : ({} : STATUS).toNat = 0 := rfl

theorem cache_empty_of (kc : KEY_CACHE)
    (hb : ∀ b, (kc.block_root b).status = {} ∧ (kc.block_root b).requests = 0 ∧
      (kc.block_root b).hash_link = none)
    (hl : ∀ l, (kc.hash_link_root l).requests = 0 ∧ (kc.hash_link_root l).block = none) :
    cache_empty kc = true := by
  unfold cache_empty
  by_cases h0 : kc.disk_blocks ≤ 0
  · rw [if_pos h0]
  · rw [if_neg h0, Bool.and_eq_true, List.all_eq_true, List.all_eq_true]
    refine ⟨fun x _ => ?_, fun x _ => ?_⟩
    · obtain ⟨h1, h2, h3⟩ := hb x
      rw [decide_eq_true_iff, h1, h2, h3]
      exact ⟨rfl, rfl, rfl⟩
    · obtain ⟨h1, h2⟩ := hl x
      rw [decide_eq_true_iff, h1, h2]
      exact ⟨rfl, rfl⟩

/-- Two caches with the same fields are the same. -/
theorem KEY_CACHE.eq_of_fields (a b : KEY_CACHE)
    (h1 : a.key_cache_inited = b.key_cache_inited)
    (h2 : a.in_resize = b.in_resize)
    (h3 : a.resize_in_flush = b.resize_in_flush)
    (h4 : a.can_be_used = b.can_be_used)
    (h5 : a.key_cache_mem_size = b.key_cache_mem_size)
    (h6 : a.key_cache_block_size = b.key_cache_block_size)
    (h7 : a.min_warm_blocks = b.min_warm_blocks)
    (h8 : a.age_threshold = b.age_threshold)
    (h9 : a.keycache_time = b.keycache_time)
    (h10 : a.hash_entries = b.hash_entries)
    (h11 : a.hash_links = b.hash_links)
    (h12 : a.hash_links_used = b.hash_links_used)
    (h13 : a.disk_blocks = b.disk_blocks)
    (h14 : a.blocks_used = b.blocks_used)
    (h15 : a.blocks_unused = b.blocks_unused)
    (h16 : a.blocks_changed = b.blocks_changed)
    (h17 : a.warm_blocks = b.warm_blocks)
    (h18 : a.cnt_for_resize_op = b.cnt_for_resize_op)
    (h19 : a.block_root = b.block_root)
    (h20 : a.hash_link_root = b.hash_link_root)
    (h21 : a.hash_root = b.hash_root)
    (h22 : a.free_hash_list = b.free_hash_list)
    (h23 : a.free_block_list = b.free_block_list)
    (h24 : a.used_ring = b.used_ring)
    (h25 : a.used_ins = b.used_ins)
    (h26 : a.changed_blocks = b.changed_blocks)
    (h27 : a.file_blocks = b.file_blocks)
    (h28 : a.global_blocks_changed = b.global_blocks_changed)
    (h29 : a.global_cache_w_requests = b.global_cache_w_requests)
    (h30 : a.global_cache_write = b.global_cache_write)
    (h31 : a.global_cache_r_requests = b.global_cache_r_requests)
    (h32 : a.global_cache_read = b.global_cache_read)
    (h33 : a.my_disable_flush_key_blocks = b.my_disable_flush_key_blocks)
    (h34 : a.disk = b.disk) :
    a = b := by
  cases a
  cases b
  dsimp only [] at *
  subst_vars
  rfl

theorem reg_requests_pinned (kc : KEY_CACHE) (b : Nat) (hreq : (kc.block_root b).requests = 0)
    (hb : b ∈ kc.used_ring) :
    reg_requests kc b 1 = some (pinned_state kc b (pinned_ins kc.used_ring kc.used_ins b)) := by
  unfold reg_requests
  rw [if_pos hreq]
  unfold unlink_block
  rw [if_pos hb]
  unfold pinned_ins pinned_state
  by_cases h1 : kc.used_ring = [b]
  · rw [if_pos h1, if_pos h1]
    dsimp only []
    rw [hreq, h1]
    simp [set_block]
  · rw [if_neg h1, if_neg h1]
    dsimp only []
    rw [hreq]

theorem erase_erase_self (l : List Nat) (v : Nat) (h : l.Nodup) :
    (l.erase v).erase v = l.erase v :=
  List.erase_of_not_mem (fun hc => ((List.Nodup.mem_erase_iff h).1 hc).1 rfl)

theorem erase_update_erase (l : Nat → List Nat) (a v : Nat) (hf : ∀ i, (l i).Nodup) (i : Nat) :
    (Function.update (fun i => (l i).erase v) a (v :: (l a).erase v) i).erase v =
      (l i).erase v := by
  by_cases hi : i = a
  · rw [hi, Function.update_same, List.erase_cons_head]
  · rw [Function.update_noteq hi, erase_erase_self _ _ (hf i)]

theorem set_status_root_same (kc : KEY_CACHE) (b : Nat) (s : STATUS) :
    (set_status kc b s).block_root b = { kc.block_root b with status := s } := by
  simp only [set_status, set_block, Function.update_same]

theorem set_block_root_same (kc : KEY_CACHE) (b : Nat) (v : BLOCK_LINK) :
    (set_block kc b v).block_root b = v := by
  simp only [set_block, Function.update_same]

/-- The write back of the victim of an eviction. -/
theorem evict_write_back_spec (kc : KEY_CACHE) (v old : Nat)
    (hh : (kc.block_root v).hash_link = some old)
    (hfl : (kc.block_root v).status.in_flush = false) :
    evict_write_back kc v =
      some (evict_error kc v old,
        if (kc.block_root v).status.changed then
          { set_status kc v
              { (kc.block_root v).status with in_flush := true, in_flushwrite := true } with
            disk := (evict_pwrite kc v old).2
            global_cache_write := kc.global_cache_write + 1 }
        else kc) := by
  unfold evict_write_back evict_error
  by_cases hc : (kc.block_root v).status.changed = true
  · rw [if_pos hc, if_pos hc, if_pos hc, if_neg (by rw [hfl]; simp)]
    rewrite [hh]
    rfl
  · rw [if_neg hc, if_neg hc, if_neg hc]

/-- The victim of an eviction leaves its old page. -/
theorem evict_release_old_spec (kc : KEY_CACHE) (v old : Nat)
    (hh : (kc.block_root v).hash_link = some old)
    (hreq : (kc.hash_link_root old).requests = 0) :
    evict_release_old kc v =
      some (unlink_changed (unlink_hash
        (cleaned_state
          (set_status kc v
            { (kc.block_root v).status with in_flush := false, in_flushwrite := false })
          v (kc.hash_link_root old).file) old) v) := by
  unfold evict_release_old
  rewrite [hh]
  dsimp only []
  rw [link_to_file_list_eq]
  have hw : wait_for_readers
      (cleaned_state
        (set_status kc v { (kc.block_root v).status with in_flush := false, in_flushwrite := false })
        v (kc.hash_link_root old).file) v =
      some (cleaned_state
        (set_status kc v { (kc.block_root v).status with in_flush := false, in_flushwrite := false })
        v (kc.hash_link_root old).file) := by
    unfold wait_for_readers
    have e1 : ((cleaned_state
        (set_status kc v { (kc.block_root v).status with in_flush := false, in_flushwrite := false })
        v (kc.hash_link_root old).file).block_root v).hash_link = some old := by
      simp only [cleaned_state, set_status, set_block, Function.update_same]
      exact hh
    rewrite [e1]
    dsimp only []
    rw [if_neg (by
      show ¬ (kc.hash_link_root old).requests ≠ 0
      rw [hreq]; simp)]
  rewrite [hw]
  rw [Option.map_some']

/-- The state `evict_assign` leaves. -/
theorem evict_assign_eq (kc : KEY_CACHE) (b h file : Nat) (err : Option Int) :
    evict_assign kc b h file err =
      { kc with
        block_root := Function.update kc.block_root b
          { kc.block_root b with
            status := if err.isSome then BLOCK_ERROR else BLOCK_IN_USE
            length := 0, offset := kc.key_cache_block_size, hash_link := some h }
        file_blocks := Function.update kc.file_blocks (FILE_HASH file)
          (b :: kc.file_blocks (FILE_HASH file)) } := by
  unfold evict_assign link_to_file_list
  have hc : ((if err.isSome = true then BLOCK_ERROR else BLOCK_IN_USE) : STATUS).changed = false := by
    cases err <;> rfl
  simp only [link_changed, set_block, Function.update_same, hc, if_false, Bool.false_eq_true]

/-- The write back of a clean victim: nothing happens. -/
theorem evict_write_back_clean (kc : KEY_CACHE) (v : Nat)
    (hc : (kc.block_root v).status.changed = false) :
    evict_write_back kc v = some (none, kc) := by
  unfold evict_write_back
  rw [if_neg (by rw [hc]; simp)]

/-- The write back of a dirty victim. -/
theorem evict_write_back_dirty (kc : KEY_CACHE) (v old : Nat)
    (hh : (kc.block_root v).hash_link = some old)
    (hfl : (kc.block_root v).status.in_flush = false)
    (hc : (kc.block_root v).status.changed = true) :
    evict_write_back kc v =
      some ((evict_pwrite kc v old).1,
          { set_status kc v
              { (kc.block_root v).status with in_flush := true, in_flushwrite := true } with
            disk := (evict_pwrite kc v old).2
            global_cache_write := kc.global_cache_write + 1 }) := by
  unfold evict_write_back
  rw [if_pos hc, if_neg (by rw [hfl]; simp)]
  rewrite [hh]
  rfl

/-- The eviction branch of `find_key_block` on a clean victim that is in no
switch. -/
theorem find_key_block_evict_clean (kc : KEY_CACHE) (file level h v old : Nat) (rest : List Nat)
    (hring : kc.used_ring = v :: rest)
    (hreq : (kc.block_root v).requests = 0)
    (hh : (kc.block_root v).hash_link = some old) (hne : old ≠ h)
    (hsw : (kc.block_root v).status.in_switch = false)
    (hcl : (kc.block_root v).status.changed = false)
    (hlr : (kc.hash_link_root old).requests = 0)
    (hc : ∀ i, (kc.changed_blocks i).Nodup) (hf : ∀ i, (kc.file_blocks i).Nodup) :
    ∃ kc', find_key_block_evict kc h file level = some (v, PAGE_TO_BE_READ, kc') ∧
      kc' = evicted_state kc file level h v old := by
  unfold find_key_block_evict
  rewrite [hring]
  dsimp only [List.head?]
  rewrite [reg_requests_pinned _ v (by
    simp only [set_hash_link, set_block, Function.update_same]
    exact hreq) (by
    simp only [set_hash_link, set_block]
    rw [hring]
    exact List.mem_cons_self _ _)]
  rewrite [Option.some_bind]
  rewrite [if_pos (by
    simp only [pinned_state, set_hash_link, set_block, Function.update_same]
    rw [hh, hsw]
    exact ⟨fun e => hne (Option.some.inj e), rfl⟩)]
  rewrite [evict_write_back_clean _ v (by
    simp only [pinned_state, set_status, set_hash_link, set_block, Function.update_same]
    exact hcl)]
  rewrite [Option.some_bind]
  dsimp only []
  rewrite [evict_release_old_spec _ v old (by
      simp only [pinned_state, set_status, set_hash_link, set_block, Function.update_same]
      exact hh) (by
      simp only [pinned_state, set_status, set_hash_link, set_block, Function.update_same,
        Function.update_noteq hne]
      exact hlr)]
  rewrite [Option.map_some', evict_assign_eq]
  refine ⟨_, rfl, ?_⟩
  simp only [unlink_changed, unlink_hash, cleaned_state, pinned_state, set_status, set_hash_link,
    set_block, Function.update_same, Function.update_idem, evicted_state]
  have herr : evict_error kc v old = none := by
    unfold evict_error
    rw [if_neg (by rw [hcl]; simp)]
  apply KEY_CACHE.eq_of_fields
  case h19 =>
    dsimp only []
    rw [herr]
  case h20 =>
    dsimp only []
    rw [Function.update_noteq hne]
  case h26 =>
    dsimp only []
    funext i
    exact erase_erase_self _ _ (hc i)
  case h27 =>
    dsimp only []
    rw [Function.update_noteq hne]
    simp only [erase_update_erase _ _ _ hf]
  case h34 =>
    dsimp only []
    rw [if_neg (by rw [hcl]; simp)]
  case h30 =>
    dsimp only []
    rw [if_neg (by rw [hcl]; simp)]
  case h16 => rfl
  case h28 => rfl
  case h1 => rfl
  case h2 => rfl
  case h3 => rfl
  case h4 => rfl
  case h5 => rfl
  case h6 => rfl
  case h7 => rfl
  case h8 => rfl
  case h9 => rfl
  case h10 => rfl
  case h11 => rfl
  case h12 => rfl
  case h13 => rfl
  case h14 => rfl
  case h15 => rfl
  case h17 => rfl
  case h18 => rfl
  case h21 => rfl
  case h22 => rfl
  case h23 => rfl
  case h24 => rfl
  case h25 => rfl
  case h29 => rfl
  case h31 => rfl
  case h32 => rfl
  case h33 => rfl

/-- The eviction branch of `find_key_block` on a dirty victim that is in no
switch. -/
theorem find_key_block_evict_dirty (kc : KEY_CACHE) (file level h v old : Nat) (rest : List Nat)
    (hring : kc.used_ring = v :: rest)
    (hreq : (kc.block_root v).requests = 0)
    (hh : (kc.block_root v).hash_link = some old) (hne : old ≠ h)
    (hsw : (kc.block_root v).status.in_switch = false)
    (hcl : (kc.block_root v).status.changed = true)
    (hfl : (kc.block_root v).status.in_flush = false)
    (hlr : (kc.hash_link_root old).requests = 0)
    (hc : ∀ i, (kc.changed_blocks i).Nodup) (hf : ∀ i, (kc.file_blocks i).Nodup) :
    ∃ kc', find_key_block_evict kc h file level = some (v, PAGE_TO_BE_READ, kc') ∧
      kc' = evicted_state kc file level h v old := by
  unfold find_key_block_evict
  rewrite [hring]
  dsimp only [List.head?]
  rewrite [reg_requests_pinned _ v (by
    simp only [set_hash_link, set_block, Function.update_same]
    exact hreq) (by
    simp only [set_hash_link, set_block]
    rw [hring]
    exact List.mem_cons_self _ _)]
  rewrite [Option.some_bind]
  rewrite [if_pos (by
    simp only [pinned_state, set_hash_link, set_block, Function.update_same]
    rw [hh, hsw]
    exact ⟨fun e => hne (Option.some.inj e), rfl⟩)]
  rewrite [evict_write_back_dirty _ v old (by
    simp only [pinned_state, set_status, set_hash_link, set_block, Function.update_same]
    exact hh) (by
    simp only [pinned_state, set_status, set_hash_link, set_block, Function.update_same]
    exact hfl) (by
    simp only [pinned_state, set_status, set_hash_link, set_block, Function.update_same]
    exact hcl)]
  rewrite [Option.some_bind]
  dsimp only []
  rewrite [evict_release_old_spec _ v old (by
      simp only [pinned_state, set_status, set_hash_link, set_block, Function.update_same]
      exact hh) (by
      simp only [pinned_state, set_status, set_hash_link, set_block, Function.update_same,
        Function.update_noteq hne]
      exact hlr)]
  rewrite [Option.map_some', evict_assign_eq]
  refine ⟨_, rfl, ?_⟩
  simp only [unlink_changed, unlink_hash, cleaned_state, pinned_state, set_status, set_hash_link,
    set_block, Function.update_same, Function.update_idem, evicted_state, evict_pwrite, evict_error,
    Function.update_noteq hne, hcl, if_true]
  apply KEY_CACHE.eq_of_fields
  case h19 => rfl
  case h20 => rfl
  case h26 =>
    dsimp only []
    funext i
    exact erase_erase_self _ _ (hc i)
  case h27 =>
    dsimp only []
    simp only [erase_update_erase _ _ _ hf]
  case h34 => rfl
  case h30 => rfl
  case h16 => rfl
  case h28 => rfl
  case h1 => rfl
  case h2 => rfl
  case h3 => rfl
  case h4 => rfl
  case h5 => rfl
  case h6 => rfl
  case h7 => rfl
  case h8 => rfl
  case h9 => rfl
  case h10 => rfl
  case h11 => rfl
  case h12 => rfl
  case h13 => rfl
  case h14 => rfl
  case h15 => rfl
  case h17 => rfl
  case h18 => rfl
  case h21 => rfl
  case h22 => rfl
  case h23 => rfl
  case h24 => rfl
  case h25 => rfl
  case h29 => rfl
  case h31 => rfl
  case h32 => rfl
  case h33 => rfl

/-- The state after an eviction is well-formed, with the victim pinned. -/
theorem evicted_state_wf (kc : KEY_CACHE) (f key level h v old : Nat) (fh : List Nat) (hu : Nat)
    (wf : WF kc none []) (hmiss : not_cached kc f key)
    (hal : key % kc.key_cache_block_size = 0)
    (hv : v ∈ kc.used_ring) (hh : (kc.block_root v).hash_link = some old)
    (hhb : (kc.hash_link_root h).block = none)
    (hpool : h < hu ∧ hu ≤ kc.hash_links ∧ fh.Nodup ∧
        (∀ x, x ∈ fh → (kc.hash_link_root x).block = none ∧ x < hu ∧ x ≠ h) ∧
        (∀ x, hu ≤ x → (kc.hash_link_root x).block = none ∧ x ≠ h) ∧
        (∀ x, x < hu → (kc.hash_link_root x).block = none → x = h ∨ x ∈ fh)) :
    WF (evicted_state (linked_state kc f key h fh hu) f level h v old) (some v) [] := by
  obtain ⟨hp1, hp2, hp3, hp4, hp5, hp6⟩ := hpool
  have hreqv : (kc.block_root v).requests = 0 := wf.req.block_free v (by simp) (by simp)
  have hlo : (kc.hash_link_root old).block = some v := wf.hash.back v old hh
  have hne : old ≠ h := by
    intro e
    rw [e, hhb] at hlo
    cases hlo
  -- the victim is pinned
  obtain ⟨ins, hreg, wfp⟩ := reg_requests_wf kc v [] wf hv
  obtain ⟨Kp, hKp⟩ : ∃ Kp, Kp = pinned_state kc v ins := ⟨_, rfl⟩
  rw [← hKp] at wfp
  have eKpB : Kp.block_root = Function.update kc.block_root v
      { kc.block_root v with requests := 1 } := by
    rw [hKp]; rfl
  have eKpL : Kp.hash_link_root = kc.hash_link_root := by rw [hKp]; rfl
  have hhp : (Kp.block_root v).hash_link = some old := by
    rw [eKpB, Function.update_same]; exact hh
  -- it is freed
  obtain ⟨br, hbr⟩ : ∃ br, br = Function.update Kp.block_root v
      { Kp.block_root v with hash_link := none, status := {}, requests := 0 } := ⟨_, rfl⟩
  have wff := freed_state_wf Kp v old [] br Kp.used_ring Kp.used_ins Kp.keycache_time
    Kp.warm_blocks wfp hhp
    (by rw [eKpL]; exact wf.req.link_free old (fun b hb => by cases hb))
    (List.Perm.refl _) wfp.ring.ok
    (fun x hx => by rw [hbr, Function.update_noteq hx]; exact same_core_refl _)
    (by rw [hbr, Function.update_same]) (by rw [hbr, Function.update_same])
    (by rw [hbr, Function.update_same])
  obtain ⟨Kf, hKf⟩ : ∃ Kf, Kf = freed_state Kp v old br Kp.used_ring Kp.used_ins
      Kp.keycache_time Kp.warm_blocks := ⟨_, rfl⟩
  rw [← hKf] at wff
  have eKfB : Kf.block_root = br := by rw [hKf]; rfl
  have eKfL : ∀ x, Kf.hash_link_root x =
      if x = old then { kc.hash_link_root old with block := none } else kc.hash_link_root x := by
    intro x; rw [hKf]
    simp only [freed_state, Function.update_apply, eKpL]
  have eKfLn : ∀ x, (Kf.hash_link_root x).block ≠ none → Kf.hash_link_root x = kc.hash_link_root x := by
    intro x hx
    rw [eKfL] at hx ⊢
    by_cases hxo : x = old
    · rw [if_pos hxo] at hx
      exact absurd rfl hx
    · rw [if_neg hxo]
  have eKfLb : ∀ x, (kc.hash_link_root x).block = none → (Kf.hash_link_root x).block = none := by
    intro x hx
    rw [eKfL]
    split
    · rfl
    · exact hx
  have eBx : ∀ x, x ≠ v → Kf.block_root x = kc.block_root x := by
    intro x hx
    rw [eKfB, hbr, Function.update_noteq hx, eKpB, Function.update_noteq hx]
  have old_lt : old < hu := by
    by_contra hcon
    have := (hp5 old (not_lt.1 hcon)).1
    rw [this] at hlo
    cases hlo
  have old_nfh : old ∉ fh := by
    intro hm
    have := (hp4 old hm).1
    rw [this] at hlo
    cases hlo
  have v_lt : v < kc.blocks_used := by
    by_contra hcon
    have := wf.cnt.unborn_blocks v (not_lt.1 hcon)
    rw [this] at hh
    cases hh
  -- and taken again for the new page
  have wfm := miss_unused_state_wf Kf f key level h v (old :: fh) hu kc.free_block_list
    kc.blocks_used wff
    (fun x hx => by
      rw [eKfLn x hx]
      rw [eKfLn x hx] at hx
      exact hmiss x hx)
    (by rw [hKf, hKp]; exact hal)
    (eKfLb h hhb)
    (by rw [eKfB, hbr, Function.update_same])
    ⟨hp1, (by rw [hKf, hKp]; exact hp2), List.nodup_cons.2 ⟨old_nfh, hp3⟩,
      (fun x hx => by
        rcases List.mem_cons.1 hx with e | hm
        · rw [e]
          refine ⟨?_, old_lt, hne⟩
          rw [eKfL, if_pos rfl]
        · exact ⟨eKfLb x (hp4 x hm).1, (hp4 x hm).2⟩),
      (fun x hx => ⟨eKfLb x (hp5 x hx).1, (hp5 x hx).2⟩),
      (fun x hx hb => by
        by_cases hxo : x = old
        · exact Or.inr (List.mem_cons.2 (Or.inl hxo))
        · rw [eKfL, if_neg hxo] at hb
          rcases hp6 x hx hb with e | hm
          · exact Or.inl e
          · exact Or.inr (List.mem_cons_of_mem _ hm))⟩
    ⟨v_lt, (by
        have : nblocks Kf = nblocks kc := by rw [hKf, hKp]; rfl
        rw [this]; exact wf.cnt.used_le),
      wf.cnt.free_blocks_nodup,
      (by
        have e1 : nblocks Kf = nblocks kc := by rw [hKf, hKp]; rfl
        have e2 : Kf.blocks_unused = kc.blocks_unused + 1 := by rw [hKf, hKp]; rfl
        rw [e1, e2, Nat.add_sub_cancel]
        exact wf.cnt.unused_eq),
      (fun x hx => by
        have hx1 := wf.cnt.free_blocks x hx
        have hxv : x ≠ v := by
          intro e
          rw [e, hh] at hx1
          cases hx1.1
        exact ⟨by rw [eBx x hxv]; exact hx1.1, hx1.2, hxv⟩),
      (fun x hx => by
        have hxv : x ≠ v := by
          intro e
          rw [e] at hx
          exact absurd v_lt (not_lt.2 hx)
        exact ⟨by rw [eBx x hxv]; exact wf.cnt.unborn_blocks x hx, hxv⟩),
      (fun x hx hb => by
        by_cases hxv : x = v
        · exact Or.inl hxv
        · rw [eBx x hxv] at hb
          exact Or.inr (wf.cnt.blocks_cover x hx hb))⟩
  obtain ⟨M, hM⟩ : ∃ M, M = miss_unused_state Kf f key level h v (old :: fh) hu
      kc.free_block_list kc.blocks_used := ⟨_, rfl⟩
  rw [← hM] at wfm
  have eMB : M.block_root v =
      { Kf.block_root v with
        status := BLOCK_IN_USE, length := 0, offset := Kf.key_cache_block_size, requests := 1,
        temperature := BLOCK_COLD, hits_left := level, last_hit_time := 0,
        hash_link := some h } := by
    rw [hM]
    simp only [miss_unused_state, Function.update_same]
  obtain ⟨E, hE⟩ : ∃ E, E = evicted_state (linked_state kc f key h fh hu) f level h v old :=
    ⟨_, rfl⟩
  rw [← hE]
  have wfs := wfm.set_pinned (E.block_root v)
    (by rw [eMB, hE]; simp only [evicted_state, Function.update_same])
    (by rw [eMB, hE]; simp only [evicted_state, Function.update_same])
    (by
      rw [eMB, hE]
      simp only [evicted_state, Function.update_same]
      cases (evict_error (linked_state kc f key h fh hu) v old) <;> rfl)
  have eBR : E.block_root = (set_block M v (E.block_root v)).block_root := by
    funext x
    rw [set_block_root]
    by_cases hx : x = v
    · rw [if_pos hx, hx]
    · rw [if_neg hx]
      have e1 : E.block_root x = kc.block_root x := by
        rw [hE]
        simp only [evicted_state, linked_state, Function.update_noteq hx]
      have e2 : M.block_root x = Kf.block_root x := by
        rw [hM]
        simp only [miss_unused_state, Function.update_noteq hx]
      rw [e1, e2, eBx x hx]
  refine @WF.congr_wf (set_block M v (E.block_root v)) E (some v) [] wfs ?_ ?_ ?_ ?_ ?_ ?_ ?_ ?_ ?_
    ?_ ?_ ?_ ?_ ?_ (fun b => congrArg BLOCK_LINK.hash_link (congrFun eBR b))
    (fun b => congrArg BLOCK_LINK.status (congrFun eBR b))
    (fun b => congrArg BLOCK_LINK.length (congrFun eBR b))
    (fun b => congrArg BLOCK_LINK.requests (congrFun eBR b)) ?_ ?_
  · rw [hE, hM, hKf, hKp]; rfl
  · rw [hE, hM, hKf, hKp]; rfl
  · rw [hE, hM, hKf, hKp]; rfl
  · rw [hE, hM, hKf, hKp]
    show kc.blocks_unused = kc.blocks_unused + 1 - 1
    rw [Nat.add_sub_cancel]
  · rw [hE, hM, hKf, hKp]; rfl
  · rw [hE, hM, hKf, hKp]; rfl
  · rw [hE, hM, hKf, hKp]; rfl
  · rw [hE, hM, hKf, hKp]; rfl
  · rw [hE, hM, hKf, hKp]; rfl
  · have e := hreg.symm.trans (reg_requests_pinned kc v hreqv hv)
    have e2 := congrArg KEY_CACHE.used_ins (Option.some.inj e)
    rw [hE, hM, hKf, hKp]
    exact e2.symm
  · rw [hE, hM, hKf, hKp]; rfl
  · rw [hE, hM, hKf, hKp]; rfl
  · rw [hE, hM, hKf, hKp]
    funext i
    show ((Function.update kc.hash_root (KEYCACHE_HASH kc f key)
        (h :: kc.hash_root (KEYCACHE_HASH kc f key))) i).erase old =
      Function.update (fun i => (kc.hash_root i).erase old) (KEYCACHE_HASH kc f key)
        (h :: (kc.hash_root (KEYCACHE_HASH kc f key)).erase old) i
    by_cases hi : i = KEYCACHE_HASH kc f key
    · rw [hi, Function.update_same, Function.update_same]
      exact List.erase_cons_tail (by simpa using fun e => hne e.symm)
    · rw [Function.update_noteq hi, Function.update_noteq hi]
  · rw [hE, hM, hKf, hKp]; rfl
  · rw [hE, hM, hKf, hKp]
    funext x
    show Function.update
        (Function.update (Function.update kc.hash_link_root h ⟨none, f, key, 1⟩) h
          { (Function.update kc.hash_link_root h ⟨none, f, key, 1⟩) h with block := some v }) old
        { (Function.update kc.hash_link_root h ⟨none, f, key, 1⟩) old with block := none } x =
      Function.update
        (Function.update kc.hash_link_root old { kc.hash_link_root old with block := none }) h
        ⟨some v, f, key, 1⟩ x
    by_cases hxo : x = old
    · rw [hxo]
      simp only [Function.update_same, Function.update_noteq hne]
    · rw [Function.update_noteq hxo]
      by_cases hxh : x = h
      · rw [hxh, Function.update_same, Function.update_same, Function.update_same]
      · rw [Function.update_noteq hxh, Function.update_noteq hxh, Function.update_noteq hxh,
          Function.update_noteq hxo]
  · apply bounded_reads.of_same
    · rw [hE, hM, hKf, hKp]
      show (evicted_state (linked_state kc f key h fh hu) f level h v old).disk.pread_forced =
        kc.disk.pread_forced
      simp only [evicted_state, linked_state]
      split
      · exact my_pwrite_forced _ _ _ _
      · rfl
    · rw [hE, hM, hKf, hKp]; rfl

/-- A miss with no unused block left: `find_key_block` evicts the block at the
head of the LRU ring. -/
theorem find_key_block_miss_evict (kc : KEY_CACHE) (f key level v : Nat) (rest : List Nat)
    (wrmode : Bool) (wf : WF kc none []) (hu : usable kc) (hmiss : not_cached kc f key)
    (h0 : kc.blocks_unused = 0) (hring : kc.used_ring = v :: rest) :
    ∃ h old fh hu',
      find_key_block kc f key level wrmode =
        some (some (v, PAGE_TO_BE_READ),
          evicted_state (linked_state kc f key h fh hu') f level h v old) ∧
      (kc.hash_link_root h).block = none ∧ (kc.block_root v).hash_link = some old ∧
      (h < hu' ∧ hu' ≤ kc.hash_links ∧ fh.Nodup ∧
        (∀ x, x ∈ fh → (kc.hash_link_root x).block = none ∧ x < hu' ∧ x ≠ h) ∧
        (∀ x, hu' ≤ x → (kc.hash_link_root x).block = none ∧ x ≠ h) ∧
        (∀ x, x < hu' → (kc.hash_link_root x).block = none → x = h ∨ x ∈ fh)) := by
  obtain ⟨h, fh, hu', hget, hhb, hpool⟩ := get_hash_link_miss kc f key wf.cnt wf.hash wf.req hmiss
  have hv : v ∈ kc.used_ring := by rw [hring]; exact List.mem_cons_self _ _
  obtain ⟨a1, -, -, a4⟩ := (wf.ring.iff v).1 hv
  obtain ⟨old, hh⟩ := Option.ne_none_iff_exists'.1 a1
  have hok := wf.stat.used v a1 (by simp)
  have hreqv : (kc.block_root v).requests = 0 := wf.req.block_free v (by simp) (by simp)
  have hlr : (kc.hash_link_root old).requests = 0 :=
    wf.req.link_free old (fun b hb => by cases hb)
  have hlo : (kc.hash_link_root old).block = some v := wf.hash.back v old hh
  have hne : old ≠ h := by
    intro e
    rw [e, hhb] at hlo
    cases hlo
  have hfl : (kc.block_root v).status.in_flush = false := by
    cases hc : (kc.block_root v).status.in_flush
    · rfl
    · exact absurd (hok.2.2.2.2.2.2.1.1 hc) (List.not_mem_nil _)
  refine ⟨h, old, fh, hu', ?_, hhb, hh, hpool⟩
  have hev : ∃ kc', find_key_block_evict (linked_state kc f key h fh hu') h f level =
      some (v, PAGE_TO_BE_READ, kc') ∧
      kc' = evicted_state (linked_state kc f key h fh hu') f level h v old := by
    have hlr' : ((linked_state kc f key h fh hu').hash_link_root old).requests = 0 := by
      simp only [linked_state, Function.update_noteq hne]
      exact hlr
    by_cases hc : (kc.block_root v).status.changed = true
    · exact find_key_block_evict_dirty _ f level h v old rest hring hreqv hh hne hok.2.1 hc hfl
        hlr' wf.chain.changed_nodup wf.chain.file_nodup
    · exact find_key_block_evict_clean _ f level h v old rest hring hreqv hh hne hok.2.1
        (by simpa using hc) hlr' wf.chain.changed_nodup wf.chain.file_nodup
  obtain ⟨kc', hev1, hev2⟩ := hev
  rw [← hev2]
  have hget' : get_hash_link kc f key = some (h, linked_state kc f key h fh hu') := hget
  obtain ⟨k1, hk1⟩ : ∃ k1, k1 = linked_state kc f key h fh hu' := ⟨_, rfl⟩
  rw [← hk1] at hget' hev1
  have hcan : k1.in_resize = false := by rw [hk1]; exact hu.2.2
  have hblk : (k1.hash_link_root h).block = none := by
    rw [hk1]; simp only [linked_state, Function.update_same]
  have hun : k1.blocks_unused = 0 := by rw [hk1]; exact h0
  have hlast : ∃ x, used_last k1 = some x := by
    have e : k1.used_ring = v :: rest := by rw [hk1]; exact hring
    unfold used_last
    cases hg : k1.used_ring.getLast? with
    | none =>
      rw [List.getLast?_eq_none_iff] at hg
      rw [hg] at e
      cases e
    | some x => exact ⟨x, rfl⟩
  obtain ⟨x, hx⟩ := hlast
  unfold find_key_block
  simp only [hu.2.1, hget', hcan, hblk, hun, hx, hev1, Bool.true_eq_false, if_false,
    ne_eq, not_true_eq_false, Bool.false_eq_true]

theorem no_new_block_refl (kc : KEY_CACHE) : no_new_block kc kc :=
  ⟨le_refl _, rfl, ⟨[], rfl⟩, fun _ _ h => ⟨h, rfl, rfl⟩, fun _ _ h => h⟩

theorem not_cached_or (kc : KEY_CACHE) (f key : Nat) :
    not_cached kc f key ∨ ∃ h, cached_at kc f key h := by
  by_cases hc : ∃ h, cached_at kc f key h
  · exact Or.inr hc
  · left
    intro h hb hfk
    exact hc ⟨h, hb, hfk.1, hfk.2⟩

/-- The hash link of a cached page is found in the hash table. -/
theorem get_hash_link_hit (kc : KEY_CACHE) (f key h : Nat) (hi : HASH_INV kc)
    (hc : cached_at kc f key h) :
    get_hash_link kc f key =
      some (h, set_hash_link kc h
        { kc.hash_link_root h with requests := (kc.hash_link_root h).requests + 1 }) := by
  obtain ⟨hb, hf, hk⟩ := hc
  have hmem : h ∈ kc.hash_root (KEYCACHE_HASH kc f key) := by
    rw [hi.iff, hf, hk]
    exact ⟨hb, rfl⟩
  have hfind : (kc.hash_root (KEYCACHE_HASH kc f key)).find? (fun x =>
      decide ((kc.hash_link_root x).diskpos = key ∧ (kc.hash_link_root x).file = f)) =
      some h := by
    cases hfd : (kc.hash_root (KEYCACHE_HASH kc f key)).find? (fun x =>
      decide ((kc.hash_link_root x).diskpos = key ∧ (kc.hash_link_root x).file = f)) with
    | none =>
      have := List.find?_eq_none.1 hfd h hmem
      simp only [decide_eq_true_eq, not_and] at this
      exact absurd hf (this hk)
    | some x =>
      have hx := List.find?_some hfd
      have hxm := List.mem_of_find?_eq_some hfd
      simp only [decide_eq_true_eq] at hx
      have hxb := ((hi.iff _ _).1 hxm).1
      rw [hi.uniq x h hxb hb (hx.2.trans hf.symm) (hx.1.trans hk.symm)]
  unfold get_hash_link
  simp only [hfind]

/-- The request counter of the hash link of the pinned block may change. -/
theorem WF.set_link_requests {kc : KEY_CACHE} {b : Nat} {fl : List Nat}
    (wf : WF kc (some b) fl) (h n : Nat) (hh : (kc.block_root b).hash_link = some h) :
    WF (set_hash_link kc h { kc.hash_link_root h with requests := n }) (some b) fl := by
  have eL : ∀ x, (set_hash_link kc h { kc.hash_link_root h with requests := n }).hash_link_root x =
      if x = h then { kc.hash_link_root h with requests := n } else kc.hash_link_root x := by
    intro x; simp only [set_hash_link, Function.update_apply]
  have eb : ∀ x, ((set_hash_link kc h { kc.hash_link_root h with requests := n }).hash_link_root
      x).block = (kc.hash_link_root x).block := by
    intro x; rw [eL]; split
    · rename_i e; rw [e]
    · rfl
  have ef : ∀ x, ((set_hash_link kc h { kc.hash_link_root h with requests := n }).hash_link_root
      x).file = (kc.hash_link_root x).file := by
    intro x; rw [eL]; split
    · rename_i e; rw [e]
    · rfl
  have ed : ∀ x, ((set_hash_link kc h { kc.hash_link_root h with requests := n }).hash_link_root
      x).diskpos = (kc.hash_link_root x).diskpos := by
    intro x; rw [eL]; split
    · rename_i e; rw [e]
    · rfl
  refine ⟨wf.cnt.congr_cnt rfl rfl rfl rfl rfl rfl (fun _ => rfl),
    wf.ring.congr_ring rfl rfl (fun _ => rfl) (fun _ => rfl),
    wf.stat.congr_stat rfl (fun _ => rfl) (fun _ => rfl) (fun _ => rfl) (fun h => h),
    ⟨wf.req.block_free, wf.req.block_held, ?_⟩,
    wf.chain.congr_chain rfl rfl (fun _ => rfl) (fun _ => rfl) ef,
    wf.hash.congr_hash rfl rfl rfl rfl rfl rfl (fun _ => rfl) eb ef ed⟩
  intro x hx
  have hxh : x ≠ h := by
    intro e
    exact hx b rfl (by rw [e]; exact hh)
  rw [eL, if_neg hxh]
  exact wf.req.link_free x hx

/-- The request on a cached block without `BLOCK_ERROR`. -/
theorem hit_state_wf (kc : KEY_CACHE) (h b : Nat) (wf : WF kc none [])
    (hb : (kc.hash_link_root h).block = some b)
    (herr : (kc.block_root b).status.error = false) :
    reg_requests
        (set_hash_link kc h
          { kc.hash_link_root h with requests := (kc.hash_link_root h).requests + 1 }) b 1 =
      some (hit_state kc h b) ∧
    WF (hit_state kc h b) (some b) [] := by
  have hh : (kc.block_root b).hash_link = some h := wf.hash.link_back h b hb
  have hring : b ∈ kc.used_ring :=
    (wf.ring.iff b).2 ⟨by rw [hh]; simp, by simp, by simp, herr⟩
  have hreq : (kc.block_root b).requests = 0 := wf.req.block_free b (by simp) (by simp)
  refine ⟨reg_requests_pinned _ b hreq hring, ?_⟩
  obtain ⟨ins, hreg, wfp⟩ := reg_requests_wf kc b [] wf hring
  have e := hreg.symm.trans (reg_requests_pinned kc b hreq hring)
  rw [Option.some.inj e] at wfp
  exact wfp.set_link_requests h ((kc.hash_link_root h).requests + 1) (by
    simp only [pinned_state, set_block, Function.update_same]
    exact hh)

/-- A request for a cached page finds its block: `find_key_block` reports
`PAGE_READ` and pins the block. -/
theorem find_key_block_hit (kc : KEY_CACHE) (f key level h b : Nat) (wrmode : Bool)
    (wf : WF kc none []) (hu : usable kc) (hc : cached_at kc f key h)
    (hb : (kc.hash_link_root h).block = some b)
    (herr : (kc.block_root b).status.error = false) :
    find_key_block kc f key level wrmode = some (some (b, PAGE_READ), hit_state kc h b) := by
  have hh : (kc.block_root b).hash_link = some h := wf.hash.link_back h b hb
  have hne : (kc.block_root b).hash_link ≠ none := by rw [hh]; simp
  have hok := wf.stat.used b hne (by simp)
  have hq := wf.stat.quiet b hne (by simp)
  obtain ⟨hreg, -⟩ := hit_state_wf kc h b wf hb herr
  obtain ⟨k1, hk1⟩ : ∃ k1, k1 = set_hash_link kc h
      { kc.hash_link_root h with requests := (kc.hash_link_root h).requests + 1 } := ⟨_, rfl⟩
  have hget := get_hash_link_hit kc f key h wf.hash hc
  rw [← hk1] at hget hreg
  have hcan : k1.in_resize = false := by rw [hk1]; exact hu.2.2
  have hblk : (k1.hash_link_root h).block = some b := by
    rw [hk1]; simp only [set_hash_link, Function.update_same]; exact hb
  have eB : k1.block_root = kc.block_root := by rw [hk1]; rfl
  have hps : page_status_of (hit_state kc h b) b h = PAGE_READ := by
    unfold page_status_of
    rw [if_pos]
    simp only [hit_state, pinned_state, set_hash_link, set_block, Function.update_same]
    exact ⟨hh, hq.1⟩
  unfold find_key_block
  simp only [hu.2.1, hget, hcan, hblk, eB, hok.2.1, hok.2.2.1, hok.2.2.2.1, hreg, hps,
    Bool.true_eq_false, if_false, Bool.false_eq_true, or_self, and_false]

/-- During a resize a request for a page that is not cached gives the hash link
back and reports no block. -/
theorem find_key_block_resize_miss (kc : KEY_CACHE) (f key level : Nat) (wrmode : Bool)
    (wf : WF kc none []) (hcan : kc.can_be_used = true) (hres : kc.in_resize = true)
    (hmiss : not_cached kc f key) :
    ∃ kc', find_key_block kc f key level wrmode = some (none, kc') ∧
      kc'.blocks_unused = kc.blocks_unused ∧ kc'.blocks_used = kc.blocks_used ∧
      kc'.free_block_list = kc.free_block_list ∧ kc'.block_root = kc.block_root ∧
      (∀ x, (kc'.hash_link_root x).block = none ∨ kc'.hash_link_root x = kc.hash_link_root x) ∧
      (∀ x, (kc.hash_link_root x).block ≠ none →
        kc'.hash_link_root x = kc.hash_link_root x) := by
  obtain ⟨h, fh, hu', hget, hhb, hpool⟩ := get_hash_link_miss kc f key wf.cnt wf.hash wf.req hmiss
  have hget' : get_hash_link kc f key = some (h, linked_state kc f key h fh hu') := hget
  obtain ⟨k1, hk1⟩ : ∃ k1, k1 = linked_state kc f key h fh hu' := ⟨_, rfl⟩
  rw [← hk1] at hget'
  have hres1 : k1.in_resize = true := by rw [hk1]; exact hres
  have hblk : (k1.hash_link_root h).block = none := by
    rw [hk1]; simp only [linked_state, Function.update_same]
  have hrq : (k1.hash_link_root h).requests = 1 := by
    rw [hk1]; simp only [linked_state, Function.update_same]
  refine ⟨unlink_hash (set_hash_link k1 h
    { k1.hash_link_root h with requests := dec32 (k1.hash_link_root h).requests }) h, ?_, ?_⟩
  · unfold find_key_block
    simp only [hcan, hget', hres1, Bool.true_eq_false, if_false, if_true]
    unfold find_key_block_resize
    simp only [hblk, hrq, if_true]
  · rw [hk1]
    refine ⟨rfl, rfl, rfl, rfl, ?_, ?_⟩
    · intro x
      by_cases hx : x = h
      · left
        rw [hx]
        simp only [unlink_hash, set_hash_link, Function.update_same]
      · right
        simp only [unlink_hash, set_hash_link, linked_state, Function.update_noteq hx]
    · intro x hxb
      have hx : x ≠ h := by
        intro e
        rw [e] at hxb
        exact hxb hhb
      simp only [unlink_hash, set_hash_link, linked_state, Function.update_noteq hx]

theorem hit_state_no_new (kc : KEY_CACHE) (h b : Nat) : no_new_block kc (hit_state kc h b) := by
  have eB : ∀ x, ((hit_state kc h b).block_root x).hash_link = (kc.block_root x).hash_link := by
    intro x
    simp only [hit_state, pinned_state, set_hash_link, set_block, Function.update_apply]
    split
    · rename_i e; rw [e]
    · rfl
  have eL : ∀ x, (hit_state kc h b).hash_link_root x =
      if x = h then { kc.hash_link_root h with requests := (kc.hash_link_root h).requests + 1 }
      else kc.hash_link_root x := by
    intro x
    simp only [hit_state, pinned_state, set_hash_link, set_block, Function.update_apply]
  refine ⟨le_refl _, rfl, ⟨[], rfl⟩, ?_, ?_⟩
  · intro x h' hx
    rw [eB] at hx
    refine ⟨hx, ?_, ?_⟩ <;>
    · rw [eL]
      split
      · rename_i e; rw [e]
      · rfl
  · intro x b' hx
    rw [eL] at hx
    split at hx
    · rename_i e; rw [e]; exact hx
    · exact hx

/-- During a resize a request for a cached page attaches no block. -/
theorem find_key_block_resize_hit (kc : KEY_CACHE) (f key level h b : Nat) (wrmode : Bool)
    (r : Option (Nat × PAGE_STATUS) × KEY_CACHE)
    (wf : WF kc none []) (hcan : kc.can_be_used = true) (hres : kc.in_resize = true)
    (hc : cached_at kc f key h) (hb : (kc.hash_link_root h).block = some b)
    (hfind : find_key_block kc f key level wrmode = some r) :
    no_new_block kc r.2 := by
  have hh : (kc.block_root b).hash_link = some h := wf.hash.link_back h b hb
  have hne : (kc.block_root b).hash_link ≠ none := by rw [hh]; simp
  have hok := wf.stat.used b hne (by simp)
  have hq := wf.stat.quiet b hne (by simp)
  have hreq : (kc.block_root b).requests = 0 := wf.req.block_free b (by simp) (by simp)
  have hlr : (kc.hash_link_root h).requests = 0 :=
    wf.req.link_free h (fun b hb => by cases hb)
  have hfl : (kc.block_root b).status.in_flush = false := by
    cases hc : (kc.block_root b).status.in_flush
    · rfl
    · exact absurd (hok.2.2.2.2.2.2.1.1 hc) (List.not_mem_nil _)
  obtain ⟨k1, hk1⟩ : ∃ k1, k1 = set_hash_link kc h
      { kc.hash_link_root h with requests := (kc.hash_link_root h).requests + 1 } := ⟨_, rfl⟩
  have hget := get_hash_link_hit kc f key h wf.hash hc
  rw [← hk1] at hget
  have hres1 : k1.in_resize = true := by rw [hk1]; exact hres
  have hblk : (k1.hash_link_root h).block = some b := by
    rw [hk1]; simp only [set_hash_link, Function.update_same]; exact hb
  have eB : k1.block_root = kc.block_root := by rw [hk1]; rfl
  unfold find_key_block at hfind
  simp only [hcan, hget, hres1, Bool.true_eq_false, if_false, if_true] at hfind
  unfold find_key_block_resize at hfind
  simp only [hblk, eB, hh, hq.1, and_self, decide_True] at hfind
  by_cases herr : (kc.block_root b).status.error = false
  · obtain ⟨hreg, wfh⟩ := hit_state_wf kc h b wf hb herr
    rw [← hk1] at hreg
    have eHB : (hit_state kc h b).block_root b = { kc.block_root b with requests := 1 } := by
      simp only [hit_state, pinned_state, set_hash_link, set_block, Function.update_same, hreq]
    have eHL : (hit_state kc h b).hash_link_root h =
        { kc.hash_link_root h with requests := 1 } := by
      simp only [hit_state, pinned_state, set_hash_link, set_block, Function.update_same, hlr]
    simp only [hreg, Bool.true_eq_false, if_false] at hfind
    cases wrmode with
    | false =>
      simp only [if_true] at hfind
      rw [← Option.some.inj hfind]
      exact hit_state_no_new kc h b
    | true =>
      simp only [Bool.true_eq_false, if_false, eHB, hfl, Bool.false_eq_true] at hfind
      by_cases hch : (kc.block_root b).status.changed = true
      · simp only [hch, if_true] at hfind
        rw [← Option.some.inj hfind]
        exact hit_state_no_new kc h b
      · simp only [hch, if_false] at hfind
        have hrem : remove_reader (hit_state kc h b) b =
            some (set_hash_link (hit_state kc h b) h
              { (hit_state kc h b).hash_link_root h with requests := 0 }) := by
          unfold remove_reader
          rw [eHB]
          simp only [hh, eHL, dec32_one]
        obtain ⟨S, hS⟩ : ∃ S, S = set_hash_link (hit_state kc h b) h
            { (hit_state kc h b).hash_link_root h with requests := 0 } := ⟨_, rfl⟩
        rw [← hS] at hrem
        have eSB : S.block_root = (hit_state kc h b).block_root := by rw [hS]; rfl
        have wfS : WF S (some b) [] := by
          rw [hS]
          exact wfh.set_link_requests h 0 (by rw [eHB]; exact hh)
        have hhS : (S.block_root b).hash_link = some h := by rw [eSB, eHB]; exact hh
        have hrS : (S.hash_link_root h).requests = 0 := by
          rw [hS]; simp only [set_hash_link, Function.update_same]
        have hevS : (S.block_root b).status.in_eviction = false := by
          rw [eSB, eHB]; exact hok.2.2.2.1
        obtain ⟨br, ring, ins, t, w, hfree, -, -, hcore, hbn, -, -, -⟩ :=
          free_block_spec S b h [] wfS hhS hrS hevS
        simp only [hrem, eSB, eHB, hok.2.1, hok.2.2.1, hok.2.2.2.1, and_self, if_true,
          hfree] at hfind
        rw [← Option.some.inj hfind]
        have eSL : ∀ x, x ≠ h → S.hash_link_root x = kc.hash_link_root x := by
          intro x hx
          rw [hS]
          simp only [hit_state, pinned_state, set_hash_link, set_block, Function.update_noteq hx]
        have eSf : ∀ x, (S.hash_link_root x).file = (kc.hash_link_root x).file ∧
            (S.hash_link_root x).diskpos = (kc.hash_link_root x).diskpos := by
          intro x
          by_cases hx : x = h
          · rw [hx, hS]
            constructor <;>
              simp only [hit_state, pinned_state, set_hash_link, set_block, Function.update_same]
          · rw [eSL x hx]
            exact ⟨rfl, rfl⟩
        refine ⟨?_, ?_, ⟨[b], ?_⟩, ?_, ?_⟩
        · show kc.blocks_unused ≤ S.blocks_unused + 1
          rw [hS]
          exact Nat.le_succ _
        · rw [hS]; rfl
        · rw [hS]; rfl
        · intro x h' hx
          have hxb : x ≠ b := by
            intro e
            rw [e] at hx
            have : (br b).hash_link = some h' := hx
            rw [hbn] at this
            cases this
          have hx' : (br x).hash_link = some h' := hx
          rw [(hcore x hxb).1, eSB] at hx'
          have e1 : (hit_state kc h b).block_root x = kc.block_root x := by
            simp only [hit_state, pinned_state, set_hash_link, set_block,
              Function.update_noteq hxb]
          rw [e1] at hx'
          refine ⟨hx', ?_, ?_⟩
          · show ((Function.update S.hash_link_root h
                { S.hash_link_root h with block := none }) h').file = _
            by_cases e : h' = h
            · rw [e, Function.update_same]
              exact (eSf h).1
            · rw [Function.update_noteq e]
              exact (eSf h').1
          · show ((Function.update S.hash_link_root h
                { S.hash_link_root h with block := none }) h').diskpos = _
            by_cases e : h' = h
            · rw [e, Function.update_same]
              exact (eSf h).2
            · rw [Function.update_noteq e]
              exact (eSf h').2
        · intro x b' hx
          have hx' : ((Function.update S.hash_link_root h
                { S.hash_link_root h with block := none }) x).block = some b' := hx
          by_cases e : x = h
          · rw [e, Function.update_same] at hx'
            cases hx'
          · rw [Function.update_noteq e, eSL x e] at hx'
            exact hx'
  · have herr' : (kc.block_root b).status.error = true := by simpa using herr
    have hnr : b ∉ kc.used_ring := fun hm => by
      have := ((wf.ring.iff b).1 hm).2.2.2
      rw [herr'] at this
      cases this
    have hreg : reg_requests k1 b 1 = none := by
      unfold reg_requests
      have e1 : (k1.block_root b).requests = 0 := by rw [eB]; exact hreq
      have e2 : unlink_block k1 b = none := by
        unfold unlink_block
        rw [if_neg (by rw [hk1]; exact hnr)]
      simp only [e1, if_true, e2]
    simp only [hreg] at hfind
    cases hfind

theorem evict_pwrite_linked (kc : KEY_CACHE) (f key h v old : Nat) (fh : List Nat) (hu : Nat)
    (hne : old ≠ h) :
    evict_pwrite (linked_state kc f key h fh hu) v old = evict_pwrite kc v old := by
  unfold evict_pwrite
  simp only [linked_state, Function.update_noteq hne]

theorem evict_error_linked (kc : KEY_CACHE) (f key h v old : Nat) (fh : List Nat) (hu : Nat)
    (hne : old ≠ h) :
    evict_error (linked_state kc f key h fh hu) v old = evict_error kc v old := by
  unfold evict_error
  rw [evict_pwrite_linked kc f key h v old fh hu hne]
  rfl

/-- A hit: what `find_key_block` leaves. -/
theorem found_hit (kc : KEY_CACHE) (f key h b : Nat) (wf : WF kc none [])
    (hc : cached_at kc f key h) (hb : (kc.hash_link_root h).block = some b)
    (herr : (kc.block_root b).status.error = false) :
    FOUND kc (hit_state kc h b) f key b h PAGE_READ := by
  have hh : (kc.block_root b).hash_link = some h := wf.hash.link_back h b hb
  have hreq : (kc.block_root b).requests = 0 := wf.req.block_free b (by simp) (by simp)
  have hlr : (kc.hash_link_root h).requests = 0 :=
    wf.req.link_free h (fun b hb => by cases hb)
  have eHB : (hit_state kc h b).block_root b = { kc.block_root b with requests := 1 } := by
    simp only [hit_state, pinned_state, set_hash_link, set_block, Function.update_same, hreq]
  have eHL : (hit_state kc h b).hash_link_root h =
      { kc.hash_link_root h with requests := 1 } := by
    simp only [hit_state, pinned_state, set_hash_link, set_block, Function.update_same, hlr]
  have eLx : ∀ x, x ≠ h → (hit_state kc h b).hash_link_root x = kc.hash_link_root x := by
    intro x hx
    simp only [hit_state, pinned_state, set_hash_link, set_block, Function.update_noteq hx]
  refine ⟨(hit_state_wf kc h b wf hb herr).2, same_config_refl _, ?_, ?_, ?_, ?_, ?_, ?_,
    ⟨rfl, rfl, rfl⟩, ?_, ?_, Or.inl rfl, hit_state_aux kc h b⟩
  · rw [eHB]; exact hh
  · rw [eHL]
    obtain ⟨-, h2, h3⟩ := hc
    rw [← h2, ← h3, ← hb]
  · intro x hx
    simp only [hit_state, pinned_state, set_hash_link, set_block, Function.update_noteq hx]
  · intro x hx _
    exact eLx x hx
  · intro x y hx hy
    apply eLx
    intro e
    rw [e] at hy
    have := wf.hash.back x h hy
    rw [hb] at this
    exact hx (Option.some.inj this).symm
  · rw [eHB]
  · intro _
    exact ⟨hc, hb, eHB, rfl, eLx, herr⟩
  · intro e
    cases e

/-- A miss served from the pool of unused blocks: what `find_key_block` leaves. -/
theorem found_miss_unused (kc : KEY_CACHE) (f key level h b : Nat) (fh : List Nat) (hu : Nat)
    (fb : List Nat) (bu : Nat) (wf : WF kc none []) (hmiss : not_cached kc f key)
    (hal : key % kc.key_cache_block_size = 0) (hne0 : kc.blocks_unused ≠ 0)
    (hhb : (kc.hash_link_root h).block = none) (hbl : (kc.block_root b).hash_link = none)
    (hpool : h < hu ∧ hu ≤ kc.hash_links ∧ fh.Nodup ∧
        (∀ x, x ∈ fh → (kc.hash_link_root x).block = none ∧ x < hu ∧ x ≠ h) ∧
        (∀ x, hu ≤ x → (kc.hash_link_root x).block = none ∧ x ≠ h) ∧
        (∀ x, x < hu → (kc.hash_link_root x).block = none → x = h ∨ x ∈ fh))
    (hbpool : b < bu ∧ bu ≤ nblocks kc ∧ fb.Nodup ∧
        kc.blocks_unused - 1 = fb.length + (nblocks kc - bu) ∧
        (∀ x, x ∈ fb → (kc.block_root x).hash_link = none ∧ x < bu ∧ x ≠ b) ∧
        (∀ x, bu ≤ x → (kc.block_root x).hash_link = none ∧ x ≠ b) ∧
        (∀ x, x < bu → (kc.block_root x).hash_link = none → x = b ∨ x ∈ fb)) :
    FOUND kc (miss_unused_state kc f key level h b fh hu fb bu) f key b h PAGE_TO_BE_READ := by
  have eLx : ∀ x, x ≠ h →
      (miss_unused_state kc f key level h b fh hu fb bu).hash_link_root x =
        kc.hash_link_root x := by
    intro x hx
    simp only [miss_unused_state, Function.update_noteq hx]
  have eB : (miss_unused_state kc f key level h b fh hu fb bu).block_root b =
      { kc.block_root b with
        status := BLOCK_IN_USE, length := 0, offset := kc.key_cache_block_size, requests := 1,
        temperature := BLOCK_COLD, hits_left := level, last_hit_time := 0,
        hash_link := some h } := by
    simp only [miss_unused_state, Function.update_same]
  refine ⟨miss_unused_state_wf kc f key level h b fh hu fb bu wf hmiss hal hhb hbl hpool hbpool,
    same_config_refl _, ?_, ?_, ?_, ?_, ?_, ?_, ⟨rfl, rfl, rfl⟩, ?_, ?_, Or.inr rfl,
    fun aux => miss_unused_state_aux kc f key level h b fh hu fb bu aux hbl
      (lt_of_lt_of_le hbpool.1 hbpool.2.1)⟩
  · rw [eB]
  · simp only [miss_unused_state, Function.update_same]
  · intro x hx
    simp only [miss_unused_state, Function.update_noteq hx]
  · intro x hx _
    exact eLx x hx
  · intro x y hx hy
    apply eLx
    intro e
    rw [e] at hy
    have := wf.hash.back x h hy
    rw [hhb] at this
    cases this
  · rw [eB]
  · intro e
    cases e
  · intro _
    refine ⟨hmiss, ?_, ?_, Or.inl ⟨hne0, hbl, rfl, ?_⟩⟩
    · rw [eB]
    · rw [eB]; rfl
    · rw [eB]

/-- A miss served by an eviction: what `find_key_block` leaves. -/
theorem found_miss_evict (kc : KEY_CACHE) (f key level h v old : Nat) (rest fh : List Nat)
    (hu : Nat) (wf : WF kc none []) (hmiss : not_cached kc f key)
    (hal : key % kc.key_cache_block_size = 0)
    (h0 : kc.blocks_unused = 0)
    (hring : kc.used_ring = v :: rest) (hh : (kc.block_root v).hash_link = some old)
    (hhb : (kc.hash_link_root h).block = none)
    (hpool : h < hu ∧ hu ≤ kc.hash_links ∧ fh.Nodup ∧
        (∀ x, x ∈ fh → (kc.hash_link_root x).block = none ∧ x < hu ∧ x ≠ h) ∧
        (∀ x, hu ≤ x → (kc.hash_link_root x).block = none ∧ x ≠ h) ∧
        (∀ x, x < hu → (kc.hash_link_root x).block = none → x = h ∨ x ∈ fh)) :
    FOUND kc (evicted_state (linked_state kc f key h fh hu) f level h v old) f key v h
      PAGE_TO_BE_READ := by
  have hv : v ∈ kc.used_ring := by rw [hring]; exact List.mem_cons_self _ _
  have hlo : (kc.hash_link_root old).block = some v := wf.hash.back v old hh
  have hne : old ≠ h := by
    intro e
    rw [e, hhb] at hlo
    cases hlo
  have eLo : (evicted_state (linked_state kc f key h fh hu) f level h v old).hash_link_root old =
      { kc.hash_link_root old with block := none } := by
    simp only [evicted_state, linked_state, Function.update_same, Function.update_noteq hne]
  have eLx : ∀ x, x ≠ h → x ≠ old →
      (evicted_state (linked_state kc f key h fh hu) f level h v old).hash_link_root x =
        kc.hash_link_root x := by
    intro x hx hxo
    simp only [evicted_state, linked_state, Function.update_noteq hx, Function.update_noteq hxo]
  have eB : (evicted_state (linked_state kc f key h fh hu) f level h v old).block_root v =
      { kc.block_root v with
        hits_left := level, last_hit_time := 0, requests := 1
        status := if (evict_error kc v old).isSome then BLOCK_ERROR else BLOCK_IN_USE
        length := 0, offset := kc.key_cache_block_size, hash_link := some h } := by
    simp only [evicted_state, Function.update_same, evict_error_linked kc f key h v old fh hu hne]
    rfl
  refine ⟨evicted_state_wf kc f key level h v old fh hu wf hmiss hal hv hh hhb hpool,
    same_config_refl _, ?_, ?_, ?_, ?_, ?_, ?_, ⟨rfl, ?_, ?_⟩, ?_, ?_, Or.inr rfl,
    fun aux => evicted_state_aux kc f key level h v old fh hu aux hh⟩
  · rw [eB]
  · simp only [evicted_state, linked_state, Function.update_same,
      Function.update_noteq (Ne.symm hne)]
  · intro x hx
    simp only [evicted_state, linked_state, Function.update_noteq hx]
  · intro x hx hxb
    apply eLx x hx
    intro e
    rw [e, eLo] at hxb
    exact hxb rfl
  · intro x y hx hy
    have hyb := wf.hash.back x y hy
    apply eLx
    · intro e
      rw [e, hhb] at hyb
      cases hyb
    · intro e
      rw [e, hlo] at hyb
      exact hx (Option.some.inj hyb).symm
  · rw [eB]
  · simp only [evicted_state, linked_state]
    split
    · simp only [evict_pwrite, my_pwrite]
      split <;> rfl
    · rfl
  · simp only [evicted_state, linked_state]
    split
    · simp only [evict_pwrite, my_pwrite]
      split <;> rfl
    · rfl
  · intro e
    cases e
  · intro _
    refine ⟨hmiss, ?_, ?_, Or.inr ⟨old, rest, hring, h0, hh, hne, ?_, ?_, ?_⟩⟩
    · rw [eB]
    · rw [eB]; rfl
    · rw [eLo]
    · simp only [evicted_state, evict_pwrite_linked kc f key h v old fh hu hne]
      rfl
    · rw [eB]

/-- The outcome of `find_key_block` in a usable cache: the request finds or
takes a block, unless the page is in a block with `BLOCK_ERROR`, or nothing is
left to evict. -/
theorem find_key_block_spec (kc : KEY_CACHE) (f key level : Nat) (wrmode : Bool)
    (wf : WF kc none []) (hu : usable kc) (hal : key % kc.key_cache_block_size = 0) :
    (find_key_block kc f key level wrmode = none ∧
      ((∃ h b, cached_at kc f key h ∧ (kc.hash_link_root h).block = some b ∧
          (kc.block_root b).status.error = true) ∨
        (not_cached kc f key ∧ kc.blocks_unused = 0 ∧ kc.used_ring = []))) ∨
    ∃ b h st K, find_key_block kc f key level wrmode = some (some (b, st), K) ∧
      FOUND kc K f key b h st := by
  rcases not_cached_or kc f key with hmiss | ⟨h, hc⟩
  · by_cases h0 : kc.blocks_unused = 0
    · cases hring : kc.used_ring with
      | nil =>
        left
        refine ⟨?_, Or.inr ⟨hmiss, h0, rfl⟩⟩
        obtain ⟨h, fh, hu', hget, hhb, hpool⟩ :=
          get_hash_link_miss kc f key wf.cnt wf.hash wf.req hmiss
        have hget' : get_hash_link kc f key = some (h, linked_state kc f key h fh hu') := hget
        obtain ⟨k1, hk1⟩ : ∃ k1, k1 = linked_state kc f key h fh hu' := ⟨_, rfl⟩
        rw [← hk1] at hget'
        have hcan : k1.in_resize = false := by rw [hk1]; exact hu.2.2
        have hblk : (k1.hash_link_root h).block = none := by
          rw [hk1]; simp only [linked_state, Function.update_same]
        have hun : k1.blocks_unused = 0 := by rw [hk1]; exact h0
        have hlast : used_last k1 = none := by
          unfold used_last
          have : k1.used_ring = [] := by rw [hk1]; exact hring
          rw [this]
          rfl
        unfold find_key_block
        simp only [hu.2.1, hget', hcan, hblk, hun, hlast, Bool.true_eq_false, if_false,
          ne_eq, not_true_eq_false, Bool.false_eq_true]
      | cons v rest =>
        right
        obtain ⟨h, old, fh, hu', hfind, hhb, hh, hpool⟩ :=
          find_key_block_miss_evict kc f key level v rest wrmode wf hu hmiss h0 hring
        exact ⟨v, h, PAGE_TO_BE_READ, _, hfind,
          found_miss_evict kc f key level h v old rest fh hu' wf hmiss hal h0 hring hh hhb hpool⟩
    · right
      obtain ⟨h, b, fh, hu', fb, bu, hfind, hhb, hbl, hpool, hbpool⟩ :=
        find_key_block_miss_unused kc f key level wrmode wf hu hmiss h0
      exact ⟨b, h, PAGE_TO_BE_READ, _, hfind,
        found_miss_unused kc f key level h b fh hu' fb bu wf hmiss hal h0 hhb hbl hpool hbpool⟩
  · obtain ⟨b, hb⟩ := Option.ne_none_iff_exists'.1 hc.1
    by_cases herr : (kc.block_root b).status.error = false
    · right
      exact ⟨b, h, PAGE_READ, _, find_key_block_hit kc f key level h b wrmode wf hu hc hb herr,
        found_hit kc f key h b wf hc hb herr⟩
    · left
      have herr' : (kc.block_root b).status.error = true := by simpa using herr
      refine ⟨?_, Or.inl ⟨h, b, hc, hb, herr'⟩⟩
      have hh : (kc.block_root b).hash_link = some h := wf.hash.link_back h b hb
      have hne : (kc.block_root b).hash_link ≠ none := by rw [hh]; simp
      have hok := wf.stat.used b hne (by simp)
      have hq := wf.stat.quiet b hne (by simp)
      have hreq : (kc.block_root b).requests = 0 := wf.req.block_free b (by simp) (by simp)
      obtain ⟨k1, hk1⟩ : ∃ k1, k1 = set_hash_link kc h
          { kc.hash_link_root h with requests := (kc.hash_link_root h).requests + 1 } :=
        ⟨_, rfl⟩
      have hget := get_hash_link_hit kc f key h wf.hash hc
      rw [← hk1] at hget
      have hcan : k1.in_resize = false := by rw [hk1]; exact hu.2.2
      have hblk : (k1.hash_link_root h).block = some b := by
        rw [hk1]; simp only [set_hash_link, Function.update_same]; exact hb
      have eB : k1.block_root = kc.block_root := by rw [hk1]; rfl
      have hnr : b ∉ kc.used_ring := fun hm => by
        have := ((wf.ring.iff b).1 hm).2.2.2
        rw [herr'] at this
        cases this
      have hreg : reg_requests k1 b 1 = none := by
        unfold reg_requests
        have e1 : (k1.block_root b).requests = 0 := by rw [eB]; exact hreq
        have e2 : unlink_block k1 b = none := by
          unfold unlink_block
          rw [if_neg (by rw [hk1]; exact hnr)]
        simp only [e1, if_true, e2]
      unfold find_key_block
      simp only [hu.2.1, hget, hcan, hblk, eB, hok.2.1, hok.2.2.1, hok.2.2.2.1, hreg,
        Bool.true_eq_false, if_false, Bool.false_eq_true, or_self, and_false]

/-- A pass of `key_cache_read` that has got a block: the page is made available
and the pass is finished. -/
theorem key_cache_read_chunk_found (kc K : KEY_CACHE) (f filepos level dst length offset b : Nat)
    (buff : Nat → Nat) (error : Bool) (st : PAGE_STATUS) (hcan : kc.can_be_used = true)
    (hfind : find_key_block
      { kc with global_cache_r_requests := kc.global_cache_r_requests + 1 } f
      (filepos - offset) level false = some (some (b, st), K)) :
    key_cache_read_chunk kc f filepos level buff dst length offset error =
      (key_cache_read_load K b st (min length (kc.key_cache_block_size - offset)) offset).bind
        fun k => key_cache_read_finish k b buff dst
          (min length (kc.key_cache_block_size - offset)) offset error
          (decide (length - min length (kc.key_cache_block_size - offset) ≠ 0)) := by
  unfold key_cache_read_chunk
  rw [if_neg (by rw [hcan]; decide)]
  dsimp only []
  rw [hfind]
  dsimp only []
  unfold key_cache_read_load
  generalize hl : (if (K.block_root b).status.error = false then
      if st ≠ PAGE_READ then
        read_block K b K.key_cache_block_size
          (min length (kc.key_cache_block_size - offset) + offset) (decide (st = PAGE_TO_BE_READ))
      else if (K.block_root b).length < min length (kc.key_cache_block_size - offset) + offset
        then some (set_status K b { (K.block_root b).status with error := true })
      else some K
    else some K) = loaded
  cases loaded with
  | none => rfl
  | some k =>
    rw [Option.some_bind]
    unfold key_cache_read_finish
    dsimp only []
    cases remove_reader k b with
    | none => rfl
    | some k2 =>
      rw [Option.some_bind]
      dsimp only []
      by_cases he : (k2.block_root b).status.error = false
      · rw [if_pos he, if_pos he]
        cases unreg_request k2 b true with
        | none => rfl
        | some k3 => rfl
      · rw [if_neg he, if_neg he]
        cases free_block k2 b with
        | none => rfl
        | some k3 => rfl

/-- The end of a pass of `key_cache_read` on a block that holds the data: the
data goes to the caller and the block returns to the LRU ring. -/
theorem key_cache_read_finish_ok (K : KEY_CACHE) (b h dst rl offset : Nat) (buff : Nat → Nat)
    (error more : Bool) (wf : WF K (some b) [])
    (hh : (K.block_root b).hash_link = some h)
    (hreqh : (K.hash_link_root h).requests = 1)
    (hbok : block_ok K [] b)
    (herr : (K.block_root b).status.error = false)
    (hread : (K.block_root b).status.read = true)
    (hupd : (K.block_root b).status.for_update = false) :
    ∃ br ring ins w,
      key_cache_read_finish K b buff dst rl offset error more =
        some (error,
          (fun i => if dst ≤ i ∧ i < dst + rl then (K.block_root b).buffer (offset + (i - dst))
            else buff i),
          lru_set (set_hash_link K h { K.hash_link_root h with requests := 0 })
            br ring ins (K.keycache_time + 1) w, more) ∧
      ring.Perm (b :: K.used_ring) ∧
      (∀ x, same_core (br x)
        (if x = b then { K.block_root b with requests := 0 } else K.block_root x)) ∧
      WF (lru_set (set_hash_link K h { K.hash_link_root h with requests := 0 })
          br ring ins (K.keycache_time + 1) w) none [] := by
  obtain ⟨br, ring, ins, w, hrem, hunreg, hperm, hcore, wf3⟩ :=
    release_spec K b h true wf hh hreqh hbok herr hread hupd
  refine ⟨br, ring, ins, w, ?_, hperm, hcore, wf3⟩
  unfold key_cache_read_finish
  rw [hrem, Option.some_bind]
  have e : ((set_hash_link K h { K.hash_link_root h with requests := 0 }).block_root b).status.error
      = false := herr
  rw [if_pos e, hunreg, Option.map_some', if_pos herr]

/-- The end of a pass of `key_cache_read` on a block with `BLOCK_ERROR`: the
caller gets nothing and the block is freed. -/
theorem key_cache_read_finish_err (K : KEY_CACHE) (b h dst rl offset : Nat) (buff : Nat → Nat)
    (error more : Bool) (wf : WF K (some b) [])
    (hh : (K.block_root b).hash_link = some h)
    (hreqh : (K.hash_link_root h).requests = 1)
    (herr : (K.block_root b).status.error = true)
    (hev : (K.block_root b).status.in_eviction = false) :
    ∃ br ring ins t w,
      key_cache_read_finish K b buff dst rl offset error more =
        some (true, buff,
          freed_state (set_hash_link K h { K.hash_link_root h with requests := 0 }) b h
            br ring ins t w, false) ∧
      (∀ x, x ≠ b → same_core (br x) (K.block_root x)) ∧
      (br b).hash_link = none ∧ (br b).status = {} ∧ (br b).requests = 0 ∧
      WF (freed_state (set_hash_link K h { K.hash_link_root h with requests := 0 }) b h
            br ring ins t w) none [] := by
  have hrem : remove_reader K b =
      some (set_hash_link K h { K.hash_link_root h with requests := 0 }) := by
    unfold remove_reader
    simp only [hh, hreqh, dec32_one]
  obtain ⟨Kr, hKr⟩ : ∃ Kr, Kr = set_hash_link K h { K.hash_link_root h with requests := 0 } :=
    ⟨_, rfl⟩
  rw [← hKr] at hrem ⊢
  have eB : Kr.block_root = K.block_root := by rw [hKr]; rfl
  have wfr : WF Kr (some b) [] := by
    rw [hKr]; exact wf.set_link_requests h 0 hh
  have hhr : (Kr.block_root b).hash_link = some h := by rw [eB]; exact hh
  have hrr : (Kr.hash_link_root h).requests = 0 := by
    rw [hKr]; simp only [set_hash_link, Function.update_same]
  obtain ⟨br, ring, ins, t, w, hfree, hperm, hok, hcore, hb1, hb2, hb3, -⟩ :=
    free_block_spec Kr b h [] wfr hhr hrr (by rw [eB]; exact hev)
  refine ⟨br, ring, ins, t, w, ?_, ?_, hb1, hb2, hb3, ?_⟩
  · unfold key_cache_read_finish
    rw [hrem, Option.some_bind]
    rw [if_neg (by rw [eB, herr]; simp), hfree, Option.map_some', if_neg (by rw [herr]; simp)]
  · intro x hx
    rw [← eB]
    exact hcore x hx
  · exact freed_state_wf Kr b h [] br ring ins t w wfr hhr hrr hperm hok hcore hb1 hb2 hb3

/-- The state after `read_block` is well-formed whatever `my_pread` has
returned: the block is still pinned. -/
theorem read_block_state_pinned (K : KEY_CACHE) (b h rl m : Nat) (wf : WF K (some b) []) :
    WF (read_block_state K b h rl m) (some b) [] := by
  obtain ⟨X, hX⟩ : ∃ X, X = (read_block_state K b h rl m).block_root b := ⟨_, rfl⟩
  have e1 : X.hash_link = (K.block_root b).hash_link ∧ X.requests = (K.block_root b).requests ∧
      X.status.changed = (K.block_root b).status.changed := by
    rw [hX]
    simp only [read_block_state, Function.update_same]
    split <;> exact ⟨rfl, rfl, rfl⟩
  have wfs := wf.set_pinned X e1.1 e1.2.1 e1.2.2
  have eBR : (read_block_state K b h rl m).block_root = (set_block K b X).block_root := by
    rw [hX]
    simp only [read_block_state, set_block, Function.update_same]
  exact @WF.congr_wf (set_block K b X) (read_block_state K b h rl m) (some b) [] wfs
    rfl rfl rfl rfl rfl rfl rfl rfl rfl rfl rfl rfl rfl rfl
    (fun x => congrArg BLOCK_LINK.hash_link (congrFun eBR x))
    (fun x => congrArg BLOCK_LINK.status (congrFun eBR x))
    (fun x => congrArg BLOCK_LINK.length (congrFun eBR x))
    (fun x => congrArg BLOCK_LINK.requests (congrFun eBR x)) rfl
    (bounded_reads.of_same (my_pread_forced _ _ _ _) rfl)

theorem evict_error_none (kc : KEY_CACHE) (v old : Nat)
    (hw : ∀ n, kc.disk.pwrite_errno n = none) : evict_error kc v old = none := by
  unfold evict_error evict_pwrite my_pwrite
  rw [hw]
  split <;> rfl

theorem FOUND.disk_miss {kc K : KEY_CACHE} {f key b h : Nat}
    (fd : FOUND kc K f key b h PAGE_TO_BE_READ) : K.disk = disk_after_find kc := by
  obtain ⟨-, -, -, hc⟩ := fd.miss rfl
  unfold disk_after_find
  rcases hc with ⟨h0, -, hd, -⟩ | ⟨old, rest, hring, h0, hh, -, -, hd, -⟩
  · rw [if_pos h0]
    exact hd
  · rw [if_neg (by rw [h0]; simp), hring]
    dsimp only []
    rw [hh]
    exact hd

theorem FOUND.status_miss {kc K : KEY_CACHE} {f key b h : Nat}
    (fd : FOUND kc K f key b h PAGE_TO_BE_READ) (hw : ∀ n, kc.disk.pwrite_errno n = none) :
    (K.block_root b).status = BLOCK_IN_USE := by
  obtain ⟨-, -, -, hc⟩ := fd.miss rfl
  rcases hc with ⟨-, -, -, hs⟩ | ⟨old, rest, -, -, -, -, -, -, hs⟩
  · exact hs
  · rw [hs, evict_error_none kc b old hw]
    rfl

/-- A miss on a page whose read comes back short: the pass of `key_cache_read`
fails and the block is freed. -/
theorem key_cache_read_chunk_short (kc : KEY_CACHE) (f filepos level dst length offset : Nat)
    (buff : Nat → Nat) (error : Bool) (wf : WF kc none []) (hu : usable kc)
    (hal : (filepos - offset) % kc.key_cache_block_size = 0)
    (hmiss : not_cached kc f (filepos - offset))
    (hroom : kc.blocks_unused ≠ 0 ∨ kc.used_ring ≠ [])
    (hw : ∀ n, kc.disk.pwrite_errno n = none)
    (hshort : (my_pread (disk_after_find kc) f kc.key_cache_block_size (filepos - offset)).1 <
      min length (kc.key_cache_block_size - offset) + offset) :
    ∃ b K1 K2 kc',
      find_key_block { kc with global_cache_r_requests := kc.global_cache_r_requests + 1 } f
        (filepos - offset) level false = some (some (b, PAGE_TO_BE_READ), K1) ∧
      read_block K1 b kc.key_cache_block_size
        (min length (kc.key_cache_block_size - offset) + offset) true = some K2 ∧
      (K2.block_root b).status.error = true ∧ (K2.block_root b).status.read = false ∧
      key_cache_read_chunk kc f filepos level buff dst length offset error =
        some (true, buff, kc', false) ∧
      WF kc' none [] ∧ same_config kc kc' ∧
      kc'.free_block_list.head? = some b ∧ (kc'.block_root b).hash_link = none ∧
      (kc'.block_root b).status = {} ∧
      (∀ x, (kc'.hash_link_root x).block ≠ none → kc'.hash_link_root x = kc.hash_link_root x) ∧
      (∀ x, x ≠ b → same_core (kc'.block_root x) (kc.block_root x) ∧
        ∀ y, (kc.block_root x).hash_link = some y → kc'.hash_link_root y = kc.hash_link_root y) := by
  obtain ⟨kA, hkA⟩ : ∃ kA : KEY_CACHE, kA =
      { kc with global_cache_r_requests := kc.global_cache_r_requests + 1 } := ⟨_, rfl⟩
  have wfA : WF kA none [] := by
    rw [hkA]
    exact @WF.congr_wf kc _ none [] wf rfl rfl rfl rfl rfl rfl rfl rfl rfl rfl rfl rfl rfl rfl
      (fun _ => rfl) (fun _ => rfl) (fun _ => rfl) (fun _ => rfl) rfl (fun h => h)
  have huA : usable kA := by rw [hkA]; exact hu
  have hmA : not_cached kA f (filepos - offset) := by rw [hkA]; exact hmiss
  have hwA : ∀ n, kA.disk.pwrite_errno n = none := by rw [hkA]; exact hw
  have hdA : disk_after_find kA = disk_after_find kc := by rw [hkA]; rfl
  have halA : (filepos - offset) % kA.key_cache_block_size = 0 := by rw [hkA]; exact hal
  rw [← hkA]
  rcases find_key_block_spec kA f (filepos - offset) level false wfA huA halA with
    ⟨-, hbad⟩ | ⟨b, h, st, K, hfind, fd⟩
  · exfalso
    rcases hbad with ⟨h, b, hc, -, -⟩ | ⟨-, h0, hr⟩
    · exact hmA h hc.1 ⟨hc.2.1, hc.2.2⟩
    · rcases hroom with h1 | h1
      · exact h1 (by rw [hkA] at h0; exact h0)
      · exact h1 (by rw [hkA] at hr; exact hr)
  have hst : st = PAGE_TO_BE_READ := by
    rcases fd.cases with e | e
    · exfalso
      obtain ⟨hc, -⟩ := fd.hit e
      exact hmA h hc.1 ⟨hc.2.1, hc.2.2⟩
    · exact e
  subst hst
  have hs := fd.status_miss hwA
  have hd : K.disk = disk_after_find kc := fd.disk_miss.trans hdA
  have ebs : K.key_cache_block_size = kc.key_cache_block_size := by
    have := fd.config.2.2.2.2.1
    rw [this, hkA]
  obtain ⟨m, hm⟩ : ∃ m, m = min length (kc.key_cache_block_size - offset) + offset := ⟨_, rfl⟩
  rw [← hm] at hshort ⊢
  have hread := read_block_primary K b h kc.key_cache_block_size m fd.hl
  obtain ⟨K2, hK2⟩ : ∃ K2, K2 = read_block_state K b h kc.key_cache_block_size m := ⟨_, rfl⟩
  rw [← hK2] at hread
  have hgot : (my_pread K.disk (K.hash_link_root h).file kc.key_cache_block_size
      (K.hash_link_root h).diskpos).1 < m := by
    rw [fd.link, hd]
    exact hshort
  have e2b : K2.block_root b =
      { K.block_root b with
        buffer := pread_into K.disk (K.hash_link_root h).file (K.hash_link_root h).diskpos
          (my_pread K.disk (K.hash_link_root h).file kc.key_cache_block_size
            (K.hash_link_root h).diskpos).2.1 (K.block_root b).buffer
        status := { (K.block_root b).status with error := true } } := by
    rw [hK2]
    simp only [read_block_state, Function.update_same, if_pos hgot]
  have e2x : ∀ x, x ≠ b → K2.block_root x = K.block_root x := by
    intro x hx
    rw [hK2]
    simp only [read_block_state, Function.update_noteq hx]
  have e2l : K2.hash_link_root = K.hash_link_root := by rw [hK2]; rfl
  have wf2 : WF K2 (some b) [] := by
    rw [hK2]; exact read_block_state_pinned K b h _ _ fd.wf
  have hh2 : (K2.block_root b).hash_link = some h := by rw [e2b]; exact fd.hl
  have hev2 : (K2.block_root b).status.in_eviction = false := by
    rw [e2b]
    show (K.block_root b).status.in_eviction = false
    rw [hs]; rfl
  obtain ⟨br, ring, ins, t, w, hfin, hcore, hb1, hb2, hb3, wf3⟩ :=
    key_cache_read_finish_err K2 b h dst (min length (kc.key_cache_block_size - offset)) offset
      buff error (decide (length - min length (kc.key_cache_block_size - offset) ≠ 0)) wf2 hh2
      (by rw [e2l, fd.link]) (by rw [e2b]) hev2
  refine ⟨b, K, K2, _, hfind, hread, by rw [e2b], ?_, ?_, wf3, ?_, rfl, hb1, hb2, ?_, ?_⟩
  · rw [e2b]
    show (K.block_root b).status.read = false
    rw [hs]; rfl
  · have hchunk := key_cache_read_chunk_found kc K f filepos level dst length offset b buff error
      PAGE_TO_BE_READ hu.2.1 (by rw [← hkA]; exact hfind)
    rw [hchunk]
    unfold key_cache_read_load
    rw [if_pos (by rw [hs]; rfl), if_pos (by decide), ebs, ← hm]
    simp only [decide_True]
    rw [hread, Option.some_bind, hfin]
  · obtain ⟨c1, c2, c3, c4, c5, c6, c7, c8, c9, c10, c11⟩ := fd.config
    rw [hkA] at c1 c2 c3 c4 c5 c6 c7 c8 c9 c10 c11
    rw [hK2]
    exact ⟨c1, c2, c3, c4, c5, c6, c7, c8, c9, c10, c11⟩
  · intro x hx
    have hx' : ((Function.update K2.hash_link_root h
        { K2.hash_link_root h with requests := 0, block := none }) x).block ≠ none := by
      simpa only [freed_state, set_hash_link, Function.update_same, Function.update_idem] using hx
    have hxh : x ≠ h := by
      intro e
      rw [e, Function.update_same] at hx'
      exact hx' rfl
    rw [Function.update_noteq hxh, e2l] at hx'
    have := fd.links x hxh hx'
    simp only [freed_state, set_hash_link, Function.update_idem, Function.update_noteq hxh]
    rw [e2l, this, hkA]
  · intro x hx
    have e1 : K.block_root x = kc.block_root x := by
      rw [fd.others x hx, hkA]
    constructor
    · have := hcore x hx
      rw [e2x x hx, e1] at this
      exact this
    · intro y hy
      have hk := fd.kept x y hx (by rw [hkA]; exact hy)
      have hyb : (kc.hash_link_root y).block = some x := wf.hash.back x y hy
      have hyh : y ≠ h := by
        intro e
        rw [e, fd.link] at hk
        have : (kA.hash_link_root h).block = some b := by rw [← hk]
        rw [hkA] at this
        rw [e] at hyb
        have : (kc.hash_link_root h).block = some b := this
        rw [hyb] at this
        exact hx (Option.some.inj this)
      simp only [freed_state, set_hash_link, Function.update_idem, Function.update_noteq hyh]
      rw [e2l, hk, hkA]

theorem same_pages_refl (kc : KEY_CACHE) : same_pages kc kc :=
  ⟨same_config_refl kc, fun _ => same_core_refl _, rfl, rfl⟩

theorem same_pages_trans {a b c : KEY_CACHE} (h1 : same_pages a b) (h2 : same_pages b c) :
    same_pages a c :=
  ⟨same_config_trans h1.1 h2.1, fun x => same_core_trans (h2.2.1 x) (h1.2.1 x),
    h2.2.2.1.trans h1.2.2.1, h2.2.2.2.trans h1.2.2.2⟩

theorem FOUND.status_cases {kc K : KEY_CACHE} {f key b h : Nat}
    (fd : FOUND kc K f key b h PAGE_TO_BE_READ) :
    (K.block_root b).status = BLOCK_IN_USE ∨ (K.block_root b).status = BLOCK_ERROR := by
  obtain ⟨-, -, -, hc⟩ := fd.miss rfl
  rcases hc with ⟨-, -, -, hs⟩ | ⟨old, rest, -, -, -, -, -, -, hs⟩
  · exact Or.inl hs
  · rw [hs]
    split
    · exact Or.inr rfl
    · exact Or.inl rfl

theorem FOUND.link_ne {kc K : KEY_CACHE} {f key b h : Nat} {st : PAGE_STATUS}
    (fd : FOUND kc K f key b h st) (wf : WF kc none []) (x y : Nat) (hx : x ≠ b)
    (hy : (kc.block_root x).hash_link = some y) : y ≠ h := by
  intro e
  have hk := fd.kept x y hx hy
  have hyb : (kc.hash_link_root y).block = some x := wf.hash.back x y hy
  rw [← hk, e, fd.link] at hyb
  exact hx (Option.some.inj hyb).symm

/-- The block a pass was working on has gone back to the LRU ring. -/
theorem chunk_ok_of_release (kc K K2 : KEY_CACHE) (f key b h t w : Nat) (st : PAGE_STATUS)
    (br : Nat → BLOCK_LINK) (ring : List Nat) (ins : Option Nat)
    (fd : FOUND kc K f key b h st) (wf : WF kc none [])
    (e2x : ∀ x, x ≠ b → K2.block_root x = K.block_root x)
    (e2l : K2.hash_link_root = K.hash_link_root) (e2c : same_config K K2)
    (herr2 : (K2.block_root b).status.error = false)
    (hcore : ∀ x, same_core (br x)
      (if x = b then { K2.block_root b with requests := 0 } else K2.block_root x))
    (wf3 : WF (lru_set (set_hash_link K2 h { K2.hash_link_root h with requests := 0 })
      br ring ins t w) none []) :
    CHUNK_OK kc (lru_set (set_hash_link K2 h { K2.hash_link_root h with requests := 0 })
      br ring ins t w) f key b h := by
  have eL : ∀ y, (lru_set (set_hash_link K2 h { K2.hash_link_root h with requests := 0 })
      br ring ins t w).hash_link_root y =
      if y = h then ⟨some b, f, key, 0⟩ else K.hash_link_root y := by
    intro y
    simp only [lru_set, set_hash_link, Function.update_apply, e2l, fd.link]
  refine ⟨wf3, same_config_trans fd.config e2c, ?_, ?_, ?_, ?_, ?_, ?_⟩
  · unfold cached_at
    rw [eL, if_pos rfl]
    exact ⟨by simp, rfl, rfl⟩
  · rw [eL, if_pos rfl]
  · have := (hcore b).2.2.2.2.1
    rw [if_pos rfl] at this
    show (br b).status.error = false
    rw [this]
    exact herr2
  · intro x hx
    have := hcore x
    rw [if_neg hx, e2x x hx, fd.others x hx] at this
    exact this
  · intro y hy hyb
    rw [eL, if_neg hy] at hyb ⊢
    exact fd.links y hy hyb
  · intro x y hx hy
    rw [eL, if_neg (fd.link_ne wf x y hx hy)]
    exact fd.kept x y hx hy

/-- What a pass of `key_cache_read` does in a usable cache whose reads do not
fail. -/
theorem key_cache_read_chunk_spec (kc : KEY_CACHE) (f filepos level dst length offset : Nat)
    (buff : Nat → Nat) (wf : WF kc none []) (hu : usable kc)
    (hal : (filepos - offset) % kc.key_cache_block_size = 0)
    (hrd : ∀ n, kc.disk.pread_forced n = none) :
    (key_cache_read_chunk kc f filepos level buff dst length offset false = none ∧
      ((∃ h b, cached_at kc f (filepos - offset) h ∧ (kc.hash_link_root h).block = some b ∧
          (kc.block_root b).status.error = true) ∨
        (not_cached kc f (filepos - offset) ∧ kc.blocks_unused = 0 ∧ kc.used_ring = []))) ∨
    ∃ err buff' kc' more,
      key_cache_read_chunk kc f filepos level buff dst length offset false =
        some (err, buff', kc', more) ∧
      WF kc' none [] ∧ same_config kc kc' ∧ kc'.disk.pread_forced = kc.disk.pread_forced ∧
      (err = false → ∃ b h, CHUNK_OK kc kc' f (filepos - offset) b h ∧
        min length (kc.key_cache_block_size - offset) + offset ≤ (kc'.block_root b).length ∧
        (∀ i, buff' i =
          if dst ≤ i ∧ i < dst + min length (kc.key_cache_block_size - offset) then
            (kc'.block_root b).buffer (offset + (i - dst))
          else buff i) ∧
        more = decide (length - min length (kc.key_cache_block_size - offset) ≠ 0) ∧
        (∀ h0, cached_at kc f (filepos - offset) h0 →
          same_pages kc kc' ∧ kc'.global_cache_read = kc.global_cache_read)) ∧
      (∀ h0 b0, cached_at kc f (filepos - offset) h0 → (kc.hash_link_root h0).block = some b0 →
        min length (kc.key_cache_block_size - offset) + offset ≤ (kc.block_root b0).length →
        err = false) := by
  obtain ⟨kA, hkA⟩ : ∃ kA : KEY_CACHE, kA =
      { kc with global_cache_r_requests := kc.global_cache_r_requests + 1 } := ⟨_, rfl⟩
  have wfA : WF kA none [] := by
    rw [hkA]
    exact @WF.congr_wf kc _ none [] wf rfl rfl rfl rfl rfl rfl rfl rfl rfl rfl rfl rfl rfl rfl
      (fun _ => rfl) (fun _ => rfl) (fun _ => rfl) (fun _ => rfl) rfl (fun h => h)
  have huA : usable kA := by rw [hkA]; exact hu
  have halA : (filepos - offset) % kA.key_cache_block_size = 0 := by rw [hkA]; exact hal
  have cfgA : same_config kc kA := by rw [hkA]; exact same_config_refl kc
  obtain ⟨rl, hrl⟩ : ∃ rl, rl = min length (kc.key_cache_block_size - offset) := ⟨_, rfl⟩
  rw [← hrl]
  rcases find_key_block_spec kA f (filepos - offset) level false wfA huA halA with
    ⟨hnone, hbad⟩ | ⟨b, h, st, K, hfind, fd⟩
  · left
    constructor
    · unfold key_cache_read_chunk
      rw [if_neg (by rw [hu.2.1]; decide)]
      dsimp only []
      rw [← hkA, hnone]
    · rw [hkA] at hbad
      exact hbad
  right
  have hchunk := key_cache_read_chunk_found kc K f filepos level dst length offset b buff false
      st hu.2.1 (by rw [← hkA]; exact hfind)
  rw [← hrl] at hchunk
  rw [hchunk]
  have ebs : K.key_cache_block_size = kc.key_cache_block_size := by
    have := fd.config.2.2.2.2.1
    rw [this, hkA]
  have hcfgK : same_config kc K := same_config_trans cfgA fd.config
  have hprK : K.disk.pread_forced = kc.disk.pread_forced := by
    rw [fd.reads.2.2, hkA]
  -- the failure of a pass
  have fail : ∀ K2 : KEY_CACHE, WF K2 (some b) [] → (K2.block_root b).hash_link = some h →
      K2.hash_link_root = K.hash_link_root → same_config K K2 →
      K2.disk.pread_forced = K.disk.pread_forced →
      (K2.block_root b).status.error = true → (K2.block_root b).status.in_eviction = false →
      (∀ h0 b0, cached_at kc f (filepos - offset) h0 → (kc.hash_link_root h0).block = some b0 →
          rl + offset ≤ (kc.block_root b0).length → False) →
      ∃ err buff' kc' more,
        key_cache_read_finish K2 b buff dst rl offset false
          (decide (length - rl ≠ 0)) = some (err, buff', kc', more) ∧
        WF kc' none [] ∧ same_config kc kc' ∧ kc'.disk.pread_forced = kc.disk.pread_forced ∧
        (err = false → ∃ b h, CHUNK_OK kc kc' f (filepos - offset) b h ∧
          rl + offset ≤ (kc'.block_root b).length ∧
          (∀ i, buff' i =
            if dst ≤ i ∧ i < dst + rl then (kc'.block_root b).buffer (offset + (i - dst))
            else buff i) ∧
          more = decide (length - rl ≠ 0) ∧
          (∀ h0, cached_at kc f (filepos - offset) h0 →
            same_pages kc kc' ∧ kc'.global_cache_read = kc.global_cache_read)) ∧
        (∀ h0 b0, cached_at kc f (filepos - offset) h0 → (kc.hash_link_root h0).block = some b0 →
          rl + offset ≤ (kc.block_root b0).length → err = false) := by
    intro K2 wf2 hh2 e2l e2c e2p herr2 hev2 hcrit
    obtain ⟨br, ring, ins, t, w, hfin, -, -, -, -, wf3⟩ :=
      key_cache_read_finish_err K2 b h dst rl offset buff false (decide (length - rl ≠ 0)) wf2
        hh2 (by rw [e2l, fd.link]) herr2 hev2
    refine ⟨true, buff, _, false, hfin, wf3, same_config_trans hcfgK e2c, ?_, ?_, ?_⟩
    · show K2.disk.pread_forced = _
      rw [e2p, hprK]
    · intro e
      cases e
    · intro h0 b0 hc0 hb0 hl0
      exact (hcrit h0 b0 hc0 hb0 hl0).elim
  -- the success of a pass
  have ok : ∀ K2 : KEY_CACHE, WF K2 (some b) [] → (K2.block_root b).hash_link = some h →
      K2.hash_link_root = K.hash_link_root → same_config K K2 →
      K2.disk.pread_forced = K.disk.pread_forced →
      (∀ x, x ≠ b → K2.block_root x = K.block_root x) →
      block_ok K2 [] b → (K2.block_root b).status.error = false →
      (K2.block_root b).status.read = true → (K2.block_root b).status.for_update = false →
      rl + offset ≤ (K2.block_root b).length →
      (st = PAGE_READ → K2 = K) →
      ∃ err buff' kc' more,
        key_cache_read_finish K2 b buff dst rl offset false
          (decide (length - rl ≠ 0)) = some (err, buff', kc', more) ∧
        WF kc' none [] ∧ same_config kc kc' ∧ kc'.disk.pread_forced = kc.disk.pread_forced ∧
        (err = false → ∃ b h, CHUNK_OK kc kc' f (filepos - offset) b h ∧
          rl + offset ≤ (kc'.block_root b).length ∧
          (∀ i, buff' i =
            if dst ≤ i ∧ i < dst + rl then (kc'.block_root b).buffer (offset + (i - dst))
            else buff i) ∧
          more = decide (length - rl ≠ 0) ∧
          (∀ h0, cached_at kc f (filepos - offset) h0 →
            same_pages kc kc' ∧ kc'.global_cache_read = kc.global_cache_read)) ∧
        (∀ h0 b0, cached_at kc f (filepos - offset) h0 → (kc.hash_link_root h0).block = some b0 →
          rl + offset ≤ (kc.block_root b0).length → err = false) := by
    intro K2 wf2 hh2 e2l e2c e2p e2x hbok herr2 hread2 hupd2 hlen2 hhit
    obtain ⟨br, ring, ins, w, hfin, hperm, hcore, wf3⟩ :=
      key_cache_read_finish_ok K2 b h dst rl offset buff false (decide (length - rl ≠ 0)) wf2 hh2
        (by rw [e2l, fd.link]) hbok herr2 hread2 hupd2
    have hcb := hcore b
    rw [if_pos rfl] at hcb
    refine ⟨false, _, _, _, hfin, wf3, same_config_trans hcfgK e2c, ?_, ?_, fun _ _ _ _ _ => rfl⟩
    · show K2.disk.pread_forced = _
      rw [e2p, hprK]
    · intro _
      have cok := chunk_ok_of_release kA K K2 f (filepos - offset) b h (K2.keycache_time + 1) w
        st br ring ins fd wfA e2x e2l e2c herr2 hcore wf3
      refine ⟨b, h, ⟨cok.wf, same_config_trans cfgA cok.config, cok.cached, cok.block, cok.noerr,
        ?_, ?_, ?_⟩, ?_, ?_, rfl, ?_⟩
      · intro x hx
        have := cok.others x hx
        rw [hkA] at this
        exact this
      · intro y hy hyb
        have := cok.links y hy hyb
        rw [hkA] at this
        exact this
      · intro x y hx hy
        have := cok.kept x y hx (by rw [hkA]; exact hy)
        rw [hkA] at this
        exact this
      · show rl + offset ≤ (br b).length
        rw [hcb.2.2.2.1]
        exact hlen2
      · intro i
        show _ = if dst ≤ i ∧ i < dst + rl then (br b).buffer (offset + (i - dst)) else buff i
        rw [hcb.2.1]
      · intro h0 hc0
        have hst : st = PAGE_READ := by
          rcases fd.cases with e | e
          · exact e
          · exfalso
            obtain ⟨hm, -⟩ := fd.miss e
            exact hm h0 (by rw [hkA]; exact hc0.1) (by rw [hkA]; exact ⟨hc0.2.1, hc0.2.2⟩)
        obtain ⟨hc, hbk, eKb, eKd, eKl, -⟩ := fd.hit hst
        have e2K := hhit hst
        subst e2K
        have hreq0 : (kc.block_root b).requests = 0 := wf.req.block_free b (by simp) (by simp)
        have hlr0 : (kc.hash_link_root h).requests = 0 :=
          wf.req.link_free h (fun b hb => by cases hb)
        refine ⟨⟨same_config_trans hcfgK e2c, ?_, ?_, ?_⟩, ?_⟩
        · intro x
          by_cases hx : x = b
          · rw [hx]
            have e1 : same_core (br b) { kc.block_root b with requests := 0 } := by
              rw [eKb] at hcb
              rw [hkA] at hcb
              exact hcb
            refine same_core_trans e1 ⟨rfl, rfl, rfl, rfl, rfl, ?_⟩
            exact hreq0.symm
          · exact cok.others x hx |> fun t => by rw [hkA] at t; exact t
        · funext y
          show (Function.update K2.hash_link_root h
              { K2.hash_link_root h with requests := 0 }) y = kc.hash_link_root y
          by_cases hy : y = h
          · rw [hy, Function.update_same, fd.link]
            obtain ⟨-, c2, c3⟩ := hc
            rw [hkA] at c2 c3 hbk
            have c2' : (kc.hash_link_root h).file = f := c2
            have c3' : (kc.hash_link_root h).diskpos = filepos - offset := c3
            have c1' : (kc.hash_link_root h).block = some b := hbk
            cases hk : kc.hash_link_root h with
            | mk bl fl dp rq =>
              rw [hk] at c2' c3' c1' hlr0
              simp only at c2' c3' c1' hlr0
              rw [c1', c2', c3', hlr0]
          · rw [Function.update_noteq hy, eKl y hy, hkA]
        · show K2.disk = kc.disk
          rw [eKd, hkA]
        · show K2.global_cache_read = kc.global_cache_read
          rw [fd.reads.1, hkA]
  unfold key_cache_read_load
  by_cases herrK : (K.block_root b).status.error = false
  · rw [if_pos herrK]
    rcases fd.cases with hst | hst
    · -- a hit
      subst hst
      obtain ⟨hc, hbk, eKb, eKd, eKl, -⟩ := fd.hit rfl
      have hne : (kA.block_root b).hash_link ≠ none := by
        rw [wfA.hash.link_back h b hbk]; simp
      have hok := wfA.stat.used b hne (by simp)
      have hq := wfA.stat.quiet b hne (by simp)
      rw [if_neg (by simp)]
      by_cases hlen : (K.block_root b).length < rl + offset
      · rw [if_pos hlen, Option.some_bind]
        have wf2 : WF (set_status K b { (K.block_root b).status with error := true })
            (some b) [] :=
          fd.wf.set_pinned _ rfl rfl rfl
        exact fail _ wf2 (by
            simp only [set_status, set_block, Function.update_same]; exact fd.hl) rfl
          (same_config_refl _) rfl (by
            simp only [set_status, set_block, Function.update_same]) (by
            simp only [set_status, set_block, Function.update_same]
            rw [eKb]; exact hok.2.2.2.1) (by
            intro h0 b0 hc0 hb0 hl0
            have e1 : h0 = h := wfA.hash.uniq h0 h (by rw [hkA]; exact hc0.1) hc.1
              (by rw [hc.2.1, hkA]; exact hc0.2.1) (by rw [hc.2.2, hkA]; exact hc0.2.2)
            rw [e1] at hb0
            have e2 : (kA.hash_link_root h).block = some b0 := by rw [hkA]; exact hb0
            rw [hbk] at e2
            have e3 : b = b0 := Option.some.inj e2
            rw [← e3] at hl0
            have e4 : (K.block_root b).length = (kc.block_root b).length := by
              rw [eKb, hkA]
            rw [e4] at hlen
            exact absurd hlen (not_lt.2 hl0))
      · rw [if_neg hlen, Option.some_bind]
        have hbK : block_ok K [] b := by
          unfold block_ok
          rw [eKb, ebs]
          have e : kA.key_cache_block_size = kc.key_cache_block_size := by rw [hkA]
          rw [← e]
          exact ok_weaken (bounded_reads.of_same fd.reads.2.2 fd.config.2.2.2.2.1) hok
        exact ok K fd.wf fd.hl rfl (same_config_refl _) rfl (fun _ _ => rfl) hbK herrK
          (by rw [eKb]; exact hq.1) (by rw [eKb]; exact hq.2) (not_lt.1 hlen) (fun _ => rfl)
    · -- a miss
      subst hst
      have hs : (K.block_root b).status = BLOCK_IN_USE := by
        rcases fd.status_cases with e | e
        · exact e
        · rw [e] at herrK
          cases herrK
      obtain ⟨hmiss0, hl0, ho0, -⟩ := fd.miss rfl
      rw [if_pos (by decide)]
      simp only [decide_True]
      rw [ebs, read_block_primary K b h kc.key_cache_block_size (rl + offset) fd.hl,
        Option.some_bind]
      obtain ⟨K2, hK2⟩ : ∃ K2, K2 = read_block_state K b h kc.key_cache_block_size (rl + offset) :=
        ⟨_, rfl⟩
      rw [← hK2]
      have hpr : my_pread K.disk f kc.key_cache_block_size (filepos - offset) =
          (min kc.key_cache_block_size (K.disk.size f - (filepos - offset)),
           min kc.key_cache_block_size (K.disk.size f - (filepos - offset)),
           { K.disk with preads := K.disk.preads + 1 }) := by
        simp only [my_pread, hprK, hrd]
      have e2x : ∀ x, x ≠ b → K2.block_root x = K.block_root x := by
        intro x hx
        rw [hK2]
        simp only [read_block_state, Function.update_noteq hx]
      have e2l : K2.hash_link_root = K.hash_link_root := by rw [hK2]; rfl
      have e2c : same_config K K2 := by rw [hK2]; exact same_config_refl _
      have e2p : K2.disk.pread_forced = K.disk.pread_forced := by
        rw [hK2]
        simp only [read_block_state, fd.link, hpr]
      have wf2 : WF K2 (some b) [] := by
        rw [hK2]; exact read_block_state_pinned K b h _ _ fd.wf
      by_cases hgot : min kc.key_cache_block_size (K.disk.size f - (filepos - offset)) <
          rl + offset
      · have e2b : K2.block_root b =
            { K.block_root b with
              buffer := pread_into K.disk f (filepos - offset)
                (min kc.key_cache_block_size (K.disk.size f - (filepos - offset)))
                (K.block_root b).buffer
              status := { (K.block_root b).status with error := true } } := by
          rw [hK2]
          simp only [read_block_state, Function.update_same, fd.link, hpr, if_pos hgot]
        exact fail K2 wf2 (by rw [e2b]; exact fd.hl) e2l e2c e2p (by rw [e2b]) (by
          rw [e2b]
          show (K.block_root b).status.in_eviction = false
          rw [hs]; rfl) (by
          intro h0 b0 hc0 _ _
          exact hmiss0 h0 (by rw [hkA]; exact hc0.1) (by rw [hkA]; exact ⟨hc0.2.1, hc0.2.2⟩))
      · have e2b : K2.block_root b =
            { K.block_root b with
              buffer := pread_into K.disk f (filepos - offset)
                (min kc.key_cache_block_size (K.disk.size f - (filepos - offset)))
                (K.block_root b).buffer
              status := { (K.block_root b).status with read := true }
              length := min kc.key_cache_block_size (K.disk.size f - (filepos - offset)) } := by
          rw [hK2]
          simp only [read_block_state, Function.update_same, fd.link, hpr, if_neg hgot]
        have e2s : (K2.block_root b).status = { read := true, in_use := true } := by
          rw [e2b]
          show { (K.block_root b).status with read := true } = _
          rw [hs]; rfl
        have hbok2 : block_ok K2 [] b := by
          unfold block_ok
          rw [e2s]
          refine ⟨rfl, rfl, rfl, rfl, rfl, ?_, by simp, by simp⟩
          intro hb
          rw [e2b]
          show min kc.key_cache_block_size _ ≤ K2.key_cache_block_size
          rw [hK2]
          show min kc.key_cache_block_size _ ≤ K.key_cache_block_size
          rw [ebs]
          exact Nat.min_le_left _ _
        exact ok K2 wf2 (by rw [e2b]; exact fd.hl) e2l e2c e2p e2x hbok2 (by rw [e2s])
          (by rw [e2s]) (by rw [e2s]) (by rw [e2b]; exact not_lt.1 hgot) (fun e => by cases e)
  · -- the write back of the victim has failed
    rw [if_neg herrK, Option.some_bind]
    have herr' : (K.block_root b).status.error = true := by simpa using herrK
    have hev : (K.block_root b).status.in_eviction = false := by
      rcases fd.cases with hst | hst
      · obtain ⟨-, hbk, eKb, -, -, he⟩ := fd.hit hst
        rw [eKb] at herr'
        rw [he] at herr'
        cases herr'
      · subst hst
        rcases fd.status_cases with e | e <;> rw [e] <;> rfl
    exact fail K fd.wf fd.hl rfl (same_config_refl _) rfl herr' hev (by
      intro h0 b0 hc0 _ _
      rcases fd.cases with hst | hst
      · obtain ⟨-, hbk, eKb, -, -, he⟩ := fd.hit hst
        rw [eKb] at herr'
        rw [he] at herr'
        cases herr'
      · obtain ⟨hm, -⟩ := fd.miss hst
        exact hm h0 (by rw [hkA]; exact hc0.1) (by rw [hkA]; exact ⟨hc0.2.1, hc0.2.2⟩))

theorem usable_of_config {kc kc' : KEY_CACHE} (c : same_config kc kc') (hu : usable kc) :
    usable kc' :=
  ⟨by rw [c.1]; exact hu.1, by rw [c.2.1]; exact hu.2.1, by rw [c.2.2.1]; exact hu.2.2⟩

theorem set_hash_link_aux (kc : KEY_CACHE) (h : Nat) (v : HASH_LINK) (aux : AUX kc) :
    AUX (set_hash_link kc h v) :=
  @AUX.congr_aux kc (set_hash_link kc h v) aux rfl rfl rfl rfl (fun _ => aux_same_refl _)

/-- The end of a pass on a block that holds its page: the request is given
back and the block returns to the LRU ring. -/
theorem release_inv (K : KEY_CACHE) (b h : Nat) (at_end : Bool) (wf : WF K (some b) [])
    (aux : AUX K) (hh : (K.block_root b).hash_link = some h)
    (hreqh : (K.hash_link_root h).requests = 1)
    (hbok : block_ok K [] b)
    (herr : (K.block_root b).status.error = false)
    (hread : (K.block_root b).status.read = true)
    (hupd : (K.block_root b).status.for_update = false) :
    ∃ Kr K', remove_reader K b = some Kr ∧ (Kr.block_root b).status.error = false ∧
      unreg_request Kr b at_end = some K' ∧ WF K' none [] ∧ AUX K' ∧ same_config K K' := by
  obtain ⟨br, ring, ins, w, hrem, hunreg, hperm, hcore, wf3⟩ :=
    release_spec K b h at_end wf hh hreqh hbok herr hread hupd
  refine ⟨_, _, hrem, herr, hunreg, wf3, ?_, ⟨rfl, rfl, rfl, rfl, rfl, rfl, rfl, rfl, rfl, rfl, rfl⟩⟩
  exact unreg_request_aux_wf _ _ b at_end [] (wf.set_link_requests h 0 hh)
    (set_hash_link_aux K h _ aux) hunreg

/-- The end of a pass on a block with `BLOCK_ERROR`: the block is freed. -/
theorem free_inv (K : KEY_CACHE) (b h : Nat) (wf : WF K (some b) [])
    (aux : AUX K) (hh : (K.block_root b).hash_link = some h)
    (hreqh : (K.hash_link_root h).requests = 1)
    (hev : (K.block_root b).status.in_eviction = false) :
    ∃ Kr K', remove_reader K b = some Kr ∧
      (Kr.block_root b).status.error = (K.block_root b).status.error ∧
      free_block Kr b = some K' ∧ WF K' none [] ∧ AUX K' ∧ same_config K K' := by
  have hrem : remove_reader K b =
      some (set_hash_link K h { K.hash_link_root h with requests := 0 }) := by
    unfold remove_reader
    simp only [hh, hreqh, dec32_one]
  obtain ⟨Kr, hKr⟩ : ∃ Kr, Kr = set_hash_link K h { K.hash_link_root h with requests := 0 } :=
    ⟨_, rfl⟩
  rw [← hKr] at hrem
  have eB : Kr.block_root = K.block_root := by rw [hKr]; rfl
  have wfr : WF Kr (some b) [] := by
    rw [hKr]; exact wf.set_link_requests h 0 hh
  have auxr : AUX Kr := by rw [hKr]; exact set_hash_link_aux K h _ aux
  have hhr : (Kr.block_root b).hash_link = some h := by rw [eB]; exact hh
  have hrr : (Kr.hash_link_root h).requests = 0 := by
    rw [hKr]; simp only [set_hash_link, Function.update_same]
  obtain ⟨br, ring, ins, t, w, hfree, hperm, hok, hcore, hb1, hb2, hb3, -⟩ :=
    free_block_spec Kr b h [] wfr hhr hrr (by rw [eB]; exact hev)
  refine ⟨Kr, _, hrem, by rw [eB], hfree, ?_, ?_, ?_⟩
  · exact freed_state_wf Kr b h [] br ring ins t w wfr hhr hrr hperm hok hcore hb1 hb2 hb3
  · exact free_block_aux_wf Kr _ b [] wfr auxr hfree
  · rw [hKr]
    exact ⟨rfl, rfl, rfl, rfl, rfl, rfl, rfl, rfl, rfl, rfl, rfl⟩

/-- The state after `read_block` keeps the bookkeeping, when the block is not
dirty. -/
theorem read_block_state_aux (K : KEY_CACHE) (b h rl m : Nat) (aux : AUX K)
    (hh : (K.block_root b).hash_link = some h)
    (hc : (K.block_root b).status.changed = false) :
    AUX (read_block_state K b h rl m) := by
  apply @AUX.set_quiet K (read_block_state K b h rl m) aux b rfl rfl rfl
    (my_pread_forced _ _ _ _)
  · intro x hx
    simp only [read_block_state, Function.update_noteq hx]
    exact aux_same_refl _
  · simp only [read_block_state, Function.update_same]
    split <;> rfl
  · simp only [read_block_state, Function.update_same]
    split <;> rfl
  · intro hn
    simp only [read_block_state, Function.update_same] at hn
    split at hn <;> · rw [hh] at hn; cases hn
  · simp only [read_block_state, Function.update_same]
    split <;> exact aux.off_le b
  · intro hd
    simp only [read_block_state, Function.update_same] at hd
    split at hd <;> · rw [hc] at hd; cases hd

/-- The end of a pass of `key_cache_read` on a block that holds the data. -/
theorem key_cache_read_finish_inv_ok (K : KEY_CACHE) (b h dst rl offset : Nat)
    (buff : Nat → Nat) (error more : Bool) (wf : WF K (some b) []) (aux : AUX K)
    (hh : (K.block_root b).hash_link = some h)
    (hreqh : (K.hash_link_root h).requests = 1)
    (hbok : block_ok K [] b)
    (herr : (K.block_root b).status.error = false)
    (hread : (K.block_root b).status.read = true)
    (hupd : (K.block_root b).status.for_update = false) :
    ∀ r, key_cache_read_finish K b buff dst rl offset error more = some r →
      WF r.2.2.1 none [] ∧ AUX r.2.2.1 ∧ same_config K r.2.2.1 ∧ r.2.2.2 = more := by
  intro r hr
  obtain ⟨Kr, K', hrem, herr', hun, wf', aux', cfg⟩ :=
    release_inv K b h true wf aux hh hreqh hbok herr hread hupd
  unfold key_cache_read_finish at hr
  rw [hrem, Option.some_bind, if_pos herr', hun, Option.map_some'] at hr
  cases hr
  exact ⟨wf', aux', cfg, rfl⟩

/-- The end of a pass of `key_cache_read` on a block with `BLOCK_ERROR`. -/
theorem key_cache_read_finish_inv_err (K : KEY_CACHE) (b h dst rl offset : Nat)
    (buff : Nat → Nat) (error more : Bool) (wf : WF K (some b) []) (aux : AUX K)
    (hh : (K.block_root b).hash_link = some h)
    (hreqh : (K.hash_link_root h).requests = 1)
    (herr : (K.block_root b).status.error = true)
    (hev : (K.block_root b).status.in_eviction = false) :
    ∀ r, key_cache_read_finish K b buff dst rl offset error more = some r →
      WF r.2.2.1 none [] ∧ AUX r.2.2.1 ∧ same_config K r.2.2.1 ∧ r.2.2.2 = false := by
  intro r hr
  obtain ⟨Kr, K', hrem, herr', hfree, wf', aux', cfg⟩ := free_inv K b h wf aux hh hreqh hev
  unfold key_cache_read_finish at hr
  rw [hrem, Option.some_bind, if_neg (by rw [herr', herr]; simp), hfree, Option.map_some'] at hr
  cases hr
  exact ⟨wf', aux', cfg, rfl⟩

theorem FOUND.in_eviction {kc K : KEY_CACHE} {f key b h : Nat} {st : PAGE_STATUS}
    (fd : FOUND kc K f key b h st) (wf : WF kc none []) :
    (K.block_root b).status.in_eviction = false := by
  rcases fd.cases with hst | hst
  · obtain ⟨-, hbk, eKb, -, -, -⟩ := fd.hit hst
    rw [eKb]
    have hne : (kc.block_root b).hash_link ≠ none := by
      rw [wf.hash.link_back h b hbk]; simp
    exact (wf.stat.used b hne (by simp)).2.2.2.1
  · subst hst
    rcases fd.status_cases with e | e <;> rw [e] <;> rfl

/-- One pass of the loop of `key_cache_read` leaves the cache as it should be
between two operations. -/
theorem key_cache_read_chunk_inv (kc : KEY_CACHE) (f filepos level dst length offset : Nat)
    (buff : Nat → Nat) (error : Bool) (wf : WF kc none []) (aux : AUX kc) (hu : usable kc)
    (hal : (filepos - offset) % kc.key_cache_block_size = 0) :
    ∀ r, key_cache_read_chunk kc f filepos level buff dst length offset error = some r →
      WF r.2.2.1 none [] ∧ AUX r.2.2.1 ∧ same_config kc r.2.2.1 ∧
      (r.2.2.2 = true → length - min length (kc.key_cache_block_size - offset) ≠ 0) := by
  intro r hr
  obtain ⟨kA, hkA⟩ : ∃ kA : KEY_CACHE, kA =
      { kc with global_cache_r_requests := kc.global_cache_r_requests + 1 } := ⟨_, rfl⟩
  have wfA : WF kA none [] := by
    rw [hkA]
    exact @WF.congr_wf kc _ none [] wf rfl rfl rfl rfl rfl rfl rfl rfl rfl rfl rfl rfl rfl rfl
      (fun _ => rfl) (fun _ => rfl) (fun _ => rfl) (fun _ => rfl) rfl (fun h => h)
  have auxA : AUX kA := by
    rw [hkA]
    exact @AUX.congr_aux kc _ aux rfl rfl rfl rfl (fun _ => aux_same_refl _)
  have huA : usable kA := by rw [hkA]; exact hu
  have halA : (filepos - offset) % kA.key_cache_block_size = 0 := by rw [hkA]; exact hal
  have cfgA : same_config kc kA := by rw [hkA]; exact same_config_refl kc
  obtain ⟨rl, hrl⟩ : ∃ rl, rl = min length (kc.key_cache_block_size - offset) := ⟨_, rfl⟩
  rw [← hrl]
  rcases find_key_block_spec kA f (filepos - offset) level false wfA huA halA with
    ⟨hnone, -⟩ | ⟨b, h, st, K, hfind, fd⟩
  · exfalso
    have : key_cache_read_chunk kc f filepos level buff dst length offset error = none := by
      unfold key_cache_read_chunk
      rw [if_neg (by rw [hu.2.1]; decide)]
      dsimp only []
      rw [← hkA, hnone]
    rw [this] at hr
    cases hr
  have hchunk := key_cache_read_chunk_found kc K f filepos level dst length offset b buff error
      st hu.2.1 (by rw [← hkA]; exact hfind)
  rw [← hrl] at hchunk
  rw [hchunk] at hr
  have ebs : K.key_cache_block_size = kc.key_cache_block_size := by
    have := fd.config.2.2.2.2.1
    rw [this, hkA]
  have hcfgK : same_config kc K := same_config_trans cfgA fd.config
  have auxK : AUX K := fd.aux auxA
  have hreqK : (K.hash_link_root h).requests = 1 := by rw [fd.link]
  have hevK := fd.in_eviction wfA
  have fin : ∀ (K2 : KEY_CACHE) (more : Bool), same_config K K2 →
      (∀ r, key_cache_read_finish K2 b buff dst rl offset error (decide (length - rl ≠ 0)) =
          some r →
        WF r.2.2.1 none [] ∧ AUX r.2.2.1 ∧ same_config K2 r.2.2.1 ∧
          (r.2.2.2 = decide (length - rl ≠ 0) ∨ r.2.2.2 = false)) →
      key_cache_read_finish K2 b buff dst rl offset error (decide (length - rl ≠ 0)) = some r →
      WF r.2.2.1 none [] ∧ AUX r.2.2.1 ∧ same_config kc r.2.2.1 ∧
        (r.2.2.2 = true → length - rl ≠ 0) := by
    intro K2 _ c2 hfin hr2
    obtain ⟨w3, a3, c3, m3⟩ := hfin r hr2
    refine ⟨w3, a3, same_config_trans hcfgK (same_config_trans c2 c3), ?_⟩
    intro hm
    rcases m3 with m3 | m3
    · rw [m3] at hm
      exact of_decide_eq_true hm
    · rw [m3] at hm
      cases hm
  unfold key_cache_read_load at hr
  by_cases herrK : (K.block_root b).status.error = false
  · rw [if_pos herrK] at hr
    rcases fd.cases with hst | hst
    · -- a hit
      subst hst
      obtain ⟨hc, hbk, eKb, eKd, eKl, -⟩ := fd.hit rfl
      have hne : (kA.block_root b).hash_link ≠ none := by
        rw [wfA.hash.link_back h b hbk]; simp
      have hok := wfA.stat.used b hne (by simp)
      have hq := wfA.stat.quiet b hne (by simp)
      rw [if_neg (by simp)] at hr
      by_cases hlen : (K.block_root b).length < rl + offset
      · rw [if_pos hlen, Option.some_bind] at hr
        obtain ⟨K2, hK2⟩ : ∃ K2, K2 =
            set_status K b { (K.block_root b).status with error := true } := ⟨_, rfl⟩
        rw [← hK2] at hr
        have wf2 : WF K2 (some b) [] := by
          rw [hK2]; exact fd.wf.set_pinned _ rfl rfl rfl
        have aux2 : AUX K2 := by
          rw [hK2]
          exact set_status_aux K b { (K.block_root b).status with error := true } auxK
            (fun hc => hc)
        have e2c : same_config K K2 := by rw [hK2]; exact same_config_refl _
        refine fin K2 false e2c (fun r2 hr2 => ?_) hr
        obtain ⟨a, b', c, d⟩ := key_cache_read_finish_inv_err K2 b h dst rl offset buff error
          (decide (length - rl ≠ 0)) wf2 aux2
          (by rw [hK2]; simp only [set_status, set_block, Function.update_same]; exact fd.hl)
          (by rw [hK2]; exact hreqK)
          (by rw [hK2]; simp only [set_status, set_block, Function.update_same])
          (by rw [hK2]; simp only [set_status, set_block, Function.update_same]; exact hevK)
          r2 hr2
        exact ⟨a, b', c, Or.inr d⟩
      · rw [if_neg hlen, Option.some_bind] at hr
        have hbK : block_ok K [] b := by
          unfold block_ok
          rw [eKb, ebs]
          have e : kA.key_cache_block_size = kc.key_cache_block_size := by rw [hkA]
          rw [← e]
          exact ok_weaken (bounded_reads.of_same fd.reads.2.2 fd.config.2.2.2.2.1) hok
        refine fin K false (same_config_refl _) (fun r2 hr2 => ?_) hr
        obtain ⟨a, b', c, d⟩ := key_cache_read_finish_inv_ok K b h dst rl offset buff error
          (decide (length - rl ≠ 0)) fd.wf auxK fd.hl hreqK hbK herrK
          (by rw [eKb]; exact hq.1) (by rw [eKb]; exact hq.2) r2 hr2
        exact ⟨a, b', c, Or.inl d⟩
    · -- a miss
      subst hst
      have hs : (K.block_root b).status = BLOCK_IN_USE := by
        rcases fd.status_cases with e | e
        · exact e
        · rw [e] at herrK
          cases herrK
      rw [if_pos (by decide)] at hr
      simp only [decide_True] at hr
      rw [ebs, read_block_primary K b h kc.key_cache_block_size (rl + offset) fd.hl,
        Option.some_bind] at hr
      obtain ⟨K2, hK2⟩ : ∃ K2, K2 = read_block_state K b h kc.key_cache_block_size (rl + offset) :=
        ⟨_, rfl⟩
      rw [← hK2] at hr
      have e2c : same_config K K2 := by rw [hK2]; exact same_config_refl _
      have wf2 : WF K2 (some b) [] := by
        rw [hK2]; exact read_block_state_pinned K b h _ _ fd.wf
      have aux2 : AUX K2 := by
        rw [hK2]
        exact read_block_state_aux K b h _ _ auxK fd.hl (by rw [hs]; rfl)
      have hreq2 : (K2.hash_link_root h).requests = 1 := by rw [hK2]; exact hreqK
      obtain ⟨g, hg⟩ : ∃ g, g = (my_pread K.disk (K.hash_link_root h).file
          kc.key_cache_block_size (K.hash_link_root h).diskpos).1 := ⟨_, rfl⟩
      have hgle : bounded_reads K → g ≤ kc.key_cache_block_size := by
        intro hbK
        rw [hg]
        exact my_pread_le _ _ _ _ _ (by rw [← ebs]; exact hbK) (le_refl _)
      by_cases hgot : g < rl + offset
      · have e2b : (K2.block_root b).hash_link = some h ∧
            (K2.block_root b).status = { (K.block_root b).status with error := true } := by
          rw [hK2]
          simp only [read_block_state, Function.update_same, ← hg, if_pos hgot]
          exact ⟨fd.hl, trivial⟩
        refine fin K2 false e2c (fun r2 hr2 => ?_) hr
        obtain ⟨a, b', c, d⟩ := key_cache_read_finish_inv_err K2 b h dst rl offset buff error
          (decide (length - rl ≠ 0)) wf2 aux2 e2b.1 hreq2 (by rw [e2b.2])
          (by rw [e2b.2, hs]; rfl) r2 hr2
        exact ⟨a, b', c, Or.inr d⟩
      · have e2b : (K2.block_root b).hash_link = some h ∧
            (K2.block_root b).status = { (K.block_root b).status with read := true } ∧
            (K2.block_root b).length = g := by
          rw [hK2]
          simp only [read_block_state, Function.update_same, ← hg, if_neg hgot]
          exact ⟨fd.hl, trivial, trivial⟩
        have e2s : (K2.block_root b).status = { read := true, in_use := true } := by
          rw [e2b.2.1, hs]; rfl
        have hbok2 : block_ok K2 [] b := by
          unfold block_ok
          rw [e2s, e2b.2.2]
          refine ⟨rfl, rfl, rfl, rfl, rfl, ?_, by simp, by simp⟩
          intro hb
          rw [hK2]
          show g ≤ K.key_cache_block_size
          rw [ebs]
          exact hgle (bounded_reads.of_same (by rw [hK2]; exact my_pread_forced _ _ _ _)
            (by rw [hK2]; rfl) hb)
        refine fin K2 false e2c (fun r2 hr2 => ?_) hr
        obtain ⟨a, b', c, d⟩ := key_cache_read_finish_inv_ok K2 b h dst rl offset buff error
          (decide (length - rl ≠ 0)) wf2 aux2 e2b.1 hreq2 hbok2 (by rw [e2s]) (by rw [e2s])
          (by rw [e2s]) r2 hr2
        exact ⟨a, b', c, Or.inl d⟩
  · -- the write back of the victim has failed
    rw [if_neg herrK, Option.some_bind] at hr
    have herr' : (K.block_root b).status.error = true := by simpa using herrK
    refine fin K false (same_config_refl _) (fun r2 hr2 => ?_) hr
    obtain ⟨a, b', c, d⟩ := key_cache_read_finish_inv_err K b h dst rl offset buff error
      (decide (length - rl ≠ 0)) fd.wf auxK fd.hl hreqK herr' hevK r2 hr2
    exact ⟨a, b', c, Or.inr d⟩

theorem INV.resize_counter {kc : KEY_CACHE} (n : Nat) (inv : INV kc) :
    INV { kc with cnt_for_resize_op := n } :=
  ⟨@WF.congr_wf kc _ none [] inv.1 rfl rfl rfl rfl rfl rfl rfl rfl rfl rfl rfl rfl rfl rfl
      (fun _ => rfl) (fun _ => rfl) (fun _ => rfl) (fun _ => rfl) rfl (fun h => h),
    @AUX.congr_aux kc _ inv.2.1 rfl rfl rfl rfl (fun _ => aux_same_refl _), inv.2.2⟩

theorem aligned_next (p o l bs : Nat) (hal : (p - o) % bs = 0) (ho : o ≤ bs)
    (hm : l - min l (bs - o) ≠ 0) : (p - o + (min l (bs - o) + o) - 0) % bs = 0 := by
  have h1 : min l (bs - o) = bs - o := by
    rcases Nat.le_total l (bs - o) with h | h
    · rw [Nat.min_eq_left h] at hm
      omega
    · exact Nat.min_eq_right h
  rw [h1, Nat.sub_zero, Nat.sub_add_cancel ho, Nat.add_mod, hal, Nat.mod_self]
  simp

/-- The loop of `key_cache_read` leaves the cache as it should be between two
operations. -/
theorem key_cache_read_loop_inv : ∀ (fuel : Nat) (kc : KEY_CACHE)
    (f filepos level : Nat) (buff : Nat → Nat) (dst length offset : Nat) (error : Bool),
    WF kc none [] → AUX kc → usable kc → offset ≤ kc.key_cache_block_size →
    (filepos - offset) % kc.key_cache_block_size = 0 →
    ∀ r, key_cache_read_loop fuel kc f filepos level buff dst length offset error = some r →
      WF r.2.2 none [] ∧ AUX r.2.2 ∧ same_config kc r.2.2 := by
  intro fuel
  induction fuel with
  | zero =>
    intro kc f filepos level buff dst length offset error _ _ _ _ _ r hr
    rw [key_cache_read_loop] at hr
    cases hr
  | succ fuel ih =>
    intro kc f filepos level buff dst length offset error wf aux hu ho hal r hr
    rw [key_cache_read_loop] at hr
    cases hc : key_cache_read_chunk kc f filepos level buff dst length offset error with
    | none =>
      rw [hc] at hr
      cases hr
    | some c =>
      obtain ⟨e1, b1, k1, m1⟩ := c
      have hinv := key_cache_read_chunk_inv kc f filepos level dst length offset buff error wf aux
        hu hal _ hc
      obtain ⟨w1, a1, c1, hm⟩ := hinv
      rw [hc] at hr
      cases m1 with
      | false =>
        simp only [] at hr
        cases hr
        exact ⟨w1, a1, c1⟩
      | true =>
        simp only [] at hr
        have ebs : k1.key_cache_block_size = kc.key_cache_block_size := c1.2.2.2.2.1
        obtain ⟨w2, a2, c2⟩ := ih k1 f _ level b1 _ _ 0 e1 w1 a1 (usable_of_config c1 hu)
          (Nat.zero_le _)
          (by rw [ebs]; exact aligned_next filepos offset length _ hal ho (hm rfl)) r hr
        exact ⟨w2, a2, same_config_trans c1 c2⟩

/-- A call of `key_cache_read` leaves the cache as it should be between two
operations. -/
theorem key_cache_read_inv (kc : KEY_CACHE) (f filepos level : Nat) (buff : Nat → Nat)
    (length : Nat) (inv : INV kc) :
    ∀ r, key_cache_read kc f filepos level buff length = some r → INV r.2.2 := by
  intro r hr
  obtain ⟨wf, aux, hu⟩ := inv
  unfold key_cache_read at hr
  rw [if_pos hu.1, if_neg (by rw [hu.2.2]; simp)] at hr
  simp only [] at hr
  have inv1 : INV (inc_counter_for_resize_op kc) := INV.resize_counter _ ⟨wf, aux, hu⟩
  cases hl : key_cache_read_loop (length + 1) (inc_counter_for_resize_op kc) f filepos level buff 0
      length (filepos % (inc_counter_for_resize_op kc).key_cache_block_size) false with
  | none =>
    rw [hl] at hr
    cases hr
  | some c =>
    rw [hl] at hr
    obtain ⟨e1, b1, k1⟩ := c
    simp only [] at hr
    cases hr
    have hbs : 0 < kc.key_cache_block_size := wf.cnt.bs_pos
    obtain ⟨w2, a2, c2⟩ := key_cache_read_loop_inv _ _ f filepos level buff 0 length _ false
      inv1.1 inv1.2.1 inv1.2.2 (le_of_lt (Nat.mod_lt _ hbs))
      (Nat.sub_mod_eq_zero_of_mod_eq (by rw [Nat.mod_mod])) _ hl
    exact INV.resize_counter _ ⟨w2, a2, usable_of_config c2 inv1.2.2⟩

/-- The end of a pass of `key_cache_insert`. -/
theorem key_cache_insert_finish_inv (K : KEY_CACHE) (b h : Nat) (more : Bool)
    (wf : WF K (some b) []) (aux : AUX K)
    (hh : (K.block_root b).hash_link = some h)
    (hreqh : (K.hash_link_root h).requests = 1)
    (hcase : ((K.block_root b).status.error = false ∧ block_ok K [] b ∧
        (K.block_root b).status.read = true ∧ (K.block_root b).status.for_update = false) ∨
      ((K.block_root b).status.error = true ∧ (K.block_root b).status.in_eviction = false)) :
    ∀ r : Bool × KEY_CACHE × Bool,
      ((remove_reader K b).bind fun kc2 =>
        if (kc2.block_root b).status.error = false then
          (unreg_request kc2 b true).map fun kc3 => (false, kc3, more)
        else (free_block kc2 b).map fun kc3 => (true, kc3, false)) = some r →
      WF r.2.1 none [] ∧ AUX r.2.1 ∧ same_config K r.2.1 ∧ (r.2.2 = true → more = true) := by
  intro r hr
  rcases hcase with ⟨herr, hbok, hread, hupd⟩ | ⟨herr, hev⟩
  · obtain ⟨Kr, K', hrem, herr', hun, wf', aux', cfg⟩ :=
      release_inv K b h true wf aux hh hreqh hbok herr hread hupd
    rw [hrem, Option.some_bind, if_pos herr', hun, Option.map_some'] at hr
    cases hr
    exact ⟨wf', aux', cfg, fun e => e⟩
  · obtain ⟨Kr, K', hrem, herr', hfree, wf', aux', cfg⟩ := free_inv K b h wf aux hh hreqh hev
    rw [hrem, Option.some_bind, if_neg (by rw [herr', herr]; simp), hfree, Option.map_some'] at hr
    cases hr
    exact ⟨wf', aux', cfg, fun e => by cases e⟩

/-- One pass of the loop of `key_cache_insert` leaves the cache as it should be
between two operations. -/
theorem key_cache_insert_chunk_inv (kc : KEY_CACHE) (f filepos level : Nat) (buff : List Nat)
    (offset : Nat) (wf : WF kc none []) (aux : AUX kc) (hu : usable kc)
    (hal : (filepos - offset) % kc.key_cache_block_size = 0) :
    ∀ r, key_cache_insert_chunk kc f filepos level buff offset = some r →
      WF r.2.1 none [] ∧ AUX r.2.1 ∧ same_config kc r.2.1 ∧
      (r.2.2 = true →
        buff.length - min buff.length (kc.key_cache_block_size - offset) ≠ 0) := by
  intro r hr
  obtain ⟨kA, hkA⟩ : ∃ kA : KEY_CACHE, kA =
      { kc with
        global_cache_read := kc.global_cache_read + 1
        global_cache_r_requests := kc.global_cache_r_requests + 1 } := ⟨_, rfl⟩
  have wfA : WF kA none [] := by
    rw [hkA]
    exact @WF.congr_wf kc _ none [] wf rfl rfl rfl rfl rfl rfl rfl rfl rfl rfl rfl rfl rfl rfl
      (fun _ => rfl) (fun _ => rfl) (fun _ => rfl) (fun _ => rfl) rfl (fun h => h)
  have auxA : AUX kA := by
    rw [hkA]
    exact @AUX.congr_aux kc _ aux rfl rfl rfl rfl (fun _ => aux_same_refl _)
  have huA : usable kA := by rw [hkA]; exact hu
  have halA : (filepos - offset) % kA.key_cache_block_size = 0 := by rw [hkA]; exact hal
  have cfgA : same_config kc kA := by rw [hkA]; exact same_config_refl kc
  obtain ⟨rl, hrl⟩ : ∃ rl, rl = min buff.length (kc.key_cache_block_size - offset) := ⟨_, rfl⟩
  have hrlle : rl ≤ kc.key_cache_block_size := by
    rw [hrl]
    exact le_trans (Nat.min_le_right _ _) (Nat.sub_le _ _)
  rw [← hrl]
  unfold key_cache_insert_chunk at hr
  rw [if_neg (by rw [hu.2.1, hu.2.2]; simp), ← hkA, ← hrl] at hr
  rcases find_key_block_spec kA f (filepos - offset) level false wfA huA halA with
    ⟨hnone, -⟩ | ⟨b, h, st, K, hfind, fd⟩
  · rw [hnone] at hr
    cases hr
  rw [hfind, Option.some_bind] at hr
  simp only [] at hr
  have ebs : K.key_cache_block_size = kc.key_cache_block_size := by
    have := fd.config.2.2.2.2.1
    rw [this, hkA]
  have hcfgK : same_config kc K := same_config_trans cfgA fd.config
  have auxK : AUX K := fd.aux auxA
  have hreqK : (K.hash_link_root h).requests = 1 := by rw [fd.link]
  have hevK := fd.in_eviction wfA
  have fin : ∀ (K2 : KEY_CACHE), same_config K K2 → WF K2 (some b) [] → AUX K2 →
      (K2.block_root b).hash_link = some h → (K2.hash_link_root h).requests = 1 →
      (((K2.block_root b).status.error = false ∧ block_ok K2 [] b ∧
        (K2.block_root b).status.read = true ∧ (K2.block_root b).status.for_update = false) ∨
      ((K2.block_root b).status.error = true ∧ (K2.block_root b).status.in_eviction = false)) →
      ((remove_reader K2 b).bind fun kc2 =>
        if (kc2.block_root b).status.error = false then
          (unreg_request kc2 b true).map fun kc3 =>
            (false, kc3, decide (buff.length - rl ≠ 0))
        else (free_block kc2 b).map fun kc3 => (true, kc3, false)) = some r →
      WF r.2.1 none [] ∧ AUX r.2.1 ∧ same_config kc r.2.1 ∧
        (r.2.2 = true → buff.length - rl ≠ 0) := by
    intro K2 c2 wf2 aux2 hh2 hreq2 hcase hr2
    obtain ⟨w3, a3, c3, m3⟩ := key_cache_insert_finish_inv K2 b h _ wf2 aux2 hh2 hreq2 hcase r hr2
    exact ⟨w3, a3, same_config_trans hcfgK (same_config_trans c2 c3),
      fun hm => of_decide_eq_true (m3 hm)⟩
  unfold key_cache_insert_load at hr
  by_cases herrK : (K.block_root b).status.error = false
  · rw [if_pos herrK] at hr
    rcases fd.cases with hst | hst
    · -- a hit
      subst hst
      obtain ⟨hc, hbk, eKb, eKd, eKl, -⟩ := fd.hit rfl
      have hne : (kA.block_root b).hash_link ≠ none := by
        rw [wfA.hash.link_back h b hbk]; simp
      have hok := wfA.stat.used b hne (by simp)
      have hq := wfA.stat.quiet b hne (by simp)
      rw [if_neg (by simp), if_neg (by simp), Option.some_bind] at hr
      have hbK : block_ok K [] b := by
        unfold block_ok
        rw [eKb, ebs]
        have e : kA.key_cache_block_size = kc.key_cache_block_size := by rw [hkA]
        rw [← e]
        exact ok_weaken (bounded_reads.of_same fd.reads.2.2 fd.config.2.2.2.2.1) hok
      exact fin K (same_config_refl _) fd.wf auxK fd.hl hreqK
        (Or.inl ⟨herrK, hbK, by rw [eKb]; exact hq.1, by rw [eKb]; exact hq.2⟩) hr
    · -- a miss
      subst hst
      have hs : (K.block_root b).status = BLOCK_IN_USE := by
        rcases fd.status_cases with e | e
        · exact e
        · rw [e] at herrK
          cases herrK
      by_cases hpart : offset ≠ 0 ∨ rl < K.key_cache_block_size
      · rw [if_pos (Or.inr ⟨rfl, hpart⟩)] at hr
        simp only [decide_True] at hr
        rw [ebs, read_block_primary K b h kc.key_cache_block_size (rl + offset) fd.hl,
          Option.some_bind] at hr
        obtain ⟨K2, hK2⟩ : ∃ K2, K2 =
            read_block_state K b h kc.key_cache_block_size (rl + offset) := ⟨_, rfl⟩
        rw [← hK2] at hr
        have e2c : same_config K K2 := by rw [hK2]; exact same_config_refl _
        have wf2 : WF K2 (some b) [] := by
          rw [hK2]; exact read_block_state_pinned K b h _ _ fd.wf
        have aux2 : AUX K2 := by
          rw [hK2]
          exact read_block_state_aux K b h _ _ auxK fd.hl (by rw [hs]; rfl)
        have hreq2 : (K2.hash_link_root h).requests = 1 := by rw [hK2]; exact hreqK
        obtain ⟨g, hg⟩ : ∃ g, g = (my_pread K.disk (K.hash_link_root h).file
            kc.key_cache_block_size (K.hash_link_root h).diskpos).1 := ⟨_, rfl⟩
        have hgle : bounded_reads K → g ≤ kc.key_cache_block_size := by
          intro hbK
          rw [hg]
          exact my_pread_le _ _ _ _ _ (by rw [← ebs]; exact hbK) (le_refl _)
        by_cases hgot : g < rl + offset
        · have e2b : (K2.block_root b).hash_link = some h ∧
              (K2.block_root b).status = { (K.block_root b).status with error := true } := by
            rw [hK2]
            simp only [read_block_state, Function.update_same, ← hg, if_pos hgot]
            exact ⟨fd.hl, trivial⟩
          exact fin K2 e2c wf2 aux2 e2b.1 hreq2
            (Or.inr ⟨by rw [e2b.2], by rw [e2b.2, hs]; rfl⟩) hr
        · have e2b : (K2.block_root b).hash_link = some h ∧
              (K2.block_root b).status = { (K.block_root b).status with read := true } ∧
              (K2.block_root b).length = g := by
            rw [hK2]
            simp only [read_block_state, Function.update_same, ← hg, if_neg hgot]
            exact ⟨fd.hl, trivial, trivial⟩
          have e2s : (K2.block_root b).status = { read := true, in_use := true } := by
            rw [e2b.2.1, hs]; rfl
          have hbok2 : block_ok K2 [] b := by
            unfold block_ok
            rw [e2s, e2b.2.2]
            refine ⟨rfl, rfl, rfl, rfl, rfl, ?_, by simp, by simp⟩
            intro hb
            rw [hK2]
            show g ≤ K.key_cache_block_size
            rw [ebs]
            exact hgle (bounded_reads.of_same (by rw [hK2]; exact my_pread_forced _ _ _ _)
              (by rw [hK2]; rfl) hb)
          exact fin K2 e2c wf2 aux2 e2b.1 hreq2
            (Or.inl ⟨by rw [e2s], hbok2, by rw [e2s], by rw [e2s]⟩) hr
      · -- the caller's data fills the block
        rw [if_neg (by
          intro hcon
          rcases hcon with hcon | hcon
          · cases hcon
          · exact hpart hcon.2), if_pos rfl, Option.some_bind] at hr
        obtain ⟨K2, hK2⟩ : ∃ K2, K2 = set_block K b
            { K.block_root b with
              buffer := buffer_copy (K.block_root b).buffer offset (buff.take rl)
              status := { (K.block_root b).status with read := true }
              length := rl + offset } := ⟨_, rfl⟩
        rw [← hK2] at hr
        have ho0 : offset = 0 := by
          by_contra hne
          exact hpart (Or.inl hne)
        have e2b : K2.block_root b =
            { K.block_root b with
              buffer := buffer_copy (K.block_root b).buffer offset (buff.take rl)
              status := { (K.block_root b).status with read := true }
              length := rl + offset } := by
          rw [hK2]; simp only [set_block, Function.update_same]
        have e2c : same_config K K2 := by rw [hK2]; exact same_config_refl _
        have wf2 : WF K2 (some b) [] := by
          rw [hK2]; exact fd.wf.set_pinned _ rfl rfl rfl
        have e2x : ∀ x, x ≠ b → K2.block_root x = K.block_root x := by
          intro x hx
          rw [hK2]; simp only [set_block, Function.update_noteq hx]
        have aux2 : AUX K2 := by
          apply @AUX.set_quiet K K2 auxK b (by rw [hK2]; rfl) (by rw [hK2]; rfl)
            (by rw [hK2]; rfl) (by rw [hK2]; rfl)
          · intro x hx
            rw [e2x x hx]
            exact aux_same_refl _
          · rw [e2b]
          · rw [e2b]
          · intro hn
            rw [e2b] at hn
            have hn' : (K.block_root b).hash_link = none := hn
            rw [fd.hl] at hn'
            cases hn'
          · rw [e2b]
            exact auxK.off_le b
          · intro hd
            rw [e2b] at hd
            have hd' : (K.block_root b).status.changed = true := hd
            rw [hs] at hd'
            cases hd'
        have e2s : (K2.block_root b).status = { read := true, in_use := true } := by
          rw [e2b]
          show { (K.block_root b).status with read := true } = _
          rw [hs]; rfl
        have hbok2 : block_ok K2 [] b := by
          unfold block_ok
          rw [e2s, e2b]
          refine ⟨rfl, rfl, rfl, rfl, rfl, ?_, by simp, by simp⟩
          intro hb
          show rl + offset ≤ K2.key_cache_block_size
          rw [hK2]
          show rl + offset ≤ K.key_cache_block_size
          rw [ebs, ho0]
          exact hrlle
        exact fin K2 e2c wf2 aux2 (by rw [e2b]; exact fd.hl) (by rw [hK2]; exact hreqK)
          (Or.inl ⟨by rw [e2s], hbok2, by rw [e2s], by rw [e2s]⟩) hr
  · -- the write back of the victim has failed
    rw [if_neg herrK, Option.some_bind] at hr
    have herr' : (K.block_root b).status.error = true := by simpa using herrK
    exact fin K (same_config_refl _) fd.wf auxK fd.hl hreqK (Or.inr ⟨herr', hevK⟩) hr

/-- The loop of `key_cache_insert` leaves the cache as it should be between two
operations. -/
theorem key_cache_insert_loop_inv : ∀ (fuel : Nat) (kc : KEY_CACHE)
    (f filepos level : Nat) (buff : List Nat) (offset : Nat),
    WF kc none [] → AUX kc → usable kc → offset ≤ kc.key_cache_block_size →
    (filepos - offset) % kc.key_cache_block_size = 0 →
    ∀ r, key_cache_insert_loop fuel kc f filepos level buff offset = some r →
      WF r.2 none [] ∧ AUX r.2 ∧ same_config kc r.2 := by
  intro fuel
  induction fuel with
  | zero =>
    intro kc f filepos level buff offset _ _ _ _ _ r hr
    rw [key_cache_insert_loop] at hr
    cases hr
  | succ fuel ih =>
    intro kc f filepos level buff offset wf aux hu ho hal r hr
    rw [key_cache_insert_loop] at hr
    cases hc : key_cache_insert_chunk kc f filepos level buff offset with
    | none =>
      rw [hc] at hr
      cases hr
    | some c =>
      obtain ⟨w1, a1, c1, hm⟩ :=
        key_cache_insert_chunk_inv kc f filepos level buff offset wf aux hu hal _ hc
      rw [hc, Option.some_bind] at hr
      by_cases hmore : c.2.2 = true
      · rw [if_pos hmore] at hr
        have ebs : c.2.1.key_cache_block_size = kc.key_cache_block_size := c1.2.2.2.2.1
        obtain ⟨w2, a2, c2⟩ := ih c.2.1 f _ level _ 0 w1 a1 (usable_of_config c1 hu)
          (Nat.zero_le _)
          (by rw [ebs]; exact aligned_next filepos offset buff.length _ hal ho (hm hmore)) r hr
        exact ⟨w2, a2, same_config_trans c1 c2⟩
      · rw [if_neg hmore] at hr
        cases hr
        exact ⟨w1, a1, c1⟩

/-- A call of `key_cache_insert` leaves the cache as it should be between two
operations. -/
theorem key_cache_insert_inv (kc : KEY_CACHE) (f filepos level : Nat) (buff : List Nat)
    (inv : INV kc) :
    ∀ r, key_cache_insert kc f filepos level buff = some r → INV r.2 := by
  intro r hr
  obtain ⟨wf, aux, hu⟩ := inv
  unfold key_cache_insert at hr
  rw [if_pos hu.1, if_neg (by rw [hu.2.1, hu.2.2]; simp)] at hr
  have inv1 : INV (inc_counter_for_resize_op kc) := INV.resize_counter _ ⟨wf, aux, hu⟩
  cases hl : key_cache_insert_loop (buff.length + 1) (inc_counter_for_resize_op kc) f filepos level
      buff (filepos % kc.key_cache_block_size) with
  | none =>
    rw [hl] at hr
    cases hr
  | some c =>
    rw [hl, Option.map_some'] at hr
    cases hr
    have hbs : 0 < kc.key_cache_block_size := wf.cnt.bs_pos
    obtain ⟨w2, a2, c2⟩ := key_cache_insert_loop_inv _ _ f filepos level buff _
      inv1.1 inv1.2.1 inv1.2.2 (le_of_lt (Nat.mod_lt _ hbs))
      (Nat.sub_mod_eq_zero_of_mod_eq (by rw [Nat.mod_mod])) _ hl
    exact INV.resize_counter _ ⟨w2, a2, usable_of_config c2 inv1.2.2⟩

/-- A pass of `key_cache_write` that has got a block. -/
theorem key_cache_write_chunk_found (kc K : KEY_CACHE) (f filepos level offset b : Nat)
    (buff : List Nat) (dont_write error : Bool) (st : PAGE_STATUS)
    (hcan : kc.can_be_used = true)
    (hfind : find_key_block
      { kc with global_cache_w_requests := kc.global_cache_w_requests + 1 } f
      (filepos - offset) level true = some (some (b, st), K)) :
    key_cache_write_chunk kc f filepos level buff offset dont_write error =
      (key_cache_write_load K b st (min buff.length (kc.key_cache_block_size - offset))
        offset).bind fun k =>
      (key_cache_write_store k b
        (buff.take (min buff.length (kc.key_cache_block_size - offset)))
        (min buff.length (kc.key_cache_block_size - offset)) offset dont_write).bind fun k =>
      key_cache_write_finish k b error
        (decide (buff.length - min buff.length (kc.key_cache_block_size - offset) ≠ 0)) := by
  unfold key_cache_write_chunk
  rw [if_neg (by rw [hcan]; decide)]
  dsimp only []
  rw [hfind]
  dsimp only []
  unfold key_cache_write_load key_cache_write_store key_cache_write_finish
  dsimp only []
  generalize hK1 : (if st ≠ PAGE_WAIT_TO_BE_READ then
      set_status K b { (K.block_root b).status with for_update := true } else K) = K1
  generalize hrl : min buff.length (kc.key_cache_block_size - offset) = rl
  by_cases hc : (K1.block_root b).status.error = false ∧
      ((st = PAGE_TO_BE_READ ∧ (offset ≠ 0 ∨ rl < K1.key_cache_block_size)) ∨
        st = PAGE_WAIT_TO_BE_READ)
  on_goal 1 =>
    simp only [if_pos hc]
    generalize read_block K1 b (if offset + rl ≥ K1.key_cache_block_size then offset
         else K1.key_cache_block_size) offset (decide (st = PAGE_TO_BE_READ)) = rb
    cases rb
    on_goal 2 =>
      rename_i k
      dsimp only [Option.some_bind]
      generalize set_status k b { (k.block_root b).status with for_update := true } = k1
  on_goal 3 =>
    simp only [if_neg hc]
    dsimp only [Option.some_bind]
    generalize K1 = k1
  all_goals first
    | rfl
    | skip
  all_goals
    by_cases hf : (k1.block_root b).status.in_flushwrite = true
    on_goal 1 =>
      simp only [if_pos hf]
      rfl
    simp only [if_neg hf]
    generalize (if (k1.block_root b).status.error = false then
        set_block k1 b
          { k1.block_root b with
            buffer := buffer_copy (k1.block_root b).buffer offset (buff.take rl) }
      else k1) = k2
    cases dont_write
    on_goal 1 =>
      rw [if_pos rfl]
      try rw [if_pos rfl]
      by_cases hch : (k2.block_root b).status.changed = true ∧
            (offset = 0 ∧ rl ≥ k2.key_cache_block_size)
      on_goal 1 =>
        simp only [if_pos hch]
        generalize (k2.block_root b).hash_link = hl
        cases hl
        on_goal 2 =>
          rename_i h
          dsimp only [Option.some_bind, Option.map_some']
          generalize link_to_file_list k2 b (k2.hash_link_root h).file true = k3
      on_goal 3 =>
        simp only [if_neg hch]
        dsimp only [Option.some_bind, Option.map_some']
        generalize k2 = k3
    on_goal 4 =>
      rw [if_neg (show ¬ (true = false) by decide)]
      by_cases hch : (k2.block_root b).status.changed = false
      on_goal 1 =>
        simp only [if_pos hch]
        generalize link_to_changed_list k2 b = lc
        cases lc
        on_goal 2 =>
          rename_i k3
          try dsimp only [Option.some_bind, Option.map_some']
      on_goal 3 =>
        simp only [if_neg hch]
        dsimp only [Option.some_bind, Option.map_some']
        generalize k2 = k3
  all_goals first
    | rfl
    | skip
  all_goals
    generalize remove_reader (set_block k3 b
        { k3.block_root b with
          status := { (k3.block_root b).status with read := true, for_update := false }
          offset := min (k3.block_root b).offset offset
          length := max (k3.block_root b).length (rl + offset) }) b = rr
    cases rr
    on_goal 1 => rfl
    rename_i k5
    dsimp only [Option.some_bind, Option.map_some']
    by_cases he : (k5.block_root b).status.error = false
    on_goal 1 =>
      simp only [if_pos he]
      cases unreg_request k5 b true <;> rfl
    simp only [if_neg he]
    cases free_block (set_status k5 b { (k5.block_root b).status with changed := false }) b <;> rfl

theorem link_to_changed_list_eq (kc : KEY_CACHE) (b h : Nat)
    (hh : (kc.block_root b).hash_link = some h) :
    link_to_changed_list kc b = some (dirtied_state kc b (kc.hash_link_root h).file) := by
  unfold link_to_changed_list dirtied_state
  rw [hh]
  simp only [link_changed, unlink_changed, set_status, set_block]

/-- Moving the pinned block to the dirty chain of its file keeps the state
well-formed. -/
theorem dirtied_state_wf (kc : KEY_CACHE) (b h : Nat) (fl : List Nat)
    (wf : WF kc (some b) fl) (hh : (kc.block_root b).hash_link = some h) :
    WF (dirtied_state kc b (kc.hash_link_root h).file) (some b) fl := by
  obtain ⟨K, hK⟩ : ∃ K, K = dirtied_state kc b (kc.hash_link_root h).file := ⟨_, rfl⟩
  rw [← hK]
  have eB : ∀ x, K.block_root x = if x = b then
      { kc.block_root b with status := { (kc.block_root b).status with changed := true } }
      else kc.block_root x := by
    intro x; rw [hK]; simp only [dirtied_state, Function.update_apply]
  have hne : ∀ x, x ≠ b → K.block_root x = kc.block_root x := by
    intro x hx; rw [eB, if_neg hx]
  have hhl : ∀ x, (K.block_root x).hash_link = (kc.block_root x).hash_link := by
    intro x; rw [eB]; split
    · rename_i hx; rw [hx]
    · rfl
  have hrq : ∀ x, (K.block_root x).requests = (kc.block_root x).requests := by
    intro x; rw [eB]; split
    · rename_i hx; rw [hx]
    · rfl
  have hpn : ∀ x, some b ≠ some x → x ≠ b := fun x hx hc => hx (by rw [hc])
  refine ⟨wf.cnt.congr_cnt (by rw [hK]; rfl) (by rw [hK]; rfl) (by rw [hK]; rfl) (by rw [hK]; rfl)
      (by rw [hK]; rfl) (by rw [hK]; rfl) hhl, ?_, ?_,
    wf.req.congr_req hhl hrq (fun _ => by rw [hK]; rfl), ?_,
    wf.hash.congr_hash (by rw [hK]; rfl) (by rw [hK]; rfl) (by rw [hK]; rfl) (by rw [hK]; rfl)
      (by rw [hK]; rfl) (by rw [hK]; rfl) hhl (fun _ => by rw [hK]; rfl)
      (fun _ => by rw [hK]; rfl) (fun _ => by rw [hK]; rfl)⟩
  · constructor
    · rw [hK]; exact wf.ring.ok
    · intro x
      have e : K.used_ring = kc.used_ring := by rw [hK]; rfl
      rw [e, wf.ring.iff x, hhl]
      constructor
      · rintro ⟨a1, a2, a3, a4⟩
        exact ⟨a1, a2, a3, by rw [hne x (hpn x a2)]; exact a4⟩
      · rintro ⟨a1, a2, a3, a4⟩
        exact ⟨a1, a2, a3, by rw [hne x (hpn x a2)] at a4; exact a4⟩
    · intro x hx; rw [hhl]; exact wf.ring.pin_used x hx
    · intro x hx; rw [hhl]; exact wf.ring.fl_used x hx
    · exact wf.ring.fl_nodup
  · constructor
    · intro x hx hpin
      rw [hhl] at hx
      have := wf.stat.used x hx hpin
      unfold block_ok
      rw [hne x (hpn x hpin)]
      have e : K.key_cache_block_size = kc.key_cache_block_size := by rw [hK]; rfl
      rw [e]
      have hb : bounded_reads K → bounded_reads kc := bounded_reads.of_same (by rw [hK]; rfl) e
      exact ok_weaken hb this
    · intro x hx hpin
      rw [hhl] at hx
      rw [hne x (hpn x hpin)]; exact wf.stat.quiet x hx hpin
    · intro x hx
      have hxb : x ≠ b := fun hc => (wf.ring.pin_used b rfl).2 (hc ▸ hx)
      rw [hne x hxb]; exact wf.stat.flushing x hx
    · intro x hx
      rw [hhl] at hx
      have hxb : x ≠ b := by
        intro hc; rw [hc, hh] at hx; cases hx
      rw [hne x hxb]; exact wf.stat.free x hx
  · have eF : ∀ i, K.file_blocks i = (kc.file_blocks i).erase b := by
      intro i; rw [hK]; rfl
    have eC : ∀ i, K.changed_blocks i = if i = FILE_HASH (kc.hash_link_root h).file then
        b :: (kc.changed_blocks i).erase b else (kc.changed_blocks i).erase b := by
      intro i; rw [hK]; simp only [dirtied_state, Function.update_apply]
      split
      · rename_i hi; rw [hi]
      · rfl
    have eL : K.hash_link_root = kc.hash_link_root := by rw [hK]; rfl
    constructor
    · intro i x
      rw [eC, eL, hhl]
      by_cases hxb : x = b
      · subst hxb
        rw [eB, if_pos rfl]
        by_cases hi : i = FILE_HASH (kc.hash_link_root h).file
        · rw [if_pos hi]
          simp only [List.mem_cons, true_or, true_iff]
          exact ⟨h, hh, trivial, hi.symm⟩
        · rw [if_neg hi, (wf.chain.changed_nodup i).mem_erase_iff]
          simp only [ne_eq, not_true_eq_false, false_and, false_iff]
          rintro ⟨h', hh', -, hf⟩
          rw [hh] at hh'
          have := Option.some.inj hh'
          subst this
          exact hi hf.symm
      · rw [hne x hxb]
        have : (x ∈ if i = FILE_HASH (kc.hash_link_root h).file then
            b :: (kc.changed_blocks i).erase b else (kc.changed_blocks i).erase b) ↔
            x ∈ kc.changed_blocks i := by
          split
          · simp [hxb, (wf.chain.changed_nodup i).mem_erase_iff]
          · simp [hxb, (wf.chain.changed_nodup i).mem_erase_iff]
        rw [this]; exact wf.chain.changed_iff i x
    · intro i x
      rw [eF, (wf.chain.file_nodup i).mem_erase_iff, wf.chain.file_iff i x, eL, hhl]
      by_cases hxb : x = b
      · subst hxb
        simp only [ne_eq, not_true_eq_false, false_and, false_iff]
        rintro ⟨h', -, hc, -⟩
        rw [eB, if_pos rfl] at hc
        cases hc
      · rw [hne x hxb]
        simp [hxb]
    · intro i
      rw [eC]
      split
      · refine List.nodup_cons.2 ⟨?_, (wf.chain.changed_nodup i).erase b⟩
        rw [(wf.chain.changed_nodup i).mem_erase_iff]
        simp
      · exact (wf.chain.changed_nodup i).erase b
    · intro i; rw [eF]; exact (wf.chain.file_nodup i).erase b

theorem erase_erase_nodup (l : List Nat) (b : Nat) (h : l.Nodup) :
    (l.erase b).erase b = l.erase b :=
  List.erase_of_not_mem (fun hm => ((h.mem_erase_iff).1 hm).1 rfl)

/-- The end of a pass of `key_cache_write` on a block with `BLOCK_ERROR`: the
block is made clean without a change of chain, and freed. -/
theorem free_unchanged_inv (K : KEY_CACHE) (b h : Nat) (wf : WF K (some b) [])
    (aux : AUX K) (hh : (K.block_root b).hash_link = some h)
    (hreqh : (K.hash_link_root h).requests = 1)
    (hev : (K.block_root b).status.in_eviction = false) :
    ∃ Kr K', remove_reader K b = some Kr ∧
      (Kr.block_root b).status.error = (K.block_root b).status.error ∧
      free_block (set_status Kr b { (Kr.block_root b).status with changed := false }) b =
        some K' ∧
      WF K' none [] ∧ AUX K' ∧ same_config K K' := by
  have hrem : remove_reader K b =
      some (set_hash_link K h { K.hash_link_root h with requests := 0 }) := by
    unfold remove_reader
    simp only [hh, hreqh, dec32_one]
  obtain ⟨Kr, hKr⟩ : ∃ Kr, Kr = set_hash_link K h { K.hash_link_root h with requests := 0 } :=
    ⟨_, rfl⟩
  rw [← hKr] at hrem
  have eB : Kr.block_root = K.block_root := by rw [hKr]; rfl
  have wfr : WF Kr (some b) [] := by
    rw [hKr]; exact wf.set_link_requests h 0 hh
  have auxr : AUX Kr := by rw [hKr]; exact set_hash_link_aux K h _ aux
  have hhr : (Kr.block_root b).hash_link = some h := by rw [eB]; exact hh
  have hrr : (Kr.hash_link_root h).requests = 0 := by
    rw [hKr]; simp only [set_hash_link, Function.update_same]
  have hreqb := wfr.req.block_held b (Or.inl rfl)
  have hnotin : b ∉ Kr.used_ring := fun hm => ((wfr.ring.iff b).1 hm).2.1 rfl
  obtain ⟨X, hX⟩ : ∃ X, X =
      set_status Kr b { (Kr.block_root b).status with changed := false } := ⟨_, rfl⟩
  obtain ⟨Y, hY⟩ : ∃ Y, Y = cleaned_state Kr b (Kr.hash_link_root h).file := ⟨_, rfl⟩
  have wfY : WF Y (some b) [] := by rw [hY]; exact cleaned_state_wf Kr b h [] wfr hhr
  have eXY : X.block_root = Y.block_root := by
    rw [hX, hY]
    simp only [set_status, set_block, cleaned_state]
  have eXb : X.block_root b =
      { Kr.block_root b with status := { (Kr.block_root b).status with changed := false } } := by
    rw [hX]
    simp only [set_status, set_block, Function.update_same]
  have hhX : (X.block_root b).hash_link = some h := by rw [eXb]; exact hhr
  have auxX : AUX X := by
    rw [hX]
    exact set_status_aux Kr b _ auxr (fun hc => by cases hc)
  obtain ⟨br, ring, ins, t, w, hfree, hperm, hok, hcore, hb1, hb2, hb3, -⟩ :=
    free_block_ring_spec X b h (by rw [hX]; exact wfr.ring.ok) (by rw [hX]; exact hnotin)
      (by rw [eXb]; exact hreqb) hhX (by rw [hX]; exact hrr)
      (by rw [eXb]; show (Kr.block_root b).status.in_eviction = false; rw [eB]; exact hev)
  refine ⟨Kr, _, hrem, by rw [eB], by rw [← hX]; exact hfree, ?_, ?_, ?_⟩
  · have wfF := freed_state_wf Y b h [] br ring ins t w wfY (by rw [← eXY]; exact hhX)
      (by rw [hY]; exact hrr) (by rw [hY]; rw [hX] at hperm; exact hperm) hok
      (by rw [← eXY]; exact hcore) hb1 hb2 hb3
    have eC : ∀ i, (Y.changed_blocks i).erase b = (X.changed_blocks i).erase b := by
      intro i
      rw [hY, hX]
      exact erase_erase_nodup _ b (wfr.chain.changed_nodup i)
    have eF : ∀ i, (Y.file_blocks i).erase b = (X.file_blocks i).erase b := by
      intro i
      rw [hY, hX]
      simp only [cleaned_state, Function.update_apply, set_status, set_block]
      split
      · rename_i hi
        rw [List.erase_cons_head, hi]
      · exact erase_erase_nodup _ b (wfr.chain.file_nodup i)
    apply @WF.congr_wf (freed_state Y b h br ring ins t w) (freed_state X b h br ring ins t w)
      none [] wfF
    · rw [hX, hY]; rfl
    · rw [hX, hY]; rfl
    · rw [hX, hY]; rfl
    · rw [hX, hY]; rfl
    · rw [hX, hY]; rfl
    · rw [hX, hY]; rfl
    · rw [hX, hY]; rfl
    · rw [hX, hY]; rfl
    · rfl
    · rfl
    · funext i
      exact (eC i).symm
    · funext i
      exact (eF i).symm
    · rw [hX, hY]; rfl
    · rw [hX, hY]; rfl
    · intro x; rfl
    · intro x; rfl
    · intro x; rfl
    · intro x; rfl
    · rw [hX, hY]; rfl
    · exact bounded_reads.of_same (by rw [hX, hY]; rfl) (by rw [hX, hY]; rfl)
  · exact free_block_aux X _ b auxX (by rw [hX]; exact wfr.ring.ok) (by rw [hX]; exact hnotin)
      (by rw [hhX]; simp)
      (fun x hx => by
        rw [eXY]
        have hx' : x ∈ Y.used_ring := by rw [hY]; rw [hX] at hx; exact hx
        exact wfY.ring_used x hx') hfree
  · rw [hX, hKr]
    exact ⟨rfl, rfl, rfl, rfl, rfl, rfl, rfl, rfl, rfl, rfl, rfl⟩

/-- A change of the pinned block that keeps its hash link, its request count,
its temperature and `BLOCK_CHANGED` keeps the cache in order. -/
theorem set_pinned_inv (k : KEY_CACHE) (b : Nat) (v : BLOCK_LINK) (wf : WF k (some b) [])
    (aux : AUX k)
    (h1 : v.hash_link = (k.block_root b).hash_link)
    (h2 : v.requests = (k.block_root b).requests)
    (h3 : v.status.changed = (k.block_root b).status.changed)
    (h4 : v.temperature = (k.block_root b).temperature)
    (h5 : v.offset ≤ k.key_cache_block_size)
    (h6 : v.status.changed = true → v.offset ≤ v.length) :
    WF (set_block k b v) (some b) [] ∧ AUX (set_block k b v) := by
  refine ⟨wf.set_pinned v h1 h2 h3, ?_⟩
  apply @AUX.set_quiet k (set_block k b v) aux b rfl rfl rfl rfl
  · intro x hx
    rw [set_block_root, if_neg hx]
    exact aux_same_refl _
  · rw [set_block_root, if_pos rfl]
    exact h4
  · rw [set_block_root, if_pos rfl]
    exact h1
  · intro hn
    rw [set_block_root, if_pos rfl] at hn
    rw [h1] at hn
    exact absurd hn (wf.ring.pin_used b rfl).1
  · rw [set_block_root, if_pos rfl]
    exact h5
  · rw [set_block_root, if_pos rfl]
    exact h6

/-- The block that `find_key_block` hands out is not being evicted or written,
and without `BLOCK_ERROR` it is as a block in use should be. -/
theorem FOUND.held {kc K : KEY_CACHE} {f key b h : Nat} {st : PAGE_STATUS}
    (fd : FOUND kc K f key b h st) (wf : WF kc none []) :
    (K.block_root b).status.in_eviction = false ∧
    (K.block_root b).status.in_flushwrite = false ∧
    ((K.block_root b).status.error = false → block_ok K [] b) := by
  have ebs : K.key_cache_block_size = kc.key_cache_block_size := fd.config.2.2.2.2.1
  rcases fd.cases with hst | hst
  · obtain ⟨-, hbk, eKb, -, -, -⟩ := fd.hit hst
    have hne : (kc.block_root b).hash_link ≠ none := by
      rw [wf.hash.link_back h b hbk]; simp
    have hok := wf.stat.used b hne (by simp)
    refine ⟨?_, ?_, ?_⟩
    · rw [eKb]; exact hok.2.2.2.1
    · rw [eKb]; exact hok.2.2.2.2.1
    · intro _
      unfold block_ok
      rw [eKb, ebs]
      exact ok_weaken (bounded_reads.of_same fd.reads.2.2 ebs) hok
  · subst hst
    obtain ⟨-, hlen, -, -⟩ := fd.miss rfl
    rcases fd.status_cases with e | e
    · refine ⟨by rw [e]; rfl, by rw [e]; rfl, ?_⟩
      intro _
      unfold block_ok
      rw [e, hlen]
      exact ⟨rfl, rfl, rfl, rfl, rfl, fun _ => Nat.zero_le _, by simp [BLOCK_IN_USE],
        by simp [BLOCK_IN_USE]⟩
    · refine ⟨by rw [e]; rfl, by rw [e]; rfl, ?_⟩
      intro he
      rw [e] at he
      cases he

/-- Setting `BLOCK_FOR_UPDATE` on the pinned block. -/
theorem for_update_inv (K : KEY_CACHE) (b h : Nat) (wf : WF K (some b) []) (aux : AUX K)
    (hh : (K.block_root b).hash_link = some h)
    (hev : (K.block_root b).status.in_eviction = false)
    (hfw : (K.block_root b).status.in_flushwrite = false)
    (hok : (K.block_root b).status.error = false → block_ok K [] b) :
    ∀ k1, k1 = set_status K b { (K.block_root b).status with for_update := true } →
      WF k1 (some b) [] ∧ AUX k1 ∧ same_config K k1 ∧
      (k1.block_root b).hash_link = some h ∧ k1.hash_link_root = K.hash_link_root ∧
      (k1.block_root b).status.in_eviction = false ∧
      (k1.block_root b).status.in_flushwrite = false ∧
      ((k1.block_root b).status.error = false → block_ok k1 [] b) := by
  intro k1 hk1
  have e1b : k1.block_root b =
      { K.block_root b with status := { (K.block_root b).status with for_update := true } } := by
    rw [hk1, set_status, set_block_root, if_pos rfl]
  obtain ⟨w1, a1⟩ := set_pinned_inv K b
    { K.block_root b with status := { (K.block_root b).status with for_update := true } }
    wf aux rfl rfl rfl rfl (aux.off_le b) (aux.dirty b)
  refine ⟨by rw [hk1]; exact w1, by rw [hk1]; exact a1, ?_, ?_, ?_, ?_, ?_, ?_⟩
  · rw [hk1]
    exact ⟨rfl, rfl, rfl, rfl, rfl, rfl, rfl, rfl, rfl, rfl, rfl⟩
  · rw [e1b]; exact hh
  · rw [hk1]; rfl
  · rw [e1b]; exact hev
  · rw [e1b]; exact hfw
  · intro he
    rw [e1b] at he
    have := hok he
    unfold block_ok
    rw [e1b]
    have e : k1.key_cache_block_size = K.key_cache_block_size := by rw [hk1]; rfl
    rw [e]
    have hb : bounded_reads k1 → bounded_reads K := bounded_reads.of_same (by rw [hk1]; rfl) e
    exact ok_weaken hb this

/-- The first part of a pass of `key_cache_write` leaves the block pinned and
the cache in order. -/
theorem key_cache_write_load_inv (kA K : KEY_CACHE) (f key b h rl offset : Nat)
    (st : PAGE_STATUS) (wfA : WF kA none []) (auxA : AUX kA) (fd : FOUND kA K f key b h st)
    (hoff : offset < K.key_cache_block_size) :
    ∀ k1, key_cache_write_load K b st rl offset = some k1 →
      WF k1 (some b) [] ∧ AUX k1 ∧ same_config K k1 ∧
      (k1.block_root b).hash_link = some h ∧ k1.hash_link_root = K.hash_link_root ∧
      (k1.block_root b).status.in_eviction = false ∧
      (k1.block_root b).status.in_flushwrite = false ∧
      ((k1.block_root b).status.error = false → block_ok k1 [] b) := by
  intro k1 hr
  obtain ⟨hev, hfw, hok⟩ := fd.held wfA
  have auxK := fd.aux auxA
  obtain ⟨K1, hK1⟩ : ∃ K1, K1 =
      set_status K b { (K.block_root b).status with for_update := true } := ⟨_, rfl⟩
  have base := for_update_inv K b h fd.wf auxK fd.hl hev hfw hok K1 hK1
  have e1b : K1.block_root b =
      { K.block_root b with status := { (K.block_root b).status with for_update := true } } := by
    rw [hK1, set_status, set_block_root, if_pos rfl]
  have e1s : K1.key_cache_block_size = K.key_cache_block_size := by rw [hK1]; rfl
  unfold key_cache_write_load at hr
  have hst : st ≠ PAGE_WAIT_TO_BE_READ := by
    rcases fd.cases with e | e <;> rw [e] <;> simp
  rw [if_pos hst, ← hK1] at hr
  simp only [] at hr
  by_cases hc : (K1.block_root b).status.error = false ∧
      ((st = PAGE_TO_BE_READ ∧ (offset ≠ 0 ∨ rl < K1.key_cache_block_size)) ∨
        st = PAGE_WAIT_TO_BE_READ)
  · rw [if_pos hc] at hr
    obtain ⟨herr1, hcase⟩ := hc
    have hmiss : st = PAGE_TO_BE_READ := by
      rcases hcase with ⟨e, -⟩ | e
      · exact e
      · exact absurd e hst
    subst hmiss
    have herrK : (K.block_root b).status.error = false := by
      rw [e1b] at herr1; exact herr1
    have hs : (K.block_root b).status = BLOCK_IN_USE := by
      rcases fd.status_cases with e | e
      · exact e
      · rw [e] at herrK
        cases herrK
    obtain ⟨rlen, hrlen⟩ : ∃ rlen, rlen =
        (if offset + rl ≥ K1.key_cache_block_size then offset else K1.key_cache_block_size) :=
      ⟨_, rfl⟩
    have hrl : rlen ≤ K1.key_cache_block_size := by
      rw [hrlen]
      split
      · rw [e1s]; exact Nat.le_of_lt hoff
      · exact le_refl _
    obtain ⟨w1, a1, c1, hh1, hl1, -, -, -⟩ := base
    rw [← hrlen] at hr
    simp only [decide_True] at hr
    rw [read_block_primary K1 b h rlen offset hh1] at hr
    simp only [] at hr
    obtain ⟨R, hR⟩ : ∃ R, R = read_block_state K1 b h rlen offset := ⟨_, rfl⟩
    rw [← hR] at hr
    have wfR : WF R (some b) [] := by
      rw [hR]; exact read_block_state_pinned K1 b h _ _ w1
    have auxR : AUX R := by
      rw [hR]
      exact read_block_state_aux K1 b h _ _ a1 hh1 (by rw [e1b]; simp only []; rw [hs]; rfl)
    obtain ⟨g, hg⟩ : ∃ g, g = (my_pread K1.disk (K1.hash_link_root h).file
        rlen (K1.hash_link_root h).diskpos).1 := ⟨_, rfl⟩
    have hgle : bounded_reads K1 → g ≤ K1.key_cache_block_size := by
      intro hbK
      rw [hg]
      exact my_pread_le _ _ _ _ _ hbK hrl
    have eRb : R.block_root b =
        if g < offset then
          { K1.block_root b with
            buffer := pread_into K1.disk (K1.hash_link_root h).file (K1.hash_link_root h).diskpos
              (my_pread K1.disk (K1.hash_link_root h).file rlen
                (K1.hash_link_root h).diskpos).2.1 (K1.block_root b).buffer
            status := { (K1.block_root b).status with error := true } }
        else
          { K1.block_root b with
            buffer := pread_into K1.disk (K1.hash_link_root h).file (K1.hash_link_root h).diskpos
              (my_pread K1.disk (K1.hash_link_root h).file rlen
                (K1.hash_link_root h).diskpos).2.1 (K1.block_root b).buffer
            status := { (K1.block_root b).status with read := true }
            length := g } := by
      rw [hR, hg]
      simp only [read_block_state, Function.update_same]
    have eRs : R.key_cache_block_size = K1.key_cache_block_size := by rw [hR]; rfl
    have e1st : (K1.block_root b).status = { in_use := true, for_update := true } := by
      rw [e1b]; simp only []; rw [hs]; rfl
    have hhR : (R.block_root b).hash_link = some h := by
      rw [eRb]; split <;> exact hh1
    have hevR : (R.block_root b).status.in_eviction = false := by
      rw [eRb]; split <;> simp only [] <;> rw [e1st]
    have hfwR : (R.block_root b).status.in_flushwrite = false := by
      rw [eRb]; split <;> simp only [] <;> rw [e1st]
    have hokR : (R.block_root b).status.error = false → block_ok R [] b := by
      intro he
      unfold block_ok
      rw [eRs]
      rw [eRb] at he ⊢
      split at he
      · cases he
      · rename_i hng
        rw [if_neg hng]
        simp only []
        rw [e1st]
        exact ⟨rfl, rfl, rfl, rfl, rfl,
          fun hb => hgle (bounded_reads.of_same (by rw [hR]; exact my_pread_forced _ _ _ _) eRs hb),
          by simp, by simp⟩
    cases hr
    obtain ⟨w2, a2, c2, hh2, hl2, hev2, hfw2, hok2⟩ :=
      for_update_inv R b h wfR auxR hhR hevR hfwR hokR _ rfl
    refine ⟨w2, a2, same_config_trans c1 (same_config_trans ?_ c2), hh2, ?_, hev2, hfw2, hok2⟩
    · rw [hR]
      exact ⟨rfl, rfl, rfl, rfl, rfl, rfl, rfl, rfl, rfl, rfl, rfl⟩
    · rw [hl2, hR]
      exact hl1
  · rw [if_neg hc] at hr
    cases hr
    exact base

theorem pin_step_refl (k : KEY_CACHE) (b : Nat) : pin_step k k b :=
  ⟨same_config_refl k, rfl, rfl, rfl, fun _ _ => rfl, rfl, rfl, rfl, rfl, rfl⟩

theorem pin_step_trans {k k' k'' : KEY_CACHE} {b : Nat} (s : pin_step k k' b)
    (t : pin_step k' k'' b) : pin_step k k'' b := by
  obtain ⟨s1, s2, s3, s4, s5, s6, s7, s8, s9, s10⟩ := s
  obtain ⟨t1, t2, t3, t4, t5, t6, t7, t8, t9, t10⟩ := t
  exact ⟨same_config_trans s1 t1, by rw [t2, s2], by rw [t3, s3], by rw [t4, s4],
    fun x hx => by rw [t5 x hx, s5 x hx], by rw [t6, s6], by rw [t7, s7], by rw [t8, s8],
    by rw [t9, s9], by rw [t10, s10]⟩

theorem cleaned_pin_step (k2 : KEY_CACHE) (b h : Nat) (wf : WF k2 (some b) [])
    (hh : (k2.block_root b).hash_link = some h) :
    WF (cleaned_state k2 b (k2.hash_link_root h).file) (some b) [] ∧
      pin_step k2 (cleaned_state k2 b (k2.hash_link_root h).file) b := by
  refine ⟨cleaned_state_wf k2 b h [] wf hh,
    ⟨rfl, rfl, rfl, rfl, rfl, rfl, rfl, rfl, rfl, rfl, rfl⟩, rfl, rfl, rfl, ?_, ?_, ?_, ?_, ?_,
    ?_⟩
  · intro x hx
    simp only [cleaned_state, Function.update_noteq hx]
  all_goals simp only [cleaned_state, Function.update_same]

theorem dirtied_pin_step (k2 : KEY_CACHE) (b h : Nat) (wf : WF k2 (some b) [])
    (hh : (k2.block_root b).hash_link = some h) :
    WF (dirtied_state k2 b (k2.hash_link_root h).file) (some b) [] ∧
      pin_step k2 (dirtied_state k2 b (k2.hash_link_root h).file) b := by
  refine ⟨dirtied_state_wf k2 b h [] wf hh,
    ⟨rfl, rfl, rfl, rfl, rfl, rfl, rfl, rfl, rfl, rfl, rfl⟩, rfl, rfl, rfl, ?_, ?_, ?_, ?_, ?_,
    ?_⟩
  · intro x hx
    simp only [dirtied_state, Function.update_noteq hx]
  all_goals simp only [dirtied_state, Function.update_same]

/-- The second part of a pass of `key_cache_write` leaves the block pinned and
the cache in order. -/
theorem key_cache_write_store_inv (k1 : KEY_CACHE) (b h : Nat) (data : List Nat)
    (rl offset : Nat) (dont_write : Bool) (wf : WF k1 (some b) []) (aux : AUX k1)
    (hh : (k1.block_root b).hash_link = some h)
    (hev : (k1.block_root b).status.in_eviction = false)
    (hfw : (k1.block_root b).status.in_flushwrite = false)
    (hok : (k1.block_root b).status.error = false → block_ok k1 [] b)
    (hlen : rl + offset ≤ k1.key_cache_block_size) :
    ∀ k4, key_cache_write_store k1 b data rl offset dont_write = some k4 →
      WF k4 (some b) [] ∧ AUX k4 ∧ same_config k1 k4 ∧ k4.hash_link_root = k1.hash_link_root ∧
      (k4.block_root b).hash_link = some h ∧
      (k4.block_root b).status.in_eviction = false ∧
      ((k4.block_root b).status.error = false → block_ok k4 [] b ∧
        (k4.block_root b).status.read = true ∧ (k4.block_root b).status.for_update = false) := by
  intro k4 hr
  unfold key_cache_write_store at hr
  rw [if_neg (by rw [hfw]; simp)] at hr
  simp only [] at hr
  obtain ⟨k2, hk2⟩ : ∃ k2, k2 = (if (k1.block_root b).status.error = false then
        set_block k1 b
          { k1.block_root b with
            buffer := buffer_copy (k1.block_root b).buffer offset data }
      else k1) := ⟨_, rfl⟩
  rw [← hk2] at hr
  have h2 : WF k2 (some b) [] ∧ pin_step k1 k2 b := by
    rw [hk2]
    split
    · refine ⟨wf.set_pinned _ rfl rfl rfl,
        ⟨rfl, rfl, rfl, rfl, rfl, rfl, rfl, rfl, rfl, rfl, rfl⟩, rfl, rfl, rfl, ?_, ?_, ?_, ?_,
        ?_, ?_⟩
      · intro x hx
        rw [set_block_root, if_neg hx]
      all_goals rw [set_block_root, if_pos rfl]
    · exact ⟨wf, pin_step_refl _ _⟩
  obtain ⟨wf2, ps2⟩ := h2
  have hh2 : (k2.block_root b).hash_link = some h := by rw [ps2.2.2.2.2.2.1]; exact hh
  have e2s : k2.key_cache_block_size = k1.key_cache_block_size := ps2.1.2.2.2.2.1
  have key : ∀ k3, WF k3 (some b) [] → pin_step k2 k3 b →
      k4 = set_block k3 b
        { k3.block_root b with
          status := { (k3.block_root b).status with read := true, for_update := false }
          offset := min (k3.block_root b).offset offset
          length := max (k3.block_root b).length (rl + offset) } →
      WF k4 (some b) [] ∧ AUX k4 ∧ same_config k1 k4 ∧ k4.hash_link_root = k1.hash_link_root ∧
      (k4.block_root b).hash_link = some h ∧
      (k4.block_root b).status.in_eviction = false ∧
      ((k4.block_root b).status.error = false → block_ok k4 [] b ∧
        (k4.block_root b).status.read = true ∧ (k4.block_root b).status.for_update = false) := by
    intro k3 wf3 ps3 hk4
    obtain ⟨p1, p2, p3, p4, p5, p6, p7, p8, p9, p10⟩ := pin_step_trans ps2 ps3
    have e4b : k4.block_root b =
        { k3.block_root b with
          status := { (k3.block_root b).status with read := true, for_update := false }
          offset := min (k3.block_root b).offset offset
          length := max (k3.block_root b).length (rl + offset) } := by
      rw [hk4, set_block_root, if_pos rfl]
    have e4x : ∀ x, x ≠ b → k4.block_root x = k1.block_root x := by
      intro x hx
      rw [hk4, set_block_root, if_neg hx, p5 x hx]
    have e4c : same_config k1 k4 := by
      rw [hk4]
      exact same_config_trans p1 ⟨rfl, rfl, rfl, rfl, rfl, rfl, rfl, rfl, rfl, rfl, rfl⟩
    have hst : ∀ g : STATUS → Bool, g { (k3.block_root b).status with changed := false } =
        g { (k1.block_root b).status with changed := false } := by
      intro g
      rw [p10]
    have e4s : k4.key_cache_block_size = k1.key_cache_block_size := e4c.2.2.2.2.1
    refine ⟨?_, ?_, e4c, ?_, ?_, ?_, ?_⟩
    · rw [hk4]
      exact wf3.set_pinned _ rfl rfl rfl
    · apply @AUX.set_quiet k1 k4 aux b e4s e4c.2.2.2.2.2.1 (by rw [hk4]; exact p3)
        (by rw [hk4]; exact p4)
      · intro x hx
        rw [e4x x hx]
        exact aux_same_refl _
      · rw [e4b]
        exact p7
      · rw [e4b]
        exact p6
      · intro hn
        rw [e4b] at hn
        have hn' : (k3.block_root b).hash_link = none := hn
        rw [p6, hh] at hn'
        cases hn'
      · rw [e4b]
        show min (k3.block_root b).offset offset ≤ _
        rw [p8]
        exact le_trans (Nat.min_le_left _ _) (aux.off_le b)
      · intro _
        rw [e4b]
        show min (k3.block_root b).offset offset ≤ max (k3.block_root b).length (rl + offset)
        exact le_trans (Nat.min_le_right _ _)
          (le_trans (Nat.le_add_left _ _) (Nat.le_max_right _ _))
    · rw [hk4]
      exact p2
    · rw [e4b]
      show (k3.block_root b).hash_link = some h
      rw [p6]
      exact hh
    · rw [e4b]
      show (k3.block_root b).status.in_eviction = false
      have := hst (fun s => s.in_eviction)
      simp only [] at this
      rw [this]
      exact hev
    · intro he
      rw [e4b] at he
      have he3 : (k3.block_root b).status.error = false := he
      have he1 : (k1.block_root b).status.error = false := by
        have := hst (fun s => s.error)
        simp only [] at this
        rw [← this]
        exact he3
      obtain ⟨o1, o2, o3, o4, o5, o6, o7, o8⟩ := hok he1
      have f1 := hst (fun s => s.in_use)
      have f2 := hst (fun s => s.in_switch)
      have f3 := hst (fun s => s.reassigned)
      have f4 := hst (fun s => s.in_eviction)
      have f5 := hst (fun s => s.in_flushwrite)
      have f6 := hst (fun s => s.in_flush)
      simp only [] at f1 f2 f3 f4 f5 f6
      refine ⟨?_, by rw [e4b], by rw [e4b]⟩
      unfold block_ok
      rw [e4b, e4s]
      refine ⟨f1.trans o1, f2.trans o2, f3.trans o3, f4.trans o4, f5.trans o5, ?_, ?_, ?_⟩
      · intro hb
        show max (k3.block_root b).length (rl + offset) ≤ _
        rw [p9]
        exact Nat.max_le.2 ⟨o6 (bounded_reads.of_same (by rw [hk4]; exact p4) e4s hb), hlen⟩
      · show (k3.block_root b).status.in_flush = true ↔ _
        rw [f6]
        exact o7
      · intro hc
        have hc' : (k3.block_root b).status.error = true := hc
        rw [he3] at hc'
        cases hc'
  cases dont_write with
  | false =>
    rw [if_pos rfl] at hr
    by_cases hc : (k2.block_root b).status.changed = true ∧
        (offset = 0 ∧ rl ≥ k2.key_cache_block_size)
    · rw [if_pos hc, hh2] at hr
      simp only [Option.map_some', link_to_file_list_eq] at hr
      obtain ⟨w3, s3⟩ := cleaned_pin_step k2 b h wf2 hh2
      exact key _ w3 s3 (Option.some.inj hr).symm
    · rw [if_neg hc, Option.map_some'] at hr
      exact key _ wf2 (pin_step_refl _ _) (Option.some.inj hr).symm
  | true =>
    rw [if_neg (show ¬ (true = false) by decide)] at hr
    by_cases hc : (k2.block_root b).status.changed = false
    · rw [if_pos hc, link_to_changed_list_eq k2 b h hh2, Option.map_some'] at hr
      obtain ⟨w3, s3⟩ := dirtied_pin_step k2 b h wf2 hh2
      exact key _ w3 s3 (Option.some.inj hr).symm
    · rw [if_neg hc, Option.map_some'] at hr
      exact key _ wf2 (pin_step_refl _ _) (Option.some.inj hr).symm

/-- One pass of the loop of `key_cache_write` leaves the cache as it should be
between two operations. -/
theorem key_cache_write_chunk_inv (kc : KEY_CACHE) (f filepos level : Nat) (buff : List Nat)
    (offset : Nat) (dont_write error : Bool) (wf : WF kc none []) (aux : AUX kc)
    (hu : usable kc) (hal : (filepos - offset) % kc.key_cache_block_size = 0)
    (hoff : offset < kc.key_cache_block_size) :
    ∀ r, key_cache_write_chunk kc f filepos level buff offset dont_write error = some r →
      WF r.2.1 none [] ∧ AUX r.2.1 ∧ same_config kc r.2.1 ∧
      (r.2.2 = true →
        buff.length - min buff.length (kc.key_cache_block_size - offset) ≠ 0) := by
  intro r hr
  obtain ⟨kA, hkA⟩ : ∃ kA : KEY_CACHE, kA =
      { kc with global_cache_w_requests := kc.global_cache_w_requests + 1 } := ⟨_, rfl⟩
  have wfA : WF kA none [] := by
    rw [hkA]
    exact @WF.congr_wf kc _ none [] wf rfl rfl rfl rfl rfl rfl rfl rfl rfl rfl rfl rfl rfl rfl
      (fun _ => rfl) (fun _ => rfl) (fun _ => rfl) (fun _ => rfl) rfl (fun h => h)
  have auxA : AUX kA := by
    rw [hkA]
    exact @AUX.congr_aux kc _ aux rfl rfl rfl rfl (fun _ => aux_same_refl _)
  have huA : usable kA := by rw [hkA]; exact hu
  have halA : (filepos - offset) % kA.key_cache_block_size = 0 := by rw [hkA]; exact hal
  have cfgA : same_config kc kA := by rw [hkA]; exact same_config_refl kc
  rcases find_key_block_spec kA f (filepos - offset) level true wfA huA halA with
    ⟨hnone, -⟩ | ⟨b, h, st, K, hfind, fd⟩
  · unfold key_cache_write_chunk at hr
    rw [if_neg (by rw [hu.2.1]; simp)] at hr
    simp only [] at hr
    rw [← hkA, hnone] at hr
    cases hr
  rw [hkA] at hfind
  rw [key_cache_write_chunk_found kc K f filepos level offset b buff dont_write error st hu.2.1
    hfind] at hr
  obtain ⟨rl, hrl⟩ : ∃ rl, rl = min buff.length (kc.key_cache_block_size - offset) := ⟨_, rfl⟩
  rw [← hrl] at hr ⊢
  have ebs : K.key_cache_block_size = kc.key_cache_block_size := by
    have := fd.config.2.2.2.2.1
    rw [this, hkA]
  have hcfgK : same_config kc K := same_config_trans cfgA fd.config
  cases h1 : key_cache_write_load K b st rl offset with
  | none =>
    rw [h1] at hr
    cases hr
  | some k1 =>
    rw [h1, Option.some_bind] at hr
    obtain ⟨w1, a1, c1, hh1, hl1, hev1, hfw1, hok1⟩ :=
      key_cache_write_load_inv kA K f (filepos - offset) b h rl offset st wfA auxA fd
        (by rw [ebs]; exact hoff) k1 h1
    have e1s : k1.key_cache_block_size = kc.key_cache_block_size := by
      rw [c1.2.2.2.2.1, ebs]
    cases h2 : key_cache_write_store k1 b (buff.take rl) rl offset dont_write with
    | none =>
      rw [h2] at hr
      cases hr
    | some k4 =>
      rw [h2, Option.some_bind] at hr
      have hlen : rl + offset ≤ k1.key_cache_block_size := by
        rw [e1s, hrl]
        have := Nat.min_le_right buff.length (kc.key_cache_block_size - offset)
        omega
      obtain ⟨w4, a4, c4, hl4, hh4, hev4, hok4⟩ :=
        key_cache_write_store_inv k1 b h (buff.take rl) rl offset dont_write w1 a1 hh1 hev1 hfw1
          hok1 hlen k4 h2
      have hreq4 : (k4.hash_link_root h).requests = 1 := by
        rw [hl4, hl1, fd.link]
      have cfg4 : same_config kc k4 := same_config_trans hcfgK (same_config_trans c1 c4)
      unfold key_cache_write_finish at hr
      by_cases herr : (k4.block_root b).status.error = false
      · obtain ⟨hbok, hread, hupd⟩ := hok4 herr
        obtain ⟨Kr, K', hrem, herr', hun, wf', aux', cfg⟩ :=
          release_inv k4 b h true w4 a4 hh4 hreq4 hbok herr hread hupd
        rw [hrem, Option.some_bind, if_pos herr', hun, Option.map_some'] at hr
        cases hr
        exact ⟨wf', aux', same_config_trans cfg4 cfg, fun e => of_decide_eq_true e⟩
      · obtain ⟨Kr, K', hrem, herr', hfree, wf', aux', cfg⟩ :=
          free_unchanged_inv k4 b h w4 a4 hh4 hreq4 hev4
        rw [hrem, Option.some_bind, if_neg (by rw [herr']; exact herr), hfree,
          Option.map_some'] at hr
        cases hr
        exact ⟨wf', aux', same_config_trans cfg4 cfg, fun e => by cases e⟩

/-- The loop of `key_cache_write` leaves the cache as it should be between two
operations. -/
theorem key_cache_write_loop_inv : ∀ (fuel : Nat) (kc : KEY_CACHE)
    (f filepos level : Nat) (buff : List Nat) (offset : Nat) (dont_write error : Bool),
    WF kc none [] → AUX kc → usable kc → offset < kc.key_cache_block_size →
    (filepos - offset) % kc.key_cache_block_size = 0 →
    ∀ r, key_cache_write_loop fuel kc f filepos level buff offset dont_write error = some r →
      WF r.2 none [] ∧ AUX r.2 ∧ same_config kc r.2 := by
  intro fuel
  induction fuel with
  | zero =>
    intro kc f filepos level buff offset dont_write error _ _ _ _ _ r hr
    rw [key_cache_write_loop] at hr
    cases hr
  | succ fuel ih =>
    intro kc f filepos level buff offset dont_write error wf aux hu ho hal r hr
    rw [key_cache_write_loop] at hr
    cases hc : key_cache_write_chunk kc f filepos level buff offset dont_write error with
    | none =>
      rw [hc] at hr
      cases hr
    | some c =>
      obtain ⟨e1, k1, m1⟩ := c
      obtain ⟨w1, a1, c1, hm⟩ :=
        key_cache_write_chunk_inv kc f filepos level buff offset dont_write error wf aux hu hal
          ho _ hc
      rw [hc] at hr
      cases m1 with
      | false =>
        simp only [] at hr
        cases hr
        exact ⟨w1, a1, c1⟩
      | true =>
        simp only [] at hr
        have ebs : k1.key_cache_block_size = kc.key_cache_block_size := c1.2.2.2.2.1
        obtain ⟨w2, a2, c2⟩ := ih k1 f _ level _ 0 dont_write e1 w1 a1 (usable_of_config c1 hu)
          (by rw [ebs]; exact wf.cnt.bs_pos)
          (by rw [ebs]; exact aligned_next filepos offset buff.length _ hal (le_of_lt ho) (hm rfl))
          r hr
        exact ⟨w2, a2, same_config_trans c1 c2⟩

/-- The write of `key_cache_write` past the cache keeps the cache as it is. -/
theorem pwrite_direct_inv (kc : KEY_CACHE) (f pos : Nat) (buff : List Nat) (inv : INV kc) :
    INV (pwrite_direct kc f buff pos).2 := by
  obtain ⟨wf, aux, hu⟩ := inv
  unfold pwrite_direct
  exact ⟨@WF.congr_wf kc _ none [] wf rfl rfl rfl rfl rfl rfl rfl rfl rfl rfl rfl rfl rfl rfl
      (fun _ => rfl) (fun _ => rfl) (fun _ => rfl) (fun _ => rfl) rfl
      (bounded_reads.of_same (my_pwrite_forced _ _ _ _) rfl),
    @AUX.congr_aux kc _ aux rfl rfl rfl (my_pwrite_forced _ _ _ _) (fun _ => aux_same_refl _),
    hu⟩

theorem INV.write_counters {kc : KEY_CACHE} (n m : Nat) (inv : INV kc) :
    INV { kc with global_cache_w_requests := n, global_cache_write := m } :=
  ⟨@WF.congr_wf kc _ none [] inv.1 rfl rfl rfl rfl rfl rfl rfl rfl rfl rfl rfl rfl rfl rfl
      (fun _ => rfl) (fun _ => rfl) (fun _ => rfl) (fun _ => rfl) rfl (fun h => h),
    @AUX.congr_aux kc _ inv.2.1 rfl rfl rfl rfl (fun _ => aux_same_refl _), inv.2.2⟩

theorem key_cache_write_cached_inv (kc : KEY_CACHE) (f filepos level : Nat) (buff : List Nat)
    (dont_write : Bool) (inv : INV kc) :
    ∀ r, key_cache_write_cached kc f filepos level buff dont_write = some r → INV r.2 := by
  intro r hr
  obtain ⟨wf, aux, hu⟩ := inv
  unfold key_cache_write_cached at hr
  rw [if_pos hu.1, if_neg (by rw [hu.2.2]; simp)] at hr
  have inv1 : INV (inc_counter_for_resize_op kc) := INV.resize_counter _ ⟨wf, aux, hu⟩
  cases hl : key_cache_write_loop (buff.length + 1) (inc_counter_for_resize_op kc) f filepos level
      buff (filepos % kc.key_cache_block_size) dont_write false with
  | none =>
    rw [hl] at hr
    cases hr
  | some c =>
    rw [hl, Option.map_some'] at hr
    cases hr
    have hbs : 0 < kc.key_cache_block_size := wf.cnt.bs_pos
    obtain ⟨w2, a2, c2⟩ := key_cache_write_loop_inv _ _ f filepos level buff _ dont_write false
      inv1.1 inv1.2.1 inv1.2.2 (Nat.mod_lt _ hbs)
      (Nat.sub_mod_eq_zero_of_mod_eq (by rw [Nat.mod_mod])) _ hl
    exact INV.resize_counter _ ⟨w2, a2, usable_of_config c2 inv1.2.2⟩

/-- A call of `key_cache_write` leaves the cache as it should be between two
operations. -/
theorem key_cache_write_inv (kc : KEY_CACHE) (f filepos level : Nat) (buff : List Nat)
    (dont_write : Bool) (inv : INV kc) :
    ∀ r, key_cache_write kc f filepos level buff dont_write = some r → INV r.2 := by
  intro r hr
  have invF : INV (key_cache_write_forced kc f filepos buff).2 := by
    unfold key_cache_write_forced
    exact pwrite_direct_inv _ f filepos buff (INV.write_counters _ _ inv)
  unfold key_cache_write at hr
  cases dont_write with
  | false =>
    rw [if_pos rfl] at hr
    split at hr
    · cases hr
      exact invF
    · exact key_cache_write_cached_inv _ f filepos level buff false invF r hr
  | true =>
    rw [if_neg (show ¬ (true = false) by decide)] at hr
    exact key_cache_write_cached_inv kc f filepos level buff true inv r hr

theorem warm_count_cold (kc : KEY_CACHE)
    (h : ∀ b, (kc.block_root b).temperature ≠ BLOCK_WARM) : warm_count kc = 0 := by
  unfold warm_count
  rw [List.length_eq_zero, List.filter_eq_nil_iff]
  intro b _
  simp [h b]

/-- A call of `flush_key_blocks` leaves the cache as it should be between two
operations. -/
theorem flush_key_blocks_inv (kc : KEY_CACHE) (file : Nat) (type : flush_type)
    (malloc_ok : Bool) (inv : INV kc) :
    ∀ r, flush_key_blocks kc file type malloc_ok = some r → INV r.2 := by
  intro r hr
  obtain ⟨wf, aux, hu⟩ := inv
  by_cases hon : kc.my_disable_flush_key_blocks = false ∨ type ≠ FLUSH_KEEP
  · rcases flush_key_blocks_spec kc file type malloc_ok wf hu.1 hon with
      ⟨hnone, -, -⟩ | ⟨e, kc', hsome, P, F, W, s, -, -, -⟩
    · rw [hnone] at hr
      cases hr
    · rw [hsome] at hr
      cases hr
      exact ⟨s.wf, s.aux aux, usable_of_config s.rel.config hu⟩
  · have hpos : kc.disk_blocks > 0 := by
      have := wf.cnt.blocks_pos
      unfold nblocks at this
      omega
    rw [flush_key_blocks_off kc file type malloc_ok hu.1 hpos hon] at hr
    cases hr
    exact INV.resize_counter _ (INV.resize_counter _ ⟨wf, aux, hu⟩)

/-- An operation that returns leaves the cache as it should be between two
operations. -/
theorem cache_op_inv (kc kc' : KEY_CACHE) (op : CACHE_OP) (inv : INV kc)
    (h : cache_op kc op = some kc') : INV kc' := by
  cases op with
  | read file filepos level buff length =>
    rw [cache_op] at h
    cases hr : key_cache_read kc file filepos level buff length with
    | none => rw [hr] at h; cases h
    | some r =>
      rw [hr, Option.map_some'] at h
      cases h
      exact key_cache_read_inv kc file filepos level buff length inv r hr
  | insert file filepos level buff =>
    rw [cache_op] at h
    cases hr : key_cache_insert kc file filepos level buff with
    | none => rw [hr] at h; cases h
    | some r =>
      rw [hr, Option.map_some'] at h
      cases h
      exact key_cache_insert_inv kc file filepos level buff inv r hr
  | write file filepos level buff dont_write =>
    rw [cache_op] at h
    cases hr : key_cache_write kc file filepos level buff dont_write with
    | none => rw [hr] at h; cases h
    | some r =>
      rw [hr, Option.map_some'] at h
      cases h
      exact key_cache_write_inv kc file filepos level buff dont_write inv r hr
  | flush file type malloc_ok =>
    rw [cache_op] at h
    cases hr : flush_key_blocks kc file type malloc_ok with
    | none => rw [hr] at h; cases h
    | some r =>
      rw [hr, Option.map_some'] at h
      cases h
      exact flush_key_blocks_inv kc file type malloc_ok inv r hr

/-- A sequence of operations that return leaves the cache as it should be
between two operations. -/
theorem run_ops_inv : ∀ (ops : List CACHE_OP) (kc kc' : KEY_CACHE), INV kc →
    run_ops kc ops = some kc' → INV kc' := by
  intro ops
  induction ops with
  | nil =>
    intro kc kc' inv h
    rw [run_ops] at h
    cases h
    exact inv
  | cons op ops ih =>
    intro kc kc' inv h
    rw [run_ops] at h
    cases ho : cache_op kc op with
    | none => rw [ho] at h; cases h
    | some k =>
      rw [ho, Option.some_bind] at h
      exact ih k kc' (cache_op_inv kc k op inv ho) h

/-- The cache that `init_key_cache` sets up is as it should be between two
operations. -/
theorem started_inv (p : PLATFORM) (kc0 : KEY_CACHE) (bs um d a : Nat) (kc : KEY_CACHE)
    (hs : started p kc0 bs um d a kc) : INV kc := by
  obtain ⟨⟨n, h, hn⟩, hbs, hfit, hres⟩ := hs
  obtain ⟨B, he, hl, hal, h8, hnB, hk⟩ := init_key_cache_success p kc0 bs um d a n kc h hn
  obtain ⟨b, len, h6, hle, _, ehl, hfit2, _⟩ :=
    init_alloc_spec p bs um _ _ _ _ _ _ _ (by omega) hal
  obtain ⟨hBb, _, _, _⟩ := init_fit_spec p bs um _ _ _ _ _ _ hfit2
  have hBs : B < 2147483648 := by omega
  have eB : to_int B = (B : Int) := to_int_small B hBs
  have hBpos : 0 < B := by
    rw [hnB, eB] at hn
    exact_mod_cast hn
  have edb : kc.disk_blocks = (B : Int) := by rw [hk]; exact eB
  have enb : nblocks kc = B := by
    unfold nblocks
    rw [edb]
    rfl
  refine ⟨?_, ?_, ?_⟩
  · have wfe := empty_cache_wf B bs he hl kc.min_warm_blocks kc.age_threshold kc.disk hBpos hbs
      (by rw [ehl]; omega)
    apply @WF.congr_wf _ kc none [] wfe
    · rw [hk]; rfl
    · rw [edb]; rfl
    all_goals first
      | (rw [hk]; rfl)
      | (intro x; rw [hk]; rfl)
      | exact bounded_reads.of_same rfl (by rw [hk]; rfl)
  · have ebr : ∀ x, kc.block_root x = {} := by
      intro x; rw [hk]; rfl
    constructor
    · rw [warm_count_cold kc (fun x => by rw [ebr]; simp), hk]
      rfl
    · intro x _
      rw [ebr]
    · rw [enb]
      omega
    · intro x hx
      rw [ebr] at hx
      exact absurd rfl hx
    · intro x _
      rw [ebr]
    · intro x
      rw [ebr]
      exact Nat.zero_le _
    · intro x hx
      rw [ebr] at hx
      cases hx
  · refine ⟨?_, by rw [hk]; rfl, ?_⟩
    · rw [hk]
      unfold init_tables init_handle
      simp only []
      split
      · rename_i hi
        exact hi
      · rfl
    · rw [hk]
      unfold init_tables init_handle
      simp only []
      split
      · exact hres
      · rfl

/-- What holds between two operations holds after `init_key_cache` and after
every sequence of operations that return. -/
theorem reachable_inv (p : PLATFORM) (kc0 : KEY_CACHE) (bs um d a : Nat) (kc kc' : KEY_CACHE)
    (ops : List CACHE_OP) (hs : started p kc0 bs um d a kc) (hr : run_ops kc ops = some kc') :
    INV kc' :=
  run_ops_inv ops kc kc' (started_inv p kc0 bs um d a kc hs) hr

/-- A miss with an unused block left takes the block that `take_unused_block`
gives: the head of the free list, else the next never used block. -/
theorem find_key_block_miss_takes (kc : KEY_CACHE) (f key level : Nat) (wrmode : Bool)
    (wf : WF kc none []) (hu : usable kc) (hmiss : not_cached kc f key)
    (hne : kc.blocks_unused ≠ 0) :
    ∃ K, find_key_block kc f key level wrmode =
        some (some ((take_unused_block kc).1, PAGE_TO_BE_READ), K) ∧
      K.free_block_list = (take_unused_block kc).2.free_block_list ∧
      K.blocks_used = (take_unused_block kc).2.blocks_used := by
  obtain ⟨h, fh, hu', hget, hhb, hpool⟩ := get_hash_link_miss kc f key wf.cnt wf.hash wf.req hmiss
  obtain ⟨k1, hk1⟩ : ∃ k1 : KEY_CACHE, k1 = { kc with
          free_hash_list := fh, hash_links_used := hu'
          hash_link_root := Function.update kc.hash_link_root h ⟨none, f, key, 1⟩
          hash_root := Function.update kc.hash_root (KEYCACHE_HASH kc f key)
            (h :: kc.hash_root (KEYCACHE_HASH kc f key)) } := ⟨_, rfl⟩
  rw [← hk1] at hget
  have hne1 : k1.blocks_unused ≠ 0 := by rw [hk1]; exact hne
  have hcan : k1.in_resize = false := by rw [hk1]; exact hu.2.2
  have hblk : (k1.hash_link_root h).block = none := by rw [hk1]; simp
  have e1 : (take_unused_block k1).1 = (take_unused_block kc).1 := by
    unfold take_unused_block
    rw [hk1]
    simp only []
    split <;> rfl
  have e2 : (take_unused_block k1).2.free_block_list = (take_unused_block kc).2.free_block_list := by
    unfold take_unused_block
    rw [hk1]
    simp only []
    split <;> rfl
  have e3 : (take_unused_block k1).2.blocks_used = (take_unused_block kc).2.blocks_used := by
    unfold take_unused_block
    rw [hk1]
    simp only []
    split <;> rfl
  unfold find_key_block
  simp only [hu.2.1, hget, hcan, hblk, Bool.true_eq_false, if_false, hne1,
    ne_eq, not_false_eq_true, if_true, Bool.false_eq_true]
  unfold find_key_block_unused
  rw [← e1, ← e2, ← e3]
  refine ⟨_, rfl, ?_, ?_⟩
  · simp only [set_block, set_hash_link, link_to_file_list, link_changed, Bool.false_eq_true,
      if_false]
    split <;> rfl
  · simp only [set_block, set_hash_link, link_to_file_list, link_changed, Bool.false_eq_true,
      if_false]
    split <;> rfl

theorem started_cache_ok (d : DISK) (division_limit age_threshold : Nat) :
    started lp64 { disk := d } 1024 11178 division_limit age_threshold
      (started_cache d division_limit age_threshold) :=
  ⟨⟨8, rfl, by decide⟩, by decide, by decide, rfl⟩

theorem mod_add_of_lt (p j bs : Nat) (h : p % bs + j < bs) :
    (p + j) % bs = p % bs + j ∧ p + j - (p + j) % bs = p - p % bs := by
  have h1 : (p + j) % bs = p % bs + j := by
    rw [Nat.add_mod, Nat.mod_eq_of_lt (a := j) (by omega), Nat.mod_eq_of_lt h]
  refine ⟨h1, ?_⟩
  rw [h1]
  have := Nat.mod_le p bs
  omega

theorem cached_at_of_same_pages {kc kc' : KEY_CACHE} (sp : same_pages kc kc') (f key h : Nat) :
    cached_at kc' f key h ↔ cached_at kc f key h := by
  unfold cached_at
  rw [sp.2.2.1]

/-- A call of `key_cache_read` whose first pass ends the loop. -/
theorem key_cache_read_of_chunk (kc : KEY_CACHE) (f pos level len : Nat) (buff : Nat → Nat)
    (err : Bool) (buff' : Nat → Nat) (k' : KEY_CACHE) (hu : usable kc)
    (h : key_cache_read_chunk (inc_counter_for_resize_op kc) f pos level buff 0 len
      (pos % kc.key_cache_block_size) false = some (err, buff', k', false)) :
    key_cache_read kc f pos level buff len = some (err, buff', dec_counter_for_resize_op k') := by
  unfold key_cache_read
  rw [if_pos hu.1, if_neg (by rw [hu.2.2]; simp)]
  simp only []
  rw [key_cache_read_loop]
  have e : (inc_counter_for_resize_op kc).key_cache_block_size = kc.key_cache_block_size := rfl
  rw [e, h]

/-- What the second part of a pass of a buffered `key_cache_write` does to a
block without `BLOCK_ERROR`: the data is in the buffer, the block is dirty, and
its dirty part has grown to hold the data. -/
theorem key_cache_write_store_dirty (k1 k4 : KEY_CACHE) (b h : Nat) (data : List Nat)
    (rl offset : Nat) (hh : (k1.block_root b).hash_link = some h)
    (hfw : (k1.block_root b).status.in_flushwrite = false)
    (herr : (k1.block_root b).status.error = false)
    (hs : key_cache_write_store k1 b data rl offset true = some k4) :
    (∀ x, x ≠ b → k4.block_root x = k1.block_root x) ∧ k4.disk = k1.disk ∧
    (k4.block_root b).buffer = buffer_copy (k1.block_root b).buffer offset data ∧
    (k4.block_root b).status.changed = true ∧ (k4.block_root b).status.error = false ∧
    (k4.block_root b).offset = min (k1.block_root b).offset offset ∧
    (k4.block_root b).length = max (k1.block_root b).length (rl + offset) := by
  unfold key_cache_write_store at hs
  rw [if_neg (by rw [hfw]; simp), if_pos herr] at hs
  simp only [] at hs
  rw [if_neg (by simp)] at hs
  obtain ⟨k2, hk2⟩ : ∃ k2, k2 = set_block k1 b
      { k1.block_root b with buffer := buffer_copy (k1.block_root b).buffer offset data } :=
    ⟨_, rfl⟩
  rw [← hk2] at hs
  have e2b : k2.block_root b =
      { k1.block_root b with buffer := buffer_copy (k1.block_root b).buffer offset data } := by
    rw [hk2, set_block_root_same]
  have e2x : ∀ x, x ≠ b → k2.block_root x = k1.block_root x := by
    intro x hx
    rw [hk2, set_block_root, if_neg hx]
  have hh2 : (k2.block_root b).hash_link = some h := by rw [e2b]; exact hh
  by_cases hc : (k2.block_root b).status.changed = false
  · rw [if_pos hc, link_to_changed_list_eq k2 b h hh2, Option.map_some'] at hs
    have e := Option.some.inj hs
    rw [← e]
    refine ⟨?_, ?_, ?_, ?_, ?_, ?_, ?_⟩
    · intro x hx
      rw [set_block_root, if_neg hx]
      simp only [dirtied_state, Function.update_noteq hx]
      exact e2x x hx
    · rw [hk2]; rfl
    all_goals rw [set_block_root_same]
    all_goals simp only [dirtied_state, Function.update_same]
    all_goals rw [e2b]
    · exact herr
  · rw [if_neg hc, Option.map_some'] at hs
    have e := Option.some.inj hs
    rw [← e]
    have hc' : (k2.block_root b).status.changed = true := by
      cases hcc : (k2.block_root b).status.changed with
      | true => rfl
      | false => exact absurd hcc hc
    refine ⟨?_, ?_, ?_, ?_, ?_, ?_, ?_⟩
    · intro x hx
      rw [set_block_root, if_neg hx]
      exact e2x x hx
    · rw [hk2]; rfl
    all_goals rw [set_block_root_same]
    · rw [e2b]
    · exact hc'
    · show (k2.block_root b).status.error = false
      rw [e2b]
      exact herr
    · rw [e2b]
    · rw [e2b]

/-- What the first part of a pass of `key_cache_write` does to the block: it
is marked `BLOCK_FOR_UPDATE`, and a new block that the data does not fill is
read from the file first. -/
theorem key_cache_write_load_state (K k1 : KEY_CACHE) (b h rl offset : Nat) (st : PAGE_STATUS)
    (hst : st = PAGE_READ ∨ st = PAGE_TO_BE_READ)
    (hh : (K.block_root b).hash_link = some h)
    (hl : key_cache_write_load K b st rl offset = some k1) :
    (¬ ((K.block_root b).status.error = false ∧ st = PAGE_TO_BE_READ ∧
          (offset ≠ 0 ∨ rl < K.key_cache_block_size)) ∧
      k1 = set_status K b { (K.block_root b).status with for_update := true }) ∨
    ((K.block_root b).status.error = false ∧ st = PAGE_TO_BE_READ ∧
        (offset ≠ 0 ∨ rl < K.key_cache_block_size) ∧
      k1 = set_status
        (read_block_state
          (set_status K b { (K.block_root b).status with for_update := true }) b h
          (if offset + rl ≥ K.key_cache_block_size then offset else K.key_cache_block_size)
          offset) b
        { ((read_block_state
          (set_status K b { (K.block_root b).status with for_update := true }) b h
          (if offset + rl ≥ K.key_cache_block_size then offset else K.key_cache_block_size)
          offset).block_root b).status with for_update := true }) := by
  obtain ⟨K1, hK1⟩ : ∃ K1, K1 =
      set_status K b { (K.block_root b).status with for_update := true } := ⟨_, rfl⟩
  have e1b : K1.block_root b =
      { K.block_root b with status := { (K.block_root b).status with for_update := true } } := by
    rw [hK1, set_status_root_same]
  have e1s : K1.key_cache_block_size = K.key_cache_block_size := by rw [hK1]; rfl
  have hh1 : (K1.block_root b).hash_link = some h := by rw [e1b]; exact hh
  have hne : st ≠ PAGE_WAIT_TO_BE_READ := by
    rcases hst with e | e <;> rw [e] <;> simp
  unfold key_cache_write_load at hl
  rw [if_pos hne, ← hK1] at hl
  simp only [] at hl
  rw [← hK1]
  by_cases hc : (K1.block_root b).status.error = false ∧
      ((st = PAGE_TO_BE_READ ∧ (offset ≠ 0 ∨ rl < K1.key_cache_block_size)) ∨
        st = PAGE_WAIT_TO_BE_READ)
  · rw [if_pos hc] at hl
    obtain ⟨herr1, hcase⟩ := hc
    rcases hcase with ⟨e, hpart⟩ | e
    · subst e
      right
      simp only [decide_True] at hl
      rw [read_block_primary K1 b h _ offset hh1] at hl
      simp only [] at hl
      rw [e1s] at hl hpart
      refine ⟨by rw [e1b] at herr1; exact herr1, rfl, hpart, (Option.some.inj hl).symm⟩
    · exact absurd e hne
  · rw [if_neg hc] at hl
    left
    refine ⟨?_, (Option.some.inj hl).symm⟩
    rintro ⟨h1, h2, h3⟩
    apply hc
    refine ⟨by rw [e1b]; exact h1, Or.inl ⟨h2, by rw [e1s]; exact h3⟩⟩

/-- The second part of a pass of a buffered `key_cache_write` leaves
`BLOCK_ERROR` as it is. -/
theorem key_cache_write_store_error (k1 k4 : KEY_CACHE) (b h : Nat) (data : List Nat)
    (rl offset : Nat) (hh : (k1.block_root b).hash_link = some h)
    (hs : key_cache_write_store k1 b data rl offset true = some k4) :
    (k4.block_root b).status.error = (k1.block_root b).status.error := by
  unfold key_cache_write_store at hs
  by_cases hfw : (k1.block_root b).status.in_flushwrite = true
  · rw [if_pos hfw] at hs
    cases hs
  rw [if_neg hfw] at hs
  simp only [] at hs
  rw [if_neg (by simp)] at hs
  obtain ⟨k2, hk2⟩ : ∃ k2, k2 = (if (k1.block_root b).status.error = false then
        set_block k1 b
          { k1.block_root b with
            buffer := buffer_copy (k1.block_root b).buffer offset data }
      else k1) := ⟨_, rfl⟩
  rw [← hk2] at hs
  have e2 : (k2.block_root b).status = (k1.block_root b).status ∧
      (k2.block_root b).hash_link = some h := by
    rw [hk2]
    split
    · rw [set_block_root_same]
      exact ⟨rfl, hh⟩
    · exact ⟨rfl, hh⟩
  by_cases hc : (k2.block_root b).status.changed = false
  · rw [if_pos hc, link_to_changed_list_eq k2 b h e2.2, Option.map_some'] at hs
    have e := Option.some.inj hs
    rw [← e, set_block_root_same]
    simp only [dirtied_state, Function.update_same]
    rw [e2.1]
  · rw [if_neg hc, Option.map_some'] at hs
    have e := Option.some.inj hs
    rw [← e, set_block_root_same]
    show (k2.block_root b).status.error = _
    rw [e2.1]

theorem FOUND.taken {kc K : KEY_CACHE} {f key b h : Nat}
    (fd : FOUND kc K f key b h PAGE_TO_BE_READ)
    (herr : (K.block_root b).status.error = false) : taken kc b K.disk := by
  obtain ⟨-, -, -, hc⟩ := fd.miss rfl
  rcases hc with ⟨h0, hn, hd, -⟩ | ⟨old, rest, hring, h0, hh, -, -, hd, hs⟩
  · exact Or.inl ⟨h0, hn, hd⟩
  · refine Or.inr ⟨old, rest, hring, h0, hh, ?_, hd⟩
    cases he : evict_error kc b old with
    | none => rfl
    | some e =>
      rw [he] at hs
      rw [hs] at herr
      cases herr

/-- The steps of a pass of a buffered `key_cache_write` that does not fail. -/
theorem key_cache_write_chunk_parts (kc : KEY_CACHE) (f filepos level : Nat) (buff : List Nat)
    (offset : Nat) (wf : WF kc none []) (aux : AUX kc)
    (hu : usable kc) (hal : (filepos - offset) % kc.key_cache_block_size = 0)
    (hoff : offset < kc.key_cache_block_size) (kc' : KEY_CACHE) (more : Bool)
    (hr : key_cache_write_chunk kc f filepos level buff offset true false =
      some (false, kc', more)) :
    ∃ b h st K k1 k4,
      FOUND { kc with global_cache_w_requests := kc.global_cache_w_requests + 1 } K f
        (filepos - offset) b h st ∧
      key_cache_write_load K b st (min buff.length (kc.key_cache_block_size - offset)) offset =
        some k1 ∧
      key_cache_write_store k1 b
        (buff.take (min buff.length (kc.key_cache_block_size - offset)))
        (min buff.length (kc.key_cache_block_size - offset)) offset true = some k4 ∧
      (k1.block_root b).status.error = false ∧
      (k1.block_root b).status.in_flushwrite = false ∧
      (k1.block_root b).hash_link = some h ∧
      (k4.block_root b).status.read = true ∧
      CHUNK_OK kc kc' f (filepos - offset) b h ∧
      more = decide (buff.length - min buff.length (kc.key_cache_block_size - offset) ≠ 0) ∧
      same_core (kc'.block_root b) { k4.block_root b with requests := 0 } ∧
      kc'.disk = k4.disk := by
  obtain ⟨kA, hkA⟩ : ∃ kA : KEY_CACHE, kA =
      { kc with global_cache_w_requests := kc.global_cache_w_requests + 1 } := ⟨_, rfl⟩
  have wfA : WF kA none [] := by
    rw [hkA]
    exact @WF.congr_wf kc _ none [] wf rfl rfl rfl rfl rfl rfl rfl rfl rfl rfl rfl rfl rfl rfl
      (fun _ => rfl) (fun _ => rfl) (fun _ => rfl) (fun _ => rfl) rfl (fun h => h)
  have auxA : AUX kA := by
    rw [hkA]
    exact @AUX.congr_aux kc _ aux rfl rfl rfl rfl (fun _ => aux_same_refl _)
  have huA : usable kA := by rw [hkA]; exact hu
  have halA : (filepos - offset) % kA.key_cache_block_size = 0 := by rw [hkA]; exact hal
  have cfgA : same_config kc kA := by rw [hkA]; exact same_config_refl kc
  rcases find_key_block_spec kA f (filepos - offset) level true wfA huA halA with
    ⟨hnone, -⟩ | ⟨b, h, st, K, hfind, fd⟩
  · unfold key_cache_write_chunk at hr
    rw [if_neg (by rw [hu.2.1]; simp)] at hr
    simp only [] at hr
    rw [← hkA, hnone] at hr
    cases hr
  rw [hkA] at hfind
  rw [key_cache_write_chunk_found kc K f filepos level offset b buff true false st hu.2.1
    hfind] at hr
  obtain ⟨rl, hrl⟩ : ∃ rl, rl = min buff.length (kc.key_cache_block_size - offset) := ⟨_, rfl⟩
  rw [← hrl] at hr ⊢
  have ebs : K.key_cache_block_size = kc.key_cache_block_size := by
    have := fd.config.2.2.2.2.1
    rw [this, hkA]
  cases h1 : key_cache_write_load K b st rl offset with
  | none =>
    rw [h1] at hr
    cases hr
  | some k1 =>
    rw [h1, Option.some_bind] at hr
    obtain ⟨w1, a1, c1, hh1, hl1, hev1, hfw1, hok1⟩ :=
      key_cache_write_load_inv kA K f (filepos - offset) b h rl offset st wfA auxA fd
        (by rw [ebs]; exact hoff) k1 h1
    have e1s : k1.key_cache_block_size = kc.key_cache_block_size := by
      rw [c1.2.2.2.2.1, ebs]
    cases h2 : key_cache_write_store k1 b (buff.take rl) rl offset true with
    | none =>
      rw [h2] at hr
      cases hr
    | some k4 =>
      rw [h2, Option.some_bind] at hr
      have hlen : rl + offset ≤ k1.key_cache_block_size := by
        rw [e1s, hrl]
        have := Nat.min_le_right buff.length (kc.key_cache_block_size - offset)
        omega
      obtain ⟨w4, a4, c4, hl4, hh4, hev4, hok4⟩ :=
        key_cache_write_store_inv k1 b h (buff.take rl) rl offset true w1 a1 hh1 hev1 hfw1
          hok1 hlen k4 h2
      have hreq4 : (k4.hash_link_root h).requests = 1 := by
        rw [hl4, hl1, fd.link]
      unfold key_cache_write_finish at hr
      by_cases herr : (k4.block_root b).status.error = false
      · obtain ⟨hbok, hread, hupd⟩ := hok4 herr
        obtain ⟨br, ring, ins, w, hrem, hunreg, hperm, hcore, wf3⟩ :=
          release_spec k4 b h true w4 hh4 hreq4 hbok herr hread hupd
        have e : ((set_hash_link k4 h { k4.hash_link_root h with requests := 0 }).block_root
            b).status.error = false := herr
        rw [hrem, Option.some_bind, if_pos e, hunreg, Option.map_some'] at hr
        have e1 := Option.some.inj hr
        have e2 : lru_set (set_hash_link k4 h { k4.hash_link_root h with requests := 0 })
            br ring ins (k4.keycache_time + 1) w = kc' := congrArg (fun r => r.2.1) e1
        have e3 : decide (buff.length - rl ≠ 0) = more := congrArg (fun r => r.2.2) e1
        have herr1 : (k1.block_root b).status.error = false := by
          rw [← key_cache_write_store_error k1 k4 b h _ rl offset hh1 h2]
          exact herr
        have e4x : ∀ x, x ≠ b → k4.block_root x = K.block_root x := by
          intro x hx
          rw [(key_cache_write_store_dirty k1 k4 b h _ rl offset hh1 hfw1 herr1 h2).1 x hx]
          rcases key_cache_write_load_state K k1 b h rl offset st fd.cases fd.hl h1 with
            ⟨-, e⟩ | ⟨-, -, -, e⟩
          · rw [e, set_status, set_block_root, if_neg hx]
          · rw [e, set_status, set_block_root, if_neg hx]
            simp only [read_block_state, Function.update_noteq hx]
            rw [set_status, set_block_root, if_neg hx]
        have cok := chunk_ok_of_release kA K k4 f (filepos - offset) b h (k4.keycache_time + 1) w
          st br ring ins fd wfA e4x (by rw [hl4, hl1]) (same_config_trans c1 c4) herr hcore wf3
        rw [e2] at cok
        have hcb := hcore b
        rw [if_pos rfl] at hcb
        refine ⟨b, h, st, K, k1, k4, by rw [← hkA]; exact fd, h1, h2, herr1, hfw1, hh1, hread,
          ⟨cok.wf, same_config_trans cfgA cok.config, cok.cached, cok.block, cok.noerr,
            ?_, ?_, ?_⟩, e3.symm, ?_, ?_⟩
        · intro x hx
          have := cok.others x hx
          rw [hkA] at this
          exact this
        · intro y hy hyb
          have := cok.links y hy hyb
          rw [hkA] at this
          exact this
        · intro x y hx hy
          have := cok.kept x y hx (by rw [hkA]; exact hy)
          rw [hkA] at this
          exact this
        · rw [← e2]
          exact hcb
        · rw [← e2]
          rfl
      · obtain ⟨Kr, K', hrem, herr', hfree, wf', aux', cfg⟩ :=
          free_unchanged_inv k4 b h w4 a4 hh4 hreq4 hev4
        rw [hrem, Option.some_bind, if_neg (by rw [herr']; exact herr), hfree,
          Option.map_some'] at hr
        cases hr

theorem getD_take_of_lt (l : List Nat) (n i : Nat) (h : i < n) :
    (l.take n).getD i 0 = l.getD i 0 := by
  simp only [List.getD_eq_getElem?_getD, List.getElem?_take, if_pos h]

theorem read_block_state_offset (K : KEY_CACHE) (b h rl m : Nat) :
    ((read_block_state K b h rl m).block_root b).offset = (K.block_root b).offset := by
  simp only [read_block_state, Function.update_same]
  split <;> rfl

/-- What a pass of a buffered `key_cache_write` that does not fail does: the
page is cached in a block that is dirty and holds the data; a block that held
the page keeps the rest of its data and has its dirty part extended; a block
that is new to the page has been taken from the pool or from the head of the
LRU ring, has been read from the file unless the data fills it, and its dirty
part is the part that holds the data. -/
theorem key_cache_write_chunk_spec (kc : KEY_CACHE) (f filepos level : Nat) (buff : List Nat)
    (offset : Nat) (wf : WF kc none []) (aux : AUX kc)
    (hu : usable kc) (hal : (filepos - offset) % kc.key_cache_block_size = 0)
    (hoff : offset < kc.key_cache_block_size) (kc' : KEY_CACHE) (more : Bool)
    (hr : key_cache_write_chunk kc f filepos level buff offset true false =
      some (false, kc', more)) :
    ∃ b h, CHUNK_OK kc kc' f (filepos - offset) b h ∧
      more = decide (buff.length - min buff.length (kc.key_cache_block_size - offset) ≠ 0) ∧
      (kc'.block_root b).status.changed = true ∧ (kc'.block_root b).status.read = true ∧
      (kc'.block_root b).offset ≤ offset ∧
      min buff.length (kc.key_cache_block_size - offset) + offset ≤ (kc'.block_root b).length ∧
      (∀ i, i < min buff.length (kc.key_cache_block_size - offset) →
        (kc'.block_root b).buffer (offset + i) = buff.getD i 0) ∧
      (∀ h0, cached_at kc f (filepos - offset) h0 →
        (kc.hash_link_root h0).block = some b ∧ kc'.disk = kc.disk ∧
        (kc'.block_root b).offset = min (kc.block_root b).offset offset ∧
        (kc'.block_root b).length = max (kc.block_root b).length
          (min buff.length (kc.key_cache_block_size - offset) + offset) ∧
        (∀ i, ¬ (offset ≤ i ∧ i < offset + min buff.length (kc.key_cache_block_size - offset)) →
          (kc'.block_root b).buffer i = (kc.block_root b).buffer i)) ∧
      (not_cached kc f (filepos - offset) → ∃ D, taken kc b D ∧
        (kc'.block_root b).offset = offset ∧
        ((offset ≠ 0 ∨ min buff.length (kc.key_cache_block_size - offset) <
            kc.key_cache_block_size) →
          kc'.disk = (my_pread D f
            (if offset + min buff.length (kc.key_cache_block_size - offset) ≥
              kc.key_cache_block_size then offset else kc.key_cache_block_size)
            (filepos - offset)).2.2 ∧
          offset ≤ (my_pread D f
            (if offset + min buff.length (kc.key_cache_block_size - offset) ≥
              kc.key_cache_block_size then offset else kc.key_cache_block_size)
            (filepos - offset)).1 ∧
          (kc'.block_root b).length = max (my_pread D f
            (if offset + min buff.length (kc.key_cache_block_size - offset) ≥
              kc.key_cache_block_size then offset else kc.key_cache_block_size)
            (filepos - offset)).1 (min buff.length (kc.key_cache_block_size - offset) + offset) ∧
          (∀ i, ¬ (offset ≤ i ∧
              i < offset + min buff.length (kc.key_cache_block_size - offset)) →
            (kc'.block_root b).buffer i = pread_into D f (filepos - offset) (my_pread D f
              (if offset + min buff.length (kc.key_cache_block_size - offset) ≥
                kc.key_cache_block_size then offset else kc.key_cache_block_size)
              (filepos - offset)).2.1 (kc.block_root b).buffer i)) ∧
        (¬ (offset ≠ 0 ∨ min buff.length (kc.key_cache_block_size - offset) <
            kc.key_cache_block_size) →
          kc'.disk = D ∧ (kc'.block_root b).length =
            min buff.length (kc.key_cache_block_size - offset) + offset)) := by
  obtain ⟨b, h, st, K, k1, k4, fd, hload, hstore, herr1, hfw1, hh1, hread, ok, hmore, hcore,
    hdisk⟩ := key_cache_write_chunk_parts kc f filepos level buff offset wf aux hu hal hoff kc'
      more hr
  obtain ⟨kA, hkA⟩ : ∃ kA : KEY_CACHE, kA =
      { kc with global_cache_w_requests := kc.global_cache_w_requests + 1 } := ⟨_, rfl⟩
  rw [← hkA] at fd
  have wfA : WF kA none [] := by
    rw [hkA]
    exact @WF.congr_wf kc _ none [] wf rfl rfl rfl rfl rfl rfl rfl rfl rfl rfl rfl rfl rfl rfl
      (fun _ => rfl) (fun _ => rfl) (fun _ => rfl) (fun _ => rfl) rfl (fun h => h)
  obtain ⟨rl, hrl⟩ : ∃ rl, rl = min buff.length (kc.key_cache_block_size - offset) := ⟨_, rfl⟩
  rw [← hrl] at hload hstore hmore ⊢
  have hrlb : rl ≤ buff.length := by rw [hrl]; exact Nat.min_le_left _ _
  have ebs : K.key_cache_block_size = kc.key_cache_block_size := by
    have := fd.config.2.2.2.2.1
    rw [this, hkA]
  obtain ⟨-, s2, s3, s4, -, s6, s7⟩ :=
    key_cache_write_store_dirty k1 k4 b h _ rl offset hh1 hfw1 herr1 hstore
  obtain ⟨-, c2, c3, c4, c5, -⟩ := hcore
  have c2' : (kc'.block_root b).buffer = (k4.block_root b).buffer := c2
  have c3' : (kc'.block_root b).offset = (k4.block_root b).offset := c3
  have c4' : (kc'.block_root b).length = (k4.block_root b).length := c4
  have c5' : (kc'.block_root b).status = (k4.block_root b).status := c5
  have hlenT : (buff.take rl).length = rl := by
    rw [List.length_take]
    exact Nat.min_eq_left hrlb
  have hin : ∀ i, i < rl → (kc'.block_root b).buffer (offset + i) = buff.getD i 0 := by
    intro i hi
    rw [c2', s3]
    unfold buffer_copy
    rw [if_pos ⟨Nat.le_add_right _ _, by rw [hlenT]; omega⟩, Nat.add_sub_cancel_left,
      getD_take_of_lt buff rl i hi]
  have hout : ∀ i, ¬ (offset ≤ i ∧ i < offset + rl) →
      (kc'.block_root b).buffer i = (k1.block_root b).buffer i := by
    intro i hi
    rw [c2', s3]
    unfold buffer_copy
    rw [hlenT, if_neg hi]
  have ls := key_cache_write_load_state K k1 b h rl offset st fd.cases fd.hl hload
  refine ⟨b, h, ok, hmore, by rw [c5', s4], by rw [c5', hread], ?_, ?_, hin, ?_, ?_⟩
  · rw [c3', s6]
    exact Nat.min_le_right _ _
  · rw [c4', s7]
    exact Nat.le_max_right _ _
  · intro h0 hc0
    have hst : st = PAGE_READ := by
      rcases fd.cases with e | e
      · exact e
      · exfalso
        obtain ⟨hm, -⟩ := fd.miss e
        exact hm h0 (by rw [hkA]; exact hc0.1) (by rw [hkA]; exact ⟨hc0.2.1, hc0.2.2⟩)
    obtain ⟨hc, hbk, eKb, eKd, -, -⟩ := fd.hit hst
    have e0 : h0 = h := wfA.hash.uniq h0 h (by rw [hkA]; exact hc0.1) hc.1
      (by rw [hc.2.1, hkA]; exact hc0.2.1) (by rw [hc.2.2, hkA]; exact hc0.2.2)
    have e1 : k1 = set_status K b { (K.block_root b).status with for_update := true } := by
      rcases ls with ⟨-, e⟩ | ⟨-, e, -⟩
      · exact e
      · rw [hst] at e
        cases e
    have e1b : k1.block_root b =
        { K.block_root b with
          status := { (K.block_root b).status with for_update := true } } := by
      rw [e1, set_status_root_same]
    have eKb' : K.block_root b = { kc.block_root b with requests := 1 } := by
      rw [eKb, hkA]
    refine ⟨by rw [e0]; rw [hkA] at hbk; exact hbk, ?_, ?_, ?_, ?_⟩
    · rw [hdisk, s2, e1]
      show K.disk = kc.disk
      rw [eKd, hkA]
    · rw [c3', s6, e1b]
      simp only []
      rw [eKb']
    · rw [c4', s7, e1b]
      simp only []
      rw [eKb']
    · intro i hi
      rw [hout i hi, e1b]
      simp only []
      rw [eKb']
  · intro hm
    have hst : st = PAGE_TO_BE_READ := by
      rcases fd.cases with e | e
      · exfalso
        obtain ⟨hc, -⟩ := fd.hit e
        exact hm h (by rw [hkA] at hc; exact hc.1) (by rw [hkA] at hc; exact ⟨hc.2.1, hc.2.2⟩)
      · exact e
    subst hst
    obtain ⟨-, hKlen, hKoff, -⟩ := fd.miss rfl
    have hKbuf : (K.block_root b).buffer = (kc.block_root b).buffer := by
      rw [fd.buffer, hkA]
    have hKlink : K.hash_link_root h = ⟨some b, f, filepos - offset, 1⟩ := fd.link
    have herrK : (K.block_root b).status.error = false := by
      rcases ls with ⟨-, e⟩ | ⟨e, -⟩
      · rw [e, set_status_root_same] at herr1
        exact herr1
      · exact e
    have htk : taken kc b K.disk := by
      have := fd.taken herrK
      rw [hkA] at this
      exact this
    have hoff1 : (k1.block_root b).offset = (K.block_root b).offset := by
      rcases ls with ⟨-, e⟩ | ⟨-, -, -, e⟩
      · rw [e, set_status_root_same]
      · rw [e, set_status_root_same]
        show ((read_block_state _ b h _ offset).block_root b).offset = _
        rw [read_block_state_offset, set_status_root_same]
    refine ⟨K.disk, htk, ?_, ?_, ?_⟩
    · rw [c3', s6, hoff1, hKoff, ebs]
      exact Nat.min_eq_right (le_of_lt hoff)
    · intro hc
      rcases ls with ⟨hn, -⟩ | ⟨-, -, -, e⟩
      · exact absurd ⟨herrK, rfl, by rw [ebs]; exact hc⟩ hn
      · obtain ⟨rlen, hrlen⟩ : ∃ rlen, rlen = (if offset + rl ≥ kc.key_cache_block_size then offset
            else kc.key_cache_block_size) := ⟨_, rfl⟩
        rw [← hrlen]
        rw [ebs, ← hrlen] at e
        obtain ⟨K1, hK1⟩ : ∃ K1, K1 =
            set_status K b { (K.block_root b).status with for_update := true } := ⟨_, rfl⟩
        rw [← hK1] at e
        have eK1l : K1.hash_link_root h = ⟨some b, f, filepos - offset, 1⟩ := by
          rw [hK1]
          exact hKlink
        have eK1d : K1.disk = K.disk := by rw [hK1]; rfl
        have eK1b : K1.block_root b =
            { K.block_root b with
              status := { (K.block_root b).status with for_update := true } } := by
          rw [hK1, set_status_root_same]
        obtain ⟨g, hg⟩ : ∃ g, g = (my_pread K.disk f rlen (filepos - offset)).1 := ⟨_, rfl⟩
        have eRb : (read_block_state K1 b h rlen offset).block_root b =
            if g < offset then
              { K1.block_root b with
                buffer := pread_into K.disk f (filepos - offset)
                  (my_pread K.disk f rlen (filepos - offset)).2.1 (K1.block_root b).buffer
                status := { (K1.block_root b).status with error := true } }
            else
              { K1.block_root b with
                buffer := pread_into K.disk f (filepos - offset)
                  (my_pread K.disk f rlen (filepos - offset)).2.1 (K1.block_root b).buffer
                status := { (K1.block_root b).status with read := true }
                length := g } := by
          rw [hg]
          simp only [read_block_state, Function.update_same, eK1l, eK1d]
        have e1b : k1.block_root b =
            { (read_block_state K1 b h rlen offset).block_root b with
              status := { ((read_block_state K1 b h rlen offset).block_root b).status with
                for_update := true } } := by
          rw [e, set_status_root_same]
        have hge : ¬ g < offset := by
          intro hlt
          rw [e1b, eRb, if_pos hlt] at herr1
          cases herr1
        rw [eRb, if_neg hge] at e1b
        rw [← hg]
        refine ⟨?_, Nat.le_of_not_lt hge, ?_, ?_⟩
        · rw [hdisk, s2, e]
          show (read_block_state K1 b h rlen offset).disk = _
          simp only [read_block_state, eK1l, eK1d]
        · rw [c4', s7, e1b]
        · intro i hi
          rw [hout i hi, e1b]
          simp only []
          rw [eK1b]
          simp only []
          rw [hKbuf]
    · intro hc
      rcases ls with ⟨-, e⟩ | ⟨-, -, hc', -⟩
      · refine ⟨?_, ?_⟩
        · rw [hdisk, s2, e]
          rfl
        · rw [c4', s7, e, set_status_root_same]
          simp only []
          rw [hKlen]
          exact Nat.max_eq_right (Nat.zero_le _)
      · exact absurd (by rw [ebs] at hc'; exact hc') hc

theorem length_le_one_of_nodup_eq (l : List Nat) (b : Nat) (hn : l.Nodup)
    (h : ∀ x, x ∈ l → x = b) : l.length ≤ 1 := by
  have hs : l ⊆ [b] := fun x hx => by rw [h x hx]; exact List.mem_singleton.2 rfl
  exact (List.subperm_of_subset hn hs).length_le

/-- A flush of a file whose only dirty block is `b` calls `my_pwrite` once, for
the dirty part of `b`. -/
theorem flush_single_dirty (kc kc' : KEY_CACHE) (f b : Nat) (type : flush_type)
    (malloc_ok res : Bool) (wf : WF kc none []) (hinit : kc.key_cache_inited = true)
    (hon : kc.my_disable_flush_key_blocks = false ∨ type ≠ FLUSH_KEEP)
    (ht : type ≠ FLUSH_IGNORE_CHANGED)
    (hb : dirty_of kc f b) (honly : ∀ x, dirty_of kc f x → x = b)
    (h : flush_key_blocks kc f type malloc_ok = some (res, kc')) :
    ∃ w, kc'.disk.pwrites = kc.disk.pwrites ++ [w] ∧ pwrite_of kc f b w := by
  rcases flush_key_blocks_spec kc f type malloc_ok wf hinit hon with
    ⟨hnone, -, -⟩ | ⟨e, k, hk, P, F, W, s, he, hd, hr⟩
  · rw [hnone] at h; cases h
  rw [hk] at h
  have e3 : k = kc' := congrArg Prod.snd (Option.some.inj h)
  rw [e3] at s hd
  have hfit : burst_fits kc f malloc_ok := by
    right
    have hnd : (dirty_blocks kc f).Nodup := (wf.chain.changed_nodup _).filter _
    have := length_le_one_of_nodup_eq _ b hnd
      (fun x hx => honly x ((mem_dirty_blocks wf.chain f x).1 hx))
    unfold FLUSH_CACHE
    omega
  have hnd : ∀ x, ¬ dirty_of kc' f x := by
    rcases hd with h1 | ⟨-, h1⟩
    · exact h1
    · exact absurd hfit h1
  have hbP : b ∈ P := by
    rcases s.cover ht b hb with h1 | h1
    · exact h1
    · exfalso
      have hne : (kc'.block_root b).hash_link ≠ none := by
        intro hn
        rw [s.wf.stat.free b hn] at h1
        cases h1
      exact hnd b ⟨s.rel.of_file_now hb.1 hne, h1⟩
  have hP : P = [b] := by
    have hall : ∀ x, x ∈ P → x = b := fun x hx => honly x (s.rel.written_dirty x hx)
    have hlen := length_le_one_of_nodup_eq P b s.rel.written_nodup hall
    cases P with
    | nil => cases hbP
    | cons x xs =>
      cases xs with
      | nil => rw [hall x (List.mem_cons_self _ _)]
      | cons y ys => simp at hlen
  have hw := s.rel.written
  rw [hP] at hw
  cases hw with
  | cons hx hrest =>
    cases hrest
    exact ⟨_, s.rel.log, hx⟩

/-- A buffered `key_cache_write` within one cache block is one pass of the
loop. -/
theorem key_cache_write_single (kc : KEY_CACHE) (f pos level : Nat) (data : List Nat)
    (err : Bool) (kc' : KEY_CACHE) (inv : INV kc)
    (hone : pos % kc.key_cache_block_size + data.length ≤ kc.key_cache_block_size)
    (hw : key_cache_write kc f pos level data true = some (err, kc')) :
    ∃ k', key_cache_write_chunk (inc_counter_for_resize_op kc) f pos level data
        (pos % kc.key_cache_block_size) true false = some (err, k', false) ∧
      kc' = dec_counter_for_resize_op k' := by
  obtain ⟨wf, aux, hu⟩ := inv
  have hbs : 0 < kc.key_cache_block_size := wf.cnt.bs_pos
  have inv1 : INV (inc_counter_for_resize_op kc) := INV.resize_counter _ ⟨wf, aux, hu⟩
  unfold key_cache_write at hw
  rw [if_neg (by simp)] at hw
  unfold key_cache_write_cached at hw
  rw [if_pos hu.1, if_neg (by rw [hu.2.2]; simp)] at hw
  rw [key_cache_write_loop] at hw
  cases hc : key_cache_write_chunk (inc_counter_for_resize_op kc) f pos level data
      (pos % kc.key_cache_block_size) true false with
  | none =>
    rw [hc] at hw
    cases hw
  | some c =>
    obtain ⟨e1, k1, m1⟩ := c
    have hm := (key_cache_write_chunk_inv _ f pos level data _ true false inv1.1 inv1.2.1
      inv1.2.2 (Nat.sub_mod_eq_zero_of_mod_eq (by rw [Nat.mod_mod])) (Nat.mod_lt _ hbs) _
      hc).2.2.2
    have hm1 : m1 = false := by
      cases m1 with
      | false => rfl
      | true =>
        exfalso
        apply hm rfl
        show data.length - min data.length (kc.key_cache_block_size -
          pos % kc.key_cache_block_size) = 0
        rw [Nat.min_eq_left (by omega)]
        exact Nat.sub_self _
    subst hm1
    rw [hc] at hw
    simp only [Option.map_some'] at hw
    have e := Option.some.inj hw
    have e1' : e1 = err := congrArg Prod.fst e
    exact ⟨k1, by rw [e1'], (congrArg Prod.snd e).symm⟩

theorem buffer_bytes_eq (buf : Nat → Nat) (off : Nat) (data : List Nat)
    (h : ∀ i, i < data.length → buf (off + i) = data.getD i 0) :
    buffer_bytes buf off data.length = data := by
  unfold buffer_bytes
  apply List.ext_getElem
  · simp
  · intro i h1 h2
    simp only [List.getElem_map, List.getElem_range]
    rw [h i h2, List.getD_eq_getElem?_getD, List.getElem?_eq_getElem h2]
    rfl

/-- A pass that has found its page in the cache and has done nothing to it but
give the block back leaves the pages as they were. -/
theorem same_pages_of_hit (kA K : KEY_CACHE) (f key b h t w : Nat)
    (br : Nat → BLOCK_LINK) (ring : List Nat) (ins : Option Nat)
    (fd : FOUND kA K f key b h PAGE_READ) (wfA : WF kA none [])
    (hcore : ∀ x, same_core (br x)
      (if x = b then { K.block_root b with requests := 0 } else K.block_root x)) :
    same_pages kA (lru_set (set_hash_link K h { K.hash_link_root h with requests := 0 })
      br ring ins t w) := by
  obtain ⟨hc, hbk, eKb, eKd, eKl, -⟩ := fd.hit rfl
  have hreq0 : (kA.block_root b).requests = 0 := wfA.req.block_free b (by simp) (by simp)
  have hlr0 : (kA.hash_link_root h).requests = 0 :=
    wfA.req.link_free h (fun b hb => by cases hb)
  refine ⟨fd.config, ?_, ?_, ?_⟩
  · intro x
    have hx := hcore x
    by_cases hxb : x = b
    · rw [hxb] at hx ⊢
      rw [if_pos rfl, eKb] at hx
      exact same_core_trans hx ⟨rfl, rfl, rfl, rfl, rfl, hreq0.symm⟩
    · rw [if_neg hxb, fd.others x hxb] at hx
      exact hx
  · funext y
    show (Function.update K.hash_link_root h
        { K.hash_link_root h with requests := 0 }) y = kA.hash_link_root y
    by_cases hy : y = h
    · rw [hy, Function.update_same, fd.link]
      obtain ⟨-, c2, c3⟩ := hc
      cases hk : kA.hash_link_root h with
      | mk bl fl dp rq =>
        rw [hk] at c2 c3 hbk hlr0
        simp only at c2 c3 hbk hlr0
        rw [hbk, c2, c3, hlr0]
    · rw [Function.update_noteq hy, eKl y hy]
  · show K.disk = kA.disk
    exact eKd

/-- What the part of a pass of `key_cache_insert` that fills the block leaves:
the block is still pinned, the other blocks and the hash links are as they
were, a block that held the page is as it was, and the block holds its page
or carries `BLOCK_ERROR`. -/
theorem key_cache_insert_load_spec (kA K : KEY_CACHE) (f key b h rl offset : Nat)
    (buff : List Nat) (st : PAGE_STATUS) (wfA : WF kA none []) (auxA : AUX kA)
    (fd : FOUND kA K f key b h st)
    (hrlle : rl ≤ K.key_cache_block_size) :
    ∀ K2, key_cache_insert_load K b st buff rl offset = some K2 →
      WF K2 (some b) [] ∧ AUX K2 ∧ same_config K K2 ∧
      (∀ x, x ≠ b → K2.block_root x = K.block_root x) ∧
      K2.hash_link_root = K.hash_link_root ∧ (K2.block_root b).hash_link = some h ∧
      (st = PAGE_READ → K2 = K ∧ (K.block_root b).status.error = false) ∧
      (((K2.block_root b).status.error = false ∧ block_ok K2 [] b ∧
        (K2.block_root b).status.read = true ∧ (K2.block_root b).status.for_update = false) ∨
      ((K2.block_root b).status.error = true ∧
        (K2.block_root b).status.in_eviction = false)) := by
  intro K2 hr
  have auxK : AUX K := fd.aux auxA
  have hevK := fd.in_eviction wfA
  unfold key_cache_insert_load at hr
  by_cases herrK : (K.block_root b).status.error = false
  · rw [if_pos herrK] at hr
    rcases fd.cases with hst | hst
    · -- a hit
      subst hst
      obtain ⟨hc, hbk, eKb, eKd, eKl, -⟩ := fd.hit rfl
      have hne : (kA.block_root b).hash_link ≠ none := by
        rw [wfA.hash.link_back h b hbk]; simp
      have hok := wfA.stat.used b hne (by simp)
      have hq := wfA.stat.quiet b hne (by simp)
      rw [if_neg (by simp), if_neg (by simp)] at hr
      have e := (Option.some.inj hr).symm
      rw [e]
      have hbK : block_ok K [] b := by
        unfold block_ok
        rw [eKb, fd.config.2.2.2.2.1]
        exact ok_weaken (bounded_reads.of_same fd.reads.2.2 fd.config.2.2.2.2.1) hok
      exact ⟨fd.wf, auxK, same_config_refl _, fun _ _ => rfl, rfl, fd.hl, fun _ => ⟨rfl, herrK⟩,
        Or.inl ⟨herrK, hbK, by rw [eKb]; exact hq.1, by rw [eKb]; exact hq.2⟩⟩
    · -- a miss
      subst hst
      have hs : (K.block_root b).status = BLOCK_IN_USE := by
        rcases fd.status_cases with e | e
        · exact e
        · rw [e] at herrK
          cases herrK
      by_cases hpart : offset ≠ 0 ∨ rl < K.key_cache_block_size
      · rw [if_pos (Or.inr ⟨rfl, hpart⟩)] at hr
        simp only [decide_True] at hr
        rw [read_block_primary K b h K.key_cache_block_size (rl + offset) fd.hl] at hr
        have e := (Option.some.inj hr).symm
        rw [e]
        have wf2 : WF (read_block_state K b h K.key_cache_block_size (rl + offset))
            (some b) [] := read_block_state_pinned K b h _ _ fd.wf
        have aux2 : AUX (read_block_state K b h K.key_cache_block_size (rl + offset)) :=
          read_block_state_aux K b h _ _ auxK fd.hl (by rw [hs]; rfl)
        obtain ⟨g, hg⟩ : ∃ g, g = (my_pread K.disk (K.hash_link_root h).file
            K.key_cache_block_size (K.hash_link_root h).diskpos).1 := ⟨_, rfl⟩
        have hgle : bounded_reads K → g ≤ K.key_cache_block_size := by
          intro hbK
          rw [hg]
          exact my_pread_le _ _ _ _ _ hbK (le_refl _)
        have e2x : ∀ x, x ≠ b →
            (read_block_state K b h K.key_cache_block_size (rl + offset)).block_root x =
              K.block_root x := by
          intro x hx
          simp only [read_block_state, Function.update_noteq hx]
        refine ⟨wf2, aux2, same_config_refl _, e2x, rfl, ?_, (fun e => by cases e), ?_⟩
        · simp only [read_block_state, Function.update_same]
          split <;> exact fd.hl
        · by_cases hgot : g < rl + offset
          · right
            simp only [read_block_state, Function.update_same, ← hg, if_pos hgot]
            rw [hs]
            exact ⟨trivial, rfl⟩
          · left
            have e2b : ((read_block_state K b h K.key_cache_block_size
                  (rl + offset)).block_root b).status = { read := true, in_use := true } ∧
                ((read_block_state K b h K.key_cache_block_size
                  (rl + offset)).block_root b).length = g := by
              simp only [read_block_state, Function.update_same, ← hg, if_neg hgot]
              rw [hs]
              exact ⟨rfl, trivial⟩
            refine ⟨by rw [e2b.1], ?_, by rw [e2b.1], by rw [e2b.1]⟩
            unfold block_ok
            rw [e2b.1, e2b.2]
            exact ⟨rfl, rfl, rfl, rfl, rfl,
              fun hb => hgle (@bounded_reads.of_same K
                (read_block_state K b h K.key_cache_block_size (rl + offset))
                (my_pread_forced _ _ _ _) rfl hb),
              by simp, by simp⟩
      · -- the caller's data fills the block
        rw [if_neg (by
          intro hcon
          rcases hcon with hcon | hcon
          · cases hcon
          · exact hpart hcon.2), if_pos rfl] at hr
        have e := (Option.some.inj hr).symm
        obtain ⟨K3, hK3⟩ : ∃ K3, K3 = set_block K b
            { K.block_root b with
              buffer := buffer_copy (K.block_root b).buffer offset (buff.take rl)
              status := { (K.block_root b).status with read := true }
              length := rl + offset } := ⟨_, rfl⟩
        rw [← hK3] at e
        rw [e]
        have ho0 : offset = 0 := by
          by_contra hne
          exact hpart (Or.inl hne)
        have e2b : K3.block_root b =
            { K.block_root b with
              buffer := buffer_copy (K.block_root b).buffer offset (buff.take rl)
              status := { (K.block_root b).status with read := true }
              length := rl + offset } := by
          rw [hK3]; simp only [set_block, Function.update_same]
        have wf2 : WF K3 (some b) [] := by
          rw [hK3]; exact fd.wf.set_pinned _ rfl rfl rfl
        have e2x : ∀ x, x ≠ b → K3.block_root x = K.block_root x := by
          intro x hx
          rw [hK3]; simp only [set_block, Function.update_noteq hx]
        have aux2 : AUX K3 := by
          apply @AUX.set_quiet K K3 auxK b (by rw [hK3]; rfl) (by rw [hK3]; rfl)
            (by rw [hK3]; rfl) (by rw [hK3]; rfl)
          · intro x hx
            rw [e2x x hx]
            exact aux_same_refl _
          · rw [e2b]
          · rw [e2b]
          · intro hn
            rw [e2b] at hn
            have hn' : (K.block_root b).hash_link = none := hn
            rw [fd.hl] at hn'
            cases hn'
          · rw [e2b]
            exact auxK.off_le b
          · intro hd
            rw [e2b] at hd
            have hd' : (K.block_root b).status.changed = true := hd
            rw [hs] at hd'
            cases hd'
        have e2s : (K3.block_root b).status = { read := true, in_use := true } := by
          rw [e2b]
          show { (K.block_root b).status with read := true } = _
          rw [hs]; rfl
        have hbok2 : block_ok K3 [] b := by
          unfold block_ok
          rw [e2s, e2b]
          refine ⟨rfl, rfl, rfl, rfl, rfl, ?_, by simp, by simp⟩
          intro hb
          show rl + offset ≤ K3.key_cache_block_size
          rw [hK3]
          show rl + offset ≤ K.key_cache_block_size
          rw [ho0]
          exact hrlle
        exact ⟨wf2, aux2, by rw [hK3]; exact same_config_refl _, e2x, by rw [hK3]; rfl,
          by rw [e2b]; exact fd.hl, (fun e => by cases e),
          Or.inl ⟨by rw [e2s], hbok2, by rw [e2s], by rw [e2s]⟩⟩
  · -- the write back of the victim has failed
    rw [if_neg herrK] at hr
    have e := (Option.some.inj hr).symm
    rw [e]
    have herr' : (K.block_root b).status.error = true := by simpa using herrK
    refine ⟨fd.wf, auxK, same_config_refl _, fun _ _ => rfl, rfl, fd.hl, ?_, Or.inr ⟨herr', hevK⟩⟩
    intro hst
    subst hst
    obtain ⟨-, -, -, -, -, he⟩ := fd.hit rfl
    have : (K.block_root b).status.error = false := by
      obtain ⟨-, -, eKb, -, -, he'⟩ := fd.hit rfl
      rw [eKb]
      exact he'
    exact absurd this herrK

/-- What a pass of `key_cache_insert` does: a pass that fails ends the loop; a
pass that does not fail leaves the page cached in a block without
`BLOCK_ERROR` and the other pages as they were; a pass on a page that is
cached does not fail and leaves all pages as they were. -/
theorem key_cache_insert_chunk_spec (kc : KEY_CACHE) (f filepos level : Nat) (buff : List Nat)
    (offset : Nat) (wf : WF kc none []) (aux : AUX kc) (hu : usable kc)
    (hal : (filepos - offset) % kc.key_cache_block_size = 0) :
    (∀ err kc' more, key_cache_insert_chunk kc f filepos level buff offset =
        some (err, kc', more) →
      (err = true → more = false) ∧
      (err = false →
        more = decide (buff.length - min buff.length (kc.key_cache_block_size - offset) ≠ 0) ∧
        ∃ b h, CHUNK_OK kc kc' f (filepos - offset) b h) ∧
      (∀ h0, cached_at kc f (filepos - offset) h0 → err = false ∧ same_pages kc kc')) ∧
    (∀ h0 b0, cached_at kc f (filepos - offset) h0 → (kc.hash_link_root h0).block = some b0 →
      (kc.block_root b0).status.error = false →
      ∃ r, key_cache_insert_chunk kc f filepos level buff offset = some r) := by
  obtain ⟨kA, hkA⟩ : ∃ kA : KEY_CACHE, kA =
      { kc with
        global_cache_read := kc.global_cache_read + 1
        global_cache_r_requests := kc.global_cache_r_requests + 1 } := ⟨_, rfl⟩
  have wfA : WF kA none [] := by
    rw [hkA]
    exact @WF.congr_wf kc _ none [] wf rfl rfl rfl rfl rfl rfl rfl rfl rfl rfl rfl rfl rfl rfl
      (fun _ => rfl) (fun _ => rfl) (fun _ => rfl) (fun _ => rfl) rfl (fun h => h)
  have auxA : AUX kA := by
    rw [hkA]
    exact @AUX.congr_aux kc _ aux rfl rfl rfl rfl (fun _ => aux_same_refl _)
  have huA : usable kA := by rw [hkA]; exact hu
  have halA : (filepos - offset) % kA.key_cache_block_size = 0 := by rw [hkA]; exact hal
  have cfgA : same_config kc kA := by rw [hkA]; exact same_config_refl kc
  have spA : same_pages kc kA := by
    rw [hkA]
    exact ⟨same_config_refl kc, fun _ => same_core_refl _, rfl, rfl⟩
  obtain ⟨rl, hrl⟩ : ∃ rl, rl = min buff.length (kc.key_cache_block_size - offset) := ⟨_, rfl⟩
  have hrlle : rl ≤ kc.key_cache_block_size := by
    rw [hrl]
    exact le_trans (Nat.min_le_right _ _) (Nat.sub_le _ _)
  unfold key_cache_insert_chunk
  rw [if_neg (by rw [hu.2.1, hu.2.2]; simp), ← hkA, ← hrl]
  rcases find_key_block_spec kA f (filepos - offset) level false wfA huA halA with
    ⟨hnone, hbad⟩ | ⟨b, h, st, K, hfind, fd⟩
  · rw [hnone]
    refine ⟨(fun err kc' more hr => by cases hr), ?_⟩
    intro h0 b0 hc0 hb0 he0
    exfalso
    rcases hbad with ⟨h', b', hc', hb', he'⟩ | ⟨hm, -, -⟩
    · have e := wfA.hash.uniq h' h0 hc'.1 (by rw [hkA]; exact hc0.1)
        (by rw [hc'.2.1, hkA]; exact hc0.2.1.symm) (by rw [hc'.2.2, hkA]; exact hc0.2.2.symm)
      subst e
      rw [hkA] at hb' he'
      have hb'' : (kc.hash_link_root h').block = some b' := hb'
      rw [hb0] at hb''
      have e2 := Option.some.inj hb''
      subst e2
      have he'' : (kc.block_root b0).status.error = true := he'
      rw [he0] at he''
      cases he''
    · exact hm h0 (by rw [hkA]; exact hc0.1) (by rw [hkA]; exact ⟨hc0.2.1, hc0.2.2⟩)
  rw [hfind, Option.some_bind]
  simp only []
  have ebs : K.key_cache_block_size = kc.key_cache_block_size := by
    have := fd.config.2.2.2.2.1
    rw [this, hkA]
  have hstc : ∀ h0, cached_at kc f (filepos - offset) h0 → st = PAGE_READ := by
    intro h0 hc0
    rcases fd.cases with e | e
    · exact e
    · exfalso
      obtain ⟨hm, -⟩ := fd.miss e
      exact hm h0 (by rw [hkA]; exact hc0.1) (by rw [hkA]; exact ⟨hc0.2.1, hc0.2.2⟩)
  have lsp := key_cache_insert_load_spec kA K f (filepos - offset) b h rl offset buff st wfA auxA
    fd (by rw [ebs]; exact hrlle)
  cases hl : key_cache_insert_load K b st buff rl offset with
  | none =>
    rw [Option.none_bind]
    refine ⟨(fun err kc' more hr => by cases hr), ?_⟩
    intro h0 b0 hc0 hb0 he0
    exfalso
    have hst := hstc h0 hc0
    subst hst
    obtain ⟨-, -, eKb, -, -, he⟩ := fd.hit rfl
    unfold key_cache_insert_load at hl
    rw [if_pos (by rw [eKb]; exact he), if_neg (by simp), if_neg (by simp)] at hl
    cases hl
  | some K2 =>
    rw [Option.some_bind]
    obtain ⟨wf2, aux2, e2c, e2x, e2l, hh2, hhit, hcase⟩ := lsp K2 hl
    have hreq2 : (K2.hash_link_root h).requests = 1 := by rw [e2l, fd.link]
    rcases hcase with ⟨herr, hbok, hread, hupd⟩ | ⟨herr, hev⟩
    · obtain ⟨br, ring, ins, w, hrem, hunreg, hperm, hcore, wf3⟩ :=
        release_spec K2 b h true wf2 hh2 hreq2 hbok herr hread hupd
      have e : ((set_hash_link K2 h { K2.hash_link_root h with requests := 0 }).block_root
          b).status.error = false := herr
      rw [hrem, Option.some_bind, if_pos e, hunreg, Option.map_some']
      refine ⟨?_, fun _ _ _ _ _ => ⟨_, rfl⟩⟩
      intro err kc' more hr
      have e1 := Option.some.inj hr
      have e2 : false = err := congrArg (fun r => r.1) e1
      have e3 : lru_set (set_hash_link K2 h { K2.hash_link_root h with requests := 0 })
          br ring ins (K2.keycache_time + 1) w = kc' := congrArg (fun r => r.2.1) e1
      have e4 : decide (buff.length - rl ≠ 0) = more := congrArg (fun r => r.2.2) e1
      have cok := chunk_ok_of_release kA K K2 f (filepos - offset) b h (K2.keycache_time + 1) w
        st br ring ins fd wfA e2x e2l e2c herr hcore wf3
      rw [e3] at cok
      refine ⟨(fun he => by rw [← e2] at he; cases he), fun _ => ⟨e4.symm, b, h,
        ⟨cok.wf, same_config_trans cfgA cok.config, cok.cached, cok.block, cok.noerr,
          ?_, ?_, ?_⟩⟩, ?_⟩
      · intro x hx
        have := cok.others x hx
        rw [hkA] at this
        exact this
      · intro y hy hyb
        have := cok.links y hy hyb
        rw [hkA] at this
        exact this
      · intro x y hx hy
        have := cok.kept x y hx (by rw [hkA]; exact hy)
        rw [hkA] at this
        exact this
      · intro h0 hc0
        have hst := hstc h0 hc0
        subst hst
        obtain ⟨eK, -⟩ := hhit rfl
        rw [eK] at hcore e3
        have sp := same_pages_of_hit kA K f (filepos - offset) b h (K.keycache_time + 1) w br ring
          ins fd wfA hcore
        rw [e3] at sp
        exact ⟨e2.symm, same_pages_trans spA sp⟩
    · obtain ⟨Kr, K', hrem, herr', hfree, wf', aux', cfg⟩ :=
        free_inv K2 b h wf2 aux2 hh2 hreq2 hev
      rw [hrem, Option.some_bind, if_neg (by rw [herr', herr]; simp), hfree, Option.map_some']
      refine ⟨?_, fun _ _ _ _ _ => ⟨_, rfl⟩⟩
      intro err kc' more hr
      have e1 := Option.some.inj hr
      have e2 : true = err := congrArg (fun r => r.1) e1
      have e4 : false = more := congrArg (fun r => r.2.2) e1
      refine ⟨fun _ => e4.symm, (fun he => by rw [← e2] at he; cases he), ?_⟩
      intro h0 hc0
      exfalso
      have hst := hstc h0 hc0
      subst hst
      obtain ⟨eK, heK⟩ := hhit rfl
      rw [eK, heK] at herr
      cases herr

theorem healthy_of_same_pages {kc kc' : KEY_CACHE} (sp : same_pages kc kc') (f p : Nat)
    (hs : healthy kc f p) : healthy kc' f p := by
  have ebs : kc'.key_cache_block_size = kc.key_cache_block_size := sp.1.2.2.2.2.1
  intro h b hc hb
  rw [ebs] at hc
  have hc' := (cached_at_of_same_pages sp f _ h).1 hc
  rw [sp.2.2.1] at hb
  rw [(sp.2.1 b).2.2.2.2.1]
  exact hs h b hc' hb

theorem healthy_of_chunk_ok {kc kc' : KEY_CACHE} {f key b h : Nat}
    (ok : CHUNK_OK kc kc' f key b h) (f' p : Nat)
    (hne : ¬ (f' = f ∧ p - p % kc.key_cache_block_size = key))
    (hs : healthy kc f' p) : healthy kc' f' p := by
  have ebs : kc'.key_cache_block_size = kc.key_cache_block_size := ok.config.2.2.2.2.1
  intro y x hc hx
  rw [ebs] at hc
  have hyh : y ≠ h := by
    intro e
    subst e
    exact hne ⟨hc.2.1.symm.trans ok.cached.2.1, hc.2.2.symm.trans ok.cached.2.2⟩
  have el := ok.links y hyh hc.1
  have hxb : x ≠ b := by
    intro e
    subst e
    have e1 := ok.wf.hash.link_back y x hx
    have e2 := ok.wf.hash.link_back h x ok.block
    rw [e1] at e2
    exact hyh (Option.some.inj e2)
  obtain ⟨-, -, -, -, c5, -⟩ := ok.others x hxb
  have hc' : cached_at kc f' (p - p % kc.key_cache_block_size) y := by
    unfold cached_at at hc ⊢
    rw [← el]
    exact hc
  rw [c5]
  exact hs y x hc' (by rw [← el]; exact hx)

/-- The loop of `key_cache_insert`, when it succeeds: the pages of the range
that are cached afterwards are in blocks without `BLOCK_ERROR`. -/
theorem key_cache_insert_loop_healthy : ∀ (fuel : Nat) (kc : KEY_CACHE) (f filepos level : Nat)
    (buff : List Nat) (offset : Nat) (kc1 : KEY_CACHE),
    WF kc none [] → AUX kc → usable kc →
    offset = filepos % kc.key_cache_block_size →
    key_cache_insert_loop fuel kc f filepos level buff offset = some (false, kc1) →
    WF kc1 none [] ∧ AUX kc1 ∧ same_config kc kc1 ∧
    (∀ j, j < buff.length → healthy kc1 f (filepos + j)) ∧
    (∀ f' p, (f' ≠ f ∨ p - p % kc.key_cache_block_size <
        filepos - filepos % kc.key_cache_block_size) →
      healthy kc f' p → healthy kc1 f' p) ∧
    (buff.length ≤ kc.key_cache_block_size - offset →
      ∃ h b, cached_at kc1 f (filepos - offset) h ∧ (kc1.hash_link_root h).block = some b ∧
        (kc1.block_root b).status.error = false) := by
  intro fuel
  induction fuel with
  | zero =>
    intro kc f filepos level buff offset kc1 _ _ _ _ hr
    rw [key_cache_insert_loop] at hr
    cases hr
  | succ fuel ih =>
    intro kc f filepos level buff offset kc1 wf aux hu ho hr
    rw [key_cache_insert_loop] at hr
    have hbs : 0 < kc.key_cache_block_size := wf.cnt.bs_pos
    have hlt : offset < kc.key_cache_block_size := by rw [ho]; exact Nat.mod_lt _ hbs
    have hle : offset ≤ filepos := by rw [ho]; exact Nat.mod_le _ _
    have hal : (filepos - offset) % kc.key_cache_block_size = 0 := by
      rw [ho]
      exact Nat.sub_mod_eq_zero_of_mod_eq (by rw [Nat.mod_mod])
    cases hc : key_cache_insert_chunk kc f filepos level buff offset with
    | none =>
      rw [hc] at hr
      cases hr
    | some c =>
      obtain ⟨err, kc', more⟩ := c
      rw [hc, Option.some_bind] at hr
      obtain ⟨wf', aux', cfg, -⟩ :=
        key_cache_insert_chunk_inv kc f filepos level buff offset wf aux hu hal _ hc
      obtain ⟨hlast, hok, -⟩ :=
        (key_cache_insert_chunk_spec kc f filepos level buff offset wf aux hu hal).1 err kc' more
          hc
      have ebs : kc'.key_cache_block_size = kc.key_cache_block_size := cfg.2.2.2.2.1
      have herr : err = false := by
        cases err with
        | false => rfl
        | true =>
          have hm := hlast rfl
          subst hm
          simp only [Bool.false_eq_true, if_false] at hr
          cases hr
      subst herr
      obtain ⟨hmore, b, h, ok⟩ := hok rfl
      have hsv : ∀ j, j < min buff.length (kc.key_cache_block_size - offset) →
          healthy kc' f (filepos + j) := by
        intro j hj y x hcy hx
        have hjb : j < kc.key_cache_block_size - offset :=
          lt_of_lt_of_le hj (Nat.min_le_right _ _)
        rw [ebs] at hcy
        obtain ⟨m1, m2⟩ := mod_add_of_lt filepos j kc.key_cache_block_size (by rw [← ho]; omega)
        rw [m2, ← ho] at hcy
        have hy : y = h := ok.wf.hash.uniq y h hcy.1 ok.cached.1
          (hcy.2.1.trans ok.cached.2.1.symm) (hcy.2.2.trans ok.cached.2.2.symm)
        subst hy
        rw [ok.block] at hx
        have hxb : b = x := Option.some.inj hx
        subst hxb
        exact ok.noerr
      have hframe : ∀ f' p, (f' ≠ f ∨ p - p % kc.key_cache_block_size <
          filepos - filepos % kc.key_cache_block_size) →
          healthy kc f' p → healthy kc' f' p := by
        intro f' p hne hs
        refine healthy_of_chunk_ok ok f' p ?_ hs
        rintro ⟨e1, e2⟩
        rcases hne with hne | hne
        · exact hne e1
        · rw [← ho] at hne
          omega
      cases more with
      | false =>
        simp only [Bool.false_eq_true, if_false] at hr
        have e := Option.some.inj hr
        have e2 : kc' = kc1 := congrArg Prod.snd e
        subst e2
        have hz : buff.length - min buff.length (kc.key_cache_block_size - offset) = 0 := by
          by_contra hne
          have : decide (buff.length - min buff.length (kc.key_cache_block_size - offset) ≠ 0)
              = true := decide_eq_true hne
          rw [← hmore] at this
          cases this
        have hmin : min buff.length (kc.key_cache_block_size - offset) = buff.length := by omega
        rw [hmin] at hsv
        exact ⟨wf', aux', cfg, hsv, hframe, fun _ => ⟨h, b, ok.cached, ok.block, ok.noerr⟩⟩
      | true =>
        simp only [if_true] at hr
        have hnz : buff.length - min buff.length (kc.key_cache_block_size - offset) ≠ 0 := by
          have : decide (buff.length - min buff.length (kc.key_cache_block_size - offset) ≠ 0)
              = true := hmore.symm
          exact of_decide_eq_true this
        have hmin : min buff.length (kc.key_cache_block_size - offset) =
            kc.key_cache_block_size - offset := by omega
        rw [hmin] at hr hsv
        have e0' : (filepos - offset + (kc.key_cache_block_size - offset + offset)) %
            kc.key_cache_block_size = 0 := by
          rw [Nat.sub_add_cancel (le_of_lt hlt), Nat.add_mod, hal, Nat.mod_self]
          rfl
        have e0 : (filepos - offset + (kc.key_cache_block_size - offset + offset)) %
            kc'.key_cache_block_size = 0 := by
          rw [ebs]
          exact e0'
        obtain ⟨w1, a1, c1, s1, f1, -⟩ := ih kc' f _ level _ 0 kc1 wf' aux'
          (usable_of_config cfg hu) e0.symm hr
        have efp : filepos - offset + (kc.key_cache_block_size - offset + offset) =
            filepos + (kc.key_cache_block_size - offset) := by omega
        rw [List.length_drop] at s1
        refine ⟨w1, a1, same_config_trans cfg c1, ?_, ?_, ?_⟩
        · intro j hj
          by_cases hjr : j < kc.key_cache_block_size - offset
          · refine f1 f (filepos + j) (Or.inr ?_) (hsv j hjr)
            rw [ebs, e0']
            obtain ⟨m1, m2⟩ := mod_add_of_lt filepos j kc.key_cache_block_size
              (by rw [← ho]; omega)
            rw [m2, ← ho]
            omega
          · have h1 := s1 (j - (kc.key_cache_block_size - offset)) (by omega)
            rw [efp] at h1
            have e1 : filepos + (kc.key_cache_block_size - offset) +
                (j - (kc.key_cache_block_size - offset)) = filepos + j := by omega
            rw [e1] at h1
            exact h1
        · intro f' p hne hs
          refine f1 f' p ?_ (hframe f' p hne hs)
          rcases hne with hne | hne
          · exact Or.inl hne
          · right
            rw [ebs, e0']
            rw [← ho] at hne
            omega
        · intro hh
          exfalso
          omega

/-- The loop of `key_cache_insert` over a range whose pages are all cached in
blocks without `BLOCK_ERROR`: it succeeds and leaves the pages as they are. -/
theorem key_cache_insert_loop_hot : ∀ (fuel : Nat) (kc : KEY_CACHE) (f filepos level : Nat)
    (buff : List Nat) (offset : Nat),
    buff.length < fuel → WF kc none [] → AUX kc → usable kc →
    offset = filepos % kc.key_cache_block_size →
    (∃ h b, cached_at kc f (filepos - offset) h ∧ (kc.hash_link_root h).block = some b ∧
      (kc.block_root b).status.error = false) →
    (∀ j, j < buff.length →
      ∃ h, cached_at kc f (filepos + j - (filepos + j) % kc.key_cache_block_size) h) →
    (∀ j, j < buff.length → healthy kc f (filepos + j)) →
    ∃ kc2, key_cache_insert_loop fuel kc f filepos level buff offset = some (false, kc2) ∧
      WF kc2 none [] ∧ AUX kc2 ∧ same_pages kc kc2 := by
  intro fuel
  induction fuel with
  | zero =>
    intro kc f filepos level buff offset hf
    cases hf
  | succ fuel ih =>
    intro kc f filepos level buff offset hf wf aux hu ho hcur hot hsv
    rw [key_cache_insert_loop]
    have hbs : 0 < kc.key_cache_block_size := wf.cnt.bs_pos
    have hlt : offset < kc.key_cache_block_size := by rw [ho]; exact Nat.mod_lt _ hbs
    have hle : offset ≤ filepos := by rw [ho]; exact Nat.mod_le _ _
    have hal : (filepos - offset) % kc.key_cache_block_size = 0 := by
      rw [ho]
      exact Nat.sub_mod_eq_zero_of_mod_eq (by rw [Nat.mod_mod])
    obtain ⟨h0, b0, hc0, hb0, he0⟩ := hcur
    obtain ⟨hspec, hex⟩ := key_cache_insert_chunk_spec kc f filepos level buff offset wf aux hu hal
    obtain ⟨c, hc⟩ := hex h0 b0 hc0 hb0 he0
    obtain ⟨err, kc', more⟩ := c
    obtain ⟨wf', aux', cfg, -⟩ :=
      key_cache_insert_chunk_inv kc f filepos level buff offset wf aux hu hal _ hc
    obtain ⟨-, hok, hhit⟩ := hspec err kc' more hc
    obtain ⟨herr, sp⟩ := hhit h0 hc0
    subst herr
    obtain ⟨hmore, -⟩ := hok rfl
    have ebs : kc'.key_cache_block_size = kc.key_cache_block_size := cfg.2.2.2.2.1
    rw [hc, Option.some_bind]
    cases more with
    | false =>
      simp only [Bool.false_eq_true, if_false]
      exact ⟨kc', rfl, wf', aux', sp⟩
    | true =>
      simp only [if_true]
      have hnz : buff.length - min buff.length (kc.key_cache_block_size - offset) ≠ 0 := by
        have : decide (buff.length - min buff.length (kc.key_cache_block_size - offset) ≠ 0)
            = true := hmore.symm
        exact of_decide_eq_true this
      have hmin : min buff.length (kc.key_cache_block_size - offset) =
          kc.key_cache_block_size - offset := by omega
      rw [hmin]
      have efp : filepos - offset + (kc.key_cache_block_size - offset + offset) =
          filepos + (kc.key_cache_block_size - offset) := by omega
      have e0' : (filepos + (kc.key_cache_block_size - offset)) %
          kc.key_cache_block_size = 0 := by
        rw [← efp, Nat.sub_add_cancel (le_of_lt hlt), Nat.add_mod, hal, Nat.mod_self]
        rfl
      rw [efp]
      have hlen' : 0 < buff.length - (kc.key_cache_block_size - offset) := by omega
      have hdl : (buff.drop (kc.key_cache_block_size - offset)).length =
          buff.length - (kc.key_cache_block_size - offset) := List.length_drop _ _
      have hot' : ∀ j, j < (buff.drop (kc.key_cache_block_size - offset)).length →
          ∃ h, cached_at kc' f (filepos + (kc.key_cache_block_size - offset) + j -
            (filepos + (kc.key_cache_block_size - offset) + j) % kc'.key_cache_block_size) h := by
        intro j hj
        rw [hdl] at hj
        obtain ⟨y, hy⟩ := hot (kc.key_cache_block_size - offset + j) (by omega)
        rw [← Nat.add_assoc] at hy
        exact ⟨y, by rw [ebs]; exact (cached_at_of_same_pages sp f _ y).2 hy⟩
      have hsv' : ∀ j, j < (buff.drop (kc.key_cache_block_size - offset)).length →
          healthy kc' f (filepos + (kc.key_cache_block_size - offset) + j) := by
        intro j hj
        rw [hdl] at hj
        have := healthy_of_same_pages sp f _ (hsv (kc.key_cache_block_size - offset + j)
          (by omega))
        rw [← Nat.add_assoc] at this
        exact this
      have hcur' : ∃ h b, cached_at kc' f (filepos + (kc.key_cache_block_size - offset) - 0) h ∧
          (kc'.hash_link_root h).block = some b ∧ (kc'.block_root b).status.error = false := by
        obtain ⟨y, hy⟩ := hot' 0 (by rw [hdl]; exact hlen')
        rw [Nat.add_zero, ebs, e0'] at hy
        cases hx : (kc'.hash_link_root y).block with
        | none => exact absurd hx hy.1
        | some x =>
          exact ⟨y, x, hy, hx,
            hsv' 0 (by rw [hdl]; exact hlen') y x (by rw [Nat.add_zero, ebs, e0']; exact hy) hx⟩
      obtain ⟨kc2, hloop, w2, a2, sp2⟩ := ih kc' f
        (filepos + (kc.key_cache_block_size - offset)) level
        (buff.drop (kc.key_cache_block_size - offset)) 0
        (by rw [hdl]; omega) wf' aux' (usable_of_config cfg hu)
        (by rw [ebs, e0']) hcur' hot' hsv'
      exact ⟨kc2, hloop, w2, a2, same_pages_trans sp sp2⟩

theorem on_disk_congr {d d' : DISK} (hd : d'.data = d.data) (hs : d'.size = d.size)
    (f q v : Nat) (h : on_disk d f q v) : on_disk d' f q v := by
  unfold on_disk at h ⊢
  rw [hd, hs]
  exact h

theorem my_pread_data (d : DISK) (f c p : Nat) :
    (my_pread d f c p).2.2.data = d.data ∧ (my_pread d f c p).2.2.size = d.size ∧
    (my_pread d f c p).2.2.pwrite_errno = d.pwrite_errno ∧
    (my_pread d f c p).2.2.pread_forced = d.pread_forced := by
  unfold my_pread
  split <;> exact ⟨rfl, rfl, rfl, rfl⟩

theorem my_pwrite_oracles (d : DISK) (f : Nat) (buf : List Nat) (p : Nat) :
    (my_pwrite d f buf p).2.pwrite_errno = d.pwrite_errno ∧
    (my_pwrite d f buf p).2.pread_forced = d.pread_forced := by
  unfold my_pwrite
  split <;> exact ⟨rfl, rfl⟩

/-- A write to the file leaves the bytes outside the range written. -/
theorem on_disk_pwrite_other (d : DISK) (file : Nat) (buf : List Nat) (pos f q v : Nat)
    (h : on_disk d f q v) (hne : ¬ (f = file ∧ pos ≤ q ∧ q < pos + buf.length)) :
    on_disk (my_pwrite d file buf pos).2 f q v := by
  obtain ⟨h1, h2⟩ := h
  unfold my_pwrite
  split
  · exact ⟨h1, h2⟩
  · refine ⟨?_, ?_⟩
    · show q < (if f = file ∧ buf.length ≠ 0 then max (d.size f) (pos + buf.length)
        else d.size f)
      split
      · exact lt_of_lt_of_le h1 (Nat.le_max_left _ _)
      · exact h1
    · show (if f = file ∧ pos ≤ q ∧ q < pos + buf.length then buf.getD (q - pos) 0
        else if f = file ∧ buf.length ≠ 0 ∧ d.size file ≤ q ∧ q < pos then 0
        else d.data f q) = v
      rw [if_neg hne, if_neg]
      · exact h2
      · rintro ⟨e, -, h3, -⟩
        rw [← e] at h3
        omega

/-- A write to the file that does not fail puts its bytes there. -/
theorem on_disk_pwrite_in (d : DISK) (file : Nat) (buf : List Nat) (pos q : Nat)
    (hok : d.pwrite_errno d.pwrites.length = none) (h1 : pos ≤ q) (h2 : q < pos + buf.length) :
    on_disk (my_pwrite d file buf pos).2 file q (buf.getD (q - pos) 0) := by
  unfold my_pwrite
  rw [hok]
  refine ⟨?_, ?_⟩
  · show q < (if file = file ∧ buf.length ≠ 0 then max (d.size file) (pos + buf.length)
      else d.size file)
    rw [if_pos ⟨rfl, by omega⟩]
    exact lt_of_lt_of_le h2 (Nat.le_max_right _ _)
  · show (if file = file ∧ pos ≤ q ∧ q < pos + buf.length then buf.getD (q - pos) 0
      else if file = file ∧ buf.length ≠ 0 ∧ d.size file ≤ q ∧ q < pos then 0
      else d.data file q) = _
    rw [if_pos ⟨rfl, h1, h2⟩]

theorem buffer_bytes_length (buf : Nat → Nat) (off n : Nat) :
    (buffer_bytes buf off n).length = n := by
  simp [buffer_bytes]

theorem buffer_bytes_getD (buf : Nat → Nat) (off n i : Nat) (h : i < n) :
    (buffer_bytes buf off n).getD i 0 = buf (off + i) := by
  unfold buffer_bytes
  rw [List.getD_eq_getElem?_getD, List.getElem?_map, List.getElem?_range h]
  rfl

/-- The position `q` lies in the page that starts at `key`. -/
theorem page_of_mem (bs key q : Nat) (hal : key % bs = 0) (h1 : key ≤ q)
    (h2 : q < key + bs) : q - q % bs = key ∧ q % bs = q - key := by
  have hq : q = key + (q - key) := by omega
  have hm : q % bs = q - key := by
    conv_lhs => rw [hq]
    rw [Nat.add_mod, hal, Nat.zero_add, Nat.mod_mod, Nat.mod_eq_of_lt (by omega)]
  exact ⟨by rw [hm]; omega, hm⟩

/-- Taking a block for a new page leaves the bytes of the file that do not
belong to the page the block held. -/
theorem on_disk_taken_other (kc : KEY_CACHE) (b : Nat) (D : DISK) (f q v : Nat)
    (wf : WF kc none []) (hb : bounded_reads kc) (ht : taken kc b D)
    (hne : ∀ y, (kc.block_root b).hash_link = some y →
      ¬ ((kc.hash_link_root y).file = f ∧
        (kc.hash_link_root y).diskpos = q - q % kc.key_cache_block_size))
    (h : on_disk kc.disk f q v) : on_disk D f q v := by
  rcases ht with ⟨-, -, hd⟩ | ⟨old, rest, -, -, hh, -, hd⟩
  · rw [hd]
    exact h
  · rw [hd]
    split
    · unfold evict_pwrite
      apply on_disk_pwrite_other _ _ _ _ _ _ _ h
      rintro ⟨e1, e2, e3⟩
      rw [buffer_bytes_length] at e3
      have hbn : (kc.block_root b).hash_link ≠ none := by rw [hh]; simp
      have hok := wf.stat.used b hbn (by simp)
      have hlen : (kc.block_root b).length ≤ kc.key_cache_block_size := hok.2.2.2.2.2.1 hb
      have hal := wf.hash.aligned old (by rw [wf.hash.back b old hh]; simp)
      have hbs := wf.cnt.bs_pos
      have := page_of_mem kc.key_cache_block_size (kc.hash_link_root old).diskpos q hal
        (by omega) (by omega)
      exact hne old hh ⟨e1.symm, this.1.symm⟩
    · exact h

/-- Taking a block for a new page leaves in the file what a reader got from
the page the block held. -/
theorem on_disk_taken_same (kc : KEY_CACHE) (b y : Nat) (D : DISK) (q v : Nat)
    (ht : taken kc b D)
    (hh : (kc.block_root b).hash_link = some y)
    (hpage : (kc.hash_link_root y).diskpos = q - q % kc.key_cache_block_size)
    (hlen : q % kc.key_cache_block_size < (kc.block_root b).length)
    (hbuf : (kc.block_root b).buffer (q % kc.key_cache_block_size) = v)
    (hback : ((kc.block_root b).status.changed = true ∧
        (kc.block_root b).offset ≤ q % kc.key_cache_block_size) ∨
      on_disk kc.disk (kc.hash_link_root y).file q v) :
    on_disk D (kc.hash_link_root y).file q v := by
  have hq : q = (kc.hash_link_root y).diskpos + q % kc.key_cache_block_size := by
    rw [hpage]
    have := Nat.mod_le q kc.key_cache_block_size
    omega
  rcases ht with ⟨-, hn, -⟩ | ⟨old, rest, -, -, hh', herr, hd⟩
  · rw [hn] at hh
    cases hh
  · rw [hh] at hh'
    have e := Option.some.inj hh'
    subst e
    rw [hd]
    by_cases hc : (kc.block_root b).status.changed = true
    · rw [if_pos hc]
      have hok : kc.disk.pwrite_errno kc.disk.pwrites.length = none := by
        unfold evict_error at herr
        rw [if_pos hc] at herr
        unfold evict_pwrite my_pwrite at herr
        cases hp : kc.disk.pwrite_errno kc.disk.pwrites.length with
        | none => rfl
        | some e =>
          rw [hp] at herr
          cases herr
      by_cases ho : (kc.block_root b).offset ≤ q % kc.key_cache_block_size
      · unfold evict_pwrite
        have := on_disk_pwrite_in kc.disk (kc.hash_link_root y).file
          (buffer_bytes (kc.block_root b).buffer (kc.block_root b).offset
            ((kc.block_root b).length - (kc.block_root b).offset))
          ((kc.hash_link_root y).diskpos + (kc.block_root b).offset) q hok (by omega)
          (by rw [buffer_bytes_length]; omega)
        rw [buffer_bytes_getD _ _ _ _ (by omega)] at this
        have e2 : (kc.block_root b).offset +
            (q - ((kc.hash_link_root y).diskpos + (kc.block_root b).offset)) =
            q % kc.key_cache_block_size := by omega
        rw [e2, hbuf] at this
        exact this
      · rcases hback with ⟨-, h2⟩ | h2
        · exact absurd h2 ho
        · unfold evict_pwrite
          apply on_disk_pwrite_other _ _ _ _ _ _ _ h2
          rintro ⟨-, e2, -⟩
          omega
    · rw [if_neg hc]
      rcases hback with ⟨h1, -⟩ | h2
      · exact absurd h1 hc
      · exact h2

/-- A pass of a read or a write on one page leaves what a reader gets from
every other page: the pass has found its page in the cache and has left the
file alone, or it has taken a block for the page, and the page that block held
is in the file. -/
theorem holds_frame {kc kc' : KEY_CACHE} {f key b h : Nat} (wf : WF kc none [])
    (hbr : bounded_reads kc) (ok : CHUNK_OK kc kc' f key b h)
    (hds : (∃ h0, cached_at kc f key h0 ∧ (kc.hash_link_root h0).block = some b ∧
        kc'.disk.data = kc.disk.data ∧ kc'.disk.size = kc.disk.size) ∨
      (not_cached kc f key ∧ ∃ D, taken kc b D ∧ kc'.disk.data = D.data ∧
        kc'.disk.size = D.size))
    (f' q v : Nat) (hne : ¬ (f' = f ∧ q - q % kc.key_cache_block_size = key))
    (hs : holds kc f' q v) : holds kc' f' q v := by
  have ebs : kc'.key_cache_block_size = kc.key_cache_block_size := ok.config.2.2.2.2.1
  -- the file keeps the byte unless the block taken held its page
  have keep : (∀ y, (kc.block_root b).hash_link = some y →
        ¬ ((kc.hash_link_root y).file = f' ∧
          (kc.hash_link_root y).diskpos = q - q % kc.key_cache_block_size)) →
      on_disk kc.disk f' q v → on_disk kc'.disk f' q v := by
    intro hb hd
    rcases hds with ⟨h0, -, -, e1, e2⟩ | ⟨-, D, ht, e1, e2⟩
    · exact on_disk_congr e1 e2 _ _ _ hd
    · exact on_disk_congr e1 e2 _ _ _ (on_disk_taken_other kc b D f' q v wf hbr ht hb hd)
  unfold holds
  rw [ebs]
  constructor
  · intro y x hc hx
    have hyh : y ≠ h := by
      intro e
      subst e
      exact hne ⟨hc.2.1.symm.trans ok.cached.2.1, hc.2.2.symm.trans ok.cached.2.2⟩
    have el := ok.links y hyh hc.1
    have hxb : x ≠ b := by
      intro e
      subst e
      have e1 := ok.wf.hash.link_back y x hx
      have e2 := ok.wf.hash.link_back h x ok.block
      rw [e1] at e2
      exact hyh (Option.some.inj e2)
    obtain ⟨-, c2, c3, c4, c5, -⟩ := ok.others x hxb
    have hc' : cached_at kc f' (q - q % kc.key_cache_block_size) y := by
      unfold cached_at at hc ⊢
      rw [← el]
      exact hc
    have hx' : (kc.hash_link_root y).block = some x := by rw [← el]; exact hx
    obtain ⟨h1, h2, h3, h4⟩ := hs.1 y x hc' hx'
    rw [c2, c3, c4, c5]
    refine ⟨h1, h2, h3, ?_⟩
    rcases h4 with h4 | h4
    · exact Or.inl h4
    · right
      apply keep _ h4
      intro y' hy' hrec
      have hby' : (kc.hash_link_root y').block = some b := wf.hash.back b y' hy'
      have e := wf.hash.uniq y' y (by rw [hby']; simp) hc'.1 (hrec.1.trans hc'.2.1.symm)
        (hrec.2.trans hc'.2.2.symm)
      rw [e, hx'] at hby'
      exact hxb (Option.some.inj hby')
  · intro hm'
    rcases not_cached_or kc f' (q - q % kc.key_cache_block_size) with hm | ⟨y, hc⟩
    · apply keep _ (hs.2 hm)
      intro y' hy' hrec
      have hby' : (kc.hash_link_root y').block = some b := wf.hash.back b y' hy'
      exact hm y' (by rw [hby']; simp) hrec
    · cases hx : (kc.hash_link_root y).block with
      | none => exact absurd hx hc.1
      | some x =>
        have hxl : (kc.block_root x).hash_link = some y := wf.hash.link_back y x hx
        by_cases hxb : x = b
        · subst hxb
          obtain ⟨-, h2, h3, h4⟩ := hs.1 y x hc hx
          rcases hds with ⟨h0, hc0, hb0, -, -⟩ | ⟨-, D, ht, e1, e2⟩
          · exfalso
            have e := wf.hash.link_back h0 x hb0
            rw [hxl] at e
            have e' : y = h0 := Option.some.inj e
            subst e'
            exact hne ⟨hc.2.1.symm.trans hc0.2.1, hc.2.2.symm.trans hc0.2.2⟩
          · have := on_disk_taken_same kc x y D q v ht hxl hc.2.2 h2 h3
              (by rw [hc.2.1]; exact h4)
            rw [hc.2.1] at this
            exact on_disk_congr e1 e2 _ _ _ this
        · exfalso
          have hk := ok.kept x y hxb hxl
          exact hm' y (by rw [hk]; exact hc.1) (by rw [hk]; exact ⟨hc.2.1, hc.2.2⟩)

theorem taken_oracles (kc : KEY_CACHE) (b : Nat) (D : DISK) (ht : taken kc b D) :
    D.pwrite_errno = kc.disk.pwrite_errno ∧ D.pread_forced = kc.disk.pread_forced := by
  rcases ht with ⟨-, -, hd⟩ | ⟨old, rest, -, -, -, -, hd⟩
  · rw [hd]
    exact ⟨rfl, rfl⟩
  · rw [hd]
    split
    · exact my_pwrite_oracles _ _ _ _
    · exact ⟨rfl, rfl⟩

/-- A pass of a buffered `key_cache_write` that fails ends the loop. -/
theorem key_cache_write_chunk_last (kc : KEY_CACHE) (f filepos level : Nat) (buff : List Nat)
    (offset : Nat) (wf : WF kc none []) (hu : usable kc)
    (hal : (filepos - offset) % kc.key_cache_block_size = 0) (kc' : KEY_CACHE) (m : Bool)
    (h : key_cache_write_chunk kc f filepos level buff offset true false =
      some (true, kc', m)) : m = false := by
  obtain ⟨kA, hkA⟩ : ∃ kA : KEY_CACHE, kA =
      { kc with global_cache_w_requests := kc.global_cache_w_requests + 1 } := ⟨_, rfl⟩
  have wfA : WF kA none [] := by
    rw [hkA]
    exact @WF.congr_wf kc _ none [] wf rfl rfl rfl rfl rfl rfl rfl rfl rfl rfl rfl rfl rfl rfl
      (fun _ => rfl) (fun _ => rfl) (fun _ => rfl) (fun _ => rfl) rfl (fun h => h)
  have huA : usable kA := by rw [hkA]; exact hu
  have halA : (filepos - offset) % kA.key_cache_block_size = 0 := by rw [hkA]; exact hal
  rcases find_key_block_spec kA f (filepos - offset) level true wfA huA halA with
    ⟨hnone, -⟩ | ⟨b, hl, st, K, hfind, -⟩
  · exfalso
    unfold key_cache_write_chunk at h
    rw [if_neg (by rw [hu.2.1]; simp)] at h
    simp only [] at h
    rw [← hkA, hnone] at h
    cases h
  · rw [hkA] at hfind
    rw [key_cache_write_chunk_found kc K f filepos level offset b buff true false st hu.2.1
      hfind] at h
    cases h1 : key_cache_write_load K b st (min buff.length (kc.key_cache_block_size - offset))
        offset with
    | none => rw [h1] at h; cases h
    | some k1 =>
      rw [h1, Option.some_bind] at h
      cases h2 : key_cache_write_store k1 b
          (buff.take (min buff.length (kc.key_cache_block_size - offset)))
          (min buff.length (kc.key_cache_block_size - offset)) offset true with
      | none => rw [h2] at h; cases h
      | some k4 =>
        rw [h2, Option.some_bind] at h
        unfold key_cache_write_finish at h
        cases hr : remove_reader k4 b with
        | none => rw [hr] at h; cases h
        | some k5 =>
          rw [hr, Option.some_bind] at h
          by_cases he : (k5.block_root b).status.error = false
          · rw [if_pos he] at h
            cases hu' : unreg_request k5 b true with
            | none => rw [hu'] at h; cases h
            | some k6 => rw [hu', Option.map_some'] at h; cases h
          · rw [if_neg he] at h
            cases hf : free_block (set_status k5 b
                { (k5.block_root b).status with changed := false }) b with
            | none => rw [hf] at h; cases h
            | some k6 =>
              rw [hf, Option.map_some'] at h
              have := congrArg (fun r => r.2.2) (Option.some.inj h)
              exact this.symm

/-- What a pass of a buffered `key_cache_write` that does not fail leaves for
the readers: the bytes written are what a reader gets from their places, and
the pass has found its page in the cache and has left the file alone, or has
taken a block for it. -/
theorem key_cache_write_chunk_holds (kc : KEY_CACHE) (f filepos level : Nat) (buff : List Nat)
    (offset : Nat) (wf : WF kc none []) (aux : AUX kc) (hu : usable kc)
    (ho : offset = filepos % kc.key_cache_block_size) (kc' : KEY_CACHE) (more : Bool)
    (hr : key_cache_write_chunk kc f filepos level buff offset true false =
      some (false, kc', more)) :
    ∃ b h, CHUNK_OK kc kc' f (filepos - offset) b h ∧
      more = decide (buff.length - min buff.length (kc.key_cache_block_size - offset) ≠ 0) ∧
      ((∃ h0, cached_at kc f (filepos - offset) h0 ∧ (kc.hash_link_root h0).block = some b ∧
          kc'.disk.data = kc.disk.data ∧ kc'.disk.size = kc.disk.size) ∨
        (not_cached kc f (filepos - offset) ∧ ∃ D, taken kc b D ∧ kc'.disk.data = D.data ∧
          kc'.disk.size = D.size)) ∧
      kc'.disk.pwrite_errno = kc.disk.pwrite_errno ∧
      kc'.disk.pread_forced = kc.disk.pread_forced ∧
      (∀ j, j < min buff.length (kc.key_cache_block_size - offset) →
        holds kc' f (filepos + j) (buff.getD j 0)) := by
  have hbs : 0 < kc.key_cache_block_size := wf.cnt.bs_pos
  have hoff : offset < kc.key_cache_block_size := by rw [ho]; exact Nat.mod_lt _ hbs
  have hal : (filepos - offset) % kc.key_cache_block_size = 0 := by
    rw [ho]
    exact Nat.sub_mod_eq_zero_of_mod_eq (by rw [Nat.mod_mod])
  obtain ⟨b, h, ok, hmore, hch, -, hoffb, hlenb, hin, hhit, hmiss⟩ :=
    key_cache_write_chunk_spec kc f filepos level buff offset wf aux hu hal hoff kc' more hr
  have ebs : kc'.key_cache_block_size = kc.key_cache_block_size := ok.config.2.2.2.2.1
  have hdisk : ((∃ h0, cached_at kc f (filepos - offset) h0 ∧
        (kc.hash_link_root h0).block = some b ∧
        kc'.disk.data = kc.disk.data ∧ kc'.disk.size = kc.disk.size) ∨
      (not_cached kc f (filepos - offset) ∧ ∃ D, taken kc b D ∧ kc'.disk.data = D.data ∧
        kc'.disk.size = D.size)) ∧
      kc'.disk.pwrite_errno = kc.disk.pwrite_errno ∧
      kc'.disk.pread_forced = kc.disk.pread_forced := by
    rcases not_cached_or kc f (filepos - offset) with hm | ⟨h0, hc0⟩
    · obtain ⟨D, ht, -, hp1, hp2⟩ := hmiss hm
      obtain ⟨t1, t2⟩ := taken_oracles kc b D ht
      by_cases hc : offset ≠ 0 ∨ min buff.length (kc.key_cache_block_size - offset) <
          kc.key_cache_block_size
      · obtain ⟨hd, -⟩ := hp1 hc
        obtain ⟨r1, r2, r3, r4⟩ := my_pread_data D f
          (if offset + min buff.length (kc.key_cache_block_size - offset) ≥
            kc.key_cache_block_size then offset else kc.key_cache_block_size)
          (filepos - offset)
        rw [← hd] at r1 r2 r3 r4
        exact ⟨Or.inr ⟨hm, D, ht, r1, r2⟩, by rw [r3, t1], by rw [r4, t2]⟩
      · obtain ⟨hd, -⟩ := hp2 hc
        exact ⟨Or.inr ⟨hm, D, ht, by rw [hd], by rw [hd]⟩, by rw [hd, t1], by rw [hd, t2]⟩
    · obtain ⟨hb0, hd, -⟩ := hhit h0 hc0
      exact ⟨Or.inl ⟨h0, hc0, hb0, by rw [hd], by rw [hd]⟩, by rw [hd], by rw [hd]⟩
  refine ⟨b, h, ok, hmore, hdisk.1, hdisk.2.1, hdisk.2.2, ?_⟩
  intro j hj
  have hjb : j < kc.key_cache_block_size - offset := lt_of_lt_of_le hj (Nat.min_le_right _ _)
  obtain ⟨m1, m2⟩ := mod_add_of_lt filepos j kc.key_cache_block_size (by rw [← ho]; omega)
  unfold holds
  rw [ebs, m2, m1, ← ho]
  constructor
  · intro y x hc hx
    have hy : y = h := ok.wf.hash.uniq y h hc.1 ok.cached.1 (hc.2.1.trans ok.cached.2.1.symm)
      (hc.2.2.trans ok.cached.2.2.symm)
    subst hy
    rw [ok.block] at hx
    have hxb : b = x := Option.some.inj hx
    subst hxb
    exact ⟨ok.noerr, by omega, hin j hj, Or.inl ⟨hch, by omega⟩⟩
  · intro hm
    exact absurd ⟨ok.cached.2.1, ok.cached.2.2⟩ (hm h ok.cached.1)

theorem getD_drop (l : List Nat) (n i : Nat) : (l.drop n).getD i 0 = l.getD (n + i) 0 := by
  simp only [List.getD_eq_getElem?_getD, List.getElem?_drop]

/-- The block a pass has put its page in is in the LRU ring afterwards. -/
theorem CHUNK_OK.ring_ne {kc kc' : KEY_CACHE} {f key b h : Nat}
    (ok : CHUNK_OK kc kc' f key b h) : kc'.used_ring ≠ [] := by
  have hb : b ∈ kc'.used_ring :=
    (ok.wf.ring.iff b).2 ⟨by rw [ok.wf.hash.link_back h b ok.block]; simp, by simp, by simp,
      ok.noerr⟩
  intro e
  rw [e] at hb
  cases hb

/-- The loop of a buffered `key_cache_write`, when it succeeds: the bytes
written are what a reader gets from their places, and what a reader gets from
the pages before the range is as it was. -/
theorem key_cache_write_loop_holds : ∀ (fuel : Nat) (kc : KEY_CACHE) (f filepos level : Nat)
    (buff : List Nat) (offset : Nat) (kc1 : KEY_CACHE),
    WF kc none [] → AUX kc → bounded_reads kc → usable kc →
    offset = filepos % kc.key_cache_block_size →
    key_cache_write_loop fuel kc f filepos level buff offset true false = some (false, kc1) →
    WF kc1 none [] ∧ AUX kc1 ∧ same_config kc kc1 ∧
    kc1.disk.pwrite_errno = kc.disk.pwrite_errno ∧
    kc1.disk.pread_forced = kc.disk.pread_forced ∧ kc1.used_ring ≠ [] ∧
    (∀ j, j < buff.length → holds kc1 f (filepos + j) (buff.getD j 0)) ∧
    (∀ f' q v, (f' ≠ f ∨ q - q % kc.key_cache_block_size <
        filepos - filepos % kc.key_cache_block_size) →
      holds kc f' q v → holds kc1 f' q v) := by
  intro fuel
  induction fuel with
  | zero =>
    intro kc f filepos level buff offset kc1 _ _ _ _ _ hr
    rw [key_cache_write_loop] at hr
    cases hr
  | succ fuel ih =>
    intro kc f filepos level buff offset kc1 wf aux hbr hu ho hr
    rw [key_cache_write_loop] at hr
    have hbs : 0 < kc.key_cache_block_size := wf.cnt.bs_pos
    have hlt : offset < kc.key_cache_block_size := by rw [ho]; exact Nat.mod_lt _ hbs
    have hle : offset ≤ filepos := by rw [ho]; exact Nat.mod_le _ _
    have hal : (filepos - offset) % kc.key_cache_block_size = 0 := by
      rw [ho]
      exact Nat.sub_mod_eq_zero_of_mod_eq (by rw [Nat.mod_mod])
    cases hc : key_cache_write_chunk kc f filepos level buff offset true false with
    | none =>
      rw [hc] at hr
      cases hr
    | some c =>
      obtain ⟨err, kc', more⟩ := c
      rw [hc] at hr
      obtain ⟨wf', aux', cfg, -⟩ :=
        key_cache_write_chunk_inv kc f filepos level buff offset true false wf aux hu hal hlt _ hc
      have ebs : kc'.key_cache_block_size = kc.key_cache_block_size := cfg.2.2.2.2.1
      cases err with
      | true =>
        have hm := key_cache_write_chunk_last kc f filepos level buff offset wf hu hal kc' more hc
        subst hm
        simp only [] at hr
        cases hr
      | false =>
        obtain ⟨b, h, ok, hmore, hds, hpw, hpr, hsv⟩ :=
          key_cache_write_chunk_holds kc f filepos level buff offset wf aux hu ho kc' more hc
        have hframe : ∀ f' q v, (f' ≠ f ∨ q - q % kc.key_cache_block_size <
            filepos - filepos % kc.key_cache_block_size) →
            holds kc f' q v → holds kc' f' q v := by
          intro f' q v hne hs
          refine holds_frame wf hbr ok hds f' q v ?_ hs
          rintro ⟨e1, e2⟩
          rcases hne with hne | hne
          · exact hne e1
          · rw [← ho] at hne
            omega
        cases more with
        | false =>
          simp only [] at hr
          have e := Option.some.inj hr
          have e2 : kc' = kc1 := congrArg Prod.snd e
          rw [← e2]
          have hz : buff.length - min buff.length (kc.key_cache_block_size - offset) = 0 := by
            by_contra hne
            have : decide (buff.length - min buff.length (kc.key_cache_block_size - offset)
                ≠ 0) = true := decide_eq_true hne
            rw [← hmore] at this
            cases this
          have hmin : min buff.length (kc.key_cache_block_size - offset) = buff.length := by
            omega
          rw [hmin] at hsv
          exact ⟨wf', aux', cfg, hpw, hpr, ok.ring_ne, hsv, hframe⟩
        | true =>
          simp only [] at hr
          have hnz : buff.length - min buff.length (kc.key_cache_block_size - offset) ≠ 0 := by
            have : decide (buff.length - min buff.length (kc.key_cache_block_size - offset)
                ≠ 0) = true := hmore.symm
            exact of_decide_eq_true this
          have hmin : min buff.length (kc.key_cache_block_size - offset) =
              kc.key_cache_block_size - offset := by omega
          rw [hmin] at hr hsv
          have e0' : (filepos - offset + (kc.key_cache_block_size - offset + offset)) %
              kc.key_cache_block_size = 0 := by
            rw [Nat.sub_add_cancel (le_of_lt hlt), Nat.add_mod, hal, Nat.mod_self]
            rfl
          have e0 : (filepos - offset + (kc.key_cache_block_size - offset + offset)) %
              kc'.key_cache_block_size = 0 := by
            rw [ebs]
            exact e0'
          obtain ⟨w1, a1, c1, p1, p2, r1, s1, f1⟩ := ih kc' f _ level _ 0 kc1 wf' aux'
            (hbr.congr_reads hpr ebs) (usable_of_config cfg hu) e0.symm hr
          have efp : filepos - offset + (kc.key_cache_block_size - offset + offset) =
              filepos + (kc.key_cache_block_size - offset) := by omega
          rw [List.length_drop] at s1
          refine ⟨w1, a1, same_config_trans cfg c1, by rw [p1, hpw], by rw [p2, hpr], r1, ?_, ?_⟩
          · intro j hj
            by_cases hjr : j < kc.key_cache_block_size - offset
            · refine f1 f (filepos + j) _ (Or.inr ?_) (hsv j hjr)
              rw [ebs, e0']
              obtain ⟨m1, m2⟩ := mod_add_of_lt filepos j kc.key_cache_block_size
                (by rw [← ho]; omega)
              rw [m2, ← ho]
              omega
            · have h1 := s1 (j - (kc.key_cache_block_size - offset)) (by omega)
              rw [efp, getD_drop] at h1
              have e1 : filepos + (kc.key_cache_block_size - offset) +
                  (j - (kc.key_cache_block_size - offset)) = filepos + j := by omega
              have e2 : kc.key_cache_block_size - offset +
                  (j - (kc.key_cache_block_size - offset)) = j := by omega
              rw [e1, e2] at h1
              exact h1
          · intro f' q v hne hs
            refine f1 f' q v ?_ (hframe f' q v hne hs)
            rcases hne with hne | hne
            · exact Or.inl hne
            · right
              rw [ebs, e0']
              rw [← ho] at hne
              omega

/-- A pass of `key_cache_read` on a page that is not cached, for which the
file has all the bytes asked for, in a cache whose reads and writes do not
fail: a block is taken for the page, the page is read from the file into it,
and the pass succeeds. -/
theorem key_cache_read_chunk_miss (kc : KEY_CACHE) (f filepos level dst length offset : Nat)
    (buff : Nat → Nat) (wf : WF kc none []) (hu : usable kc)
    (hal : (filepos - offset) % kc.key_cache_block_size = 0)
    (hrd : ∀ n, kc.disk.pread_forced n = none)
    (hw : ∀ n, kc.disk.pwrite_errno n = none)
    (hmiss : not_cached kc f (filepos - offset))
    (hroom : kc.blocks_unused ≠ 0 ∨ kc.used_ring ≠ []) :
    ∃ b h D, taken kc b D ∧
      (min length (kc.key_cache_block_size - offset) + offset ≤
          min kc.key_cache_block_size (D.size f - (filepos - offset)) →
        ∃ kc', key_cache_read_chunk kc f filepos level buff dst length offset false =
            some (false,
              (fun i =>
                if dst ≤ i ∧ i < dst + min length (kc.key_cache_block_size - offset) then
                  pread_into D f (filepos - offset)
                    (min kc.key_cache_block_size (D.size f - (filepos - offset)))
                    (kc.block_root b).buffer (offset + (i - dst))
                else buff i), kc',
              decide (length - min length (kc.key_cache_block_size - offset) ≠ 0)) ∧
          CHUNK_OK kc kc' f (filepos - offset) b h ∧
          kc'.disk.data = D.data ∧ kc'.disk.size = D.size ∧
          kc'.disk.pwrite_errno = kc.disk.pwrite_errno ∧
          kc'.disk.pread_forced = kc.disk.pread_forced ∧
          (kc'.block_root b).buffer = pread_into D f (filepos - offset)
            (min kc.key_cache_block_size (D.size f - (filepos - offset)))
            (kc.block_root b).buffer ∧
          (kc'.block_root b).length =
            min kc.key_cache_block_size (D.size f - (filepos - offset))) := by
  obtain ⟨kA, hkA⟩ : ∃ kA : KEY_CACHE, kA =
      { kc with global_cache_r_requests := kc.global_cache_r_requests + 1 } := ⟨_, rfl⟩
  have wfA : WF kA none [] := by
    rw [hkA]
    exact @WF.congr_wf kc _ none [] wf rfl rfl rfl rfl rfl rfl rfl rfl rfl rfl rfl rfl rfl rfl
      (fun _ => rfl) (fun _ => rfl) (fun _ => rfl) (fun _ => rfl) rfl (fun h => h)
  have huA : usable kA := by rw [hkA]; exact hu
  have halA : (filepos - offset) % kA.key_cache_block_size = 0 := by rw [hkA]; exact hal
  have cfgA : same_config kc kA := by rw [hkA]; exact same_config_refl kc
  obtain ⟨rl, hrl⟩ : ∃ rl, rl = min length (kc.key_cache_block_size - offset) := ⟨_, rfl⟩
  rw [← hrl]
  rcases find_key_block_spec kA f (filepos - offset) level false wfA huA halA with
    ⟨-, hbad⟩ | ⟨b, h, st, K, hfind, fd⟩
  · exfalso
    rcases hbad with ⟨h', b', hc', -, -⟩ | ⟨-, h1, h2⟩
    · exact hmiss h' (by rw [hkA] at hc'; exact hc'.1)
        (by rw [hkA] at hc'; exact ⟨hc'.2.1, hc'.2.2⟩)
    · rw [hkA] at h1 h2
      rcases hroom with hr | hr
      · exact hr h1
      · exact hr h2
  have hst : st = PAGE_TO_BE_READ := by
    rcases fd.cases with e | e
    · exfalso
      obtain ⟨hc, -⟩ := fd.hit e
      exact hmiss h (by rw [hkA] at hc; exact hc.1) (by rw [hkA] at hc; exact ⟨hc.2.1, hc.2.2⟩)
    · exact e
  subst hst
  have hs : (K.block_root b).status = BLOCK_IN_USE :=
    fd.status_miss (by rw [hkA]; exact hw)
  have herrK : (K.block_root b).status.error = false := by rw [hs]; rfl
  have htk : taken kc b K.disk := by
    have := fd.taken herrK
    rw [hkA] at this
    exact this
  obtain ⟨t1, t2⟩ := taken_oracles kc b K.disk htk
  refine ⟨b, h, K.disk, htk, ?_⟩
  intro hgot
  have hchunk := key_cache_read_chunk_found kc K f filepos level dst length offset b buff false
      PAGE_TO_BE_READ hu.2.1 (by rw [← hkA]; exact hfind)
  rw [← hrl] at hchunk
  rw [hchunk]
  have ebs : K.key_cache_block_size = kc.key_cache_block_size := by
    have := fd.config.2.2.2.2.1
    rw [this, hkA]
  unfold key_cache_read_load
  rw [if_pos herrK, if_pos (by decide)]
  simp only [decide_True]
  rw [ebs, read_block_primary K b h kc.key_cache_block_size (rl + offset) fd.hl,
    Option.some_bind]
  obtain ⟨K2, hK2⟩ : ∃ K2, K2 = read_block_state K b h kc.key_cache_block_size (rl + offset) :=
    ⟨_, rfl⟩
  rw [← hK2]
  have hpr : my_pread K.disk f kc.key_cache_block_size (filepos - offset) =
      (min kc.key_cache_block_size (K.disk.size f - (filepos - offset)),
       min kc.key_cache_block_size (K.disk.size f - (filepos - offset)),
       { K.disk with preads := K.disk.preads + 1 }) := by
    simp only [my_pread, t2, hrd]
  have e2x : ∀ x, x ≠ b → K2.block_root x = K.block_root x := by
    intro x hx
    rw [hK2]
    simp only [read_block_state, Function.update_noteq hx]
  have e2l : K2.hash_link_root = K.hash_link_root := by rw [hK2]; rfl
  have e2c : same_config K K2 := by rw [hK2]; exact same_config_refl _
  have e2d : K2.disk = { K.disk with preads := K.disk.preads + 1 } := by
    rw [hK2]
    simp only [read_block_state, fd.link, hpr]
  have wf2 : WF K2 (some b) [] := by
    rw [hK2]; exact read_block_state_pinned K b h _ _ fd.wf
  have e2b : K2.block_root b =
      { K.block_root b with
        buffer := pread_into K.disk f (filepos - offset)
          (min kc.key_cache_block_size (K.disk.size f - (filepos - offset)))
          (K.block_root b).buffer
        status := { (K.block_root b).status with read := true }
        length := min kc.key_cache_block_size (K.disk.size f - (filepos - offset)) } := by
    rw [hK2]
    simp only [read_block_state, Function.update_same, fd.link, hpr,
      if_neg (not_lt.2 hgot)]
  have e2s : (K2.block_root b).status = { read := true, in_use := true } := by
    rw [e2b]
    show { (K.block_root b).status with read := true } = _
    rw [hs]; rfl
  have hbok2 : block_ok K2 [] b := by
    unfold block_ok
    rw [e2s]
    refine ⟨rfl, rfl, rfl, rfl, rfl, ?_, by simp, by simp⟩
    intro hb
    rw [e2b]
    show min kc.key_cache_block_size _ ≤ K2.key_cache_block_size
    rw [hK2]
    show min kc.key_cache_block_size _ ≤ K.key_cache_block_size
    rw [ebs]
    exact Nat.min_le_left _ _
  obtain ⟨br, ring, ins, w, hfin, hperm, hcore, wf3⟩ :=
    key_cache_read_finish_ok K2 b h dst rl offset buff false (decide (length - rl ≠ 0)) wf2
      (by rw [e2b]; exact fd.hl) (by rw [e2l, fd.link]) hbok2 (by rw [e2s]) (by rw [e2s])
      (by rw [e2s])
  have hcb := hcore b
  rw [if_pos rfl] at hcb
  have hKbuf : (K.block_root b).buffer = (kc.block_root b).buffer := by
    rw [fd.buffer, hkA]
  have cok := chunk_ok_of_release kA K K2 f (filepos - offset) b h (K2.keycache_time + 1) w
    PAGE_TO_BE_READ br ring ins fd wfA e2x e2l e2c (by rw [e2s]) hcore wf3
  refine ⟨_, ?_, ⟨cok.wf, same_config_trans cfgA cok.config, cok.cached, cok.block, cok.noerr,
    ?_, ?_, ?_⟩, ?_, ?_, ?_, ?_, ?_, ?_⟩
  · rw [hfin, e2b, hKbuf]
  · intro x hx
    have := cok.others x hx
    rw [hkA] at this
    exact this
  · intro y hy hyb
    have := cok.links y hy hyb
    rw [hkA] at this
    exact this
  · intro x y hx hy
    have := cok.kept x y hx (by rw [hkA]; exact hy)
    rw [hkA] at this
    exact this
  · show K2.disk.data = K.disk.data
    rw [e2d]
  · show K2.disk.size = K.disk.size
    rw [e2d]
  · show K2.disk.pwrite_errno = kc.disk.pwrite_errno
    rw [e2d]
    exact t1
  · show K2.disk.pread_forced = kc.disk.pread_forced
    rw [e2d]
    exact t2
  · show (br b).buffer = _
    rw [hcb.2.1, e2b, hKbuf]
  · show (br b).length = _
    rw [hcb.2.2.2.1, e2b]

/-- A pass of `key_cache_read` over bytes that a reader gets, in a cache whose
reads and writes do not fail and in which a block is at hand: the pass
succeeds and gives these bytes to the caller. -/
theorem key_cache_read_chunk_holds (kc : KEY_CACHE) (f filepos level dst length offset : Nat)
    (buff v : Nat → Nat) (wf : WF kc none []) (hu : usable kc)
    (ho : offset = filepos % kc.key_cache_block_size)
    (hrd : ∀ n, kc.disk.pread_forced n = none)
    (hw : ∀ n, kc.disk.pwrite_errno n = none)
    (hroom : kc.blocks_unused ≠ 0 ∨ kc.used_ring ≠ [])
    (hpos : 0 < length)
    (hs : ∀ j, j < min length (kc.key_cache_block_size - offset) →
      holds kc f (filepos + j) (v j)) :
    ∃ buff' kc' b h,
      key_cache_read_chunk kc f filepos level buff dst length offset false =
        some (false, buff', kc',
          decide (length - min length (kc.key_cache_block_size - offset) ≠ 0)) ∧
      CHUNK_OK kc kc' f (filepos - offset) b h ∧
      ((∃ h0, cached_at kc f (filepos - offset) h0 ∧ (kc.hash_link_root h0).block = some b ∧
          kc'.disk.data = kc.disk.data ∧ kc'.disk.size = kc.disk.size) ∨
        (not_cached kc f (filepos - offset) ∧ ∃ D, taken kc b D ∧ kc'.disk.data = D.data ∧
          kc'.disk.size = D.size)) ∧
      kc'.disk.pwrite_errno = kc.disk.pwrite_errno ∧
      kc'.disk.pread_forced = kc.disk.pread_forced ∧
      (∀ j, j < min length (kc.key_cache_block_size - offset) → buff' (dst + j) = v j) ∧
      (∀ i, i < dst → buff' i = buff i) := by
  have hbs : 0 < kc.key_cache_block_size := wf.cnt.bs_pos
  have hlt : offset < kc.key_cache_block_size := by rw [ho]; exact Nat.mod_lt _ hbs
  have hle : offset ≤ filepos := by rw [ho]; exact Nat.mod_le _ _
  have hal : (filepos - offset) % kc.key_cache_block_size = 0 := by
    rw [ho]
    exact Nat.sub_mod_eq_zero_of_mod_eq (by rw [Nat.mod_mod])
  obtain ⟨rl, hrl⟩ : ∃ rl, rl = min length (kc.key_cache_block_size - offset) := ⟨_, rfl⟩
  rw [← hrl] at hs ⊢
  have hrlpos : 0 < rl := by rw [hrl]; exact lt_min hpos (by omega)
  have hrlb : rl ≤ kc.key_cache_block_size - offset := by rw [hrl]; exact Nat.min_le_right _ _
  -- the place of a byte of the pass
  have hpl : ∀ j, j < rl → (filepos + j) % kc.key_cache_block_size = offset + j ∧
      filepos + j - (filepos + j) % kc.key_cache_block_size = filepos - offset := by
    intro j hj
    have := mod_add_of_lt filepos j kc.key_cache_block_size (by rw [← ho]; omega)
    rw [← ho] at this
    exact this
  rcases not_cached_or kc f (filepos - offset) with hm | ⟨h0, hc0⟩
  · -- the page is read from the file
    obtain ⟨b, h, D, ht, hres⟩ := key_cache_read_chunk_miss kc f filepos level dst length offset
      buff wf hu hal hrd hw hm hroom
    rw [← hrl] at hres
    have hD : ∀ j, j < rl → on_disk D f (filepos + j) (v j) := by
      intro j hj
      obtain ⟨p1, p2⟩ := hpl j hj
      have h1 := (hs j hj).2 (by rw [p2]; exact hm)
      apply on_disk_taken_other kc b D f _ _ wf (bounded_reads.of_none hrd) ht _ h1
      intro y hy hrec
      rw [p2] at hrec
      exact hm y (by rw [wf.hash.back b y hy]; simp) hrec
    have hgot : rl + offset ≤ min kc.key_cache_block_size (D.size f - (filepos - offset)) := by
      have h1 := (hD (rl - 1) (by omega)).1
      apply le_min
      · omega
      · omega
    obtain ⟨kc', hchunk, ok, hd1, hd2, hp1, hp2, -, -⟩ := hres hgot
    refine ⟨_, kc', b, h, hchunk, ok, Or.inr ⟨hm, D, ht, hd1, hd2⟩, hp1, hp2, ?_, ?_⟩
    · intro j hj
      rw [if_pos ⟨Nat.le_add_right _ _, by omega⟩, Nat.add_sub_cancel_left]
      unfold pread_into
      rw [if_pos (by omega)]
      have h1 := (hD j hj).2
      have e : filepos - offset + (offset + j) = filepos + j := by omega
      rw [e]
      exact h1
    · intro i hi
      rw [if_neg (by omega)]
  · -- the page is in the cache
    cases hb0 : (kc.hash_link_root h0).block with
    | none => exact absurd hb0 hc0.1
    | some b0 =>
      have hsv : ∀ j, j < rl → (kc.block_root b0).status.error = false ∧
          offset + j < (kc.block_root b0).length ∧ (kc.block_root b0).buffer (offset + j) = v j := by
        intro j hj
        obtain ⟨p1, p2⟩ := hpl j hj
        obtain ⟨s1, s2, s3, -⟩ := (hs j hj).1 h0 b0 (by rw [p2]; exact hc0) hb0
        rw [p1] at s2 s3
        exact ⟨s1, s2, s3⟩
      rcases key_cache_read_chunk_spec kc f filepos level dst length offset buff wf hu hal hrd
        with ⟨-, hbad⟩ | ⟨err, buff', kc', more, hc, wf', cfg, hpr, hok, hcrit⟩
      · exfalso
        rcases hbad with ⟨h', b', hc', hb', he'⟩ | ⟨hm, -, -⟩
        · have e := wf.hash.uniq h' h0 hc'.1 hc0.1 (hc'.2.1.trans hc0.2.1.symm)
            (hc'.2.2.trans hc0.2.2.symm)
          rw [e, hb0] at hb'
          have e2 := Option.some.inj hb'
          rw [← e2, (hsv 0 hrlpos).1] at he'
          cases he'
        · exact hm h0 hc0.1 ⟨hc0.2.1, hc0.2.2⟩
      rw [← hrl] at hok hcrit
      have herr := hcrit h0 b0 hc0 hb0 (by
        have := (hsv (rl - 1) (by omega)).2.1
        omega)
      subst herr
      obtain ⟨b, h, ok, hlen, hb, hmore, hsame⟩ := hok rfl
      obtain ⟨sp, -⟩ := hsame h0 hc0
      have hh0 : h = h0 := by
        have hc1 : cached_at kc f (filepos - offset) h := by
          have := ok.cached
          unfold cached_at at this ⊢
          rw [sp.2.2.1] at this
          exact this
        exact wf.hash.uniq h h0 hc1.1 hc0.1 (hc1.2.1.trans hc0.2.1.symm)
          (hc1.2.2.trans hc0.2.2.symm)
      have hbb : b0 = b := by
        have := ok.block
        rw [sp.2.2.1, hh0, hb0] at this
        exact Option.some.inj this
      subst hbb
      rw [hmore] at hc
      refine ⟨buff', kc', b0, h, hc, ok, Or.inl ⟨h0, hc0, hb0, by rw [sp.2.2.2],
        by rw [sp.2.2.2]⟩, by rw [sp.2.2.2], by rw [sp.2.2.2], ?_, ?_⟩
      · intro j hj
        rw [hb (dst + j), if_pos ⟨Nat.le_add_right _ _, by omega⟩, Nat.add_sub_cancel_left,
          (sp.2.1 b0).2.1]
        exact (hsv j hj).2.2
      · intro i hi
        rw [hb i, if_neg (by omega)]

theorem holds_congr {kc kc' : KEY_CACHE}
    (e1 : kc'.key_cache_block_size = kc.key_cache_block_size)
    (e2 : kc'.hash_link_root = kc.hash_link_root) (e3 : kc'.block_root = kc.block_root)
    (e4 : kc'.disk = kc.disk) (f q v : Nat) (h : holds kc f q v) : holds kc' f q v := by
  unfold holds cached_at not_cached at h ⊢
  rw [e1, e2, e3, e4]
  exact h

/-- The loop of `key_cache_read` over bytes that a reader gets, in a cache
whose reads and writes do not fail and in which a block is at hand: the loop
succeeds and gives these bytes to the caller. -/
theorem key_cache_read_loop_holds : ∀ (fuel : Nat) (kc : KEY_CACHE) (f filepos level : Nat)
    (buff : Nat → Nat) (dst length offset : Nat) (v : Nat → Nat),
    length < fuel → 0 < length → WF kc none [] → usable kc →
    offset = filepos % kc.key_cache_block_size →
    (∀ n, kc.disk.pread_forced n = none) → (∀ n, kc.disk.pwrite_errno n = none) →
    (kc.blocks_unused ≠ 0 ∨ kc.used_ring ≠ []) →
    (∀ j, j < length → holds kc f (filepos + j) (v (dst + j))) →
    ∃ out kc2,
      key_cache_read_loop fuel kc f filepos level buff dst length offset false =
        some (false, out, kc2) ∧
      (∀ j, j < length → out (dst + j) = v (dst + j)) ∧ (∀ i, i < dst → out i = buff i) := by
  intro fuel
  induction fuel with
  | zero =>
    intro kc f filepos level buff dst length offset v hf
    cases hf
  | succ fuel ih =>
    intro kc f filepos level buff dst length offset v hf hpos wf hu ho hrd hw hroom hs
    rw [key_cache_read_loop]
    have hbs : 0 < kc.key_cache_block_size := wf.cnt.bs_pos
    have hlt : offset < kc.key_cache_block_size := by rw [ho]; exact Nat.mod_lt _ hbs
    have hle : offset ≤ filepos := by rw [ho]; exact Nat.mod_le _ _
    have hal : (filepos - offset) % kc.key_cache_block_size = 0 := by
      rw [ho]
      exact Nat.sub_mod_eq_zero_of_mod_eq (by rw [Nat.mod_mod])
    obtain ⟨buff', kc', b, h, hc, ok, hds, hp1, hp2, hby, hbe⟩ :=
      key_cache_read_chunk_holds kc f filepos level dst length offset buff
        (fun j => v (dst + j)) wf hu ho hrd hw hroom hpos
        (fun j hj => hs j (lt_of_lt_of_le hj (Nat.min_le_left _ _)))
    rw [hc]
    have ebs : kc'.key_cache_block_size = kc.key_cache_block_size := ok.config.2.2.2.2.1
    by_cases hz : length - min length (kc.key_cache_block_size - offset) = 0
    · have hd : decide (length - min length (kc.key_cache_block_size - offset) ≠ 0) = false :=
        decide_eq_false (by simpa using hz)
      rw [hd]
      simp only []
      have hmin : min length (kc.key_cache_block_size - offset) = length := by omega
      rw [hmin] at hby
      exact ⟨buff', kc', rfl, hby, hbe⟩
    · have hd : decide (length - min length (kc.key_cache_block_size - offset) ≠ 0) = true :=
        decide_eq_true hz
      rw [hd]
      simp only []
      have hmin : min length (kc.key_cache_block_size - offset) =
          kc.key_cache_block_size - offset := by omega
      rw [hmin] at hby ⊢
      have efp : filepos - offset + (kc.key_cache_block_size - offset + offset) =
          filepos + (kc.key_cache_block_size - offset) := by omega
      have e0' : (filepos + (kc.key_cache_block_size - offset)) %
          kc.key_cache_block_size = 0 := by
        rw [← efp, Nat.sub_add_cancel (le_of_lt hlt), Nat.add_mod, hal, Nat.mod_self]
        rfl
      rw [efp]
      have hs' : ∀ j, j < length - (kc.key_cache_block_size - offset) →
          holds kc' f (filepos + (kc.key_cache_block_size - offset) + j)
            (v (dst + (kc.key_cache_block_size - offset) + j)) := by
        intro j hj
        have h1 := hs (kc.key_cache_block_size - offset + j) (by omega)
        rw [← Nat.add_assoc, ← Nat.add_assoc] at h1
        refine holds_frame wf (bounded_reads.of_none hrd) ok hds f _ _ ?_ h1
        rintro ⟨-, e2⟩
        have hm := Nat.mod_lt (filepos + (kc.key_cache_block_size - offset) + j) hbs
        omega
      obtain ⟨out, kc2, hloop, hb2, ha2⟩ := ih kc' f
        (filepos + (kc.key_cache_block_size - offset)) level buff'
        (dst + (kc.key_cache_block_size - offset)) (length - (kc.key_cache_block_size - offset)) 0
        v (by omega) (by omega) ok.wf (usable_of_config ok.config hu) (by rw [ebs, e0'])
        (by intro n; rw [hp2]; exact hrd n) (by intro n; rw [hp1]; exact hw n)
        (Or.inr ok.ring_ne) hs'
      refine ⟨out, kc2, hloop, ?_, ?_⟩
      · intro j hj
        by_cases hjr : j < kc.key_cache_block_size - offset
        · rw [ha2 (dst + j) (by omega)]
          exact hby j hjr
        · have := hb2 (j - (kc.key_cache_block_size - offset)) (by omega)
          have e2 : dst + (kc.key_cache_block_size - offset) +
              (j - (kc.key_cache_block_size - offset)) = dst + j := by omega
          rw [e2] at this
          exact this
      · intro i hi
        rw [ha2 i (by omega)]
        exact hbe i hi

theorem dec32_one_eq : dec32 1 = 0 := by decide

theorem getLast?_eq_none_iff_nil (l : List Nat) : l.getLast? = none ↔ l = [] := by
  cases l with
  | nil => simp
  | cons a t => simp

/-- Linking a block at the end of the warm part of the ring. -/
theorem link_block_warm_end (kc : KEY_CACHE) (b : Nat) :
    link_block kc b false true =
      { kc with used_ring := kc.used_ring ++ [b]
                used_ins := if kc.used_ring = [] then some b else kc.used_ins } := by
  unfold link_block used_last
  by_cases hr : kc.used_ring = []
  · simp only [hr, Bool.false_eq_true, if_false, List.getLast?_nil, if_true, List.nil_append]
  · cases hg : kc.used_ring.getLast? with
    | none => exact absurd ((getLast?_eq_none_iff_nil _).1 hg) hr
    | some l => simp only [hr, Bool.false_eq_true, if_false, if_true]

/-- The first part of `unreg_request` when there are no more warm blocks than
`min_warm_blocks`. -/
theorem unreg_request_link_cold (K : KEY_CACHE) (b : Nat)
    (hw : K.warm_blocks ≤ K.min_warm_blocks) :
    unreg_request_link K b true =
      { K with
        block_root := Function.update K.block_root b
          { K.block_root b with
            hits_left := if (K.block_root b).hits_left ≠ 0 then (K.block_root b).hits_left - 1
              else (K.block_root b).hits_left
            last_hit_time := K.keycache_time }
        used_ring := K.used_ring ++ [b]
        used_ins := if K.used_ring = [] then some b else K.used_ins
        keycache_time := K.keycache_time + 1 } := by
  have hgt : ¬ (K.warm_blocks > K.min_warm_blocks) := by omega
  unfold unreg_request_link
  simp only [hgt, and_false, decide_False, Bool.false_eq_true, if_false, false_and,
    link_block_warm_end, set_block, Function.update_same, Function.update_idem]

/-- With no more warm blocks than `min_warm_blocks`, and with every block of
the ring hit within the last `age_threshold` ticks, `unreg_request` on the last
request of a block links it at the end of the ring and changes nothing else. -/
theorem unreg_request_relinked (K : KEY_CACHE) (b : Nat)
    (hreq : (K.block_root b).requests = 1) (herr : (K.block_root b).status.error = false)
    (hw : K.warm_blocks ≤ K.min_warm_blocks)
    (hins : ∀ x, K.used_ins = some x → x ∈ K.used_ring)
    (hage : ∀ x, x ∈ K.used_ring → x ≠ b →
      K.keycache_time + 1 ≤ (K.block_root x).last_hit_time + K.age_threshold)
    (hage1 : 1 ≤ K.age_threshold) :
    unreg_request K b true = some (relinked_state K b) := by
  unfold unreg_request
  simp only [hreq, dec32_one_eq, herr, and_self, if_true]
  rw [unreg_request_link_cold _ _ (by exact hw)]
  simp only [set_block, Function.update_same, Function.update_idem]
  unfold unreg_request_age
  simp only []
  by_cases hr : K.used_ring = []
  · simp only [hr, if_true, Function.update_same]
    rw [if_neg (by omega)]
    unfold relinked_state
    simp only [hr, if_true]
  · simp only [hr, if_false]
    cases hi : K.used_ins with
    | none =>
      simp only []
      unfold relinked_state
      simp only [hr, if_false, hi]
    | some x =>
      simp only []
      have hx := hins x hi
      rw [if_neg]
      · unfold relinked_state
        simp only [hr, if_false, hi]
      · by_cases hxb : x = b
        · subst hxb
          simp only [Function.update_same]
          omega
        · rw [Function.update_noteq hxb]
          have := hage x hx hxb
          omega

/-- The end of a pass of `key_cache_read` that has not failed: the reader is
removed from the hash link, the block has no `BLOCK_ERROR`, and the request is
given back by `unreg_request`. -/
theorem key_cache_read_finish_success (K : KEY_CACHE) (b h dst rl offset : Nat)
    (buff buff' : Nat → Nat) (more m : Bool) (kc' : KEY_CACHE)
    (hh : (K.block_root b).hash_link = some h)
    (hf : key_cache_read_finish K b buff dst rl offset false more = some (false, buff', kc', m)) :
    (K.block_root b).status.error = false ∧
    unreg_request
      (set_hash_link K h
        { K.hash_link_root h with requests := dec32 (K.hash_link_root h).requests }) b true =
      some kc' := by
  unfold key_cache_read_finish at hf
  have hrem : remove_reader K b = some (set_hash_link K h
      { K.hash_link_root h with requests := dec32 (K.hash_link_root h).requests }) := by
    unfold remove_reader
    rw [hh]
  rw [hrem, Option.some_bind] at hf
  have eb : (set_hash_link K h
      { K.hash_link_root h with requests := dec32 (K.hash_link_root h).requests }).block_root =
      K.block_root := rfl
  rw [eb] at hf
  by_cases he : (K.block_root b).status.error = false
  · rw [if_pos he] at hf
    refine ⟨he, ?_⟩
    cases hun : unreg_request (set_hash_link K h
        { K.hash_link_root h with requests := dec32 (K.hash_link_root h).requests }) b true with
    | none =>
      rw [hun] at hf
      cases hf
    | some k =>
      rw [hun, Option.map_some'] at hf
      have e := Option.some.inj hf
      have e2 : k = kc' := congrArg (fun r => r.2.2.1) e
      rw [e2]
  · exfalso
    rw [if_neg he] at hf
    cases hfr : free_block (set_hash_link K h
        { K.hash_link_root h with requests := dec32 (K.hash_link_root h).requests }) b with
    | none =>
      rw [hfr] at hf
      cases hf
    | some k =>
      rw [hfr, Option.map_some'] at hf
      have e := Option.some.inj hf
      have e1 : true = false := congrArg Prod.fst e
      cases e1

/-- A pass of `key_cache_read` that has not failed, on a page for which
`find_key_block` has handed out the block `b`, to be read: the request on `b`
is given back by `unreg_request` in a cache with the LRU bookkeeping that
`find_key_block` has left. -/
theorem key_cache_read_chunk_unreg (kc K : KEY_CACHE) (f filepos level dst length offset b h : Nat)
    (buff buff' : Nat → Nat) (m : Bool) (kc' : KEY_CACHE) (hcan : kc.can_be_used = true)
    (hfind : find_key_block
      { kc with global_cache_r_requests := kc.global_cache_r_requests + 1 } f
      (filepos - offset) level false = some (some (b, PAGE_TO_BE_READ), K))
    (hh : (K.block_root b).hash_link = some h)
    (hc : key_cache_read_chunk kc f filepos level buff dst length offset false =
      some (false, buff', kc', m)) :
    ∃ K3, same_lru K K3 b h ∧ (K3.block_root b).status.error = false ∧
      unreg_request K3 b true = some kc' := by
  rw [key_cache_read_chunk_found kc K f filepos level dst length offset b buff false
    PAGE_TO_BE_READ hcan hfind] at hc
  unfold key_cache_read_load at hc
  by_cases he : (K.block_root b).status.error = false
  · rw [if_pos he, if_pos (by decide)] at hc
    simp only [decide_True] at hc
    rw [read_block_primary K b h _ _ hh, Option.some_bind] at hc
    obtain ⟨K2, hK2⟩ : ∃ K2, K2 = read_block_state K b h K.key_cache_block_size
        (min length (kc.key_cache_block_size - offset) + offset) := ⟨_, rfl⟩
    rw [← hK2] at hc
    have hh2 : (K2.block_root b).hash_link = some h := by
      rw [hK2]
      simp only [read_block_state, Function.update_same]
      split <;> exact hh
    obtain ⟨he2, hun⟩ := key_cache_read_finish_success K2 b h dst _ offset buff buff' _ m kc' hh2 hc
    obtain ⟨K3, hK3⟩ : ∃ K3, K3 = set_hash_link K2 h
        { K2.hash_link_root h with requests := dec32 (K2.hash_link_root h).requests } := ⟨_, rfl⟩
    rw [← hK3] at hun
    have eb : K3.block_root = K2.block_root := by rw [hK3]; rfl
    have el : K3.hash_link_root = Function.update K2.hash_link_root h
        { K2.hash_link_root h with requests := dec32 (K2.hash_link_root h).requests } := by
      rw [hK3]; rfl
    refine ⟨K3, ?_, by rw [eb]; exact he2, hun⟩
    unfold same_lru
    rw [eb, el]
    have f1 : K3.used_ring = K2.used_ring := by rw [hK3]; rfl
    have f2 : K3.used_ins = K2.used_ins := by rw [hK3]; rfl
    have f3 : K3.keycache_time = K2.keycache_time := by rw [hK3]; rfl
    have f4 : K3.warm_blocks = K2.warm_blocks := by rw [hK3]; rfl
    have f5 : K3.min_warm_blocks = K2.min_warm_blocks := by rw [hK3]; rfl
    have f6 : K3.age_threshold = K2.age_threshold := by rw [hK3]; rfl
    have f7 : K3.blocks_unused = K2.blocks_unused := by rw [hK3]; rfl
    rw [f1, f2, f3, f4, f5, f6, f7]
    have e1 : K2.used_ring = K.used_ring := by rw [hK2]; simp only [read_block_state]
    have e2 : K2.used_ins = K.used_ins := by rw [hK2]; simp only [read_block_state]
    have e3 : K2.keycache_time = K.keycache_time := by rw [hK2]; simp only [read_block_state]
    have e4 : K2.warm_blocks = K.warm_blocks := by rw [hK2]; simp only [read_block_state]
    have e5 : K2.min_warm_blocks = K.min_warm_blocks := by rw [hK2]; simp only [read_block_state]
    have e6 : K2.age_threshold = K.age_threshold := by rw [hK2]; simp only [read_block_state]
    have e7 : K2.blocks_unused = K.blocks_unused := by rw [hK2]; simp only [read_block_state]
    refine ⟨e1, e2, e3, e4, e5, e6, e7, ?_, ?_, ?_, ?_, ?_, ?_⟩
    · intro x hx
      rw [hK2]
      simp only [read_block_state, Function.update_noteq hx]
    · rw [hh2, hh]
    · rw [hK2]
      simp only [read_block_state, Function.update_same]
      split <;> rfl
    · intro y hy
      rw [Function.update_noteq hy, hK2]
      simp only [read_block_state]
    · rw [Function.update_same, hK2]
      simp only [read_block_state]
    · rw [Function.update_same, hK2]
      simp only [read_block_state]
  · exfalso
    rw [if_neg he, Option.some_bind] at hc
    exact he (key_cache_read_finish_success K b h dst _ offset buff buff' _ m kc' hh hc).1

/-- A pass of `key_cache_read` on a page that is not cached and that has not
failed, in a cache with no more warm blocks than `min_warm_blocks` in which
every block of the ring that stays has been hit within the last
`age_threshold` ticks. -/
theorem key_cache_read_chunk_lru (kc : KEY_CACHE) (f filepos level dst length offset : Nat)
    (buff buff' : Nat → Nat) (m : Bool) (kc' : KEY_CACHE) (wf : WF kc none []) (hu : usable kc)
    (hal : (filepos - offset) % kc.key_cache_block_size = 0)
    (hmiss : not_cached kc f (filepos - offset))
    (hroom : kc.blocks_unused ≠ 0 ∨ kc.used_ring ≠ [])
    (hw : kc.warm_blocks ≤ kc.min_warm_blocks)
    (hage : ∀ x, x ∈ kc.used_ring → (kc.blocks_unused = 0 → kc.used_ring.head? ≠ some x) →
      kc.keycache_time + 1 ≤ (kc.block_root x).last_hit_time + kc.age_threshold)
    (hage1 : 1 ≤ kc.age_threshold)
    (hc : key_cache_read_chunk kc f filepos level buff dst length offset false =
      some (false, buff', kc', m)) :
    ∃ b h, LRU_STEP kc kc' f (filepos - offset) b h := by
  obtain ⟨kA, hkA⟩ : ∃ kA : KEY_CACHE, kA =
      { kc with global_cache_r_requests := kc.global_cache_r_requests + 1 } := ⟨_, rfl⟩
  have wfA : WF kA none [] := by
    rw [hkA]
    exact @WF.congr_wf kc _ none [] wf rfl rfl rfl rfl rfl rfl rfl rfl rfl rfl rfl rfl rfl rfl
      (fun _ => rfl) (fun _ => rfl) (fun _ => rfl) (fun _ => rfl) rfl (fun h => h)
  have huA : usable kA := by rw [hkA]; exact hu
  have halA : (filepos - offset) % kA.key_cache_block_size = 0 := by rw [hkA]; exact hal
  have hmissA : not_cached kA f (filepos - offset) := by rw [hkA]; exact hmiss
  have eR : kA.used_ring = kc.used_ring := by rw [hkA]
  have eB : kA.block_root = kc.block_root := by rw [hkA]
  have eL : kA.hash_link_root = kc.hash_link_root := by rw [hkA]
  have eU : kA.blocks_unused = kc.blocks_unused := by rw [hkA]
  rcases find_key_block_spec kA f (filepos - offset) level false wfA huA halA with
    ⟨-, hbad⟩ | ⟨b, h, st, K, hfind, fd⟩
  · exfalso
    rcases hbad with ⟨h', b', hc', -, -⟩ | ⟨-, h1, h2⟩
    · exact hmissA h' hc'.1 ⟨hc'.2.1, hc'.2.2⟩
    · rw [hkA] at h1 h2
      rcases hroom with hr | hr
      · exact hr h1
      · exact hr h2
  have hst : st = PAGE_TO_BE_READ := by
    rcases fd.cases with e | e
    · exfalso
      obtain ⟨hc1, -⟩ := fd.hit e
      exact hmissA h hc1.1 ⟨hc1.2.1, hc1.2.2⟩
    · exact e
  subst hst
  -- the LRU bookkeeping that `find_key_block` leaves
  have hK : K.used_ring = kc.used_ring.erase b ∧ K.keycache_time = kc.keycache_time ∧
      K.warm_blocks = kc.warm_blocks ∧
      ((kc.blocks_unused ≠ 0 ∧ (kc.block_root b).hash_link = none ∧
          K.blocks_unused + 1 = kc.blocks_unused) ∨
        (kc.blocks_unused = 0 ∧ K.blocks_unused = 0 ∧ ∃ rest, kc.used_ring = b :: rest)) := by
    by_cases h0 : kc.blocks_unused = 0
    · cases hring : kc.used_ring with
      | nil =>
        exfalso
        rcases hroom with hr | hr
        · exact hr h0
        · exact hr hring
      | cons v rest =>
        obtain ⟨h2, old, fh, hu', hfind2, -, -, -⟩ := find_key_block_miss_evict kA f
          (filepos - offset) level v rest false wfA huA hmissA (by rw [eU]; exact h0)
          (by rw [eR]; exact hring)
        rw [hfind] at hfind2
        have e := Option.some.inj hfind2
        have e1 : b = v := congrArg (fun r => match r.1 with | some p => p.1 | none => 0) e
        have e2 : K = evicted_state (linked_state kA f (filepos - offset) h2 fh hu') f level
            h2 v old := congrArg Prod.snd e
        rw [e1, e2]
        refine ⟨?_, ?_, ?_, Or.inr ⟨h0, ?_, rest, rfl⟩⟩
        · show kA.used_ring.erase v = _
          rw [eR, hring]
        · show kA.keycache_time = _
          rw [hkA]
        · show kA.warm_blocks = _
          rw [hkA]
        · show kA.blocks_unused = 0
          rw [eU]; exact h0
    · obtain ⟨h2, b2, fh, hu', fb, bu, hfind2, -, hbn, -, -⟩ := find_key_block_miss_unused kA f
        (filepos - offset) level false wfA huA hmissA (by rw [eU]; exact h0)
      rw [hfind] at hfind2
      have e := Option.some.inj hfind2
      have e1 : b = b2 := congrArg (fun r => match r.1 with | some p => p.1 | none => 0) e
      have e2 : K = miss_unused_state kA f (filepos - offset) level h2 b2 fh hu' fb bu :=
        congrArg Prod.snd e
      rw [eB] at hbn
      have hnot : b2 ∉ kc.used_ring := fun hm => ((wf.ring.iff b2).1 hm).1 hbn
      rw [e1, e2]
      refine ⟨?_, ?_, ?_, Or.inl ⟨h0, hbn, ?_⟩⟩
      · show kA.used_ring = _
        rw [eR, List.erase_of_not_mem hnot]
      · show kA.keycache_time = _
        rw [hkA]
      · show kA.warm_blocks = _
        rw [hkA]
      · show kA.blocks_unused - 1 + 1 = _
        rw [eU]
        omega
  obtain ⟨hKr, hKt, hKw, hKp⟩ := hK
  obtain ⟨K3, sl, he3, hun⟩ := key_cache_read_chunk_unreg kc K f filepos level dst length offset
    b h buff buff' m kc' hu.2.1 (by rw [← hkA]; exact hfind) fd.hl hc
  obtain ⟨s1, s2, s3, s4, s5, s6, s7, s8, s9, s10, s11, s12, s13⟩ := sl
  have hreqK : (K.block_root b).requests = 1 := fd.wf.req.block_held b (Or.inl rfl)
  have cfg := fd.config
  have hmw : K.min_warm_blocks = kc.min_warm_blocks := by
    rw [cfg.2.2.2.2.2.2.2.2.1, hkA]
  have hat : K.age_threshold = kc.age_threshold := by
    rw [cfg.2.2.2.2.2.2.2.2.2.1, hkA]
  have hnd : kc.used_ring.Nodup := wf.ring.ok.1
  have hrel := unreg_request_relinked K3 b (by rw [s10]; exact hreqK) he3
    (by rw [s4, s5, hKw, hmw]; exact hw)
    (by
      intro x hx
      rw [s2] at hx
      rw [s1]
      exact fd.wf.ring.ok.2.1 x hx)
    (by
      intro x hx hxb
      rw [s1, hKr] at hx
      rw [s3, s6, s8 x hxb, fd.others x hxb, eB, hKt, hat]
      have hx1 : x ∈ kc.used_ring := List.mem_of_mem_erase hx
      apply hage x hx1
      intro h0 hhd
      rcases hKp with ⟨hne, -, -⟩ | ⟨-, -, rest, hr⟩
      · exact hne h0
      · rw [hr] at hhd
        exact hxb (Option.some.inj hhd).symm)
    (by rw [s6, hat]; exact hage1)
  rw [hun] at hrel
  have ek : kc' = relinked_state K3 b := Option.some.inj hrel
  refine ⟨b, h, ?_⟩
  have hlink := fd.link
  refine ⟨?_, ?_, ?_, ?_, ?_, ?_, ?_, ?_⟩
  · rw [ek]
    show K3.used_ring ++ [b] = _
    rw [s1, hKr]
  · rw [ek]
    show K3.keycache_time + 1 = _
    rw [s3, hKt]
  · rw [ek]
    show (Function.update K3.block_root b _ b).last_hit_time = _
    rw [Function.update_same]
    show K3.keycache_time = _
    rw [s3, hKt]
  · intro x hx
    rw [ek]
    show Function.update K3.block_root b _ x = _
    rw [Function.update_noteq hx, s8 x hx, fd.others x hx, eB]
  · rw [ek]
    refine ⟨?_, ?_, ?_⟩
    · show (Function.update K3.block_root b _ b).hash_link = _
      rw [Function.update_same]
      show (K3.block_root b).hash_link = _
      rw [s9, fd.hl]
    · show (K3.hash_link_root h).file = f
      rw [s12, hlink]
    · show (K3.hash_link_root h).diskpos = _
      rw [s13, hlink]
  · intro x y hx hy
    rw [ek]
    show K3.hash_link_root y = _
    have hyb : (kc.hash_link_root y).block = some x := wf.hash.back x y hy
    have hk := fd.kept x y hx (by rw [eB]; exact hy)
    rw [eL] at hk
    have hyh : y ≠ h := by
      intro e
      rw [e] at hk hyb
      rw [← hk, hlink] at hyb
      exact hx (Option.some.inj hyb).symm
    rw [s11 y hyh, hk]
  · rw [ek]
    show K3.warm_blocks = _
    rw [s4, hKw]
  · rw [ek]
    show (_ ∧ _ ∧ K3.blocks_unused + 1 = _) ∨ (_ ∧ K3.blocks_unused = 0 ∧ _)
    rw [s7]
    exact hKp

/-- A `key_cache_read` within one cache block is one pass of the loop. -/
theorem key_cache_read_single (kc : KEY_CACHE) (f pos level len : Nat) (buff out : Nat → Nat)
    (err : Bool) (kc' : KEY_CACHE) (inv : INV kc)
    (hs : pos % kc.key_cache_block_size + len ≤ kc.key_cache_block_size)
    (h : key_cache_read kc f pos level buff len = some (err, out, kc')) :
    ∃ k1, key_cache_read_chunk (inc_counter_for_resize_op kc) f pos level buff 0 len
        (pos % kc.key_cache_block_size) false = some (err, out, k1, false) ∧
      kc' = dec_counter_for_resize_op k1 ∧ same_config kc k1 := by
  obtain ⟨wf, aux, hu⟩ := inv
  have inv1 : INV (inc_counter_for_resize_op kc) := INV.resize_counter _ ⟨wf, aux, hu⟩
  have hbs : 0 < kc.key_cache_block_size := wf.cnt.bs_pos
  unfold key_cache_read at h
  rw [if_pos hu.1, if_neg (by rw [hu.2.2]; simp)] at h
  simp only [] at h
  rw [key_cache_read_loop] at h
  have e : (inc_counter_for_resize_op kc).key_cache_block_size = kc.key_cache_block_size := rfl
  rw [e] at h
  cases hc : key_cache_read_chunk (inc_counter_for_resize_op kc) f pos level buff 0 len
      (pos % kc.key_cache_block_size) false with
  | none =>
    rw [hc] at h
    cases h
  | some r =>
    obtain ⟨e1, b1, k1, m⟩ := r
    obtain ⟨-, -, cfg, hm⟩ := key_cache_read_chunk_inv (inc_counter_for_resize_op kc) f pos level
      0 len (pos % kc.key_cache_block_size) buff false inv1.1 inv1.2.1 inv1.2.2
      (Nat.sub_mod_eq_zero_of_mod_eq (by rw [e, Nat.mod_mod])) _ hc
    have hmf : m = false := by
      cases m with
      | false => rfl
      | true =>
        exfalso
        have := hm rfl
        rw [e] at this
        have hmin : min len (kc.key_cache_block_size - pos % kc.key_cache_block_size) = len :=
          Nat.min_eq_left (by omega)
        rw [hmin] at this
        omega
    subst hmf
    rw [hc] at h
    simp only [] at h
    have e2 := Option.some.inj h
    have e3 : e1 = err := congrArg Prod.fst e2
    have e4 : b1 = out := congrArg (fun r => r.2.1) e2
    have e5 : dec_counter_for_resize_op k1 = kc' := congrArg (fun r => r.2.2) e2
    exact ⟨k1, by rw [e3, e4], e5.symm, cfg⟩

/-- A `key_cache_read` within one cache block of a page that is not cached,
which returns success, in a cache with no more warm blocks than
`min_warm_blocks` in which every block of the ring that stays has been hit
within the last `age_threshold` ticks. -/
theorem key_cache_read_lru (kc : KEY_CACHE) (f pos level len : Nat) (buff out : Nat → Nat)
    (kc' : KEY_CACHE) (inv : INV kc)
    (hs : pos % kc.key_cache_block_size + len ≤ kc.key_cache_block_size)
    (hmiss : not_cached kc f (pos - pos % kc.key_cache_block_size))
    (hroom : kc.blocks_unused ≠ 0 ∨ kc.used_ring ≠ [])
    (hw : kc.warm_blocks ≤ kc.min_warm_blocks)
    (hage : ∀ x, x ∈ kc.used_ring → (kc.blocks_unused = 0 → kc.used_ring.head? ≠ some x) →
      kc.keycache_time + 1 ≤ (kc.block_root x).last_hit_time + kc.age_threshold)
    (hage1 : 1 ≤ kc.age_threshold)
    (h : key_cache_read kc f pos level buff len = some (false, out, kc')) :
    same_config kc kc' ∧
    ∃ b h, LRU_STEP kc kc' f (pos - pos % kc.key_cache_block_size) b h := by
  obtain ⟨k1, hc, ek, cfg⟩ := key_cache_read_single kc f pos level len buff out false kc' inv hs h
  have inv1 : INV (inc_counter_for_resize_op kc) := INV.resize_counter _ inv
  obtain ⟨b, hl, st⟩ := key_cache_read_chunk_lru (inc_counter_for_resize_op kc) f pos level 0 len
    (pos % kc.key_cache_block_size) buff out false k1 inv1.1 inv1.2.2
    (Nat.sub_mod_eq_zero_of_mod_eq (by
      show pos % kc.key_cache_block_size =
        pos % kc.key_cache_block_size % kc.key_cache_block_size
      rw [Nat.mod_mod]))
    hmiss hroom hw hage hage1 hc
  refine ⟨by rw [ek]; exact cfg, b, hl, ?_⟩
  rw [ek]
  exact ⟨st.ring, st.time, st.stamp, st.others, st.page, st.kept, st.warm, st.pool⟩

theorem LRU.length_eq {kc : KEY_CACHE} {pages : List (Nat × Nat)} (l : LRU kc pages) :
    pages.length = kc.used_ring.length := by
  have := congrArg List.length l.pages
  rw [List.length_map, List.length_map] at this
  exact this.symm

/-- The pages cached are the pages of the list. -/
theorem LRU.cached_iff {kc : KEY_CACHE} {pages : List (Nat × Nat)} (l : LRU kc pages)
    (f key : Nat) : (∃ h, cached_at kc f key h) ↔ (f, key) ∈ pages := by
  have wf := l.inv.1
  constructor
  · rintro ⟨h, hb, hf, hk⟩
    obtain ⟨b, hbb⟩ := Option.ne_none_iff_exists'.1 hb
    have hl : (kc.block_root b).hash_link = some h := wf.hash.link_back h b hbb
    have hm : b ∈ kc.used_ring := l.all b (by rw [hl]; simp)
    have hp : page_of kc b = some (f, key) := by
      unfold page_of
      rw [hl, Option.map_some', hf, hk]
    have : some (f, key) ∈ kc.used_ring.map (page_of kc) := by
      rw [← hp]
      exact List.mem_map_of_mem _ hm
    rw [l.pages] at this
    obtain ⟨p, hp1, hp2⟩ := List.mem_map.1 this
    rw [← Option.some.inj hp2]
    exact hp1
  · intro hm
    have : some (f, key) ∈ kc.used_ring.map (page_of kc) := by
      rw [l.pages]
      exact List.mem_map_of_mem _ hm
    obtain ⟨b, hb1, hb2⟩ := List.mem_map.1 this
    unfold page_of at hb2
    cases hl : (kc.block_root b).hash_link with
    | none =>
      rw [hl] at hb2
      cases hb2
    | some h =>
      rw [hl, Option.map_some'] at hb2
      have e := Option.some.inj hb2
      have hbk : (kc.hash_link_root h).block = some b := wf.hash.back b h hl
      exact ⟨h, by rw [hbk]; simp, congrArg Prod.fst e, congrArg Prod.snd e⟩

/-- What a read of a page that is not cached asks of a cache that holds its
pages in the order of their use. -/
theorem LRU.ready {kc : KEY_CACHE} {pages : List (Nat × Nat)} (l : LRU kc pages) :
    (kc.blocks_unused ≠ 0 ∨ kc.used_ring ≠ []) ∧ kc.warm_blocks ≤ kc.min_warm_blocks ∧
    (∀ x, x ∈ kc.used_ring → (kc.blocks_unused = 0 → kc.used_ring.head? ≠ some x) →
      kc.keycache_time + 1 ≤ (kc.block_root x).last_hit_time + kc.age_threshold) ∧
    1 ≤ kc.age_threshold := by
  have hpos : 0 < nblocks kc := l.inv.1.cnt.blocks_pos
  have hcount := l.count
  have hage := l.age
  refine ⟨?_, ?_, ?_, ?_⟩
  · by_cases h0 : kc.blocks_unused = 0
    · right
      intro hr
      rw [hr, h0] at hcount
      simp only [List.length_nil] at hcount
      omega
    · exact Or.inl h0
  · rw [l.warm]
    exact Nat.zero_le _
  · intro x hx hhd
    have hrec := l.recent x hx
    by_cases h0 : kc.blocks_unused = 0
    · have hnh := hhd h0
      cases hr : kc.used_ring with
      | nil =>
        rw [hr] at hx
        cases hx
      | cons v rest =>
        rw [hr] at hx hnh
        have hxv : x ≠ v := by
          intro e
          rw [e] at hnh
          exact hnh rfl
        have hxr : x ∈ rest := by
          rcases List.mem_cons.1 hx with e | e
          · exact absurd e hxv
          · exact e
        have hs := l.sorted
        rw [hr] at hs
        have hlt := (List.pairwise_cons.1 hs).1 x hxr
        have hrv := l.recent v (by rw [hr]; exact List.mem_cons_self _ _)
        omega
    · omega
  · omega

theorem page_of_step {kc kc' : KEY_CACHE} {f key b h : Nat}
    (st : LRU_STEP kc kc' f key b h) (x : Nat) (hx : x ≠ b) :
    page_of kc' x = page_of kc x := by
  unfold page_of
  rw [st.others x hx]
  cases hl : (kc.block_root x).hash_link with
  | none => rfl
  | some y => rw [Option.map_some', Option.map_some', st.kept x y hx hl]

theorem page_of_step_same {kc kc' : KEY_CACHE} {f key b h : Nat}
    (st : LRU_STEP kc kc' f key b h) : page_of kc' b = some (f, key) := by
  unfold page_of
  rw [st.page.1, Option.map_some', st.page.2.1, st.page.2.2]

/-- The blocks `R` that stay in the ring with their pages `P`, and the block
`b` linked behind them with the page `(f, key)`: the cache holds `P` and then
`(f, key)` in the order of their use. -/
theorem LRU.relink {kc kc' : KEY_CACHE} {pages : List (Nat × Nat)} {f key b h : Nat}
    (l : LRU kc pages) (st : LRU_STEP kc kc' f key b h) (inv' : INV kc')
    (cfg : same_config kc kc') (R : List Nat) (P : List (Nat × Nat))
    (hring : kc.used_ring.erase b = R) (hP : R.map (page_of kc) = P.map some)
    (hcnt : R.length + 1 + kc'.blocks_unused = nblocks kc)
    (hrec : ∀ x, x ∈ R → kc.keycache_time ≤ (kc.block_root x).last_hit_time + R.length) :
    LRU kc' (P ++ [(f, key)]) := by
  have hnd : kc.used_ring.Nodup := l.inv.1.ring.ok.1
  have hR : ∀ x, x ∈ R → x ≠ b ∧ x ∈ kc.used_ring := by
    intro x hx
    rw [← hring] at hx
    exact ⟨fun e => (List.Nodup.mem_erase_iff hnd).1 hx |>.1 e, List.mem_of_mem_erase hx⟩
  have hnb : nblocks kc' = nblocks kc := by
    unfold nblocks
    rw [cfg.2.2.2.2.2.1]
  have er : kc'.used_ring = R ++ [b] := by rw [st.ring, hring]
  have hlt : ∀ x, x ∈ R → (kc'.block_root x).last_hit_time = (kc.block_root x).last_hit_time :=
    fun x hx => by rw [st.others x (hR x hx).1]
  refine ⟨inv', ?_, ?_, ?_, ?_, ?_, ?_, ?_, ?_⟩
  · rw [er, List.map_append, List.map_append, ← hP]
    congr 1
    · apply List.map_congr_left
      intro x hx
      exact page_of_step st x (hR x hx).1
    · show [page_of kc' b] = [some (f, key)]
      rw [page_of_step_same st]
  · intro x hx
    rw [er]
    by_cases hxb : x = b
    · rw [hxb]
      exact List.mem_append_right _ (List.mem_singleton_self _)
    · rw [st.others x hxb] at hx
      have hm := l.all x hx
      apply List.mem_append_left
      rw [← hring]
      exact (List.Nodup.mem_erase_iff hnd).2 ⟨hxb, hm⟩
  · rw [er, List.length_append, List.length_singleton, hnb]
    exact hcnt
  · rw [st.warm]
    exact l.warm
  · rw [hnb, cfg.2.2.2.2.2.2.2.2.2.1]
    exact l.age
  · rw [er, List.pairwise_append]
    refine ⟨?_, List.pairwise_singleton _ _, ?_⟩
    · have hs : R.Pairwise fun x y =>
          (kc.block_root x).last_hit_time < (kc.block_root y).last_hit_time := by
        rw [← hring]
        exact List.Pairwise.sublist (List.erase_sublist _ _) l.sorted
      refine List.Pairwise.imp_of_mem ?_ hs
      intro x y hx hy hxy
      rw [hlt x hx, hlt y hy]
      exact hxy
    · intro x hx y hy
      rw [List.mem_singleton.1 hy, hlt x hx, st.stamp]
      exact l.past x (hR x hx).2
  · intro x hx
    rw [er] at hx
    rw [st.time]
    rcases List.mem_append.1 hx with hx | hx
    · rw [hlt x hx]
      have := l.past x (hR x hx).2
      omega
    · rw [List.mem_singleton.1 hx, st.stamp]
      omega
  · intro x hx
    rw [er] at hx
    rw [st.time, er, List.length_append, List.length_singleton]
    rcases List.mem_append.1 hx with hx | hx
    · rw [hlt x hx]
      have := hrec x hx
      omega
    · rw [List.mem_singleton.1 hx, st.stamp]
      omega

/-- A read of a page that is not cached, in a cache that holds its pages in
the order of their use: the page goes to the end of the list, and the page at
the head of the list goes if all blocks are in use. -/
theorem LRU.step {kc kc' : KEY_CACHE} {pages : List (Nat × Nat)} {f key b h : Nat}
    (l : LRU kc pages) (st : LRU_STEP kc kc' f key b h) (inv' : INV kc')
    (cfg : same_config kc kc') :
    LRU kc' ((pages ++ [(f, key)]).drop (pages.length + 1 - nblocks kc)) := by
  have hlen := l.length_eq
  have hcount := l.count
  rcases st.pool with ⟨hne, hbn, hun⟩ | ⟨h0, hun, rest, hr⟩
  · have hnot : b ∉ kc.used_ring := fun hm => ((l.inv.1.ring.iff b).1 hm).1 hbn
    have hd : pages.length + 1 - nblocks kc = 0 := by omega
    rw [hd, List.drop_zero]
    refine l.relink st inv' cfg kc.used_ring pages (List.erase_of_not_mem hnot) l.pages
      (by omega) ?_
    intro x hx
    exact l.recent x hx
  · have hp := l.pages
    rw [hr] at hp hlen hcount
    cases pages with
    | nil =>
      simp only [List.map_cons, List.map_nil] at hp
      cases hp
    | cons p0 pt =>
      simp only [List.map_cons, List.cons.injEq] at hp
      simp only [List.length_cons] at hlen hcount ⊢
      have hd : pt.length + 1 + 1 - nblocks kc = 1 := by omega
      rw [hd]
      show LRU kc' (pt ++ [(f, key)])
      refine l.relink st inv' cfg rest pt (by rw [hr, List.erase_cons_head]) hp.2
        (by omega) ?_
      intro x hx
      have hs := l.sorted
      rw [hr] at hs
      have hlt := (List.pairwise_cons.1 hs).1 x hx
      have hrv := l.recent b (by rw [hr]; exact List.mem_cons_self _ _)
      rw [hr, List.length_cons] at hrv
      omega

theorem mem_of_nodup_lt_length (l : List Nat) (n : Nat) (hnd : l.Nodup)
    (hlt : ∀ x, x ∈ l → x < n) (hlen : l.length = n) : ∀ x, x < n → x ∈ l := by
  intro x hx
  have hsub : l.toFinset ⊆ Finset.range n := by
    intro y hy
    exact Finset.mem_range.2 (hlt y (List.mem_toFinset.1 hy))
  have hcard : (Finset.range n).card ≤ l.toFinset.card := by
    rw [List.toFinset_card_of_nodup hnd, Finset.card_range, hlen]
  have := Finset.eq_of_subset_of_card_le hsub hcard
  have hm : x ∈ l.toFinset := by
    rw [this]
    exact Finset.mem_range.2 hx
  exact List.mem_toFinset.1 hm

/-- A cache between two operations with all its blocks unused holds no page:
no block is in use. -/
theorem unused_of_all_unused (kc : KEY_CACHE) (inv : INV kc)
    (hempty : kc.blocks_unused = nblocks kc) : ∀ b, (kc.block_root b).hash_link = none := by
  have c := inv.1.cnt
  have h1 := c.unused_eq
  have h2 := c.used_le
  have hlen : kc.free_block_list.length = kc.blocks_used := by omega
  have hfull := mem_of_nodup_lt_length kc.free_block_list kc.blocks_used c.free_blocks_nodup
    (fun x hx => (c.free_blocks x hx).2) hlen
  intro b
  by_cases hb : b < kc.blocks_used
  · exact (c.free_blocks b (hfull b hb)).1
  · exact c.unborn_blocks b (by omega)

/-- A cache between two operations with all its blocks unused, whose
`age_threshold` is at least the number of blocks, holds the empty list of
pages. -/
theorem LRU.of_unused (kc : KEY_CACHE) (inv : INV kc) (hempty : kc.blocks_unused = nblocks kc)
    (hage : nblocks kc ≤ kc.age_threshold) : LRU kc [] := by
  have hno := unused_of_all_unused kc inv hempty
  have hr : kc.used_ring = [] := by
    apply List.eq_nil_iff_forall_not_mem.2
    intro b hb
    exact ((inv.1.ring.iff b).1 hb).1 (hno b)
  refine ⟨inv, by rw [hr]; rfl, fun b hb => absurd (hno b) hb, by rw [hr]; simpa using hempty,
    ?_, hage, by rw [hr]; exact List.Pairwise.nil, ?_, ?_⟩
  · rw [inv.2.1.warm]
    unfold warm_count
    rw [List.length_eq_zero, List.filter_eq_nil_iff]
    intro b _
    rw [inv.2.1.cold b (hno b)]
    decide
  · intro b hb
    rw [hr] at hb
    cases hb
  · intro b hb
    rw [hr] at hb
    cases hb

theorem drop_last_append (B : Nat) (hB : 0 < B) (seen : List (Nat × Nat)) (p : Nat × Nat) :
    (seen.drop (seen.length - B) ++ [p]).drop ((seen.drop (seen.length - B)).length + 1 - B) =
      (seen ++ [p]).drop ((seen ++ [p]).length - B) := by
  rw [List.length_drop, List.length_append, List.length_singleton]
  by_cases h : seen.length < B
  · have e1 : seen.length - B = 0 := by omega
    have e2 : seen.length - 0 + 1 - B = 0 := by omega
    have e3 : seen.length + 1 - B = 0 := by omega
    rw [e1, e2, e3, List.drop_zero, List.drop_zero, List.drop_zero]
  · have e2 : seen.length - (seen.length - B) + 1 - B = 1 := by omega
    rw [e2, List.drop_append_of_le_length (by rw [List.length_drop]; omega),
      List.drop_append_of_le_length (by omega), List.drop_drop]
    have e3 : seen.length - B + 1 = seen.length + 1 - B := by omega
    rw [e3]

/-- Reads within one cache block of pages that are pairwise distinct and not
among the pages `seen` read before, each returning success, in a cache of `B`
blocks that holds the last `B` of `seen` in the order of their use: the cache
holds the last `B` of all the pages read, in the order of their use. -/
theorem run_reads_lru (B bs : Nat) : ∀ (rs : List READ_CALL) (kc kc' : KEY_CACHE)
    (seen : List (Nat × Nat)),
    nblocks kc = B → kc.key_cache_block_size = bs →
    LRU kc (seen.drop (seen.length - B)) →
    (∀ r, r ∈ rs → r.filepos % bs + r.length ≤ bs) →
    (seen ++ rs.map (read_page bs)).Nodup →
    run_reads kc rs = some kc' →
    LRU kc' ((seen ++ rs.map (read_page bs)).drop
      ((seen ++ rs.map (read_page bs)).length - B)) := by
  intro rs
  induction rs with
  | nil =>
    intro kc kc' seen _ _ l _ _ hrun
    rw [run_reads] at hrun
    cases hrun
    rw [List.map_nil, List.append_nil]
    exact l
  | cons r rs ih =>
    intro kc kc' seen hB hbs l hsingle hnd hrun
    rw [run_reads] at hrun
    cases hread : key_cache_read kc r.file r.filepos r.level r.buff r.length with
    | none =>
      rw [hread] at hrun
      cases hrun
    | some x =>
      obtain ⟨e, out, k1⟩ := x
      rw [hread, Option.some_bind] at hrun
      cases e with
      | true =>
        have hrun0 : (none : Option KEY_CACHE) = some kc' := hrun
        cases hrun0
      | false =>
        have hrun1 : run_reads k1 rs = some kc' := hrun
        have hpos : 0 < B := by rw [← hB]; exact l.inv.1.cnt.blocks_pos
        have hp : read_page bs r ∉ seen := by
          intro hm
          rw [List.map_cons] at hnd
          have := (List.nodup_append.1 hnd).2.2
          exact this hm (List.mem_cons_self _ _)
        have hmiss : not_cached kc r.file (r.filepos - r.filepos % kc.key_cache_block_size) := by
          rcases not_cached_or kc r.file (r.filepos - r.filepos % kc.key_cache_block_size) with
            hm | hcached
          · exact hm
          · exfalso
            have := (l.cached_iff _ _).1 hcached
            rw [hbs] at this
            exact hp (List.mem_of_mem_drop this)
        obtain ⟨r1, r2, r3, r4⟩ := l.ready
        obtain ⟨cfg, b, h, st⟩ := key_cache_read_lru kc r.file r.filepos r.level r.length r.buff
          out k1 l.inv (by rw [hbs]; exact hsingle r (List.mem_cons_self _ _)) hmiss r1 r2 r3 r4
          hread
        have inv1 : INV k1 := key_cache_read_inv kc r.file r.filepos r.level r.buff r.length l.inv
          _ hread
        have l1 := l.step st inv1 cfg
        rw [hbs, hB] at l1
        have erp : (r.file, r.filepos - r.filepos % bs) = read_page bs r := rfl
        rw [erp, drop_last_append B hpos seen (read_page bs r)] at l1
        have hB1 : nblocks k1 = B := by
          unfold nblocks
          rw [cfg.2.2.2.2.2.1]
          exact hB
        have hbs1 : k1.key_cache_block_size = bs := by rw [cfg.2.2.2.2.1]; exact hbs
        have := ih k1 kc' (seen ++ [read_page bs r]) hB1 hbs1 l1
          (fun r' hr' => hsingle r' (List.mem_cons_of_mem _ hr'))
          (by
            rw [List.append_assoc, List.singleton_append]
            rw [List.map_cons] at hnd
            exact hnd)
          hrun1
        rw [List.append_assoc, List.singleton_append] at this
        rw [List.map_cons]
        exact this

theorem insert_after_mem (ins b : Nat) (l : List Nat) (h : ins ∈ l) :
    b ∈ insert_after ins b l := by
  induction l with
  | nil => cases h
  | cons x xs ih =>
    unfold insert_after
    by_cases hx : x = ins
    · rw [if_pos hx]
      exact List.mem_cons_of_mem _ (List.mem_cons_self _ _)
    · rw [if_neg hx]
      rcases List.mem_cons.1 h with e | e
      · exact absurd e.symm hx
      · exact List.mem_cons_of_mem _ (ih e)

theorem insert_after_erase (ins b : Nat) (l : List Nat) (hb : b ∉ l) :
    (insert_after ins b l).erase b = l := by
  induction l with
  | nil => rfl
  | cons x xs ih =>
    have hxb : x ≠ b := fun e => hb (e ▸ List.mem_cons_self _ _)
    have hbx : b ∉ xs := fun hm => hb (List.mem_cons_of_mem _ hm)
    unfold insert_after
    by_cases hx : x = ins
    · rw [if_pos hx, List.erase_cons_tail (by simpa using hxb), List.erase_cons_head]
    · rw [if_neg hx, List.erase_cons_tail (by simpa using hxb), ih hbx]

theorem insert_after_prev (ins b : Nat) (l : List Nat) (h : ins ∈ l) (hb : b ∉ l) :
    prev_in (insert_after ins b l) b = some ins := by
  induction l with
  | nil => cases h
  | cons x xs ih =>
    have hxb : x ≠ b := fun e => hb (e ▸ List.mem_cons_self _ _)
    have hbx : b ∉ xs := fun hm => hb (List.mem_cons_of_mem _ hm)
    unfold insert_after
    by_cases hx : x = ins
    · rw [if_pos hx]
      unfold prev_in
      rw [if_pos rfl, hx]
    · rw [if_neg hx]
      have hm : ins ∈ xs := by
        rcases List.mem_cons.1 h with e | e
        · exact absurd e.symm hx
        · exact e
      have hi := ih hm hbx
      cases hxs : insert_after ins b xs with
      | nil =>
        rw [hxs] at hi
        unfold prev_in at hi
        cases hi
      | cons y ys =>
        rw [hxs] at hi
        unfold prev_in
        by_cases hy : y = b
        · exfalso
          -- the head of `insert_after ins b xs` is the head of `xs`
          cases xs with
          | nil => cases hm
          | cons z zs =>
            unfold insert_after at hxs
            have hzb : z ≠ b := fun e => hbx (e ▸ List.mem_cons_self _ _)
            by_cases hz : z = ins
            · rw [if_pos hz] at hxs
              have := (List.cons.inj hxs).1
              exact hzb (this.trans hy)
            · rw [if_neg hz] at hxs
              have := (List.cons.inj hxs).1
              exact hzb (this.trans hy)
        · rw [if_neg hy]
          exact hi

theorem insert_after_head (ins b : Nat) (l : List Nat) :
    (insert_after ins b l).head? = l.head? := by
  cases l with
  | nil => rfl
  | cons x xs =>
    unfold insert_after
    by_cases hx : x = ins
    · rw [if_pos hx]; rfl
    · rw [if_neg hx]; rfl

theorem insert_after_getLast (ins b : Nat) (l : List Nat) (hl : l.getLast? ≠ some ins) :
    (insert_after ins b l).getLast? = l.getLast? := by
  induction l with
  | nil => rfl
  | cons x xs ih =>
    unfold insert_after
    by_cases hx : x = ins
    · rw [if_pos hx]
      cases xs with
      | nil =>
        exfalso
        apply hl
        rw [hx]
        rfl
      | cons y ys =>
        rw [List.getLast?_cons_cons, List.getLast?_cons_cons, List.getLast?_cons_cons]
    · rw [if_neg hx]
      cases xs with
      | nil => rfl
      | cons y ys =>
        have hl' : (y :: ys).getLast? ≠ some ins := by
          rw [List.getLast?_cons_cons] at hl
          exact hl
        have hi := ih hl'
        have hne : insert_after ins b (y :: ys) ≠ [] := by
          unfold insert_after
          split <;> simp
        obtain ⟨z, zs, hz⟩ := List.exists_cons_of_ne_nil hne
        rw [hz] at hi ⊢
        rw [List.getLast?_cons_cons, List.getLast?_cons_cons]
        exact hi

theorem prev_in_concat (l : List Nat) (b : Nat) (hb : b ∉ l) (hl : l ≠ []) :
    prev_in (l ++ [b]) b = l.getLast? := by
  induction l with
  | nil => exact absurd rfl hl
  | cons x xs ih =>
    have hbx : b ∉ xs := fun hm => hb (List.mem_cons_of_mem _ hm)
    cases xs with
    | nil =>
      show prev_in [x, b] b = some x
      unfold prev_in
      rw [if_pos rfl]
    | cons y ys =>
      have hyb : y ≠ b := fun e => hbx (e ▸ List.mem_cons_self _ _)
      show prev_in (x :: y :: (ys ++ [b])) b = _
      unfold prev_in
      rw [if_neg hyb, List.getLast?_cons_cons]
      exact ih hbx (by simp)

/-- Where `link_block` puts a block that is not in the LRU ring: into an empty
ring as its only block, with both pointers on it; else directly after
`used_ins` (hot) or after `used_last` (warm), the pointer moving on to the
block if `at_end` is set. The other blocks keep their order. -/
theorem link_block_place (kc : KEY_CACHE) (b : Nat) (hot at_end : Bool)
    (hok : RING_OK kc.used_ring kc.used_ins) (hb : b ∉ kc.used_ring) :
    b ∈ (link_block kc b hot at_end).used_ring ∧
    (link_block kc b hot at_end).used_ring.erase b = kc.used_ring ∧
    ring_prev (link_block kc b hot at_end).used_ring b =
      (if kc.used_ring = [] then some b else if hot = true then kc.used_ins else used_last kc) ∧
    (link_block kc b hot at_end).used_ins =
      (if kc.used_ring = [] then some b
       else if hot = true ∧ at_end = true then some b else kc.used_ins) ∧
    used_last (link_block kc b hot at_end) =
      (if kc.used_ring = [] then some b
       else if hot = false ∧ at_end = true then some b else used_last kc) := by
  obtain ⟨hnd, hins, hsome⟩ := hok
  by_cases hr : kc.used_ring = []
  · have hi : kc.used_ins = none := by
      cases h : kc.used_ins with
      | none => rfl
      | some x => have := hins x h; rw [hr] at this; cases this
    have e : link_block kc b hot at_end = { kc with used_ring := [b], used_ins := some b } := by
      unfold link_block used_last
      cases hot <;> simp [hr, hi]
    rw [e, if_pos hr, if_pos hr, if_pos hr]
    refine ⟨List.mem_singleton_self _, ?_, ?_, rfl, rfl⟩
    · show [b].erase b = kc.used_ring
      rw [List.erase_cons_head, hr]
    · show ring_prev [b] b = some b
      simp [ring_prev]
  · obtain ⟨l, hl⟩ : ∃ l, kc.used_ring.getLast? = some l := by
      cases hg : kc.used_ring.getLast? with
      | none => exact absurd (List.getLast?_eq_none_iff.1 hg) hr
      | some l => exact ⟨l, rfl⟩
    obtain ⟨i, hi⟩ := Option.ne_none_iff_exists'.1 (hsome hr)
    have him : i ∈ kc.used_ring := hins i hi
    have hhead : kc.used_ring.head? ≠ some b := by
      intro he
      exact hb (List.mem_of_mem_head? he)
    obtain ⟨x, xs, hx⟩ := List.exists_cons_of_ne_nil hr
    have hlast : (b :: kc.used_ring).getLast? = kc.used_ring.getLast? := by
      rw [hx, List.getLast?_cons_cons]
    rw [if_neg hr, if_neg hr, if_neg hr]
    cases hot with
    | true =>
      have e3 : (if true = true then kc.used_ins else used_last kc) = kc.used_ins := if_pos rfl
      have e5 : (if true = false ∧ at_end = true then some b else used_last kc) = used_last kc :=
        if_neg (by simp)
      have e4 : (if true = true ∧ at_end = true then some b else kc.used_ins) =
          (if at_end = true then some b else kc.used_ins) := by
        cases at_end <;> simp
      rw [e3, e4, e5]
      by_cases hli : l = i
      · have e : link_block kc b true at_end =
            { kc with used_ring := b :: kc.used_ring
                      used_ins := if at_end = true then some b else kc.used_ins } := by
          unfold link_block used_last
          simp [hi, hl, hli]
        rw [e]
        refine ⟨List.mem_cons_self _ _, List.erase_cons_head _ _, ?_, ?_, ?_⟩
        · show ring_prev (b :: kc.used_ring) b = kc.used_ins
          unfold ring_prev
          rw [List.head?_cons, if_pos rfl, hlast, hl, hi, hli]
        · rfl
        · show (b :: kc.used_ring).getLast? = kc.used_ring.getLast?
          exact hlast
      · have e : link_block kc b true at_end =
            { kc with used_ring := insert_after i b kc.used_ring
                      used_ins := if at_end = true then some b else kc.used_ins } := by
          unfold link_block used_last
          have : ¬ (some l = some i) := fun h => hli (Option.some.inj h)
          simp [hi, hl, this]
        rw [e]
        refine ⟨insert_after_mem i b _ him, insert_after_erase i b _ hb, ?_, ?_, ?_⟩
        · show ring_prev (insert_after i b kc.used_ring) b = kc.used_ins
          unfold ring_prev
          rw [insert_after_head, if_neg hhead, insert_after_prev i b _ him hb, hi]
        · rfl
        · show (insert_after i b kc.used_ring).getLast? = kc.used_ring.getLast?
          rw [insert_after_getLast i b _ (by rw [hl]; exact fun h => hli (Option.some.inj h))]
    | false =>
      have e3 : (if false = true then kc.used_ins else used_last kc) = used_last kc :=
        if_neg (by simp)
      have e4 : (if false = true ∧ at_end = true then some b else kc.used_ins) = kc.used_ins :=
        if_neg (by simp)
      rw [e3, e4]
      cases at_end with
      | true =>
        have e : link_block kc b false true =
            { kc with used_ring := kc.used_ring ++ [b] } := by
          unfold link_block used_last
          simp [hl]
        rw [e, if_pos ⟨rfl, rfl⟩]
        refine ⟨List.mem_append_right _ (List.mem_singleton_self _), ?_, ?_, rfl, ?_⟩
        · show (kc.used_ring ++ [b]).erase b = kc.used_ring
          rw [List.erase_append_right _ hb, List.erase_cons_head, List.append_nil]
        · show ring_prev (kc.used_ring ++ [b]) b = used_last kc
          unfold ring_prev used_last
          have hh : (kc.used_ring ++ [b]).head? ≠ some b := by
            rw [hx] at hhead ⊢
            exact hhead
          rw [if_neg hh, prev_in_concat _ b hb hr]
        · show (kc.used_ring ++ [b]).getLast? = some b
          simp
      | false =>
        have e : link_block kc b false false =
            { kc with used_ring := b :: kc.used_ring } := by
          unfold link_block used_last
          simp [hl]
        rw [e, if_neg (by simp)]
        refine ⟨List.mem_cons_self _ _, List.erase_cons_head _ _, ?_, rfl, ?_⟩
        · show ring_prev (b :: kc.used_ring) b = used_last kc
          unfold ring_prev used_last
          rw [List.head?_cons, if_pos rfl, hlast]
        · show (b :: kc.used_ring).getLast? = kc.used_ring.getLast?
          exact hlast

theorem link_block_ring_congr (kc kc2 : KEY_CACHE) (b : Nat) (hot at_end : Bool)
    (h1 : kc2.used_ring = kc.used_ring) (h2 : kc2.used_ins = kc.used_ins) :
    (link_block kc2 b hot at_end).used_ring = (link_block kc b hot at_end).used_ring ∧
    (link_block kc2 b hot at_end).used_ins = (link_block kc b hot at_end).used_ins := by
  unfold link_block used_last
  rw [h1, h2]
  cases hm : (if hot = true then kc.used_ins else kc.used_ring.getLast?) with
  | none => exact ⟨rfl, rfl⟩
  | some ins =>
    simp only []
    cases hot with
    | true =>
      simp only [if_true]
      exact ⟨trivial, trivial⟩
    | false =>
      simp only [Bool.false_eq_true, if_false]
      exact ⟨trivial, trivial⟩

/-- The LRU ring after the first part of `unreg_request` is the ring after
`link_block`. -/
theorem unreg_request_link_ring (kc : KEY_CACHE) (b : Nat) (at_end : Bool) :
    (unreg_request_link kc b at_end).used_ring =
      (link_block kc b (unreg_hot kc b at_end) at_end).used_ring ∧
    (unreg_request_link kc b at_end).used_ins =
      (link_block kc b (unreg_hot kc b at_end) at_end).used_ins ∧
    (unreg_request_link kc b at_end).keycache_time = kc.keycache_time + 1 := by
  unfold unreg_request_link unreg_hot
  refine ⟨?_, ?_, ?_⟩
  · show (link_block _ b _ at_end).used_ring = (link_block kc b _ at_end).used_ring
    refine (link_block_ring_congr kc _ b _ at_end ?_ ?_).1 <;> rfl
  · show (link_block _ b _ at_end).used_ins = (link_block kc b _ at_end).used_ins
    refine (link_block_ring_congr kc _ b _ at_end ?_ ?_).2 <;> rfl
  · show (link_block _ b _ at_end).keycache_time + 1 = _
    rw [(link_block_sizes _ _ _ _).2.2.1]
    rfl

/-- The ageing step of `unreg_request` when the block `x` at `used_ins` has
not been hit for more than `age_threshold` ticks: `x` is unlinked and linked
directly behind `used_last`, at the head of the ring. -/
theorem unreg_request_age_demote (K : KEY_CACHE) (x : Nat)
    (hok : RING_OK K.used_ring K.used_ins) (hi : K.used_ins = some x)
    (hold : K.keycache_time - (K.block_root x).last_hit_time > K.age_threshold) :
    ∃ K', unreg_request_age K = some K' ∧
      K'.used_ring = x :: K.used_ring.erase x ∧
      K'.used_ins = (if K.used_ring = [x] then some x else ring_prev K.used_ring x) ∧
      (K'.block_root x).temperature = BLOCK_WARM ∧
      K'.warm_blocks =
        (if (K.block_root x).temperature = BLOCK_WARM then K.warm_blocks
         else K.warm_blocks + 1) ∧
      K'.keycache_time = K.keycache_time ∧
      (∀ y, y ≠ x → K'.block_root y = K.block_root y) ∧
      (K'.block_root x).last_hit_time = (K.block_root x).last_hit_time ∧
      (K'.block_root x).hits_left = (K.block_root x).hits_left := by
  obtain ⟨hnd, hins, -⟩ := hok
  have hx : x ∈ K.used_ring := hins x hi
  unfold unreg_request_age
  simp only [hi]
  rw [if_pos hold]
  by_cases hs : K.used_ring = [x]
  · have hun : unlink_block K x = some { K with used_ring := [], used_ins := none } := by
      unfold unlink_block
      rw [if_pos hx, if_pos hs]
    have hl : link_block { K with used_ring := [], used_ins := none } x false false =
        { K with used_ring := [x], used_ins := some x } := by
      unfold link_block used_last
      simp
    have he : K.used_ring.erase x = [] := by rw [hs, List.erase_cons_head]
    simp only [hun, hl]
    by_cases ht : (K.block_root x).temperature = BLOCK_WARM
    · rw [if_neg (by simpa using ht)]
      refine ⟨_, rfl, by rw [he], by rw [if_pos hs], ht, by rw [if_pos ht], rfl,
        fun _ _ => rfl, rfl, rfl⟩
    · rw [if_pos (by simpa using ht)]
      refine ⟨_, rfl, by rw [he]; rfl, by rw [if_pos hs]; rfl, ?_, by rw [if_neg ht]; rfl, rfl, ?_, ?_, ?_⟩
      · simp only [set_block, Function.update_same]
      · intro y hy
        simp only [set_block, Function.update_noteq hy]
      · simp only [set_block, Function.update_same]
      · simp only [set_block, Function.update_same]
  · have hun : unlink_block K x =
        some { K with used_ring := K.used_ring.erase x, used_ins := ring_prev K.used_ring x } := by
      unfold unlink_block
      rw [if_pos hx, if_neg hs, if_pos hi]
    obtain ⟨y, hy, hym⟩ := ring_prev_spec _ x hx hnd hs
    have hne : K.used_ring.erase x ≠ [] := fun e => by rw [e] at hym; cases hym
    obtain ⟨l, hl⟩ : ∃ l, (K.used_ring.erase x).getLast? = some l := by
      cases hg : (K.used_ring.erase x).getLast? with
      | none => exact absurd (List.getLast?_eq_none_iff.1 hg) hne
      | some l => exact ⟨l, rfl⟩
    have hlk : link_block
        { K with used_ring := K.used_ring.erase x, used_ins := ring_prev K.used_ring x }
        x false false =
        { K with used_ring := x :: K.used_ring.erase x, used_ins := ring_prev K.used_ring x } := by
      unfold link_block used_last
      simp [hl]
    simp only [hun, hlk]
    by_cases ht : (K.block_root x).temperature = BLOCK_WARM
    · rw [if_neg (by simpa using ht)]
      refine ⟨_, rfl, rfl, by rw [if_neg hs], ht, by rw [if_pos ht], rfl,
        fun _ _ => rfl, rfl, rfl⟩
    · rw [if_pos (by simpa using ht)]
      refine ⟨_, rfl, rfl, by rw [if_neg hs]; rfl, ?_, by rw [if_neg ht]; rfl, rfl, ?_, ?_, ?_⟩
      · simp only [set_block, Function.update_same]
      · intro y hy
        simp only [set_block, Function.update_noteq hy]
      · simp only [set_block, Function.update_same]
      · simp only [set_block, Function.update_same]

/-- The ageing step of `unreg_request` when there is no block at `used_ins`, or
the block there has been hit within the last `age_threshold` ticks: nothing
changes. -/
theorem unreg_request_age_keep (K : KEY_CACHE)
    (h : ∀ x, K.used_ins = some x →
      ¬ (K.keycache_time - (K.block_root x).last_hit_time > K.age_threshold)) :
    unreg_request_age K = some K := by
  unfold unreg_request_age
  cases hi : K.used_ins with
  | none => rfl
  | some x =>
    simp only []
    rw [if_neg (h x hi)]

/-- A page is not cached when no hash link in its bucket has its key. -/
theorem not_cached_of_bucket (kc : KEY_CACHE) (f key : Nat) (hs : HASH_INV kc)
    (h : ∀ x, x ∈ kc.hash_root (KEYCACHE_HASH kc f key) →
      ¬ ((kc.hash_link_root x).file = f ∧ (kc.hash_link_root x).diskpos = key)) :
    not_cached kc f key := by
  intro x hb hk
  refine h x ((hs.iff _ x).2 ⟨hb, ?_⟩) hk
  rw [hk.1, hk.2]

/-! ## The counter of running operations is left alone by the block primitives -/

theorem unlink_hash_cnt (kc : KEY_CACHE) (h : Nat) :
    (unlink_hash kc h).cnt_for_resize_op = kc.cnt_for_resize_op := rfl

theorem pread_direct_cnt (kc : KEY_CACHE) (f c pos : Nat) (buff : Nat → Nat) (dst : Nat) :
    (pread_direct kc f c pos buff dst).2.2.cnt_for_resize_op = kc.cnt_for_resize_op := rfl

theorem pwrite_direct_cnt (kc : KEY_CACHE) (f : Nat) (buff : List Nat) (pos : Nat) :
    (pwrite_direct kc f buff pos).2.cnt_for_resize_op = kc.cnt_for_resize_op := rfl

/-- The hash table that `init_key_cache` sizes for `b` blocks has at most
`4 * b` entries. -/
theorem init_hash_entries_le (b : Nat) (hb : 1 ≤ b) : init_hash_entries b ≤ 4 * b := by
  have hmod : ∀ x : Nat, x % 4294967296 < 4294967296 := fun x => Nat.mod_lt _ (by decide)
  by_cases hs : b < 1073741824
  · have hb0 : b ≠ 0 := by omega
    have e : b % 4294967296 = b := Nat.mod_eq_of_lt (by omega)
    have hnp : next_power b = 2 ^ (b.log2 + 1) := next_power_eq b hb0 (by omega)
    have h1 : 2 ^ b.log2 ≤ b := Nat.log2_self_le hb0
    have hp2 : 2 ^ (b.log2 + 1) = 2 * 2 ^ b.log2 := by rw [pow_succ]; ring
    unfold init_hash_entries
    rw [e, hnp]
    split
    · rename_i hlt
      have := Nat.mod_le (2 ^ (b.log2 + 1) * 2) 4294967296
      have h5 : b * 5 / 4 ≤ b * 5 := Nat.div_le_self _ _
      have h6 : b * 5 / 4 * 4 ≤ b * 5 := Nat.div_mul_le_self _ _
      omega
    · omega
  · unfold init_hash_entries
    split
    · have := hmod (next_power (b % 4294967296) * 2)
      omega
    · have : next_power (b % 4294967296) < 4294967296 := by
        unfold next_power
        exact hmod _
      omega

/-- The loop of `init_key_cache` that makes `blocks` smaller until the cache
fits into `use_mem` ends before `blocks` passes below zero when the tables
without any block fit. -/
theorem init_fit_total (p : PLATFORM) (bs um hl he : Nat)
    (h0 : init_length p 0 hl he ≤ um) :
    ∀ b, ∃ r, init_fit p bs um hl he (b + 1) b = some r := by
  intro b
  induction b with
  | zero =>
    unfold init_fit
    rw [if_neg (by omega)]
    exact ⟨_, rfl⟩
  | succ n ih =>
    unfold init_fit
    split
    · rw [if_neg (by omega)]
      exact ih
    · exact ⟨_, rfl⟩

/-- The descriptor tables of a cache without any block, sized for `b` blocks,
fit into the memory that the estimate of `init_key_cache` takes for `b` blocks
of at least 512 bytes. -/
theorem init_length_zero_le (p : PLATFORM) (bs um b : Nat)
    (hA : ∀ x, p.ALIGN_SIZE x ≤ x + 7) (hp : p.sizeof_pointer ≤ 8) (hbs : 512 ≤ bs)
    (hb : 1 ≤ b)
    (hest : b ≤ um / (p.sizeof_BLOCK_LINK + 2 * p.sizeof_HASH_LINK +
      p.sizeof_pointer * 5 / 4 + bs)) :
    init_length p 0 (2 * b) (init_hash_entries b) ≤ um := by
  have hS : 0 < p.sizeof_BLOCK_LINK + 2 * p.sizeof_HASH_LINK + p.sizeof_pointer * 5 / 4 + bs := by
    omega
  have h1 : b * (p.sizeof_BLOCK_LINK + 2 * p.sizeof_HASH_LINK + p.sizeof_pointer * 5 / 4 + bs)
      ≤ um := (Nat.le_div_iff_mul_le hS).1 hest
  have he := init_hash_entries_le b hb
  have a1 := hA (0 * p.sizeof_BLOCK_LINK)
  have a2 := hA (2 * b * p.sizeof_HASH_LINK)
  have a3 := hA (p.sizeof_pointer * init_hash_entries b)
  have h2 : p.sizeof_pointer * init_hash_entries b ≤ 8 * (4 * b) := Nat.mul_le_mul hp he
  have h3 : b * (2 * p.sizeof_HASH_LINK + bs) ≤
      b * (p.sizeof_BLOCK_LINK + 2 * p.sizeof_HASH_LINK + p.sizeof_pointer * 5 / 4 + bs) :=
    Nat.mul_le_mul_left _ (by omega)
  have h4 : b * (2 * p.sizeof_HASH_LINK + bs) = 2 * b * p.sizeof_HASH_LINK + b * bs := by ring
  have h5 : b * 512 ≤ b * bs := Nat.mul_le_mul_left _ hbs
  unfold init_length
  omega

/-- The allocation loop of `init_key_cache` comes to an end, and in none of
its rounds does `blocks` pass below zero. -/
theorem init_alloc_total (p : PLATFORM) (bs um : Nat)
    (hA : ∀ x, p.ALIGN_SIZE x ≤ x + 7) (hp : p.sizeof_pointer ≤ 8) (hbs : 512 ≤ bs) :
    ∀ (fuel round b : Nat), b < fuel → 1 ≤ b →
      b ≤ um / (p.sizeof_BLOCK_LINK + 2 * p.sizeof_HASH_LINK + p.sizeof_pointer * 5 / 4 + bs) →
      ∃ r, init_alloc p bs um fuel round b = some r := by
  intro fuel
  induction fuel with
  | zero =>
    intro round b h
    omega
  | succ n ih =>
    intro round b hf hb hest
    obtain ⟨r, hr⟩ := init_fit_total p bs um (2 * b) (init_hash_entries b)
      (init_length_zero_le p bs um b hA hp hbs hb hest) b
    have hle := (init_fit_spec p bs um _ _ _ _ _ _ hr).1
    unfold init_alloc
    rw [hr, Option.some_bind]
    split
    · exact ⟨_, rfl⟩
    · split
      · exact ⟨_, rfl⟩
      · exact ih _ _ (by omega) (by omega) (by omega)

theorem my_pwrite_error (d : DISK) (f : Nat) (buf : List Nat) (pos : Nat) :
    (my_pwrite d f buf pos).1 = d.pwrite_errno d.pwrites.length := by
  unfold my_pwrite
  split
  · rename_i e he
    rw [he]
  · rename_i he
    rw [he]

theorem my_pwrite_logged (d : DISK) (f : Nat) (buf : List Nat) (pos : Nat) :
    (fun n => logged_from n (my_pwrite d f buf pos).2) = fun n => logged_from n d := by
  funext n
  apply propext
  unfold logged_from
  rw [(my_pwrite_oracles d f buf pos).1, my_pwrite_log, my_pwrite_error]
  constructor
  · intro h i w hi hw
    refine h i w hi ?_
    have hlt : i < d.pwrites.length := by
      by_contra hc
      rw [List.getElem?_eq_none (by omega)] at hw
      cases hw
    rw [List.getElem?_append_left hlt]
    exact hw
  · intro h i w hi hw
    by_cases hlt : i < d.pwrites.length
    · rw [List.getElem?_append_left hlt] at hw
      exact h i w hi hw
    · rw [List.getElem?_append_right (by omega)] at hw
      have hi0 : i - d.pwrites.length = 0 := by
        by_contra hc
        rw [List.getElem?_eq_none (by simp; omega)] at hw
        cases hw
      rw [hi0] at hw
      have e : i = d.pwrites.length := by omega
      have hw' : (⟨f, pos, buf, d.pwrite_errno d.pwrites.length⟩ : PWRITE_CALL) = w := by
        simpa using hw
      rw [← hw', e]

/-- The calls of `my_pwrite` that have been recorded since the state `d` of
the file store have not failed, when they are recorded as the oracle says and
the oracle lets no call from the state `d` on fail. -/
theorem logged_quiet (d d' : DISK) (W : List PWRITE_CALL)
    (hl : logged_from d.pwrites.length d') (ho : d'.pwrite_errno = d.pwrite_errno)
    (hW : d'.pwrites = d.pwrites ++ W)
    (hq : ∀ n, d.pwrites.length ≤ n → d.pwrite_errno n = none) :
    ∀ w, w ∈ W → w.error = none := by
  intro w hw
  obtain ⟨j, hj, e⟩ := List.getElem_of_mem hw
  have h1 : d'.pwrites[d.pwrites.length + j]? = some w := by
    rw [hW, List.getElem?_append_right (by omega)]
    have : d.pwrites.length + j - d.pwrites.length = j := by omega
    rw [this, List.getElem?_eq_getElem hj, e]
  rw [hl _ w (by omega) h1, ho]
  exact hq _ (by omega)

theorem logged_from_length (d : DISK) : logged_from d.pwrites.length d := by
  intro i w hi hw
  rw [List.getElem?_eq_none (by omega)] at hw
  cases hw

/-! ## The oracles of the file store and the block size are left alone -/

theorem fixed_ext {a b : KEY_CACHE} (h1 : a.disk.pread_forced = b.disk.pread_forced)
    (h2 : a.key_cache_block_size = b.key_cache_block_size)
    (h3 : a.disk.pwrite_errno = b.disk.pwrite_errno)
    (h4 : (fun n => logged_from n a.disk) = fun n => logged_from n b.disk) :
    a.fixed = b.fixed := by
  unfold KEY_CACHE.fixed
  rw [h1, h2, h3, h4]

theorem set_block_fixed (kc : KEY_CACHE) (b : Nat) (v : BLOCK_LINK) :
    (set_block kc b v).fixed = kc.fixed := rfl

theorem set_status_fixed (kc : KEY_CACHE) (b : Nat) (s : STATUS) :
    (set_status kc b s).fixed = kc.fixed := rfl

theorem unlink_changed_fixed (kc : KEY_CACHE) (b : Nat) :
    (unlink_changed kc b).fixed = kc.fixed := rfl

theorem link_changed_fixed (kc : KEY_CACHE) (b : Nat) (p : CHAIN_HEAD) :
    (link_changed kc b p).fixed = kc.fixed := by
  cases p <;> rfl

theorem ite_fixed {c : Prop} [Decidable c] (a b : KEY_CACHE)
    (n : ((Nat → Option Nat) × Nat) × ((Nat → Option Int) × (Nat → Prop)))
    (ha : a.fixed = n) (hb : b.fixed = n) :
    (if c then a else b).fixed = n := by
  split <;> assumption

theorem link_to_file_list_fixed (kc : KEY_CACHE) (b f : Nat) (u : Bool) :
    (link_to_file_list kc b f u).fixed = kc.fixed := by
  unfold link_to_file_list
  exact ite_fixed _ _ kc.fixed (by cases u <;> exact fixed_ext rfl rfl rfl rfl)
    (by cases u <;> exact fixed_ext rfl rfl rfl rfl)

theorem link_block_fixed (kc : KEY_CACHE) (b : Nat) (hot at_end : Bool) :
    (link_block kc b hot at_end).fixed = kc.fixed := by
  unfold link_block
  split
  · split <;> rfl
  · rfl

theorem unlink_block_fixed (kc k : KEY_CACHE) (b : Nat) (h : unlink_block kc b = some k) :
    k.fixed = kc.fixed := by
  unfold unlink_block at h
  split at h
  · split at h <;> cases h <;> rfl
  · cases h

theorem reg_requests_fixed (kc k : KEY_CACHE) (b c : Nat) (h : reg_requests kc b c = some k) :
    k.fixed = kc.fixed := by
  unfold reg_requests at h
  split at h
  · cases h
  · rename_i k1 hk
    cases h
    rw [set_block_fixed]
    split at hk
    · exact unlink_block_fixed _ _ _ hk
    · cases hk; rfl

theorem unreg_request_link_fixed (kc : KEY_CACHE) (b : Nat) (at_end : Bool) :
    (unreg_request_link kc b at_end).fixed = kc.fixed := by
  unfold unreg_request_link
  simp only []
  show (link_block _ b _ at_end).fixed = _
  rw [link_block_fixed]
  rfl

theorem unreg_request_age_fixed (kc k : KEY_CACHE) (h : unreg_request_age kc = some k) :
    k.fixed = kc.fixed := by
  unfold unreg_request_age at h
  split at h
  · cases h; rfl
  · split at h
    · split at h
      · cases h
      · rename_i k1 hk
        have e := unlink_block_fixed _ _ _ hk
        simp only [] at h
        split at h <;> cases h
        · show (link_block k1 _ false false).fixed = _
          rw [link_block_fixed, e]
        · rw [link_block_fixed, e]
    · cases h; rfl

theorem unreg_request_fixed (kc k : KEY_CACHE) (b : Nat) (at_end : Bool)
    (h : unreg_request kc b at_end = some k) :
    k.fixed = kc.fixed := by
  unfold unreg_request at h
  simp only [] at h
  split at h
  · rw [unreg_request_age_fixed _ _ h, unreg_request_link_fixed]
    rfl
  · cases h; rfl

theorem wait_for_readers_fixed (kc k : KEY_CACHE) (b : Nat) (h : wait_for_readers kc b = some k) :
    k.fixed = kc.fixed := by
  unfold wait_for_readers at h
  split at h
  · cases h
  · split at h <;> cases h
    rfl

theorem unlink_hash_fixed (kc : KEY_CACHE) (h : Nat) :
    (unlink_hash kc h).fixed = kc.fixed := rfl

theorem free_block_wait_fixed (kc k : KEY_CACHE) (b : Nat) (h : free_block_wait kc b = some k) :
    k.fixed = kc.fixed := by
  unfold free_block_wait at h
  split at h
  · simp only [] at h
    split at h
    · cases h
    · rename_i k1 hk
      cases h
      rw [set_status_fixed, wait_for_readers_fixed _ _ _ hk, set_status_fixed]
  · cases h; rfl

theorem free_block_release_fixed (kc k : KEY_CACHE) (b : Nat)
    (h : free_block_release kc b = some k) :
    k.fixed = kc.fixed := by
  unfold free_block_release at h
  simp only [] at h
  split at h
  · cases h
  · cases h
    simp only [set_block, unlink_hash, unlink_changed, set_hash_link]
    split <;> rfl

theorem free_block_fixed (kc k : KEY_CACHE) (b : Nat) (h : free_block kc b = some k) :
    k.fixed = kc.fixed := by
  unfold free_block at h
  cases h1 : free_block_wait kc b with
  | none => rw [h1] at h; cases h
  | some k1 =>
    rw [h1, Option.some_bind] at h
    cases h2 : unreg_request k1 b false with
    | none => rw [h2] at h; cases h
    | some k2 =>
      rw [h2, Option.some_bind] at h
      have e12 : k2.fixed = kc.fixed := by
        rw [unreg_request_fixed _ _ _ _ h2, free_block_wait_fixed _ _ _ h1]
      split at h
      · cases h; exact e12
      · cases h3 : (if (k2.block_root b).status.error = false then unlink_block k2 b
            else some k2) with
        | none => rw [h3] at h; cases h
        | some k3 =>
          rw [h3, Option.some_bind] at h
          rw [free_block_release_fixed _ _ _ h, ← e12]
          split at h3
          · exact unlink_block_fixed _ _ _ h3
          · cases h3; rfl

theorem flush_block_write_fixed (kc k : KEY_CACHE) (file b : Nat) (e e' : Int)
    (h : flush_block_write kc file b e = some (e', k)) : k.fixed = kc.fixed := by
  unfold flush_block_write at h
  split at h
  · split at h
    · cases h
    · simp only [] at h
      cases h
      rw [link_to_file_list_fixed, set_status_fixed]
      split
      · rw [set_status_fixed]
        exact fixed_ext (my_pwrite_forced _ _ _ _) rfl
            (my_pwrite_oracles _ _ _ _).1 (my_pwrite_logged _ _ _ _)
      · exact fixed_ext (my_pwrite_forced _ _ _ _) rfl
            (my_pwrite_oracles _ _ _ _).1 (my_pwrite_logged _ _ _ _)
  · cases h
    rfl

theorem flush_cached_block_fixed (kc k : KEY_CACHE) (file b : Nat) (type : flush_type)
    (e e' : Int) (h : flush_cached_block kc file b type e = some (e', k)) :
    k.fixed = kc.fixed := by
  unfold flush_cached_block at h
  rw [Option.bind_eq_some] at h
  obtain ⟨r, hr, h⟩ := h
  obtain ⟨e1, k1⟩ := r
  have e1f := flush_block_write_fixed _ _ _ _ _ _ hr
  simp only [] at h
  split at h
  · rw [Option.map_eq_some'] at h
    obtain ⟨k2, h2, h3⟩ := h
    cases h3
    rw [free_block_fixed _ _ _ h2, set_status_fixed, e1f]
  · rw [Option.map_eq_some'] at h
    obtain ⟨k2, h2, h3⟩ := h
    cases h3
    rw [unreg_request_fixed _ _ _ _ h2, set_status_fixed, e1f]

theorem flush_cached_blocks_loop_fixed (file : Nat) (type : flush_type) :
    ∀ (l : List Nat) (kc k : KEY_CACHE) (e e' : Int),
      flush_cached_blocks_loop file type l kc e = some (e', k) → k.fixed = kc.fixed := by
  intro l
  induction l with
  | nil =>
    intro kc k e e' h
    rw [flush_cached_blocks_loop] at h
    cases h
    rfl
  | cons b rest ih =>
    intro kc k e e' h
    rw [flush_cached_blocks_loop] at h
    cases h1 : flush_cached_block kc file b type e with
    | none => rw [h1] at h; cases h
    | some r =>
      obtain ⟨e1, k1⟩ := r
      rw [h1] at h
      exact (ih k1 k e1 e' h).trans (flush_cached_block_fixed _ _ _ _ _ _ _ h1)

theorem flush_cached_blocks_fixed (kc k : KEY_CACHE) (file : Nat) (cache : List Nat)
    (type : flush_type) (e : Int) (h : flush_cached_blocks kc file cache type = some (e, k)) :
    k.fixed = kc.fixed :=
  flush_cached_blocks_loop_fixed file type _ kc k 0 e h

theorem flush_scan_fixed (file : Nat) (type : flush_type) (count : Nat) :
    ∀ (l : List Nat) (kc : KEY_CACHE) (burst : List Nat) (lif lfu : Option Nat)
      (fis : List Nat) (e : Int) (n : Nat) (r : SCAN_RESULT),
      flush_scan file type count l kc burst lif lfu fis e n = some r →
      r.cache.fixed = kc.fixed := by
  intro l
  induction l with
  | nil =>
    intro kc burst lif lfu fis e n r h
    rw [flush_scan] at h
    cases h
    rfl
  | cons b next ih =>
    intro kc burst lif lfu fis e n r h
    rw [flush_scan] at h
    split at h
    · cases h
    · split at h
      · simp only [] at h
        split at h
        · split at h
          · split at h
            · cases h
            · rename_i k1 h1
              have e1 := reg_requests_fixed _ _ _ _ h1
              split at h
              · split at h
                · split at h
                  · cases h
                  · rename_i k2 h2
                    have e2 := unreg_request_fixed _ _ _ _ h2
                    split at h
                    · cases h
                    · rename_i error k3 h3
                      have e3 := flush_cached_blocks_fixed _ _ _ _ _ _ h3
                      have e4 : k3.fixed = kc.fixed := by rw [e3, e2, e1]
                      split at h
                      · split at h
                        · split at h <;> cases h <;> exact e4
                        · cases h; exact e4
                      · cases h; exact e4
                · exact (ih _ _ _ _ _ _ _ _ h).trans (by rw [set_status_fixed, e1])
              · split at h
                · cases h
                · rename_i k3 h3
                  refine (ih _ _ _ _ _ _ _ _ h).trans ?_
                  split at h3
                  · rw [free_block_fixed _ _ _ h3, link_to_file_list_fixed, e1]
                  · rw [unreg_request_fixed _ _ _ _ h3, link_to_file_list_fixed, e1]
          · exact (ih _ _ _ _ _ _ _ _ h).trans (unlink_changed_fixed _ _)
        · split at h
          · split at h <;> exact ih _ _ _ _ _ _ _ _ h
          · exact ih _ _ _ _ _ _ _ _ h
      · exact ih _ _ _ _ _ _ _ _ h

theorem free_clean_pass_fixed (file : Nat) :
    ∀ (l : List Nat) (kc : KEY_CACHE) (found : Nat) (lfu lis : Option Nat)
      (r : KEY_CACHE × Nat × Option Nat × Option Nat),
      free_clean_pass file l kc found lfu lis = some r → r.1.fixed = kc.fixed := by
  intro l
  induction l with
  | nil =>
    intro kc found lfu lis r h
    rw [free_clean_pass] at h
    cases h
    rfl
  | cons b next ih =>
    intro kc found lfu lis r h
    rw [free_clean_pass] at h
    split at h
    · cases h
    · split at h
      · simp only [] at h
        split at h
        · exact ih _ _ _ _ _ h
        · split at h
          · split at h
            · cases h
            · rename_i k1 h1
              split at h
              · cases h
              · rename_i k2 h2
                rw [ih _ _ _ _ _ h, free_block_fixed _ _ _ h2, reg_requests_fixed _ _ _ _ h1]
          · exact ih _ _ _ _ _ h
      · exact ih _ _ _ _ _ h

theorem free_clean_loop_fixed (file : Nat) :
    ∀ (fuel : Nat) (kc : KEY_CACHE) (total : Nat) (lfu lis : Option Nat)
      (r : KEY_CACHE × Nat × Option Nat × Option Nat),
      free_clean_loop file fuel kc total lfu lis = some r → r.1.fixed = kc.fixed := by
  intro fuel
  induction fuel with
  | zero =>
    intro kc total lfu lis r h
    rw [free_clean_loop] at h
    cases h
  | succ fuel ih =>
    intro kc total lfu lis r h
    rw [free_clean_loop] at h
    split at h
    · cases h
    · rename_i k1 found lfu1 lis1 h1
      have e1 := free_clean_pass_fixed _ _ _ _ _ _ _ h1
      split at h
      · rw [ih _ _ _ _ _ h]
        exact e1
      · cases h
        exact e1

theorem flush_after_fixed (file : Nat) (type : flush_type) (count fuel : Nat)
    (ih : ∀ (kc : KEY_CACHE) (fis : List Nat) (e : Int) (n : Nat) (r : Int × KEY_CACHE),
      flush_key_blocks_loop file type count fuel kc fis e n = some r → r.2.fixed = kc.fixed)
    (kc k1 : KEY_CACHE) (lif lfu : Option Nat) (fis1 : List Nat) (e1 : Int) (n1 : Nat)
    (r : Int × KEY_CACHE) (ek : k1.fixed = kc.fixed)
    (h : (match lif with
      | some blk =>
        if (k1.block_root blk).status.in_flush then none
        else flush_key_blocks_loop file type count fuel k1 fis1 e1 n1
      | none =>
        match lfu with
        | some blk =>
          if (k1.block_root blk).status.for_update then none
          else flush_key_blocks_loop file type count fuel k1 fis1 e1 n1
        | none =>
          if fis1 ≠ [] then none
          else if ¬ (type = FLUSH_KEEP ∨ type = FLUSH_FORCE_WRITE) then
            match free_clean_loop file ((k1.file_blocks (FILE_HASH file)).length + 1) k1 0
                none none with
            | none => none
            | some (kc, total_found, last_for_update, last_in_switch) =>
              if total_found ≠ 0 then
                flush_key_blocks_loop file type count fuel kc fis1 e1 n1
              else if last_for_update.isSome then none
              else if last_in_switch.isSome then none
              else some (e1, kc)
          else some (e1, k1)) = some r) : r.2.fixed = kc.fixed := by
  split at h
  · split at h
    · cases h
    · exact (ih _ _ _ _ _ h).trans ek
  · split at h
    · split at h
      · cases h
      · exact (ih _ _ _ _ _ h).trans ek
    · split at h
      · cases h
      · split at h
        · split at h
          · cases h
          · rename_i k2 tf l1 l2 h2
            have e2 := free_clean_loop_fixed _ _ _ _ _ _ _ h2
            split at h
            · exact (ih _ _ _ _ _ h).trans (e2.trans ek)
            · split at h
              · cases h
              · split at h
                · cases h
                · cases h
                  exact e2.trans ek
        · cases h
          exact ek

theorem flush_key_blocks_loop_fixed (file : Nat) (type : flush_type) (count : Nat) :
    ∀ (fuel : Nat) (kc : KEY_CACHE) (fis : List Nat) (e : Int) (n : Nat) (r : Int × KEY_CACHE),
      flush_key_blocks_loop file type count fuel kc fis e n = some r →
      r.2.fixed = kc.fixed := by
  intro fuel
  induction fuel with
  | zero =>
    intro kc fis e n r h
    rw [flush_key_blocks_loop] at h
    cases h
  | succ fuel ih =>
    intro kc fis e n r h
    rw [flush_key_blocks_loop] at h
    cases hs : flush_scan file type count (kc.changed_blocks (FILE_HASH file)) kc [] none none
        fis e n with
    | none => rw [hs] at h; cases h
    | some sr =>
      have es := flush_scan_fixed _ _ _ _ _ _ _ _ _ _ _ _ hs
      rw [hs] at h
      cases sr with
      | err k e1 =>
        cases h
        exact es
      | restart k e1 n1 fis1 =>
        exact (ih _ _ _ _ _ h).trans es
      | scanned k burst lif lfu fis1 =>
        have es' : k.fixed = kc.fixed := es
        simp only [] at h
        split at h
        · split at h
          · cases h
          · rename_i error k1 h1
            have e1 := (flush_cached_blocks_fixed _ _ _ _ _ _ h1).trans es'
            split at h
            · cases h
              exact e1
            · split at h
              · exact (ih _ _ _ _ _ h).trans e1
              · exact flush_after_fixed file type count fuel ih kc _ lif lfu fis1 _ _ r e1 h
        · exact flush_after_fixed file type count fuel ih kc _ lif lfu fis1 _ _ r es' h

theorem flush_key_blocks_int_fixed (kc : KEY_CACHE) (file : Nat) (type : flush_type)
    (malloc_ok : Bool) (r : Bool × KEY_CACHE)
    (h : flush_key_blocks_int kc file type malloc_ok = some r) : r.2.fixed = kc.fixed := by
  unfold flush_key_blocks_int at h
  split at h
  · split at h
    · cases h
    · split at h
      · cases h
      · rename_i e k h1
        cases h
        exact flush_key_blocks_loop_fixed _ _ _ _ _ _ _ _ _ h1
  · cases h
    rfl

theorem flush_key_blocks_fixed (kc : KEY_CACHE) (file : Nat) (type : flush_type)
    (malloc_ok : Bool) (r : Bool × KEY_CACHE)
    (h : flush_key_blocks kc file type malloc_ok = some r) : r.2.fixed = kc.fixed := by
  unfold flush_key_blocks at h
  split at h
  · cases h
    rfl
  · split at h
    · split at h
      · cases h
      · rename_i res k h1
        cases h
        exact (fixed_ext rfl rfl rfl rfl).trans
          ((flush_key_blocks_int_fixed _ _ _ _ _ h1).trans (fixed_ext rfl rfl rfl rfl))
    · cases h
      rfl

set_option maxRecDepth 100000 in
theorem mixed_cache_inv : INV mixed_cache :=
  reachable_inv lp64 { disk := two_files } 1024 11178 100 300
    (started_cache two_files 100 300) mixed_cache mixed_ops (started_cache_ok _ _ _) (by
      have hs : (run_ops (started_cache two_files 100 300) mixed_ops).isSome = true := rfl
      unfold mixed_cache
      cases h : run_ops (started_cache two_files 100 300) mixed_ops with
      | none => rw [h] at hs; cases hs
      | some k => rfl)

/-- A call whose result is known by its first component returns that result
with the state it leaves. -/
theorem some_of_fst {α : Type} (x : Option (Bool × α)) (a : Bool) (d : α)
    (h : x.map Prod.fst = some a) : x = some (a, (x.map Prod.snd).getD d) := by
  cases x with
  | none => cases h
  | some r =>
    obtain ⟨b, k⟩ := r
    cases h
    rfl

set_option maxRecDepth 100000 in
theorem mixed_kept_eq :
    flush_key_blocks mixed_cache 1 FLUSH_KEEP true = some (false, mixed_kept) :=
  some_of_fst _ false mixed_cache (by decide!)

set_option maxRecDepth 100000 in
theorem mixed_released_eq :
    flush_key_blocks mixed_cache 1 FLUSH_RELEASE true = some (false, mixed_released) :=
  some_of_fst _ false mixed_cache (by decide!)

set_option maxRecDepth 100000 in
theorem mixed_ignored_eq :
    flush_key_blocks mixed_cache 1 FLUSH_IGNORE_CHANGED true = some (false, mixed_ignored) :=
  some_of_fst _ false mixed_cache (by decide!)

set_option maxRecDepth 100000 in
theorem mixed_cache_files :
    dirty_of mixed_cache 1 0 ∧ dirty_of mixed_cache 1 1 ∧ of_file mixed_cache 1 2 ∧
    dirty_of mixed_cache 129 3 ∧ of_file mixed_cache 129 4 ∧
    ¬ of_file mixed_cache 1 3 ∧ ¬ of_file mixed_cache 1 4 := by
  refine ⟨⟨⟨0, by decide!, by decide!⟩, by decide!⟩, ⟨⟨1, by decide!, by decide!⟩, by decide!⟩,
    ⟨2, by decide!, by decide!⟩, ⟨⟨3, by decide!, by decide!⟩, by decide!⟩,
    ⟨4, by decide!, by decide!⟩, ?_, ?_⟩
  · rintro ⟨l, h1, h2⟩
    have e0 : (mixed_cache.block_root 3).hash_link = some 3 := by decide!
    rw [e0] at h1
    have e : l = 3 := (Option.some.inj h1).symm
    rw [e] at h2
    exact absurd h2 (by decide!)
  · rintro ⟨l, h1, h2⟩
    have e0 : (mixed_cache.block_root 4).hash_link = some 4 := by decide!
    rw [e0] at h1
    have e : l = 4 := (Option.some.inj h1).symm
    rw [e] at h2
    exact absurd h2 (by decide!)

theorem filter_length_le (p q : Nat → Bool) : ∀ (l : List Nat),
    (∀ x, x ∈ l → q x = true → p x = true) → (l.filter q).length ≤ (l.filter p).length
  | [], _ => Nat.le_refl _
  | a :: l, h => by
    have ih := filter_length_le p q l (fun x hx => h x (List.mem_cons_of_mem _ hx))
    cases hq : q a with
    | false =>
      rw [List.filter_cons_of_neg (by simp [hq])]
      cases hp : p a with
      | false => rw [List.filter_cons_of_neg (by simp [hp])]; exact ih
      | true =>
        rw [List.filter_cons_of_pos hp]
        exact Nat.le_succ_of_le ih
    | true =>
      rw [List.filter_cons_of_pos hq, List.filter_cons_of_pos (h a (List.mem_cons_self _ _) hq)]
      exact Nat.succ_le_succ ih

theorem filter_length_lt (p q : Nat → Bool) (b : Nat) : ∀ (l : List Nat), b ∈ l →
    (∀ x, x ∈ l → q x = true → p x = true) → p b = true → q b = false →
    (l.filter q).length < (l.filter p).length
  | [], hb, _, _, _ => by cases hb
  | a :: l, hb, h, hp, hq => by
    have hle := filter_length_le p q l (fun x hx => h x (List.mem_cons_of_mem _ hx))
    by_cases hab : b = a
    · rw [← hab, List.filter_cons_of_neg (by simp [hq]), List.filter_cons_of_pos hp]
      exact Nat.lt_succ_of_le hle
    · have hbl : b ∈ l := by
        rcases List.mem_cons.1 hb with h1 | h1
        · exact absurd h1 hab
        · exact h1
      have ih := filter_length_lt p q b l hbl (fun x hx => h x (List.mem_cons_of_mem _ hx)) hp hq
      cases hqa : q a with
      | false =>
        rw [List.filter_cons_of_neg (by simp [hqa])]
        cases hpa : p a with
        | false => rw [List.filter_cons_of_neg (by simp [hpa])]; exact ih
        | true =>
          rw [List.filter_cons_of_pos hpa]
          exact Nat.lt_succ_of_lt ih
      | true =>
        rw [List.filter_cons_of_pos hqa,
          List.filter_cons_of_pos (h a (List.mem_cons_self _ _) hqa)]
        exact Nat.succ_lt_succ ih

/-- One flush of `flush_all_key_blocks` on a cache between two operations in
which no block carries `BLOCK_ERROR`: the flush of the file returns; no block
has come into use, and when the flush returns 0 no block has got `BLOCK_ERROR`,
no block has become dirty, no block of the file is dirty, and after a
`FLUSH_RELEASE` no block of the file is left. It returns 0 when no call of
`my_pwrite` fails. -/
theorem flush_all_step (kc : KEY_CACHE) (f : Nat) (type : flush_type) (malloc_ok : Bool)
    (wf : WF kc none []) (aux : AUX kc) (hne : ∀ g, NOERR kc g) (ht : type ≠ FLUSH_KEEP) :
    ∃ res kc', flush_key_blocks_int kc f type malloc_ok = some (res, kc') ∧
      WF kc' none [] ∧ AUX kc' ∧ nblocks kc' = nblocks kc ∧
      (∀ x, (kc'.block_root x).hash_link ≠ none → (kc.block_root x).hash_link ≠ none) ∧
      (∀ x, of_file kc f x → (kc'.block_root x).hash_link ≠ none → of_file kc' f x) ∧
      (res = false →
        (∀ g, NOERR kc' g) ∧
        (∀ x, (kc'.block_root x).status.changed = true →
          (kc.block_root x).status.changed = true) ∧
        (∀ x, ¬ dirty_of kc' f x) ∧
        (releasing type → ∀ x, ¬ of_file kc' f x)) ∧
      (writes_succeed kc → res = false ∧ writes_succeed kc') := by
  have hpos : kc.disk_blocks > 0 := by
    have := wf.cnt.blocks_pos
    unfold nblocks at this
    omega
  rcases flush_key_blocks_int_spec kc f type malloc_ok wf ⟨hpos, Or.inr ht⟩ with
    ⟨-, -, hn⟩ | ⟨e, kc', hk, P, F, W, s, he, hd, hr⟩
  · exact absurd (hne f) hn
  · refine ⟨_, kc', hk, s.wf, s.aux aux, ?_, ?_, ?_, ?_, ?_⟩
    on_goal 5 =>
      intro hq
      have efx := flush_key_blocks_int_fixed kc f type malloc_ok _ hk
      have ho : kc'.disk.pwrite_errno = kc.disk.pwrite_errno := congrArg (fun x => x.2.1) efx
      have hl : logged_from kc.disk.pwrites.length kc'.disk := by
        have := congrFun (congrArg (fun x => x.2.2) efx) kc.disk.pwrites.length
        have h2 : logged_from kc.disk.pwrites.length kc'.disk =
            logged_from kc.disk.pwrites.length kc.disk := this
        rw [h2]
        exact logged_from_length _
      have hok := logged_quiet kc.disk kc'.disk W hl ho s.rel.log hq
      refine ⟨?_, ?_⟩
      · have e0 : ¬ e ≠ 0 := by
          intro hc
          obtain ⟨w, hw, hwe⟩ := he.1 hc
          exact hwe (hok w hw)
        exact decide_eq_false e0
      · intro n hn
        rw [ho]
        refine hq n ?_
        rw [s.rel.log, List.length_append] at hn
        omega
    · unfold nblocks
      rw [s.rel.config.2.2.2.2.2.1]
    · intro x hx hc
      exact hx (s.rel.unused x hc)
    · intro x hx hu
      exact s.rel.of_file_now hx hu
    · intro hres
      have e0 : e = 0 := by
        by_contra hc
        rw [decide_eq_true hc] at hres
        cases hres
      have hok : ∀ w, w ∈ W → w.error = none := by
        intro w hw
        by_contra hc
        exact (he.2 ⟨w, hw, hc⟩) e0
      refine ⟨?_, ?_, ?_, ?_⟩
      · rintro g x ⟨h, hh, hf⟩
        by_cases hx : of_file kc f x
        · have hu : (kc'.block_root x).hash_link ≠ none := by rw [hh]; simp
          obtain ⟨h', hh', hf'⟩ := s.rel.of_file_now hx hu
          rw [hh] at hh'
          have e1 : h = h' := Option.some.inj hh'
          exact s.noerr (Or.inr hok) (hne f) x ⟨h, hh, by rw [e1]; exact hf'⟩
        · have sc := s.rel.frame x hx
          rw [sc.2.2.2.2.1]
          have hh0 : (kc.block_root x).hash_link = some h := by rw [← sc.1]; exact hh
          exact hne g x ⟨h, hh0, by rw [← s.rel.frame_links x h hx hh0]; exact hf⟩
      · intro x hc
        by_cases hx : of_file kc f x
        · have hu : (kc'.block_root x).hash_link ≠ none := by
            intro hn
            rw [s.wf.stat.free x hn] at hc
            cases hc
          exact ((s.rel.kept x hx hu).2.2.2.2.2 hc).1
        · have sc := s.rel.frame x hx
          rw [← sc.2.2.2.2.1]
          exact hc
      · rcases hd with h1 | ⟨h1, -⟩
        · exact h1
        · exact absurd e0 h1
      · intro hrel
        rcases hr hrel with h1 | h1
        · exact h1
        · exact absurd e0 h1

theorem dirty_count_le (kc : KEY_CACHE) : dirty_count kc ≤ nblocks kc := by
  unfold dirty_count
  exact le_trans (List.length_filter_le _ _) (by rw [List.length_range])

theorem in_use_count_le (kc : KEY_CACHE) : in_use_count kc ≤ nblocks kc := by
  unfold in_use_count
  exact le_trans (List.length_filter_le _ _) (by rw [List.length_range])

theorem flush_all_measure_le (dirty : Bool) (kc : KEY_CACHE) :
    flush_all_measure dirty kc ≤ nblocks kc := by
  unfold flush_all_measure
  cases dirty
  · exact in_use_count_le kc
  · exact dirty_count_le kc

/-- One flush of a sweep of `flush_all_key_blocks`, on the file of the first
block `b` of a chain that is not empty: the flush returns, and when it returns
0 the loop has come nearer to its end. -/
theorem flush_all_step_measure (kc : KEY_CACHE) (dirty malloc_ok : Bool) (idx b h : Nat)
    (tl : List Nat) (wf : WF kc none []) (aux : AUX kc) (hne : ∀ g, NOERR kc g)
    (hc : (if dirty then kc.changed_blocks idx else kc.file_blocks idx) = b :: tl)
    (hh : (kc.block_root b).hash_link = some h) :
    ∃ res kc', flush_key_blocks_int kc (kc.hash_link_root h).file
        (if dirty then FLUSH_FORCE_WRITE else FLUSH_RELEASE) malloc_ok = some (res, kc') ∧
      WF kc' none [] ∧ AUX kc' ∧ nblocks kc' = nblocks kc ∧
      in_use_count kc' ≤ in_use_count kc ∧
      (res = false → (∀ g, NOERR kc' g) ∧ dirty_count kc' ≤ dirty_count kc ∧
        flush_all_measure dirty kc' < flush_all_measure dirty kc) ∧
      (writes_succeed kc → res = false ∧ writes_succeed kc') := by
  obtain ⟨res, kc', hk, wf', aux', hn, hused, hnow, hres, hq⟩ :=
    flush_all_step kc (kc.hash_link_root h).file
      (if dirty then FLUSH_FORCE_WRITE else FLUSH_RELEASE) malloc_ok wf aux hne
      (by cases dirty <;> simp)
  have hbn : b < nblocks kc := aux.pool b (by rw [hh]; simp)
  have hbf : of_file kc (kc.hash_link_root h).file b := ⟨h, hh, rfl⟩
  have huse : ∀ x, x ∈ List.range (nblocks kc) →
      (kc'.block_root x).hash_link.isSome = true → (kc.block_root x).hash_link.isSome = true := by
    intro x _ hx
    cases hx0 : (kc.block_root x).hash_link with
    | some _ => rfl
    | none =>
      exfalso
      refine hused x ?_ hx0
      intro hc'
      rw [hc'] at hx
      cases hx
  refine ⟨res, kc', hk, wf', aux', hn, ?_, ?_, hq⟩
  · unfold in_use_count
    rw [hn]
    exact filter_length_le _ _ _ huse
  · intro hr
    obtain ⟨r1, r2, r3, r4⟩ := hres hr
    have hdirty : ∀ x, x ∈ List.range (nblocks kc) →
        (kc'.block_root x).status.changed = true → (kc.block_root x).status.changed = true :=
      fun x _ hx => r2 x hx
    refine ⟨r1, ?_, ?_⟩
    · unfold dirty_count
      rw [hn]
      exact filter_length_le _ _ _ hdirty
    · unfold flush_all_measure
      cases dirty with
      | true =>
        rw [if_pos rfl, if_pos rfl]
        rw [if_pos rfl] at hc
        obtain ⟨h2, hh2, hch, -⟩ := (wf.chain.changed_iff idx b).1
          (by rw [hc]; exact List.mem_cons_self _ _)
        unfold dirty_count
        rw [hn]
        refine filter_length_lt _ _ b _ (List.mem_range.2 hbn) hdirty hch ?_
        cases hcb : (kc'.block_root b).status.changed with
        | false => rfl
        | true =>
          exfalso
          have hu : (kc'.block_root b).hash_link ≠ none := by
            intro hn'
            rw [wf'.stat.free b hn'] at hcb
            cases hcb
          exact r3 b ⟨hnow b hbf hu, hcb⟩
      | false =>
        rw [if_neg (by simp), if_neg (by simp)]
        unfold in_use_count
        rw [hn]
        refine filter_length_lt _ _ b _ (List.mem_range.2 hbn) huse (by rw [hh]; rfl) ?_
        cases hcb : (kc'.block_root b).hash_link with
        | none => rfl
        | some h' =>
          exfalso
          exact r4 (by simp [releasing]) b (hnow b hbf (by rw [hcb]; simp))

/-- One run of the loop over the chains in `flush_all_key_blocks`, on a cache
between two operations in which no block carries `BLOCK_ERROR`, returns; no
block comes into use, and a run in which no flush fails leaves no block with
`BLOCK_ERROR`, makes no block dirty, and has come nearer to the end of the loop
if it has found a chain that is not empty. -/
theorem flush_all_sweep_returns (dirty malloc_ok : Bool) :
    ∀ (l : List Nat) (kc : KEY_CACHE) (found : Nat),
      WF kc none [] → AUX kc → (∀ g, NOERR kc g) →
      ∃ err found' kc', flush_all_sweep dirty malloc_ok l kc found = some (err, found', kc') ∧
        WF kc' none [] ∧ AUX kc' ∧ nblocks kc' = nblocks kc ∧
        in_use_count kc' ≤ in_use_count kc ∧
        (err = false → (∀ g, NOERR kc' g) ∧ dirty_count kc' ≤ dirty_count kc ∧
          flush_all_measure dirty kc' ≤ flush_all_measure dirty kc ∧
          (found' ≠ found → flush_all_measure dirty kc' < flush_all_measure dirty kc)) ∧
        (writes_succeed kc → err = false ∧ writes_succeed kc') := by
  intro l
  induction l with
  | nil =>
    intro kc found wf aux hne
    exact ⟨false, found, kc, rfl, wf, aux, rfl, Nat.le_refl _,
      fun _ => ⟨hne, Nat.le_refl _, Nat.le_refl _, fun h => absurd rfl h⟩, fun h => ⟨rfl, h⟩⟩
  | cons idx rest ih =>
    intro kc found wf aux hne
    rw [flush_all_sweep]
    cases hc : (if dirty then kc.changed_blocks idx else kc.file_blocks idx) with
    | nil =>
      dsimp only []
      exact ih kc found wf aux hne
    | cons b tl =>
      dsimp only []
      have hmem : b ∈ (if dirty then kc.changed_blocks idx else kc.file_blocks idx) := by
        rw [hc]; exact List.mem_cons_self _ _
      obtain ⟨h, hh⟩ : ∃ h, (kc.block_root b).hash_link = some h := by
        cases dirty with
        | true =>
          rw [if_pos rfl] at hmem
          obtain ⟨h, hh, -⟩ := (wf.chain.changed_iff idx b).1 hmem
          exact ⟨h, hh⟩
        | false =>
          rw [if_neg (by simp)] at hmem
          obtain ⟨h, hh, -⟩ := (wf.chain.file_iff idx b).1 hmem
          exact ⟨h, hh⟩
      rw [hh]
      dsimp only []
      obtain ⟨res, k, hk, wfk, auxk, hn, huse, hres, hq⟩ :=
        flush_all_step_measure kc dirty malloc_ok idx b h tl wf aux hne hc hh
      rw [hk]
      cases res with
      | true =>
        dsimp only []
        exact ⟨true, found + 1, k, rfl, wfk, auxk, hn, huse, (fun hc' => by cases hc'),
          fun h => by cases (hq h).1⟩
      | false =>
        dsimp only []
        obtain ⟨r1, r2, r3⟩ := hres rfl
        obtain ⟨err, found', kc', hs, wf', aux', hn', huse', hres', hq'⟩ :=
          ih k (found + 1) wfk auxk r1
        refine ⟨err, found', kc', hs, wf', aux', hn'.trans hn, le_trans huse' huse, ?_,
          fun h => hq' (hq h).2⟩
        intro he
        obtain ⟨q1, q2, q3, -⟩ := hres' he
        exact ⟨q1, le_trans q2 r2, le_trans q3 (le_of_lt r3),
          fun _ => lt_of_le_of_lt q3 r3⟩

/-- One of the two loops `do ... while (found)` of `flush_all_key_blocks`
returns on a cache between two operations in which no block carries
`BLOCK_ERROR`, when it may make more runs than what it makes smaller counts. -/
theorem flush_all_phase_returns (dirty malloc_ok : Bool) :
    ∀ (fuel : Nat) (kc : KEY_CACHE) (total : Nat),
      WF kc none [] → AUX kc → (∀ g, NOERR kc g) → flush_all_measure dirty kc < fuel →
      ∃ err total' kc', flush_all_phase dirty malloc_ok fuel kc total =
          some (err, total', kc') ∧
        WF kc' none [] ∧ AUX kc' ∧ nblocks kc' = nblocks kc ∧
        in_use_count kc' ≤ in_use_count kc ∧
        (err = false → (∀ g, NOERR kc' g) ∧
          flush_all_measure dirty kc' ≤ flush_all_measure dirty kc ∧
          (total' ≠ total → flush_all_measure dirty kc' < flush_all_measure dirty kc)) ∧
        (writes_succeed kc → err = false ∧ writes_succeed kc') := by
  intro fuel
  induction fuel with
  | zero =>
    intro kc total _ _ _ hm
    exact absurd hm (Nat.not_lt_zero _)
  | succ n ih =>
    intro kc total wf aux hne hm
    rw [flush_all_phase]
    obtain ⟨err, found, k, hs, wfk, auxk, hn, huse, hres, hq⟩ :=
      flush_all_sweep_returns dirty malloc_ok (List.range CHANGED_BLOCKS_HASH) kc 0 wf aux hne
    rw [hs]
    cases err with
    | true =>
      dsimp only []
      exact ⟨true, total + found, k, rfl, wfk, auxk, hn, huse, (fun hc => by cases hc),
        fun h => by cases (hq h).1⟩
    | false =>
      dsimp only []
      obtain ⟨r1, -, r3, r4⟩ := hres rfl
      by_cases hf : found ≠ 0
      · rw [if_pos hf]
        have hlt := r4 hf
        obtain ⟨err', total', kc', hp, wf', aux', hn', huse', hres', hq'⟩ :=
          ih k (total + found) wfk auxk r1 (by omega)
        refine ⟨err', total', kc', hp, wf', aux', hn'.trans hn, le_trans huse' huse, ?_,
          fun h => hq' (hq h).2⟩
        intro he
        obtain ⟨q1, q2, -⟩ := hres' he
        exact ⟨q1, le_trans q2 r3, fun _ => lt_of_le_of_lt q2 hlt⟩
      · rw [if_neg hf]
        exact ⟨false, total, k, rfl, wfk, auxk, hn, huse,
          fun _ => ⟨r1, r3, fun h => absurd rfl h⟩, fun h => ⟨rfl, (hq h).2⟩⟩

/-- The outer loop of `flush_all_key_blocks` returns on a cache between two
operations in which no block carries `BLOCK_ERROR`, when it may make more
rounds than there are blocks that hold a page. -/
theorem flush_all_loop_returns (malloc_ok : Bool) :
    ∀ (fuel : Nat) (kc : KEY_CACHE),
      WF kc none [] → AUX kc → (∀ g, NOERR kc g) → in_use_count kc < fuel →
      ∃ res kc', flush_all_key_blocks_loop malloc_ok fuel kc = some (res, kc') ∧
        (writes_succeed kc → res = false) := by
  intro fuel
  induction fuel with
  | zero =>
    intro kc _ _ _ hm
    exact absurd hm (Nat.not_lt_zero _)
  | succ n ih =>
    intro kc wf aux hne hm
    rw [flush_all_key_blocks_loop]
    obtain ⟨e1, t1, k1, h1, wf1, aux1, hn1, hu1, hr1, hq1⟩ :=
      flush_all_phase_returns true malloc_ok (nblocks kc + 1) kc 0 wf aux hne
        (Nat.lt_succ_of_le (flush_all_measure_le true kc))
    rw [h1]
    cases e1 with
    | true => exact ⟨true, k1, rfl, fun h => by cases (hq1 h).1⟩
    | false =>
      dsimp only []
      obtain ⟨q1, -, -⟩ := hr1 rfl
      obtain ⟨e2, t2, k2, h2, wf2, aux2, hn2, hu2, hr2, hq2⟩ :=
        flush_all_phase_returns false malloc_ok (nblocks k1 + 1) k1 0 wf1 aux1 q1
          (Nat.lt_succ_of_le (flush_all_measure_le false k1))
      rw [h2]
      cases e2 with
      | true => exact ⟨true, k2, rfl, fun h => by cases (hq2 (hq1 h).2).1⟩
      | false =>
        dsimp only []
        obtain ⟨p1, -, p3⟩ := hr2 rfl
        by_cases ht : t2 ≠ 0
        · rw [if_pos ht]
          have hlt : in_use_count k2 < in_use_count k1 := p3 ht
          obtain ⟨res, kc', hl, hq'⟩ := ih k2 wf2 aux2 p1 (by omega)
          exact ⟨res, kc', hl, fun h => hq' (hq2 (hq1 h).2).2⟩
        · rw [if_neg ht]
          exact ⟨false, k2, rfl, fun _ => rfl⟩

/-- On a cache between two operations in which no block carries `BLOCK_ERROR`,
`flush_all_key_blocks` returns, and it returns 0 when no call of `my_pwrite`
fails. -/
theorem flush_all_key_blocks_returns (kc : KEY_CACHE) (malloc_ok : Bool)
    (wf : WF kc none []) (aux : AUX kc) (hne : ∀ g, NOERR kc g) :
    ∃ res kc', flush_all_key_blocks kc malloc_ok = some (res, kc') ∧
      (writes_succeed kc → res = false) := by
  unfold flush_all_key_blocks
  exact flush_all_loop_returns malloc_ok (nblocks kc + 2) kc wf aux hne
    (by have := in_use_count_le kc; omega)

set_option maxRecDepth 100000 in
theorem mixed_flushed_eq : flush_all_key_blocks mixed_cache true = some (false, mixed_flushed) :=
  some_of_fst _ false mixed_cache (by decide!)

set_option maxRecDepth 100000 in
theorem mixed_cache_noerr : ∀ g, NOERR mixed_cache g := by
  rintro g x ⟨h, hh, -⟩
  have hx : x < nblocks mixed_cache := mixed_cache_inv.2.1.pool x (by rw [hh]; simp)
  have hall : ∀ y, y < 8 → (mixed_cache.block_root y).status.error = false := by decide!
  exact hall x hx

/-- A flush during which no call of `my_pwrite` fails ends without an error. -/
theorem FLUSH_POST.no_error {kc0 kc : KEY_CACHE} {f : Nat} {type : flush_type} {fit : Prop}
    {e : Int} (p : FLUSH_POST kc0 f type fit e kc) (hfx : kc.fixed = kc0.fixed)
    (hq : writes_succeed kc0) : e = 0 := by
  obtain ⟨P, F, W, s, he, -, -⟩ := p
  have ho : kc.disk.pwrite_errno = kc0.disk.pwrite_errno := congrArg (fun x => x.2.1) hfx
  have hl : logged_from kc0.disk.pwrites.length kc.disk := by
    have h2 : logged_from kc0.disk.pwrites.length kc.disk =
        logged_from kc0.disk.pwrites.length kc0.disk :=
      congrFun (congrArg (fun x => x.2.2) hfx) kc0.disk.pwrites.length
    rw [h2]
    exact logged_from_length _
  have hok := logged_quiet kc0.disk kc.disk W hl ho s.rel.log hq
  by_contra hc
  obtain ⟨w, hw, hwe⟩ := he.1 hc
  exact hwe (hok w hw)

/-! ## The claims -/

/-- C2: cold miss. In a usable, well-formed cache with an unused block, a read of
a range `(f, pos, len)` that lies in one cache block which is not cached, and
for which `my_pread` delivers `g ≥ pos % block_size + len` bytes of that block,
succeeds; the caller's buffer receives the file bytes of `[pos, pos + len)`; a
block `b` that was not in use is afterwards the block of the key
`(f, block start)` with exactly `BLOCK_READ` and `BLOCK_IN_USE` set and
`length = g`, it is on no dirty chain, no other block has changed its key, one
`my_pread` has been issued, and the state is again well-formed. -/
theorem key_cache_read_cold_miss (kc : KEY_CACHE) (f pos level len : Nat) (buff : Nat → Nat)
    (wf : WF kc none []) (hu : usable kc)
    (hone : pos % kc.key_cache_block_size + len ≤ kc.key_cache_block_size)
    (hmiss : not_cached kc f (pos - pos % kc.key_cache_block_size))
    (hunused : kc.blocks_unused ≠ 0)
    (hforce : kc.disk.pread_forced kc.disk.preads = none)
    (hgot : pos % kc.key_cache_block_size + len ≤
      min kc.key_cache_block_size (kc.disk.size f - (pos - pos % kc.key_cache_block_size))) :
    ∃ buff' kc' b h,
      key_cache_read kc f pos level buff len = some (false, buff', kc') ∧
      (∀ i, i < len → buff' i = kc.disk.data f (pos + i)) ∧
      (kc.block_root b).hash_link = none ∧
      (kc'.block_root b).hash_link = some h ∧
      kc'.hash_link_root h = ⟨some b, f, pos - pos % kc.key_cache_block_size, 0⟩ ∧
      (kc'.block_root b).status = { read := true, in_use := true } ∧
      (kc'.block_root b).length =
        min kc.key_cache_block_size (kc.disk.size f - (pos - pos % kc.key_cache_block_size)) ∧
      (∀ i, b ∉ kc'.changed_blocks i) ∧
      (∀ x, x ≠ b → (kc'.block_root x).hash_link = (kc.block_root x).hash_link) ∧
      kc'.blocks_unused + 1 = kc.blocks_unused ∧ kc'.disk.preads = kc.disk.preads + 1 ∧
      WF kc' none [] :=
  key_cache_read_miss_unused kc f pos level len buff wf hu hone hmiss hunused hforce hgot

/-- Witness of C2: a read of the first 100 bytes of a file of 100 bytes through an
empty cache of 8 blocks of 1024 bytes. -/
theorem key_cache_read_cold_miss_witness :
    WF (empty_cache 8 1024 16 16 8 8 (one_file 1 100)) none [] ∧
    usable (empty_cache 8 1024 16 16 8 8 (one_file 1 100)) ∧
    not_cached (empty_cache 8 1024 16 16 8 8 (one_file 1 100)) 1 0 ∧
    ∃ buff' kc' b h,
      key_cache_read (empty_cache 8 1024 16 16 8 8 (one_file 1 100)) 1 0 8 (fun _ => 0) 100 =
        some (false, buff', kc') ∧
      (∀ i, i < 100 → buff' i = i % 251) ∧
      (kc'.block_root b).hash_link = some h ∧
      kc'.hash_link_root h = ⟨some b, 1, 0, 0⟩ ∧
      (kc'.block_root b).status = { read := true, in_use := true } ∧
      (kc'.block_root b).length = 100 ∧
      (∀ i, b ∉ kc'.changed_blocks i) ∧
      kc'.blocks_unused = 7 ∧ kc'.disk.preads = 1 :=
  ⟨empty_cache_wf 8 1024 16 16 8 8 _ (by decide) (by decide) (by decide), ⟨rfl, rfl, rfl⟩,
    fun h hb => absurd rfl hb,
    by
      obtain ⟨buff', kc', b, h, h1, h2, -, h4, h5, h6, h7, h8, -, h10, h11, -⟩ :=
        key_cache_read_cold_miss (empty_cache 8 1024 16 16 8 8 (one_file 1 100)) 1 0 8 100
          (fun _ => 0) (empty_cache_wf 8 1024 16 16 8 8 _ (by decide) (by decide) (by decide))
          ⟨rfl, rfl, rfl⟩ (by decide) (fun h hb => absurd rfl hb) (by decide) rfl (by decide)
      refine ⟨buff', kc', b, h, h1, ?_, h4, h5, h6, h7, h8, ?_, h11⟩
      · intro i hi
        rw [h2 i hi]
        simp [empty_cache, one_file]
      · have : kc'.blocks_unused + 1 = 8 := h10
        omega⟩

/-- C17: on a handle that is not in use, with memory for fewer than 8 blocks,
`init_key_cache` returns -1 (not 0) and leaves the cache disabled with
`disk_blocks = -1`. -/
theorem init_key_cache_too_small (p : PLATFORM) (kc : KEY_CACHE) (bs um d a : Nat)
    (hfree : ¬ (kc.key_cache_inited = true ∧ kc.disk_blocks > 0))
    (hunit : p.sizeof_BLOCK_LINK + 2 * p.sizeof_HASH_LINK + p.sizeof_pointer * 5 / 4 + bs ≠ 0)
    (hsmall : um / (p.sizeof_BLOCK_LINK + 2 * p.sizeof_HASH_LINK + p.sizeof_pointer * 5 / 4 + bs)
      < 8) :
    ∃ kc', init_key_cache p kc bs um d a = some (-1, kc') ∧ kc'.can_be_used = false ∧
      kc'.disk_blocks = -1 := by
  unfold init_key_cache
  rw [if_neg hfree, if_neg hunit]
  dsimp only []
  rw [if_neg (by omega)]
  refine ⟨_, rfl, rfl, ?_⟩
  unfold init_handle
  dsimp only []
  cases kc.key_cache_inited <;> rfl

/-- C17, at a fresh handle with no memory at all. -/
theorem init_key_cache_too_small_witness :
    ∃ kc', init_key_cache lp64 {} 1024 0 100 300 = some (-1, kc') ∧ kc'.can_be_used = false ∧
      kc'.disk_blocks = -1 :=
  init_key_cache_too_small lp64 {} 1024 0 100 300 (by decide) (by decide) (by decide)

/-- C18: with memory for exactly 8 blocks by the estimate, the hash table of 16
entries does not fit beside 8 blocks; `init_key_cache` drops one block and
leaves a usable cache of 7 blocks. -/
theorem init_key_cache_seven_blocks :
    (init_key_cache lp64 {} 1024 9936 100 300).map
      (fun r => (r.1, r.2.can_be_used, r.2.disk_blocks, r.2.blocks_unused)) =
      some (7, true, 7, 7) := by
  decide

/-- C19 fails: with memory for 52 blocks by the estimate, `init_key_cache`
sizes the hash table for 52 blocks (128 entries) and then drops one block;
for the 51 blocks left, 64 is a power of two that is at least `5 * 51 / 4`. -/
theorem init_key_cache_hash_entries_counterexample :
    (init_key_cache lp64 {} 1024 64584 100 300).map
      (fun r => (r.1, r.2.can_be_used, r.2.disk_blocks, r.2.hash_entries)) =
      some (51, true, 51, 128) ∧
    ¬ smallest_power_of_two_ge 128 (51 * 5 / 4) ∧ 5 * 51 ≤ 4 * 64 := by
  refine ⟨by decide, ?_, by decide⟩
  intro h
  have := h.2.2 6 (by decide)
  omega

/-- C19 (amended): after an `init_key_cache` that returns a positive count,
`hash_entries` is the smallest power of two that is at least `5 * b / 4`, where
`b` is the block count with which the last round of the allocation loop
started; `disk_blocks` is what the memory-fit loop made of `b`, so it is at
most `b`, and it is `b` when `b` blocks fit. -/
theorem init_key_cache_hash_entries (p : PLATFORM) (kc : KEY_CACHE) (bs um d a : Nat)
    (n : Int) (kc' : KEY_CACHE)
    (hs : um / (p.sizeof_BLOCK_LINK + 2 * p.sizeof_HASH_LINK + p.sizeof_pointer * 5 / 4 + bs)
      < 1073741824)
    (h : init_key_cache p kc bs um d a = some (n, kc')) (hn : 0 < n) :
    ∃ b B len : Nat, kc'.disk_blocks = (B : Int) ∧ B ≤ b ∧
      smallest_power_of_two_ge kc'.hash_entries (b * 5 / 4) ∧
      init_fit p bs um (2 * b) kc'.hash_entries (b + 1) b = some (B, len) ∧
      (init_length p b (2 * b) kc'.hash_entries + b * bs ≤ um → B = b) := by
  obtain ⟨B, he, hl, hal, h8, _, hk⟩ := init_key_cache_success p kc bs um d a n kc' h hn
  obtain ⟨b, len, h6, hle, hhe, _, hfit, _⟩ :=
    init_alloc_spec p bs um _ _ _ _ _ _ _ (by omega) hal
  obtain ⟨hBb, _, _, hsame⟩ := init_fit_spec p bs um _ _ _ _ _ _ hfit
  have e1 : kc'.hash_entries = init_hash_entries b := by rw [hk, hhe]; rfl
  have e2 : kc'.disk_blocks = to_int B := by rw [hk]; rfl
  refine ⟨b, B, len, ?_, hBb, ?_, ?_, ?_⟩
  · rw [e2]; exact to_int_small B (by omega)
  · rw [e1]; exact init_hash_entries_spec b (by omega) (by omega)
  · rw [e1]; exact hfit
  · rw [e1]; exact hsame

/-- C19 (amended), on a cache of 51 blocks. -/
theorem init_key_cache_hash_entries_witness :
    ∃ kc', init_key_cache lp64 {} 1024 64584 100 300 = some (51, kc') ∧
    ∃ b B len : Nat, kc'.disk_blocks = (B : Int) ∧ B ≤ b ∧
      smallest_power_of_two_ge kc'.hash_entries (b * 5 / 4) ∧
      init_fit lp64 1024 64584 (2 * b) kc'.hash_entries (b + 1) b = some (B, len) ∧
      (init_length lp64 b (2 * b) kc'.hash_entries + b * 1024 ≤ 64584 → B = b) :=
  ⟨_, rfl, init_key_cache_hash_entries lp64 {} 1024 64584 100 300 51 _ (by decide) rfl
    (by decide)⟩

/-- C20 fails: with `division_limit = 0` a cache of 8 blocks gets
`min_warm_blocks = 8`, not `max(1, 8 * 0 / 100) = 1`; with
`division_limit = 50` it gets 5 from `init_key_cache` and from
`change_key_cache_param`, not `max(1, 8 * 50 / 100) = 4`. -/
theorem min_warm_blocks_counterexample :
    (init_key_cache lp64 {} 1024 11178 0 300).map
      (fun r => (r.2.can_be_used, r.2.disk_blocks, r.2.min_warm_blocks,
        max 1 (r.2.disk_blocks.toNat * 0 / 100))) = some (true, 8, 8, 1) ∧
    (init_key_cache lp64 {} 1024 11178 50 300).map
      (fun r => (r.2.can_be_used, r.2.disk_blocks, r.2.min_warm_blocks,
        (change_key_cache_param r.2 50 300).min_warm_blocks,
        max 1 (r.2.disk_blocks.toNat * 50 / 100))) = some (true, 8, 5, 5, 4) := by
  decide

/-- C20 (amended): after an `init_key_cache` with division limit `d` that
returns a positive count, `min_warm_blocks` is `B` when `d = 0` and
`B * d / 100 + 1` otherwise, `B` being `disk_blocks`; a following
`change_key_cache_param` with division limit `e` leaves it as it is when
`e = 0` and sets it to `(B * e mod 2^32) / 100 + 1` otherwise. -/
theorem init_key_cache_min_warm_blocks (p : PLATFORM) (kc : KEY_CACHE) (bs um d a : Nat)
    (n : Int) (kc' : KEY_CACHE)
    (hs : um / (p.sizeof_BLOCK_LINK + 2 * p.sizeof_HASH_LINK + p.sizeof_pointer * 5 / 4 + bs)
      < 2147483648)
    (h : init_key_cache p kc bs um d a = some (n, kc')) (hn : 0 < n) :
    ∃ B : Nat, kc'.disk_blocks = (B : Int) ∧
      kc'.min_warm_blocks = (if d = 0 then B else B * d / 100 + 1) ∧
      ∀ e a', (change_key_cache_param kc' e a').min_warm_blocks =
        if e = 0 then kc'.min_warm_blocks else B * e % 4294967296 / 100 + 1 := by
  obtain ⟨B, he, hl, hal, h8, _, hk⟩ := init_key_cache_success p kc bs um d a n kc' h hn
  obtain ⟨b, len, h6, hle, _, _, hfit, _⟩ :=
    init_alloc_spec p bs um _ _ _ _ _ _ _ (by omega) hal
  obtain ⟨hBb, _, _, _⟩ := init_fit_spec p bs um _ _ _ _ _ _ hfit
  have e2 : kc'.disk_blocks = (B : Int) := by
    rw [hk]; exact to_int_small B (by omega)
  have e3 : kc'.min_warm_blocks = (if d ≠ 0 then B * d / 100 + 1 else B) := by rw [hk]; rfl
  refine ⟨B, e2, ?_, ?_⟩
  · rw [e3]; by_cases hd : d = 0
    · rw [if_neg (by simpa using hd), if_pos hd]
    · rw [if_pos hd, if_neg hd]
  · intro e a'
    have hu : to_uint kc'.disk_blocks = B := by
      rw [e2]; unfold to_uint; omega
    have hlt : B * e % 4294967296 / 100 + 1 < 4294967296 := by omega
    have key : (change_key_cache_param kc' e a').min_warm_blocks =
        if e ≠ 0 then (to_uint kc'.disk_blocks * e % 4294967296 / 100 + 1) % 4294967296
        else kc'.min_warm_blocks := by
      unfold change_key_cache_param
      by_cases he0 : e ≠ 0
      · by_cases ha : a' ≠ 0
        · simp only [if_pos he0, if_pos ha]
        · simp only [if_pos he0, if_neg ha]
      · by_cases ha : a' ≠ 0
        · simp only [if_neg he0, if_pos ha]
        · simp only [if_neg he0, if_neg ha]
    rw [key, hu, Nat.mod_eq_of_lt hlt]
    by_cases he0 : e = 0
    · rw [if_neg (by simpa using he0), if_pos he0]
    · rw [if_pos he0, if_neg he0]

/-- C20 (amended), on a cache of 8 blocks with division limit 50. -/
theorem init_key_cache_min_warm_blocks_witness :
    ∃ kc', init_key_cache lp64 {} 1024 11178 50 300 = some (8, kc') ∧
    ∃ B : Nat, kc'.disk_blocks = (B : Int) ∧
      kc'.min_warm_blocks = (if 50 = 0 then B else B * 50 / 100 + 1) ∧
      ∀ e a', (change_key_cache_param kc' e a').min_warm_blocks =
        if e = 0 then kc'.min_warm_blocks else B * e % 4294967296 / 100 + 1 :=
  ⟨_, rfl, init_key_cache_min_warm_blocks lp64 {} 1024 11178 50 300 8 _ (by decide) rfl
    (by decide)⟩

set_option maxRecDepth 100000 in
/-- C5 fails: with `my_disable_flush_key_blocks` set, a flush of type
`FLUSH_KEEP` returns 0 at once; the block that a write has just made dirty is
still a dirty block of the file. -/
theorem flush_disabled_counterexample :
    (key_cache_write no_flush_cache 1 512 8 (List.replicate 256 7) true).bind
      (fun r => (flush_key_blocks r.2 1 FLUSH_KEEP true).map
        (fun q => (r.1, q.1, (q.2.block_root 0).status.changed,
          q.2.changed_blocks (FILE_HASH 1), q.2.disk.pwrites.length))) =
    some (false, false, true, [0], 0) := by
  decide!

/-- C5 (amended): on a well-formed cache in use, unless the flush is a
`FLUSH_KEEP` with `my_disable_flush_key_blocks` set, when `flush_key_blocks`
returns 0 no block of the file is dirty, whatever the number of dirty blocks
at entry and whether or not the big burst array could be allocated. -/
theorem flush_leaves_no_dirty (kc kc' : KEY_CACHE) (file : Nat) (type : flush_type)
    (malloc_ok : Bool) (wf : WF kc none []) (hinit : kc.key_cache_inited = true)
    (hon : kc.my_disable_flush_key_blocks = false ∨ type ≠ FLUSH_KEEP)
    (h : flush_key_blocks kc file type malloc_ok = some (false, kc')) :
    (∀ x, ¬ dirty_of kc' file x) ∧
    (∀ x, x ∈ kc'.changed_blocks (FILE_HASH file) → ¬ of_file kc' file x) := by
  rcases flush_key_blocks_spec kc file type malloc_ok wf hinit hon with
    ⟨hnone, -, -⟩ | ⟨e, k, hk, P, F, W, s, he, hd, hr⟩
  · rw [hnone] at h; cases h
  · rw [hk] at h
    have e1 := Option.some.inj h
    have e2 : decide (e ≠ 0) = false := congrArg Prod.fst e1
    have e3 : k = kc' := congrArg Prod.snd e1
    have e0 : ¬ e ≠ 0 := by simpa using e2
    rw [e3] at hd s
    have hnd : ∀ x, ¬ dirty_of kc' file x := by
      rcases hd with h1 | ⟨h1, -⟩
      · exact h1
      · exact absurd h1 e0
    refine ⟨hnd, fun x hx hf => ?_⟩
    obtain ⟨h', -, hc, -⟩ := (s.wf.chain.changed_iff _ x).1 hx
    exact hnd x ⟨hf, hc⟩

/-- C8: a flush of type `FLUSH_IGNORE_CHANGED` on a well-formed cache in use
calls `my_pwrite` for no block; when it returns, it returns 0 and no block of
the file is left in the cache, dirty or clean; and it returns if no block of
the file carries `BLOCK_ERROR`. -/
theorem flush_ignore_changed (kc : KEY_CACHE) (file : Nat) (malloc_ok : Bool)
    (wf : WF kc none []) (hinit : kc.key_cache_inited = true) :
    (∀ res kc', flush_key_blocks kc file FLUSH_IGNORE_CHANGED malloc_ok = some (res, kc') →
      res = false ∧ kc'.disk.pwrites = kc.disk.pwrites ∧ (∀ x, ¬ of_file kc' file x) ∧
      (∀ x, (kc'.block_root x).hash_link ≠ none →
        (kc'.block_root x).status.changed = (kc.block_root x).status.changed)) ∧
    (NOERR kc file →
      ∃ kc', flush_key_blocks kc file FLUSH_IGNORE_CHANGED malloc_ok = some (false, kc')) := by
  have key : ∀ res kc', flush_key_blocks kc file FLUSH_IGNORE_CHANGED malloc_ok = some (res, kc') →
      res = false ∧ kc'.disk.pwrites = kc.disk.pwrites ∧ (∀ x, ¬ of_file kc' file x) ∧
      (∀ x, (kc'.block_root x).hash_link ≠ none →
        (kc'.block_root x).status.changed = (kc.block_root x).status.changed) := by
    intro res kc' h
    rcases flush_key_blocks_spec kc file FLUSH_IGNORE_CHANGED malloc_ok wf hinit
        (Or.inr (by simp)) with ⟨hnone, -, -⟩ | ⟨e, k, hk, P, F, W, s, he, hd, hr⟩
    · rw [hnone] at h; cases h
    · rw [hk] at h
      have e1 := Option.some.inj h
      have e2 : decide (e ≠ 0) = res := congrArg Prod.fst e1
      have e3 : k = kc' := congrArg Prod.snd e1
      rw [e3] at s hr
      obtain ⟨-, hW⟩ := s.ignore_quiet rfl
      have e0 : ¬ e ≠ 0 := by
        intro hc
        obtain ⟨w, hw, -⟩ := he.1 hc
        rw [hW] at hw; cases hw
      have hnof : ∀ x, ¬ of_file kc' file x := by
        rcases hr (by simp [releasing]) with h1 | h1
        · exact h1
        · exact absurd h1 e0
      refine ⟨by rw [← e2]; simpa using e0, by rw [s.rel.log, hW, List.append_nil], hnof, ?_⟩
      intro x hx
      by_cases hf : of_file kc file x
      · exact absurd (s.rel.of_file_now hf hx) (hnof x)
      · rw [(s.rel.frame x hf).2.2.2.2.1]
  refine ⟨key, fun hne => ?_⟩
  rcases flush_key_blocks_spec kc file FLUSH_IGNORE_CHANGED malloc_ok wf hinit
      (Or.inr (by simp)) with ⟨-, -, hn⟩ | ⟨e, k, hk, -⟩
  · exact absurd hne hn
  · have := (key _ _ hk).1
    rw [this] at hk
    exact ⟨k, hk⟩

/-- C10: on a well-formed cache in use, `flush_key_blocks` on file `f` leaves
every block that is not a block of `f` as it is (its page, buffer, dirty region,
status word and hash link; so it is neither freed nor made clean), and every
call of `my_pwrite` it makes is for file `f`. -/
theorem flush_frame (kc kc' : KEY_CACHE) (file : Nat) (type : flush_type) (malloc_ok res : Bool)
    (wf : WF kc none []) (hinit : kc.key_cache_inited = true)
    (h : flush_key_blocks kc file type malloc_ok = some (res, kc')) :
    (∀ x, ¬ of_file kc file x →
      same_core (kc'.block_root x) (kc.block_root x) ∧
      ∀ l, (kc.block_root x).hash_link = some l → kc'.hash_link_root l = kc.hash_link_root l) ∧
    ∃ W, kc'.disk.pwrites = kc.disk.pwrites ++ W ∧ ∀ w, w ∈ W → w.file = file := by
  have hpos : kc.disk_blocks > 0 := by
    have := wf.cnt.blocks_pos
    unfold nblocks at this
    omega
  by_cases hon : kc.my_disable_flush_key_blocks = false ∨ type ≠ FLUSH_KEEP
  · rcases flush_key_blocks_spec kc file type malloc_ok wf hinit hon with
      ⟨hnone, -, -⟩ | ⟨e, k, hk, P, F, W, s, he, hd, hr⟩
    · rw [hnone] at h; cases h
    · rw [hk] at h
      have e3 : k = kc' := congrArg Prod.snd (Option.some.inj h)
      rw [e3] at s
      refine ⟨fun x hx => ⟨s.rel.frame x hx, fun l hl => s.rel.frame_links x l hx hl⟩,
        W, s.rel.log, ?_⟩
      have hw := s.rel.written
      clear he s hk
      induction hw with
      | nil => intro w hw; cases hw
      | cons hab _ ih =>
        intro w hw
        rcases List.mem_cons.1 hw with h1 | h1
        · rw [h1]; exact hab.choose_spec.2.1
        · exact ih w h1
  · rw [flush_key_blocks_off kc file type malloc_ok hinit hpos hon] at h
    have e3 : dec_counter_for_resize_op (inc_counter_for_resize_op kc) = kc' :=
      congrArg Prod.snd (Option.some.inj h)
    rw [← e3]
    exact ⟨fun x _ => ⟨⟨rfl, rfl, rfl, rfl, rfl, rfl⟩, fun _ _ => rfl⟩, [],
      (by rw [List.append_nil]; rfl), (fun w hw => by cases hw)⟩

/-- C14: if `flush_all_key_blocks` fails inside `resize_key_cache`, the resize
returns 0 and leaves the cache disabled, with `in_resize` and
`resize_in_flush` reset; from then on `find_key_block` returns NULL, a
`key_cache_read` is one `my_pread` of the whole range and a `key_cache_write`
one `my_pwrite` of the whole buffer, and the blocks are not touched. -/
theorem resize_flush_failure (p : PLATFORM) (kc : KEY_CACHE) (bs um d a : Nat)
    (malloc_ok : Bool) (hinit : kc.key_cache_inited = true)
    (hdiff : ¬ (bs = kc.key_cache_block_size ∧ um = kc.key_cache_mem_size))
    (hres : kc.in_resize = false) (hcan : kc.can_be_used = true)
    (hfail : (flush_all_key_blocks
      { { kc with in_resize := true } with resize_in_flush := true } malloc_ok).map Prod.fst =
        some true) :
    ∃ kc', resize_key_cache p kc bs um d a malloc_ok = some (0, kc') ∧
      kc'.can_be_used = false ∧ kc'.in_resize = false ∧ kc'.resize_in_flush = false ∧
      (∀ file filepos level wrmode,
        find_key_block kc' file filepos level wrmode = some (none, kc')) ∧
      (∀ file filepos level buff length,
        ∃ k, key_cache_read kc' file filepos level buff length =
            some ((pread_direct kc' file length filepos buff 0).1,
              (pread_direct kc' file length filepos buff 0).2.1, k) ∧
          k.disk = (pread_direct kc' file length filepos buff 0).2.2.disk ∧
          k.block_root = kc'.block_root ∧ k.hash_link_root = kc'.hash_link_root ∧
          k.global_cache_read = kc'.global_cache_read + 1) ∧
      (∀ file filepos level buff dont_write,
        ∃ k, key_cache_write kc' file filepos level buff dont_write =
            some ((my_pwrite kc'.disk file buff filepos).1.isSome, k) ∧
          k.disk = (my_pwrite kc'.disk file buff filepos).2 ∧
          k.block_root = kc'.block_root ∧ k.hash_link_root = kc'.hash_link_root ∧
          k.global_cache_write = kc'.global_cache_write + 1) := by
  cases hfl : flush_all_key_blocks
      { { kc with in_resize := true } with resize_in_flush := true } malloc_ok with
  | none => rw [hfl] at hfail; cases hfail
  | some r =>
    obtain ⟨res, k2⟩ := r
    rw [hfl] at hfail
    have hres2 : res = true := Option.some.inj hfail
    rw [hres2] at hfl
    have hR : resize_key_cache p kc bs um d a malloc_ok =
        some (0, { { k2 with resize_in_flush := false, can_be_used := false } with
          in_resize := false }) := by
      unfold resize_key_cache
      rw [if_neg (by rw [hinit]; simp), if_neg hdiff, if_neg (by rw [hres]; simp)]
      dsimp only []
      rw [if_pos (by exact hcan)]
      rewrite [hfl]
      rfl
    refine ⟨_, hR, rfl, rfl, rfl, ?_, ?_, ?_⟩
    · intro file filepos level wrmode
      exact find_key_block_disabled _ file filepos level wrmode rfl
    · intro file filepos level buff length
      exact key_cache_read_disabled _ file filepos level buff length rfl rfl
    · intro file filepos level buff dont_write
      exact key_cache_write_disabled _ file filepos level buff dont_write rfl rfl

set_option maxRecDepth 100000 in
/-- C14, on a cache with one dirty block whose write fails: the resize to
blocks of 2048 bytes returns 0 and disables the cache. -/
theorem resize_flush_failure_witness :
    ∃ kc', resize_key_cache lp64 failing_dirty_cache 2048 100000 100 300 true = some (0, kc') ∧
      kc'.can_be_used = false ∧ kc'.in_resize = false ∧ kc'.resize_in_flush = false ∧
      (∀ file filepos level wrmode,
        find_key_block kc' file filepos level wrmode = some (none, kc')) ∧
      (∀ file filepos level buff length,
        ∃ k, key_cache_read kc' file filepos level buff length =
            some ((pread_direct kc' file length filepos buff 0).1,
              (pread_direct kc' file length filepos buff 0).2.1, k) ∧
          k.disk = (pread_direct kc' file length filepos buff 0).2.2.disk ∧
          k.block_root = kc'.block_root ∧ k.hash_link_root = kc'.hash_link_root ∧
          k.global_cache_read = kc'.global_cache_read + 1) ∧
      (∀ file filepos level buff dont_write,
        ∃ k, key_cache_write kc' file filepos level buff dont_write =
            some ((my_pwrite kc'.disk file buff filepos).1.isSome, k) ∧
          k.disk = (my_pwrite kc'.disk file buff filepos).2 ∧
          k.block_root = kc'.block_root ∧ k.hash_link_root = kc'.hash_link_root ∧
          k.global_cache_write = kc'.global_cache_write + 1) :=
  resize_flush_failure lp64 failing_dirty_cache 2048 100000 100 300 true (by decide!)
    (by decide!) (by decide!) (by decide!) (by decide!)

/-- C16: while `in_resize` is set no new block enters the cache. In a
well-formed cache state with `in_resize` set, a call of `find_key_block`, in
read or in write mode, attaches no block to a page: when it returns,
`blocks_unused` has not decreased, `blocks_used` (the start of the never-used
pool) is as before, nothing has left the free list, and every block and every
hash link that is attached is attached to the page it had before the call, so
no block of the LRU ring has been given to a new page. A call of
`key_cache_insert` returns 0 and leaves the cache as it is. -/
theorem in_resize_no_new_block (kc : KEY_CACHE) (f key level : Nat) (wrmode : Bool)
    (buff : List Nat) (r : Option (Nat × PAGE_STATUS) × KEY_CACHE)
    (wf : WF kc none []) (hres : kc.in_resize = true)
    (hfind : find_key_block kc f key level wrmode = some r) :
    no_new_block kc r.2 ∧ key_cache_insert kc f key level buff = some (false, kc) := by
  constructor
  · by_cases hcan : kc.can_be_used = true
    · rcases not_cached_or kc f key with hmiss | ⟨h, hc⟩
      · obtain ⟨kc', hf, h1, h2, h3, h4, h5, h6⟩ :=
          find_key_block_resize_miss kc f key level wrmode wf hcan hres hmiss
        rw [hf] at hfind
        rw [← Option.some.inj hfind]
        refine ⟨le_of_eq h1.symm, h2, ⟨[], h3⟩, ?_, ?_⟩
        · intro b h' hb
          rw [h4] at hb
          have hl := wf.hash.back b h' hb
          rw [h6 h' (by rw [hl]; simp)]
          exact ⟨hb, rfl, rfl⟩
        · intro h' b hb
          rcases h5 h' with e | e
          · rw [e] at hb
            cases hb
          · rw [e] at hb
            exact hb
      · obtain ⟨b, hb⟩ := Option.ne_none_iff_exists'.1 hc.1
        exact find_key_block_resize_hit kc f key level h b wrmode r wf hcan hres hc hb hfind
    · have hcan' : kc.can_be_used = false := by simpa using hcan
      unfold find_key_block at hfind
      simp only [hcan', if_true] at hfind
      rw [← Option.some.inj hfind]
      exact no_new_block_refl kc
  · unfold key_cache_insert
    simp only [hres, or_true, if_true, ite_self]

/-- Witness of C16: a read request on an empty cache that is being resized. -/
theorem in_resize_no_new_block_witness :
    WF resizing_cache none [] ∧ resizing_cache.in_resize = true ∧
    ∃ r, find_key_block resizing_cache 1 0 8 false = some r ∧
      no_new_block resizing_cache r.2 ∧
      key_cache_insert resizing_cache 1 0 8 [1, 2, 3] = some (false, resizing_cache) := by
  have wf : WF resizing_cache none [] :=
    @WF.congr_wf (empty_cache 8 1024 16 16 8 8 (one_file 1 100)) resizing_cache none []
      (empty_cache_wf 8 1024 16 16 8 8 _ (by decide) (by decide) (by decide))
      rfl rfl rfl rfl rfl rfl rfl rfl rfl rfl rfl rfl rfl rfl (fun _ => rfl) (fun _ => rfl)
      (fun _ => rfl) (fun _ => rfl) rfl (fun h => h)
  obtain ⟨kc', hf, -⟩ := find_key_block_resize_miss resizing_cache 1 0 8 false wf rfl rfl
    (fun h hb => absurd rfl hb)
  exact ⟨wf, rfl, _, hf, in_resize_no_new_block resizing_cache 1 0 8 false [1, 2, 3] _ wf rfl hf⟩

/-- A short read. In a usable, well-formed cache in which writes do not fail,
let a read start in a block that is not cached, for which a block is at hand
(an unused one, or one to evict), and let `my_pread` return less than
`pos % block_size + read_length` for it. Then `find_key_block` hands out a block `b` for the
page (`PAGE_TO_BE_READ`), `read_block` leaves it with `BLOCK_ERROR` and without
`BLOCK_READ`, `key_cache_read` returns failure and leaves the caller's buffer
alone, `b` is at the head of the free list with no hash link and an empty
status, the key is not in the hash table, every other block keeps its page,
its data and its status, and the state is again well-formed. -/
theorem read_error_frees_block (kc : KEY_CACHE) (f pos level len : Nat) (buff : Nat → Nat)
    (wf : WF kc none []) (hu : usable kc)
    (hmiss : not_cached kc f (pos - pos % kc.key_cache_block_size))
    (hroom : kc.blocks_unused ≠ 0 ∨ kc.used_ring ≠ [])
    (hw : ∀ n, kc.disk.pwrite_errno n = none)
    (hshort : (my_pread (disk_after_find kc) f kc.key_cache_block_size
        (pos - pos % kc.key_cache_block_size)).1 <
      min len (kc.key_cache_block_size - pos % kc.key_cache_block_size) +
        pos % kc.key_cache_block_size) :
    ∃ b K1 K2 kc',
      find_key_block
        { inc_counter_for_resize_op kc with
          global_cache_r_requests := kc.global_cache_r_requests + 1 } f
        (pos - pos % kc.key_cache_block_size) level false =
          some (some (b, PAGE_TO_BE_READ), K1) ∧
      read_block K1 b kc.key_cache_block_size
        (min len (kc.key_cache_block_size - pos % kc.key_cache_block_size) +
          pos % kc.key_cache_block_size) true = some K2 ∧
      (K2.block_root b).status.error = true ∧ (K2.block_root b).status.read = false ∧
      key_cache_read kc f pos level buff len = some (true, buff, kc') ∧
      kc'.free_block_list.head? = some b ∧ (kc'.block_root b).hash_link = none ∧
      (kc'.block_root b).status = {} ∧
      not_cached kc' f (pos - pos % kc.key_cache_block_size) ∧
      (∀ x, x ≠ b → same_core (kc'.block_root x) (kc.block_root x) ∧
        ∀ y, (kc.block_root x).hash_link = some y → kc'.hash_link_root y = kc.hash_link_root y) ∧
      WF kc' none [] := by
  obtain ⟨k0, hk0⟩ : ∃ k0, k0 = inc_counter_for_resize_op kc := ⟨_, rfl⟩
  have wf0 : WF k0 none [] := by
    rw [hk0]
    exact @WF.congr_wf kc _ none [] wf rfl rfl rfl rfl rfl rfl rfl rfl rfl rfl rfl rfl rfl rfl
      (fun _ => rfl) (fun _ => rfl) (fun _ => rfl) (fun _ => rfl) rfl (fun h => h)
  have e0 : k0.key_cache_block_size = kc.key_cache_block_size := by rw [hk0]; rfl
  obtain ⟨b, K1, K2, kc', h1, h2, h3, h4, h5, h6, h7, h8, h9, h10, h11, h12⟩ :=
    key_cache_read_chunk_short k0 f pos level 0 len (pos % kc.key_cache_block_size) buff false wf0
      (by rw [hk0]; exact hu)
      (by rw [e0]; exact Nat.sub_mod_eq_zero_of_mod_eq (by simp))
      (by rw [hk0]; exact hmiss) (by rw [hk0]; exact hroom) (by rw [hk0]; exact hw)
      (by rw [e0]; rw [hk0]; exact hshort)
  rw [e0] at h2
  refine ⟨b, K1, K2, dec_counter_for_resize_op kc', ?_, h2, h3, h4, ?_, h8, h9, h10, ?_, ?_, ?_⟩
  · rw [hk0] at h1
    exact h1
  · unfold key_cache_read
    rw [if_pos hu.1, if_neg (by rw [hu.2.2]; simp)]
    dsimp only []
    rw [key_cache_read_loop]
    have ebs0 : (inc_counter_for_resize_op kc).key_cache_block_size = kc.key_cache_block_size :=
      rfl
    rw [ebs0, ← hk0, h5]
  · intro x hx hfk
    have hx' : (kc'.hash_link_root x).block ≠ none := hx
    have e : kc'.hash_link_root x = kc.hash_link_root x := by
      rw [h11 x hx', hk0]
      rfl
    have hfk' : (kc'.hash_link_root x).file = f ∧
        (kc'.hash_link_root x).diskpos = pos - pos % kc.key_cache_block_size := hfk
    rw [e] at hx' hfk'
    exact hmiss x hx' hfk'
  · intro x hx
    have := h12 x hx
    rw [hk0] at this
    exact this
  · exact @WF.congr_wf kc' _ none [] h6 rfl rfl rfl rfl rfl rfl rfl rfl rfl rfl rfl rfl rfl rfl
      (fun _ => rfl) (fun _ => rfl) (fun _ => rfl) (fun _ => rfl) rfl (fun h => h)

/-- A short read: a read of 200 bytes from a file of 100 bytes through an
empty cache of 8 blocks of 1024 bytes. -/
theorem read_error_frees_block_witness :
    WF (empty_cache 8 1024 16 16 8 8 (one_file 1 100)) none [] ∧
    usable (empty_cache 8 1024 16 16 8 8 (one_file 1 100)) ∧
    ∃ b kc',
      key_cache_read (empty_cache 8 1024 16 16 8 8 (one_file 1 100)) 1 0 8 (fun _ => 0) 200 =
        some (true, fun _ => 0, kc') ∧
      kc'.free_block_list.head? = some b ∧ (kc'.block_root b).hash_link = none ∧
      not_cached kc' 1 0 := by
  obtain ⟨b, K1, K2, kc', -, -, -, -, h5, h6, h7, -, h9, -, -⟩ :=
    read_error_frees_block (empty_cache 8 1024 16 16 8 8 (one_file 1 100)) 1 0 8 200
      (fun _ => 0) (empty_cache_wf 8 1024 16 16 8 8 _ (by decide) (by decide) (by decide))
      ⟨rfl, rfl, rfl⟩ (fun h hb => absurd rfl hb) (Or.inl (by decide)) (fun _ => rfl)
      (by decide)
  exact ⟨empty_cache_wf 8 1024 16 16 8 8 _ (by decide) (by decide) (by decide), ⟨rfl, rfl, rfl⟩,
    b, kc', h5, h6, h7, h9⟩

/-- C21: the free list is a stack. A call of `free_block` on the block `b` that
the caller holds pinned (its hash link `h` has no readers and the block is not
selected for eviction) returns with `b` at the head of the free list, and a
following `find_key_block` for a page that is not cached returns `b` and pops
it. In every cache `kc2` that is in order between two operations, a
`find_key_block` for a page that is not cached returns the head of the free
list when the list is not empty; the block it returns is a never used block of
the pool (`blocks_used ≤ v`) only when the free list is empty, and a block of
the LRU ring only when the free list is empty and no never used block is
left. -/
theorem free_list_is_stack (X kc2 : KEY_CACHE) (b h f2 key2 level2 : Nat) (wrmode2 : Bool)
    (wf : WF X (some b) []) (hu : usable X)
    (hh : (X.block_root b).hash_link = some h)
    (hreqh : (X.hash_link_root h).requests = 0)
    (hev : (X.block_root b).status.in_eviction = false)
    (wf2 : WF kc2 none []) (hu2 : usable kc2) (hmiss2 : not_cached kc2 f2 key2) :
    (∃ kc, free_block X b = some kc ∧ kc.free_block_list = b :: X.free_block_list ∧
      ∀ f key level wrmode, not_cached kc f key →
        ∃ K, find_key_block kc f key level wrmode = some (some (b, PAGE_TO_BE_READ), K) ∧
          K.free_block_list = X.free_block_list) ∧
    (∀ x rest, kc2.free_block_list = x :: rest →
      ∃ K, find_key_block kc2 f2 key2 level2 wrmode2 = some (some (x, PAGE_TO_BE_READ), K) ∧
        K.free_block_list = rest) ∧
    (∀ v st K, find_key_block kc2 f2 key2 level2 wrmode2 = some (some (v, st), K) →
      (kc2.blocks_used ≤ v → kc2.free_block_list = []) ∧
      (v ∈ kc2.used_ring → kc2.free_block_list = [] ∧ kc2.blocks_used = nblocks kc2)) := by
  have pop : ∀ (kc : KEY_CACHE) (f key level : Nat) (wrmode : Bool) (x : Nat) (rest : List Nat),
      WF kc none [] → usable kc → not_cached kc f key → kc.free_block_list = x :: rest →
      ∃ K, find_key_block kc f key level wrmode = some (some (x, PAGE_TO_BE_READ), K) ∧
        K.free_block_list = rest := by
    intro kc f key level wrmode x rest wfk huk hmiss hfl
    have hne : kc.blocks_unused ≠ 0 := by
      rw [wfk.cnt.unused_eq, hfl]
      simp
    obtain ⟨K, hfind, e1, -⟩ := find_key_block_miss_takes kc f key level wrmode wfk huk hmiss hne
    have ht : take_unused_block kc = (x, { kc with free_block_list := rest }) := by
      unfold take_unused_block
      rw [hfl]
    rw [ht] at hfind e1
    exact ⟨K, hfind, e1⟩
  refine ⟨?_, fun x rest hfl => pop kc2 f2 key2 level2 wrmode2 x rest wf2 hu2 hmiss2 hfl, ?_⟩
  · obtain ⟨br, ring, ins, t, w, hfree, hperm, hok, hcore, hb1, hb2, hb3, -⟩ :=
      free_block_spec X b h [] wf hh hreqh hev
    have wfF := freed_state_wf X b h [] br ring ins t w wf hh hreqh hperm hok hcore hb1 hb2 hb3
    refine ⟨_, hfree, rfl, ?_⟩
    intro f key level wrmode hmiss
    exact pop _ f key level wrmode b X.free_block_list wfF hu hmiss rfl
  · intro v st K hfind
    by_cases h0 : kc2.blocks_unused = 0
    · have hq := wf2.cnt.unused_eq
      have hle := wf2.cnt.used_le
      rw [h0] at hq
      have hl0 : kc2.free_block_list.length = 0 := by omega
      have hnil : kc2.free_block_list = [] := List.length_eq_zero.1 hl0
      exact ⟨fun _ => hnil, fun _ => ⟨hnil, by omega⟩⟩
    · obtain ⟨K', hfind', -, -⟩ :=
        find_key_block_miss_takes kc2 f2 key2 level2 wrmode2 wf2 hu2 hmiss2 h0
      rw [hfind] at hfind'
      have hv : v = (take_unused_block kc2).1 := by
        have := Option.some.inj hfind'
        have := congrArg Prod.fst this
        have := Option.some.inj this
        exact congrArg Prod.fst this
      obtain ⟨b', fb, bu, htake, hbl, -⟩ := take_unused_block_spec kc2 wf2.cnt h0
      rw [htake] at hv
      have hvb : v = b' := hv
      refine ⟨?_, ?_⟩
      · intro hge
        cases hfl : kc2.free_block_list with
        | nil => rfl
        | cons x rest =>
          exfalso
          have ht : take_unused_block kc2 = (x, { kc2 with free_block_list := rest }) := by
            unfold take_unused_block
            rw [hfl]
          rw [ht] at htake
          have hx : x = b' := congrArg Prod.fst htake
          have hmem : x ∈ kc2.free_block_list := by rw [hfl]; exact List.mem_cons_self _ _
          have := (wf2.cnt.free_blocks x hmem).2
          rw [hx, ← hvb] at this
          omega
      · intro hmem
        exfalso
        have := ((wf2.ring.iff v).1 hmem).1
        rw [hvb] at this
        exact this hbl

/-- Witness of C21: the empty cache of 8 blocks of 1024 bytes after a
`find_key_block` for page 0 of file 1, which takes block 0 and hash link 0, and
the `remove_reader` of the caller. -/
theorem free_list_is_stack_witness :
    ∃ K, find_key_block (empty_cache 8 1024 16 16 8 8 (one_file 1 100000)) 1 0 8 false =
        some (some (0, PAGE_TO_BE_READ), K) ∧
      ∃ kc, free_block (set_hash_link K 0 { K.hash_link_root 0 with requests := 0 }) 0 = some kc ∧
        kc.free_block_list = [0] ∧
        ∀ f key level wrmode, not_cached kc f key →
          ∃ K', find_key_block kc f key level wrmode = some (some (0, PAGE_TO_BE_READ), K') ∧
            K'.free_block_list = [] := by
  have wf0 := empty_cache_wf 8 1024 16 16 8 8 (one_file 1 100000) (by decide) (by decide)
    (by decide)
  have hu0 : usable (empty_cache 8 1024 16 16 8 8 (one_file 1 100000)) := ⟨rfl, rfl, rfl⟩
  have ev : (find_key_block (empty_cache 8 1024 16 16 8 8 (one_file 1 100000)) 1 0 8 false).map
      (fun q => (q.1, (q.2.block_root 0).hash_link, q.2.free_block_list)) =
      some (some (0, PAGE_TO_BE_READ), some 0, []) := rfl
  rcases find_key_block_spec _ 1 0 8 false wf0 hu0 (by decide) with
    ⟨hnone, -⟩ | ⟨b, h, st, K, hfind, fd⟩
  · rw [hnone] at ev
    cases ev
  · rw [hfind, Option.map_some'] at ev
    have ev' := Option.some.inj ev
    have e1 : (b, st) = (0, PAGE_TO_BE_READ) := Option.some.inj (congrArg Prod.fst ev')
    have eb : b = 0 := congrArg Prod.fst e1
    have es : st = PAGE_TO_BE_READ := congrArg Prod.snd e1
    subst eb
    subst es
    have e2 : (K.block_root 0).hash_link = some 0 := congrArg (fun r => r.2.1) ev'
    have eh : h = 0 := by
      have := fd.hl
      rw [e2] at this
      exact (Option.some.inj this).symm
    subst eh
    have e3 : K.free_block_list = [] := congrArg (fun r => r.2.2) ev'
    have hreq : ((set_hash_link K 0 { K.hash_link_root 0 with requests := 0 }).hash_link_root
        0).requests = 0 := by
      simp only [set_hash_link, Function.update_same]
    have key := (free_list_is_stack _ (empty_cache 8 1024 16 16 8 8 (one_file 1 100000)) 0 0 1 0 8
      false (fd.wf.set_link_requests 0 0 fd.hl) (usable_of_config fd.config hu0) fd.hl hreq
      (fd.held wf0).1 wf0 hu0 (fun x hx => absurd rfl hx)).1
    have e4 : (set_hash_link K 0 { K.hash_link_root 0 with requests := 0 }).free_block_list = [] :=
      e3
    rw [e4] at key
    exact ⟨K, hfind, key⟩

set_option maxRecDepth 100000 in
/-- C25, the failing input: on the cache of 8 blocks over a file store on
which every `my_pwrite` fails, a write that stays in the cache makes block 0
dirty; the flush of type `FLUSH_KEEP` that follows returns 1 and leaves block 0
in use (with its hash link and `BLOCK_IN_USE`), with `BLOCK_ERROR`, without
requests, and neither in the LRU ring nor on the free list. -/
theorem flush_keep_error_block_lost :
    ((init_key_cache lp64 { disk := failing_disk } 1024 11178 50 300).bind fun r =>
      (key_cache_write r.2 1 512 8 (List.replicate 256 7) true).bind fun w =>
        (flush_key_blocks w.2 1 FLUSH_KEEP true).map fun q =>
          (r.1, w.1, q.1, (q.2.block_root 0).hash_link, (q.2.block_root 0).requests,
            (q.2.block_root 0).status.in_use, (q.2.block_root 0).status.error,
            q.2.used_ring, q.2.free_block_list)) =
      some (8, false, true, some 0, 0, true, true, [], []) := by
  rfl

set_option maxRecDepth 1000000 in
/-- C29, the failing input: the cache of 8 blocks is set up with division
limit 1 and age threshold 13 (so `min_warm_blocks = 1` and the age threshold
is 1 tick); after reads of pages 0 to 7 of file 1 and then of pages 0, 1, 0
again, all with `init_hits_left = 0`, no block is unused and the block at the
head of the LRU ring (`used_last->next_used`) is block 3, which is
`BLOCK_HOT`; the `find_key_block` for page 8 takes block 3 for eviction. -/
theorem hot_block_evicted :
    ((init_key_cache lp64 { disk := one_file 1 100000 } 1024 11178 1 13).bind fun r =>
      (run_ops r.2 ([0, 1, 2, 3, 4, 5, 6, 7, 0, 1, 0].map
          fun k => CACHE_OP.read 1 (k * 1024) 0 (fun _ => 0) 4)).bind
        fun k => (find_key_block k 1 8192 0 false).map fun q =>
          (r.1, k.blocks_unused, k.used_ring, (k.block_root 3).temperature, q.1)) =
    some (8, 0, [3, 4, 5, 6, 7, 0, 2, 1], BLOCK_HOT, some (3, PAGE_TO_BE_READ)) := by
  rfl

set_option maxRecDepth 100000 in
/-- C30, the failing input: on the cache of 8 blocks, after a read of page 0
of file 1 block 0 is in use without requests and linked in the LRU ring, and
its temperature is `BLOCK_COLD`. -/
theorem cold_block_in_ring :
    ((init_key_cache lp64 { disk := one_file 1 100000 } 1024 11178 50 300).bind fun r =>
      (run_ops r.2 [.read 1 0 8 (fun _ => 0) 100]).map fun k =>
        (r.1, k.used_ring, (k.block_root 0).hash_link, (k.block_root 0).requests,
          (k.block_root 0).temperature, k.warm_blocks)) =
    some (8, [0], some 0, 0, BLOCK_COLD, 0) := by
  rfl

set_option maxRecDepth 100000 in
/-- C12 fails: on an empty cache of 8 blocks of 1024 bytes over a file of
100000 bytes, a buffered write of 256 bytes at position 512 succeeds and
leaves block 0 dirty with `offset = 512` but `length = 1024`, not 768: the
block has been read from the file first, and the flush that follows writes
512 bytes at position 512. -/
theorem buffered_write_counterexample :
    (key_cache_write (empty_cache 8 1024 16 16 8 8 (one_file 1 100000)) 1 512 8
        (List.replicate 256 7) true).bind
      (fun r => (flush_key_blocks r.2 1 FLUSH_KEEP true).map
        (fun q => (r.1, (r.2.block_root 0).status.changed, (r.2.block_root 0).offset,
          (r.2.block_root 0).length, q.1,
          q.2.disk.pwrites.map (fun w => (w.file, w.pos, w.data.length))))) =
    some (false, true, 512, 1024, false, [(1, 512, 512)]) := by
  rfl

/-- C12, amended: dirty region of a buffered write. In a cache between two
operations, let a `key_cache_write` with `dont_write` of `n` bytes, fewer than
a block, at the offset `o` within a block that is not cached, succeed. Then
the page is cached in a block `b` that has been taken from the pool or from
the head of the LRU ring; `b` is `BLOCK_CHANGED` with `offset = o` and
`length = max g (o + n)`, where `g` is the value `my_pread` returned when the
block was read from the file before the data went in; the bytes `[o, o + n)`
of its buffer are the data. If no other block of the file is dirty, a flush of
the file that follows (not `FLUSH_IGNORE_CHANGED`, and not switched off) calls
`my_pwrite` once, with the bytes `[o, length)` of the buffer at the file
position of the write. -/
theorem buffered_write_dirty_region (kc : KEY_CACHE) (f pos level : Nat) (data : List Nat)
    (kc' : KEY_CACHE) (inv : INV kc)
    (hn : data.length < kc.key_cache_block_size)
    (hone : pos % kc.key_cache_block_size + data.length ≤ kc.key_cache_block_size)
    (hmiss : not_cached kc f (pos - pos % kc.key_cache_block_size))
    (hw : key_cache_write kc f pos level data true = some (false, kc')) :
    ∃ b h D, cached_at kc' f (pos - pos % kc.key_cache_block_size) h ∧
      (kc'.hash_link_root h).block = some b ∧ taken kc b D ∧
      (kc'.block_root b).status.changed = true ∧
      (kc'.block_root b).offset = pos % kc.key_cache_block_size ∧
      (kc'.block_root b).length =
        max (my_pread D f
          (if pos % kc.key_cache_block_size + data.length ≥ kc.key_cache_block_size
            then pos % kc.key_cache_block_size else kc.key_cache_block_size)
          (pos - pos % kc.key_cache_block_size)).1
          (pos % kc.key_cache_block_size + data.length) ∧
      buffer_bytes (kc'.block_root b).buffer (pos % kc.key_cache_block_size) data.length =
        data ∧
      ((∀ x, ¬ dirty_of kc f x) →
        ∀ (type : flush_type) (malloc_ok res : Bool) (kc'' : KEY_CACHE),
          type ≠ FLUSH_IGNORE_CHANGED →
          (kc.my_disable_flush_key_blocks = false ∨ type ≠ FLUSH_KEEP) →
          flush_key_blocks kc' f type malloc_ok = some (res, kc'') →
          ∃ w, kc''.disk.pwrites = kc'.disk.pwrites ++ [w] ∧ w.file = f ∧ w.pos = pos ∧
            w.data = buffer_bytes (kc'.block_root b).buffer (pos % kc.key_cache_block_size)
              ((kc'.block_root b).length - pos % kc.key_cache_block_size)) := by
  obtain ⟨k', hc, hk'⟩ := key_cache_write_single kc f pos level data false kc' inv hone hw
  obtain ⟨wf, aux, hu⟩ := inv
  have hbs : 0 < kc.key_cache_block_size := wf.cnt.bs_pos
  have inv1 : INV (inc_counter_for_resize_op kc) := INV.resize_counter _ ⟨wf, aux, hu⟩
  obtain ⟨b, h, ok, -, hch, -, -, -, hin, -, hms⟩ :=
    key_cache_write_chunk_spec (inc_counter_for_resize_op kc) f pos level data
      (pos % kc.key_cache_block_size) inv1.1 inv1.2.1 inv1.2.2
      (Nat.sub_mod_eq_zero_of_mod_eq
        (by show pos % kc.key_cache_block_size =
              pos % kc.key_cache_block_size % kc.key_cache_block_size
            rw [Nat.mod_mod]))
      (Nat.mod_lt _ hbs) k' false hc
  obtain ⟨D, htk, hoff, hpart, -⟩ := hms hmiss
  have hmin : min data.length (kc.key_cache_block_size - pos % kc.key_cache_block_size) =
      data.length := Nat.min_eq_left (by omega)
  have hmin' : min data.length ((inc_counter_for_resize_op kc).key_cache_block_size -
      pos % kc.key_cache_block_size) = data.length := hmin
  rw [hmin'] at hin hpart
  obtain ⟨-, -, hlen, -⟩ := hpart (Or.inr hn)
  have ebs : (inc_counter_for_resize_op kc).key_cache_block_size = kc.key_cache_block_size := rfl
  rw [ebs] at hlen
  have wf' : WF kc' none [] := by
    rw [hk']
    exact @WF.congr_wf k' _ none [] ok.wf rfl rfl rfl rfl rfl rfl rfl rfl rfl rfl rfl rfl rfl rfl
      (fun _ => rfl) (fun _ => rfl) (fun _ => rfl) (fun _ => rfl) rfl (fun h => h)
  have eB : kc'.block_root = k'.block_root := by rw [hk']; rfl
  have eL : kc'.hash_link_root = k'.hash_link_root := by rw [hk']; rfl
  have hcached : cached_at kc' f (pos - pos % kc.key_cache_block_size) h := by
    unfold cached_at
    rw [eL]
    exact ok.cached
  have hblock : (kc'.hash_link_root h).block = some b := by rw [eL]; exact ok.block
  refine ⟨b, h, D, hcached, hblock, htk, by rw [eB]; exact hch, by rw [eB]; exact hoff, ?_, ?_,
    ?_⟩
  · rw [eB, hlen, Nat.add_comm data.length]
  · rw [eB]
    exact buffer_bytes_eq _ _ data hin
  · intro hclean type malloc_ok res kc'' ht hon hfl
    have hbl : (kc'.block_root b).hash_link = some h := wf'.hash.link_back h b hblock
    have hdb : dirty_of kc' f b := ⟨⟨h, hbl, hcached.2.1⟩, by rw [eB]; exact hch⟩
    have honly : ∀ x, dirty_of kc' f x → x = b := by
      intro x hx
      by_contra hxb
      obtain ⟨⟨y, hy, hyf⟩, hxc⟩ := hx
      rw [eB] at hy hxc
      rw [eL] at hyf
      obtain ⟨o1, -, -, -, o5, -⟩ := ok.others x hxb
      have hy0 : (kc.block_root x).hash_link = some y := by
        rw [o1] at hy
        exact hy
      have hk := ok.kept x y hxb hy0
      apply hclean x
      refine ⟨⟨y, hy0, ?_⟩, ?_⟩
      · rw [hk] at hyf
        exact hyf
      · rw [o5] at hxc
        exact hxc
    obtain ⟨w, hlog, h0, hh0, hwf, hwp, hwd⟩ := flush_single_dirty kc' kc'' f b type malloc_ok res
      wf' (by rw [hk']; exact (usable_of_config ok.config inv1.2.2).1)
      (by
        have : kc'.my_disable_flush_key_blocks = kc.my_disable_flush_key_blocks := by
          rw [hk']
          exact ok.config.2.2.2.2.2.2.2.2.2.2
        rw [this]
        exact hon) ht hdb honly hfl
    rw [hbl] at hh0
    have e0 : h0 = h := (Option.some.inj hh0).symm
    subst e0
    refine ⟨w, hlog, hwf, ?_, ?_⟩
    · rw [hwp, hcached.2.2, eB, hoff]
      exact Nat.sub_add_cancel (Nat.mod_le _ _)
    · rw [hwd, eB, hoff]

set_option maxRecDepth 100000 in
/-- Witness of C12: a buffered write of 256 bytes at position 512 of file 1 into
the cache of 8 blocks of 1024 bytes right after its set-up. -/
theorem buffered_write_dirty_region_witness :
    ∃ kc', key_cache_write (started_cache (one_file 1 100000) 100 300) 1 512 8
        (List.replicate 256 7) true = some (false, kc') ∧
      ∃ b h D, cached_at kc' 1 0 h ∧ (kc'.hash_link_root h).block = some b ∧
        taken (started_cache (one_file 1 100000) 100 300) b D ∧
        (kc'.block_root b).status.changed = true ∧ (kc'.block_root b).offset = 512 ∧
        (kc'.block_root b).length = max (my_pread D 1 1024 0).1 768 ∧
        buffer_bytes (kc'.block_root b).buffer 512 256 = List.replicate 256 7 ∧
        ((∀ x, ¬ dirty_of (started_cache (one_file 1 100000) 100 300) 1 x) →
          ∀ (type : flush_type) (malloc_ok res : Bool) (kc'' : KEY_CACHE),
            type ≠ FLUSH_IGNORE_CHANGED →
            ((started_cache (one_file 1 100000) 100 300).my_disable_flush_key_blocks = false ∨
              type ≠ FLUSH_KEEP) →
            flush_key_blocks kc' 1 type malloc_ok = some (res, kc'') →
            ∃ w, kc''.disk.pwrites = kc'.disk.pwrites ++ [w] ∧ w.file = 1 ∧ w.pos = 512 ∧
              w.data = buffer_bytes (kc'.block_root b).buffer 512
                ((kc'.block_root b).length - 512)) := by
  refine ⟨_, rfl, ?_⟩
  exact buffered_write_dirty_region (started_cache (one_file 1 100000) 100 300) 1 512 8
    (List.replicate 256 7) _
    (started_inv lp64 { disk := one_file 1 100000 } 1024 11178 100 300 _
      (started_cache_ok _ _ _))
    (by decide) (by decide) (fun h hb => absurd rfl hb) rfl

set_option maxRecDepth 1000000 in
/-- C13 fails: in the cache of 8 blocks of 1024 bytes, set up with an age
threshold of 1 percent, an insert of 9 blocks of file 1 leaves the pages at
1024 to 8192 cached; the same insert done once more leaves the pages at 0 to
5120, 7168 and 8192 cached: the page at 6144 has gone and the page at 0 is
back. -/
theorem insert_twice_counterexample :
    (key_cache_insert (started_cache (one_file 1 100000) 100 1) 1 0 3
        (List.replicate 9216 7)).bind
      (fun r => (key_cache_insert r.2 1 0 3 (List.replicate 9216 7)).map
        (fun q => (r.1, q.1,
          (List.range 8).map (fun b =>
            (r.2.block_root b).hash_link.map (fun h => (r.2.hash_link_root h).diskpos)),
          (List.range 8).map (fun b =>
            (q.2.block_root b).hash_link.map (fun h => (q.2.hash_link_root h).diskpos))))) =
    some (false, false,
      [some 8192, some 1024, some 2048, some 3072, some 4096, some 5120, some 6144, some 7168],
      [some 1024, some 0, some 2048, some 3072, some 4096, some 5120, some 8192, some 7168]) := by
  decide!

/-- C13, amended: insert twice. In a cache between two operations, let
`key_cache_insert` have just returned 0 for a range `(f, pos, n)`, and let the
range lie within one cache block, or let the page of every byte of it still be
cached when the insert returns. Then an insert of `n` bytes at the same place
that follows, with the same data or other data, returns 0 and leaves every
block with its page, its buffer, its length, its dirty region and its status,
every hash link as it is, and the file store as it is: the set of cached keys
and the contents of the blocks are those after the first insert, and the blocks
that hold the pages are not modified. -/
theorem insert_again_while_cached (kc : KEY_CACHE) (f pos level : Nat) (buff buff2 : List Nat)
    (kc1 : KEY_CACHE) (inv : INV kc) (hlen : buff2.length = buff.length)
    (h1 : key_cache_insert kc f pos level buff = some (false, kc1))
    (hot : pos % kc.key_cache_block_size + buff.length ≤ kc.key_cache_block_size ∨
      ∀ i, i < buff.length →
        ∃ h, cached_at kc1 f (pos + i - (pos + i) % kc.key_cache_block_size) h) :
    ∃ kc2, key_cache_insert kc1 f pos level buff2 = some (false, kc2) ∧
      same_pages kc1 kc2 := by
  obtain ⟨wf, aux, hu⟩ := inv
  have hbs : 0 < kc.key_cache_block_size := wf.cnt.bs_pos
  have inv0 : INV (inc_counter_for_resize_op kc) := INV.resize_counter _ ⟨wf, aux, hu⟩
  unfold key_cache_insert at h1
  rw [if_pos hu.1, if_neg (by rw [hu.2.1, hu.2.2]; simp)] at h1
  cases hl : key_cache_insert_loop (buff.length + 1) (inc_counter_for_resize_op kc) f pos level
      buff (pos % kc.key_cache_block_size) with
  | none =>
    rw [hl] at h1
    cases h1
  | some c =>
    rw [hl, Option.map_some'] at h1
    obtain ⟨e1, k1⟩ := c
    have e := Option.some.inj h1
    have ee : e1 = false := congrArg Prod.fst e
    have ek : dec_counter_for_resize_op k1 = kc1 := congrArg Prod.snd e
    subst ee
    obtain ⟨w1, a1, c1, s1, -, single⟩ := key_cache_insert_loop_healthy _ _ f pos level buff _ k1
      inv0.1 inv0.2.1 inv0.2.2 rfl hl
    have ebs : k1.key_cache_block_size = kc.key_cache_block_size := c1.2.2.2.2.1
    have hu1 : usable k1 := usable_of_config c1 inv0.2.2
    have inv1 : INV kc1 := by
      rw [← ek]
      exact INV.resize_counter _ ⟨w1, a1, hu1⟩
    have inv2 : INV (inc_counter_for_resize_op kc1) := INV.resize_counter _ inv1
    have sp1 : same_pages k1 (inc_counter_for_resize_op kc1) := by
      rw [← ek]
      exact ⟨⟨rfl, rfl, rfl, rfl, rfl, rfl, rfl, rfl, rfl, rfl, rfl⟩,
        fun _ => ⟨rfl, rfl, rfl, rfl, rfl, rfl⟩, rfl, rfl⟩
    have ebs2 : (inc_counter_for_resize_op kc1).key_cache_block_size =
        kc.key_cache_block_size := by
      rw [← ek]
      exact ebs
    have ebs1 : kc1.key_cache_block_size = kc.key_cache_block_size := ebs2
    have hsv2 : ∀ j, j < buff2.length →
        healthy (inc_counter_for_resize_op kc1) f (pos + j) :=
      fun j hj => healthy_of_same_pages sp1 f _ (s1 j (by rw [← hlen]; exact hj))
    have hot2 : ∀ i, i < buff2.length →
        ∃ h, cached_at (inc_counter_for_resize_op kc1) f
          (pos + i - (pos + i) % (inc_counter_for_resize_op kc1).key_cache_block_size) h := by
      intro i hi
      rw [hlen] at hi
      rw [ebs2]
      by_cases hs : pos % kc.key_cache_block_size + buff.length ≤ kc.key_cache_block_size
      · obtain ⟨h, b, hc, -⟩ := single (by
          show buff.length ≤ kc.key_cache_block_size - pos % kc.key_cache_block_size
          omega)
        obtain ⟨-, m2⟩ := mod_add_of_lt pos i kc.key_cache_block_size (by omega)
        rw [m2]
        exact ⟨h, (cached_at_of_same_pages sp1 f _ h).2 hc⟩
      · rcases hot with hs' | hot
        · exact absurd hs' hs
        · obtain ⟨h, hc⟩ := hot i hi
          exact ⟨h, hc⟩
    have hcur2 : ∃ h b, cached_at (inc_counter_for_resize_op kc1) f
          (pos - pos % kc1.key_cache_block_size) h ∧
        ((inc_counter_for_resize_op kc1).hash_link_root h).block = some b ∧
        ((inc_counter_for_resize_op kc1).block_root b).status.error = false := by
      rw [ebs1]
      by_cases hs : pos % kc.key_cache_block_size + buff.length ≤ kc.key_cache_block_size
      · obtain ⟨h, b, hc, hb, he⟩ := single (by
          show buff.length ≤ kc.key_cache_block_size - pos % kc.key_cache_block_size
          omega)
        refine ⟨h, b, (cached_at_of_same_pages sp1 f _ h).2 hc, ?_, ?_⟩
        · rw [sp1.2.2.1]; exact hb
        · rw [(sp1.2.1 b).2.2.2.2.1]; exact he
      · have hpos : 0 < buff2.length := by
          rw [hlen]
          rcases Nat.eq_zero_or_pos buff.length with e0 | e0
          · exfalso
            apply hs
            rw [e0]
            exact le_of_lt (Nat.mod_lt _ hbs)
          · exact e0
        obtain ⟨y, hy⟩ := hot2 0 hpos
        rw [Nat.add_zero, ebs2] at hy
        cases hx : ((inc_counter_for_resize_op kc1).hash_link_root y).block with
        | none => exact absurd hx hy.1
        | some x =>
          exact ⟨y, x, hy, hx, hsv2 0 hpos y x (by rw [Nat.add_zero, ebs2]; exact hy) hx⟩
    obtain ⟨kc2, hloop, w3, a3, sp2⟩ := key_cache_insert_loop_hot (buff2.length + 1)
      (inc_counter_for_resize_op kc1) f pos level buff2 (pos % kc1.key_cache_block_size)
      (Nat.lt_succ_self _) inv2.1 inv2.2.1 inv2.2.2 rfl hcur2 hot2 hsv2
    refine ⟨dec_counter_for_resize_op kc2, ?_, ?_⟩
    · unfold key_cache_insert
      rw [if_pos inv1.2.2.1, if_neg (by rw [inv1.2.2.2.1, inv1.2.2.2.2]; simp), hloop,
        Option.map_some']
    · have sp3 : same_pages (inc_counter_for_resize_op kc1) (dec_counter_for_resize_op kc2) :=
        same_pages_trans sp2 ⟨⟨rfl, rfl, rfl, rfl, rfl, rfl, rfl, rfl, rfl, rfl, rfl⟩,
          fun _ => ⟨rfl, rfl, rfl, rfl, rfl, rfl⟩, rfl, rfl⟩
      exact ⟨sp3.1, sp3.2.1, sp3.2.2.1, sp3.2.2.2⟩

set_option maxRecDepth 100000 in
/-- Witness of C13: an insert of 100 bytes at position 0 of file 1 into the
cache of 8 blocks of 1024 bytes right after its set-up, followed by an insert
of 100 other bytes at the same place. -/
theorem insert_again_while_cached_witness :
    ∃ kc1, key_cache_insert (started_cache (one_file 1 100000) 100 300) 1 0 3
        (List.replicate 100 7) = some (false, kc1) ∧
      ∃ kc2, key_cache_insert kc1 1 0 3 (List.replicate 100 9) = some (false, kc2) ∧
        same_pages kc1 kc2 := by
  refine ⟨_, rfl, ?_⟩
  exact insert_again_while_cached (started_cache (one_file 1 100000) 100 300) 1 0 3
    (List.replicate 100 7) (List.replicate 100 9) _
    (started_inv lp64 { disk := one_file 1 100000 } 1024 11178 100 300 _
      (started_cache_ok _ _ _))
    (by decide) rfl (Or.inl (by decide))

/-- C1: read after write. In a cache between two operations whose calls of
`my_pread` and `my_pwrite` do not fail, let `key_cache_write` with `dont_write`
return 0 for a buffer of `n > 0` bytes at position `p` of file `f`. Then the
`key_cache_read` of `n` bytes at `p` of `f` that comes next returns success,
and the bytes it gives to the caller are the bytes of the buffer. -/
theorem read_after_write (kc : KEY_CACHE) (f pos level level2 : Nat) (buf : List Nat)
    (out0 : Nat → Nat) (kc1 : KEY_CACHE) (inv : INV kc)
    (hrd : ∀ n, kc.disk.pread_forced n = none) (hw : ∀ n, kc.disk.pwrite_errno n = none)
    (hn : 0 < buf.length)
    (h : key_cache_write kc f pos level buf true = some (false, kc1)) :
    ∃ out kc2, key_cache_read kc1 f pos level2 out0 buf.length = some (false, out, kc2) ∧
      ∀ i, i < buf.length → out i = buf.getD i 0 := by
  obtain ⟨wf, aux, hu⟩ := inv
  have inv0 : INV (inc_counter_for_resize_op kc) := INV.resize_counter _ ⟨wf, aux, hu⟩
  unfold key_cache_write at h
  rw [if_neg (by simp)] at h
  unfold key_cache_write_cached at h
  rw [if_pos hu.1, if_neg (by rw [hu.2.2]; simp)] at h
  cases hl : key_cache_write_loop (buf.length + 1) (inc_counter_for_resize_op kc) f pos level
      buf (pos % kc.key_cache_block_size) true false with
  | none =>
    rw [hl] at h
    cases h
  | some c =>
    rw [hl, Option.map_some'] at h
    obtain ⟨e1, k1⟩ := c
    have e := Option.some.inj h
    have ee : e1 = false := congrArg Prod.fst e
    have ek : dec_counter_for_resize_op k1 = kc1 := congrArg Prod.snd e
    subst ee
    obtain ⟨w1, a1, c1, p1, p2, r1, s1, -⟩ := key_cache_write_loop_holds _ _ f pos level buf _ k1
      inv0.1 inv0.2.1 (bounded_reads.of_none hrd) inv0.2.2 rfl hl
    have hu1 : usable k1 := usable_of_config c1 inv0.2.2
    have inv1 : INV kc1 := by
      rw [← ek]
      exact INV.resize_counter _ ⟨w1, a1, hu1⟩
    have inv2 : INV (inc_counter_for_resize_op kc1) := INV.resize_counter _ inv1
    have hs2 : ∀ j, j < buf.length →
        holds (inc_counter_for_resize_op kc1) f (pos + j) (buf.getD (0 + j) 0) := by
      intro j hj
      rw [Nat.zero_add]
      refine holds_congr ?_ ?_ ?_ ?_ f _ _ (s1 j hj)
      all_goals rw [← ek]
      all_goals rfl
    obtain ⟨out, kc2, hloop, hby, -⟩ := key_cache_read_loop_holds (buf.length + 1)
      (inc_counter_for_resize_op kc1) f pos level2 out0 0 buf.length
      (pos % kc1.key_cache_block_size) (fun i => buf.getD i 0) (Nat.lt_succ_self _) hn inv2.1
      inv2.2.2 rfl
      (by
        intro n
        rw [← ek]
        show k1.disk.pread_forced n = none
        rw [p2]
        exact hrd n)
      (by
        intro n
        rw [← ek]
        show k1.disk.pwrite_errno n = none
        rw [p1]
        exact hw n)
      (Or.inr (by rw [← ek]; exact r1)) hs2
    refine ⟨out, dec_counter_for_resize_op kc2, ?_, ?_⟩
    · unfold key_cache_read
      rw [if_pos inv1.2.2.1, if_neg (by rw [inv1.2.2.2.2]; simp)]
      simp only []
      have e3 : (inc_counter_for_resize_op kc1).key_cache_block_size =
          kc1.key_cache_block_size := rfl
      rw [e3, hloop]
    · intro i hi
      have := hby i hi
      rw [Nat.zero_add] at this
      exact this

set_option maxRecDepth 100000 in
/-- Witness of C1: a buffered write of 256 bytes at position 512 of file 1 into
the cache of 8 blocks of 1024 bytes right after its set-up, and the read of
these bytes. -/
theorem read_after_write_witness :
    ∃ kc1, key_cache_write (started_cache (one_file 1 100000) 100 300) 1 512 8
        (List.replicate 256 7) true = some (false, kc1) ∧
      ∃ out kc2, key_cache_read kc1 1 512 8 (fun _ => 0) (List.replicate 256 7).length =
          some (false, out, kc2) ∧
        ∀ i, i < (List.replicate 256 7).length → out i = (List.replicate 256 7).getD i 0 := by
  refine ⟨_, rfl, ?_⟩
  exact read_after_write (started_cache (one_file 1 100000) 100 300) 1 512 8 8
    (List.replicate 256 7) (fun _ => 0) _
    (started_inv lp64 { disk := one_file 1 100000 } 1024 11178 100 300 _
      (started_cache_ok _ _ _))
    (fun _ => rfl) (fun _ => rfl) (by decide) rfl

set_option maxRecDepth 1000000 in
/-- C6 fails: in the cache of 8 blocks of 1024 bytes, set up with an age
threshold of 30 percent, nine reads of one block each, at the positions 0,
1024, up to 8192 of file 1, all return success; afterwards the eight blocks
hold the pages at 0, 1024, 8192, 3072, 4096, 5120, 6144 and 7168: the page at
2048, read third, has gone, and the page at 0, read first, is still there. -/
theorem lru_counterexample :
    (run_reads (started_cache (one_file 1 100000) 100 30)
        ((List.range 9).map fun n => ⟨1, n * 1024, 3, fun _ => 0, 1024⟩)).map
      (fun kc => (List.range 8).map fun b =>
        (kc.block_root b).hash_link.map fun h => (kc.hash_link_root h).diskpos) =
    some [some 0, some 1024, some 8192, some 3072, some 4096, some 5120, some 6144,
      some 7168] := by
  decide!

/-- C6, amended: LRU eviction. In a cache between two operations with all its
`B` blocks unused, whose `age_threshold` is at least `B` (what `init_key_cache`
sets for a parameter of 0, or of 100 percent and more), let the calls `rs` of
`key_cache_read`, each within one cache block, at pairwise distinct pages, be
made one after the other and let each return success, for any levels and any
`min_warm_blocks`. Then the pages cached afterwards are exactly the last `B`
pages read (all of them, if they are at most `B`): the pages read before these
are the ones evicted. -/
theorem lru_eviction (kc kc' : KEY_CACHE) (rs : List READ_CALL) (inv : INV kc)
    (hempty : kc.blocks_unused = nblocks kc) (hage : nblocks kc ≤ kc.age_threshold)
    (hsingle : ∀ r, r ∈ rs →
      r.filepos % kc.key_cache_block_size + r.length ≤ kc.key_cache_block_size)
    (hdist : (rs.map (read_page kc.key_cache_block_size)).Nodup)
    (hrun : run_reads kc rs = some kc') :
    ∀ f key, (∃ h, cached_at kc' f key h) ↔
      (f, key) ∈ (rs.map (read_page kc.key_cache_block_size)).drop
        (rs.length - nblocks kc) := by
  have l0 : LRU kc (([] : List (Nat × Nat)).drop
      (([] : List (Nat × Nat)).length - nblocks kc)) := by
    rw [List.drop_nil]
    exact LRU.of_unused kc inv hempty hage
  have l1 := run_reads_lru (nblocks kc) kc.key_cache_block_size rs kc kc' [] rfl rfl l0 hsingle
    (by rw [List.nil_append]; exact hdist) hrun
  rw [List.nil_append, List.length_map] at l1
  intro f key
  exact l1.cached_iff f key

set_option maxRecDepth 1000000 in
/-- Witness of C6: nine reads of one block each, at the positions 0 to 8192 of
file 1, in the cache of 8 blocks of 1024 bytes set up with an age threshold of
0, which stands for the number of blocks. -/
theorem lru_eviction_witness :
    ∃ kc', run_reads (started_cache (one_file 1 100000) 100 0)
        ((List.range 9).map fun n => ⟨1, n * 1024, 3, fun _ => 0, 1024⟩) = some kc' ∧
      ∀ f key, (∃ h, cached_at kc' f key h) ↔
        (f, key) ∈ (((List.range 9).map fun n =>
            (⟨1, n * 1024, 3, fun _ => 0, 1024⟩ : READ_CALL)).map
          (read_page (started_cache (one_file 1 100000) 100 0).key_cache_block_size)).drop
        (((List.range 9).map fun n =>
            (⟨1, n * 1024, 3, fun _ => 0, 1024⟩ : READ_CALL)).length -
          nblocks (started_cache (one_file 1 100000) 100 0)) := by
  refine ⟨_, rfl, ?_⟩
  exact lru_eviction (started_cache (one_file 1 100000) 100 0) _
    ((List.range 9).map fun n => ⟨1, n * 1024, 3, fun _ => 0, 1024⟩)
    (started_inv lp64 { disk := one_file 1 100000 } 1024 11178 100 0 _
      (started_cache_ok _ _ _))
    rfl (by decide)
    (by
      intro r hr
      simp only [List.map, List.range, List.range.loop, List.mem_cons, List.mem_singleton,
        List.not_mem_nil, or_false] at hr
      rcases hr with e | e | e | e | e | e | e | e | e <;> rw [e] <;> decide)
    (by decide) rfl

set_option maxRecDepth 1000000 in
/-- C38, the failing input: in the cache of 8 blocks of 1024 bytes over a file
of 100 bytes, a write of 16 bytes at position 512 that is to stay in the cache
needs the first 512 bytes of the page, which the file does not have. The call
returns 1; afterwards no block has `BLOCK_CHANGED` and the chain of dirty
blocks is empty, and `blocks_changed` and `global_blocks_changed` are 1. -/
theorem write_error_leaks_blocks_changed :
    (key_cache_write (started_cache (one_file 1 100) 100 300) 1 512 3 (List.replicate 16 7)
        true).map
      (fun w => (w.1, w.2.blocks_changed, w.2.global_blocks_changed,
        (List.range 8).map (fun b => (w.2.block_root b).status.changed),
        w.2.changed_blocks (FILE_HASH 1), w.2.free_block_list, w.2.blocks_unused)) =
    some (true, 1, 1, [false, false, false, false, false, false, false, false], [], [0], 8) := by
  rfl

set_option maxRecDepth 1000000 in
/-- C40, the failing input: in the cache of 8 blocks of 1024 bytes over a file
of 50 bytes, a write of 100 bytes at position 0 that stays in the cache
returns 0 and leaves block 0 dirty, with the dirty bytes 0 to 100. The read of
200 bytes at position 0 that follows returns an error; afterwards no block
holds a page, block 0 is on the free list, no `my_pwrite` has been called and
the file has its 50 bytes. -/
theorem read_drops_dirty_block :
    ((key_cache_write (started_cache (one_file 1 50) 100 300) 1 0 3 (List.replicate 100 7)
        true).bind fun w =>
      (key_cache_read w.2 1 0 3 (fun _ => 0) 200).map fun r =>
        (w.1, (w.2.block_root 0).status.changed, (w.2.block_root 0).hash_link,
          (w.2.block_root 0).offset, (w.2.block_root 0).length, (w.2.block_root 0).buffer 99,
          r.1, (List.range 8).map (fun b => (r.2.2.block_root b).hash_link),
          r.2.2.free_block_list, r.2.2.disk.pwrites.length, r.2.2.disk.size 1)) =
    some (false, true, some 0, 0, 100, 7, true,
      [none, none, none, none, none, none, none, none], [0], 0, 50) := by
  rfl

/-- C33: the promotion rule of `unreg_request`, for a block `b` that is not in
the LRU ring. If the decremented `requests` is not 0 or the block has
`BLOCK_ERROR`, only `requests` changes and nothing is linked. Else the call
does to the state `K` what the ageing step at its end does, where `K` is this:
`hits_left` of `b` is one less, saturating at 0; `b` is in the ring and the
other blocks are in the ring as before; `last_hit_time` of `b` is the old
`keycache_time`, and `keycache_time` is one more. If the new `hits_left` is 0,
`at_end` is set and `warm_blocks > min_warm_blocks`, then `b` is `BLOCK_HOT`,
is linked directly behind the old `used_ins` and is the new `used_ins`,
`used_last` stays, and `warm_blocks` is one less if `b` was `BLOCK_WARM` and as
before if not. Otherwise `b` keeps its temperature, `warm_blocks` and
`used_ins` stay, `b` is linked directly behind the old `used_last` (it is what
`used_last->next_used` points to), and it is the new `used_last` if `at_end` is
set, while `used_last` stays if not. In an empty ring `b` becomes the only
block, and both pointers point to it. -/
theorem unreg_request_promotion (kc : KEY_CACHE) (b : Nat) (at_end : Bool)
    (hok : RING_OK kc.used_ring kc.used_ins) (hb : b ∉ kc.used_ring)
    (hw : kc.warm_blocks < 18446744073709551616) :
    ((dec32 (kc.block_root b).requests ≠ 0 ∨ (kc.block_root b).status.error = true) →
      unreg_request kc b at_end =
        some (set_block kc b
          { kc.block_root b with requests := dec32 (kc.block_root b).requests })) ∧
    ((dec32 (kc.block_root b).requests = 0 ∧ (kc.block_root b).status.error = false) →
      ∃ K, unreg_request kc b at_end = unreg_request_age K ∧
        K.keycache_time = kc.keycache_time + 1 ∧
        (K.block_root b).last_hit_time = kc.keycache_time ∧
        (K.block_root b).hits_left = (kc.block_root b).hits_left - 1 ∧
        (K.block_root b).requests = 0 ∧
        (∀ x, x ≠ b → K.block_root x = kc.block_root x) ∧
        b ∈ K.used_ring ∧ K.used_ring.erase b = kc.used_ring ∧
        (((kc.block_root b).hits_left ≤ 1 ∧ at_end = true ∧
            kc.warm_blocks > kc.min_warm_blocks) →
          (K.block_root b).temperature = BLOCK_HOT ∧ K.used_ins = some b ∧
          ring_prev K.used_ring b = (if kc.used_ring = [] then some b else kc.used_ins) ∧
          used_last K = (if kc.used_ring = [] then some b else used_last kc) ∧
          K.warm_blocks =
            (if (kc.block_root b).temperature = BLOCK_WARM then kc.warm_blocks - 1
             else kc.warm_blocks)) ∧
        (¬ ((kc.block_root b).hits_left ≤ 1 ∧ at_end = true ∧
            kc.warm_blocks > kc.min_warm_blocks) →
          (K.block_root b).temperature = (kc.block_root b).temperature ∧
          K.warm_blocks = kc.warm_blocks ∧
          K.used_ins = (if kc.used_ring = [] then some b else kc.used_ins) ∧
          ring_prev K.used_ring b = (if kc.used_ring = [] then some b else used_last kc) ∧
          used_last K =
            (if kc.used_ring = [] ∨ at_end = true then some b else used_last kc))) := by
  constructor
  · intro h
    unfold unreg_request
    simp only []
    rw [if_neg]
    rintro ⟨h1, h2⟩
    rcases h with h | h
    · exact h h1
    · rw [h2] at h
      cases h
  · rintro ⟨h1, h2⟩
    obtain ⟨k0, hk0⟩ : ∃ k0, k0 = set_block kc b
        { kc.block_root b with requests := dec32 (kc.block_root b).requests } := ⟨_, rfl⟩
    have e0 : k0.block_root b =
        { kc.block_root b with requests := dec32 (kc.block_root b).requests } := by
      rw [hk0]
      simp only [set_block, Function.update_same]
    have e0x : ∀ x, x ≠ b → k0.block_root x = kc.block_root x := by
      intro x hx
      rw [hk0]
      simp only [set_block, Function.update_noteq hx]
    have eR : k0.used_ring = kc.used_ring := by rw [hk0]; rfl
    have eI : k0.used_ins = kc.used_ins := by rw [hk0]; rfl
    have eT : k0.keycache_time = kc.keycache_time := by rw [hk0]; rfl
    have eW : k0.warm_blocks = kc.warm_blocks := by rw [hk0]; rfl
    have eM : k0.min_warm_blocks = kc.min_warm_blocks := by rw [hk0]; rfl
    have hok0 : RING_OK k0.used_ring k0.used_ins := by rw [eR, eI]; exact hok
    have hb0 : b ∉ k0.used_ring := by rw [eR]; exact hb
    have hun : unreg_request kc b at_end = unreg_request_age (unreg_request_link k0 b at_end) := by
      unfold unreg_request
      simp only []
      rw [if_pos ⟨h1, h2⟩, hk0]
    have hroot := unreg_request_link_root k0 b at_end
    have hwarm := unreg_request_link_warm k0 b at_end
    obtain ⟨hring, hins, htime⟩ := unreg_request_link_ring k0 b at_end
    obtain ⟨p1, p2, p3, p4, p5⟩ := link_block_place k0 b (unreg_hot k0 b at_end) at_end hok0 hb0
    have ehl : (k0.block_root b).hits_left = (kc.block_root b).hits_left := by rw [e0]
    have etemp : (k0.block_root b).temperature = (kc.block_root b).temperature := by rw [e0]
    have hhot : unreg_hot k0 b at_end = true ↔
        ((kc.block_root b).hits_left ≤ 1 ∧ at_end = true ∧
          kc.warm_blocks > kc.min_warm_blocks) := by
      unfold unreg_hot
      rw [decide_eq_true_iff, ehl, eW, eM]
      constructor
      · rintro ⟨a1, a2, a3⟩
        refine ⟨?_, a2, a3⟩
        split at a1 <;> omega
      · rintro ⟨a1, a2, a3⟩
        refine ⟨?_, a2, a3⟩
        split <;> omega
    refine ⟨unreg_request_link k0 b at_end, hun, ?_, ?_, ?_, ?_, ?_, ?_, ?_, ?_, ?_⟩
    · rw [htime, eT]
    · rw [hroot, Function.update_same]
      exact eT
    · rw [hroot, Function.update_same]
      show (if (k0.block_root b).hits_left ≠ 0 then (k0.block_root b).hits_left - 1
        else (k0.block_root b).hits_left) = _
      rw [ehl]
      split <;> omega
    · rw [hroot, Function.update_same]
      show (k0.block_root b).requests = 0
      rw [e0]
      exact h1
    · intro x hx
      rw [hroot, Function.update_noteq hx]
      exact e0x x hx
    · rw [hring]
      exact p1
    · rw [hring, p2, eR]
    · intro hh
      have hu := hhot.2 hh
      refine ⟨?_, ?_, ?_, ?_, ?_⟩
      · rw [hroot, Function.update_same]
        show (if unreg_hot k0 b at_end = true then BLOCK_HOT else _) = _
        rw [if_pos hu]
      · rw [hins, p4, eR, eI, hu]
        by_cases hr : kc.used_ring = []
        · rw [if_pos hr]
        · rw [if_neg hr, if_pos ⟨rfl, hh.2.1⟩]
      · rw [hring, p3, eR, eI, hu]
        by_cases hr : kc.used_ring = []
        · rw [if_pos hr, if_pos hr]
        · rw [if_neg hr, if_neg hr, if_pos rfl]
      · unfold used_last at p5 ⊢
        rw [hring, p5, eR, hu]
        by_cases hr : kc.used_ring = []
        · rw [if_pos hr, if_pos hr]
        · rw [if_neg hr, if_neg hr, if_neg (by simp)]
      · rw [hwarm, hu, etemp, eW]
        by_cases ht : (kc.block_root b).temperature = BLOCK_WARM
        · rw [if_pos ⟨rfl, ht⟩, if_pos ht]
          exact dec64_pos _ (by omega) (le_of_lt hw)
        · rw [if_neg (fun h => ht h.2), if_neg ht]
    · intro hh
      have hu : unreg_hot k0 b at_end = false := by
        cases hc : unreg_hot k0 b at_end with
        | false => rfl
        | true => exact absurd (hhot.1 hc) hh
      refine ⟨?_, ?_, ?_, ?_, ?_⟩
      · rw [hroot, Function.update_same]
        show (if unreg_hot k0 b at_end = true then BLOCK_HOT else _) = _
        rw [hu, if_neg (by simp), etemp]
      · rw [hwarm, hu, if_neg (by simp), eW]
      · rw [hins, p4, eR, eI, hu]
        by_cases hr : kc.used_ring = []
        · rw [if_pos hr, if_pos hr]
        · rw [if_neg hr, if_neg hr, if_neg (by simp)]
      · rw [hring, p3, eR, hu]
        by_cases hr : kc.used_ring = []
        · rw [if_pos hr, if_pos hr]
        · rw [if_neg hr, if_neg hr, if_neg (by simp)]
          unfold used_last
          rw [eR]
      · unfold used_last at p5 ⊢
        rw [hring, p5, eR, hu]
        by_cases hr : kc.used_ring = []
        · rw [if_pos hr, if_pos (Or.inl hr)]
        · rw [if_neg hr]
          cases at_end with
          | true => rw [if_pos ⟨rfl, rfl⟩, if_pos (Or.inr rfl)]
          | false => rw [if_neg (by simp), if_neg (by simp [hr])]

set_option maxRecDepth 1000000 in
/-- C34 fails: in the cache of 8 blocks of 1024 bytes, set up with an age
threshold of 30 percent (2 ticks), two reads have put the blocks 0 and 1 into
the LRU ring, with block 0 at `used_ins`, stamped 0. A request on block 1 is
registered and given back by `unreg_request` with `at_end` set. The ageing
step finds block 0 too old and makes it `BLOCK_WARM`; afterwards the ring, read
from `used_last->next_used`, is 0, 1: `used_last` is block 1, and block 0 is
the block behind it, the next victim. -/
theorem demotion_counterexample :
    ((run_reads (started_cache (one_file 1 100000) 100 30)
        [⟨1, 0, 3, fun _ => 0, 16⟩, ⟨1, 1024, 3, fun _ => 0, 16⟩]).bind fun kc =>
      (reg_requests kc 1 1).bind fun K =>
        (unreg_request K 1 true).map fun k =>
          (kc.used_ring, kc.used_ins, kc.age_threshold, kc.keycache_time,
            (kc.block_root 0).last_hit_time, (kc.block_root 0).temperature, K.used_ring,
            k.used_ring, used_last k, k.used_ins, (k.block_root 0).temperature,
            k.warm_blocks)) =
    some ([0, 1], some 0, 2, 2, 0, BLOCK_COLD, [0], [0, 1], some 1, some 1, BLOCK_WARM, 1) := by
  rfl

/-- C34, amended: the demotion check of `unreg_request`, for a block `b` that
is not in the LRU ring, whose last request is given back and which has no
`BLOCK_ERROR`. Let `K` be the cache after `b` has been linked and stamped. If
there is no block at `used_ins`, or the block there has
`keycache_time - last_hit_time` not above `age_threshold`, the call leaves `K`.
If the block `x` at `used_ins` has `keycache_time - last_hit_time` above
`age_threshold`, it is unlinked and linked again directly behind `used_last`,
at the beginning of the warm part: it is what `used_last->next_used` points
to, the next victim, the other blocks keep their order, and `x` is not
`used_last` unless it is the only block of the ring; `used_ins` moves to the
block that was before `x` in the ring; the temperature of `x` becomes
`BLOCK_WARM`, and `warm_blocks` is one more if `x` was not `BLOCK_WARM` and as
before if it was. -/
theorem unreg_request_demotion (kc : KEY_CACHE) (b : Nat) (at_end : Bool)
    (hok : RING_OK kc.used_ring kc.used_ins) (hb : b ∉ kc.used_ring)
    (h1 : dec32 (kc.block_root b).requests = 0)
    (h2 : (kc.block_root b).status.error = false) :
    ∃ K, K = unreg_request_link
        (set_block kc b { kc.block_root b with requests := dec32 (kc.block_root b).requests })
        b at_end ∧
      ((∀ x, K.used_ins = some x →
          ¬ (K.keycache_time - (K.block_root x).last_hit_time > K.age_threshold)) →
        unreg_request kc b at_end = some K) ∧
      (∀ x, K.used_ins = some x →
        K.keycache_time - (K.block_root x).last_hit_time > K.age_threshold →
        ∃ K', unreg_request kc b at_end = some K' ∧
          K'.used_ring = x :: K.used_ring.erase x ∧
          (K.used_ring ≠ [x] → used_last K' ≠ some x) ∧
          K'.used_ins = (if K.used_ring = [x] then some x else ring_prev K.used_ring x) ∧
          (K'.block_root x).temperature = BLOCK_WARM ∧
          K'.warm_blocks =
            (if (K.block_root x).temperature = BLOCK_WARM then K.warm_blocks
             else K.warm_blocks + 1) ∧
          K'.keycache_time = K.keycache_time ∧
          (∀ y, y ≠ x → K'.block_root y = K.block_root y) ∧
          (K'.block_root x).last_hit_time = (K.block_root x).last_hit_time) := by
  obtain ⟨k0, hk0⟩ : ∃ k0, k0 = set_block kc b
      { kc.block_root b with requests := dec32 (kc.block_root b).requests } := ⟨_, rfl⟩
  rw [← hk0]
  have hun : unreg_request kc b at_end = unreg_request_age (unreg_request_link k0 b at_end) := by
    unfold unreg_request
    simp only []
    rw [if_pos ⟨h1, h2⟩, hk0]
  have hok0 : RING_OK k0.used_ring k0.used_ins := by rw [hk0]; exact hok
  have hb0 : b ∉ k0.used_ring := by rw [hk0]; exact hb
  obtain ⟨br, ring, ins, w, hlink, hperm, hokK, -⟩ := unreg_request_link_spec k0 b at_end hok0 hb0
  have hokK' : RING_OK (unreg_request_link k0 b at_end).used_ring
      (unreg_request_link k0 b at_end).used_ins := by
    rw [hlink]
    exact hokK
  refine ⟨_, rfl, ?_, ?_⟩
  · intro h
    rw [hun]
    exact unreg_request_age_keep _ h
  · intro x hi hold
    obtain ⟨K', a1, a2, a3, a4, a5, a6, a7, a8, -⟩ :=
      unreg_request_age_demote (unreg_request_link k0 b at_end) x hokK' hi hold
    refine ⟨K', by rw [hun]; exact a1, a2, ?_, a3, a4, a5, a6, a7, a8⟩
    intro hne hl
    unfold used_last at hl
    rw [a2] at hl
    have hx : x ∈ (unreg_request_link k0 b at_end).used_ring := hokK'.2.1 x hi
    obtain ⟨y, -, hym⟩ := ring_prev_spec _ x hx hokK'.1 hne
    obtain ⟨z, zs, hz⟩ := List.exists_cons_of_ne_nil (List.ne_nil_of_mem hym)
    rw [hz, List.getLast?_cons_cons] at hl
    have hmem : x ∈ (unreg_request_link k0 b at_end).used_ring.erase x := by
      rw [hz]
      exact List.mem_of_getLast?_eq_some hl
    exact ((List.Nodup.mem_erase_iff hokK'.1).1 hmem).1 rfl

/-- C35: the eviction in `find_key_block`. In a usable cache between two
operations, let the page `(f, key)` have no hash link, let no block be unused,
and let `v` be the block behind `used_last` in the LRU ring, holding the page
of the hash link `old`. Then `find_key_block` returns `v` with
`PAGE_TO_BE_READ`. If `v` was `BLOCK_CHANGED`, exactly one `my_pwrite` has been
made: of the bytes `buffer[offset .. length)` of `v`, to the file of `old`, at
the position of `old` plus `offset`; if it was not, the file store is
untouched. Afterwards no hash link in the table has the key of `old`; `v`
belongs to a hash link keyed `(f, key)` that is in the bucket of `(f, key)` and
points back to `v`; `v` is in the clean chain of `f` and in no dirty chain; its
status has `BLOCK_IN_SWITCH`, `BLOCK_IN_FLUSH`, `BLOCK_IN_FLUSHWRITE`,
`BLOCK_REASSIGNED` and `BLOCK_CHANGED` clear; its `length` is 0 and its
`offset` is the block size. -/
theorem eviction_rekeys (kc : KEY_CACHE) (f key level v : Nat) (rest : List Nat)
    (wrmode : Bool) (wf : WF kc none []) (hu : usable kc) (hmiss : not_cached kc f key)
    (h0 : kc.blocks_unused = 0) (hring : kc.used_ring = v :: rest) :
    ∃ h old K,
      find_key_block kc f key level wrmode = some (some (v, PAGE_TO_BE_READ), K) ∧
      (kc.block_root v).hash_link = some old ∧
      ((kc.block_root v).status.changed = true →
        ∃ e, K.disk.pwrites = kc.disk.pwrites ++
          [⟨(kc.hash_link_root old).file,
            (kc.hash_link_root old).diskpos + (kc.block_root v).offset,
            buffer_bytes (kc.block_root v).buffer (kc.block_root v).offset
              ((kc.block_root v).length - (kc.block_root v).offset), e⟩]) ∧
      ((kc.block_root v).status.changed = false → K.disk = kc.disk) ∧
      (∀ i x, x ∈ K.hash_root i →
        ¬ ((K.hash_link_root x).file = (kc.hash_link_root old).file ∧
          (K.hash_link_root x).diskpos = (kc.hash_link_root old).diskpos)) ∧
      (K.block_root v).hash_link = some h ∧
      K.hash_link_root h = ⟨some v, f, key, 1⟩ ∧
      h ∈ K.hash_root (KEYCACHE_HASH kc f key) ∧
      v ∈ K.file_blocks (FILE_HASH f) ∧ (∀ i, v ∉ K.changed_blocks i) ∧
      (K.block_root v).status.in_switch = false ∧
      (K.block_root v).status.in_flush = false ∧
      (K.block_root v).status.in_flushwrite = false ∧
      (K.block_root v).status.reassigned = false ∧
      (K.block_root v).status.changed = false ∧
      (K.block_root v).length = 0 ∧
      (K.block_root v).offset = kc.key_cache_block_size := by
  obtain ⟨h, old, fh, hu', hfind, hhb, hh, -⟩ :=
    find_key_block_miss_evict kc f key level v rest wrmode wf hu hmiss h0 hring
  have hlo : (kc.hash_link_root old).block = some v := wf.hash.back v old hh
  have hne : old ≠ h := by
    intro e
    rw [e, hhb] at hlo
    cases hlo
  have hst : ∀ s : STATUS, s = BLOCK_ERROR ∨ s = BLOCK_IN_USE →
      s.in_switch = false ∧ s.in_flush = false ∧ s.in_flushwrite = false ∧
      s.reassigned = false ∧ s.changed = false := by
    intro s hs
    rcases hs with e | e <;> rw [e] <;> exact ⟨rfl, rfl, rfl, rfl, rfl⟩
  have hsv : (if (evict_error (linked_state kc f key h fh hu') v old).isSome then BLOCK_ERROR
      else BLOCK_IN_USE) = BLOCK_ERROR ∨
      (if (evict_error (linked_state kc f key h fh hu') v old).isSome then BLOCK_ERROR
      else BLOCK_IN_USE) = BLOCK_IN_USE := by
    split
    · exact Or.inl rfl
    · exact Or.inr rfl
  obtain ⟨s1, s2, s3, s4, s5⟩ := hst _ hsv
  refine ⟨h, old, _, hfind, hh, ?_, ?_, ?_, ?_, ?_, ?_, ?_, ?_, ?_, ?_, ?_, ?_, ?_, ?_, ?_⟩
  · intro hc
    refine ⟨(evict_pwrite kc v old).1, ?_⟩
    show (if ((linked_state kc f key h fh hu').block_root v).status.changed = true then
      (evict_pwrite (linked_state kc f key h fh hu') v old).2
      else (linked_state kc f key h fh hu').disk).pwrites = _
    rw [evict_pwrite_linked kc f key h v old fh hu' hne]
    have hc' : ((linked_state kc f key h fh hu').block_root v).status.changed = true := hc
    rw [if_pos hc']
    unfold evict_pwrite
    exact my_pwrite_log _ _ _ _
  · intro hc
    show (if ((linked_state kc f key h fh hu').block_root v).status.changed = true then
      (evict_pwrite (linked_state kc f key h fh hu') v old).2
      else (linked_state kc f key h fh hu').disk) = _
    have hc' : ¬ ((linked_state kc f key h fh hu').block_root v).status.changed = true := by
      show ¬ (kc.block_root v).status.changed = true
      rw [hc]
      simp
    rw [if_neg hc']
    rfl
  · intro i x hx hk
    have hx1 : x ∈ ((linked_state kc f key h fh hu').hash_root i).erase old := hx
    have hnd : ((linked_state kc f key h fh hu').hash_root i).Nodup := by
      show (Function.update kc.hash_root (KEYCACHE_HASH kc f key)
        (h :: kc.hash_root (KEYCACHE_HASH kc f key)) i).Nodup
      by_cases hi : i = KEYCACHE_HASH kc f key
      · rw [hi, Function.update_same]
        refine List.nodup_cons.2 ⟨?_, wf.hash.nodup _⟩
        intro hm
        exact ((wf.hash.iff _ h).1 hm).1 hhb
      · rw [Function.update_noteq hi]
        exact wf.hash.nodup _
    obtain ⟨hxo, hx2⟩ := (List.Nodup.mem_erase_iff hnd).1 hx1
    have hx3 : x ∈ Function.update kc.hash_root (KEYCACHE_HASH kc f key)
        (h :: kc.hash_root (KEYCACHE_HASH kc f key)) i := hx2
    by_cases hxh : x = h
    · -- the new hash link has the new key
      have e : (evicted_state (linked_state kc f key h fh hu') f level h v old).hash_link_root h
          = ⟨some v, f, key, 1⟩ := by
        simp only [evicted_state, linked_state, Function.update_noteq hne.symm,
          Function.update_same]
      rw [hxh, e] at hk
      exact hmiss old (by rw [hlo]; simp) ⟨hk.1.symm, hk.2.symm⟩
    · have hxk : x ∈ kc.hash_root i := by
        by_cases hi : i = KEYCACHE_HASH kc f key
        · rw [hi, Function.update_same] at hx3
          rcases List.mem_cons.1 hx3 with e | e
          · exact absurd e hxh
          · rw [hi]; exact e
        · rw [Function.update_noteq hi] at hx3
          exact hx3
      have e : (evicted_state (linked_state kc f key h fh hu') f level h v old).hash_link_root x
          = kc.hash_link_root x := by
        simp only [evicted_state, linked_state, Function.update_noteq hxo,
          Function.update_noteq hxh]
      rw [e] at hk
      exact hxo (wf.hash.uniq x old ((wf.hash.iff i x).1 hxk).1 (by rw [hlo]; simp) hk.1 hk.2)
  · simp only [evicted_state, Function.update_same]
  · simp only [evicted_state, linked_state, Function.update_noteq hne.symm,
      Function.update_same]
  · show h ∈ ((linked_state kc f key h fh hu').hash_root (KEYCACHE_HASH kc f key)).erase old
    have : h ∈ (linked_state kc f key h fh hu').hash_root (KEYCACHE_HASH kc f key) := by
      show h ∈ Function.update kc.hash_root (KEYCACHE_HASH kc f key)
        (h :: kc.hash_root (KEYCACHE_HASH kc f key)) (KEYCACHE_HASH kc f key)
      rw [Function.update_same]
      exact List.mem_cons_self _ _
    exact (List.mem_erase_of_ne hne.symm).2 this
  · simp only [evicted_state, Function.update_same]
    exact List.mem_cons_self _ _
  · intro i hm
    have hm1 : v ∈ (kc.changed_blocks i).erase v := hm
    exact ((List.Nodup.mem_erase_iff (wf.chain.changed_nodup i)).1 hm1).1 rfl
  · simp only [evicted_state, Function.update_same]
    exact s1
  · simp only [evicted_state, Function.update_same]
    exact s2
  · simp only [evicted_state, Function.update_same]
    exact s3
  · simp only [evicted_state, Function.update_same]
    exact s4
  · simp only [evicted_state, Function.update_same]
    exact s5
  · simp only [evicted_state, Function.update_same]
  · simp only [evicted_state, linked_state, Function.update_same]

set_option maxRecDepth 1000000 in
/-- Witness of C35: in the cache with 8 dirty blocks, a request for the ninth
page of file 1 evicts block 0, the block behind `used_last`. -/
theorem eviction_rekeys_witness :
    eight_dirty_blocks.blocks_unused = 0 ∧
    eight_dirty_blocks.used_ring = [0, 1, 2, 3, 4, 5, 6, 7] ∧
    (eight_dirty_blocks.block_root 0).status.changed = true ∧
    ∃ h K, find_key_block eight_dirty_blocks 1 8192 3 false =
        some (some (0, PAGE_TO_BE_READ), K) ∧
      (∃ bytes e, K.disk.pwrites = [⟨1, 0, bytes, e⟩] ∧ bytes.length = 1024 ∧
        bytes.take 16 = List.replicate 16 7) ∧
      K.hash_link_root h = ⟨some 0, 1, 8192, 1⟩ ∧
      (K.block_root 0).status.changed = false ∧ (K.block_root 0).length = 0 ∧
      (K.block_root 0).offset = 1024 := by
  have inv : INV eight_dirty_blocks :=
    reachable_inv lp64 { disk := one_file 1 100000 } 1024 11178 100 300
      (started_cache (one_file 1 100000) 100 300) eight_dirty_blocks
      ((List.range 8).map fun n => .write 1 (n * 1024) 3 (List.replicate 16 7) true)
      (started_cache_ok _ _ _) (by
        have hs : (run_ops (started_cache (one_file 1 100000) 100 300)
            ((List.range 8).map fun n =>
              .write 1 (n * 1024) 3 (List.replicate 16 7) true)).isSome = true := rfl
        unfold eight_dirty_blocks
        cases h : run_ops (started_cache (one_file 1 100000) 100 300)
            ((List.range 8).map fun n =>
              .write 1 (n * 1024) 3 (List.replicate 16 7) true) with
        | none => rw [h] at hs; cases hs
        | some k => rfl)
  have hold : (eight_dirty_blocks.block_root 0).hash_link = some 0 := rfl
  obtain ⟨h, old, K, h1, h2, h3, -, -, -, h7, -, -, -, -, -, -, -, h15, h16, h17⟩ :=
    eviction_rekeys eight_dirty_blocks 1 8192 3 0 [1, 2, 3, 4, 5, 6, 7] false inv.1 inv.2.2
      (not_cached_of_bucket _ 1 8192 inv.1.hash (by decide)) rfl rfl
  rw [hold] at h2
  cases h2
  obtain ⟨e, he⟩ := h3 rfl
  have e1 : eight_dirty_blocks.disk.pwrites = [] := rfl
  have e2 : (eight_dirty_blocks.hash_link_root 0).file = 1 := rfl
  have e3 : (eight_dirty_blocks.hash_link_root 0).diskpos +
      (eight_dirty_blocks.block_root 0).offset = 0 := rfl
  rw [e1, e2, e3] at he
  exact ⟨rfl, rfl, rfl, h, K, h1, ⟨_, e, he, rfl, rfl⟩, h7, h15, h16, h17⟩

/-- C39: the memory bound of `init_key_cache`, on a platform where
`ALIGN_SIZE` adds at most 7 and a pointer has at most 8 bytes, for blocks of
at least 512 bytes. For every `use_mem` the call returns: the loop that makes
`blocks` smaller ends before `blocks` passes below zero, in every round of the
allocation loop. When the call returns a positive count, this is `(int) B` for
the number `B` of blocks that it has set up (`blocks_unused`), `disk_blocks` is
`(int) B`, which is `B` when the first estimate of the number of blocks fits an
`int`, and
`ALIGN_SIZE(B * sizeof(BLOCK_LINK)) + ALIGN_SIZE(hash_links * sizeof(HASH_LINK))
+ ALIGN_SIZE(sizeof(HASH_LINK*) * hash_entries) + B * key_cache_block_size`
is at most `use_mem`. -/
theorem init_key_cache_memory_bound (p : PLATFORM) (kc : KEY_CACHE) (bs um d a : Nat)
    (hA : ∀ x, p.ALIGN_SIZE x ≤ x + 7) (hp : p.sizeof_pointer ≤ 8) (hbs : 512 ≤ bs) :
    (∃ r, init_key_cache p kc bs um d a = some r) ∧
    ∀ n kc', init_key_cache p kc bs um d a = some (n, kc') → 0 < n →
      ∃ B : Nat, n = to_int B ∧ kc'.blocks_unused = B ∧ kc'.disk_blocks = to_int B ∧
        (um / (p.sizeof_BLOCK_LINK + 2 * p.sizeof_HASH_LINK + p.sizeof_pointer * 5 / 4 + bs)
          < 2147483648 → kc'.disk_blocks = (B : Int)) ∧
        p.ALIGN_SIZE (B * p.sizeof_BLOCK_LINK) +
          p.ALIGN_SIZE (kc'.hash_links * p.sizeof_HASH_LINK) +
          p.ALIGN_SIZE (p.sizeof_pointer * kc'.hash_entries) + B * bs ≤ um := by
  constructor
  · unfold init_key_cache
    split
    · exact ⟨_, rfl⟩
    · rw [if_neg (by omega)]
      simp only []
      split
      · rename_i h8
        obtain ⟨r, hr⟩ := init_alloc_total p bs um hA hp hbs _ 0 _ (Nat.lt_succ_self _)
          (by omega) (Nat.le_refl _)
        rw [hr]
        exact ⟨_, rfl⟩
      · exact ⟨_, rfl⟩
  · intro n kc' h hn
    obtain ⟨B, he, hl, hal, h8, hnB, hk⟩ := init_key_cache_success p kc bs um d a n kc' h hn
    obtain ⟨b, len, h6, hle, hhe, hhl, hfit, _⟩ :=
      init_alloc_spec p bs um _ _ _ _ _ _ _ (by omega) hal
    obtain ⟨hBb, hlen, hbound, _⟩ := init_fit_spec p bs um _ _ _ _ _ _ hfit
    have e1 : kc'.hash_entries = he := by rw [hk]; rfl
    have e2 : kc'.hash_links = hl := by rw [hk]; rfl
    have e3 : kc'.disk_blocks = to_int B := by rw [hk]; rfl
    have e4 : kc'.blocks_unused = B := by rw [hk]; rfl
    refine ⟨B, hnB, e4, e3, ?_, ?_⟩
    · intro hs
      rw [e3]
      exact to_int_small B (by omega)
    · rw [e1, e2, hhe, hhl]
      rw [hlen] at hbound
      exact hbound

/-- Witness of C39: the LP64 platform, blocks of 1024 bytes and 11178 bytes of
memory give 8 blocks. -/
theorem init_key_cache_memory_bound_witness :
    ∃ kc', init_key_cache lp64 {} 1024 11178 100 300 = some (8, kc') ∧
    ∃ B : Nat, (8 : Int) = to_int B ∧ kc'.blocks_unused = B ∧ kc'.disk_blocks = to_int B ∧
      (11178 / (lp64.sizeof_BLOCK_LINK + 2 * lp64.sizeof_HASH_LINK +
          lp64.sizeof_pointer * 5 / 4 + 1024) < 2147483648 → kc'.disk_blocks = (B : Int)) ∧
      lp64.ALIGN_SIZE (B * lp64.sizeof_BLOCK_LINK) +
        lp64.ALIGN_SIZE (kc'.hash_links * lp64.sizeof_HASH_LINK) +
        lp64.ALIGN_SIZE (lp64.sizeof_pointer * kc'.hash_entries) + B * 1024 ≤ 11178 :=
  ⟨_, rfl, (init_key_cache_memory_bound lp64 {} 1024 11178 100 300
    (fun x => Nat.div_mul_le_self (x + 7) 8) (by decide) (by decide)).2 8 _ rfl (by decide)⟩

set_option maxRecDepth 100000 in
/-- C11, the failing input: on the cache of 8 blocks over a file store on which
every `my_pread` fails, a `key_cache_read` of 100 bytes of a page that is not
cached returns success: `read_block` takes the value `MY_FILE_ERROR` that the
failed call returns for a length that is not below `min_length`, so block 0
gets `BLOCK_READ` and no `BLOCK_ERROR`, with `length = 4294967295`; the caller
is given the bytes of the buffer that nothing was read into (byte 5 of the
caller's buffer was 7 and is 0 now), and the block stays in the cache with its
hash link, in the LRU ring and not on the free list. -/
theorem read_failure_taken_for_success :
    (key_cache_read (started_cache failing_read_disk 100 300) 1 0 3 (fun _ => 7) 100).map
      (fun r => (r.1, r.2.1 5, (r.2.2.block_root 0).hash_link,
        (r.2.2.block_root 0).status.error, (r.2.2.block_root 0).status.read,
        (r.2.2.block_root 0).length, r.2.2.free_block_list, r.2.2.used_ring,
        r.2.2.disk.preads)) =
    some (false, 0, some 0, false, true, 4294967295, [], [0], 1) := by
  rfl

/-- C7: on a well-formed cache in use, a flush of type `FLUSH_RELEASE` returns
unless a block of the file carries `BLOCK_ERROR`, and it returns 0 if no call
of `my_pwrite` that it makes fails; and when it returns 0, no block of the file
is left: no hash link of the file has a block, the blocks the
file had are on the free list (pushed on top of it, each once) with status 0
and without a hash link, and `blocks_unused` has grown by their number. -/
theorem flush_release_frees (kc : KEY_CACHE) (file : Nat) (malloc_ok : Bool)
    (wf : WF kc none []) (hinit : kc.key_cache_inited = true) :
    (NOERR kc file →
      ∃ res kc', flush_key_blocks kc file FLUSH_RELEASE malloc_ok = some (res, kc') ∧
        (writes_succeed kc → res = false)) ∧
    ∀ kc', flush_key_blocks kc file FLUSH_RELEASE malloc_ok = some (false, kc') →
      (∀ x, ¬ of_file kc' file x) ∧
      (∀ l, (kc'.hash_link_root l).block ≠ none → (kc'.hash_link_root l).file ≠ file) ∧
      ∃ F : List Nat, F.Nodup ∧ (∀ x, x ∈ F ↔ of_file kc file x) ∧
        kc'.free_block_list = F ++ kc.free_block_list ∧
        kc'.blocks_unused = kc.blocks_unused + F.length ∧
        ∀ x, x ∈ F → (kc'.block_root x).status = {} ∧ (kc'.block_root x).hash_link = none := by
  constructor
  · intro hne
    rcases flush_key_blocks_spec kc file FLUSH_RELEASE malloc_ok wf hinit (Or.inr (by simp)) with
      ⟨-, -, hn⟩ | ⟨e, k, hk, hp⟩
    · exact absurd hne hn
    · refine ⟨_, k, hk, fun hq => ?_⟩
      rw [hp.no_error (flush_key_blocks_fixed kc file FLUSH_RELEASE malloc_ok _ hk) hq]
      rfl
  intro kc' h
  rcases flush_key_blocks_spec kc file FLUSH_RELEASE malloc_ok wf hinit (Or.inr (by simp)) with
    ⟨hnone, -, -⟩ | ⟨e, k, hk, P, F, W, s, he, hd, hr⟩
  · rw [hnone] at h; cases h
  · rw [hk] at h
    have e1 := Option.some.inj h
    have e2 : decide (e ≠ 0) = false := congrArg Prod.fst e1
    have e3 : k = kc' := congrArg Prod.snd e1
    have e0 : ¬ e ≠ 0 := by simpa using e2
    rw [e3] at s hr
    have hnof : ∀ x, ¬ of_file kc' file x := by
      rcases hr (by simp [releasing]) with h1 | h1
      · exact h1
      · exact absurd h1 e0
    have hgone : ∀ x, of_file kc file x → (kc'.block_root x).hash_link = none := by
      intro x hx
      by_contra hc
      exact hnof x (s.rel.of_file_now hx hc)
    refine ⟨hnof, ?_, F, ?_, ?_, s.rel.pool.1, s.rel.pool.2, ?_⟩
    · intro l hl hf
      obtain ⟨b, hb⟩ := Option.ne_none_iff_exists'.1 hl
      exact hnof b ⟨l, s.wf.hash.link_back l b hb, hf⟩
    · have := s.wf.cnt.free_blocks_nodup
      rw [s.rel.pool.1] at this
      exact this.of_append_left
    · intro x
      refine ⟨s.rel.pool_file x, fun hx => ?_⟩
      have hg := hgone x hx
      obtain ⟨l, hl, -⟩ := hx
      have hlt : x < kc'.blocks_used := by
        rw [s.rel.used]
        by_contra hc
        have := wf.cnt.unborn_blocks x (by omega)
        rw [hl] at this; cases this
      have hmem := s.wf.cnt.blocks_cover x hlt hg
      rw [s.rel.pool.1] at hmem
      rcases List.mem_append.1 hmem with h1 | h1
      · exact h1
      · have := (wf.cnt.free_blocks x h1).1
        rw [hl] at this; cases this
    · intro x hx
      have hg := hgone x (s.rel.pool_file x hx)
      exact ⟨s.wf.stat.free x hg, hg⟩

set_option maxRecDepth 100000 in
/-- C5 (amended), on a cache with two dirty blocks and a clean block of file 1
and a dirty block of file 129 in the same dirty chain: the flush of file 1
writes the two dirty blocks and returns 0, and what is left in the dirty chain
is the block of file 129. -/
theorem flush_leaves_no_dirty_witness :
    dirty_of mixed_cache 1 0 ∧ dirty_of mixed_cache 1 1 ∧
    mixed_cache.changed_blocks (FILE_HASH 1) = [3, 1, 0] ∧
    flush_key_blocks mixed_cache 1 FLUSH_KEEP true = some (false, mixed_kept) ∧
    mixed_kept.disk.pwrites.length = 2 ∧ mixed_kept.changed_blocks (FILE_HASH 1) = [3] ∧
    (mixed_kept.block_root 0).status.changed = false ∧
    (mixed_kept.block_root 1).status.changed = false ∧
    (∀ x, ¬ dirty_of mixed_kept 1 x) ∧
    (∀ x, x ∈ mixed_kept.changed_blocks (FILE_HASH 1) → ¬ of_file mixed_kept 1 x) :=
  ⟨mixed_cache_files.1, mixed_cache_files.2.1, by decide!, mixed_kept_eq, by decide!, by decide!,
    by decide!, by decide!,
    flush_leaves_no_dirty mixed_cache mixed_kept 1 FLUSH_KEEP true mixed_cache_inv.1 (by decide!)
      (Or.inl (by decide!)) mixed_kept_eq⟩

set_option maxRecDepth 100000 in
/-- C7, on a cache with two dirty blocks and a clean block of file 1 and two
blocks of file 129: the flush of file 1 returns 0 after two calls of
`my_pwrite`, the blocks 0, 1 and 2 that file 1 had are on the free list with
status 0 and without a hash link, and `blocks_unused` has grown from 3 to 6. -/
theorem flush_release_frees_witness :
    of_file mixed_cache 1 0 ∧ of_file mixed_cache 1 1 ∧ of_file mixed_cache 1 2 ∧
    mixed_cache.free_block_list = [] ∧ mixed_cache.blocks_unused = 3 ∧
    flush_key_blocks mixed_cache 1 FLUSH_RELEASE true = some (false, mixed_released) ∧
    mixed_released.free_block_list = [2, 1, 0] ∧ mixed_released.blocks_unused = 6 ∧
    mixed_released.disk.pwrites.length = 2 ∧
    (∀ x, ¬ of_file mixed_released 1 x) ∧
    (∀ l, (mixed_released.hash_link_root l).block ≠ none →
      (mixed_released.hash_link_root l).file ≠ 1) ∧
    ∃ F : List Nat, F.Nodup ∧ (∀ x, x ∈ F ↔ of_file mixed_cache 1 x) ∧
      mixed_released.free_block_list = F ++ mixed_cache.free_block_list ∧
      mixed_released.blocks_unused = mixed_cache.blocks_unused + F.length ∧
      ∀ x, x ∈ F → (mixed_released.block_root x).status = {} ∧
        (mixed_released.block_root x).hash_link = none :=
  ⟨mixed_cache_files.1.1, mixed_cache_files.2.1.1, mixed_cache_files.2.2.1, by decide!,
    by decide!, mixed_released_eq, by decide!, by decide!, by decide!,
    (flush_release_frees mixed_cache 1 true mixed_cache_inv.1 (by decide!)).2 _
      mixed_released_eq⟩

set_option maxRecDepth 100000 in
/-- C8, on a cache with two dirty blocks and a clean block of file 1: the
flush of type `FLUSH_IGNORE_CHANGED` returns 0 without a call of `my_pwrite`,
and the three blocks are free afterwards, the dirty ones unwritten. -/
theorem flush_ignore_changed_witness :
    dirty_of mixed_cache 1 0 ∧ dirty_of mixed_cache 1 1 ∧ of_file mixed_cache 1 2 ∧
    mixed_cache.disk.pwrites = [] ∧
    flush_key_blocks mixed_cache 1 FLUSH_IGNORE_CHANGED true = some (false, mixed_ignored) ∧
    mixed_ignored.free_block_list = [2, 0, 1] ∧
    mixed_ignored.disk.pwrites = mixed_cache.disk.pwrites ∧
    (∀ x, ¬ of_file mixed_ignored 1 x) ∧
    (∀ x, (mixed_ignored.block_root x).hash_link ≠ none →
      (mixed_ignored.block_root x).status.changed =
        (mixed_cache.block_root x).status.changed) :=
  ⟨mixed_cache_files.1, mixed_cache_files.2.1, mixed_cache_files.2.2.1, by decide!,
    mixed_ignored_eq, by decide!,
    ((flush_ignore_changed mixed_cache 1 true mixed_cache_inv.1 (by decide!)).1 false _
      mixed_ignored_eq).2⟩

set_option maxRecDepth 100000 in
/-- C10, on a cache with three blocks of file 1 and, in the same chains, a
dirty block 3 and a clean block 4 of file 129: the flush of type
`FLUSH_RELEASE` of file 1 calls `my_pwrite` twice, for file 1, and frees the
blocks of file 1; the blocks 3 and 4 are as they were, block 3 still dirty. -/
theorem flush_frame_witness :
    dirty_of mixed_cache 129 3 ∧ of_file mixed_cache 129 4 ∧
    FILE_HASH 129 = FILE_HASH 1 ∧
    flush_key_blocks mixed_cache 1 FLUSH_RELEASE true = some (false, mixed_released) ∧
    mixed_released.free_block_list = [2, 1, 0] ∧
    mixed_released.disk.pwrites.map (fun w => (w.file, w.pos)) = [(1, 0), (1, 1024)] ∧
    (mixed_released.block_root 3).status.changed = true ∧
    same_core (mixed_released.block_root 3) (mixed_cache.block_root 3) ∧
    same_core (mixed_released.block_root 4) (mixed_cache.block_root 4) ∧
    (∀ x, ¬ of_file mixed_cache 1 x →
      same_core (mixed_released.block_root x) (mixed_cache.block_root x) ∧
      ∀ l, (mixed_cache.block_root x).hash_link = some l →
        mixed_released.hash_link_root l = mixed_cache.hash_link_root l) ∧
    ∃ W, mixed_released.disk.pwrites = mixed_cache.disk.pwrites ++ W ∧
      ∀ w, w ∈ W → w.file = 1 := by
  have h := flush_frame mixed_cache _ 1 FLUSH_RELEASE true false mixed_cache_inv.1 (by decide!)
    mixed_released_eq
  exact ⟨mixed_cache_files.2.2.2.1, mixed_cache_files.2.2.2.2.1, by decide!, mixed_released_eq,
    by decide!, by decide!, by decide!, (h.1 3 mixed_cache_files.2.2.2.2.2.1).1,
    (h.1 4 mixed_cache_files.2.2.2.2.2.2).1, h.1, h.2⟩

set_option maxRecDepth 100000 in
/-- C33, on a promotion: block 0 is `BLOCK_WARM`, has `hits_left = 0` and is
held by one request, with `warm_blocks = 2` above `min_warm_blocks = 1`; when
the request is given back with `at_end` set, the block becomes `BLOCK_HOT` and
is linked behind the block 3 that was at `used_ins`, it is the new `used_ins`,
`used_last` stays block 2, `warm_blocks` drops to 1, and the block is stamped
with `keycache_time`, which goes from 4 to 5. -/
theorem unreg_request_promotion_witness :
    promotion_cache.used_ring = [1, 3, 2] ∧ promotion_cache.used_ins = some 3 ∧
    (promotion_cache.block_root 0).requests = 1 ∧
    (promotion_cache.block_root 0).hits_left = 0 ∧
    (promotion_cache.block_root 0).temperature = BLOCK_WARM ∧
    promotion_cache.warm_blocks = 2 ∧ promotion_cache.min_warm_blocks = 1 ∧
    promotion_cache.keycache_time = 4 ∧
    ∃ K, unreg_request promotion_cache 0 true = unreg_request_age K ∧
      (K.block_root 0).temperature = BLOCK_HOT ∧ K.used_ins = some 0 ∧
      ring_prev K.used_ring 0 = some 3 ∧ used_last K = some 2 ∧ K.warm_blocks = 1 ∧
      K.keycache_time = 5 ∧ (K.block_root 0).last_hit_time = 4 ∧
      (K.block_root 0).requests = 0 ∧ K.used_ring.erase 0 = [1, 3, 2] := by
  have er : promotion_cache.used_ring = [1, 3, 2] := by decide!
  have ei : promotion_cache.used_ins = some 3 := by decide!
  have et : promotion_cache.keycache_time = 4 := by decide!
  have ew : promotion_cache.warm_blocks = 2 := by decide!
  have em : (promotion_cache.block_root 0).temperature = BLOCK_WARM := by decide!
  obtain ⟨K, h1, h2, h3, -, h5, -, -, h8, h9, -⟩ :=
    (unreg_request_promotion promotion_cache 0 true
      (by rw [er, ei]; exact ⟨by decide, fun x h => by cases h; decide, fun _ h => by cases h⟩)
      (by rw [er]; decide) (by rw [ew]; decide)).2 ⟨by decide!, by decide!⟩
  obtain ⟨p1, p2, p3, p4, p5⟩ := h9 ⟨by decide!, rfl, by decide!⟩
  rw [if_neg (by rw [er]; simp)] at p3
  rw [if_neg (by rw [er]; simp)] at p4
  rw [if_pos em] at p5
  refine ⟨er, ei, by decide!, by decide!, em, ew, by decide!, et, K, h1, p1, p2, ?_, ?_, ?_, ?_,
    ?_, h5, ?_⟩
  · rw [p3, ei]
  · rw [p4]; decide!
  · rw [p5, ew]
  · rw [h2, et]
  · rw [h3, et]
  · rw [h8, er]

set_option maxRecDepth 100000 in
/-- C34 (amended), on a demotion: block 0 is alone in the LRU ring, at
`used_ins`, stamped 0, and block 1 is held; when the request on block 1 is
given back with `at_end` set, block 1 is linked and `keycache_time` becomes 3,
so block 0 is older than the `age_threshold` of 2: it is unlinked and linked
again directly behind `used_last`, where it is the next victim; `used_last` is
block 1, `used_ins` moves to block 1, block 0 becomes `BLOCK_WARM` and
`warm_blocks` goes from 0 to 1. -/
theorem unreg_request_demotion_witness :
    demotion_cache.used_ring = [0] ∧ demotion_cache.used_ins = some 0 ∧
    (demotion_cache.block_root 1).requests = 1 ∧
    (demotion_cache.block_root 0).last_hit_time = 0 ∧
    (demotion_cache.block_root 0).temperature = BLOCK_COLD ∧
    demotion_cache.age_threshold = 2 ∧ demotion_cache.keycache_time = 2 ∧
    demotion_cache.warm_blocks = 0 ∧
    ∃ K', unreg_request demotion_cache 1 true = some K' ∧
      K'.used_ring = [0, 1] ∧ used_last K' = some 1 ∧ used_last K' ≠ some 0 ∧
      K'.used_ins = some 1 ∧ (K'.block_root 0).temperature = BLOCK_WARM ∧
      K'.warm_blocks = 1 ∧ K'.keycache_time = 3 ∧ (K'.block_root 0).last_hit_time = 0 := by
  have er : demotion_cache.used_ring = [0] := by decide!
  have ei : demotion_cache.used_ins = some 0 := by decide!
  obtain ⟨K, hK, -, h3⟩ := unreg_request_demotion demotion_cache 1 true
    (by rw [er, ei]; exact ⟨by decide, fun x h => by cases h; decide, fun _ h => by cases h⟩)
    (by rw [er]; decide) (by decide!) (by decide!)
  have k1 : K.used_ins = some 0 := by rw [hK]; decide!
  have k2 : K.used_ring = [0, 1] := by rw [hK]; decide!
  have k3 : K.keycache_time = 3 := by rw [hK]; decide!
  have k4 : (K.block_root 0).last_hit_time = 0 := by rw [hK]; decide!
  have k5 : K.age_threshold = 2 := by rw [hK]; decide!
  have k6 : (K.block_root 0).temperature = BLOCK_COLD := by rw [hK]; decide!
  have k7 : K.warm_blocks = 0 := by rw [hK]; decide!
  obtain ⟨K', a1, a2, a3, a4, a5, a6, a7, -, a9⟩ := h3 0 k1 (by rw [k3, k4, k5]; decide)
  rw [k2] at a2 a3 a4
  rw [k6, k7] at a6
  have e2 : K'.used_ring = [0, 1] := by rw [a2]; decide
  have e3 : used_last K' = some 1 := by unfold used_last; rw [e2]; rfl
  refine ⟨er, ei, by decide!, by decide!, by decide!, by decide!, by decide!, by decide!, K', a1,
    e2, e3, a3 (by decide), ?_, a5, ?_, ?_, ?_⟩
  · rw [a4]; decide
  · rw [a6]; decide
  · rw [a7, k3]
  · rw [a9, k4]

/-- C15: on a well-formed cache, `flush_all_key_blocks` returns if the cache is
in order as between two operations and no block carries `BLOCK_ERROR`, and then
it returns 0 if no call of `my_pwrite` that it makes fails; and whenever it
returns 0, the cache is empty: every block descriptor has status 0, no request
and no hash link, every hash link has no request and no block, all clean and
dirty chains are empty, and `cache_empty` holds. -/
theorem flush_all_leaves_empty (kc : KEY_CACHE) (malloc_ok : Bool) (wf : WF kc none []) :
    (AUX kc → (∀ g, NOERR kc g) →
      ∃ res kc', flush_all_key_blocks kc malloc_ok = some (res, kc') ∧
        (writes_succeed kc → res = false)) ∧
    ∀ kc', flush_all_key_blocks kc malloc_ok = some (false, kc') →
      (∀ b, (kc'.block_root b).status = {} ∧ (kc'.block_root b).requests = 0 ∧
        (kc'.block_root b).hash_link = none) ∧
      (∀ l, (kc'.hash_link_root l).requests = 0 ∧ (kc'.hash_link_root l).block = none) ∧
      (∀ i, kc'.changed_blocks i = [] ∧ kc'.file_blocks i = []) ∧
      cache_empty kc' = true := by
  refine ⟨fun aux hne => flush_all_key_blocks_returns kc malloc_ok wf aux hne, ?_⟩
  intro kc' h
  obtain ⟨wf', hch⟩ := flush_all_loop_spec malloc_ok _ kc kc' wf h
  obtain ⟨h1, h2, h3⟩ := empty_of_chains kc' wf' hch
  exact ⟨h1, h2, h3, cache_empty_of kc' h1 h2⟩

set_option maxRecDepth 100000 in
/-- C15, on a cache that is not empty: `mixed_cache` holds five pages of the
files 1 and 129, which share their chains, three of them dirty, and no write
fails. The call of `flush_all_key_blocks` returns 0 after three calls of
`my_pwrite`, one for each dirty block, with all 8 blocks unused again, and the
cache is empty. -/
theorem flush_all_leaves_empty_witness :
    WF mixed_cache none [] ∧ AUX mixed_cache ∧ (∀ g, NOERR mixed_cache g) ∧
    writes_succeed mixed_cache ∧
    in_use_count mixed_cache = 5 ∧ dirty_count mixed_cache = 3 ∧
    mixed_cache.blocks_unused = 3 ∧ mixed_cache.disk.pwrites.length = 0 ∧
    flush_all_key_blocks mixed_cache true = some (false, mixed_flushed) ∧
    mixed_flushed.disk.pwrites.length = 3 ∧
    (∀ w, w ∈ mixed_flushed.disk.pwrites → w.error = none) ∧
    mixed_flushed.blocks_unused = 8 ∧ in_use_count mixed_flushed = 0 ∧
    (∃ res kc', flush_all_key_blocks mixed_cache true = some (res, kc') ∧
      (writes_succeed mixed_cache → res = false)) ∧
    (∀ b, (mixed_flushed.block_root b).status = {} ∧ (mixed_flushed.block_root b).requests = 0 ∧
      (mixed_flushed.block_root b).hash_link = none) ∧
    (∀ l, (mixed_flushed.hash_link_root l).requests = 0 ∧
      (mixed_flushed.hash_link_root l).block = none) ∧
    (∀ i, mixed_flushed.changed_blocks i = [] ∧ mixed_flushed.file_blocks i = []) ∧
    cache_empty mixed_flushed = true :=
  ⟨mixed_cache_inv.1, mixed_cache_inv.2.1, mixed_cache_noerr, fun _ _ => rfl,
    by decide!, by decide!, by decide!, by decide!, mixed_flushed_eq, by decide!, by decide!,
    by decide!, by decide!,
    (flush_all_leaves_empty mixed_cache true mixed_cache_inv.1).1 mixed_cache_inv.2.1
      mixed_cache_noerr,
    (flush_all_leaves_empty mixed_cache true mixed_cache_inv.1).2 _ mixed_flushed_eq⟩

end KeyCache
